import Mathlib

/-!
# Verification development for `xulaiguang/algorithms`

## Part 1: `libco/co.c`, a cooperative stackful coroutine runtime

The C program keeps its scheduler in globals: the registry `co_list[CO_MAX]`, the pointer
`current`, the `static int idx` of `co_start` and the `static int idx` of `co_next`, and one
heap block per started task (`struct co`).  The embedding makes that state an explicit record
`Sched` that every operation takes and returns.

* A pointer to a `struct co` is the identifier of its memory block (a natural number); the
  null pointer is `none`.  The memory is a map from identifiers to blocks, `none` for a block
  that is not allocated.  `main_co` is the statically allocated block with identifier `0`.
* `jmp_buf context` together with the frames on the task's own stack determines where the task
  continues when it is resumed.  `co_yield` has three call sites (the task's own code,
  `co_wait` line 95, `co_wrapper` line 119), so the saved context is one of three values.
  `setjmp` writes it, `longjmp` continues there.
* `assert` failures and undefined behaviour end the run: an operation returns `Except`, the
  error carrying the fault and the state in which it happened.
* The two scanning loops take a fuel of `CO_MAX` iterations; running out of it is the fault
  `diverges` (the loops cannot end once they have tried every slot).
-/

namespace Libco

/-- The registry capacity, `#define CO_MAX 128`. -/
def CO_MAX : Nat := 128

/-- The lifecycle states, `enum co_status`. -/
inductive co_status where
  | CO_NEW
  | CO_RUNNING
  | CO_WAITING
  | CO_DEAD
  deriving DecidableEq, Repr

/-- The saved execution context of a task (`jmp_buf context` and the frames below it): the call
of `co_yield` in which the task is suspended. -/
inductive Context where
  /-- The `jmp_buf` has never been written by `setjmp`. -/
  | unset
  /-- The task called `co_yield` from its entry function; resuming returns to that code. -/
  | user
  /-- The task called `co_yield` at line 95, inside `co_wait co`; resuming continues at line 98. -/
  | wait (co : Nat)
  /-- The task called `co_yield` at line 119, at the end of `co_wrapper`. -/
  | wrapper
  deriving DecidableEq, Repr

/-- The control block `struct co` (the contents of `stack` are not modelled). -/
structure co where
  name : String
  func : Nat
  arg : Nat
  status : co_status
  waiter : Option Nat
  context : Context
  list_idx : Nat
  deriving DecidableEq, Repr

/-- The scheduler state: the memory holding the control blocks and the four globals. -/
structure Sched where
  /-- The control blocks by block identifier; `none` for memory that is not allocated. -/
  heap : Nat → Option co
  /-- The global `current`. -/
  current : Nat
  /-- The global `co_list`; only the indices below `CO_MAX` are used. -/
  co_list : Nat → Option Nat
  /-- The `static int idx` of `co_start`. -/
  start_idx : Nat
  /-- The `static int idx` of `co_next`. -/
  next_idx : Nat

/-- The ways a run ends abnormally. -/
inductive Fault where
  /-- Line 88, `assert(co->waiter == NULL)`. -/
  | assert_waiter_null
  /-- Line 100, `assert(co->status == CO_DEAD)`. -/
  | assert_dead
  /-- Line 162, `assert(next->status == CO_NEW || next->status == CO_RUNNING)`. -/
  | assert_runnable
  /-- Control came back from the last `co_yield` of `co_wrapper` (line 119). -/
  | wrapper_returned
  /-- A block that is not allocated was dereferenced. -/
  | bad_pointer
  /-- The statically allocated `main_co` was passed to `free`. -/
  | bad_free
  /-- The function `longjmp` was called on a `jmp_buf` that `setjmp` never filled. -/
  | bad_context
  /-- A scanning loop did not end. -/
  | diverges
  deriving DecidableEq, Repr

/-- The result of running library code: the value, or the fault with the state it occurred in. -/
abbrev Run (α : Type) : Type := Except (Fault × Sched) α

/-- The identifier of the statically allocated block `main_co`. -/
def main_co_addr : Nat := 0

/-- The initial contents of `main_co` (lines 37-44); `func` is `(void *)-1`. -/
def main_co : co :=
  { name := "main", func := 2 ^ 64 - 1, arg := 0, status := co_status.CO_RUNNING,
    waiter := none, context := Context.unset, list_idx := 0 }

/-- The state at program start: `current = &main_co`, `co_list = { &main_co, NULL }`, both
cursors `0`. -/
def init : Sched :=
  { heap := fun p => if p = main_co_addr then some main_co else none
    current := main_co_addr
    co_list := fun i => if i = 0 then some main_co_addr else none
    start_idx := 0
    next_idx := 0 }

/-- Writing the block `c` at `p`. -/
def store (s : Sched) (p : Nat) (c : co) : Sched :=
  { s with heap := Function.update s.heap p (some c) }

/-- The loop of `co_start` (lines 56-60), entered with the loop variable `i`; the result is the
value of `i` when the loop is left, `none` when the fuel is used up. -/
def co_start_scan (co_list : Nat → Option Nat) (idx : Nat) : Nat → Nat → Option Nat
  | 0, _ => none
  | fuel + 1, i =>
    if i = idx then some i
    else if co_list i = none then some i
    else co_start_scan co_list idx fuel ((i + 1) % CO_MAX)

/-- The function `co_start` (lines 51-84).  `mem` is what `malloc` returns: `none` for `NULL`,
`some p` for a block `p`.  The result is the returned pointer and the new state. -/
def co_start (name : String) (func arg : Nat) (mem : Option Nat) (s : Sched) :
    Run (Option Nat × Sched) :=
  match co_start_scan s.co_list s.start_idx CO_MAX ((s.start_idx + 1) % CO_MAX) with
  | none => Except.error (Fault.diverges, s)
  | some i =>
    if i = s.start_idx ∧ s.co_list s.start_idx ≠ none then Except.ok (none, s)
    else
      let s1 := { s with start_idx := i }
      match mem with
      | none => Except.ok (none, s1)
      | some p =>
        let new : co :=
          { name := name, func := func, arg := arg, status := co_status.CO_NEW,
            waiter := none, context := Context.unset, list_idx := i }
        Except.ok (some p,
          { s1 with heap := Function.update s1.heap p (some new)
                    co_list := Function.update s1.co_list i (some p) })

/-- The loop of `co_next` (lines 129-136), entered with the loop variable `i`: `some (i, p)`
when it returns `co_list[i] = p` from inside the loop, `none` when the loop ends. -/
def co_next_scan (s : Sched) (idx : Nat) : Nat → Nat → Run (Option (Nat × Nat))
  | 0, _ => Except.error (Fault.diverges, s)
  | fuel + 1, i =>
    if i = idx then Except.ok none
    else
      match s.co_list i with
      | none => co_next_scan s idx fuel ((i + 1) % CO_MAX)
      | some p =>
        match s.heap p with
        | none => Except.error (Fault.bad_pointer, s)
        | some c =>
          if c.status = co_status.CO_NEW ∨ c.status = co_status.CO_RUNNING then
            Except.ok (some (i, p))
          else co_next_scan s idx fuel ((i + 1) % CO_MAX)

/-- The function `co_next` (lines 126-139): the selected task and the state with the cursor
moved. -/
def co_next (s : Sched) : Run (Nat × Sched) :=
  match co_next_scan s s.next_idx CO_MAX ((s.next_idx + 1) % CO_MAX) with
  | Except.error e => Except.error e
  | Except.ok (some (i, p)) => Except.ok (p, { s with next_idx := i })
  | Except.ok none => Except.ok (s.current, s)

/-- Lines 98-103 of `co_wait`: the assertion that `co` is dead, the deregistration and the
release of the block. -/
def co_wait_finish (co : Nat) (s : Sched) : Run Sched :=
  match s.heap co with
  | none => Except.error (Fault.bad_pointer, s)
  | some c =>
    if c.status ≠ co_status.CO_DEAD then Except.error (Fault.assert_dead, s)
    else
      let s1 := { s with co_list := Function.update s.co_list c.list_idx none }
      if co = main_co_addr then Except.error (Fault.bad_free, s1)
      else Except.ok { s1 with heap := Function.update s1.heap co none }

/-- The call `setjmp(current->context)` made from the call site `k` of `co_yield`, on the path
where it returns `0`: the context of the current task is overwritten. -/
def setjmp (k : Context) (s : Sched) : Run Sched :=
  match s.heap s.current with
  | none => Except.error (Fault.bad_pointer, s)
  | some c => Except.ok (store s s.current { c with context := k })

/-- The call `longjmp(current->context, 1)`: the current task continues after the `co_yield`
in which it was suspended, and runs library code until its own code has control again. -/
def longjmp (s : Sched) : Run Sched :=
  match s.heap s.current with
  | none => Except.error (Fault.bad_pointer, s)
  | some c =>
    match c.context with
    | Context.user => Except.ok s
    | Context.wait co => co_wait_finish co s
    | Context.wrapper => Except.error (Fault.wrapper_returned, s)
    | Context.unset => Except.error (Fault.bad_context, s)

/-- Lines 108-111 of `co_wrapper`: the status becomes `CO_RUNNING` and the entry function is
called. -/
def co_wrapper_enter (run : Nat) (s : Sched) : Run Sched :=
  match s.heap run with
  | none => Except.error (Fault.bad_pointer, s)
  | some c => Except.ok (store s run { c with status := co_status.CO_RUNNING })

/-- Lines 160-178 of `co_yield`, after `setjmp` has returned `0`: selection, the assertion, the
change of `current`, and the switch (by `longjmp`, or by `stack_switch_call` into
`co_wrapper`).  The assertion of line 169 compares two addresses and does not depend on the
scheduler state. -/
def co_yield_switch (s : Sched) : Run Sched :=
  match co_next s with
  | Except.error e => Except.error e
  | Except.ok (next, s2) =>
    match s2.heap next with
    | none => Except.error (Fault.bad_pointer, s2)
    | some n =>
      if n.status = co_status.CO_NEW ∨ n.status = co_status.CO_RUNNING then
        let s3 := { s2 with current := next }
        if n.status = co_status.CO_RUNNING then longjmp s3
        else co_wrapper_enter next s3
      else Except.error (Fault.assert_runnable, s2)

/-- The function `co_yield` (lines 155-179) called from the call site `k`.  The result is the
state in which the code of the task that was switched to has control again. -/
def co_yield (k : Context) (s : Sched) : Run Sched :=
  match setjmp k s with
  | Except.error e => Except.error e
  | Except.ok s1 => co_yield_switch s1

/-- Lines 88-93 of `co_wait` on the path that suspends: the caller becomes `CO_WAITING` and is
registered as the waiter of `co`. -/
def co_wait_suspend (co : Nat) (s : Sched) : Run Sched :=
  match s.heap s.current with
  | none => Except.error (Fault.bad_pointer, s)
  | some cur =>
    let s1 := store s s.current { cur with status := co_status.CO_WAITING }
    match s1.heap co with
    | none => Except.error (Fault.bad_pointer, s1)
    | some c => Except.ok (store s1 co { c with waiter := some s.current })

/-- The function `co_wait` (lines 86-104). -/
def co_wait (co : Nat) (s : Sched) : Run Sched :=
  match s.heap co with
  | none => Except.error (Fault.bad_pointer, s)
  | some c =>
    if c.waiter ≠ none then Except.error (Fault.assert_waiter_null, s)
    else if c.status ≠ co_status.CO_DEAD then
      match co_wait_suspend co s with
      | Except.error e => Except.error e
      | Except.ok s2 => co_yield (Context.wait co) s2
    else co_wait_finish co s

/-- Lines 112-116 of `co_wrapper`, after the entry function has returned: the task becomes
`CO_DEAD` and its waiter, if any, `CO_RUNNING`. -/
def co_wrapper_finish (run : Nat) (s : Sched) : Run Sched :=
  match s.heap run with
  | none => Except.error (Fault.bad_pointer, s)
  | some r =>
    let s1 := store s run { r with status := co_status.CO_DEAD }
    match r.waiter with
    | none => Except.ok s1
    | some w =>
      match s1.heap w with
      | none => Except.error (Fault.bad_pointer, s1)
      | some wc => Except.ok (store s1 w { wc with status := co_status.CO_RUNNING })

/-- Lines 112-119 of `co_wrapper`: the status updates and the last `co_yield`. -/
def co_wrapper_return (run : Nat) (s : Sched) : Run Sched :=
  match co_wrapper_finish run s with
  | Except.error e => Except.error e
  | Except.ok s2 => co_yield Context.wrapper s2

/-- What the code of the current task can do next. -/
inductive Op where
  /-- It calls `co_start(name, func, arg)` and `malloc` returns `mem`. -/
  | start (name : String) (func arg : Nat) (mem : Option Nat)
  /-- It calls `co_yield()`. -/
  | yield
  /-- It calls `co_wait(co)`. -/
  | wait (co : Nat)
  /-- Its entry function returns, into `co_wrapper`. -/
  | ret

/-- The effect of one operation of the current task, up to the point where the code of some
task has control again. -/
def exec : Op → Sched → Run Sched
  | Op.start name func arg mem, s =>
    match co_start name func arg mem s with
    | Except.error e => Except.error e
    | Except.ok (_, s1) => Except.ok s1
  | Op.yield, s => co_yield Context.user s
  | Op.wait co, s => co_wait co s
  | Op.ret, s => co_wrapper_return s.current s

/-- The operations a well-behaved program performs: `malloc` returns a block that is not
allocated, `co_wait` gets a handle that has not been released, and only a task run by
`co_wrapper` returns into it (the main task has no wrapper). -/
def Allowed (s : Sched) : Op → Prop
  | Op.start _ _ _ (some p) => s.heap p = none
  | Op.start _ _ _ none => True
  | Op.yield => True
  | Op.wait co => s.heap co ≠ none
  | Op.ret => s.current ≠ main_co_addr

/-- The scheduler states in which the code of a task has control, reachable from the start of
the program. -/
inductive Reachable : Sched → Prop where
  | init : Reachable init
  | step {s s1 : Sched} {op : Op} :
      Reachable s → Allowed s op → exec op s = Except.ok s1 → Reachable s1

/-- The state after a successful `co_start` that found slot `i` and got block `p`. -/
def started (name : String) (func arg : Nat) (p i : Nat) (s : Sched) : Sched :=
  { s with start_idx := i
           heap := Function.update s.heap p (some
             { name := name, func := func, arg := arg, status := co_status.CO_NEW,
               waiter := none, context := Context.unset, list_idx := i })
           co_list := Function.update s.co_list i (some p) }

/-- Consecutive calls of `co_start`, one per request `(name, func, arg, mem)`: the returned
pointers in order, and the final state. -/
def co_start_all : List (String × Nat × Nat × Option Nat) → Sched →
    Run (List (Option Nat) × Sched)
  | [], s => Except.ok ([], s)
  | (name, func, arg, mem) :: rest, s =>
    match co_start name func arg mem s with
    | Except.error e => Except.error e
    | Except.ok (r, s1) =>
      match co_start_all rest s1 with
      | Except.error e => Except.error e
      | Except.ok (rs, s2) => Except.ok (r :: rs, s2)

/-- The registry after `k` successful starts from the initial state. -/
def FilledTo (k : Nat) (s : Sched) : Prop :=
  s.start_idx = k ∧ (∀ i, i ≤ k → s.co_list i ≠ none) ∧ (∀ i, k < i → s.co_list i = none)

/-- The initial state with every registry slot pointing to the main task: an example of a
registry without an empty slot. -/
def full_registry : Sched := { init with co_list := fun _ => some main_co_addr }

/-- Slot `i` of the registry holds a task that `co_next` accepts: the slot is not empty and the
status of the task is `CO_NEW` or `CO_RUNNING`. -/
def slot_runnable (s : Sched) (i : Nat) : Bool :=
  match s.co_list i with
  | none => false
  | some p =>
    match s.heap p with
    | none => false
    | some c => decide (c.status = co_status.CO_NEW ∨ c.status = co_status.CO_RUNNING)

/-- Every pointer in the registry points to an allocated block. -/
def RegistryValid (s : Sched) : Prop :=
  ∀ i p, i < CO_MAX → s.co_list i = some p → s.heap p ≠ none

/-- The selection made by consecutive calls of `co_yield`: `n` times `next = co_next()`
followed by `current = next` (lines 160 and 163), the statuses staying as they are. The result
is the list of the selected tasks, in order. -/
def co_next_iter : Nat → Sched → Run (List Nat × Sched)
  | 0, s => Except.ok ([], s)
  | n + 1, s =>
    match co_next s with
    | Except.error e => Except.error e
    | Except.ok (p, s1) =>
      match co_next_iter n { s1 with current := p } with
      | Except.error e => Except.error e
      | Except.ok (ps, s2) => Except.ok (p :: ps, s2)

/-- The registry slots in cyclic order after slot `c`: `c+1, c+2, ...`, slot `c` last. -/
def cyclic_after (c : Nat) : List Nat :=
  (List.range' 1 CO_MAX).map (fun k => (c + k) % CO_MAX)

/-- The runnable slots at the offsets `d+1, ..., CO_MAX` from slot `c`. -/
def slots_from (s : Sched) (c d : Nat) : List Nat :=
  ((List.range' (d + 1) (CO_MAX - d)).map (fun k => (c + k) % CO_MAX)).filter (slot_runnable s)

/-- The state after main has started one task: two runnable tasks, in the slots 0 and 1. -/
def two_tasks : Sched := started "t" 1 0 1 1 init

/-- Every registry entry points to an allocated block that records the slot it is in. -/
def Registered (s : Sched) : Prop :=
  ∀ i p, i < CO_MAX → s.co_list i = some p → ∃ c, s.heap p = some c ∧ c.list_idx = i

/-- Every allocated block is in the registry, in the slot it records. -/
def Listed (s : Sched) : Prop :=
  ∀ p c, s.heap p = some c → c.list_idx < CO_MAX ∧ s.co_list c.list_idx = some p

/-- The block `main_co` is allocated, in slot `0`, named "main", and neither new nor dead. -/
def MainOK (s : Sched) : Prop :=
  ∃ c, s.heap main_co_addr = some c ∧ c.list_idx = 0 ∧ c.name = "main" ∧
    c.status ≠ co_status.CO_NEW ∧ c.status ≠ co_status.CO_DEAD

/-- A registered waiter `A` of `B` is suspended inside `co_wait B`: it is waiting while `B` is
not dead, and runnable once `B` is dead. -/
def WaiterOK (s : Sched) : Prop :=
  ∀ B b A, s.heap B = some b → b.waiter = some A →
    ∃ a, s.heap A = some a ∧ a.context = Context.wait B ∧
      ((a.status = co_status.CO_WAITING ∧ b.status ≠ co_status.CO_DEAD) ∨
       (a.status = co_status.CO_RUNNING ∧ b.status = co_status.CO_DEAD))

/-- The saved context of the suspended task `p` can be resumed: if `p` is `CO_RUNNING`, it is
suspended in its own code or inside `co_wait B` for a dead `B` whose waiter it is. -/
def SuspOK (s : Sched) (p : Nat) : Prop :=
  ∀ c, s.heap p = some c → c.status = co_status.CO_RUNNING →
    c.context = Context.user ∨
    ∃ B b, c.context = Context.wait B ∧ s.heap B = some b ∧
      b.status = co_status.CO_DEAD ∧ b.waiter = some p

/-- The part of the invariant that also holds inside `co_yield`. -/
structure Wf (s : Sched) : Prop where
  start_lt : s.start_idx < CO_MAX
  next_lt : s.next_idx < CO_MAX
  registered : Registered s
  listed : Listed s
  main : MainOK s
  waiter : WaiterOK s
  cur : ∃ c, s.heap s.current = some c ∧ c.list_idx = s.next_idx

/-- The invariant of the states in which the code of the current task has control. -/
structure Inv (s : Sched) : Prop where
  wf : Wf s
  running : ∀ c, s.heap s.current = some c → c.status = co_status.CO_RUNNING
  susp : ∀ p, p ≠ s.current → SuspOK s p
  not_waiter : ∀ B b, s.heap B = some b → b.waiter ≠ some s.current

/-- The invariant of the states inside `co_yield`, after `setjmp`: every task, the current one
included, has a saved context. -/
structure Susp (s : Sched) : Prop where
  wf : Wf s
  susp : ∀ p, SuspOK s p

/-- The state in which every allocated block `b` at `p` is replaced by `F p b`. -/
def heap_map (F : Nat → co → co) (s : Sched) : Sched :=
  { s with heap := fun p => (s.heap p).map (F p) }

/-- The change `setjmp` makes to the blocks when called from the call site `k`. -/
def savedF (k : Context) (s : Sched) (p : Nat) (b : co) : co :=
  { b with context := if p = s.current then k else b.context }

/-- The change lines 92-95 of `co_wait t` make to the blocks, `setjmp` included. -/
def waitF (t : Nat) (s : Sched) (p : Nat) (b : co) : co :=
  { b with status := if p = s.current then co_status.CO_WAITING else b.status
           waiter := if p = t then some s.current else b.waiter
           context := if p = s.current then Context.wait t else b.context }

/-- The change lines 112-119 of `co_wrapper` make to the blocks, `setjmp` included, when the
waiter field of the returning task is `w`. -/
def retF (w : Option Nat) (s : Sched) (p : Nat) (b : co) : co :=
  { b with status := if p = s.current then co_status.CO_DEAD
                     else if w = some p then co_status.CO_RUNNING else b.status
           context := if p = s.current then Context.wrapper else b.context }

/-- The state after lines 102-103 of `co_wait`: slot `i` emptied and block `B` released. -/
def released (B i : Nat) (s : Sched) : Sched :=
  { s with co_list := Function.update s.co_list i none
           heap := Function.update s.heap B none }

/-- The change the first lines of `co_wrapper` make to the blocks when task `N` is entered. -/
def enterF (N : Nat) (p : Nat) (b : co) : co :=
  { b with status := if p = N then co_status.CO_RUNNING else b.status }

/-- The state in which `co_yield` switches: the cursor at the slot of the selected task `N`,
and `N` current. -/
def switched (N i : Nat) (m : Sched) : Sched :=
  { m with next_idx := i, current := N }

instance Allowed.decidable (s : Sched) : (op : Op) → Decidable (Allowed s op)
  | Op.start _ _ _ (some p) => inferInstanceAs (Decidable (s.heap p = none))
  | Op.start _ _ _ none => inferInstanceAs (Decidable True)
  | Op.yield => inferInstanceAs (Decidable True)
  | Op.wait t => inferInstanceAs (Decidable (s.heap t ≠ none))
  | Op.ret => inferInstanceAs (Decidable (s.current ≠ main_co_addr))

/-- The state an operation leads to; the starting state when the operation fails. -/
def after (op : Op) (s : Sched) : Sched :=
  match exec op s with
  | Except.ok s1 => s1
  | Except.error _ => s

/-- Scenario state: main has started the task `T`, block `1`, in slot `1`. -/
def sc_started : Sched := after (Op.start "T" 1 0 (some 1)) init

/-- Scenario state: main has called `co_wait` on `T` and is suspended; `T` is running. -/
def sc_waiting : Sched := after (Op.wait 1) sc_started

/-- Task `A` is waiting and registered as the waiter of `B`. -/
def Pending (A B : Nat) (s : Sched) : Prop :=
  ∃ a b, s.heap A = some a ∧ a.status = co_status.CO_WAITING ∧
    s.heap B = some b ∧ b.waiter = some A

/-- Executions from `s` in which the entry function of task `B` does not return. -/
inductive StepsAvoiding (B : Nat) : Sched → Sched → Prop where
  | refl (s : Sched) : StepsAvoiding B s s
  | step {s s1 s2 : Sched} {op : Op} :
      StepsAvoiding B s s1 → Allowed s1 op → ¬ (op = Op.ret ∧ s1.current = B) →
      exec op s1 = Except.ok s2 → StepsAvoiding B s s2

/-- State `t` differs from `s` only in ways `co_next` does not see: the registry, the cursor
and the current task are those of `s`, the registry pointers of `t` are valid, and the same
slots hold a task that is `CO_NEW` or `CO_RUNNING`. -/
def SameRunnable (s t : Sched) : Prop :=
  t.co_list = s.co_list ∧ t.next_idx = s.next_idx ∧ t.current = s.current ∧
    RegistryValid t ∧ ∀ i, slot_runnable t i = slot_runnable s i

/-- Consecutive selections with arbitrary activity in between: each selection is
`next = co_next()` followed by `current = next` (lines 160 and 163), and before the following
selection the tasks may change in any way that keeps the registry and the set of slots whose
task is `CO_NEW` or `CO_RUNNING`. -/
inductive Selections : Sched → List Nat → Prop where
  | nil (s : Sched) : Selections s []
  | cons {s s1 t : Sched} {p : Nat} {ps : List Nat} :
      co_next s = Except.ok (p, s1) → SameRunnable { s1 with current := p } t →
      Selections t ps → Selections s (p :: ps)

/-- Scenario state: main has started `T` and called `co_yield`; `T` is running. -/
def sc_yielded : Sched := after Op.yield sc_started

/-- Scenario state: `T` has returned from its entry function; main is running again and `T` is
dead, not yet waited for. -/
def sc_dead : Sched := after Op.ret sc_yielded

/-- Scenario state: main has called `co_wait` on the dead `T`, which released block `1`. -/
def sc_released : Sched := after (Op.wait 1) sc_dead

/-- Scenario state: main has started a task `U`, and `malloc` has returned block `1` again. -/
def sc_reused : Sched := after (Op.start "U" 2 0 (some 1)) sc_released

/-- Scenario state: main has called `co_wait` on the handle `1` a second time. -/
def sc_waiting_again : Sched := after (Op.wait 1) sc_reused

/-- Scenario state: `U` has returned from its entry function. -/
def sc_released_again : Sched := after Op.ret sc_waiting_again

/-- Scenario state: main has called `co_wait` on its own handle while `T` is new. -/
def sc_self_wait : Sched := after (Op.wait 0) sc_started

/-- The block of the main task with the given status, waiter and saved context. -/
def main_block (st : co_status) (w : Option Nat) (k : Context) : co :=
  { main_co with status := st, waiter := w, context := k }

/-- The block of a started task in slot `i` with the given status, waiter and saved context. -/
def task_block (name : String) (func arg i : Nat) (st : co_status) (w : Option Nat)
    (k : Context) : co :=
  { name := name, func := func, arg := arg, status := st, waiter := w, context := k,
    list_idx := i }

/-- A scenario state with at most three tasks: the main task (block `0`, slot `0`), a task in
block `p1` and slot `1`, and a task in block `p2` and slot `2`; `none` for a task that does
not exist. -/
def state3 (b0 b1 b2 : Option co) (p1 p2 cur sidx nidx : Nat) : Sched :=
  { heap := fun q => if q = 0 then b0 else if q = p1 then b1 else if q = p2 then b2 else none
    current := cur
    co_list := fun i =>
      if i = 0 then b0.map (fun _ => 0) else if i = 1 then b1.map (fun _ => p1)
      else if i = 2 then b2.map (fun _ => p2) else none
    start_idx := sidx
    next_idx := nidx }

/-- The size of the stack of a task, `#define STACK_SIZE 64 * 1024 + 0x10`; every use of the
macro in `co.c` is an operand of `+` or an array bound, so the missing parentheses do not change
the value. -/
def STACK_SIZE : Nat := 64 * 1024 + 0x10

/-- The value `~0xf` converted to the 64-bit type `long`. -/
def ALIGN_MASK : Nat := 2 ^ 64 - 1 - 0xf

/-- The stack pointer that `co_yield` installs (line 168),
`(long)(current->stack + STACK_SIZE) & (~0xf)`, for the address `stack` of the array
`current->stack`; addresses are 64-bit words. -/
def stack_top (stack : Nat) : Nat := ((stack + STACK_SIZE) % 2 ^ 64) &&& ALIGN_MASK

/-- The assertion of line 169, `assert(stack <= (void *)current->stack + STACK_SIZE)`. -/
def stack_assert (stack : Nat) : Bool := decide (stack_top stack ≤ stack + STACK_SIZE)

end Libco -- definitions

/-!
## Part 2: `kmp/kmp.c`, Knuth-Morris-Pratt string search

A C string is the list of its characters; `s[i]` is `char_at s i`.  The array `next` is a map
from indices to values, and what `malloc` returns is a parameter: `NULL`, or a block with
arbitrary contents.  The variables of type `unsigned int` are natural numbers reduced modulo
`2 ^ 32` where the program computes them.  The two loops take a fuel; running out of it is
the result `none`.
-/

namespace Kmp

/-- The error number `ESRCH` of `<errno.h>`. -/
def ESRCH : Int := 3

/-- The error number `ENOMEM` of `<errno.h>`. -/
def ENOMEM : Int := 12

/-- The number of values of the type `unsigned int`. -/
def UINT_RANGE : Nat := 2 ^ 32

/-- The character `s[i]` of the C string `s`; the character at the end is the terminating
`'\0'`. -/
def char_at (s : List Char) (i : Nat) : Char := s.getD i (Char.ofNat 0)

/-- The value of `strlen(s)` assigned to an `unsigned int`. -/
def strlen (s : List Char) : Nat := s.length % UINT_RANGE

/-- The conversion of an `unsigned int` to `int` made by `return i - j;`. -/
def to_int (x : Nat) : Int := if x < 2 ^ 31 then (x : Int) else (x : Int) - 2 ^ 32

/-- The loop of `build_next` (lines 38-51) entered with the variables `i` and `prefix` and
the contents `next` of the array; `none` when the fuel is used up before the loop ends. -/
def build_next_loop (pattern : List Char) (pattern_len : Nat) :
    Nat → Nat → Nat → (Nat → Nat) → Option (Nat → Nat)
  | 0, _, _, _ => none
  | fuel + 1, i, pfx, next =>
    if i < pattern_len then
      if char_at pattern i = char_at pattern pfx then
        build_next_loop pattern pattern_len fuel ((i + 1) % UINT_RANGE)
          ((pfx + 1) % UINT_RANGE) (Function.update next i ((pfx + 1) % UINT_RANGE))
      else if pfx = 0 then
        build_next_loop pattern pattern_len fuel ((i + 1) % UINT_RANGE) pfx
          (Function.update next i 0)
      else build_next_loop pattern pattern_len fuel i (next (pfx - 1)) next
    else some next

/-- The function `build_next` (lines 24-54).  `mem` is what `malloc` returns: `none` for
`NULL`, `some g` for a block whose words hold the arbitrary values `g`.  The result is `none`
when the loop does not end within the fuel, `some none` for the return value `NULL`. -/
def build_next (fuel : Nat) (pattern : List Char) (mem : Option (Nat → Nat)) :
    Option (Option (Nat → Nat)) :=
  match mem with
  | none => some none
  | some g =>
    (build_next_loop pattern (strlen pattern) fuel 1 0 (Function.update g 0 0)).map some

/-- The loop of `kmp` (lines 68-84) entered with the variables `i` and `j`: the value that
`kmp` returns, `none` when the fuel is used up before the loop ends. -/
def kmp_loop (str pattern : List Char) (str_len pattern_len : Nat) (next : Nat → Nat) :
    Nat → Nat → Nat → Option Int
  | 0, _, _ => none
  | fuel + 1, i, j =>
    if i < str_len then
      if char_at str i = char_at pattern j then
        if (j + 1) % UINT_RANGE = pattern_len then
          some (to_int (((i + 1) % UINT_RANGE + UINT_RANGE - (j + 1) % UINT_RANGE)
            % UINT_RANGE))
        else
          kmp_loop str pattern str_len pattern_len next fuel ((i + 1) % UINT_RANGE)
            ((j + 1) % UINT_RANGE)
      else if j = 0 then
        kmp_loop str pattern str_len pattern_len next fuel ((i + 1) % UINT_RANGE) j
      else kmp_loop str pattern str_len pattern_len next fuel i (next (j - 1))
    else some (-ESRCH)

/-- The function `kmp` (lines 56-88); the same fuel bounds each of the two loops. -/
def kmp (fuel : Nat) (str pattern : List Char) (mem : Option (Nat → Nat)) : Option Int :=
  match build_next fuel pattern mem with
  | none => none
  | some none => some (-ENOMEM)
  | some (some next) => kmp_loop str pattern (strlen str) (strlen pattern) next fuel 0 0

/-- The pattern occurs in `str` at index `i`: `pattern` equals `str[i .. i + len(pattern))`. -/
def Occurs (str pattern : List Char) (i : Nat) : Prop :=
  pattern <+: str.drop i

instance Occurs.decidable (str pattern : List Char) (i : Nat) :
    Decidable (Occurs str pattern i) :=
  inferInstanceAs (Decidable (pattern <+: str.drop i))

/-- The pattern occurs at index `t`, stated on the characters. -/
def Occ (str pattern : List Char) (t : Nat) : Prop :=
  t + pattern.length ≤ str.length ∧
    ∀ k, k < pattern.length → char_at str (t + k) = char_at pattern k

end Kmp -- definitions

/-!
## Part 3: `lcs/main.c`, longest common subsequence

A C string is the list of its characters.  The array `int dp[64][64]` is a map from the
position `64 * i + j` of the element `dp[i][j]` to its value, the array `char seq[64]` a map
from indices to characters.  What `lcsequence` prints is its result: the number `maxlen` and
the C string in `seq`.  The two counted loops are folds over the range of the loop variable;
the loop that reconstructs the subsequence takes a fuel.
-/

namespace Lcs

/-- The character `s[i]` of the C string `s`; the character at the end is the terminating
`'\0'`. -/
def char_at (s : List Char) (i : Nat) : Char := s.getD i (Char.ofNat 0)

/-- The ways `lcsequence` ends abnormally. -/
inductive Fault where
  /-- Line 72, `assert(dp[i+1][j+1] == dp[i][j] + 1)`. -/
  | assert_diagonal
  /-- The loop of lines 67-84 did not end within the fuel. -/
  | diverges
  deriving DecidableEq, Repr

/-- The function `max` (lines 37-40). -/
def max (a b : Int) : Int := if a > b then a else b

/-- The element `dp[i][j]` of the array `int dp[64][64]`, whose rows lie one after the other
in memory. -/
def dp_at (dp : Nat → Int) (i j : Nat) : Int := dp (64 * i + j)

/-- The body of the inner loop (lines 53-57): the assignment to `dp[i+1][j+1]`. -/
def fill_cell (s1 s2 : List Char) (i j : Nat) (dp : Nat → Int) : Nat → Int :=
  Function.update dp (64 * (i + 1) + (j + 1))
    (if char_at s1 i = char_at s2 j then dp_at dp i j + 1
     else max (dp_at dp i (j + 1)) (dp_at dp (i + 1) j))

/-- The inner loop (lines 52-58) for the row `i`. -/
def fill_row (s1 s2 : List Char) (i : Nat) (dp : Nat → Int) : Nat → Int :=
  (List.range s2.length).foldl (fun d j => fill_cell s1 s2 i j d) dp

/-- The two nested loops (lines 51-59), starting from the array `dp` that `memset` has
cleared. -/
def fill (s1 s2 : List Char) : Nat → Int :=
  (List.range s1.length).foldl (fun d i => fill_row s1 s2 i d) (fun _ => 0)

/-- The loop of lines 67-84 entered with the variables `i`, `j`, `maxlen` and the contents
`seq` of the array: the final contents of `seq`. -/
def trace_back (s1 s2 : List Char) (dp : Nat → Int) :
    Nat → Int → Int → Int → (Nat → Char) → Except Fault (Nat → Char)
  | 0, _, _, _, _ => Except.error Fault.diverges
  | fuel + 1, i, j, maxlen, seq =>
    if i ≥ 0 ∧ j ≥ 0 ∧ maxlen > 0 then
      if dp_at dp (i + 1).toNat (j + 1).toNat = 0 then Except.ok seq
      else if char_at s1 i.toNat = char_at s2 j.toNat then
        if dp_at dp (i + 1).toNat (j + 1).toNat = dp_at dp i.toNat j.toNat + 1 then
          trace_back s1 s2 dp fuel (i - 1) (j - 1) (maxlen - 1)
            (Function.update seq (maxlen - 1).toNat (char_at s1 i.toNat))
        else Except.error Fault.assert_diagonal
      else if dp_at dp i.toNat (j + 1).toNat = dp_at dp (i + 1).toNat (j + 1).toNat then
        trace_back s1 s2 dp fuel (i - 1) j maxlen seq
      else trace_back s1 s2 dp fuel i (j - 1) maxlen seq
    else Except.ok seq

/-- The C string stored in the first `n` characters of the array `seq`: the characters
before the first `'\0'`. -/
def c_string (seq : Nat → Char) (n : Nat) : List Char :=
  ((List.range n).map seq).takeWhile (fun c => c ≠ Char.ofNat 0)

/-- The function `lcsequence` (lines 42-86): the printed `maxlen` and the printed string
`seq`; the array `seq` has 64 characters, all `'\0'` at the start. -/
def lcsequence (fuel : Nat) (s1 s2 : List Char) : Except Fault (Int × List Char) :=
  let dp := fill s1 s2
  let maxlen := dp_at dp s1.length s2.length
  match trace_back s1 s2 dp fuel ((s1.length : Int) - 1) ((s2.length : Int) - 1) maxlen
      (fun _ => Char.ofNat 0) with
  | Except.error e => Except.error e
  | Except.ok seq => Except.ok (maxlen, c_string seq 64)

/-- The number `n` is the length of a longest common subsequence of `l1` and `l2`. -/
def IsLcsLength (l1 l2 : List Char) (n : Nat) : Prop :=
  (∃ l : List Char, l.Sublist l1 ∧ l.Sublist l2 ∧ l.length = n) ∧
    ∀ l : List Char, l.Sublist l1 → l.Sublist l2 → l.length ≤ n

/-- The table that the two loops compute, defined by its recurrence: `table s1 s2 i j` is the
value of `dp[i][j]`. -/
def table (s1 s2 : List Char) : Nat → Nat → Int
  | 0, _ => 0
  | _ + 1, 0 => 0
  | i + 1, j + 1 =>
    if char_at s1 i = char_at s2 j then table s1 s2 i j + 1
    else max (table s1 s2 i (j + 1)) (table s1 s2 (i + 1) j)
termination_by i j => (i, j)

/-- The array `seq` holds the list `tail` from index `n` on, and `'\0'` elsewhere. -/
def Holds (seq : Nat → Char) (n : Nat) (tail : List Char) : Prop :=
  ∀ k, seq k = if n ≤ k then tail.getD (k - n) (Char.ofNat 0) else Char.ofNat 0

end Lcs -- definitions

/-!
## Part 4: `circular_suffix_array/main.c`, suffix arrays

A string of `len` bytes is the list of its bytes, each a number below 256.  An `int` array
is the list of its elements, `a[i]` the element `i` of the list.  `malloc` is a parameter of
every function that allocates: `none` is the null pointer, `some g` a block with the
arbitrary contents `g`.  The recursion of `sort` and the loops whose bound is not a counter
take a fuel; the counted loops are folds over the range of the loop variable.  A value of
type `int` is an integer; where a sum or a product can leave the range of `int` for some
`len`, its value is reduced with `to_int`, which wraps around at `2 ^ 31`.
-/

namespace Csa

/-- The ways the sorting functions end abnormally. -/
inductive Fault where
  /-- Lines 15 and 21, `assert(suffix < len && i < len && suffix + i >= 0)`. -/
  | assert_char_at
  /-- Line 181, `assert(sa)`. -/
  | assert_alloc
  /-- Line 291, `assert(r < len)`. -/
  | assert_rank
  /-- Line 230, `memset(count, 0, ...)` through the null pointer: `count_len` is negative,
  and `malloc` does not grant `count_len * sizeof(int)` bytes, which are more than
  `2 ^ 63`. -/
  | null_count
  /-- Line 247, `k *= 2` overflows `int`: `k` is negative then, the loop of line 251 starts
  at the wrapped `len - k` and writes more than `len` elements to `y`. -/
  | overflow_k
  /-- A loop or the recursion did not end within the fuel. -/
  | diverges
  deriving DecidableEq, Repr

/-- The value of an `int` expression whose mathematical value is `x`: the value wraps around
at `2 ^ 31`. -/
def to_int (x : Int) : Int := (x + 2 ^ 31) % 2 ^ 32 - 2 ^ 31

/-- The byte `str[i]`. -/
def byte_at (str : List Nat) (i : Int) : Int := (str.getD i.toNat 0 : Nat)

/-- The function `sa_char_at` (lines 13-17): the character `i` of the suffix that starts at
`suffix`, `-1` past the end of the string. -/
def sa_char_at (str : List Nat) (len : Int) (suffix i : Int) : Except Fault Int :=
  if suffix < len ∧ i < len ∧ to_int (suffix + i) ≥ 0 then
    Except.ok (if to_int (suffix + i) ≥ len then -1 else byte_at str (to_int (suffix + i)))
  else Except.error Fault.assert_char_at

/-- The function `csa_char_at` (lines 19-23): the character `i` of the rotation that starts
at `suffix`. -/
def csa_char_at (str : List Nat) (len : Int) (suffix i : Int) : Except Fault Int :=
  if suffix < len ∧ i < len ∧ to_int (suffix + i) ≥ 0 then
    Except.ok (byte_at str (Int.emod (to_int (suffix + i)) len))
  else Except.error Fault.assert_char_at

/-- The element `a[i]` of an `int` array. -/
def get (a : List Int) (i : Nat) : Int := a.getD i 0

/-- The function `exch` (lines 140-145). -/
def exch (a : List Int) (x y : Nat) : List Int :=
  (a.set x (get a y)).set y (get a x)

/-- The loop of `sort` (lines 159-168) entered with the array `sa` and the variables `lt`,
`gt` and `i`, which are never negative; the result is the array and the final `lt` and `gt`. -/
def partition_loop (char_at : Int → Int → Except Fault Int) (d : Nat) (v : Int) :
    Nat → List Int → Nat → Nat → Nat → Except Fault (List Int × Nat × Nat)
  | 0, _, _, _, _ => Except.error Fault.diverges
  | fuel + 1, sa, lt, gt, i =>
    if i ≤ gt then
      match char_at (get sa i) d with
      | Except.error e => Except.error e
      | Except.ok t =>
        if t < v then partition_loop char_at d v fuel (exch sa lt i) (lt + 1) gt (i + 1)
        else if t > v then partition_loop char_at d v fuel (exch sa i gt) lt (gt - 1) i
        else partition_loop char_at d v fuel sa lt gt (i + 1)
    else Except.ok (sa, lt, gt)

/-- The function `sort` (lines 148-174) on the range `[lo, hi)` of `sa`; `char_at` is the
function pointer with `str` and `len` supplied.  The fuel bounds the depth of the recursion
and the number of iterations of the loop. -/
def sort (char_at : Int → Int → Except Fault Int) (len : Nat) :
    Nat → List Int → Nat → Nat → Nat → Except Fault (List Int)
  | 0, _, _, _, _ => Except.error Fault.diverges
  | fuel + 1, sa, lo, hi, d =>
    if d ≥ len then Except.ok sa
    else if hi ≤ lo + 1 then Except.ok sa
    else
      match char_at (get sa lo) d with
      | Except.error e => Except.error e
      | Except.ok v =>
        match partition_loop char_at d v (fuel + 1) sa lo (hi - 1) (lo + 1) with
        | Except.error e => Except.error e
        | Except.ok (sa1, lt, gt) =>
          match sort char_at len fuel sa1 lo lt d with
          | Except.error e => Except.error e
          | Except.ok sa2 =>
            match (if v ≥ 0 then sort char_at len fuel sa2 lt (gt + 1) (d + 1)
                   else Except.ok sa2) with
            | Except.error e => Except.error e
            | Except.ok sa3 => sort char_at len fuel sa3 (gt + 1) hi d

/-- The function `__quick3way` (lines 178-190).  `mem` is what `malloc` returns: `none` for
`NULL`, `some g` for an array of `len` elements with the arbitrary contents `g`.  The result
is the returned array. -/
def quick3way (char_at : Int → Int → Except Fault Int) (fuel : Nat) (len : Nat)
    (mem : Option (List Int)) : Except Fault (List Int) :=
  match mem with
  | none => Except.error Fault.assert_alloc
  | some g =>
    let sa := (List.range len).foldl (fun (a : List Int) (i : Nat) => a.set i (i : Int)) g
    sort char_at len fuel sa 0 len 0

/-- The function `csa_quick3way` (lines 192-195). -/
def csa_quick3way (fuel : Nat) (str : List Nat) (len : Nat) (mem : Option (List Int)) :
    Except Fault (List Int) :=
  quick3way (csa_char_at str len) fuel len mem

/-- The function `sa_quick3way` (lines 197-200). -/
def sa_quick3way (fuel : Nat) (str : List Nat) (len : Nat) (mem : Option (List Int)) :
    Except Fault (List Int) :=
  quick3way (sa_char_at str len) fuel len mem

/-- The alphabet size, `#define R 256`. -/
def R : Nat := 256

/-- The statement `a[i]++`. -/
def incr (a : List Int) (i : Nat) : List Int := a.set i (get a i + 1)

/-- The loops of the form `for (i = 0; i < n; i++) count[i+1] += count[i];` (lines 237-239
and 271-273). -/
def prefix_sums (count : List Int) (n : Nat) : List Int :=
  (List.range n).foldl (fun c i => c.set (i + 1) (get c (i + 1) + get c i)) count

/-- The function `equal` (lines 202-217); the sums `a + k` and `b + k` are `int` sums, and
`y[a + k] == y[b + k]` is evaluated only when `y[a] == y[b]` holds. -/
def equal (y : List Int) (len : Int) (a b k : Int) : Bool :=
  if to_int (a + k) < len ∧ to_int (b + k) ≥ len then false
  else if to_int (a + k) ≥ len ∧ to_int (b + k) < len then false
  else if to_int (a + k) ≥ len ∧ to_int (b + k) ≥ len then
    decide (get y a.toNat = get y b.toNat)
  else decide (get y a.toNat = get y b.toNat) &&
    decide (get y (to_int (a + k)).toNat = get y (to_int (b + k)).toNat)

/-- The arrays and the variable `r` of `sa_sort`. -/
structure SaState where
  sa : List Int
  x : List Int
  y : List Int
  count : List Int
  r : Int
  deriving DecidableEq, Repr

/-- Lines 232-244 of `sa_sort`: the counting sort of the suffixes by their first character. -/
def sa_sort_init (str : List Nat) (len : Nat) (s : SaState) : SaState :=
  let s1 := (List.range len).foldl (fun (s : SaState) (i : Nat) =>
    { s with x := s.x.set i (byte_at str i)
             count := incr s.count (byte_at str i + 1).toNat }) s
  let s2 := { s1 with count := prefix_sums s1.count R }
  let s3 := (List.range len).foldl (fun (s : SaState) (i : Nat) =>
    { s with sa := s.sa.set (get s.count (byte_at str i).toNat).toNat (i : Int)
             count := incr s.count (byte_at str i).toNat }) s2
  { s3 with r := R }

/-- Lines 251-262 of `sa_sort`: the array `y` lists the suffixes in the order of their
second halves. -/
def sa_sort_second (len k : Nat) (s : SaState) : SaState :=
  let yp := (List.range' (len - k) k).foldl (fun (yp : List Int × Nat) (i : Nat) =>
    (yp.1.set yp.2 (i : Int), yp.2 + 1)) (s.y, 0)
  let yp2 := (List.range len).foldl (fun (yp : List Int × Nat) (i : Nat) =>
    if get s.sa i ≥ k then (yp.1.set yp.2 (get s.sa i - k), yp.2 + 1) else yp) yp
  { s with y := yp2.1 }

/-- Lines 264-278 of `sa_sort`: the counting sort of `y` by the rank `x` of the first
halves. -/
def sa_sort_first (len : Nat) (s : SaState) : SaState :=
  let c0 := (List.range (s.r + 1).toNat).foldl (fun (c : List Int) (i : Nat) => c.set i 0)
    s.count
  let c1 := (List.range len).foldl (fun (c : List Int) (i : Nat) =>
    incr c (get s.x (get s.y i).toNat + 1).toNat) c0
  let c2 := prefix_sums c1 s.r.toNat
  (List.range len).foldl (fun (s : SaState) (i : Nat) =>
    { s with sa := s.sa.set (get s.count (get s.x (get s.y i).toNat).toNat).toNat (get s.y i)
             count := incr s.count (get s.x (get s.y i).toNat).toNat })
    { s with count := c2 }

/-- Lines 281-289 of `sa_sort`: the new ranks. -/
def sa_sort_rank (len k : Nat) (s : SaState) : SaState :=
  let y := (s.x.take len) ++ s.y.drop len
  let s1 := { s with y := y, r := 0, x := s.x.set (get s.sa 0).toNat 0 }
  (List.range' 1 (len - 1)).foldl (fun (s : SaState) (i : Nat) =>
    let r := if equal s.y len (get s.sa (i - 1)) (get s.sa i) k then s.r else s.r + 1
    { s with r := r, x := s.x.set (get s.sa i).toNat r }) s1

/-- The loop of `sa_sort` (lines 247-296) entered with the variable `k`, which is not
negative; the `int` product `k * 2` that is negative ends the run. -/
def sa_sort_loop (len : Nat) : Nat → Nat → SaState → Except Fault SaState
  | 0, _, _ => Except.error Fault.diverges
  | fuel + 1, k, s =>
    if k < len then
      let s1 := sa_sort_rank len k (sa_sort_first len (sa_sort_second len k s))
      if s1.r < len then
        if s1.r = (len : Int) - 1 then Except.ok s1
        else if to_int ((k : Int) * 2) < 0 then Except.error Fault.overflow_k
        else sa_sort_loop len fuel (k * 2) s1
      else Except.error Fault.assert_rank
    else Except.ok s

/-- The function `sa_sort` (lines 222-303).  The arrays `sa`, `x` and `y` start with the
arbitrary contents `gsa`, `gx` and `gy`, the array `count` with zeros; the allocations of
`sa`, `x` and `y` are assumed to succeed, and that of `count` succeeds unless the `int`
`count_len` is negative.  The result is the returned array. -/
def sa_sort (fuel : Nat) (str : List Nat) (len : Nat) (gsa gx gy : List Int) :
    Except Fault (List Int) :=
  let count_len := to_int (if len > R then (len : Int) + 1 else (R : Int) + 1)
  if count_len < 0 then Except.error Fault.null_count
  else
    let s0 : SaState :=
      { sa := gsa, x := gx, y := gy, count := List.replicate count_len.toNat 0, r := 0 }
    match sa_sort_loop len fuel 1 (sa_sort_init str len s0) with
    | Except.error e => Except.error e
    | Except.ok s => Except.ok s.sa

/-- The rotation of `str` that starts at index `s`: `len(str)` characters, read cyclically. -/
def rotation (str : List Nat) (s : Nat) : List Nat := str.drop s ++ str.take s

/-- The lexicographic order on lists of numbers, `a ≤ b`. -/
def lex_le : List Nat → List Nat → Bool
  | [], _ => true
  | _ :: _, [] => false
  | a :: as, b :: bs => decide (a < b) || (decide (a = b) && lex_le as bs)

/-- The array `b` is the array `a` with the elements of the range `[lo, hi)` rearranged. -/
def ArrPerm (b a : List Int) (lo hi : Nat) : Prop :=
  b.length = a.length ∧ ∃ σ : Equiv.Perm Nat,
    (∀ x, x < lo ∨ hi ≤ x → σ x = x) ∧ ∀ x, get b x = get a (σ x)

/-- The order that `sort` establishes: the key sequences of `a` and `b`, read for `len`
positions, are equal, or the first position where they differ has the smaller key in `a`. -/
def KeyLe (key : Int → Nat → Int) (len : Nat) (a b : Int) : Prop :=
  (∀ k, k < len → key a k = key b k) ∨
    ∃ k, k < len ∧ (∀ j, j < k → key a j = key b j) ∧ key a k < key b k

/-- The invariant of the loop of `sort`. -/
structure PInv (key : Int → Nat → Int) (sa0 sa : List Int) (lo hi d : Nat) (v : Int)
    (lt gt i : Nat) : Prop where
  perm : ArrPerm sa sa0 lo hi
  lo_le : lo ≤ lt
  lt_lt : lt < i
  i_le : i ≤ gt + 1
  gt_lt : gt < hi
  low : ∀ x, lo ≤ x → x < lt → key (get sa x) d < v
  mid : ∀ x, lt ≤ x → x < i → key (get sa x) d = v
  high : ∀ x, gt < x → x < hi → v < key (get sa x) d

/-- The character `d` of the rotation that starts at `s`, as `csa_char_at` computes it when
its assertion holds. -/
def csa_key (str : List Nat) (len : Nat) (s : Int) (d : Nat) : Int :=
  byte_at str (Int.emod (s + d) len)

/-- The string "ABRACADABRA!" of `main`, as bytes. -/
def abracadabra : List Nat := [65, 66, 82, 65, 67, 65, 68, 65, 66, 82, 65, 33]

/-- The number of indices below `n` with the property `P`. -/
def cnt (P : Nat → Prop) [DecidablePred P] (n : Nat) : Nat :=
  ((Finset.range n).filter P).card

/-- The place of the element `t` in the stable counting sort of `n` elements by `key`. -/
def pos (key : Nat → Nat) (n t : Nat) : Nat :=
  cnt (fun u => key u < key t) n + cnt (fun u => key u = key t) t

/-- One step of the last loop of a counting sort: `sa[count[key i]] = val i` and
`count[key i]++`. -/
def place_step (key : Nat → Nat) (val : Nat → Int) (p : List Int × List Int) (i : Nat) :
    List Int × List Int :=
  (p.1.set (get p.2 (key i)).toNat (val i), incr p.2 (key i))

/-- The first `k` characters of the suffix of `str` that starts at `a`. -/
def pre (str : List Nat) (k a : Nat) : List Nat := (str.drop a).take k

/-- The length of the array `count` (line 224). -/
def count_len (len : Nat) : Nat := if len > R then len + 1 else R + 1

/-- The byte `str[i]` as a number. -/
def byte (str : List Nat) (i : Nat) : Nat := str.getD i 0

/-- The state of `sa_sort` when the suffixes are sorted by their first `k` characters: `sa`
lists them in this order, and the ranks `x` compare as these prefixes do. -/
structure SaInv (str : List Nat) (k : Nat) (s : SaState) : Prop where
  len_sa : s.sa.length = str.length
  len_x : s.x.length = str.length
  len_y : s.y.length = str.length
  len_count : s.count.length = count_len str.length
  sa_range : ∀ p, p < str.length → 0 ≤ get s.sa p ∧ get s.sa p < str.length
  sa_inj : ∀ p q, p < str.length → q < str.length → get s.sa p = get s.sa q → p = q
  sorted : ∀ p q, p ≤ q → q < str.length →
    pre str k (get s.sa p).toNat ≤ pre str k (get s.sa q).toNat
  x_range : ∀ a, a < str.length →
    0 ≤ get s.x a ∧ get s.x a ≤ s.r ∧ get s.x a + 1 < count_len str.length
  x_lt : ∀ a b, a < str.length → b < str.length →
    (get s.x a < get s.x b ↔ pre str k a < pre str k b)
  r_lt : 0 ≤ s.r ∧ s.r < count_len str.length

/-- The number of places `t` below `p` where the suffix `sa[t + 1]` does not have the same
first `2 * k` characters as `sa[t]`, as `equal` decides it from the ranks `x`. -/
def rises (x sa : List Int) (len k p : Nat) : Nat :=
  cnt (fun t => equal x len (get sa t) (get sa (t + 1)) k = false) p

/-- The character `d` of the suffix that starts at `s`, `-1` past the end of the string, as
`sa_char_at` computes it when its assertion holds. -/
def sa_key (str : List Nat) (len : Nat) (s : Int) (d : Nat) : Int :=
  if s + d ≥ len then -1 else byte_at str (s + d)

/-- The character `d` of a list, `-1` past its end. -/
def key_of (u : List Nat) (d : Nat) : Int :=
  if d < u.length then (u.getD d 0 : Nat) else -1

end Csa -- definitions

/-!
## Part 5: `rbtree`, red-black trees

A pointer is the identifier of a block, `none` for `NULL`; the memory maps the identifier of
each allocated block to the `struct rbnode` it holds, and `struct rbroot` is the field `node`
of the state.  A function that writes through pointers returns the new state; an `assert` that
fails, a call of `abort` and a null or dangling pointer that is dereferenced are faults.  Loops
and recursions take a fuel.  `malloc` is a parameter of `rb_insert_val`: `none` for `NULL`,
`some (a, g)` for the block `a` with the arbitrary contents `g`.

What the theorems say about a state is said through the tree it holds: `Tree` is the shape of
the linked structure with the block, the colour and the value of every node, and `RepZ` says
that the state holds a tree, seen from one of its subtrees along the path to the root.
-/

namespace Rbtree

/-- The colour `RB_RED`. -/
def RB_RED : Int := 0

/-- The colour `RB_BLACK`. -/
def RB_BLACK : Int := 1

/-- The record `struct rbnode`; a pointer is the identifier of a block, `none` for `NULL`. -/
structure rbnode where
  parent : Option Nat
  left : Option Nat
  right : Option Nat
  color : Int
  val : Int
  deriving DecidableEq, Repr

/-- The memory holding the nodes, and the record `struct rbroot`. -/
structure State where
  /-- The nodes by block identifier; `none` for memory that is not allocated. -/
  mem : Nat → Option rbnode
  /-- The field `root->node`. -/
  node : Option Nat

/-- The ways a run ends abnormally. -/
inductive Fault where
  /-- An `assert` of `rbtree.h` failed, at the given line. -/
  | assert_h (line : Nat)
  /-- An `assert` of `rbtree.c` failed, at the given line. -/
  | assert_c (line : Nat)
  /-- An `assert` of `main.c` failed, at the given line. -/
  | assert_main (line : Nat)
  /-- The call `violate_property(num)` of `util.c`. -/
  | violation (num : Nat)
  /-- The message "Violating BST property." of `util.c` (line 215). -/
  | violation_bst
  /-- A null pointer or a block that is not allocated was dereferenced. -/
  | bad_pointer
  /-- A loop or a recursion did not end within the fuel. -/
  | diverges
  deriving DecidableEq, Repr

/-- The result of running code: the value, or the fault. -/
abbrev M (α : Type) : Type := Except Fault α

/-- The node that `p` points to. -/
def deref (s : State) (p : Option Nat) : M rbnode :=
  match p with
  | none => Except.error Fault.bad_pointer
  | some a =>
    match s.mem a with
    | none => Except.error Fault.bad_pointer
    | some n => Except.ok n

/-- Writing the node `n` at `a`. -/
def store (s : State) (a : Nat) (n : rbnode) : State :=
  { s with mem := Function.update s.mem a (some n) }

/-- The assignment `p->parent = v`. -/
def set_parent (s : State) (p : Option Nat) (v : Option Nat) : M State :=
  match p with
  | none => Except.error Fault.bad_pointer
  | some a =>
    match s.mem a with
    | none => Except.error Fault.bad_pointer
    | some n => Except.ok (store s a { n with parent := v })

/-- The assignment `p->left = v`. -/
def set_left (s : State) (p : Option Nat) (v : Option Nat) : M State :=
  match p with
  | none => Except.error Fault.bad_pointer
  | some a =>
    match s.mem a with
    | none => Except.error Fault.bad_pointer
    | some n => Except.ok (store s a { n with left := v })

/-- The assignment `p->right = v`. -/
def set_right (s : State) (p : Option Nat) (v : Option Nat) : M State :=
  match p with
  | none => Except.error Fault.bad_pointer
  | some a =>
    match s.mem a with
    | none => Except.error Fault.bad_pointer
    | some n => Except.ok (store s a { n with right := v })

/-- The assignment `p->color = v`. -/
def set_color (s : State) (p : Option Nat) (v : Int) : M State :=
  match p with
  | none => Except.error Fault.bad_pointer
  | some a =>
    match s.mem a with
    | none => Except.error Fault.bad_pointer
    | some n => Except.ok (store s a { n with color := v })

/-- The statement `if (p) p->parent = v;`. -/
def set_parent_if (s : State) (p : Option Nat) (v : Option Nat) : M State :=
  match p with
  | none => Except.ok s
  | some _ => set_parent s p v

/-- The function `rb_is_black` (rbtree.h lines 25-29). -/
def rb_is_black (s : State) (node : Option Nat) : M Bool :=
  match node with
  | none => Except.ok true
  | some _ =>
    match deref s node with
    | Except.error e => Except.error e
    | Except.ok n => Except.ok (decide (n.color = RB_BLACK))

/-- The function `rb_is_red` (rbtree.h lines 31-35). -/
def rb_is_red (s : State) (node : Option Nat) : M Bool :=
  match node with
  | none => Except.ok false
  | some _ =>
    match deref s node with
    | Except.error e => Except.error e
    | Except.ok n => Except.ok (decide (n.color = RB_RED))

/-- The function `rb_set_black` (rbtree.h lines 37-41). -/
def rb_set_black (s : State) (node : Option Nat) : M State :=
  match node with
  | none => Except.error (Fault.assert_h 39)
  | some _ => set_color s node RB_BLACK

/-- The function `rb_set_red` (rbtree.h lines 43-47). -/
def rb_set_red (s : State) (node : Option Nat) : M State :=
  match node with
  | none => Except.error (Fault.assert_h 45)
  | some _ => set_color s node RB_RED

/-- The function `rb_parent` (rbtree.h lines 62-66). -/
def rb_parent (s : State) (node : Option Nat) : M (Option Nat) :=
  match node with
  | none => Except.error (Fault.assert_h 64)
  | some _ =>
    match deref s node with
    | Except.error e => Except.error e
    | Except.ok n => Except.ok n.parent

/-- The function `rb_grandparent` (rbtree.h lines 68-73). -/
def rb_grandparent (s : State) (node : Option Nat) : M (Option Nat) :=
  match node with
  | none => Except.error (Fault.assert_h 70)
  | some _ =>
    match rb_parent s node with
    | Except.error e => Except.error e
    | Except.ok none => Except.error (Fault.assert_h 71)
    | Except.ok (some p) => rb_parent s (some p)

/-- The function `rb_uncle` (rbtree.h lines 75-80). -/
def rb_uncle (s : State) (node : Option Nat) : M (Option Nat) :=
  match node with
  | none => Except.error (Fault.assert_h 77)
  | some _ =>
    match rb_grandparent s node with
    | Except.error e => Except.error e
    | Except.ok none => Except.error (Fault.assert_h 78)
    | Except.ok (some g) =>
      match rb_parent s node, deref s (some g) with
      | Except.error e, _ => Except.error e
      | _, Except.error e => Except.error e
      | Except.ok p, Except.ok gn =>
        Except.ok (if p = gn.left then gn.right else gn.left)

/-- The link `a --- b` is made to point to `n`: the code
`link = a ? (a->left == b ? &a->left : &a->right) : &root->node; *link = n;` that both
rotations, `rb_unlink_node` and `rb_replace_to_predecessor` contain. -/
def replace_child (s : State) (a b n : Option Nat) : M State :=
  match a with
  | none => Except.ok { s with node := n }
  | some _ =>
    match deref s a with
    | Except.error e => Except.error e
    | Except.ok an => if an.left = b then set_left s a n else set_right s a n

/-- The function `rb_rotate_left` (rbtree.h lines 96-126). -/
def rb_rotate_left (n : Option Nat) (s : State) : M State :=
  match n with
  | none => Except.error (Fault.assert_h 98)
  | some _ =>
    match rb_parent s n with
    | Except.error e => Except.error e
    | Except.ok none => Except.error (Fault.assert_h 101)
    | Except.ok (some ba) =>
      match deref s (some ba), deref s n with
      | Except.error e, _ => Except.error e
      | _, Except.error e => Except.error e
      | Except.ok bn, Except.ok nn =>
        if bn.right ≠ n then Except.error (Fault.assert_h 102)
        else
          let a := bn.parent
          let y := nn.left
          match set_right s (some ba) y with
          | Except.error e => Except.error e
          | Except.ok s1 =>
            match set_parent_if s1 y (some ba) with
            | Except.error e => Except.error e
            | Except.ok s2 =>
              match replace_child s2 a (some ba) n with
              | Except.error e => Except.error e
              | Except.ok s3 =>
                match set_parent s3 n a with
                | Except.error e => Except.error e
                | Except.ok s4 =>
                  match set_left s4 n (some ba) with
                  | Except.error e => Except.error e
                  | Except.ok s5 => set_parent s5 (some ba) n

/-- The function `rb_rotate_right` (rbtree.h lines 143-173). -/
def rb_rotate_right (n : Option Nat) (s : State) : M State :=
  match n with
  | none => Except.error (Fault.assert_h 145)
  | some _ =>
    match rb_parent s n with
    | Except.error e => Except.error e
    | Except.ok none => Except.error (Fault.assert_h 148)
    | Except.ok (some ba) =>
      match deref s (some ba), deref s n with
      | Except.error e, _ => Except.error e
      | _, Except.error e => Except.error e
      | Except.ok bn, Except.ok nn =>
        if bn.left ≠ n then Except.error (Fault.assert_h 149)
        else
          let a := bn.parent
          let y := nn.right
          match set_left s (some ba) y with
          | Except.error e => Except.error e
          | Except.ok s1 =>
            match set_parent_if s1 y (some ba) with
            | Except.error e => Except.error e
            | Except.ok s2 =>
              match replace_child s2 a (some ba) n with
              | Except.error e => Except.error e
              | Except.ok s3 =>
                match set_parent s3 n a with
                | Except.error e => Except.error e
                | Except.ok s4 =>
                  match set_right s4 n (some ba) with
                  | Except.error e => Except.error e
                  | Except.ok s5 => set_parent s5 (some ba) n

/-- The condition `n == p->right && p == g->left` (rbtree.c line 117). -/
def is_right_left (s : State) (n p g : Option Nat) : M Bool := do
  let pn ← deref s p
  if n = pn.right then
    let gn ← deref s g
    pure (decide (p = gn.left))
  else pure false

/-- The condition `n == p->left && p == g->right` (rbtree.c line 128). -/
def is_left_right (s : State) (n p g : Option Nat) : M Bool := do
  let pn ← deref s p
  if n = pn.left then
    let gn ← deref s g
    pure (decide (p = gn.right))
  else pure false

/-- The condition `n == p->left && p == g->left` (rbtree.c line 143). -/
def is_left_left (s : State) (n p g : Option Nat) : M Bool := do
  let pn ← deref s p
  if n = pn.left then
    let gn ← deref s g
    pure (decide (p = gn.left))
  else pure false

/-- Case 4 of `rb_insert_balance` (rbtree.c lines 114-139): the new values of `n` and `p`,
and the new state. -/
def rb_insert_case4 (n p g : Option Nat) (s : State) :
    M (Option Nat × Option Nat × State) := do
  let c1 ← is_right_left s n p g
  if c1 then
    let s1 ← rb_rotate_left n s
    let nn ← deref s1 n
    let p1 ← rb_parent s1 nn.left
    pure (nn.left, p1, s1)
  else
    let c2 ← is_left_right s n p g
    if c2 then
      let s1 ← rb_rotate_right n s
      let nn ← deref s1 n
      let p1 ← rb_parent s1 nn.right
      pure (nn.right, p1, s1)
    else pure (n, p, s)

/-- Case 5 of `rb_insert_balance` (rbtree.c lines 141-163). -/
def rb_insert_case5 (n p g : Option Nat) (s : State) : M State := do
  let c3 ← is_left_left s n p g
  let s2 ← (if c3 then rb_rotate_right p s else rb_rotate_left p s)
  let s3 ← rb_set_black s2 p
  rb_set_red s3 g

/-- Cases 4 and 5 of `rb_insert_balance` (rbtree.c lines 114-163). -/
def rb_insert_rotate (n p g : Option Nat) (s : State) : M State := do
  let (n1, p1, s1) ← rb_insert_case4 n p g s
  rb_insert_case5 n1 p1 g s1

/-- The loop of `rb_insert_balance` (rbtree.c lines 78-164) entered with the variables `n`
and `p`. -/
def rb_insert_balance_loop : Nat → Option Nat → Option Nat → State → M State
  | 0, _, _, _ => Except.error Fault.diverges
  | fuel + 1, n, p, s =>
    match p with
    | none => rb_set_black s n
    | some _ => do
      let pb ← rb_is_black s p
      if pb then pure s
      else
        let g ← rb_grandparent s n
        match g with
        | none => Except.error (Fault.assert_c 102)
        | some _ => do
          let u ← rb_uncle s n
          let ur ← rb_is_red s u
          if ur then
            let s1 ← rb_set_black s p
            let s2 ← rb_set_black s1 u
            let s3 ← rb_set_red s2 g
            let p1 ← rb_parent s3 g
            rb_insert_balance_loop fuel g p1 s3
          else rb_insert_rotate n p g s

/-- The function `rb_insert_balance` (rbtree.c lines 72-165). -/
def rb_insert_balance (fuel : Nat) (n : Option Nat) (s : State) : M State := do
  let p ← rb_parent s n
  rb_insert_balance_loop fuel n p s

/-- A pointer to a link: the value of `struct rbnode **link` in `rb_insert_val`. -/
inductive Link where
  /-- The address `&root->node`. -/
  | root
  /-- The address `&a->left`. -/
  | left (a : Nat)
  /-- The address `&a->right`. -/
  | right (a : Nat)
  deriving DecidableEq, Repr

/-- The assignment `*rblink = node`. -/
def set_link (s : State) (rblink : Link) (node : Option Nat) : M State :=
  match rblink with
  | Link.root => Except.ok { s with node := node }
  | Link.left a => set_left s (some a) node
  | Link.right a => set_right s (some a) node

/-- The function `rb_link_node` (rbtree.c lines 55-65); `rblink` is never null. -/
def rb_link_node (node parent : Option Nat) (rblink : Link) (s : State) : M State :=
  match node with
  | none => Except.error (Fault.assert_c 57)
  | some _ =>
    if parent = none ∨ (∃ a, parent = some a ∧ (rblink = Link.left a ∨ rblink = Link.right a))
    then do
      let s1 ← set_parent s node parent
      let s2 ← set_color s1 node RB_RED
      let s3 ← set_right s2 node none
      let s4 ← set_left s3 node none
      set_link s4 rblink node
    else Except.error (Fault.assert_c 58)

/-- The loop of `rb_insert_val` (main.c lines 17-26) entered with the variables `link`, `cur`
and `parent`: their final values. -/
def insert_search (val : Int) (s : State) :
    Nat → Link → Option Nat → Option Nat → M (Link × Option Nat)
  | 0, _, _, _ => Except.error Fault.diverges
  | fuel + 1, link, cur, parent =>
    match cur with
    | none => Except.ok (link, parent)
    | some a => do
      let cn ← deref s cur
      if val < cn.val then insert_search val s fuel (Link.left a) cn.left cur
      else insert_search val s fuel (Link.right a) cn.right cur

/-- The function `rb_insert_val` (main.c lines 6-30).  `mem` is what `malloc` returns:
`none` for `NULL`, `some (a, g)` for the block `a` with the arbitrary contents `g`.  The same
fuel bounds each of the two loops. -/
def rb_insert_val (fuel : Nat) (val : Int) (mem : Option (Nat × rbnode)) (s : State) :
    M State :=
  match mem with
  | none => Except.error (Fault.assert_h 52)
  | some (a, g) => do
    let s1 := store s a { g with val := val }
    let (link, parent) ← insert_search val s1 fuel Link.root s1.node none
    let s2 ← rb_link_node (some a) parent link s1
    rb_insert_balance fuel (some a) s2

/-- A binary tree of nodes, each with its block identifier, colour and value: the shape of
the linked structure. -/
inductive Tree where
  | nil
  | node (l : Tree) (a : Nat) (c : Int) (v : Int) (r : Tree)
  deriving DecidableEq, Repr

/-- The pointer to the root of a tree. -/
def Tree.ptr : Tree → Option Nat
  | Tree.nil => none
  | Tree.node _ a _ _ _ => some a

/-- The block identifiers of a tree, in order. -/
def Tree.addrs : Tree → List Nat
  | Tree.nil => []
  | Tree.node l a _ _ r => l.addrs ++ a :: r.addrs

/-- The values of a tree, in order: what `rb_inorder_traverse` prints. -/
def Tree.inorder : Tree → List Int
  | Tree.nil => []
  | Tree.node l _ _ v r => l.inorder ++ v :: r.inorder

/-- The memory `h` holds the tree `t` below a node (or a root) `par`: every node is at its
block, with its parent, child pointers, colour and value. -/
def Rep (h : Nat → Option rbnode) : Option Nat → Tree → Prop
  | _, Tree.nil => True
  | par, Tree.node l a c v r =>
    h a = some { parent := par, left := l.ptr, right := r.ptr, color := c, val := v } ∧
      Rep h (some a) l ∧ Rep h (some a) r

/-- One step of the path from a subtree to the root: the parent node and the sibling
subtree. -/
inductive Frame where
  /-- The subtree is the left child of the node `a`, whose right subtree is `r`. -/
  | L (a : Nat) (c : Int) (v : Int) (r : Tree)
  /-- The subtree is the right child of the node `a`, whose left subtree is `l`. -/
  | R (l : Tree) (a : Nat) (c : Int) (v : Int)
  deriving DecidableEq, Repr

/-- The block identifier of the node of a frame. -/
def Frame.addr : Frame → Nat
  | Frame.L a _ _ _ => a
  | Frame.R _ a _ _ => a

/-- The colour of the node of a frame. -/
def Frame.color : Frame → Int
  | Frame.L _ c _ _ => c
  | Frame.R _ _ c _ => c

/-- The block identifiers of a frame: its node and the nodes of the sibling subtree. -/
def Frame.addrs : Frame → List Nat
  | Frame.L a _ _ r => a :: r.addrs
  | Frame.R l a _ _ => a :: l.addrs

/-- The block identifiers of a path. -/
def pathAddrs : List Frame → List Nat
  | [] => []
  | f :: up => f.addrs ++ pathAddrs up

/-- The parent pointer of the subtree at the lower end of a path whose upper end hangs
below `outer`. -/
def pathPtr (ctx : List Frame) (outer : Option Nat) : Option Nat :=
  match ctx with
  | [] => outer
  | f :: _ => some f.addr

/-- The pointer to the upper end of a path whose lower end is the subtree at `hole`. -/
def pathTop : List Frame → Option Nat → Option Nat
  | [], hole => hole
  | f :: up, _ => pathTop up (some f.addr)

/-- The memory `h` holds the path `ctx` from the subtree at `hole` up to a node below
`outer`. -/
def RepPath (h : Nat → Option rbnode) : List Frame → Option Nat → Option Nat → Prop
  | [], _, _ => True
  | Frame.L a c v r :: up, hole, outer =>
    h a = some { parent := pathPtr up outer, left := hole, right := r.ptr, color := c,
                 val := v } ∧
      Rep h (some a) r ∧ RepPath h up (some a) outer
  | Frame.R l a c v :: up, hole, outer =>
    h a = some { parent := pathPtr up outer, left := l.ptr, right := hole, color := c,
                 val := v } ∧
      Rep h (some a) l ∧ RepPath h up (some a) outer

/-- The tree obtained by putting the subtree `t` at the lower end of the path `ctx`. -/
def plug : List Frame → Tree → Tree
  | [], t => t
  | Frame.L a c v r :: up, t => plug up (Tree.node t a c v r)
  | Frame.R l a c v :: up, t => plug up (Tree.node l a c v t)

/-- The state `s` holds a tree, seen as the subtree `t` at the lower end of the path `ctx`
to the root: the linked structure is well formed, parent pointers included, and no block
occurs twice. -/
structure RepZ (s : State) (ctx : List Frame) (t : Tree) : Prop where
  path : RepPath s.mem ctx t.ptr none
  sub : Rep s.mem (pathPtr ctx none) t
  root : s.node = pathTop ctx t.ptr
  nodup : (pathAddrs ctx ++ t.addrs).Nodup

/-- The loop of `rb_predecessor` (rbtree.h lines 180-182) entered with the variable
`predecessor`. -/
def rb_predecessor_loop (s : State) : Nat → Option Nat → M (Option Nat)
  | 0, _ => Except.error Fault.diverges
  | fuel + 1, predecessor => do
    let pn ← deref s predecessor
    match pn.right with
    | none => pure predecessor
    | some _ => rb_predecessor_loop s fuel pn.right

/-- The function `rb_predecessor` (rbtree.h lines 175-185). -/
def rb_predecessor (fuel : Nat) (s : State) (node : Option Nat) : M (Option Nat) :=
  match node with
  | none => Except.error (Fault.assert_h 177)
  | some _ => do
    let nn ← deref s node
    match nn.left with
    | none => Except.error (Fault.assert_h 177)
    | some _ => rb_predecessor_loop s fuel nn.left

/-- The loop of `rb_successor` (rbtree.h lines 192-194) entered with the variable
`successor`. -/
def rb_successor_loop (s : State) : Nat → Option Nat → M (Option Nat)
  | 0, _ => Except.error Fault.diverges
  | fuel + 1, successor => do
    let sn ← deref s successor
    match sn.left with
    | none => pure successor
    | some _ => rb_successor_loop s fuel sn.left

/-- The function `rb_successor` (rbtree.h lines 187-197). -/
def rb_successor (fuel : Nat) (s : State) (node : Option Nat) : M (Option Nat) :=
  match node with
  | none => Except.error (Fault.assert_h 189)
  | some _ => do
    let nn ← deref s node
    match nn.right with
    | none => Except.error (Fault.assert_h 189)
    | some _ => rb_successor_loop s fuel nn.right

/-- The value of an `int` expression whose mathematical value is `x`: the value wraps around
at `2 ^ 31`. -/
def to_int (x : Int) : Int := (x + 2 ^ 31) % 2 ^ 32 - 2 ^ 31

/-- The static variables `max_black`, `cur_black` and `last_color` of `util.c`
(lines 180-182). -/
structure Check where
  max_black : Int
  cur_black : Int
  last_color : Int
  deriving DecidableEq, Repr

/-- The first disjunct of the condition of util.c line 213:
`n->left && (n->left->val > n->val || rb_predecessor(n)->val > n->val)`. -/
def left_violates (fuel : Nat) (s : State) (n : Option Nat) : M Bool := do
  let nn ← deref s n
  match nn.left with
  | none => pure false
  | some _ => do
    let ln ← deref s nn.left
    if ln.val > nn.val then pure true
    else do
      let p ← rb_predecessor fuel s n
      let pn ← deref s p
      pure (decide (pn.val > nn.val))

/-- The second disjunct of the condition, util.c line 214:
`n->right && (n->right->val < n->val || rb_successor(n)->val < n->val)`. -/
def right_violates (fuel : Nat) (s : State) (n : Option Nat) : M Bool := do
  let nn ← deref s n
  match nn.right with
  | none => pure false
  | some _ => do
    let rn ← deref s nn.right
    if rn.val < nn.val then pure true
    else do
      let q ← rb_successor fuel s n
      let qn ← deref s q
      pure (decide (qn.val < nn.val))

/-- The first statement of `__rbtree_check` (util.c lines 187-201): the colour of `n` is
recorded and counted. -/
def check_color (s : State) (n : Option Nat) (g : Check) : M Check := do
  let b ← rb_is_black s n
  if b then pure { g with last_color := RB_BLACK, cur_black := to_int (g.cur_black + 1) }
  else do
    let r ← rb_is_red s n
    if !r then Except.error (Fault.violation 1)
    else if g.last_color = RB_RED then Except.error (Fault.violation 4)
    else pure { g with last_color := RB_RED }

/-- The statements of `__rbtree_check` for a leaf (util.c lines 204-211). -/
def check_leaf (g : Check) : M Check :=
  let g1 := if g.max_black = -1 then { g with max_black := g.cur_black } else g
  if g1.max_black ≠ g1.cur_black then Except.error (Fault.violation 5) else pure g1

/-- The last statements of `__rbtree_check` (util.c lines 222-224). -/
def check_restore (s : State) (n : Option Nat) (old_color : Int) (g : Check) : M Check := do
  let b ← rb_is_black s n
  pure { g with cur_black := if b then to_int (g.cur_black - 1) else g.cur_black,
                last_color := old_color }

/-- The function `__rbtree_check` (util.c lines 183-225); the same fuel bounds the recursion
and the loops of `rb_predecessor` and `rb_successor`. -/
def rbtree_check (s : State) : Nat → Option Nat → Check → M Check
  | 0, _, _ => Except.error Fault.diverges
  | fuel + 1, n, g => do
    let old_color := g.last_color
    let g1 ← check_color s n g
    let g2 ← match n with
      | none => check_leaf g1
      | some _ => do
        let bl ← left_violates fuel s n
        let bad ← if bl then pure true else right_violates fuel s n
        if bad then Except.error Fault.violation_bst
        else do
          let nn ← deref s n
          let g3 ← rbtree_check s fuel nn.left g1
          rbtree_check s fuel nn.right g3
    check_restore s n old_color g2

/-- The function `is_rbtree` (util.c lines 227-238): the final values of the static
variables when no property is violated. -/
def is_rbtree (fuel : Nat) (s : State) : M Check := do
  let b ← rb_is_black s s.node
  if !b then Except.error (Fault.violation 2)
  else rbtree_check s fuel s.node ⟨-1, 0, RB_BLACK⟩

/-- The function `rb_unlink_node` (rbtree.c lines 168-186). -/
def rb_unlink_node (node : Option Nat) (s : State) : M State :=
  match node with
  | none => Except.error (Fault.assert_c 170)
  | some _ => do
    let nn ← deref s node
    if nn.left ≠ none ∧ nn.right ≠ none then Except.error (Fault.assert_c 171)
    else do
      let child := if nn.left ≠ none then nn.left else nn.right
      let p ← rb_parent s node
      let s1 ← set_parent_if s child p
      replace_child s1 p node child

/-- The last statements of `rb_replace_to_predecessor` (rbtree.c lines 223-246): the links
between `node` and its new parent, and between `predecessor` and its new left child. -/
def relink_node (node predecessor predecessor_p node_left : Option Nat) (s : State) :
    M State :=
  if predecessor = node_left then do
    let s1 ← set_parent s node predecessor
    set_left s1 predecessor node
  else do
    let s1 ← set_parent s node predecessor_p
    let s2 ← set_right s1 predecessor_p node
    let s3 ← set_left s2 predecessor node_left
    set_parent s3 node_left predecessor

/-- The function `rb_replace_to_predecessor` (rbtree.c lines 188-252). -/
def rb_replace_to_predecessor (fuel : Nat) (node : Option Nat) (s : State) : M State := do
  let nn ← deref s node
  if ¬ (nn.left ≠ none ∧ nn.right ≠ none) then Except.error (Fault.assert_c 190)
  else do
    let predecessor ← rb_predecessor fuel s node
    match predecessor with
    | none => Except.error (Fault.assert_c 193)
    | some _ => do
      let pn ← deref s predecessor
      if pn.right ≠ none then Except.error (Fault.assert_c 194)
      else do
        let node_p ← rb_parent s node
        let predecessor_p ← rb_parent s predecessor
        let node_left := nn.left
        let s1 ← replace_child s node_p node predecessor
        let s2 ← set_parent s1 predecessor node_p
        let n2 ← deref s2 node
        let s3 ← set_parent s2 n2.right predecessor
        let n3 ← deref s3 node
        let s4 ← set_right s3 predecessor n3.right
        let s5 ← set_right s4 node none
        let p5 ← deref s5 predecessor
        let s6 ← set_left s5 node p5.left
        let p6 ← deref s6 predecessor
        let s7 ← set_parent_if s6 p6.left node
        let s8 ← relink_node node predecessor predecessor_p node_left s7
        let n8 ← deref s8 node
        let p8 ← deref s8 predecessor
        let s9 ← set_color s8 node p8.color
        set_color s9 predecessor n8.color

/-- The statements of `rb_erase_node` for a node with at most one child (rbtree.c lines
263-304): the returned pointer and the new state. -/
def erase_node_unlink (node : Option Nat) (s1 : State) : M (Option Nat × State) := do
  let n1 ← deref s1 node
  if n1.left ≠ none ∧ n1.right ≠ none then Except.error (Fault.assert_c 264)
  else do
    let p ← rb_parent s1 node
    let c := if n1.left ≠ none then n1.left else n1.right
    let s2 ← rb_unlink_node node s1
    let red ← rb_is_red s2 node
    if red then do
      let n2 ← deref s2 node
      if ¬ (n2.left = none ∧ n2.right = none) then Except.error (Fault.assert_c 279)
      else if p = none then Except.error (Fault.assert_c 280)
      else pure (none, s2)
    else do
      let cred ← rb_is_red s2 c
      if cred then do
        let cn ← deref s2 c
        if ¬ (cn.left = none ∧ cn.right = none) then Except.error (Fault.assert_c 294)
        else do
          let s3 ← rb_set_black s2 c
          pure (none, s3)
      else do
        let n2 ← deref s2 node
        if ¬ (n2.left = none ∧ n2.right = none) then Except.error (Fault.assert_c 302)
        else pure (p, s2)

/-- The function `rb_erase_node` (rbtree.c lines 254-305): the returned pointer and the new
state. -/
def rb_erase_node (fuel : Nat) (node : Option Nat) (s : State) : M (Option Nat × State) :=
  match node with
  | none => Except.error (Fault.assert_c 256)
  | some _ => do
    let nn ← deref s node
    let s1 ← if nn.left ≠ none ∧ nn.right ≠ none then rb_replace_to_predecessor fuel node s
      else pure s
    erase_node_unlink node s1

/-- The operator `&&` on two conditions: the second is evaluated only when the first
holds. -/
def and_then (a b : M Bool) : M Bool := do
  let x ← a
  if x then b else pure false

/-- The variables `sc` and `sd` of `rb_erase_balance` as lines 382-388 and 445-451 assign
them. -/
def nephews (st : State) (n p s : Option Nat) : M (Option Nat × Option Nat) := do
  let pn ← deref st p
  let sn ← deref st s
  if pn.left = n then pure (sn.left, sn.right) else pure (sn.right, sn.left)

/-- The statement `if (p->left == n) rb_rotate_left(x, root); else rb_rotate_right(x, root);`
of `rb_erase_balance`. -/
def rotate_towards (st : State) (n p x : Option Nat) : M State := do
  let pn ← deref st p
  if pn.left = n then rb_rotate_left x st else rb_rotate_right x st

/-- The statement `if (p->left == n) rb_rotate_right(x, root); else rb_rotate_left(x, root);`
of `rb_erase_balance`. -/
def rotate_away (st : State) (n p x : Option Nat) : M State := do
  let pn ← deref st p
  if pn.left = n then rb_rotate_right x st else rb_rotate_left x st

/-- Case 3 of `rb_erase_balance` (rbtree.c lines 367-389): the state and the variables `s`,
`sc` and `sd` after it. -/
def erase_case3 (st : State) (n p s sc sd : Option Nat) :
    M (State × Option Nat × Option Nat × Option Nat) := do
  let sred ← rb_is_red st s
  if sred then do
    let a1 ← and_then (rb_is_black st p) (and_then (rb_is_black st sc) (rb_is_black st sd))
    if !a1 then Except.error (Fault.assert_c 368)
    else if sc = none ∨ sd = none then Except.error (Fault.assert_c 369)
    else do
      let t1 ← rb_set_black st s
      let t2 ← rb_set_red t1 p
      let t3 ← rotate_towards t2 n p s
      let (sc1, sd1) ← nephews t3 n p sc
      pure (t3, sc, sc1, sd1)
  else pure (st, s, sc, sd)

/-- Case 5 of `rb_erase_balance` (rbtree.c lines 434-452): the state and the variables `s`,
`sc` and `sd` after it. -/
def erase_case5 (st : State) (n p s sc sd : Option Nat) :
    M (State × Option Nat × Option Nat × Option Nat) := do
  let c5 ← and_then (rb_is_red st sc) (rb_is_black st sd)
  if c5 then do
    let a1 ← rb_is_black st s
    if !a1 then Except.error (Fault.assert_c 435)
    else do
      let t1 ← rb_set_red st s
      let t2 ← rb_set_black t1 sc
      let t3 ← rotate_away t2 n p sc
      let (sc1, sd1) ← nephews t3 n p sc
      pure (t3, sc, sc1, sd1)
  else pure (st, s, sc, sd)

/-- Case 6 of `rb_erase_balance` (rbtree.c lines 473-484). -/
def erase_case6 (st : State) (n p s sd : Option Nat) : M State := do
  let a1 ← rb_is_black st s
  if !a1 then Except.error (Fault.assert_c 473)
  else do
    let a2 ← rb_is_red st sd
    if !a2 then Except.error (Fault.assert_c 474)
    else do
      let t1 ← rotate_towards st n p s
      let pn ← deref t1 p
      let t2 ← set_color t1 s pn.color
      let t3 ← rb_set_black t2 p
      rb_set_black t3 sd

/-- Cases 4, 5 and 6 of `rb_erase_balance` (rbtree.c lines 402-484), which end the loop. -/
def erase_tail (st : State) (n p s sc sd : Option Nat) : M State := do
  let c4 ← and_then (rb_is_red st p) (and_then (rb_is_black st s)
    (and_then (rb_is_black st sc) (rb_is_black st sd)))
  if c4 then
    match s with
    | none => Except.error (Fault.assert_c 406)
    | some _ => do
      let t1 ← rb_set_black st p
      rb_set_red t1 s
  else do
    let (st5, s5, _, sd5) ← erase_case5 st n p s sc sd
    erase_case6 st5 n p s5 sd5

/-- The loop of `rb_erase_balance` (rbtree.c lines 318-485) entered with the variables `n`
and `p`. -/
def rb_erase_balance_loop : Nat → Option Nat → Option Nat → State → M State
  | 0, _, _, _ => Except.error Fault.diverges
  | fuel + 1, n, p, st =>
    match p with
    | none => pure st
    | some _ => do
      let pn ← deref st p
      let s := if pn.left = n then pn.right else pn.left
      match s with
      | none => Except.error (Fault.assert_c 325)
      | some _ => do
        let (sc, sd) ← nephews st n p s
        let c2 ← and_then (rb_is_black st p) (and_then (rb_is_black st s)
          (and_then (rb_is_black st sc) (rb_is_black st sd)))
        if c2 then do
          let st1 ← rb_set_red st s
          let p1 ← rb_parent st1 p
          rb_erase_balance_loop fuel p p1 st1
        else do
          let (st3, s3, sc3, sd3) ← erase_case3 st n p s sc sd
          erase_tail st3 n p s3 sc3 sd3

/-- The function `rb_erase_balance` (rbtree.c lines 307-486). -/
def rb_erase_balance (fuel : Nat) (p : Option Nat) (s : State) : M State :=
  match p with
  | none => Except.error (Fault.assert_c 309)
  | some _ => rb_erase_balance_loop fuel none p s

/-- The function `rb_erase` (rbtree.c lines 488-494). -/
def rb_erase (fuel : Nat) (node : Option Nat) (s : State) : M State := do
  let (p, s1) ← rb_erase_node fuel node s
  match p with
  | none => pure s1
  | some _ => rb_erase_balance fuel p s1

/-- The loop of `rb_erase_val` (main.c lines 37-46) entered with the variable `node`: its
final value. -/
def erase_search (val : Int) (s : State) : Nat → Option Nat → M (Option Nat)
  | 0, _ => Except.error Fault.diverges
  | fuel + 1, node =>
    match node with
    | none => pure none
    | some _ => do
      let nn ← deref s node
      if val = nn.val then pure node
      else if val < nn.val then erase_search val s fuel nn.left
      else erase_search val s fuel nn.right

/-- The function `rb_free_node` (rbtree.h lines 56-60): the block is no longer allocated. -/
def rb_free_node (node : Option Nat) (s : State) : M State :=
  match node with
  | none => Except.error (Fault.assert_h 58)
  | some a =>
    match s.mem a with
    | none => Except.error Fault.bad_pointer
    | some _ => Except.ok { s with mem := Function.update s.mem a none }

/-- The function `rb_erase_val` (main.c lines 32-52); the same fuel bounds each loop. -/
def rb_erase_val (fuel : Nat) (val : Int) (s : State) : M State := do
  let node ← erase_search val s fuel s.node
  match node with
  | none => pure s
  | some _ => do
    let s1 ← rb_erase fuel node s
    rb_free_node node s1

/-- The function `rb_inorder_traverse` (util.c lines 163-172): the values it prints. -/
def rb_inorder_traverse (s : State) : Nat → Option Nat → M (List Int)
  | 0, _ => Except.error Fault.diverges
  | fuel + 1, x =>
    match x with
    | none => pure []
    | some _ => do
      let xn ← deref s x
      let l ← rb_inorder_traverse s fuel xn.left
      let r ← rb_inorder_traverse s fuel xn.right
      pure (l ++ xn.val :: r)

/-- The colour of the root of a tree; `NULL` is black. -/
def Tree.color : Tree → Int
  | Tree.nil => RB_BLACK
  | Tree.node _ _ c _ _ => c

/-- The subtree `t` satisfies the red-black properties 1, 4 and 5 with `n` black nodes on
every path from its root to a leaf, the leaf (`NULL`) included. -/
def Valid : Tree → Nat → Prop
  | Tree.nil, n => n = 1
  | Tree.node l _ c _ r, n =>
    (c = RB_RED ∧ l.color = RB_BLACK ∧ r.color = RB_BLACK ∧ Valid l n ∧ Valid r n) ∨
    (c = RB_BLACK ∧ ∃ m, n = m + 1 ∧ Valid l m ∧ Valid r m)

/-- The node of the first frame of a path is black. -/
def headBlack : List Frame → Prop
  | [] => False
  | f :: _ => f.color = RB_BLACK

/-- The path satisfies the red-black properties around a subtree with `n` black nodes on
every path to a leaf. -/
def PathValid : List Frame → Nat → Prop
  | [], _ => True
  | Frame.L _ c _ r :: up, n =>
    (c = RB_RED ∧ r.color = RB_BLACK ∧ Valid r n ∧ headBlack up ∧ PathValid up n) ∨
    (c = RB_BLACK ∧ Valid r n ∧ PathValid up (n + 1))
  | Frame.R l _ c _ :: up, n =>
    (c = RB_RED ∧ l.color = RB_BLACK ∧ Valid l n ∧ headBlack up ∧ PathValid up n) ∨
    (c = RB_BLACK ∧ Valid l n ∧ PathValid up (n + 1))

/-- The red-black properties 1 to 5 of a whole tree. -/
def RBShape (t : Tree) : Prop := t.color = RB_BLACK ∧ ∃ n, Valid t n

/-- The values before the subtree at the lower end of a path, in order. -/
def pathBefore : List Frame → List Int
  | [] => []
  | Frame.L _ _ _ _ :: up => pathBefore up
  | Frame.R l _ _ v :: up => pathBefore up ++ (l.inorder ++ [v])

/-- The values after the subtree at the lower end of a path, in order. -/
def pathAfter : List Frame → List Int
  | [] => []
  | Frame.L _ _ v r :: up => (v :: r.inorder) ++ pathAfter up
  | Frame.R _ _ _ _ :: up => pathAfter up

/-- The tree is a red-black tree: properties 1 to 5 and the order of the values. -/
def IsRBTree (t : Tree) : Prop := RBShape t ∧ t.inorder.Sorted (· ≤ ·)

/-- The subtree below the parent of a frame, with `t` in the place of the hole. -/
def fill : Frame → Tree → Tree
  | Frame.L a c v r, t => Tree.node t a c v r
  | Frame.R l a c v, t => Tree.node l a c v t

/-- The frame with the colour of its node replaced. -/
def Frame.recolor : Frame → Int → Frame
  | Frame.L a _ v r, c => Frame.L a c v r
  | Frame.R l a _ v, c => Frame.R l a c v

/-- The sibling subtree of a frame. -/
def Frame.sibling : Frame → Tree
  | Frame.L _ _ _ r => r
  | Frame.R l _ _ _ => l

/-- The record of the node of a frame, with parent pointer `par` and the pointer `hole` to
the subtree in focus. -/
def Frame.node : Frame → Option Nat → Option Nat → rbnode
  | Frame.L _ c v r, par, hole => ⟨par, hole, r.ptr, c, v⟩
  | Frame.R l _ c v, par, hole => ⟨par, l.ptr, hole, c, v⟩

/-- The frame seen from the sibling: the subtree `x` that was in focus becomes the sibling. -/
def Frame.flip : Frame → Tree → Frame
  | Frame.L a c v _, x => Frame.R x a c v
  | Frame.R _ a c v, x => Frame.L a c v x

/-- The subtree in focus is the left child. -/
def Frame.isL : Frame → Bool
  | Frame.L _ _ _ _ => true
  | Frame.R _ _ _ _ => false

/-- The link that holds the subtree at the lower end of a path. -/
def linkOf : List Frame → Link
  | [] => Link.root
  | Frame.L a _ _ _ :: _ => Link.left a
  | Frame.R _ a _ _ :: _ => Link.right a

/-- The nodes of a tree in order, each with its block identifier and its value. -/
def Tree.nodes : Tree → List (Nat × Int)
  | Tree.nil => []
  | Tree.node l a _ v r => l.nodes ++ (a, v) :: r.nodes

/-- What the code of `rb_erase_balance` reads when the node `n` is a left child. -/
structure ReadsL (st : State) (up : List Frame) (t : Tree) (pa : Nat) (cp pv : Int)
    (sc : Tree) (sa : Nat) (cs sv : Int) (sd : Tree) : Prop where
  dp : deref st (some pa) = Except.ok ⟨pathPtr up none, t.ptr, some sa, cp, pv⟩
  ds : deref st (some sa) = Except.ok ⟨some pa, sc.ptr, sd.ptr, cs, sv⟩
  bp : rb_is_black st (some pa) = Except.ok (decide (cp = RB_BLACK))
  rp : rb_is_red st (some pa) = Except.ok (decide (cp = RB_RED))
  bs : rb_is_black st (some sa) = Except.ok (decide (cs = RB_BLACK))
  rs : rb_is_red st (some sa) = Except.ok (decide (cs = RB_RED))
  bc : rb_is_black st sc.ptr = Except.ok (decide (sc.color = RB_BLACK))
  rc : rb_is_red st sc.ptr = Except.ok (decide (sc.color = RB_RED))
  bd : rb_is_black st sd.ptr = Except.ok (decide (sd.color = RB_BLACK))
  rd : rb_is_red st sd.ptr = Except.ok (decide (sd.color = RB_RED))
  nep : nephews st t.ptr (some pa) (some sa) = Except.ok (sc.ptr, sd.ptr)

/-- What the code of `rb_erase_balance` reads when the node `n` is a right child. -/
structure ReadsR (st : State) (up : List Frame) (t : Tree) (pa : Nat) (cp pv : Int)
    (sc : Tree) (sa : Nat) (cs sv : Int) (sd : Tree) : Prop where
  dp : deref st (some pa) = Except.ok ⟨pathPtr up none, some sa, t.ptr, cp, pv⟩
  ds : deref st (some sa) = Except.ok ⟨some pa, sd.ptr, sc.ptr, cs, sv⟩
  ne : some sa ≠ t.ptr
  bp : rb_is_black st (some pa) = Except.ok (decide (cp = RB_BLACK))
  rp : rb_is_red st (some pa) = Except.ok (decide (cp = RB_RED))
  bs : rb_is_black st (some sa) = Except.ok (decide (cs = RB_BLACK))
  rs : rb_is_red st (some sa) = Except.ok (decide (cs = RB_RED))
  bc : rb_is_black st sc.ptr = Except.ok (decide (sc.color = RB_BLACK))
  rc : rb_is_red st sc.ptr = Except.ok (decide (sc.color = RB_RED))
  bd : rb_is_black st sd.ptr = Except.ok (decide (sd.color = RB_BLACK))
  rd : rb_is_red st sd.ptr = Except.ok (decide (sd.color = RB_RED))
  nep : nephews st t.ptr (some pa) (some sa) = Except.ok (sc.ptr, sd.ptr)

/-- Every block allocated in `s` is allocated in `s1`. -/
def Keeps (s s1 : State) : Prop := ∀ q, s.mem q ≠ none → s1.mem q ≠ none

/-- A tree with three nodes: 5 at the root, 3 and 8 below it. -/
def example_tree : Tree :=
  Tree.node (Tree.node Tree.nil 2 RB_RED 3 Tree.nil) 1 RB_BLACK 5
    (Tree.node Tree.nil 3 RB_RED 8 Tree.nil)

/-- The state that holds `example_tree` in the blocks 1, 2 and 3. -/
def example_state : State :=
  { mem := fun q =>
      if q = 1 then some ⟨none, some 2, some 3, RB_BLACK, 5⟩
      else if q = 2 then some ⟨some 1, none, none, RB_RED, 3⟩
      else if q = 3 then some ⟨some 1, none, none, RB_RED, 8⟩
      else none,
    node := some 1 }

end Rbtree -- definitions

/-!
## Part 6: `nqueen/nqueen.c`, the N-queens search

The three arrays of `struct nqueens` are lists of `uint32_t` words; an element outside an
array, the shift `1 << i` past the width of `int` and `memset` on `NULL` are faults.  The loop
and the recursion of `__nqueens_search` take a fuel, and the recursive call is a parameter of
the loop.  The counter `total` is a `uint32_t`: `total++` wraps around at `2 ^ 32`.
-/

namespace Nqueen

/-- The ways the functions end abnormally. -/
inductive Fault where
  /-- `memset` on the `NULL` that `malloc` returned. -/
  | null_pointer
  /-- An array element outside the allocated block. -/
  | out_of_bounds
  /-- Line 48, `1 << i` with `i >= 31`: the value does not fit the type `int`. -/
  | shift_overflow
  /-- A loop or the recursion did not end within the fuel. -/
  | diverges
  deriving DecidableEq, Repr

/-- The type `struct nqueens` (lines 12-18); the three pointers are the arrays they point to.
Every number is a `uint32_t`. -/
structure nqueens where
  n : Nat
  total : Nat
  column : List Nat
  diagnoal : List Nat
  antidiagnoal : List Nat
  deriving DecidableEq, Repr

/-- The value of a `uint32_t` expression whose mathematical value is `x`. -/
def to_u32 (x : Nat) : Nat := x % 2 ^ 32

/-- The operator `~` on a `uint32_t`. -/
def bit_not (x : Nat) : Nat := 2 ^ 32 - 1 - x % 2 ^ 32

/-- The loop of `ctz`: the position of the lowest set bit of `x`, counted from `i`, among
the next `k` bits. -/
def ctz_loop : Nat → Nat → Nat → Nat
  | 0, _, i => i
  | k + 1, x, i => if x % 2 = 1 then i else ctz_loop k (x / 2) (i + 1)

/-- The builtin `__builtin_ctz` on a 32-bit value: the number of trailing zero bits.  The
compiler leaves the result for `0` undefined; the search never asks for it. -/
def ctz (x : Nat) : Nat := ctz_loop 32 x 0

/-- The element `a[i]` read from an array. -/
def read (a : List Nat) (i : Nat) : Except Fault Nat :=
  match a[i]? with
  | some v => Except.ok v
  | none => Except.error Fault.out_of_bounds

/-- The assignment `a[i] = v`. -/
def write (a : List Nat) (i v : Nat) : Except Fault (List Nat) :=
  if i < a.length then Except.ok (a.set i v) else Except.error Fault.out_of_bounds

/-- The function `nqueens_init` (lines 20-32).  `col`, `diag` and `anti` are what the three
calls of `malloc` return: `none` for `NULL`, `some g` for a block of `n` words with the
arbitrary contents `g`.  The result is `*nq`; the function itself returns 0. -/
def nqueens_init (col diag anti : Option (List Nat)) (n : Nat) : Except Fault nqueens :=
  match col, diag, anti with
  | some c, some d, some a =>
    Except.ok { n := n, total := 0, column := c.map (fun _ => 0),
                diagnoal := d.map (fun _ => 0), antidiagnoal := a.map (fun _ => 0) }
  | _, _, _ => Except.error Fault.null_pointer

/-- The branch `else` of the loop (lines 48-52) up to the recursive call: the masks of the
row `row + 1` with a queen in the column `i` of the row `row`. -/
def place (nq : nqueens) (row i : Nat) : Except Fault nqueens :=
  if 31 ≤ i then Except.error Fault.shift_overflow
  else do
    let mask := to_u32 (1 <<< i)
    let c ← read nq.column row
    let column ← write nq.column (row + 1) (c ||| mask)
    let d ← read nq.diagnoal row
    let diagnoal ← write nq.diagnoal (row + 1) ((d ||| mask) >>> 1)
    let a ← read nq.antidiagnoal row
    let antidiagnoal ← write nq.antidiagnoal (row + 1) (to_u32 ((a ||| mask) <<< 1))
    pure { nq with column := column, diagnoal := diagnoal, antidiagnoal := antidiagnoal }

/-- The loop `while (avail)` of `__nqueens_search` (lines 40-56) entered with the value
`avail`; `call` is the recursive call `__nqueens_search(nq, row+1)`. -/
def search_loop (call : nqueens → Except Fault nqueens) (row : Nat) :
    Nat → nqueens → Nat → Except Fault nqueens
  | 0, _, _ => Except.error Fault.diverges
  | fuel + 1, nq, avail =>
    if avail = 0 then Except.ok nq
    else if nq.n ≤ ctz avail then Except.ok nq
    else
      match (if row = to_u32 (nq.n + (2 ^ 32 - 1))
             then Except.ok { nq with total := to_u32 (nq.total + 1) }
             else place nq row (ctz avail) >>= call) with
      | Except.error e => Except.error e
      | Except.ok nq1 => search_loop call row fuel nq1 (avail &&& (avail - 1))

/-- The function `__nqueens_search` (lines 34-57).  The fuel bounds the depth of the
recursion and the number of iterations of the loop. -/
def nqueens_search_row : Nat → nqueens → Nat → Except Fault nqueens
  | 0, _, _ => Except.error Fault.diverges
  | fuel + 1, nq, row => do
    let c ← read nq.column row
    let d ← read nq.diagnoal row
    let a ← read nq.antidiagnoal row
    search_loop (fun nq1 => nqueens_search_row fuel nq1 (row + 1)) row (fuel + 1) nq
      (bit_not (c ||| d ||| a))

/-- The function `nqueens_search` (lines 59-62). -/
def nqueens_search (fuel : Nat) (nq : nqueens) : Except Fault nqueens :=
  nqueens_search_row fuel nq 0

/-- The value of `nq.total` that `main` (lines 74-83) prints, with the board size `n` in the
place of 8, when every `malloc` returns a block; the contents of a fresh block are taken to
be zeros, which `memset` writes anyway. -/
def total_of (fuel n : Nat) : Except Fault Nat := do
  let nq ← nqueens_init (some (List.replicate n 0)) (some (List.replicate n 0))
    (some (List.replicate n 0)) n
  let nq1 ← nqueens_search fuel nq
  pure nq1.total

/-- Two queens, in the column `c1` of the row `r1` and in the column `c2` of the row `r2`,
share a column, a diagonal or an anti-diagonal. -/
def attacks (r1 c1 r2 c2 : Nat) : Prop :=
  c1 = c2 ∨ r1 + c2 = r2 + c1 ∨ r1 + c1 = r2 + c2

instance (r1 c1 r2 c2 : Nat) : Decidable (attacks r1 c1 r2 c2) := by
  unfold attacks; infer_instance

/-- A placement of `n` queens on the `n x n` board, one per row, the queen of the row `r` in
the column `q r`, in which no two queens share a column, a diagonal or an anti-diagonal. -/
def is_solution (n : Nat) (q : Fin n → Fin n) : Prop :=
  ∀ r1 r2 : Fin n, r1 < r2 → ¬ attacks r1 (q r1) r2 (q r2)

instance (n : Nat) (q : Fin n → Fin n) : Decidable (is_solution n q) := by
  unfold is_solution; infer_instance

/-- The number of ways to place `n` queens on the `n x n` board. -/
def solution_count (n : Nat) : Nat :=
  (Finset.univ.filter (fun q : Fin n → Fin n => is_solution n q)).card

/-- The queens of the first rows, the queen of the row `r` in the column `p[r]`, are on the
board of size `n` and no two of them share a column, a diagonal or an anti-diagonal. -/
def Safe (n : Nat) (p : List Nat) : Prop :=
  (∀ c ∈ p, c < n) ∧
  ∀ r1 r2 c1 c2, r1 < r2 → p[r1]? = some c1 → p[r2]? = some c2 → ¬ attacks r1 c1 r2 c2

/-- No queen of `p` attacks the column `j` of the next row. -/
def Free (p : List Nat) (j : Nat) : Prop :=
  ∀ r c, p[r]? = some c → ¬ attacks r c p.length j

/-- The placement `q` of `n` queens has the queens of `p` in its first rows. -/
def Extends (n : Nat) (p : List Nat) (q : Fin n → Fin n) : Prop :=
  ∀ r : Fin n, r.val < p.length → p[r.val]? = some (q r).val

instance (n : Nat) (p : List Nat) (q : Fin n → Fin n) : Decidable (Extends n p q) := by
  unfold Extends; infer_instance

/-- The number of solutions that have the queens of `p` in their first rows. -/
def completions (n : Nat) (p : List Nat) : Nat :=
  (Finset.univ.filter (fun q : Fin n → Fin n => is_solution n q ∧ Extends n p q)).card

/-- The three arrays have `n` elements and the counter is a `uint32_t`. -/
def Sized (nq : nqueens) : Prop :=
  nq.column.length = nq.n ∧ nq.diagnoal.length = nq.n ∧ nq.antidiagnoal.length = nq.n ∧
  nq.total < 2 ^ 32

/-- The masks of the row `row` are those of the queens `p` of the rows before it: the bit `j`
is set in `column[row]` when a queen is in the column `j`, in `diagnoal[row]` when the
diagonal of a queen meets the row in the column `j`, and in `antidiagnoal[row]` when the
anti-diagonal of a queen does. -/
def Masks (nq : nqueens) (row : Nat) (p : List Nat) : Prop :=
  (∃ c, nq.column[row]? = some c ∧ c < 2 ^ 32 ∧
    ∀ j, c.testBit j = true ↔ ∃ r : Nat, p[r]? = some j) ∧
  (∃ d, nq.diagnoal[row]? = some d ∧ d < 2 ^ 32 ∧
    ∀ j, d.testBit j = true ↔ ∃ r : Nat, p[r]? = some (j + (row - r))) ∧
  (∃ a, nq.antidiagnoal[row]? = some a ∧ a < 2 ^ 32 ∧
    ∀ j, a.testBit j = true ↔ j < 32 ∧ ∃ r c : Nat, p[r]? = some c ∧ c + (row - r) = j)

/-- The state `nq1` differs from `nq` at most in the counter and in the array elements after
the row `row`. -/
def Same (row : Nat) (nq nq1 : nqueens) : Prop :=
  nq1.n = nq.n ∧ nq1.column.length = nq.column.length ∧
  nq1.diagnoal.length = nq.diagnoal.length ∧
  nq1.antidiagnoal.length = nq.antidiagnoal.length ∧
  ∀ k, k ≤ row → nq1.column[k]? = nq.column[k]? ∧ nq1.diagnoal[k]? = nq.diagnoal[k]? ∧
    nq1.antidiagnoal[k]? = nq.antidiagnoal[k]?

/-- No queen of the rows `r`, `r + 1`, ..., in the columns `p`, attacks the column `j` of the
row `row`; a test. -/
def free_from (row j : Nat) : Nat → List Nat → Bool
  | _, [] => true
  | r, c :: cs =>
    !(c == j || r + j == row + c || r + c == row + j) && free_from row j (r + 1) cs

/-- The number of ways to fill the next `m` rows after the queens `p`, by trying every free
column of each row. -/
def count_ext (n : Nat) : Nat → List Nat → Nat
  | 0, _ => 1
  | m + 1, p => ((List.range n).map
      (fun j => if free_from p.length j 0 p then count_ext n m (p ++ [j]) else 0)).sum

end Nqueen -- definitions

/-! ## Theorems about `libco/co.c` -/

namespace Libco

theorem CO_MAX_eq : CO_MAX = 128 := rfl

theorem cyc_succ (idx k : Nat) : ((idx + k) % CO_MAX + 1) % CO_MAX = (idx + (k + 1)) % CO_MAX := by
  simp only [CO_MAX_eq]; omega

theorem cyc_ne (idx k : Nat) (h1 : 1 ≤ k) (h2 : k < CO_MAX) :
    (idx + k) % CO_MAX ≠ idx := by
  simp only [CO_MAX_eq] at *; omega

theorem cyc_lt (idx k : Nat) : (idx + k) % CO_MAX < CO_MAX := Nat.mod_lt _ (by decide)

/-- Every slot below `CO_MAX` is at an offset between `1` and `CO_MAX` from the cursor. -/
theorem cyc_offset (idx i : Nat) (hidx : idx < CO_MAX) (hi : i < CO_MAX) :
    ∃ k, 1 ≤ k ∧ k ≤ CO_MAX ∧ (idx + k) % CO_MAX = i ∧ (k = CO_MAX ↔ i = idx) := by
  simp only [CO_MAX_eq] at *
  by_cases h : idx < i
  · exact ⟨i - idx, by omega, by omega, by omega, by omega⟩
  · exact ⟨i + 128 - idx, by omega, by omega, by omega, by omega⟩

/-- The loop of `co_start` stops at the first offset `k1` from the cursor whose slot is empty,
or at the cursor itself (offset `CO_MAX`) when there is none. -/
theorem co_start_scan_spec (cl : Nat → Option Nat) (idx : Nat) (hidx : idx < CO_MAX) :
    ∀ fuel k, 1 ≤ k → k ≤ CO_MAX → CO_MAX < fuel + k →
      ∃ k1, k ≤ k1 ∧ k1 ≤ CO_MAX ∧
        co_start_scan cl idx fuel ((idx + k) % CO_MAX) = some ((idx + k1) % CO_MAX) ∧
        (∀ j, k ≤ j → j < k1 → cl ((idx + j) % CO_MAX) ≠ none) ∧
        (k1 < CO_MAX → cl ((idx + k1) % CO_MAX) = none) := by
  intro fuel
  induction fuel with
  | zero => intro k _ h2 h3; omega
  | succ fuel ih =>
    intro k h1 h2 h3
    by_cases hk : k = CO_MAX
    · refine ⟨k, le_refl _, h2, ?_, fun j a b => by omega, fun h => by omega⟩
      have : (idx + k) % CO_MAX = idx := by simp only [CO_MAX_eq] at *; omega
      simp [co_start_scan, this]
    · have hlt : k < CO_MAX := lt_of_le_of_ne h2 hk
      have hne := cyc_ne idx k h1 hlt
      by_cases hfree : cl ((idx + k) % CO_MAX) = none
      · exact ⟨k, le_refl _, h2, by simp [co_start_scan, hne, hfree], fun j a b => by omega,
          fun _ => hfree⟩
      · obtain ⟨k1, a1, a2, a3, a4, a5⟩ := ih (k + 1) (by omega) (by omega) (by omega)
        refine ⟨k1, by omega, a2, ?_, ?_, a5⟩
        · simp only [co_start_scan, hne, hfree, if_false, cyc_succ]; exact a3
        · intro j hj1 hj2
          by_cases hjk : j = k
          · subst hjk; exact hfree
          · exact a4 j (by omega) hj2

/-- The slot search of `co_start` as a whole: it always ends, at the first empty slot after the
cursor in cyclic order, the cursor slot being tried last (offset `CO_MAX`). -/
theorem co_start_search (s : Sched) (hidx : s.start_idx < CO_MAX) :
    ∃ k, 1 ≤ k ∧ k ≤ CO_MAX ∧
      co_start_scan s.co_list s.start_idx CO_MAX ((s.start_idx + 1) % CO_MAX)
        = some ((s.start_idx + k) % CO_MAX) ∧
      (∀ j, 1 ≤ j → j < k → s.co_list ((s.start_idx + j) % CO_MAX) ≠ none) ∧
      (k < CO_MAX → s.co_list ((s.start_idx + k) % CO_MAX) = none) :=
  co_start_scan_spec s.co_list s.start_idx hidx CO_MAX 1 (le_refl _) (by decide) (by decide)

/-- With every slot occupied, the search comes back to the cursor. -/
theorem co_start_search_full (s : Sched) (hidx : s.start_idx < CO_MAX)
    (hfull : ∀ i, i < CO_MAX → s.co_list i ≠ none) :
    co_start_scan s.co_list s.start_idx CO_MAX ((s.start_idx + 1) % CO_MAX)
      = some s.start_idx := by
  obtain ⟨k, h1, h2, h3, _, h5⟩ := co_start_search s hidx
  by_cases hk : k = CO_MAX
  · rw [h3]; congr 1; simp only [CO_MAX_eq] at *; omega
  · exact absurd (h5 (lt_of_le_of_ne h2 hk)) (hfull _ (cyc_lt _ _))

/-- With an empty slot, the search ends at an empty slot. -/
theorem co_start_search_free (s : Sched) (hidx : s.start_idx < CO_MAX)
    (hfree : ∃ i, i < CO_MAX ∧ s.co_list i = none) :
    ∃ k, 1 ≤ k ∧ k ≤ CO_MAX ∧
      co_start_scan s.co_list s.start_idx CO_MAX ((s.start_idx + 1) % CO_MAX)
        = some ((s.start_idx + k) % CO_MAX) ∧
      (∀ j, 1 ≤ j → j < k → s.co_list ((s.start_idx + j) % CO_MAX) ≠ none) ∧
      s.co_list ((s.start_idx + k) % CO_MAX) = none := by
  obtain ⟨k, h1, h2, h3, h4, h5⟩ := co_start_search s hidx
  refine ⟨k, h1, h2, h3, h4, ?_⟩
  by_cases hk : k = CO_MAX
  · obtain ⟨i, hi, hnone⟩ := hfree
    obtain ⟨m, m1, m2, m3, m4⟩ := cyc_offset s.start_idx i hidx hi
    by_cases hm : m = CO_MAX
    · have : (s.start_idx + k) % CO_MAX = i := by rw [hk]; rw [hm] at m3; exact m3
      rw [this]; exact hnone
    · exact absurd (m3 ▸ hnone) (h4 m m1 (by omega))
  · exact h5 (lt_of_le_of_ne h2 hk)

theorem co_start_full (name : String) (func arg : Nat) (mem : Option Nat) (s : Sched)
    (hidx : s.start_idx < CO_MAX) (hfull : ∀ i, i < CO_MAX → s.co_list i ≠ none) :
    co_start name func arg mem s = Except.ok (none, s) := by
  unfold co_start
  rw [co_start_search_full s hidx hfull]
  simp [hfull _ hidx]

theorem co_start_free (name : String) (func arg : Nat) (mem : Option Nat) (s : Sched)
    (hidx : s.start_idx < CO_MAX) (hfree : ∃ i, i < CO_MAX ∧ s.co_list i = none) :
    ∃ k, 1 ≤ k ∧ k ≤ CO_MAX ∧
      (∀ j, 1 ≤ j → j < k → s.co_list ((s.start_idx + j) % CO_MAX) ≠ none) ∧
      s.co_list ((s.start_idx + k) % CO_MAX) = none ∧
      co_start name func arg mem s = Except.ok
        (match mem with
          | none => (none, { s with start_idx := (s.start_idx + k) % CO_MAX })
          | some p => (some p, started name func arg p ((s.start_idx + k) % CO_MAX) s)) := by
  obtain ⟨k, h1, h2, h3, h4, h5⟩ := co_start_search_free s hidx hfree
  refine ⟨k, h1, h2, h4, h5, ?_⟩
  unfold co_start
  rw [h3]
  have hno : ¬ ((s.start_idx + k) % CO_MAX = s.start_idx ∧ s.co_list s.start_idx ≠ none) := by
    rintro ⟨e, hne⟩
    rw [e] at h5
    exact hne h5
  cases mem <;> simp [hno, started]

/-- The value the loop of `co_start` is left with is a slot index, and it is the cursor or an
empty slot. -/
theorem co_start_scan_sound (cl : Nat → Option Nat) (idx : Nat) :
    ∀ fuel i0 i, i0 < CO_MAX → co_start_scan cl idx fuel i0 = some i →
      i < CO_MAX ∧ (i = idx ∨ cl i = none) := by
  intro fuel
  induction fuel with
  | zero => intro i0 i _ h; simp [co_start_scan] at h
  | succ fuel ih =>
    intro i0 i h0 h
    unfold co_start_scan at h
    split_ifs at h with h1 h2
    · injection h with h; subst h; exact ⟨h0, Or.inl h1⟩
    · injection h with h; subst h; exact ⟨h0, Or.inr h2⟩
    · exact ih _ i (Nat.mod_lt _ (by decide)) h

/-- A successful `co_start` found an empty slot and wrote the new block and the registry
entry. -/
theorem co_start_ok (name : String) (func arg : Nat) (mem : Option Nat) (s s1 : Sched)
    (p : Nat) (h : co_start name func arg mem s = Except.ok (some p, s1)) :
    ∃ i, i < CO_MAX ∧ s.co_list i = none ∧ mem = some p ∧ s1 = started name func arg p i s := by
  unfold co_start at h
  split at h
  · exact absurd h (by simp)
  · rename_i i hscan
    obtain ⟨hi, hor⟩ := co_start_scan_sound _ _ _ _ _ (Nat.mod_lt _ (by decide)) hscan
    split_ifs at h with hc
    · simp at h
    · cases mem with
      | none => simp at h
      | some q =>
        simp only [Except.ok.injEq, Prod.mk.injEq, Option.some.injEq] at h
        obtain ⟨hq, hs⟩ := h
        subst hq
        refine ⟨i, hi, ?_, rfl, ?_⟩
        · rcases hor with e | e
          · by_contra hne
            exact hc ⟨e, e ▸ hne⟩
          · exact e
        · rw [← hs]; rfl

theorem filledTo_init : FilledTo 0 init := by
  refine ⟨rfl, ?_, ?_⟩
  · intro i hi
    have : i = 0 := by omega
    subst this; simp [init]
  · intro i hi
    have : i ≠ 0 := by omega
    simp [init, this]

theorem filledTo_start (k : Nat) (s : Sched) (hk : k + 1 < CO_MAX) (h : FilledTo k s)
    (name : String) (func arg p : Nat) :
    ∃ s1, co_start name func arg (some p) s = Except.ok (some p, s1) ∧ FilledTo (k + 1) s1 := by
  obtain ⟨h1, h2, h3⟩ := h
  have hidx : s.start_idx < CO_MAX := by omega
  obtain ⟨j, j1, j2, j3, j4, j5⟩ :=
    co_start_free name func arg (some p) s hidx ⟨k + 1, hk, h3 _ (by omega)⟩
  have hj : j = 1 := by
    by_contra hne
    have := j3 1 (le_refl _) (by omega)
    rw [h1, Nat.mod_eq_of_lt hk] at this
    exact this (h3 _ (by omega))
  subst hj
  rw [h1, Nat.mod_eq_of_lt hk] at j5
  refine ⟨_, j5, rfl, ?_, ?_⟩
  · intro i hi
    by_cases e : i = k + 1
    · subst e; simp [started]
    · simp only [started, Function.update_noteq e]
      exact h2 i (by omega)
  · intro i hi
    have e : i ≠ k + 1 := by omega
    simp only [started, Function.update_noteq e]
    exact h3 i (by omega)

theorem filledTo_full (s : Sched) (h : FilledTo (CO_MAX - 1) s) :
    ∀ i, i < CO_MAX → s.co_list i ≠ none := by
  intro i hi
  exact h.2.1 i (by omega)

/-- From a registry filled up to slot `k`, the next `CO_MAX - 1 - k` starts succeed, and a
start after them returns no handle. -/
theorem co_start_all_fill (last : String × Nat × Nat × Option Nat) :
    ∀ (reqs : List (String × Nat × Nat × Nat)) (k : Nat) (s : Sched),
      FilledTo k s → k + reqs.length + 1 = CO_MAX →
      ∃ s1, co_start_all
          (reqs.map (fun r => (r.1, r.2.1, r.2.2.1, some r.2.2.2)) ++ [last]) s
        = Except.ok (reqs.map (fun r => some r.2.2.2) ++ [none], s1) := by
  intro reqs
  induction reqs with
  | nil =>
    intro k s h hk
    obtain ⟨n, f, a, m⟩ := last
    have hk1 : k = CO_MAX - 1 := by simp at hk; omega
    subst hk1
    have hidx : s.start_idx < CO_MAX := by rw [h.1]; decide
    refine ⟨s, ?_⟩
    simp [co_start_all, co_start_full n f a m s hidx (filledTo_full s h)]
  | cons r reqs ih =>
    intro k s h hk
    obtain ⟨n, f, a, p⟩ := r
    simp only [List.length_cons] at hk
    obtain ⟨s1, e1, h1⟩ := filledTo_start k s (by omega) h n f a p
    obtain ⟨s2, e2⟩ := ih (k + 1) s1 h1 (by omega)
    refine ⟨s2, ?_⟩
    simp only [List.map_cons, List.cons_append, co_start_all, e1, List.append_eq, e2]

theorem slot_runnable_iff (s : Sched) (i : Nat) :
    slot_runnable s i = true ↔ ∃ p c, s.co_list i = some p ∧ s.heap p = some c ∧
      (c.status = co_status.CO_NEW ∨ c.status = co_status.CO_RUNNING) := by
  unfold slot_runnable
  constructor
  · intro h
    split at h
    · simp at h
    · rename_i p hp
      split at h
      · simp at h
      · rename_i c hc
        exact ⟨p, c, hp, hc, by simpa using h⟩
  · rintro ⟨p, c, hp, hc, hst⟩
    simp [hp, hc, hst]

/-- The loop of `co_next`, entered at offset `k` from the cursor: it returns from inside at the
first offset `k1` whose slot is accepted, or ends at the cursor when there is none. -/
theorem co_next_scan_spec (s : Sched) (idx : Nat) (hreg : RegistryValid s) :
    ∀ fuel k, 1 ≤ k → k ≤ CO_MAX → CO_MAX < fuel + k →
      (∃ k1 p, k ≤ k1 ∧ k1 < CO_MAX ∧
        (∀ j, k ≤ j → j < k1 → slot_runnable s ((idx + j) % CO_MAX) = false) ∧
        slot_runnable s ((idx + k1) % CO_MAX) = true ∧
        s.co_list ((idx + k1) % CO_MAX) = some p ∧
        co_next_scan s idx fuel ((idx + k) % CO_MAX)
          = Except.ok (some ((idx + k1) % CO_MAX, p))) ∨
      ((∀ j, k ≤ j → j < CO_MAX → slot_runnable s ((idx + j) % CO_MAX) = false) ∧
        (idx < CO_MAX →
          co_next_scan s idx fuel ((idx + k) % CO_MAX) = Except.ok none)) := by
  intro fuel
  induction fuel with
  | zero => intro k _ h2 h3; omega
  | succ fuel ih =>
    intro k h1 h2 h3
    by_cases hk : k = CO_MAX
    · right
      refine ⟨fun j a b => by omega, fun hidx => ?_⟩
      have : (idx + k) % CO_MAX = idx := by simp only [CO_MAX_eq] at *; omega
      simp [co_next_scan, this]
    · have hlt : k < CO_MAX := lt_of_le_of_ne h2 hk
      have hne := cyc_ne idx k h1 hlt
      have hrec := ih (k + 1) (by omega) (by omega) (by omega)
      by_cases hrun : slot_runnable s ((idx + k) % CO_MAX) = true
      · left
        obtain ⟨p, c, hp, hc, hst⟩ := (slot_runnable_iff _ _).1 hrun
        exact ⟨k, p, le_refl _, hlt, fun j a b => by omega, hrun, hp,
          by simp [co_next_scan, hne, hp, hc, hst]⟩
      · have hrun : slot_runnable s ((idx + k) % CO_MAX) = false := by simpa using hrun
        have hstep : co_next_scan s idx (fuel + 1) ((idx + k) % CO_MAX)
            = co_next_scan s idx fuel ((idx + (k + 1)) % CO_MAX) := by
          rw [← cyc_succ]
          conv_lhs => unfold co_next_scan
          simp only [hne, if_false]
          cases hp : s.co_list ((idx + k) % CO_MAX) with
          | none => rfl
          | some p =>
            cases hc : s.heap p with
            | none => exact absurd hc (hreg _ p (cyc_lt _ _) hp)
            | some c =>
              have : ¬ (c.status = co_status.CO_NEW ∨ c.status = co_status.CO_RUNNING) := by
                intro hst
                have := (slot_runnable_iff s _).2 ⟨p, c, hp, hc, hst⟩
                rw [hrun] at this
                exact absurd this (by simp)
              simp only [hc]
              simp [this]
        have hcover : ∀ j k2, (∀ j, k + 1 ≤ j → j < k2 →
            slot_runnable s ((idx + j) % CO_MAX) = false) → k ≤ j → j < k2 →
            slot_runnable s ((idx + j) % CO_MAX) = false := by
          intro j k2 hall hj1 hj2
          by_cases hjk : j = k
          · subst hjk; exact hrun
          · exact hall j (by omega) hj2
        rcases hrec with ⟨k1, p, a1, a2, a3, a4, a5, a6⟩ | ⟨b1, b2⟩
        · left
          exact ⟨k1, p, by omega, a2, fun j => hcover j k1 a3, a4, a5, hstep ▸ a6⟩
        · right
          exact ⟨fun j => hcover j CO_MAX b1, fun hidx => hstep ▸ b2 hidx⟩

/-- What `co_next` returns: the task in the first accepted slot after the cursor in cyclic
order, with the cursor moved there, or the current task with the state unchanged. -/
theorem co_next_spec (s : Sched) (hidx : s.next_idx < CO_MAX) (hreg : RegistryValid s) :
    (∃ k p, 1 ≤ k ∧ k < CO_MAX ∧
      (∀ j, 1 ≤ j → j < k → slot_runnable s ((s.next_idx + j) % CO_MAX) = false) ∧
      slot_runnable s ((s.next_idx + k) % CO_MAX) = true ∧
      s.co_list ((s.next_idx + k) % CO_MAX) = some p ∧
      co_next s = Except.ok (p, { s with next_idx := (s.next_idx + k) % CO_MAX })) ∨
    ((∀ j, 1 ≤ j → j < CO_MAX → slot_runnable s ((s.next_idx + j) % CO_MAX) = false) ∧
      co_next s = Except.ok (s.current, s)) := by
  rcases co_next_scan_spec s s.next_idx hreg CO_MAX 1 (le_refl _) (by decide) (by decide) with
    ⟨k, p, a1, a2, a3, a4, a5, a6⟩ | ⟨b1, b2⟩
  · left
    exact ⟨k, p, a1, a2, a3, a4, a5, by simp [co_next, a6]⟩
  · right
    exact ⟨b1, by simp [co_next, b2 hidx]⟩

theorem filter_range_skip (f : Nat → Bool) (n : Nat) :
    ∀ (m a : Nat), (∀ e, a ≤ e → e < a + m → f e = false) → f (a + m) = true →
      (List.range' a (m + 1 + n)).filter f = (a + m) :: (List.range' (a + m + 1) n).filter f := by
  intro m
  induction m with
  | zero =>
    intro a _ hhit
    have : 0 + 1 + n = n + 1 := by omega
    rw [this, List.range'_succ]
    simp only [Nat.add_zero] at hhit ⊢
    simp [hhit]
  | succ m ih =>
    intro a hskip hhit
    have : m + 1 + 1 + n = (m + 1 + n) + 1 := by omega
    rw [this, List.range'_succ]
    have ha : f a = false := hskip a (le_refl _) (by omega)
    have hrec := ih (a + 1) (fun e h1 h2 => hskip e (by omega) (by omega))
      (by rw [show a + 1 + m = a + (m + 1) by omega]; exact hhit)
    simp only [List.filter_cons, ha, Bool.false_eq_true, if_false]
    rw [hrec]
    rw [show a + 1 + m = a + (m + 1) by omega]

theorem slots_from_step (s : Sched) (c d k : Nat) (hk : 1 ≤ k) (hdk : d + k ≤ CO_MAX)
    (hskip : ∀ j, 1 ≤ j → j < k → slot_runnable s ((c + (d + j)) % CO_MAX) = false)
    (hhit : slot_runnable s ((c + (d + k)) % CO_MAX) = true) :
    slots_from s c d = (c + (d + k)) % CO_MAX :: slots_from s c (d + k) := by
  unfold slots_from
  rw [List.filter_map, List.filter_map]
  have hsplit : CO_MAX - d = (k - 1) + 1 + (CO_MAX - (d + k)) := by omega
  rw [hsplit, filter_range_skip _ _ (k - 1) (d + 1)]
  · have e1 : d + 1 + (k - 1) = d + k := by omega
    rw [e1]
    simp
  · intro e h1 h2
    have := hskip (e - d) (by omega) (by omega)
    rw [show d + (e - d) = e by omega] at this
    simpa using this
  · have e1 : d + 1 + (k - 1) = d + k := by omega
    rw [e1]
    simpa using hhit

theorem slots_from_end (s : Sched) (c : Nat) : slots_from s c CO_MAX = [] := by
  simp [slots_from]

theorem slot_runnable_congr (s t : Sched) (h1 : t.co_list = s.co_list) (h2 : t.heap = s.heap)
    (i : Nat) : slot_runnable t i = slot_runnable s i := by
  simp only [slot_runnable, h1, h2]

/-- One selection with the cursor at offset `d` from a runnable slot `c`: it returns the task
of the first runnable slot at an offset in `d+1, ..., CO_MAX`. -/
theorem co_next_from_offset (t : Sched) (c d : Nat) (hc : c < CO_MAX)
    (hreg : RegistryValid t) (hrun : slot_runnable t c = true) (hd : d < CO_MAX)
    (hidx : t.next_idx = (c + d) % CO_MAX) (hq : d = 0 → t.co_list c = some t.current) :
    ∃ k p, 1 ≤ k ∧ d + k ≤ CO_MAX ∧
      (∀ j, 1 ≤ j → j < k → slot_runnable t ((c + (d + j)) % CO_MAX) = false) ∧
      slot_runnable t ((c + (d + k)) % CO_MAX) = true ∧
      t.co_list ((c + (d + k)) % CO_MAX) = some p ∧
      co_next t = Except.ok (p, { t with next_idx := (c + (d + k)) % CO_MAX }) := by
  have hcend : (c + CO_MAX) % CO_MAX = c := by simp only [CO_MAX_eq] at *; omega
  have hmod : ∀ j, (t.next_idx + j) % CO_MAX = (c + (d + j)) % CO_MAX := by
    intro j; rw [hidx]; simp only [CO_MAX_eq]; omega
  have hlt : t.next_idx < CO_MAX := by rw [hidx]; exact cyc_lt _ _
  rcases co_next_spec t hlt hreg with ⟨k, p, a1, a2, a3, a4, a5, a6⟩ | ⟨b1, b2⟩
  · have hle : d + k ≤ CO_MAX := by
      by_contra hgt
      have := a3 (CO_MAX - d) (by omega) (by omega)
      simp only [hmod] at this
      rw [show d + (CO_MAX - d) = CO_MAX by omega, hcend] at this
      exact absurd hrun (by rw [this]; simp)
    refine ⟨k, p, a1, hle, ?_, ?_, ?_, ?_⟩
    · intro j j1 j2
      have := a3 j j1 j2
      simp only [hmod] at this
      exact this
    · simp only [hmod] at a4; exact a4
    · simp only [hmod] at a5; exact a5
    · simp only [hmod] at a6; exact a6
  · have hd0 : d = 0 := by
      by_contra hne
      have := b1 (CO_MAX - d) (by omega) (by omega)
      simp only [hmod] at this
      rw [show d + (CO_MAX - d) = CO_MAX by omega, hcend] at this
      exact absurd hrun (by rw [this]; simp)
    subst hd0
    refine ⟨CO_MAX, t.current, by decide, by omega, ?_, ?_, ?_, ?_⟩
    · intro j j1 j2
      have := b1 j j1 j2
      simp only [hmod] at this
      exact this
    · simp only [Nat.zero_add, hcend]; exact hrun
    · simp only [Nat.zero_add, hcend]; exact hq rfl
    · rw [b2]
      simp only [Nat.zero_add, Nat.add_zero, hcend]
      have : t.next_idx = c := by rw [hidx]; simp only [CO_MAX_eq] at *; omega
      rw [← this]

/-- Round robin from the offset `d`: when the cursor is at offset `d` from a runnable slot `c`,
the next selections return the tasks of the runnable slots at the offsets `d+1, ..., CO_MAX`
in that order, and bring the cursor to `c`. -/
theorem co_next_iter_from (s : Sched) (c : Nat) (hc : c < CO_MAX) (hreg : RegistryValid s)
    (hrun : slot_runnable s c = true) :
    ∀ n d q, d + n = CO_MAX → (d = 0 → s.co_list c = some q) →
      ∃ s1, co_next_iter (slots_from s c d).length
            { s with next_idx := (c + d) % CO_MAX, current := q }
          = Except.ok ((slots_from s c d).filterMap s.co_list, s1) ∧
        s1.next_idx = c ∧ s1.heap = s.heap ∧ s1.co_list = s.co_list := by
  intro n
  induction n using Nat.strong_induction_on with
  | _ n ih =>
    intro d q hdn hq
    by_cases hd : d = CO_MAX
    · subst hd
      refine ⟨{ s with next_idx := (c + CO_MAX) % CO_MAX, current := q },
        by rw [slots_from_end]; rfl, ?_, rfl, rfl⟩
      show (c + CO_MAX) % CO_MAX = c
      simp only [CO_MAX_eq] at *; omega
    · have hdlt : d < CO_MAX := by omega
      obtain ⟨k, p, k1, k2, k3, k4, k5, k6⟩ := co_next_from_offset
        { s with next_idx := (c + d) % CO_MAX, current := q } c d hc hreg hrun hdlt rfl hq
      have k3 : ∀ j, 1 ≤ j → j < k → slot_runnable s ((c + (d + j)) % CO_MAX) = false := k3
      have k4 : slot_runnable s ((c + (d + k)) % CO_MAX) = true := k4
      have k5 : s.co_list ((c + (d + k)) % CO_MAX) = some p := k5
      have k6 : co_next { s with next_idx := (c + d) % CO_MAX, current := q }
          = Except.ok (p, { s with next_idx := (c + (d + k)) % CO_MAX, current := q }) := k6
      obtain ⟨s1, e1, e2, e3, e4⟩ := ih (n - k) (by omega) (d + k) p (by omega) (by omega)
      refine ⟨s1, ?_, e2, e3, e4⟩
      rw [slots_from_step s c d k k1 k2 k3 k4]
      simp only [List.length_cons, co_next_iter, k6, List.filterMap_cons, k5, e1]

theorem mem_cyclic_after (c i : Nat) (hc : c < CO_MAX) : i ∈ cyclic_after c ↔ i < CO_MAX := by
  unfold cyclic_after
  simp only [List.mem_map, List.mem_range'_1]
  constructor
  · rintro ⟨k, _, rfl⟩
    exact cyc_lt _ _
  · intro hi
    obtain ⟨k, k1, k2, k3, _⟩ := cyc_offset c i hc hi
    exact ⟨k, ⟨k1, by omega⟩, k3⟩

theorem nodup_cyclic_after (c : Nat) : (cyclic_after c).Nodup := by
  unfold cyclic_after
  apply List.Nodup.map_on _ (List.nodup_range' _ _)
  intro x hx y hy hxy
  simp only [List.mem_range'_1, CO_MAX_eq] at hx hy hxy
  omega

theorem cyclic_after_perm (c : Nat) (hc : c < CO_MAX) :
    (cyclic_after c).Perm (List.range CO_MAX) := by
  rw [List.perm_ext_iff_of_nodup (nodup_cyclic_after c) (List.nodup_range _)]
  intro i
  rw [mem_cyclic_after c i hc, List.mem_range]

theorem length_filterMap_of_some {α β : Type} (f : α → Option β) :
    ∀ l : List α, (∀ x, x ∈ l → f x ≠ none) → (l.filterMap f).length = l.length := by
  intro l
  induction l with
  | nil => intro _; rfl
  | cons a l ih =>
    intro h
    cases hfa : f a with
    | none => exact absurd hfa (h a (List.mem_cons_self _ _))
    | some b =>
      simp only [List.filterMap_cons, hfa, List.length_cons]
      rw [ih (fun x hx => h x (List.mem_cons_of_mem _ hx))]

theorem nodup_filterMap_on {α β : Type} (f : α → Option β) :
    ∀ l : List α, l.Nodup →
      (∀ x, x ∈ l → ∀ y, y ∈ l → ∀ b, f x = some b → f y = some b → x = y) →
      (l.filterMap f).Nodup := by
  intro l
  induction l with
  | nil => intro _ _; exact List.nodup_nil
  | cons a l ih =>
    intro hnd hinj
    have hnd2 := List.nodup_cons.1 hnd
    have hrest := ih hnd2.2 (fun x hx y hy b => hinj x (List.mem_cons_of_mem _ hx) y
      (List.mem_cons_of_mem _ hy) b)
    cases hfa : f a with
    | none => simp only [List.filterMap_cons, hfa]; exact hrest
    | some b =>
      simp only [List.filterMap_cons, hfa]
      refine List.nodup_cons.2 ⟨?_, hrest⟩
      intro hmem
      obtain ⟨y, hy, hfy⟩ := List.mem_filterMap.1 hmem
      have := hinj a (List.mem_cons_self _ _) y (List.mem_cons_of_mem _ hy) b hfa hfy
      exact hnd2.1 (this ▸ hy)

theorem two_tasks_co_list (i : Nat) :
    two_tasks.co_list i = if i = 1 then some 1 else if i = 0 then some 0 else none := by
  simp [two_tasks, started, init, Function.update_apply, main_co_addr]

theorem two_tasks_valid : RegistryValid two_tasks := by
  intro i p _ h
  rw [two_tasks_co_list] at h
  split_ifs at h <;> simp at h <;> subst h <;>
    simp [two_tasks, started, init, Function.update_apply, main_co_addr]

@[simp] theorem store_heap (s : Sched) (p q : Nat) (c : co) :
    (store s p c).heap q = if q = p then some c else s.heap q := by
  simp [store, Function.update_apply]

@[simp] theorem store_co_list (s : Sched) (p : Nat) (c : co) :
    (store s p c).co_list = s.co_list := rfl

@[simp] theorem store_current (s : Sched) (p : Nat) (c : co) :
    (store s p c).current = s.current := rfl

@[simp] theorem store_start_idx (s : Sched) (p : Nat) (c : co) :
    (store s p c).start_idx = s.start_idx := rfl

@[simp] theorem store_next_idx (s : Sched) (p : Nat) (c : co) :
    (store s p c).next_idx = s.next_idx := rfl

theorem sched_ext (s t : Sched) (h1 : ∀ p, s.heap p = t.heap p) (h2 : s.current = t.current)
    (h3 : s.co_list = t.co_list) (h4 : s.start_idx = t.start_idx)
    (h5 : s.next_idx = t.next_idx) : s = t := by
  cases s; cases t
  simp only [Sched.mk.injEq]
  exact ⟨funext h1, h2, h3, h4, h5⟩

theorem heap_map_some (F : Nat → co → co) (s : Sched) (p : Nat) (c1 : co)
    (h : (heap_map F s).heap p = some c1) : ∃ c, s.heap p = some c ∧ c1 = F p c := by
  simp only [heap_map, Option.map_eq_some'] at h
  obtain ⟨c, hc, e⟩ := h
  exact ⟨c, hc, e.symm⟩

theorem heap_map_of_some (F : Nat → co → co) (s : Sched) (p : Nat) (c : co)
    (h : s.heap p = some c) : (heap_map F s).heap p = some (F p c) := by
  simp [heap_map, h]

theorem registered_heap_map (F : Nat → co → co) (s : Sched)
    (hF : ∀ p c, (F p c).list_idx = c.list_idx) (h : Registered s) :
    Registered (heap_map F s) := by
  intro i p hi hp
  obtain ⟨c, hc, e⟩ := h i p hi hp
  exact ⟨F p c, heap_map_of_some F s p c hc, by rw [hF, e]⟩

theorem listed_heap_map (F : Nat → co → co) (s : Sched)
    (hF : ∀ p c, (F p c).list_idx = c.list_idx) (h : Listed s) :
    Listed (heap_map F s) := by
  intro p c1 hp
  obtain ⟨c, hc, e⟩ := heap_map_some F s p c1 hp
  subst e
  rw [hF]
  exact h p c hc

theorem inv_init : Inv init := by
  have hheap : ∀ p c, init.heap p = some c → p = main_co_addr ∧ c = main_co := by
    intro p c h
    simp only [init] at h
    split_ifs at h with hp
    · exact ⟨hp, by injection h with h; exact h.symm⟩
  refine ⟨⟨by decide, by decide, ?_, ?_, ?_, ?_, ?_⟩, ?_, ?_, ?_⟩
  · intro i p _ hp
    simp only [init] at hp
    split_ifs at hp with hi
    injection hp with hp
    subst hp; subst hi
    exact ⟨main_co, rfl, rfl⟩
  · intro p c h
    obtain ⟨rfl, rfl⟩ := hheap p c h
    exact ⟨by decide, rfl⟩
  · exact ⟨main_co, rfl, rfl, rfl, by decide, by decide⟩
  · intro B b A hB hw
    obtain ⟨rfl, rfl⟩ := hheap B b hB
    simp [main_co] at hw
  · exact ⟨main_co, rfl, rfl⟩
  · intro c h
    obtain ⟨_, rfl⟩ := hheap _ c h
    rfl
  · intro p hp c h
    exact absurd (hheap p c h).1 hp
  · intro B b hB hw
    obtain ⟨rfl, rfl⟩ := hheap B b hB
    simp [main_co] at hw

/-- `co_start` keeps the invariant. -/
theorem inv_started (name : String) (func arg p i : Nat) (s : Sched) (h : Inv s)
    (hp : s.heap p = none) (hi : i < CO_MAX) (hfree : s.co_list i = none) :
    Inv (started name func arg p i s) := by
  have hheap : ∀ q c, (started name func arg p i s).heap q = some c →
      (q ≠ p ∧ s.heap q = some c) ∨ (q = p ∧ c.status = co_status.CO_NEW ∧ c.waiter = none ∧
        c.list_idx = i) := by
    intro q c hq
    simp only [started, Function.update_apply] at hq
    split_ifs at hq with e
    · right; injection hq with hq; subst hq; exact ⟨e, rfl, rfl, rfl⟩
    · left; exact ⟨e, hq⟩
  have hold : ∀ q c, s.heap q = some c → (started name func arg p i s).heap q = some c := by
    intro q c hq
    have : q ≠ p := by rintro rfl; rw [hp] at hq; exact absurd hq (by simp)
    simp [started, Function.update_apply, this, hq]
  refine ⟨⟨hi, h.wf.next_lt, ?_, ?_, ?_, ?_, ?_⟩, ?_, ?_, ?_⟩
  · intro j q hj hq
    simp only [started, Function.update_apply] at hq
    split_ifs at hq with e
    · injection hq with hq; subst hq; subst e
      exact ⟨_, Function.update_same _ _ _, rfl⟩
    · obtain ⟨c, hc, e2⟩ := h.wf.registered j q hj hq
      exact ⟨c, hold q c hc, e2⟩
  · intro q c hq
    rcases hheap q c hq with ⟨hne, hq2⟩ | ⟨rfl, _, _, hidx⟩
    · obtain ⟨a1, a2⟩ := h.wf.listed q c hq2
      refine ⟨a1, ?_⟩
      have : c.list_idx ≠ i := by
        intro e; rw [e, hfree] at a2; exact absurd a2 (by simp)
      simp [started, Function.update_apply, this, a2]
    · rw [hidx]; exact ⟨hi, by simp [started]⟩
  · obtain ⟨c, hc, r⟩ := h.wf.main
    exact ⟨c, hold _ c hc, r⟩
  · intro B b A hB hw
    rcases hheap B b hB with ⟨_, hB2⟩ | ⟨_, _, hnone, _⟩
    · obtain ⟨a, ha, r⟩ := h.wf.waiter B b A hB2 hw
      exact ⟨a, hold A a ha, r⟩
    · rw [hnone] at hw; exact absurd hw (by simp)
  · obtain ⟨c, hc, r⟩ := h.wf.cur
    exact ⟨c, hold _ c hc, r⟩
  · intro c hc
    obtain ⟨c0, hc0, _⟩ := h.wf.cur
    have := hold _ c0 hc0
    have e : (started name func arg p i s).current = s.current := rfl
    rw [e] at hc
    rw [this] at hc
    injection hc with hc
    subst hc
    exact h.running c0 hc0
  · intro q hq c hc hrun
    rcases hheap q c hc with ⟨_, hq2⟩ | ⟨_, hnew, _, _⟩
    · rcases h.susp q hq c hq2 hrun with hu | ⟨B, b, h1, h2, h3, h4⟩
      · exact Or.inl hu
      · exact Or.inr ⟨B, b, h1, hold B b h2, h3, h4⟩
    · rw [hnew] at hrun; exact absurd hrun (by decide)
  · intro B b hB
    rcases hheap B b hB with ⟨_, hB2⟩ | ⟨_, _, hnone, _⟩
    · exact h.not_waiter B b hB2
    · rw [hnone]; simp

theorem setjmp_eq (k : Context) (s : Sched) (c : co) (h : s.heap s.current = some c) :
    setjmp k s = Except.ok (heap_map (savedF k s) s) := by
  simp only [setjmp, h]
  congr 1
  apply sched_ext <;> try rfl
  intro p
  by_cases hp : p = s.current
  · subst hp; simp [heap_map, savedF, h]
  · cases hq : s.heap p <;> simp [heap_map, savedF, hp, hq]

theorem wait_suspend_eq (t : Nat) (s : Sched) (cur c : co) (h : s.heap s.current = some cur)
    (ht : s.heap t = some c) :
    ∃ m, co_wait_suspend t s = Except.ok m ∧
      setjmp (Context.wait t) m = Except.ok (heap_map (waitF t s) s) := by
  by_cases hp : t = s.current
  · subst hp
    refine ⟨_, by simp only [co_wait_suspend, h, store_heap, if_true]; rfl, ?_⟩
    simp only [setjmp, store_heap, store_current, if_true]
    congr 1
    apply sched_ext <;> try rfl
    intro p
    by_cases hp : p = s.current
    · subst hp; simp [heap_map, waitF, h]
    · cases hq : s.heap p <;> simp [heap_map, waitF, hp, hq]
  · have hp2 : s.current ≠ t := fun e => hp e.symm
    refine ⟨_, by simp only [co_wait_suspend, h, store_heap, hp, if_false, ht]; rfl, ?_⟩
    simp only [setjmp, store_heap, store_current, hp2, if_false, if_true]
    congr 1
    apply sched_ext <;> try rfl
    intro p
    by_cases hp3 : p = s.current
    · subst hp3; simp [heap_map, waitF, h, hp2]
    · by_cases hp4 : p = t
      · subst hp4; simp [heap_map, waitF, ht, hp3]
      · cases hq : s.heap p <;> simp [heap_map, waitF, hp3, hp4, hq]

theorem wrapper_finish_eq (s : Sched) (r : co) (h : s.heap s.current = some r)
    (hw : ∀ w, r.waiter = some w → w ≠ s.current ∧ s.heap w ≠ none) :
    ∃ m, co_wrapper_finish s.current s = Except.ok m ∧
      setjmp Context.wrapper m = Except.ok (heap_map (retF r.waiter s) s) := by
  cases hwr : r.waiter with
  | none =>
    refine ⟨_, by simp only [co_wrapper_finish, h, hwr]; rfl, ?_⟩
    simp only [setjmp, store_heap, store_current, if_true]
    congr 1
    apply sched_ext <;> try rfl
    intro p
    by_cases hp : p = s.current
    · subst hp; simp [heap_map, retF, h, hwr]
    · cases hq : s.heap p <;> simp [heap_map, retF, hp, hq]
  | some w =>
    obtain ⟨hne, hlive⟩ := hw w hwr
    obtain ⟨wc, hwc⟩ := Option.ne_none_iff_exists'.1 hlive
    refine ⟨_, by simp only [co_wrapper_finish, h, hwr, store_heap, hne, if_false, hwc]; rfl, ?_⟩
    have hne2 : s.current ≠ w := fun e => hne e.symm
    simp only [setjmp, store_heap, store_current, hne2, if_false, if_true]
    congr 1
    apply sched_ext <;> try rfl
    intro p
    by_cases hp : p = s.current
    · subst hp; simp [heap_map, retF, h, hne2, hwr]
    · by_cases hp2 : p = w
      · subst hp2; simp [heap_map, retF, hwc, hp]
      · have hp3 : w ≠ p := fun e => hp2 e.symm
        cases hq : s.heap p <;> simp [heap_map, retF, hp, hp2, hp3, hq]

theorem wf_heap_map (F : Nat → co → co) (s : Sched)
    (hF : ∀ p c, (F p c).list_idx = c.list_idx) (h : Wf s)
    (hmain : MainOK (heap_map F s)) (hw : WaiterOK (heap_map F s)) : Wf (heap_map F s) := by
  refine ⟨h.start_lt, h.next_lt, registered_heap_map F s hF h.registered,
    listed_heap_map F s hF h.listed, hmain, hw, ?_⟩
  obtain ⟨c, hc, e⟩ := h.cur
  exact ⟨F _ c, heap_map_of_some F s _ c hc, by rw [hF]; exact e⟩

theorem cur_not_dead (s : Sched) (h : Inv s) (B : Nat) (b : co) (hB : s.heap B = some b)
    (hd : b.status ≠ co_status.CO_RUNNING) : B ≠ s.current := by
  rintro rfl
  exact hd (h.running b hB)

/-- After `setjmp` in a `co_yield` called by the task's own code, every task has a saved
context that can be resumed. -/
theorem susp_saved (s : Sched) (h : Inv s) : Susp (heap_map (savedF Context.user s) s) := by
  refine ⟨wf_heap_map _ s (fun _ _ => rfl) h.wf ?_ ?_, ?_⟩
  · obtain ⟨c, hc, r⟩ := h.wf.main
    exact ⟨_, heap_map_of_some _ s _ c hc, r⟩
  · intro B b1 A hB hw
    obtain ⟨b, hb, rfl⟩ := heap_map_some _ s B b1 hB
    have hw2 : b.waiter = some A := hw
    obtain ⟨a, ha, hctx, hst⟩ := h.wf.waiter B b A hb hw2
    have hne : A ≠ s.current := by
      rintro rfl
      exact h.not_waiter B b hb hw2
    exact ⟨_, heap_map_of_some _ s A a ha, by simp [savedF, hne, hctx], hst⟩
  · intro p c1 hp hrun
    obtain ⟨c, hc, rfl⟩ := heap_map_some _ s p c1 hp
    by_cases e : p = s.current
    · left; simp [savedF, e]
    · rcases h.susp p e c hc hrun with hu | ⟨B, b, h1, h2, h3, h4⟩
      · left; simp [savedF, e, hu]
      · right
        exact ⟨B, _, by simp [savedF, e, h1], heap_map_of_some _ s B b h2, h3, h4⟩

/-- After lines 92-95 of `co_wait t`, `setjmp` included, every task has a saved context that
can be resumed. -/
theorem susp_wait (t : Nat) (s : Sched) (c : co) (h : Inv s) (ht : s.heap t = some c)
    (hnd : c.status ≠ co_status.CO_DEAD) : Susp (heap_map (waitF t s) s) := by
  obtain ⟨ccur, hcur, _⟩ := h.wf.cur
  have hrunning := h.running ccur hcur
  refine ⟨wf_heap_map _ s (fun _ _ => rfl) h.wf ?_ ?_, ?_⟩
  · obtain ⟨m, hm, r1, r2, r3, r4⟩ := h.wf.main
    refine ⟨_, heap_map_of_some _ s _ m hm, r1, r2, ?_, ?_⟩ <;>
      simp only [waitF] <;> split_ifs <;> simp [r3, r4]
  · intro B b1 A hB hw
    obtain ⟨b, hb, rfl⟩ := heap_map_some _ s B b1 hB
    by_cases hBt : B = t
    · subst hBt
      rw [ht] at hb
      injection hb with hb
      subst hb
      have hA : A = s.current := by
        simp only [waitF, if_true, Option.some.injEq] at hw
        exact hw.symm
      subst hA
      refine ⟨_, heap_map_of_some _ s _ ccur hcur, by simp [waitF], Or.inl ⟨by simp [waitF], ?_⟩⟩
      simp only [waitF]
      split_ifs <;> simp [hnd]
    · have hw2 : b.waiter = some A := by simpa [waitF, hBt] using hw
      obtain ⟨a, ha, hctx, hst⟩ := h.wf.waiter B b A hb hw2
      have hne : A ≠ s.current := by
        rintro rfl
        exact h.not_waiter B b hb hw2
      refine ⟨_, heap_map_of_some _ s A a ha, by simp [waitF, hne, hctx], ?_⟩
      rcases hst with ⟨s1, s2⟩ | ⟨s1, s2⟩
      · left
        refine ⟨by simp [waitF, hne, s1], ?_⟩
        simp only [waitF]
        split_ifs <;> simp [s2]
      · right
        have hBc : B ≠ s.current := cur_not_dead s h B b hb (by rw [s2]; decide)
        exact ⟨by simp [waitF, hne, s1], by simp [waitF, hBc, s2]⟩
  · intro p c1 hp hrun
    obtain ⟨c0, hc, rfl⟩ := heap_map_some _ s p c1 hp
    have e : p ≠ s.current := by
      rintro rfl
      simp [waitF] at hrun
    have hrun2 : c0.status = co_status.CO_RUNNING := by simpa [waitF, e] using hrun
    rcases h.susp p e c0 hc hrun2 with hu | ⟨B, b, h1, h2, h3, h4⟩
    · left; simp [waitF, e, hu]
    · right
      have hBc : B ≠ s.current := cur_not_dead s h B b h2 (by rw [h3]; decide)
      have hBt : B ≠ t := by
        rintro rfl
        rw [ht] at h2
        injection h2 with h2
        subst h2
        exact hnd h3
      exact ⟨B, _, by simp [waitF, e, h1], heap_map_of_some _ s B b h2,
        by simp [waitF, hBc, h3], by simp [waitF, hBt, h4]⟩

/-- After lines 112-119 of `co_wrapper`, `setjmp` included, every task has a saved context
that can be resumed. -/
theorem susp_ret (s : Sched) (r : co) (h : Inv s) (hr : s.heap s.current = some r)
    (hmain : s.current ≠ main_co_addr) : Susp (heap_map (retF r.waiter s) s) := by
  have hrunning := h.running r hr
  -- a waiter of the current task is waiting, and suspended in `co_wait` on the current task
  have hwaiter : ∀ A a, r.waiter = some A → s.heap A = some a →
      a.context = Context.wait s.current ∧ a.status = co_status.CO_WAITING := by
    intro A a hA ha
    obtain ⟨a1, ha1, hctx, hst⟩ := h.wf.waiter _ r A hr hA
    rw [ha] at ha1
    injection ha1 with ha1
    subst ha1
    rcases hst with ⟨s1, _⟩ | ⟨_, s2⟩
    · exact ⟨hctx, s1⟩
    · rw [hrunning] at s2; exact absurd s2 (by decide)
  refine ⟨wf_heap_map _ s (fun _ _ => rfl) h.wf ?_ ?_, ?_⟩
  · obtain ⟨m, hm, r1, r2, r3, r4⟩ := h.wf.main
    have hne : main_co_addr ≠ s.current := fun e => hmain e.symm
    refine ⟨_, heap_map_of_some _ s _ m hm, r1, r2, ?_, ?_⟩ <;>
      simp only [retF, hne, if_false] <;> split_ifs <;> simp [r3, r4]
  · intro B b1 A hB hw
    obtain ⟨b, hb, rfl⟩ := heap_map_some _ s B b1 hB
    have hw2 : b.waiter = some A := hw
    obtain ⟨a, ha, hctx, hst⟩ := h.wf.waiter B b A hb hw2
    have hne : A ≠ s.current := by
      rintro rfl
      exact h.not_waiter B b hb hw2
    refine ⟨_, heap_map_of_some _ s A a ha, by simp [retF, hne, hctx], ?_⟩
    by_cases hBc : B = s.current
    · subst hBc
      rw [hr] at hb
      injection hb with hb
      subst hb
      right
      exact ⟨by simp [retF, hne, hw2], by simp [retF]⟩
    · have hwA : r.waiter ≠ some A := by
        intro e
        have := (hwaiter A a e ha).1
        rw [hctx] at this
        injection this with this
        exact hBc this
      rcases hst with ⟨s1, s2⟩ | ⟨s1, s2⟩
      · left
        refine ⟨by simp [retF, hne, hwA, s1], ?_⟩
        simp only [retF, hBc, if_false]
        split_ifs <;> simp [s2]
      · right
        have hwB : r.waiter ≠ some B := by
          intro e
          have := (hwaiter B b e hb).2
          rw [s2] at this
          exact absurd this (by decide)
        exact ⟨by simp [retF, hne, hwA, s1], by simp [retF, hBc, hwB, s2]⟩
  · intro p c1 hp hrun
    obtain ⟨c0, hc, rfl⟩ := heap_map_some _ s p c1 hp
    have e : p ≠ s.current := by
      rintro rfl
      simp [retF] at hrun
    by_cases hwp : r.waiter = some p
    · right
      exact ⟨s.current, _, by simp [retF, e, (hwaiter p c0 hwp hc).1],
        heap_map_of_some _ s _ r hr, by simp [retF], hwp⟩
    · have hrun2 : c0.status = co_status.CO_RUNNING := by simpa [retF, e, hwp] using hrun
      rcases h.susp p e c0 hc hrun2 with hu | ⟨B, b, h1, h2, h3, h4⟩
      · left; simp [retF, e, hu]
      · right
        have hBc : B ≠ s.current := cur_not_dead s h B b h2 (by rw [h3]; decide)
        have hwB : r.waiter ≠ some B := by
          intro e
          have := (hwaiter B b e h2).2
          rw [h3] at this
          exact absurd this (by decide)
        exact ⟨B, _, by simp [retF, e, h1], heap_map_of_some _ s B b h2,
          by simp [retF, hBc, hwB, h3], h4⟩

theorem registryValid_of_registered (s : Sched) (h : Registered s) : RegistryValid s := by
  intro i p hi hp
  obtain ⟨c, hc, _⟩ := h i p hi hp
  rw [hc]; simp

/-- Releasing a dead task whose only possible waiter is the current task keeps the
invariant. -/
theorem inv_finish (s : Sched) (B : Nat) (b : co) (hwf : Wf s)
    (hrun : ∀ c, s.heap s.current = some c → c.status = co_status.CO_RUNNING)
    (hsusp : ∀ p, p ≠ s.current → SuspOK s p)
    (hnw : ∀ Y y, s.heap Y = some y → y.waiter = some s.current → Y = B)
    (hB : s.heap B = some b) (hdead : b.status = co_status.CO_DEAD)
    (hbw : ∀ p, b.waiter = some p → p = s.current) :
    co_wait_finish B s = Except.ok (released B b.list_idx s) ∧
      Inv (released B b.list_idx s) := by
  have hmainB : B ≠ main_co_addr := by
    rintro rfl
    obtain ⟨m, hm, _, _, _, r4⟩ := hwf.main
    rw [hB] at hm
    injection hm with hm
    subst hm
    exact r4 hdead
  have hcurB : s.current ≠ B := by
    intro e
    have := hrun b (e ▸ hB)
    rw [hdead] at this
    exact absurd this (by decide)
  have hheap : ∀ q c, (released B b.list_idx s).heap q = some c → q ≠ B ∧ s.heap q = some c := by
    intro q c hq
    simp only [released, Function.update_apply] at hq
    split_ifs at hq with e
    exact ⟨e, hq⟩
  have hkeep : ∀ q c, q ≠ B → s.heap q = some c → (released B b.list_idx s).heap q = some c := by
    intro q c hne hq
    simp [released, Function.update_apply, hne, hq]
  refine ⟨?_, ⟨hwf.start_lt, hwf.next_lt, ?_, ?_, ?_, ?_, ?_⟩, ?_, ?_, ?_⟩
  · simp only [co_wait_finish, hB, hdead, hmainB]
    rfl
  · intro i p hi hp
    simp only [released, Function.update_apply] at hp
    split_ifs at hp with e
    obtain ⟨c, hc, hidx⟩ := hwf.registered i p hi hp
    refine ⟨c, hkeep p c ?_ hc, hidx⟩
    rintro rfl
    rw [hB] at hc
    injection hc with hc
    subst hc
    exact e hidx.symm
  · intro p c hp
    obtain ⟨hne, hp2⟩ := hheap p c hp
    obtain ⟨h1, h2⟩ := hwf.listed p c hp2
    refine ⟨h1, ?_⟩
    have : c.list_idx ≠ b.list_idx := by
      intro e
      rw [e, (hwf.listed B b hB).2] at h2
      injection h2 with h2
      exact hne h2.symm
    simp [released, Function.update_apply, this, h2]
  · obtain ⟨m, hm, r⟩ := hwf.main
    exact ⟨m, hkeep _ m (fun e => hmainB e.symm) hm, r⟩
  · intro Y y A hY hw
    obtain ⟨_, hY2⟩ := hheap Y y hY
    obtain ⟨a, ha, hctx, hst⟩ := hwf.waiter Y y A hY2 hw
    refine ⟨a, hkeep A a ?_ ha, hctx, hst⟩
    rintro rfl
    rw [hB] at ha
    injection ha with ha
    subst ha
    rcases hst with ⟨s1, _⟩ | ⟨s1, _⟩ <;> rw [hdead] at s1 <;> exact absurd s1 (by decide)
  · obtain ⟨c, hc, e⟩ := hwf.cur
    exact ⟨c, hkeep _ c hcurB hc, e⟩
  · intro c hc
    exact hrun c (hheap _ c hc).2
  · intro p hp c hc hr
    obtain ⟨_, hc2⟩ := hheap p c hc
    rcases hsusp p hp c hc2 hr with hu | ⟨B1, b1, h1, h2, h3, h4⟩
    · exact Or.inl hu
    · right
      refine ⟨B1, b1, h1, hkeep B1 b1 ?_ h2, h3, h4⟩
      rintro rfl
      rw [hB] at h2
      injection h2 with h2
      subst h2
      exact hp (hbw p h4)
  · intro Y y hY hw
    obtain ⟨hne, hY2⟩ := hheap Y y hY
    exact hne (hnw Y y hY2 hw)

/-- In a well-formed state `co_next` does not fail, and what it returns is an allocated block
whose slot is the new cursor. -/
theorem co_next_wf (m : Sched) (h : Wf m) :
    ∃ N n, m.heap N = some n ∧
      co_next m = Except.ok (N, { m with next_idx := n.list_idx }) := by
  rcases co_next_spec m h.next_lt (registryValid_of_registered m h.registered) with
    ⟨k, p, _, _, _, _, a5, a6⟩ | ⟨_, b2⟩
  · obtain ⟨c, hc, e⟩ := h.registered _ p (cyc_lt _ _) a5
    exact ⟨p, c, hc, by rw [a6, e]⟩
  · obtain ⟨c, hc, e⟩ := h.cur
    refine ⟨m.current, c, hc, ?_⟩
    rw [b2, e]

/-- Entering a new task from a state inside `co_yield` gives a state satisfying the
invariant. -/
theorem inv_enter (m : Sched) (N : Nat) (n : co) (h : Susp m) (hN : m.heap N = some n)
    (hlt : n.list_idx < CO_MAX) (hnew : n.status = co_status.CO_NEW) :
    Inv (heap_map (enterF N) (switched N n.list_idx m)) := by
  have hwf3 : Wf (switched N n.list_idx m) :=
    ⟨h.wf.start_lt, hlt, h.wf.registered, h.wf.listed, h.wf.main, h.wf.waiter, n, hN, rfl⟩
  refine ⟨wf_heap_map _ _ (fun _ _ => rfl) hwf3 ?_ ?_, ?_, ?_, ?_⟩
  · obtain ⟨c, hc, r1, r2, r3, r4⟩ := h.wf.main
    refine ⟨_, heap_map_of_some _ (switched N n.list_idx m) _ c hc, r1, r2, ?_, ?_⟩ <;>
      simp only [enterF] <;> split_ifs <;> simp [r3, r4]
  · intro B b1 A hB hw
    obtain ⟨b, hb, rfl⟩ := heap_map_some _ _ B b1 hB
    have hw2 : b.waiter = some A := hw
    obtain ⟨a, ha, hctx, hst⟩ := h.wf.waiter B b A hb hw2
    have hAN : A ≠ N := by
      rintro rfl
      rw [hN] at ha
      injection ha with ha
      subst ha
      rcases hst with ⟨s1, _⟩ | ⟨s1, _⟩ <;> rw [hnew] at s1 <;> exact absurd s1 (by decide)
    refine ⟨_, heap_map_of_some _ (switched N n.list_idx m) A a ha, hctx, ?_⟩
    rcases hst with ⟨s1, s2⟩ | ⟨s1, s2⟩
    · left
      refine ⟨by simp [enterF, hAN, s1], ?_⟩
      simp only [enterF]
      split_ifs <;> simp [s2]
    · right
      have hBN : B ≠ N := by
        rintro rfl
        have hb2 : m.heap B = some b := hb
        rw [hN] at hb2
        injection hb2 with hb2
        subst hb2
        rw [hnew] at s2
        exact absurd s2 (by decide)
      exact ⟨by simp [enterF, hAN, s1], by simp [enterF, hBN, s2]⟩
  · intro c hc
    obtain ⟨c0, _, rfl⟩ := heap_map_some _ _ N c hc
    simp [enterF]
  · intro p hp c1 hc hr
    obtain ⟨c, hc2, rfl⟩ := heap_map_some _ _ p c1 hc
    have hpN : p ≠ N := hp
    have hr2 : c.status = co_status.CO_RUNNING := by simpa [enterF, hpN] using hr
    rcases h.susp p c hc2 hr2 with hu | ⟨B, b, h1, h2, h3, h4⟩
    · exact Or.inl hu
    · right
      have hBN : B ≠ N := by
        rintro rfl
        rw [hN] at h2
        injection h2 with h2
        subst h2
        rw [hnew] at h3
        exact absurd h3 (by decide)
      exact ⟨B, _, h1, heap_map_of_some _ (switched N n.list_idx m) B b h2,
        by simp [enterF, hBN, h3], h4⟩
  · intro B b1 hB hw
    obtain ⟨b, hb, rfl⟩ := heap_map_some _ _ B b1 hB
    have hw2 : b.waiter = some N := hw
    obtain ⟨a, ha, _, hst⟩ := h.wf.waiter B b N hb hw2
    rw [hN] at ha
    injection ha with ha
    subst ha
    rcases hst with ⟨s1, _⟩ | ⟨s1, _⟩ <;> rw [hnew] at s1 <;> exact absurd s1 (by decide)

theorem co_wrapper_enter_eq (N : Nat) (s : Sched) (n : co) (hN : s.heap N = some n) :
    co_wrapper_enter N s = Except.ok (heap_map (enterF N) s) := by
  simp only [co_wrapper_enter, hN]
  congr 1
  apply sched_ext <;> try rfl
  intro p
  by_cases hp : p = N
  · subst hp; simp [heap_map, enterF, hN]
  · cases hq : s.heap p <;> simp [heap_map, enterF, hp, hq]

/-- Resuming a suspended runnable task from a state inside `co_yield` does not fail and gives
a state satisfying the invariant. -/
theorem inv_longjmp (m : Sched) (N : Nat) (n : co) (h : Susp m) (hN : m.heap N = some n)
    (hlt : n.list_idx < CO_MAX) (hrun : n.status = co_status.CO_RUNNING) :
    ∃ s1, longjmp (switched N n.list_idx m) = Except.ok s1 ∧ Inv s1 := by
  have hwf3 : Wf (switched N n.list_idx m) :=
    ⟨h.wf.start_lt, hlt, h.wf.registered, h.wf.listed, h.wf.main, h.wf.waiter, n, hN, rfl⟩
  have hrunning : ∀ c, (switched N n.list_idx m).heap (switched N n.list_idx m).current
      = some c → c.status = co_status.CO_RUNNING := by
    intro c hc
    have hc2 : m.heap N = some c := hc
    rw [hN] at hc2
    injection hc2 with hc2
    subst hc2
    exact hrun
  have hN3 : (switched N n.list_idx m).heap (switched N n.list_idx m).current = some n := hN
  rcases h.susp N n hN hrun with hu | ⟨B, b, h1, h2, h3, h4⟩
  · refine ⟨switched N n.list_idx m, by simp only [longjmp, hN3, hu], hwf3, hrunning,
      fun p _ => h.susp p, ?_⟩
    intro B b hB hw
    obtain ⟨a, ha, hctx, _⟩ := h.wf.waiter B b N hB hw
    rw [hN] at ha
    injection ha with ha
    subst ha
    rw [hu] at hctx
    exact absurd hctx (by simp)
  · have hfin := inv_finish (switched N n.list_idx m) B b hwf3 hrunning
      (fun p _ => h.susp p)
      (by
        intro Y y hY hw
        obtain ⟨a, ha, hctx, _⟩ := h.wf.waiter Y y N hY hw
        rw [hN] at ha
        injection ha with ha
        subst ha
        rw [h1] at hctx
        injection hctx with hctx
        exact hctx.symm)
      h2 h3
      (by
        intro p hp
        rw [h4] at hp
        injection hp with hp
        exact hp.symm)
    exact ⟨_, by simp only [longjmp, hN3, h1]; exact hfin.1, hfin.2⟩

/-- The switch of `co_yield`, from a state in which every task has a saved context: it ends in
a state satisfying the invariant, or fails the assertion of line 162. -/
theorem inv_switch (m : Sched) (h : Susp m) :
    (∃ s1, co_yield_switch m = Except.ok s1 ∧ Inv s1) ∨
    (∃ t, co_yield_switch m = Except.error (Fault.assert_runnable, t)) := by
  obtain ⟨N, n, hN, hnext⟩ := co_next_wf m h.wf
  have hlt : n.list_idx < CO_MAX := (h.wf.listed N n hN).1
  by_cases hst : n.status = co_status.CO_NEW ∨ n.status = co_status.CO_RUNNING
  · left
    by_cases hr : n.status = co_status.CO_RUNNING
    · obtain ⟨s1, e1, i1⟩ := inv_longjmp m N n h hN hlt hr
      refine ⟨s1, ?_, i1⟩
      simp only [co_yield_switch, hnext, hN, hst, hr, if_true]
      exact e1
    · have hnew : n.status = co_status.CO_NEW := hst.resolve_right hr
      refine ⟨_, ?_, inv_enter m N n h hN hlt hnew⟩
      simp only [co_yield_switch, hnext, hN, hnew, or_false, or_true, true_or, if_true,
        if_false, show ¬ (co_status.CO_NEW = co_status.CO_RUNNING) by decide]
      exact co_wrapper_enter_eq N (switched N n.list_idx m) n hN
  · right
    exact ⟨_, by simp only [co_yield_switch, hnext, hN, hst, if_false]; rfl⟩

theorem inv_start_idx (s : Sched) (i : Nat) (h : Inv s) (hi : i < CO_MAX) :
    Inv { s with start_idx := i } :=
  ⟨⟨hi, h.wf.next_lt, h.wf.registered, h.wf.listed, h.wf.main, h.wf.waiter, h.wf.cur⟩,
    h.running, h.susp, h.not_waiter⟩

/-- `co_yield`, called after the lines of its caller have brought the blocks into a state in
which every task has a saved context: it ends in a state satisfying the invariant, or fails
the assertion of line 162. -/
theorem inv_yield (k : Context) (s : Sched) (c : co) (hc : s.heap s.current = some c)
    (h : Susp (heap_map (savedF k s) s)) :
    (∃ s1, co_yield k s = Except.ok s1 ∧ Inv s1) ∨
    (∃ t, co_yield k s = Except.error (Fault.assert_runnable, t)) := by
  simp only [co_yield, setjmp_eq k s c hc]
  exact inv_switch _ h

/-- One operation of the current task, from a state satisfying the invariant: it ends in a
state satisfying the invariant, or fails one of the assertions of lines 162 and 88. -/
theorem exec_inv (s : Sched) (op : Op) (h : Inv s) (ha : Allowed s op) :
    (∃ s1, exec op s = Except.ok s1 ∧ Inv s1) ∨
    (∃ t, exec op s = Except.error (Fault.assert_runnable, t)) ∨
    (∃ t, exec op s = Except.error (Fault.assert_waiter_null, t)) := by
  obtain ⟨ccur, hcur, _⟩ := h.wf.cur
  cases op with
  | start name func arg mem =>
    left
    by_cases hfull : ∀ i, i < CO_MAX → s.co_list i ≠ none
    · exact ⟨s, by simp only [exec, co_start_full name func arg mem s h.wf.start_lt hfull], h⟩
    · push_neg at hfull
      obtain ⟨k, _, _, _, k4, k5⟩ := co_start_free name func arg mem s h.wf.start_lt hfull
      cases mem with
      | none =>
        exact ⟨{ s with start_idx := (s.start_idx + k) % CO_MAX }, by simp only [exec, k5],
          inv_start_idx s _ h (cyc_lt _ _)⟩
      | some p =>
        exact ⟨_, by simp only [exec, k5], inv_started name func arg p _ s h ha (cyc_lt _ _) k4⟩
  | yield =>
    rcases inv_yield Context.user s ccur hcur (susp_saved s h) with h1 | h2
    · exact Or.inl h1
    · exact Or.inr (Or.inl h2)
  | wait t =>
    obtain ⟨c, hc⟩ := Option.ne_none_iff_exists'.1 ha
    by_cases hw : c.waiter = none
    · by_cases hd : c.status = co_status.CO_DEAD
      · left
        have hfin := inv_finish s t c h.wf h.running h.susp
          (fun Y y hY hw => absurd hw (h.not_waiter Y y hY)) hc hd
          (fun p hp => by rw [hw] at hp; exact absurd hp (by simp))
        exact ⟨_, by simp [exec, co_wait, hc, hw, hd, hfin.1], hfin.2⟩
      · obtain ⟨m, hm1, hm2⟩ := wait_suspend_eq t s ccur c hcur hc
        have hsusp := susp_wait t s c h hc hd
        have hy : co_wait t s = co_yield_switch (heap_map (waitF t s) s) := by
          simp [co_wait, hc, hw, hd, hm1, co_yield, hm2]
        rcases inv_switch _ hsusp with ⟨s1, e1, i1⟩ | ⟨u, e2⟩
        · exact Or.inl ⟨s1, by simp only [exec, hy, e1], i1⟩
        · exact Or.inr (Or.inl ⟨u, by simp only [exec, hy, e2]⟩)
    · right; right
      exact ⟨s, by simp [exec, co_wait, hc, hw]⟩
  | ret =>
    have hmain : s.current ≠ main_co_addr := ha
    obtain ⟨m, hm1, hm2⟩ := wrapper_finish_eq s ccur hcur (by
      intro w hw
      obtain ⟨a, ha2, _⟩ := h.wf.waiter _ ccur w hcur hw
      refine ⟨?_, by rw [ha2]; simp⟩
      rintro rfl
      exact h.not_waiter _ ccur hcur hw)
    have hsusp := susp_ret s ccur h hcur hmain
    have hy : co_wrapper_return s.current s
        = co_yield_switch (heap_map (retF ccur.waiter s) s) := by
      simp only [co_wrapper_return, hm1, co_yield, hm2]
    rcases inv_switch _ hsusp with ⟨s1, e1, i1⟩ | ⟨u, e2⟩
    · exact Or.inl ⟨s1, by simp only [exec, hy, e1], i1⟩
    · exact Or.inr (Or.inl ⟨u, by simp only [exec, hy, e2]⟩)

/-- Every reachable state satisfies the invariant. -/
theorem reachable_inv (s : Sched) (h : Reachable s) : Inv s := by
  induction h with
  | init => exact inv_init
  | step _ ha he ih =>
    rcases exec_inv _ _ ih ha with ⟨s1, e1, i1⟩ | ⟨t, e2⟩ | ⟨t, e3⟩
    · rw [he] at e1
      injection e1 with e1
      exact e1 ▸ i1
    · rw [he] at e2; exact absurd e2 (by simp)
    · rw [he] at e3; exact absurd e3 (by simp)

/-- What the switch of `co_yield` does, from a state in which every task has a saved context:
it selects an allocated task `N` and enters it when it is new, resumes it in its own code, or
resumes it inside `co_wait B`, where it releases the dead task `B`. -/
theorem switch_desc (m s1 : Sched) (h : Susp m) (hsw : co_yield_switch m = Except.ok s1) :
    ∃ N n, m.heap N = some n ∧ s1.current = N ∧
      ((n.status = co_status.CO_NEW ∧
          s1 = heap_map (enterF N) (switched N n.list_idx m)) ∨
       (n.status = co_status.CO_RUNNING ∧ n.context = Context.user ∧
          s1 = switched N n.list_idx m) ∨
       (n.status = co_status.CO_RUNNING ∧ ∃ B b, n.context = Context.wait B ∧
          m.heap B = some b ∧ b.status = co_status.CO_DEAD ∧ b.waiter = some N ∧
          s1 = released B b.list_idx (switched N n.list_idx m))) := by
  obtain ⟨N, n, hN, hnext⟩ := co_next_wf m h.wf
  have hlt : n.list_idx < CO_MAX := (h.wf.listed N n hN).1
  refine ⟨N, n, hN, ?_⟩
  by_cases hst : n.status = co_status.CO_NEW ∨ n.status = co_status.CO_RUNNING
  · by_cases hr : n.status = co_status.CO_RUNNING
    · have e : co_yield_switch m = longjmp (switched N n.list_idx m) := by
        simp only [co_yield_switch, hnext, hN, hst, hr, if_true]
        rfl
      rw [e] at hsw
      have hN3 : (switched N n.list_idx m).heap (switched N n.list_idx m).current = some n := hN
      rcases h.susp N n hN hr with hu | ⟨B, b, h1, h2, h3, h4⟩
      · simp only [longjmp, hN3, hu] at hsw
        injection hsw with hsw
        subst hsw
        exact ⟨rfl, Or.inr (Or.inl ⟨hr, hu, rfl⟩)⟩
      · have hmainB : B ≠ main_co_addr := by
          rintro rfl
          obtain ⟨c, hc, _, _, _, r4⟩ := h.wf.main
          rw [h2] at hc
          injection hc with hc
          subst hc
          exact r4 h3
        have h2s : (switched N n.list_idx m).heap B = some b := h2
        simp only [longjmp, hN3, h1, co_wait_finish, h2s, h3, hmainB] at hsw
        simp only [ne_eq, not_true_eq_false, if_false] at hsw
        injection hsw with hsw
        subst hsw
        exact ⟨rfl, Or.inr (Or.inr ⟨hr, B, b, h1, h2, h3, h4, rfl⟩)⟩
    · have hnew : n.status = co_status.CO_NEW := hst.resolve_right hr
      have e : co_yield_switch m = co_wrapper_enter N (switched N n.list_idx m) := by
        simp only [co_yield_switch, hnext, hN, hnew, or_false, or_true, true_or, if_true,
          if_false, show ¬ (co_status.CO_NEW = co_status.CO_RUNNING) by decide]
        rfl
      rw [e, co_wrapper_enter_eq N (switched N n.list_idx m) n hN] at hsw
      injection hsw with hsw
      subst hsw
      exact ⟨rfl, Or.inl ⟨hnew, rfl⟩⟩
  · simp only [co_yield_switch, hnext, hN, hst, if_false] at hsw
    exact absurd hsw (by simp)

theorem exec_yield_eq (s : Sched) (h : Inv s) :
    exec Op.yield s = co_yield_switch (heap_map (savedF Context.user s) s) := by
  obtain ⟨ccur, hcur, _⟩ := h.wf.cur
  simp only [exec, co_yield, setjmp_eq Context.user s ccur hcur]

theorem exec_wait_eq (s : Sched) (t : Nat) (c : co) (h : Inv s) (hc : s.heap t = some c)
    (hw : c.waiter = none) (hd : c.status ≠ co_status.CO_DEAD) :
    exec (Op.wait t) s = co_yield_switch (heap_map (waitF t s) s) := by
  obtain ⟨ccur, hcur, _⟩ := h.wf.cur
  obtain ⟨m, hm1, hm2⟩ := wait_suspend_eq t s ccur c hcur hc
  simp [exec, co_wait, hc, hw, hd, hm1, co_yield, hm2]

theorem exec_wait_dead_eq (s : Sched) (t : Nat) (c : co) (h : Inv s) (hc : s.heap t = some c)
    (hw : c.waiter = none) (hd : c.status = co_status.CO_DEAD) :
    exec (Op.wait t) s = Except.ok (released t c.list_idx s) := by
  have hfin := inv_finish s t c h.wf h.running h.susp
    (fun Y y hY hw => absurd hw (h.not_waiter Y y hY)) hc hd
    (fun p hp => by rw [hw] at hp; exact absurd hp (by simp))
  simp [exec, co_wait, hc, hw, hd, hfin.1]

theorem exec_ret_eq (s : Sched) (r : co) (h : Inv s) (hr : s.heap s.current = some r) :
    exec Op.ret s = co_yield_switch (heap_map (retF r.waiter s) s) := by
  obtain ⟨m, hm1, hm2⟩ := wrapper_finish_eq s r hr (by
    intro w hw
    obtain ⟨a, ha2, _⟩ := h.wf.waiter _ r w hr hw
    refine ⟨?_, by rw [ha2]; simp⟩
    rintro rfl
    exact h.not_waiter _ r hr hw)
  simp only [exec, co_wrapper_return, hm1, co_yield, hm2]

theorem reachable_sc_started : Reachable sc_started :=
  Reachable.step Reachable.init (show Allowed init (Op.start "T" 1 0 (some 1)) from rfl) rfl

theorem reachable_sc_waiting : Reachable sc_waiting :=
  Reachable.step reachable_sc_started (show Allowed sc_started (Op.wait 1) by decide) rfl

/-- A block that the switch of `co_yield` releases was dead when the switch began. -/
theorem switch_released (m s1 : Sched) (h : Susp m) (hsw : co_yield_switch m = Except.ok s1)
    (B : Nat) (b : co) (hB : m.heap B = some b) (hnone : s1.heap B = none) :
    b.status = co_status.CO_DEAD := by
  obtain ⟨N, n, hN, _, hcase⟩ := switch_desc m s1 h hsw
  rcases hcase with ⟨_, e⟩ | ⟨_, _, e⟩ | ⟨_, B1, b1, _, h2, h3, _, e⟩
  · subst e
    have := heap_map_of_some (enterF N) (switched N n.list_idx m) B b hB
    rw [this] at hnone
    exact absurd hnone (by simp)
  · subst e
    have : (switched N n.list_idx m).heap B = some b := hB
    rw [this] at hnone
    exact absurd hnone (by simp)
  · subst e
    by_cases hBB : B = B1
    · subst hBB
      rw [hB] at h2
      injection h2 with h2
      subst h2
      exact h3
    · have : (released B1 b1.list_idx (switched N n.list_idx m)).heap B = some b := by
        simp [released, switched, Function.update_apply, hBB, hB]
      rw [this] at hnone
      exact absurd hnone (by simp)

/-- The three outcomes of a `co_start` that does not fail. -/
theorem co_start_cases (name : String) (func arg : Nat) (mem r : Option Nat) (s s2 : Sched)
    (h : co_start name func arg mem s = Except.ok (r, s2)) :
    (r = none ∧ ∃ i, s2 = { s with start_idx := i }) ∨
    (∃ p i, r = some p ∧ mem = some p ∧ i < CO_MAX ∧ s.co_list i = none ∧
      s2 = started name func arg p i s) := by
  cases r with
  | some p =>
    obtain ⟨i, h1, h2, h3, h4⟩ := co_start_ok name func arg mem s s2 p h
    exact Or.inr ⟨p, i, rfl, h3, h1, h2, h4⟩
  | none =>
    left
    refine ⟨rfl, ?_⟩
    unfold co_start at h
    split at h
    · exact absurd h (by simp)
    · split_ifs at h
      · injection h with h
        injection h with _ hs
        exact ⟨s.start_idx, by rw [← hs]⟩
      · cases mem with
        | none =>
          injection h with h
          injection h with _ hs
          exact ⟨_, hs.symm⟩
        | some p => simp at h

/-- A `co_start` that does not fail keeps every allocated block and the current task. -/
theorem exec_start_frame (name : String) (func arg : Nat) (mem : Option Nat) (s s1 : Sched)
    (ha : Allowed s (Op.start name func arg mem))
    (he : exec (Op.start name func arg mem) s = Except.ok s1) :
    s1.current = s.current ∧ ∀ q c, s.heap q = some c → s1.heap q = some c := by
  simp only [exec] at he
  split at he
  · exact absurd he (by simp)
  · rename_i r s2 hstart
    injection he with he
    subst he
    rcases co_start_cases name func arg mem r s s2 hstart with ⟨_, i, hs⟩ |
      ⟨p, i, _, hmem, _, _, hs⟩
    · subst hs
      exact ⟨rfl, fun q c hq => hq⟩
    · subst hs; subst hmem
      refine ⟨rfl, fun q c hq => ?_⟩
      have hp : s.heap p = none := ha
      have hne : q ≠ p := by
        rintro rfl
        rw [hp] at hq
        exact absurd hq (by simp)
      simp [started, Function.update_apply, hne, hq]

/-- The status updates of `co_wrapper` after the entry function of the current task has
returned: they do not fail, the task is then dead and its waiter, if any, runnable. -/
theorem wrapper_finish_status (s : Sched) (r : co) (h : Inv s)
    (hr : s.heap s.current = some r) :
    ∃ m, co_wrapper_finish s.current s = Except.ok m ∧
      (∃ b, m.heap s.current = some b ∧ b.status = co_status.CO_DEAD) ∧
      (∀ w, r.waiter = some w → ∃ a, m.heap w = some a ∧ a.status = co_status.CO_RUNNING) := by
  cases hwr : r.waiter with
  | none =>
    refine ⟨store s s.current { r with status := co_status.CO_DEAD },
      by simp only [co_wrapper_finish, hr, hwr],
      ⟨{ r with status := co_status.CO_DEAD }, by simp, rfl⟩, ?_⟩
    intro w hw
    exact absurd hw (by simp)
  | some w =>
    obtain ⟨wc, hwc, _⟩ := h.wf.waiter _ r w hr hwr
    have hne : w ≠ s.current := by
      rintro rfl
      exact h.not_waiter _ r hr hwr
    have hne2 : s.current ≠ w := fun e => hne e.symm
    refine ⟨store (store s s.current { r with status := co_status.CO_DEAD }) w
        { wc with status := co_status.CO_RUNNING },
      by simp only [co_wrapper_finish, hr, hwr, store_heap, hne, if_false, hwc],
      ⟨{ r with status := co_status.CO_DEAD }, by simp [hne2], rfl⟩, ?_⟩
    intro w2 hw2
    injection hw2 with hw2
    subst hw2
    exact ⟨{ wc with status := co_status.CO_RUNNING }, by simp, rfl⟩

theorem longjmp_current (s s1 : Sched) (h : longjmp s = Except.ok s1) :
    s1.current = s.current := by
  unfold longjmp at h
  split at h
  · exact absurd h (by simp)
  · split at h
    · injection h with h; rw [← h]
    · unfold co_wait_finish at h
      split at h
      · exact absurd h (by simp)
      · split_ifs at h
        injection h with h; rw [← h]
    · exact absurd h (by simp)
    · exact absurd h (by simp)

theorem co_wrapper_enter_current (N : Nat) (s s1 : Sched)
    (h : co_wrapper_enter N s = Except.ok s1) : s1.current = s.current := by
  unfold co_wrapper_enter at h
  split at h
  · exact absurd h (by simp)
  · injection h with h; rw [← h]; rfl

/-- The switch of `co_yield`, in any state: the task it makes current is the one `co_next`
returned, and its status when it was selected was `CO_NEW` or `CO_RUNNING`. -/
theorem switch_selects_runnable (m s1 : Sched) (h : co_yield_switch m = Except.ok s1) :
    ∃ N m2 n, co_next m = Except.ok (N, m2) ∧ m2.heap N = some n ∧
      (n.status = co_status.CO_NEW ∨ n.status = co_status.CO_RUNNING) ∧ s1.current = N := by
  unfold co_yield_switch at h
  split at h
  · exact absurd h (by simp)
  · rename_i N m2 hnext
    split at h
    · exact absurd h (by simp)
    · rename_i n hn
      split_ifs at h with h1 h2
      · exact ⟨N, m2, n, hnext, hn, h1, longjmp_current _ _ h⟩
      · exact ⟨N, m2, n, hnext, hn, h1, co_wrapper_enter_current _ _ _ h⟩

/-- The switch of `co_yield` keeps a waiting task waiting and registered. -/
theorem pending_switch (A B : Nat) (m s1 : Sched) (h : Susp m) (hp : Pending A B m)
    (hsw : co_yield_switch m = Except.ok s1) : Pending A B s1 := by
  obtain ⟨a, b, hA, hwaiting, hB, hbw⟩ := hp
  obtain ⟨N, n, hN, _, hcase⟩ := switch_desc m s1 h hsw
  rcases hcase with ⟨hnew, e⟩ | ⟨_, _, e⟩ | ⟨hrun, B1, b1, _, h2, h3, h4, e⟩
  · subst e
    have hAN : A ≠ N := by
      rintro rfl
      rw [hN] at hA
      injection hA with hA
      subst hA
      rw [hnew] at hwaiting
      exact absurd hwaiting (by decide)
    exact ⟨_, _, heap_map_of_some _ (switched N n.list_idx m) A a hA,
      by simp [enterF, hAN, hwaiting],
      heap_map_of_some _ (switched N n.list_idx m) B b hB, hbw⟩
  · subst e
    exact ⟨a, b, hA, hwaiting, hB, hbw⟩
  · subst e
    have hAN : A ≠ N := by
      rintro rfl
      rw [hN] at hA
      injection hA with hA
      subst hA
      rw [hrun] at hwaiting
      exact absurd hwaiting (by decide)
    have hAB1 : A ≠ B1 := by
      rintro rfl
      rw [h2] at hA
      injection hA with hA
      subst hA
      rw [h3] at hwaiting
      exact absurd hwaiting (by decide)
    have hBB1 : B ≠ B1 := by
      rintro rfl
      rw [h2] at hB
      injection hB with hB
      subst hB
      rw [h4] at hbw
      injection hbw with hbw
      exact hAN hbw.symm
    exact ⟨a, b, by simp [released, switched, Function.update_apply, hAB1, hA], hwaiting,
      by simp [released, switched, Function.update_apply, hBB1, hB], hbw⟩

theorem pending_heap_map (A B : Nat) (F : Nat → co → co) (s : Sched) (a b : co)
    (hA : s.heap A = some a) (hB : s.heap B = some b)
    (h1 : (F A a).status = co_status.CO_WAITING) (h2 : (F B b).waiter = some A) :
    Pending A B (heap_map F s) :=
  ⟨_, _, heap_map_of_some F s A a hA, h1, heap_map_of_some F s B b hB, h2⟩

/-- An operation other than the return of the entry function of `B` keeps a waiter of `B`
waiting and registered. -/
theorem pending_step (A B : Nat) (s s1 : Sched) (op : Op) (h : Inv s) (hp : Pending A B s)
    (ha : Allowed s op) (hnot : ¬ (op = Op.ret ∧ s.current = B))
    (he : exec op s = Except.ok s1) : Pending A B s1 := by
  obtain ⟨a, b, hA, hwaiting, hB, hbw⟩ := hp
  obtain ⟨ccur, hcur, _⟩ := h.wf.cur
  have hAcur : A ≠ s.current := by
    rintro rfl
    rw [hcur] at hA
    injection hA with hA
    subst hA
    rw [h.running _ hcur] at hwaiting
    exact absurd hwaiting (by decide)
  cases op with
  | start name func arg mem =>
    obtain ⟨_, hkeep⟩ := exec_start_frame name func arg mem s s1 ha he
    exact ⟨a, b, hkeep A a hA, hwaiting, hkeep B b hB, hbw⟩
  | yield =>
    rw [exec_yield_eq s h] at he
    exact pending_switch A B _ s1 (susp_saved s h)
      (pending_heap_map A B _ s a b hA hB hwaiting hbw) he
  | wait t =>
    obtain ⟨c, hc⟩ := Option.ne_none_iff_exists'.1 ha
    by_cases hw : c.waiter = none
    · have hBt : B ≠ t := by
        rintro rfl
        rw [hc] at hB
        injection hB with hB
        subst hB
        rw [hw] at hbw
        exact absurd hbw (by simp)
      by_cases hd : c.status = co_status.CO_DEAD
      · rw [exec_wait_dead_eq s t c h hc hw hd] at he
        injection he with he
        subst he
        have hAt : A ≠ t := by
          rintro rfl
          rw [hc] at hA
          injection hA with hA
          subst hA
          rw [hd] at hwaiting
          exact absurd hwaiting (by decide)
        exact ⟨a, b, by simp [released, Function.update_apply, hAt, hA], hwaiting,
          by simp [released, Function.update_apply, hBt, hB], hbw⟩
      · rw [exec_wait_eq s t c h hc hw hd] at he
        exact pending_switch A B _ s1 (susp_wait t s c h hc hd)
          (pending_heap_map A B _ s a b hA hB (by simp [waitF, hwaiting])
            (by simp [waitF, hBt, hbw])) he
    · simp [exec, co_wait, hc, hw] at he
  | ret =>
    have hcurB : s.current ≠ B := fun e => hnot ⟨rfl, e⟩
    have hwA : ccur.waiter ≠ some A := by
      intro e
      obtain ⟨a1, ha1, hctx1, _⟩ := h.wf.waiter _ ccur A hcur e
      obtain ⟨a2, ha2, hctx2, _⟩ := h.wf.waiter B b A hB hbw
      rw [ha1] at ha2
      injection ha2 with ha2
      subst ha2
      rw [hctx1] at hctx2
      injection hctx2 with hctx2
      exact hcurB hctx2
    rw [exec_ret_eq s ccur h hcur] at he
    exact pending_switch A B _ s1 (susp_ret s ccur h hcur ha)
      (pending_heap_map A B _ s a b hA hB (by simp [retF, hAcur, hwA, hwaiting]) hbw) he

theorem pending_steps (A B : Nat) (s1 s : Sched) (hsteps : StepsAvoiding B s1 s) :
    Reachable s1 → Pending A B s1 → Reachable s ∧ Pending A B s := by
  induction hsteps with
  | refl => exact fun h1 h2 => ⟨h1, h2⟩
  | step _ ha hnot he ih =>
    intro h1 h2
    obtain ⟨r, p⟩ := ih h1 h2
    exact ⟨Reachable.step r ha he, pending_step A B _ _ _ (reachable_inv _ r) p ha hnot he⟩

/-- Round robin from the offset `d`, whatever happens between the selections: when the cursor
is at offset `d` from a runnable slot `c`, the next selections are the tasks of the runnable
slots at the offsets `d+1, ..., CO_MAX`, in that order. -/
theorem selections_from (s : Sched) (c : Nat) (hc : c < CO_MAX)
    (hrun : slot_runnable s c = true) :
    ∀ n d t ps, d + n = CO_MAX → t.co_list = s.co_list → RegistryValid t →
      (∀ i, slot_runnable t i = slot_runnable s i) → t.next_idx = (c + d) % CO_MAX →
      (d = 0 → s.co_list c = some t.current) → Selections t ps →
      ps.length = (slots_from s c d).length →
      ps = (slots_from s c d).filterMap s.co_list := by
  intro n
  induction n using Nat.strong_induction_on with
  | _ n ih =>
    intro d t ps hdn hcl hreg hsame hidx hq hsel hlen
    by_cases hd : d = CO_MAX
    · subst hd
      rw [slots_from_end] at hlen ⊢
      simp only [List.length_nil, List.length_eq_zero] at hlen
      rw [hlen]; rfl
    · have hdlt : d < CO_MAX := by omega
      obtain ⟨k, p, k1, k2, k3, k4, k5, k6⟩ := co_next_from_offset t c d hc hreg
        (by rw [hsame]; exact hrun) hdlt hidx (fun e => by rw [hcl]; exact hq e)
      simp only [hsame] at k3 k4
      rw [hcl] at k5
      rw [slots_from_step s c d k k1 k2 k3 k4] at hlen ⊢
      cases hsel with
      | nil => simp at hlen
      | cons hnext hsr hrest =>
        rename_i s1 t1 p1 ps1
        rw [k6] at hnext
        injection hnext with hnext
        injection hnext with e1 e2
        subst e1; subst e2
        obtain ⟨r1, r2, r3, r4, r5⟩ := hsr
        have := ih (n - k) (by omega) (d + k) t1 ps1 (by omega) (by rw [r1]; exact hcl) r4
          (fun i => by rw [r5]; exact hsame i) r2
          (fun _ => by rw [r3]; omega) hrest
          (by simpa using hlen)
        rw [this]
        simp only [List.filterMap_cons, k5]

theorem co_next_frame (s s1 : Sched) (p : Nat) (h : co_next s = Except.ok (p, s1)) :
    s1.heap = s.heap ∧ s1.co_list = s.co_list := by
  unfold co_next at h
  split at h
  · exact absurd h (by simp)
  · injection h with h
    injection h with _ hs
    rw [← hs]
    exact ⟨rfl, rfl⟩
  · injection h with h
    injection h with _ hs
    rw [← hs]
    exact ⟨rfl, rfl⟩

/-- The selections computed by `co_next_iter` are consecutive selections. -/
theorem selections_of_iter :
    ∀ (n : Nat) (s s1 : Sched) (ps : List Nat), RegistryValid s →
      co_next_iter n s = Except.ok (ps, s1) → Selections s ps := by
  intro n
  induction n with
  | zero =>
    intro s s1 ps _ h
    simp only [co_next_iter, Except.ok.injEq, Prod.mk.injEq] at h
    rw [← h.1]
    exact Selections.nil s
  | succ n ih =>
    intro s s1 ps hreg h
    simp only [co_next_iter] at h
    split at h
    · exact absurd h (by simp)
    · rename_i p s2 hnext
      split at h
      · exact absurd h (by simp)
      · rename_i ps1 s3 hrest
        simp only [Except.ok.injEq, Prod.mk.injEq] at h
        rw [← h.1]
        obtain ⟨f1, f2⟩ := co_next_frame s s2 p hnext
        have hreg2 : RegistryValid { s2 with current := p } := by
          intro i q hi hq
          have hq2 : s2.co_list i = some q := hq
          rw [f2] at hq2
          have := hreg i q hi hq2
          show s2.heap q ≠ none
          rw [f1]
          exact this
        exact Selections.cons hnext ⟨rfl, rfl, rfl, hreg2, fun _ => rfl⟩
          (ih _ s3 ps1 hreg2 hrest)

/-- The switch of `co_yield`, from a state in which every task has a saved context: `co_next`
returns an allocated task `N`; the switch makes it current when it is `CO_NEW` or
`CO_RUNNING`, and fails the assertion of line 162 otherwise. -/
theorem switch_total (m : Sched) (h : Susp m) :
    ∃ N n, m.heap N = some n ∧
      co_next m = Except.ok (N, { m with next_idx := n.list_idx }) ∧
      (((n.status = co_status.CO_NEW ∨ n.status = co_status.CO_RUNNING) ∧
          ∃ s1, co_yield_switch m = Except.ok s1 ∧ Inv s1 ∧ s1.current = N) ∨
       (¬ (n.status = co_status.CO_NEW ∨ n.status = co_status.CO_RUNNING) ∧
          co_yield_switch m
            = Except.error (Fault.assert_runnable, { m with next_idx := n.list_idx }))) := by
  obtain ⟨N, n, hN, hnext⟩ := co_next_wf m h.wf
  have hlt : n.list_idx < CO_MAX := (h.wf.listed N n hN).1
  refine ⟨N, n, hN, hnext, ?_⟩
  by_cases hst : n.status = co_status.CO_NEW ∨ n.status = co_status.CO_RUNNING
  · left
    refine ⟨hst, ?_⟩
    by_cases hr : n.status = co_status.CO_RUNNING
    · obtain ⟨s1, e1, i1⟩ := inv_longjmp m N n h hN hlt hr
      refine ⟨s1, ?_, i1, longjmp_current _ _ e1⟩
      simp only [co_yield_switch, hnext, hN, hst, hr, if_true]
      exact e1
    · have hnew : n.status = co_status.CO_NEW := hst.resolve_right hr
      refine ⟨_, ?_, inv_enter m N n h hN hlt hnew, rfl⟩
      simp only [co_yield_switch, hnext, hN, hnew, or_false, or_true, true_or, if_true,
        if_false, show ¬ (co_status.CO_NEW = co_status.CO_RUNNING) by decide]
      exact co_wrapper_enter_eq N (switched N n.list_idx m) n hN
  · right
    exact ⟨hst, by simp only [co_yield_switch, hnext, hN, hst, if_false]⟩

/-- The forms an operation that does not fail can take: a `co_start`; a `co_wait` on a dead
target, which releases it; or lines that change the blocks by some `F`, followed by the switch
of `co_yield`. -/
theorem exec_cases (s s1 : Sched) (op : Op) (h : Inv s) (ha : Allowed s op)
    (he : exec op s = Except.ok s1) :
    (∃ name func arg mem, op = Op.start name func arg mem) ∨
    (∃ t c, op = Op.wait t ∧ s.heap t = some c ∧ c.waiter = none ∧
      c.status = co_status.CO_DEAD ∧ s1 = released t c.list_idx s) ∨
    (∃ F, Susp (heap_map F s) ∧ co_yield_switch (heap_map F s) = Except.ok s1 ∧
      ((op = Op.yield ∧ F = savedF Context.user s) ∨
       (∃ t c, op = Op.wait t ∧ s.heap t = some c ∧ c.waiter = none ∧
          c.status ≠ co_status.CO_DEAD ∧ F = waitF t s) ∨
       (∃ r, op = Op.ret ∧ s.heap s.current = some r ∧ F = retF r.waiter s))) := by
  obtain ⟨ccur, hcur, _⟩ := h.wf.cur
  cases op with
  | start name func arg mem => exact Or.inl ⟨name, func, arg, mem, rfl⟩
  | yield =>
    right; right
    rw [exec_yield_eq s h] at he
    exact ⟨_, susp_saved s h, he, Or.inl ⟨rfl, rfl⟩⟩
  | wait t =>
    obtain ⟨c, hc⟩ := Option.ne_none_iff_exists'.1 ha
    by_cases hw : c.waiter = none
    · by_cases hd : c.status = co_status.CO_DEAD
      · rw [exec_wait_dead_eq s t c h hc hw hd] at he
        injection he with he
        exact Or.inr (Or.inl ⟨t, c, rfl, hc, hw, hd, he.symm⟩)
      · rw [exec_wait_eq s t c h hc hw hd] at he
        exact Or.inr (Or.inr ⟨_, susp_wait t s c h hc hd, he,
          Or.inr (Or.inl ⟨t, c, rfl, hc, hw, hd, rfl⟩)⟩)
    · simp [exec, co_wait, hc, hw] at he
  | ret =>
    rw [exec_ret_eq s ccur h hcur] at he
    exact Or.inr (Or.inr ⟨_, susp_ret s ccur h hcur ha, he, Or.inr (Or.inr ⟨ccur, rfl, hcur, rfl⟩)⟩)

theorem enterF_of_ne (N p : Nat) (b : co) (h : p ≠ N) : enterF N p b = b := by
  cases b
  simp [enterF, h]

/-- What the switch of `co_yield` does to a block that it does not release: nothing, or the
block is the new task that is entered, whose status goes from `CO_NEW` to `CO_RUNNING`. -/
theorem switch_block (m s1 : Sched) (h : Susp m) (hsw : co_yield_switch m = Except.ok s1)
    (p : Nat) (c c1 : co) (hp : m.heap p = some c) (hp1 : s1.heap p = some c1) :
    c1 = c ∨ (c.status = co_status.CO_NEW ∧ c1 = { c with status := co_status.CO_RUNNING } ∧
      s1.current = p) := by
  obtain ⟨N, n, hN, hcurN, hcase⟩ := switch_desc m s1 h hsw
  rcases hcase with ⟨hnew, e⟩ | ⟨_, _, e⟩ | ⟨_, B, b, _, _, _, _, e⟩
  · subst e
    have := heap_map_of_some (enterF N) (switched N n.list_idx m) p c hp
    rw [this] at hp1
    injection hp1 with hp1
    by_cases hpN : p = N
    · subst hpN
      rw [hN] at hp
      injection hp with hp
      subst hp
      right
      exact ⟨hnew, by rw [← hp1]; simp [enterF], rfl⟩
    · left
      rw [← hp1, enterF_of_ne N p c hpN]
  · subst e
    have : (switched N n.list_idx m).heap p = some c := hp
    rw [this] at hp1
    injection hp1 with hp1
    exact Or.inl hp1.symm
  · subst e
    left
    simp only [released, switched, Function.update_apply] at hp1
    split_ifs at hp1
    rw [hp] at hp1
    injection hp1 with hp1
    exact hp1.symm

/-- A block allocated after the switch of `co_yield` was allocated before it. -/
theorem switch_allocated (m s1 : Sched) (h : Susp m) (hsw : co_yield_switch m = Except.ok s1)
    (p : Nat) (c1 : co) (hp1 : s1.heap p = some c1) : ∃ c, m.heap p = some c := by
  obtain ⟨N, n, hN, hcurN, hcase⟩ := switch_desc m s1 h hsw
  rcases hcase with ⟨_, e⟩ | ⟨_, _, e⟩ | ⟨_, B, b, _, _, _, _, e⟩
  · subst e
    obtain ⟨c, hc, _⟩ := heap_map_some _ _ p c1 hp1
    exact ⟨c, hc⟩
  · subst e
    exact ⟨c1, hp1⟩
  · subst e
    simp only [released, switched, Function.update_apply] at hp1
    split_ifs at hp1
    exact ⟨c1, hp1⟩

/-- The task that the switch of `co_yield` makes current was `CO_NEW` or `CO_RUNNING` when the
switch began. -/
theorem switch_current (m s1 : Sched) (h : Susp m) (hsw : co_yield_switch m = Except.ok s1) :
    ∃ n, m.heap s1.current = some n ∧
      (n.status = co_status.CO_NEW ∨ n.status = co_status.CO_RUNNING) := by
  obtain ⟨N, n, hN, hcurN, hcase⟩ := switch_desc m s1 h hsw
  rw [hcurN]
  refine ⟨n, hN, ?_⟩
  rcases hcase with ⟨e, _⟩ | ⟨e, _⟩ | ⟨e, _⟩
  · exact Or.inl e
  · exact Or.inr e
  · exact Or.inr e

/-- A block that exists after a `co_start` and did not exist before is the new task, with
status `CO_NEW`. -/
theorem exec_start_born (name : String) (func arg : Nat) (mem : Option Nat) (s s1 : Sched)
    (he : exec (Op.start name func arg mem) s = Except.ok s1) (q : Nat) (c1 : co)
    (hq : s.heap q = none) (hq1 : s1.heap q = some c1) :
    c1.status = co_status.CO_NEW ∧ c1.waiter = none := by
  simp only [exec] at he
  split at he
  · exact absurd he (by simp)
  · rename_i r s2 hstart
    injection he with he
    subst he
    rcases co_start_cases name func arg mem r s s2 hstart with ⟨_, i, hs⟩ |
      ⟨p, i, _, _, _, _, hs⟩
    · subst hs
      have : s.heap q = some c1 := hq1
      rw [hq] at this
      exact absurd this (by simp)
    · subst hs
      simp only [started, Function.update_apply] at hq1
      split_ifs at hq1
      · injection hq1 with hq1
        rw [← hq1]
        exact ⟨rfl, rfl⟩
      · rw [hq] at hq1
        exact absurd hq1 (by simp)

/-- What one operation does to a block that exists before and after it: the name, entry,
argument and slot stay, and the status stays or makes one of the four moves of the state
machine. -/
theorem step_block (s s1 : Sched) (op : Op) (h : Inv s) (ha : Allowed s op)
    (he : exec op s = Except.ok s1) (p : Nat) (c c1 : co) (hp : s.heap p = some c)
    (hp1 : s1.heap p = some c1) :
    c1.name = c.name ∧ c1.func = c.func ∧ c1.arg = c.arg ∧ c1.list_idx = c.list_idx ∧
    (c1.status = c.status ∨
     (c.status = co_status.CO_NEW ∧ c1.status = co_status.CO_RUNNING ∧ s1.current = p) ∨
     (c.status = co_status.CO_RUNNING ∧ c1.status = co_status.CO_WAITING ∧ p = s.current ∧
        ∃ t, op = Op.wait t) ∨
     (c.status = co_status.CO_WAITING ∧ c1.status = co_status.CO_RUNNING ∧ op = Op.ret ∧
        ∃ r, s.heap s.current = some r ∧ r.waiter = some p) ∨
     (c.status = co_status.CO_RUNNING ∧ c1.status = co_status.CO_DEAD ∧ op = Op.ret ∧
        p = s.current)) := by
  rcases exec_cases s s1 op h ha he with ⟨name, func, arg, mem, e⟩ |
    ⟨t, c0, e, _, _, _, hs⟩ | ⟨F, hsusp, hsw, hF⟩
  · subst e
    have := (exec_start_frame name func arg mem s s1 ha he).2 p c hp
    rw [this] at hp1
    injection hp1 with hp1
    subst hp1
    exact ⟨rfl, rfl, rfl, rfl, Or.inl rfl⟩
  · subst hs
    simp only [released, Function.update_apply] at hp1
    split_ifs at hp1
    rw [hp] at hp1
    injection hp1 with hp1
    subst hp1
    exact ⟨rfl, rfl, rfl, rfl, Or.inl rfl⟩
  · have hm := heap_map_of_some F s p c hp
    have hsb := switch_block _ s1 hsusp hsw p _ c1 hm hp1
    rcases hF with ⟨_, hF⟩ | ⟨t, c0, hop, _, _, _, hF⟩ | ⟨r, hop, hr, hF⟩
    · subst hF
      rcases hsb with e | ⟨e1, e2, e3⟩
      · subst e
        exact ⟨rfl, rfl, rfl, rfl, Or.inl rfl⟩
      · subst e2
        exact ⟨rfl, rfl, rfl, rfl, Or.inr (Or.inl ⟨e1, rfl, e3⟩)⟩
    · subst hF
      rcases hsb with e | ⟨e1, e2, e3⟩
      · subst e
        refine ⟨rfl, rfl, rfl, rfl, ?_⟩
        by_cases hpc : p = s.current
        · right; right; left
          exact ⟨h.running c (hpc ▸ hp), by simp [waitF, hpc], hpc, t, hop⟩
        · left; simp [waitF, hpc]
      · subst e2
        refine ⟨rfl, rfl, rfl, rfl, Or.inr (Or.inl ⟨?_, rfl, e3⟩)⟩
        simp only [waitF] at e1
        split_ifs at e1
        exact e1
    · subst hF
      have hrun := h.running r hr
      rcases hsb with e | ⟨e1, e2, e3⟩
      · subst e
        refine ⟨rfl, rfl, rfl, rfl, ?_⟩
        by_cases hpc : p = s.current
        · right; right; right; right
          exact ⟨h.running c (hpc ▸ hp), by simp [retF, hpc], hop, hpc⟩
        · by_cases hw : r.waiter = some p
          · right; right; right; left
            obtain ⟨a, ha1, _, hst⟩ := h.wf.waiter _ r p hr hw
            rw [hp] at ha1
            injection ha1 with ha1
            subst ha1
            rcases hst with ⟨s1, _⟩ | ⟨_, s2⟩
            · exact ⟨s1, by simp [retF, hpc, hw], hop, r, hr, hw⟩
            · rw [hrun] at s2; exact absurd s2 (by decide)
          · left; simp [retF, hpc, hw]
      · subst e2
        refine ⟨rfl, rfl, rfl, rfl, Or.inr (Or.inl ⟨?_, rfl, e3⟩)⟩
        simp only [retF] at e1
        split_ifs at e1
        exact e1

/-- A block that exists after an operation and did not exist before it was allocated by
`co_start` in this operation, and is `CO_NEW`. -/
theorem step_born (s s1 : Sched) (op : Op) (h : Inv s) (ha : Allowed s op)
    (he : exec op s = Except.ok s1) (p : Nat) (c1 : co) (hp : s.heap p = none)
    (hp1 : s1.heap p = some c1) :
    c1.status = co_status.CO_NEW ∧ ∃ name func arg, op = Op.start name func arg (some p) := by
  rcases exec_cases s s1 op h ha he with ⟨name, func, arg, mem, e⟩ |
    ⟨t, c0, e, _, _, _, hs⟩ | ⟨F, hsusp, hsw, hF⟩
  · subst e
    refine ⟨(exec_start_born name func arg mem s s1 he p c1 hp hp1).1, name, func, arg, ?_⟩
    simp only [exec] at he
    split at he
    · exact absurd he (by simp)
    · rename_i r s2 hstart
      injection he with he
      subst he
      rcases co_start_cases name func arg mem r s s2 hstart with ⟨_, i, hs⟩ |
        ⟨q, i, _, hmem, _, _, hs⟩
      · subst hs
        have : s.heap p = some c1 := hp1
        rw [hp] at this
        exact absurd this (by simp)
      · subst hs
        simp only [started, Function.update_apply] at hp1
        split_ifs at hp1 with hpq
        · rw [hmem, hpq]
        · rw [hp] at hp1
          exact absurd hp1 (by simp)
  · subst hs
    simp only [released, Function.update_apply] at hp1
    split_ifs at hp1
    rw [hp] at hp1
    exact absurd hp1 (by simp)
  · obtain ⟨c, hc⟩ := switch_allocated _ s1 hsusp hsw p c1 hp1
    obtain ⟨c0, hc0, _⟩ := heap_map_some F s p c hc
    rw [hp] at hc0
    exact absurd hc0 (by simp)

theorem reachable_sc_yielded : Reachable sc_yielded :=
  Reachable.step reachable_sc_started (show Allowed sc_started Op.yield from trivial) rfl

theorem reachable_sc_dead : Reachable sc_dead :=
  Reachable.step reachable_sc_yielded (show Allowed sc_yielded Op.ret by decide) rfl

theorem reachable_sc_released : Reachable sc_released :=
  Reachable.step reachable_sc_dead (show Allowed sc_dead (Op.wait 1) by decide) rfl

/-- With the current task waiting on itself, the other slots hold the runnable tasks they held
before. -/
theorem slot_runnable_waitF (s : Sched) (t : Nat) (h : Inv s) (i : Nat) (hi : i < CO_MAX)
    (hne : i ≠ s.next_idx) :
    slot_runnable (heap_map (waitF t s) s) i = slot_runnable s i := by
  obtain ⟨ccur, hcur, hidx⟩ := h.wf.cur
  unfold slot_runnable
  show (match s.co_list i with
    | none => false
    | some p => match (heap_map (waitF t s) s).heap p with
      | none => false
      | some c => decide (c.status = co_status.CO_NEW ∨ c.status = co_status.CO_RUNNING)) = _
  cases hq : s.co_list i with
  | none => rfl
  | some q =>
    obtain ⟨b, hb, hbi⟩ := h.wf.registered i q hi hq
    have hqc : q ≠ s.current := by
      rintro rfl
      rw [hcur] at hb
      injection hb with hb
      subst hb
      exact hne (hbi ▸ hidx)
    simp only [heap_map_of_some _ s q b hb, hb, waitF, hqc, if_false]

theorem init_state3 (p1 p2 : Nat) :
    init = state3 (some main_co) none none p1 p2 0 0 0 := by
  apply sched_ext
  · intro q
    simp only [init, state3, main_co_addr]
    split_ifs <;> rfl
  · rfl
  · funext i
    simp only [init, state3, main_co_addr]
    split_ifs <;> rfl
  · rfl
  · rfl

set_option maxRecDepth 100000 in
theorem sc_step_start1 (name : String) (func arg p1 p2 : Nat) (h1 : p1 ≠ 0) :
    exec (Op.start name func arg (some p1))
        (state3 (some main_co) none none p1 p2 0 0 0)
      = Except.ok (state3 (some main_co)
          (some (task_block name func arg 1 co_status.CO_NEW none Context.unset))
          none p1 p2 0 1 0) := by
  have h1s : (0 : Nat) ≠ p1 := fun e => h1 e.symm
  simp [exec, co_start, co_start_scan, state3, CO_MAX, task_block]
  constructor <;> funext x <;> simp [Function.update_apply] <;> split_ifs <;> simp_all

set_option maxRecDepth 100000 in
theorem sc_step_wait1 (name : String) (func arg p1 p2 : Nat) (h1 : p1 ≠ 0) :
    exec (Op.wait p1)
        (state3 (some main_co)
          (some (task_block name func arg 1 co_status.CO_NEW none Context.unset))
          none p1 p2 0 1 0)
      = Except.ok (state3 (some (main_block co_status.CO_WAITING none (Context.wait p1)))
          (some (task_block name func arg 1 co_status.CO_RUNNING (some 0) Context.unset))
          none p1 p2 p1 1 1) := by
  have h1s : (0 : Nat) ≠ p1 := fun e => h1 e.symm
  simp [exec, co_wait, co_wait_suspend, co_wait_finish, co_yield, setjmp, co_yield_switch,
    co_next, co_next_scan, co_wrapper_enter, longjmp, store, state3, main_block, task_block,
    main_co, main_co_addr, CO_MAX, Function.update_apply, h1, h1s]
  funext x
  simp [Function.update_apply]
  split_ifs <;> simp_all

set_option maxRecDepth 100000 in
theorem sc_step_ret1 (name : String) (func arg p1 p2 : Nat) (h1 : p1 ≠ 0) :
    exec Op.ret
        (state3 (some (main_block co_status.CO_WAITING none (Context.wait p1)))
          (some (task_block name func arg 1 co_status.CO_RUNNING (some 0) Context.unset))
          none p1 p2 p1 1 1)
      = Except.ok (state3 (some (main_block co_status.CO_RUNNING none (Context.wait p1)))
          none none p1 p2 0 1 0) := by
  have h1s : (0 : Nat) ≠ p1 := fun e => h1 e.symm
  simp [exec, co_wrapper_return, co_wrapper_finish, co_wait_finish, co_yield, setjmp,
    co_yield_switch, co_next, co_next_scan, co_wrapper_enter, longjmp, store, state3,
    main_block, task_block, main_co, main_co_addr, CO_MAX, Function.update_apply, h1, h1s]
  constructor <;> funext x <;> simp [Function.update_apply] <;> split_ifs <;> simp_all

set_option maxRecDepth 100000 in
theorem sc2_start2 (n1 n2 : String) (f1 a1 f2 a2 p1 p2 : Nat)
    (h1 : p1 ≠ 0) (h2 : p2 ≠ 0) (h12 : p1 ≠ p2) :
    exec (Op.start n2 f2 a2 (some p2))
        (state3 (some main_co)
          (some (task_block n1 f1 a1 1 co_status.CO_NEW none Context.unset))
          none p1 p2 0 1 0)
      = Except.ok (state3 (some main_co)
          (some (task_block n1 f1 a1 1 co_status.CO_NEW none Context.unset))
          (some (task_block n2 f2 a2 2 co_status.CO_NEW none Context.unset)) p1 p2 0 2 0) := by
  have h1s : (0 : Nat) ≠ p1 := fun e => h1 e.symm
  have h2s : (0 : Nat) ≠ p2 := fun e => h2 e.symm
  have h21 : p2 ≠ p1 := fun e => h12 e.symm
  simp [exec, co_start, co_start_scan, co_wait, co_wait_suspend, co_wait_finish,
    co_wrapper_return, co_wrapper_finish, co_yield, setjmp, co_yield_switch, co_next,
    co_next_scan, co_wrapper_enter, longjmp, store, state3, main_block, task_block, main_co,
    main_co_addr, CO_MAX, Function.update_apply, h1, h2, h12, h1s, h2s, h21]
  constructor <;> funext x <;> simp [Function.update_apply] <;> split_ifs <;> simp_all

set_option maxRecDepth 100000 in
theorem sc2_wait1 (n1 n2 : String) (f1 a1 f2 a2 p1 p2 : Nat)
    (h1 : p1 ≠ 0) (h2 : p2 ≠ 0) (h12 : p1 ≠ p2) :
    exec (Op.wait p1)
        (state3 (some main_co)
          (some (task_block n1 f1 a1 1 co_status.CO_NEW none Context.unset))
          (some (task_block n2 f2 a2 2 co_status.CO_NEW none Context.unset)) p1 p2 0 2 0)
      = Except.ok (state3 (some (main_block co_status.CO_WAITING none (Context.wait p1)))
          (some (task_block n1 f1 a1 1 co_status.CO_RUNNING (some 0) Context.unset))
          (some (task_block n2 f2 a2 2 co_status.CO_NEW none Context.unset)) p1 p2 p1 2 1) := by
  have h1s : (0 : Nat) ≠ p1 := fun e => h1 e.symm
  have h2s : (0 : Nat) ≠ p2 := fun e => h2 e.symm
  have h21 : p2 ≠ p1 := fun e => h12 e.symm
  simp [exec, co_start, co_start_scan, co_wait, co_wait_suspend, co_wait_finish,
    co_wrapper_return, co_wrapper_finish, co_yield, setjmp, co_yield_switch, co_next,
    co_next_scan, co_wrapper_enter, longjmp, store, state3, main_block, task_block, main_co,
    main_co_addr, CO_MAX, Function.update_apply, h1, h2, h12, h1s, h2s, h21]
  funext x
  simp [Function.update_apply]
  split_ifs <;> simp_all

set_option maxRecDepth 100000 in
theorem sc2_yield (n1 n2 : String) (f1 a1 f2 a2 p1 p2 : Nat)
    (h1 : p1 ≠ 0) (h2 : p2 ≠ 0) (h12 : p1 ≠ p2) :
    exec (Op.yield)
        (state3 (some (main_block co_status.CO_WAITING none (Context.wait p1)))
          (some (task_block n1 f1 a1 1 co_status.CO_RUNNING (some 0) Context.unset))
          (some (task_block n2 f2 a2 2 co_status.CO_NEW none Context.unset)) p1 p2 p1 2 1)
      = Except.ok (state3 (some (main_block co_status.CO_WAITING none (Context.wait p1)))
          (some (task_block n1 f1 a1 1 co_status.CO_RUNNING (some 0) Context.user))
          (some (task_block n2 f2 a2 2 co_status.CO_RUNNING none Context.unset)) p1 p2 p2 2 2) := by
  have h1s : (0 : Nat) ≠ p1 := fun e => h1 e.symm
  have h2s : (0 : Nat) ≠ p2 := fun e => h2 e.symm
  have h21 : p2 ≠ p1 := fun e => h12 e.symm
  simp [exec, co_start, co_start_scan, co_wait, co_wait_suspend, co_wait_finish,
    co_wrapper_return, co_wrapper_finish, co_yield, setjmp, co_yield_switch, co_next,
    co_next_scan, co_wrapper_enter, longjmp, store, state3, main_block, task_block, main_co,
    main_co_addr, CO_MAX, Function.update_apply, h1, h2, h12, h1s, h2s, h21]
  funext x
  simp [Function.update_apply]
  split_ifs <;> simp_all

set_option maxRecDepth 100000 in
theorem sc2_ret2 (n1 n2 : String) (f1 a1 f2 a2 p1 p2 : Nat)
    (h1 : p1 ≠ 0) (h2 : p2 ≠ 0) (h12 : p1 ≠ p2) :
    exec (Op.ret)
        (state3 (some (main_block co_status.CO_WAITING none (Context.wait p1)))
          (some (task_block n1 f1 a1 1 co_status.CO_RUNNING (some 0) Context.user))
          (some (task_block n2 f2 a2 2 co_status.CO_RUNNING none Context.unset)) p1 p2 p2 2 2)
      = Except.ok (state3 (some (main_block co_status.CO_WAITING none (Context.wait p1)))
          (some (task_block n1 f1 a1 1 co_status.CO_RUNNING (some 0) Context.user))
          (some (task_block n2 f2 a2 2 co_status.CO_DEAD none Context.wrapper)) p1 p2 p1 2 1) := by
  have h1s : (0 : Nat) ≠ p1 := fun e => h1 e.symm
  have h2s : (0 : Nat) ≠ p2 := fun e => h2 e.symm
  have h21 : p2 ≠ p1 := fun e => h12 e.symm
  simp [exec, co_start, co_start_scan, co_wait, co_wait_suspend, co_wait_finish,
    co_wrapper_return, co_wrapper_finish, co_yield, setjmp, co_yield_switch, co_next,
    co_next_scan, co_wrapper_enter, longjmp, store, state3, main_block, task_block, main_co,
    main_co_addr, CO_MAX, Function.update_apply, h1, h2, h12, h1s, h2s, h21]
  funext x
  simp [Function.update_apply]
  split_ifs <;> simp_all

set_option maxRecDepth 100000 in
theorem sc2_ret1 (n1 n2 : String) (f1 a1 f2 a2 p1 p2 : Nat)
    (h1 : p1 ≠ 0) (h2 : p2 ≠ 0) (h12 : p1 ≠ p2) :
    exec (Op.ret)
        (state3 (some (main_block co_status.CO_WAITING none (Context.wait p1)))
          (some (task_block n1 f1 a1 1 co_status.CO_RUNNING (some 0) Context.user))
          (some (task_block n2 f2 a2 2 co_status.CO_DEAD none Context.wrapper)) p1 p2 p1 2 1)
      = Except.ok (state3 (some (main_block co_status.CO_RUNNING none (Context.wait p1)))
          none
          (some (task_block n2 f2 a2 2 co_status.CO_DEAD none Context.wrapper)) p1 p2 0 2 0) := by
  have h1s : (0 : Nat) ≠ p1 := fun e => h1 e.symm
  have h2s : (0 : Nat) ≠ p2 := fun e => h2 e.symm
  have h21 : p2 ≠ p1 := fun e => h12 e.symm
  simp [exec, co_start, co_start_scan, co_wait, co_wait_suspend, co_wait_finish,
    co_wrapper_return, co_wrapper_finish, co_yield, setjmp, co_yield_switch, co_next,
    co_next_scan, co_wrapper_enter, longjmp, store, state3, main_block, task_block, main_co,
    main_co_addr, CO_MAX, Function.update_apply, h1, h2, h12, h1s, h2s, h21]
  constructor <;> funext x <;> simp [Function.update_apply] <;> split_ifs <;> simp_all

set_option maxRecDepth 100000 in
theorem sc2_wait2 (n2 : String) (f2 a2 p1 p2 : Nat)
    (h1 : p1 ≠ 0) (h2 : p2 ≠ 0) (h12 : p1 ≠ p2) :
    exec (Op.wait p2)
        (state3 (some (main_block co_status.CO_RUNNING none (Context.wait p1)))
          none
          (some (task_block n2 f2 a2 2 co_status.CO_DEAD none Context.wrapper)) p1 p2 0 2 0)
      = Except.ok (state3 (some (main_block co_status.CO_RUNNING none (Context.wait p1)))
          none
          none p1 p2 0 2 0) := by
  have h1s : (0 : Nat) ≠ p1 := fun e => h1 e.symm
  have h2s : (0 : Nat) ≠ p2 := fun e => h2 e.symm
  have h21 : p2 ≠ p1 := fun e => h12 e.symm
  simp [exec, co_start, co_start_scan, co_wait, co_wait_suspend, co_wait_finish,
    co_wrapper_return, co_wrapper_finish, co_yield, setjmp, co_yield_switch, co_next,
    co_next_scan, co_wrapper_enter, longjmp, store, state3, main_block, task_block, main_co,
    main_co_addr, CO_MAX, Function.update_apply, h1, h2, h12, h1s, h2s, h21]
  constructor <;> funext x <;> simp [Function.update_apply] <;> split_ifs <;> simp_all

set_option maxRecDepth 100000 in
theorem sc3_start2 (n1 n2 : String) (f1 a1 f2 a2 p1 p2 : Nat)
    (h1 : p1 ≠ 0) (h2 : p2 ≠ 0) (h12 : p1 ≠ p2) :
    exec (Op.start n2 f2 a2 (some p2))
        (state3 (some (main_block co_status.CO_WAITING none (Context.wait p1)))
          (some (task_block n1 f1 a1 1 co_status.CO_RUNNING (some 0) Context.unset))
          none p1 p2 p1 1 1)
      = Except.ok (state3 (some (main_block co_status.CO_WAITING none (Context.wait p1)))
          (some (task_block n1 f1 a1 1 co_status.CO_RUNNING (some 0) Context.unset))
          (some (task_block n2 f2 a2 2 co_status.CO_NEW none Context.unset)) p1 p2 p1 2 1) := by
  have h1s : (0 : Nat) ≠ p1 := fun e => h1 e.symm
  have h2s : (0 : Nat) ≠ p2 := fun e => h2 e.symm
  have h21 : p2 ≠ p1 := fun e => h12 e.symm
  simp [exec, co_start, co_start_scan, co_wait, co_wait_suspend, co_wait_finish,
    co_wrapper_return, co_wrapper_finish, co_yield, setjmp, co_yield_switch, co_next,
    co_next_scan, co_wrapper_enter, longjmp, store, state3, main_block, task_block, main_co,
    main_co_addr, CO_MAX, Function.update_apply, h1, h2, h12, h1s, h2s, h21]
  constructor <;> funext x <;> simp [Function.update_apply] <;> split_ifs <;> simp_all

set_option maxRecDepth 100000 in
theorem sc3_wait2 (n1 n2 : String) (f1 a1 f2 a2 p1 p2 : Nat)
    (h1 : p1 ≠ 0) (h2 : p2 ≠ 0) (h12 : p1 ≠ p2) :
    exec (Op.wait p2)
        (state3 (some (main_block co_status.CO_WAITING none (Context.wait p1)))
          (some (task_block n1 f1 a1 1 co_status.CO_RUNNING (some 0) Context.unset))
          (some (task_block n2 f2 a2 2 co_status.CO_NEW none Context.unset)) p1 p2 p1 2 1)
      = Except.ok (state3 (some (main_block co_status.CO_WAITING none (Context.wait p1)))
          (some (task_block n1 f1 a1 1 co_status.CO_WAITING (some 0) (Context.wait p2)))
          (some (task_block n2 f2 a2 2 co_status.CO_RUNNING (some p1) Context.unset))
            p1 p2 p2 2 2) := by
  have h1s : (0 : Nat) ≠ p1 := fun e => h1 e.symm
  have h2s : (0 : Nat) ≠ p2 := fun e => h2 e.symm
  have h21 : p2 ≠ p1 := fun e => h12 e.symm
  simp [exec, co_start, co_start_scan, co_wait, co_wait_suspend, co_wait_finish,
    co_wrapper_return, co_wrapper_finish, co_yield, setjmp, co_yield_switch, co_next,
    co_next_scan, co_wrapper_enter, longjmp, store, state3, main_block, task_block, main_co,
    main_co_addr, CO_MAX, Function.update_apply, h1, h2, h12, h1s, h2s, h21]
  funext x
  simp [Function.update_apply]
  split_ifs <;> simp_all

set_option maxRecDepth 100000 in
theorem sc3_ret2 (n1 n2 : String) (f1 a1 f2 a2 p1 p2 : Nat)
    (h1 : p1 ≠ 0) (h2 : p2 ≠ 0) (h12 : p1 ≠ p2) :
    exec (Op.ret)
        (state3 (some (main_block co_status.CO_WAITING none (Context.wait p1)))
          (some (task_block n1 f1 a1 1 co_status.CO_WAITING (some 0) (Context.wait p2)))
          (some (task_block n2 f2 a2 2 co_status.CO_RUNNING (some p1) Context.unset)) p1 p2 p2 2 2)
      = Except.ok (state3 (some (main_block co_status.CO_WAITING none (Context.wait p1)))
          (some (task_block n1 f1 a1 1 co_status.CO_RUNNING (some 0) (Context.wait p2)))
          none p1 p2 p1 2 1) := by
  have h1s : (0 : Nat) ≠ p1 := fun e => h1 e.symm
  have h2s : (0 : Nat) ≠ p2 := fun e => h2 e.symm
  have h21 : p2 ≠ p1 := fun e => h12 e.symm
  simp [exec, co_start, co_start_scan, co_wait, co_wait_suspend, co_wait_finish,
    co_wrapper_return, co_wrapper_finish, co_yield, setjmp, co_yield_switch, co_next,
    co_next_scan, co_wrapper_enter, longjmp, store, state3, main_block, task_block, main_co,
    main_co_addr, CO_MAX, Function.update_apply, h1, h2, h12, h1s, h2s, h21]
  constructor <;> funext x <;> simp [Function.update_apply] <;> split_ifs <;> simp_all

set_option maxRecDepth 100000 in
theorem sc3_ret1 (n1 : String) (f1 a1 p1 p2 : Nat)
    (h1 : p1 ≠ 0) (h2 : p2 ≠ 0) (h12 : p1 ≠ p2) :
    exec (Op.ret)
        (state3 (some (main_block co_status.CO_WAITING none (Context.wait p1)))
          (some (task_block n1 f1 a1 1 co_status.CO_RUNNING (some 0) (Context.wait p2)))
          none p1 p2 p1 2 1)
      = Except.ok (state3 (some (main_block co_status.CO_RUNNING none (Context.wait p1)))
          none
          none p1 p2 0 2 0) := by
  have h1s : (0 : Nat) ≠ p1 := fun e => h1 e.symm
  have h2s : (0 : Nat) ≠ p2 := fun e => h2 e.symm
  have h21 : p2 ≠ p1 := fun e => h12 e.symm
  simp [exec, co_start, co_start_scan, co_wait, co_wait_suspend, co_wait_finish,
    co_wrapper_return, co_wrapper_finish, co_yield, setjmp, co_yield_switch, co_next,
    co_next_scan, co_wrapper_enter, longjmp, store, state3, main_block, task_block, main_co,
    main_co_addr, CO_MAX, Function.update_apply, h1, h2, h12, h1s, h2s, h21]
  constructor <;> funext x <;> simp [Function.update_apply] <;> split_ifs <;> simp_all

set_option maxRecDepth 100000 in
theorem sc1_finish (n1 : String) (f1 a1 p1 p2 : Nat)
    (h1 : p1 ≠ 0) (h2 : p2 ≠ 0) (h12 : p1 ≠ p2) :
    co_wrapper_finish p1
        (state3 (some (main_block co_status.CO_WAITING none (Context.wait p1)))
          (some (task_block n1 f1 a1 1 co_status.CO_RUNNING (some 0) Context.unset))
          none p1 p2 p1 1 1)
      = Except.ok (state3 (some (main_block co_status.CO_RUNNING none (Context.wait p1)))
          (some (task_block n1 f1 a1 1 co_status.CO_DEAD (some 0) Context.unset))
          none p1 p2 p1 1 1) := by
  have h1s : (0 : Nat) ≠ p1 := fun e => h1 e.symm
  have h2s : (0 : Nat) ≠ p2 := fun e => h2 e.symm
  have h21 : p2 ≠ p1 := fun e => h12 e.symm
  simp [exec, co_start, co_start_scan, co_wait, co_wait_suspend, co_wait_finish,
    co_wrapper_return, co_wrapper_finish, co_yield, setjmp, co_yield_switch, co_next,
    co_next_scan, co_wrapper_enter, longjmp, store, state3, main_block, task_block, main_co,
    main_co_addr, CO_MAX, Function.update_apply, h1, h2, h12, h1s, h2s, h21]
  funext x
  simp [Function.update_apply]
  split_ifs <;> simp_all

set_option maxRecDepth 100000 in
theorem sc3_finish2 (n1 n2 : String) (f1 a1 f2 a2 p1 p2 : Nat)
    (h1 : p1 ≠ 0) (h2 : p2 ≠ 0) (h12 : p1 ≠ p2) :
    co_wrapper_finish p2
        (state3 (some (main_block co_status.CO_WAITING none (Context.wait p1)))
          (some (task_block n1 f1 a1 1 co_status.CO_WAITING (some 0) (Context.wait p2)))
          (some (task_block n2 f2 a2 2 co_status.CO_RUNNING (some p1) Context.unset)) p1 p2 p2 2 2)
      = Except.ok (state3 (some (main_block co_status.CO_WAITING none (Context.wait p1)))
          (some (task_block n1 f1 a1 1 co_status.CO_RUNNING (some 0) (Context.wait p2)))
          (some (task_block n2 f2 a2 2 co_status.CO_DEAD (some p1) Context.unset))
            p1 p2 p2 2 2) := by
  have h1s : (0 : Nat) ≠ p1 := fun e => h1 e.symm
  have h2s : (0 : Nat) ≠ p2 := fun e => h2 e.symm
  have h21 : p2 ≠ p1 := fun e => h12 e.symm
  simp [exec, co_start, co_start_scan, co_wait, co_wait_suspend, co_wait_finish,
    co_wrapper_return, co_wrapper_finish, co_yield, setjmp, co_yield_switch, co_next,
    co_next_scan, co_wrapper_enter, longjmp, store, state3, main_block, task_block, main_co,
    main_co_addr, CO_MAX, Function.update_apply, h1, h2, h12, h1s, h2s, h21]
  funext x
  simp [Function.update_apply]
  split_ifs <;> simp_all

set_option maxRecDepth 100000 in
theorem sc3_finish1 (n1 : String) (f1 a1 p1 p2 : Nat)
    (h1 : p1 ≠ 0) (h2 : p2 ≠ 0) (h12 : p1 ≠ p2) :
    co_wrapper_finish p1
        (state3 (some (main_block co_status.CO_WAITING none (Context.wait p1)))
          (some (task_block n1 f1 a1 1 co_status.CO_RUNNING (some 0) (Context.wait p2)))
          none p1 p2 p1 2 1)
      = Except.ok (state3 (some (main_block co_status.CO_RUNNING none (Context.wait p1)))
          (some (task_block n1 f1 a1 1 co_status.CO_DEAD (some 0) (Context.wait p2)))
          none p1 p2 p1 2 1) := by
  have h1s : (0 : Nat) ≠ p1 := fun e => h1 e.symm
  have h2s : (0 : Nat) ≠ p2 := fun e => h2 e.symm
  have h21 : p2 ≠ p1 := fun e => h12 e.symm
  simp [exec, co_start, co_start_scan, co_wait, co_wait_suspend, co_wait_finish,
    co_wrapper_return, co_wrapper_finish, co_yield, setjmp, co_yield_switch, co_next,
    co_next_scan, co_wrapper_enter, longjmp, store, state3, main_block, task_block, main_co,
    main_co_addr, CO_MAX, Function.update_apply, h1, h2, h12, h1s, h2s, h21]
  funext x
  simp [Function.update_apply]
  split_ifs <;> simp_all

set_option maxRecDepth 100000 in
theorem sc2_finish2 (n1 n2 : String) (f1 a1 f2 a2 p1 p2 : Nat)
    (h1 : p1 ≠ 0) (h2 : p2 ≠ 0) (h12 : p1 ≠ p2) :
    co_wrapper_finish p2
        (state3 (some (main_block co_status.CO_WAITING none (Context.wait p1)))
          (some (task_block n1 f1 a1 1 co_status.CO_RUNNING (some 0) Context.user))
          (some (task_block n2 f2 a2 2 co_status.CO_RUNNING none Context.unset)) p1 p2 p2 2 2)
      = Except.ok (state3 (some (main_block co_status.CO_WAITING none (Context.wait p1)))
          (some (task_block n1 f1 a1 1 co_status.CO_RUNNING (some 0) Context.user))
          (some (task_block n2 f2 a2 2 co_status.CO_DEAD none Context.unset)) p1 p2 p2 2 2) := by
  have h1s : (0 : Nat) ≠ p1 := fun e => h1 e.symm
  have h2s : (0 : Nat) ≠ p2 := fun e => h2 e.symm
  have h21 : p2 ≠ p1 := fun e => h12 e.symm
  simp [exec, co_start, co_start_scan, co_wait, co_wait_suspend, co_wait_finish,
    co_wrapper_return, co_wrapper_finish, co_yield, setjmp, co_yield_switch, co_next,
    co_next_scan, co_wrapper_enter, longjmp, store, state3, main_block, task_block, main_co,
    main_co_addr, CO_MAX, Function.update_apply, h1, h2, h12, h1s, h2s, h21]
  funext x
  simp [Function.update_apply]
  split_ifs <;> simp_all

set_option maxRecDepth 100000 in
theorem sc2_finish1 (n1 n2 : String) (f1 a1 f2 a2 p1 p2 : Nat)
    (h1 : p1 ≠ 0) (h2 : p2 ≠ 0) (h12 : p1 ≠ p2) :
    co_wrapper_finish p1
        (state3 (some (main_block co_status.CO_WAITING none (Context.wait p1)))
          (some (task_block n1 f1 a1 1 co_status.CO_RUNNING (some 0) Context.user))
          (some (task_block n2 f2 a2 2 co_status.CO_DEAD none Context.wrapper)) p1 p2 p1 2 1)
      = Except.ok (state3 (some (main_block co_status.CO_RUNNING none (Context.wait p1)))
          (some (task_block n1 f1 a1 1 co_status.CO_DEAD (some 0) Context.user))
          (some (task_block n2 f2 a2 2 co_status.CO_DEAD none Context.wrapper)) p1 p2 p1 2 1) := by
  have h1s : (0 : Nat) ≠ p1 := fun e => h1 e.symm
  have h2s : (0 : Nat) ≠ p2 := fun e => h2 e.symm
  have h21 : p2 ≠ p1 := fun e => h12 e.symm
  simp [exec, co_start, co_start_scan, co_wait, co_wait_suspend, co_wait_finish,
    co_wrapper_return, co_wrapper_finish, co_yield, setjmp, co_yield_switch, co_next,
    co_next_scan, co_wrapper_enter, longjmp, store, state3, main_block, task_block, main_co,
    main_co_addr, CO_MAX, Function.update_apply, h1, h2, h12, h1s, h2s, h21]
  funext x
  simp [Function.update_apply]
  split_ifs <;> simp_all

theorem land_align_mask (x : Nat) (hx : x < 2 ^ 64) : x &&& ALIGN_MASK = x - x % 16 := by
  apply Nat.eq_of_testBit_eq
  intro i
  have hm : ALIGN_MASK = 2 ^ 64 - (15 + 1) := by decide
  have hx16 : x - x % 16 = 2 ^ 4 * (x / 16) := by
    have := Nat.div_add_mod x 16
    omega
  rw [Nat.testBit_and, hm, Nat.testBit_two_pow_sub_succ (by decide), hx16,
    Nat.testBit_mul_pow_two]
  have h15 : Nat.testBit 15 i = decide (i < 4) := by
    have : (15 : Nat) = 2 ^ 4 - 1 := by decide
    rw [this, Nat.testBit_two_pow_sub_one]
  rw [h15]
  by_cases h4 : i < 4
  · simp [h4]
  · have h4b : 4 ≤ i := by omega
    simp [h4, h4b]
    have hd : Nat.testBit (x / 16) (i - 4) = Nat.testBit x i := by
      have : x / 16 = x >>> 4 := by simp [Nat.shiftRight_eq_div_pow]
      rw [this, Nat.testBit_shiftRight]
      congr 1
      omega
    rw [hd]
    cases hxi : Nat.testBit x i
    · rfl
    · have hlt : i < 64 := by
        by_contra hge
        have h2 : 2 ^ 64 ≤ 2 ^ i := Nat.pow_le_pow_right (by decide) (by omega)
        have h3 := Nat.testBit_lt_two_pow (Nat.lt_of_lt_of_le hx h2)
        rw [h3] at hxi
        exact absurd hxi (by decide)
      simp [hlt]

theorem co_next_alone (m : Sched) (hwf : Wf m)
    (halone : ∀ i p c, i < CO_MAX → m.co_list i = some p → p ≠ m.current →
      m.heap p = some c →
      c.status ≠ co_status.CO_NEW ∧ c.status ≠ co_status.CO_RUNNING) :
    co_next m = Except.ok (m.current, m) := by
  rcases co_next_spec m hwf.next_lt (registryValid_of_registered m hwf.registered) with
    ⟨k, p, hk1, hk2, _, hrun, hslot, _⟩ | ⟨_, h⟩
  · exfalso
    obtain ⟨p1, c, hp1, hc, hst⟩ := (slot_runnable_iff m _).1 hrun
    rw [hslot] at hp1
    injection hp1 with hp1
    subst hp1
    have hne : p ≠ m.current := by
      intro e
      obtain ⟨c2, hc2, hidx⟩ := hwf.registered _ p (cyc_lt _ _) hslot
      obtain ⟨cc, hcc, hcidx⟩ := hwf.cur
      rw [e, hcc] at hc2
      injection hc2 with hc2
      rw [← hc2, hcidx] at hidx
      exact cyc_ne _ k hk1 hk2 hidx.symm
    have := halone _ p c (cyc_lt _ _) hslot hne hc
    rcases hst with h | h
    · exact this.1 h
    · exact this.2 h
  · exact h

/-! ### The claims about `libco/co.c` -/

/-- C1. Completion before release: from every reachable state, an operation of the current
task (`co_start`, `co_yield`, `co_wait` on a handle that has not been released, or the return
of the entry function) never fails the assertion of line 100 and never touches an unallocated
block, the only assertions that can fail being those of lines 162 and 88; a suspended task
that can be resumed inside `co_wait B` finds `B` allocated and dead; a block that the
operation releases was dead before it, or is the task whose entry function returns in this
very operation; and lines 98-103 of `co_wait` only ever release a block whose status is
`CO_DEAD`. -/
theorem co_wait_completion_before_release (s : Sched) (op : Op) (h : Reachable s)
    (ha : Allowed s op) :
    (∀ f t, exec op s = Except.error (f, t) →
      f = Fault.assert_runnable ∨ f = Fault.assert_waiter_null) ∧
    (∀ A a B, s.heap A = some a → A ≠ s.current → a.status = co_status.CO_RUNNING →
      a.context = Context.wait B → ∃ b, s.heap B = some b ∧ b.status = co_status.CO_DEAD) ∧
    (∀ s1 B b, exec op s = Except.ok s1 → s.heap B = some b → s1.heap B = none →
      b.status = co_status.CO_DEAD ∨ (op = Op.ret ∧ B = s.current)) ∧
    (∀ B st st1, co_wait_finish B st = Except.ok st1 →
      ∃ b, st.heap B = some b ∧ b.status = co_status.CO_DEAD ∧
        st1 = released B b.list_idx st) := by
  have hinv := reachable_inv s h
  refine ⟨?_, ?_, ?_, ?_⟩
  · intro f t he
    rcases exec_inv s op hinv ha with ⟨s1, e1, _⟩ | ⟨u, e2⟩ | ⟨u, e3⟩
    · rw [he] at e1; exact absurd e1 (by simp)
    · rw [he] at e2
      simp only [Except.error.injEq, Prod.mk.injEq] at e2
      exact Or.inl e2.1
    · rw [he] at e3
      simp only [Except.error.injEq, Prod.mk.injEq] at e3
      exact Or.inr e3.1
  · intro A a B hA hne hrun hctx
    rcases hinv.susp A hne a hA hrun with hu | ⟨B1, b1, h1, h2, h3, _⟩
    · rw [hu] at hctx; exact absurd hctx (by simp)
    · rw [h1] at hctx
      injection hctx with hctx
      subst hctx
      exact ⟨b1, h2, h3⟩
  · intro s1 B b he hB hnone
    obtain ⟨ccur, hcur, _⟩ := hinv.wf.cur
    cases op with
    | start name func arg mem =>
      have := (exec_start_frame name func arg mem s s1 ha he).2 B b hB
      rw [this] at hnone
      exact absurd hnone (by simp)
    | yield =>
      left
      rw [exec_yield_eq s hinv] at he
      have := switch_released _ s1 (susp_saved s hinv) he B _
        (heap_map_of_some _ s B b hB) hnone
      exact this
    | wait t =>
      left
      obtain ⟨c, hc⟩ := Option.ne_none_iff_exists'.1 ha
      by_cases hw : c.waiter = none
      · by_cases hd : c.status = co_status.CO_DEAD
        · rw [exec_wait_dead_eq s t c hinv hc hw hd] at he
          injection he with he
          subst he
          by_cases hBt : B = t
          · subst hBt
            rw [hc] at hB
            injection hB with hB
            subst hB
            exact hd
          · simp only [released, Function.update_apply, hBt, if_false] at hnone
            rw [hB] at hnone
            exact absurd hnone (by simp)
        · rw [exec_wait_eq s t c hinv hc hw hd] at he
          have := switch_released _ s1 (susp_wait t s c hinv hc hd) he B _
            (heap_map_of_some _ s B b hB) hnone
          simp only [waitF] at this
          split_ifs at this
          exact this
      · simp [exec, co_wait, hc, hw] at he
    | ret =>
      rw [exec_ret_eq s ccur hinv hcur] at he
      have := switch_released _ s1 (susp_ret s ccur hinv hcur ha) he B _
        (heap_map_of_some _ s B b hB) hnone
      simp only [retF] at this
      split_ifs at this with h1 h2
      · exact Or.inr ⟨rfl, h1⟩
      · exact Or.inl this
  · intro B st st1 hfin
    unfold co_wait_finish at hfin
    split at hfin
    · exact absurd hfin (by simp)
    · rename_i c hc
      split_ifs at hfin with h1 h2
      · injection hfin with hfin
        exact ⟨c, hc, not_not.1 h1, hfin.symm⟩

theorem co_wait_completion_before_release_witness :
    Reachable sc_waiting ∧ Allowed sc_waiting Op.ret ∧
    (∀ f t, exec Op.ret sc_waiting = Except.error (f, t) →
      f = Fault.assert_runnable ∨ f = Fault.assert_waiter_null) ∧
    (∀ s1 B b, exec Op.ret sc_waiting = Except.ok s1 → sc_waiting.heap B = some b →
      s1.heap B = none →
      b.status = co_status.CO_DEAD ∨ (Op.ret = Op.ret ∧ B = sc_waiting.current)) :=
  ⟨reachable_sc_waiting, by decide,
    (co_wait_completion_before_release sc_waiting Op.ret reachable_sc_waiting (by decide)).1,
    (co_wait_completion_before_release sc_waiting Op.ret reachable_sc_waiting
      (by decide)).2.2.1⟩

/-- C2. No lost wakeup: let the current task `A` of a reachable state call `co_wait B` while
`B` is not dead, and let the execution go on in any way in which the entry function of `B`
does not return, up to a state in which `B` is current. Then the status updates `co_wrapper`
makes when the entry function of `B` returns there (lines 112-116) do not fail, and in the
state right after them `B` is `CO_DEAD` and `A` is `CO_RUNNING`. -/
theorem no_lost_wakeup (s0 s1 s : Sched) (A B : Nat) (b0 : co) (h0 : Reachable s0)
    (hA : s0.current = A) (hB : s0.heap B = some b0) (hnd : b0.status ≠ co_status.CO_DEAD)
    (hwait : exec (Op.wait B) s0 = Except.ok s1) (hsteps : StepsAvoiding B s1 s)
    (hcur : s.current = B) :
    ∃ m a b, co_wrapper_finish B s = Except.ok m ∧
      m.heap B = some b ∧ b.status = co_status.CO_DEAD ∧
      m.heap A = some a ∧ a.status = co_status.CO_RUNNING := by
  have hinv0 := reachable_inv s0 h0
  have hallowed : Allowed s0 (Op.wait B) := by
    show s0.heap B ≠ none
    rw [hB]; simp
  have hw : b0.waiter = none := by
    by_contra hne
    simp [exec, co_wait, hB, hne] at hwait
  obtain ⟨ccur, hc0, _⟩ := hinv0.wf.cur
  -- after the call, `A` is waiting and registered on `B`
  have hp1 : Pending A B s1 := by
    rw [exec_wait_eq s0 B b0 hinv0 hB hw hnd] at hwait
    subst hA
    exact pending_switch _ B _ s1 (susp_wait B s0 b0 hinv0 hB hnd)
      (pending_heap_map _ B _ s0 ccur b0 hc0 hB (by simp [waitF]) (by simp [waitF])) hwait
  obtain ⟨hreach, a, b, ha1, ha2, hb1, hb2⟩ :=
    pending_steps A B s1 s hsteps (Reachable.step h0 hallowed hwait) hp1
  have hinv := reachable_inv s hreach
  subst hcur
  obtain ⟨m, hm, ⟨b1, hb3, hb4⟩, hwake⟩ := wrapper_finish_status s b hinv hb1
  obtain ⟨a1, ha3, ha4⟩ := hwake A hb2
  exact ⟨m, a1, b1, hm, hb3, hb4, ha3, ha4⟩

theorem no_lost_wakeup_witness :
    ∃ m a b, co_wrapper_finish 1 sc_waiting = Except.ok m ∧
      m.heap 1 = some b ∧ b.status = co_status.CO_DEAD ∧
      m.heap 0 = some a ∧ a.status = co_status.CO_RUNNING :=
  no_lost_wakeup sc_started sc_waiting sc_waiting 0 1 _ reachable_sc_started rfl rfl
    (by decide) rfl (StepsAvoiding.refl _) rfl

/-- C3. A waiting task is never selected. First, whenever the switch of `co_yield` succeeds,
in any state, the task it makes current is the one `co_next` returned and its status at that
moment was `CO_NEW` or `CO_RUNNING`, so not `CO_WAITING`. Second, after every operation from a
reachable state the current task is `CO_RUNNING`. Third, if a task `A` that is waiting,
suspended inside `co_wait B`, is current after an operation from a reachable state, then that
operation was the return of the entry function of `B`, whose status `co_wrapper` set to
`CO_DEAD` before the switch. -/
theorem waiting_never_selected (s : Sched) (op : Op) (h : Reachable s) (ha : Allowed s op) :
    (∀ m s1, co_yield_switch m = Except.ok s1 →
      ∃ N m2 n, co_next m = Except.ok (N, m2) ∧ m2.heap N = some n ∧
        (n.status = co_status.CO_NEW ∨ n.status = co_status.CO_RUNNING) ∧
        n.status ≠ co_status.CO_WAITING ∧ s1.current = N) ∧
    (∀ s1, exec op s = Except.ok s1 →
      ∃ c, s1.heap s1.current = some c ∧ c.status = co_status.CO_RUNNING) ∧
    (∀ s1 A a B, exec op s = Except.ok s1 → s.heap A = some a →
      a.status = co_status.CO_WAITING → a.context = Context.wait B → s1.current = A →
      op = Op.ret ∧ s.current = B ∧
        ∃ m b, co_wrapper_finish B s = Except.ok m ∧ m.heap B = some b ∧
          b.status = co_status.CO_DEAD) := by
  have hinv := reachable_inv s h
  obtain ⟨ccur, hcur, _⟩ := hinv.wf.cur
  have hrunning := hinv.running ccur hcur
  refine ⟨?_, ?_, ?_⟩
  · intro m s1 hsw
    obtain ⟨N, m2, n, h1, h2, h3, h4⟩ := switch_selects_runnable m s1 hsw
    refine ⟨N, m2, n, h1, h2, h3, ?_, h4⟩
    rcases h3 with e | e <;> rw [e] <;> decide
  · intro s1 he
    have hinv1 := reachable_inv s1 (Reachable.step h ha he)
    obtain ⟨c, hc, _⟩ := hinv1.wf.cur
    exact ⟨c, hc, hinv1.running c hc⟩
  · intro s1 A a B he hA hwaiting hctx hcurA
    have hAcur : A ≠ s.current := by
      rintro rfl
      rw [hcur] at hA
      injection hA with hA
      subst hA
      rw [hrunning] at hwaiting
      exact absurd hwaiting (by decide)
    -- the selected task was not waiting when the switch began
    have hsel : ∀ (F : Nat → co → co) (m : Sched), m = heap_map F s → Susp m →
        co_yield_switch m = Except.ok s1 →
        (F A a).status = co_status.CO_NEW ∨ (F A a).status = co_status.CO_RUNNING := by
      intro F m hm hsusp hsw
      subst hm
      obtain ⟨N, m2, n, h1, h2, h3, h4⟩ := switch_selects_runnable _ s1 hsw
      obtain ⟨N1, n1, hN1, hnext⟩ := co_next_wf _ hsusp.wf
      rw [hnext] at h1
      injection h1 with h1
      injection h1 with e1 e2
      subst e1; subst e2
      have hNA : N1 = A := by rw [← h4, hcurA]
      subst hNA
      have h5 : (heap_map F s).heap N1 = some n := h2
      rw [heap_map_of_some F s N1 a hA] at h5
      injection h5 with h5
      rw [h5]
      exact h3
    cases op with
    | start name func arg mem =>
      exact absurd ((exec_start_frame name func arg mem s s1 ha he).1 ▸ hcurA).symm hAcur
    | yield =>
      rw [exec_yield_eq s hinv] at he
      have := hsel _ _ rfl (susp_saved s hinv) he
      simp only [savedF, hwaiting] at this
      rcases this with e | e <;> exact absurd e (by decide)
    | wait t =>
      obtain ⟨c, hc⟩ := Option.ne_none_iff_exists'.1 ha
      by_cases hw : c.waiter = none
      · by_cases hd : c.status = co_status.CO_DEAD
        · rw [exec_wait_dead_eq s t c hinv hc hw hd] at he
          injection he with he
          subst he
          exact absurd hcurA.symm hAcur
        · rw [exec_wait_eq s t c hinv hc hw hd] at he
          have := hsel _ _ rfl (susp_wait t s c hinv hc hd) he
          simp only [waitF, hwaiting, ite_self] at this
          rcases this with e | e <;> exact absurd e (by decide)
      · simp [exec, co_wait, hc, hw] at he
    | ret =>
      rw [exec_ret_eq s ccur hinv hcur] at he
      have := hsel _ _ rfl (susp_ret s ccur hinv hcur ha) he
      simp only [retF, hAcur, if_false, hwaiting] at this
      have hwA : ccur.waiter = some A := by
        by_contra hne
        simp only [hne, if_false] at this
        rcases this with e | e <;> exact absurd e (by decide)
      obtain ⟨a1, ha1, hctx1, _⟩ := hinv.wf.waiter _ ccur A hcur hwA
      rw [hA] at ha1
      injection ha1 with ha1
      subst ha1
      rw [hctx] at hctx1
      injection hctx1 with hB
      subst hB
      obtain ⟨m, hm, ⟨b, hb1, hb2⟩, _⟩ := wrapper_finish_status s ccur hinv hcur
      exact ⟨rfl, rfl, m, b, hm, hb1, hb2⟩

theorem waiting_never_selected_witness :
    Reachable sc_waiting ∧ Allowed sc_waiting Op.ret ∧
    (∀ s1, exec Op.ret sc_waiting = Except.ok s1 →
      ∃ c, s1.heap s1.current = some c ∧ c.status = co_status.CO_RUNNING) ∧
    (∀ s1 A a B, exec Op.ret sc_waiting = Except.ok s1 → sc_waiting.heap A = some a →
      a.status = co_status.CO_WAITING → a.context = Context.wait B → s1.current = A →
      Op.ret = Op.ret ∧ sc_waiting.current = B ∧
        ∃ m b, co_wrapper_finish B sc_waiting = Except.ok m ∧ m.heap B = some b ∧
          b.status = co_status.CO_DEAD) :=
  ⟨reachable_sc_waiting, by decide,
    (waiting_never_selected sc_waiting Op.ret reachable_sc_waiting (by decide)).2.1,
    (waiting_never_selected sc_waiting Op.ret reachable_sc_waiting (by decide)).2.2⟩

/-- C4. Selection policy of `co_next`: for every registry whose pointers are valid and every
cursor `c` below `CO_MAX`, `co_next` returns the task in the first slot, in the cyclic order
`c+1, c+2, ...` and excluding slot `c`, that is not empty and whose task is `CO_NEW` or
`CO_RUNNING`, and moves the cursor to that slot; when there is no such slot it returns the
current task and leaves the state, the cursor included, unchanged. -/
theorem co_next_policy (s : Sched) (hidx : s.next_idx < CO_MAX) (hreg : RegistryValid s) :
    (∃ k p, 1 ≤ k ∧ k < CO_MAX ∧
      (∀ j, 1 ≤ j → j < k → slot_runnable s ((s.next_idx + j) % CO_MAX) = false) ∧
      slot_runnable s ((s.next_idx + k) % CO_MAX) = true ∧
      s.co_list ((s.next_idx + k) % CO_MAX) = some p ∧
      co_next s = Except.ok (p, { s with next_idx := (s.next_idx + k) % CO_MAX })) ∨
    ((∀ i, i < CO_MAX → i ≠ s.next_idx → slot_runnable s i = false) ∧
      co_next s = Except.ok (s.current, s)) := by
  rcases co_next_spec s hidx hreg with h | ⟨h1, h2⟩
  · exact Or.inl h
  · right
    refine ⟨fun i hi hne => ?_, h2⟩
    obtain ⟨k, k1, k2, k3, k4⟩ := cyc_offset s.next_idx i hidx hi
    have hk : k < CO_MAX := lt_of_le_of_ne k2 (fun e => hne (k4.1 e))
    rw [← k3]
    exact h1 k k1 hk

theorem co_next_policy_witness :
    two_tasks.next_idx < CO_MAX ∧
    ((∃ k p, 1 ≤ k ∧ k < CO_MAX ∧
      (∀ j, 1 ≤ j → j < k → slot_runnable two_tasks ((two_tasks.next_idx + j) % CO_MAX) = false) ∧
      slot_runnable two_tasks ((two_tasks.next_idx + k) % CO_MAX) = true ∧
      two_tasks.co_list ((two_tasks.next_idx + k) % CO_MAX) = some p ∧
      co_next two_tasks
        = Except.ok (p, { two_tasks with next_idx := (two_tasks.next_idx + k) % CO_MAX })) ∨
    ((∀ i, i < CO_MAX → i ≠ two_tasks.next_idx → slot_runnable two_tasks i = false) ∧
      co_next two_tasks = Except.ok (two_tasks.current, two_tasks))) :=
  ⟨by decide, co_next_policy two_tasks (by decide) two_tasks_valid⟩

/-- C5. Round-robin fairness: in a registry with valid pointers in which no task occupies two
slots, when the current task sits at the cursor slot and is `CO_NEW` or `CO_RUNNING`, and `N`
is the number of slots whose task is `CO_NEW` or `CO_RUNNING`, then `N ≥ 1` and `N`
consecutive selections by `co_next` return the tasks of those slots in cyclic slot order
starting after the cursor: `N` tasks, no task twice, every such task among them; the cursor is
then back where it started. The same list is selected when the tasks change between the
selections in any way that keeps the registry and the set of slots whose task is `CO_NEW` or
`CO_RUNNING`. -/
theorem co_next_round_robin (s : Sched) (hidx : s.next_idx < CO_MAX) (hreg : RegistryValid s)
    (hinj : ∀ i j p, i < CO_MAX → j < CO_MAX → s.co_list i = some p → s.co_list j = some p →
      i = j)
    (hcur : s.co_list s.next_idx = some s.current)
    (hrun : slot_runnable s s.next_idx = true) :
    ∃ s1, co_next_iter ((List.range CO_MAX).filter (slot_runnable s)).length s
        = Except.ok
            (((cyclic_after s.next_idx).filter (slot_runnable s)).filterMap s.co_list, s1) ∧
      1 ≤ ((List.range CO_MAX).filter (slot_runnable s)).length ∧
      (((cyclic_after s.next_idx).filter (slot_runnable s)).filterMap s.co_list).length
        = ((List.range CO_MAX).filter (slot_runnable s)).length ∧
      (((cyclic_after s.next_idx).filter (slot_runnable s)).filterMap s.co_list).Nodup ∧
      (∀ p, p ∈ ((cyclic_after s.next_idx).filter (slot_runnable s)).filterMap s.co_list ↔
        ∃ i, i < CO_MAX ∧ slot_runnable s i = true ∧ s.co_list i = some p) ∧
      s1.next_idx = s.next_idx ∧
      (∀ ps, Selections s ps →
        ps.length = ((List.range CO_MAX).filter (slot_runnable s)).length →
        ps = ((cyclic_after s.next_idx).filter (slot_runnable s)).filterMap s.co_list) := by
  have hslots : slots_from s s.next_idx 0 = (cyclic_after s.next_idx).filter (slot_runnable s) := by
    simp [slots_from, cyclic_after]
  have hlen : ((cyclic_after s.next_idx).filter (slot_runnable s)).length
      = ((List.range CO_MAX).filter (slot_runnable s)).length :=
    ((cyclic_after_perm s.next_idx hidx).filter _).length_eq
  have hstate : ({ s with next_idx := (s.next_idx + 0) % CO_MAX, current := s.current } : Sched)
      = s := by
    cases s
    simp only [Nat.add_zero, Sched.mk.injEq, true_and]
    exact Nat.mod_eq_of_lt hidx
  obtain ⟨s1, e1, e2, _, _⟩ :=
    co_next_iter_from s s.next_idx hidx hreg hrun CO_MAX 0 s.current (by simp) (fun _ => hcur)
  rw [hstate, hslots, hlen] at e1
  have hsome : ∀ x, x ∈ (cyclic_after s.next_idx).filter (slot_runnable s) →
      s.co_list x ≠ none := by
    intro x hx
    obtain ⟨p, c, hp, _, _⟩ := (slot_runnable_iff s x).1 (List.mem_filter.1 hx).2
    rw [hp]; simp
  refine ⟨s1, e1, ?_, ?_, ?_, ?_, e2, ?_⟩
  · refine List.length_pos_of_mem (?_ : s.next_idx ∈ _)
    exact List.mem_filter.2 ⟨List.mem_range.2 hidx, hrun⟩
  · rw [length_filterMap_of_some _ _ hsome, hlen]
  · apply nodup_filterMap_on _ _ ((nodup_cyclic_after _).filter _)
    intro x hx y hy b hxb hyb
    exact hinj x y b ((mem_cyclic_after _ _ hidx).1 (List.mem_filter.1 hx).1)
      ((mem_cyclic_after _ _ hidx).1 (List.mem_filter.1 hy).1) hxb hyb
  · intro p
    simp only [List.mem_filterMap, List.mem_filter, mem_cyclic_after _ _ hidx]
    constructor
    · rintro ⟨i, ⟨h1, h2⟩, h3⟩; exact ⟨i, h1, h2, h3⟩
    · rintro ⟨i, h1, h2, h3⟩; exact ⟨i, ⟨h1, h2⟩, h3⟩
  · intro ps hsel hps
    have := selections_from s s.next_idx hidx hrun CO_MAX 0 s ps (by simp) rfl hreg
      (fun _ => rfl) (by simp [Nat.mod_eq_of_lt hidx]) (fun _ => hcur) hsel
      (by rw [hslots, hlen]; exact hps)
    rw [this, hslots]

theorem co_next_round_robin_witness :
    ∃ s1, co_next_iter ((List.range CO_MAX).filter (slot_runnable two_tasks)).length two_tasks
        = Except.ok
            (((cyclic_after two_tasks.next_idx).filter (slot_runnable two_tasks)).filterMap
              two_tasks.co_list, s1) :=
  let ⟨s1, h, _⟩ := co_next_round_robin two_tasks (by decide) two_tasks_valid
    (by
      intro i j p _ _ hi hj
      rw [two_tasks_co_list] at hi hj
      split_ifs at hi hj <;> simp_all)
    rfl rfl
  ⟨s1, h⟩

/-- C6. Registry exhaustion: a call of `co_start` whose allocation would succeed returns no
handle exactly when all `CO_MAX` registry slots are occupied; with all slots occupied the call
returns no handle and the whole scheduler state is as before the call, whatever `malloc` would
return; and from the initial state 127 starts in a row succeed and the 128th returns no
handle. -/
theorem co_start_exhaustion (s : Sched) (hidx : s.start_idx < CO_MAX) (name : String)
    (func arg p : Nat) :
    ((∃ s1, co_start name func arg (some p) s = Except.ok (none, s1)) ↔
        ∀ i, i < CO_MAX → s.co_list i ≠ none) ∧
    ((∀ i, i < CO_MAX → s.co_list i ≠ none) →
        ∀ mem, co_start name func arg mem s = Except.ok (none, s)) ∧
    (∀ (reqs : List (String × Nat × Nat × Nat)) (last : String × Nat × Nat × Option Nat),
        reqs.length = 127 →
        ∃ s1, co_start_all
            (reqs.map (fun r => (r.1, r.2.1, r.2.2.1, some r.2.2.2)) ++ [last]) init
          = Except.ok (reqs.map (fun r => some r.2.2.2) ++ [none], s1)) := by
  refine ⟨⟨?_, ?_⟩, ?_, ?_⟩
  · rintro ⟨s1, h1⟩
    by_contra hfree
    push_neg at hfree
    obtain ⟨k, _, _, _, _, h6⟩ := co_start_free name func arg (some p) s hidx hfree
    rw [h6] at h1
    simp at h1
  · intro hfull
    exact ⟨s, co_start_full name func arg (some p) s hidx hfull⟩
  · intro hfull mem
    exact co_start_full name func arg mem s hidx hfull
  · intro reqs last hlen
    exact co_start_all_fill last reqs 0 init filledTo_init (by rw [hlen]; rfl)

theorem co_start_exhaustion_witness :
    full_registry.start_idx < CO_MAX ∧
      co_start "t" 1 0 (some 1) full_registry = Except.ok (none, full_registry) :=
  ⟨by decide,
    (co_start_exhaustion full_registry (by decide) "t" 1 0 1).2.1
      (fun _ _ => by simp [full_registry]) (some 1)⟩

/-- C7 as stated fails: main starts `T`, which gets slot `1`, the slot most recently assigned;
a second `co_start` finds the empty slot `2` and fails to allocate, which assigns no slot and
changes no block but leaves the cursor at `2`; the third `co_start` succeeds and registers its
task in slot `3`, although the first empty slot after slot `1` is slot `2`, which stays
empty. -/
theorem co_start_skips_empty_slot :
    ∃ s1 s2 s3,
      exec (Op.start "T" 1 0 (some 1)) init = Except.ok s1 ∧
      s1.co_list 1 = some 1 ∧ s1.start_idx = 1 ∧
      exec (Op.start "a" 1 0 none) s1 = Except.ok s2 ∧
      s2.co_list = s1.co_list ∧ s2.heap = s1.heap ∧ s2.start_idx = 2 ∧
      Reachable s2 ∧ s2.co_list 2 = none ∧
      co_start "U" 2 0 (some 2) s2 = Except.ok (some 2, s3) ∧
      s3.co_list 3 = some 2 ∧ s3.co_list 2 = none ∧ s3.start_idx = 3 :=
  ⟨_, _, _, rfl, rfl, rfl, rfl, rfl, rfl, rfl,
    Reachable.step (Reachable.step Reachable.init (show Allowed init
      (Op.start "T" 1 0 (some 1)) from rfl) rfl)
      (show Allowed _ (Op.start "a" 1 0 none) from trivial) rfl,
    rfl, rfl, rfl, rfl, rfl⟩

/-- C7, as the code has it. Slot choice: when a slot is empty and the allocation succeeds,
`co_start` registers the new block in the first empty slot in cyclic order after the cursor
`idx` of `co_start`, the cursor slot itself being tried last (offset `CO_MAX`), and that slot
is the new cursor.  The cursor is the slot at which the scan of the previous call stopped:
the slot assigned last when that call allocated its block, and an empty slot when its
allocation failed, for in that case too the slot that the scan found is the new cursor, and
nothing else changes. -/
theorem co_start_slot_choice (s : Sched) (hidx : s.start_idx < CO_MAX)
    (hfree : ∃ i, i < CO_MAX ∧ s.co_list i = none) (name : String) (func arg p : Nat) :
    ∃ k s1, 1 ≤ k ∧ k ≤ CO_MAX ∧
      (∀ j, 1 ≤ j → j < k → s.co_list ((s.start_idx + j) % CO_MAX) ≠ none) ∧
      s.co_list ((s.start_idx + k) % CO_MAX) = none ∧
      co_start name func arg (some p) s = Except.ok (some p, s1) ∧
      s1.co_list ((s.start_idx + k) % CO_MAX) = some p ∧
      s1.start_idx = (s.start_idx + k) % CO_MAX ∧
      co_start name func arg none s
        = Except.ok (none, { s with start_idx := (s.start_idx + k) % CO_MAX }) := by
  obtain ⟨k, h1, h2, h3, h4, h5⟩ := co_start_search_free s hidx hfree
  have hno : ¬ ((s.start_idx + k) % CO_MAX = s.start_idx ∧ s.co_list s.start_idx ≠ none) := by
    rintro ⟨e, hne⟩
    rw [e] at h5
    exact hne h5
  refine ⟨k, started name func arg p ((s.start_idx + k) % CO_MAX) s, h1, h2, h4, h5, ?_,
    by simp [started], rfl, ?_⟩
  · unfold co_start
    rw [h3]
    simp [hno, started]
  · unfold co_start
    rw [h3]
    simp [hno]

theorem co_start_slot_choice_witness :
    init.start_idx < CO_MAX ∧ (∃ i, i < CO_MAX ∧ init.co_list i = none) ∧
    ∃ k s1, 1 ≤ k ∧ k ≤ CO_MAX ∧
      (∀ j, 1 ≤ j → j < k → init.co_list ((init.start_idx + j) % CO_MAX) ≠ none) ∧
      init.co_list ((init.start_idx + k) % CO_MAX) = none ∧
      co_start "t" 1 0 (some 1) init = Except.ok (some 1, s1) ∧
      s1.co_list ((init.start_idx + k) % CO_MAX) = some 1 ∧
      s1.start_idx = (init.start_idx + k) % CO_MAX ∧
      co_start "t" 1 0 none init
        = Except.ok (none, { init with start_idx := (init.start_idx + k) % CO_MAX }) :=
  ⟨by decide, ⟨1, by decide, rfl⟩,
    co_start_slot_choice init (by decide) ⟨1, by decide, rfl⟩ "t" 1 0 1⟩

/-- C8. Effect of a successful `co_start`: the returned block is registered in a slot that was
empty, with status `CO_NEW`, no waiter, the given name, entry and argument, and `list_idx`
equal to that slot; every other registry slot, the current task, the cursor of `co_next` and
every block that existed before the call are unchanged, and the current task is not the new
one. -/
theorem co_start_effect (name : String) (func arg : Nat) (mem : Option Nat) (s s1 : Sched)
    (p : Nat) (hfresh : s.heap p = none)
    (h : co_start name func arg mem s = Except.ok (some p, s1)) :
    ∃ i, i < CO_MAX ∧ s.co_list i = none ∧ s1.co_list i = some p ∧
      s1.heap p = some { name := name, func := func, arg := arg, status := co_status.CO_NEW,
                         waiter := none, context := Context.unset, list_idx := i } ∧
      (∀ j, j ≠ i → s1.co_list j = s.co_list j) ∧
      s1.current = s.current ∧ s1.next_idx = s.next_idx ∧
      (∀ q c, s.heap q = some c → s1.heap q = some c) ∧
      (s.heap s.current ≠ none → s1.current ≠ p) := by
  obtain ⟨i, hi, hnone, _, hs⟩ := co_start_ok name func arg mem s s1 p h
  subst hs
  refine ⟨i, hi, hnone, by simp [started], by simp [started], ?_, rfl, rfl, ?_, ?_⟩
  · intro j hj
    simp [started, Function.update_noteq hj]
  · intro q c hq
    have hne : q ≠ p := by
      rintro rfl
      rw [hfresh] at hq
      exact absurd hq (by simp)
    simp [started, Function.update_noteq hne, hq]
  · intro hcur hp
    apply hcur
    have : s.current = p := hp
    rw [this]
    exact hfresh

theorem co_start_effect_witness :
    init.heap 1 = none ∧
    co_start "t" 1 0 (some 1) init = Except.ok (some 1, started "t" 1 0 1 1 init) ∧
    ∃ i, i < CO_MAX ∧ init.co_list i = none ∧ (started "t" 1 0 1 1 init).co_list i = some 1 ∧
      (started "t" 1 0 1 1 init).heap 1
        = some { name := "t", func := 1, arg := 0, status := co_status.CO_NEW,
                 waiter := none, context := Context.unset, list_idx := i } ∧
      (∀ j, j ≠ i → (started "t" 1 0 1 1 init).co_list j = init.co_list j) ∧
      (started "t" 1 0 1 1 init).current = init.current ∧
      (started "t" 1 0 1 1 init).next_idx = init.next_idx ∧
      (∀ q c, init.heap q = some c → (started "t" 1 0 1 1 init).heap q = some c) ∧
      (init.heap init.current ≠ none → (started "t" 1 0 1 1 init).current ≠ 1) :=
  ⟨rfl, rfl, co_start_effect "t" 1 0 (some 1) init (started "t" 1 0 1 1 init) 1 rfl rfl⟩

/-- C9 as stated fails: from the initial state a `co_start` whose allocation fails moves the
slot-assignment cursor from `0` to `1`, and the following successful `co_start` receives slot
`2`, while without the failed call it receives slot `1`. -/
theorem co_start_alloc_failure_not_atomic :
    ∃ s1 s2 s3,
      co_start "a" 1 0 none init = Except.ok (none, s1) ∧
      init.start_idx = 0 ∧ s1.start_idx = 1 ∧
      co_start "b" 1 0 (some 1) s1 = Except.ok (some 1, s2) ∧
      s2.co_list 2 = some 1 ∧ s2.co_list 1 = none ∧
      co_start "b" 1 0 (some 1) init = Except.ok (some 1, s3) ∧
      s3.co_list 1 = some 1 :=
  ⟨_, _, _, rfl, rfl, rfl, rfl, rfl, rfl, rfl, rfl⟩

/-- C9, as the code has it. Allocation failure: when a slot is empty but `malloc` fails,
`co_start` returns no handle and leaves the memory, the registry, the current task and the
cursor of `co_next` unchanged; the slot-assignment cursor moves to the empty slot that was
found (the first one after the old cursor in cyclic order), so that a following successful
`co_start` receives the first empty slot in cyclic order after that slot, the slot itself
being tried last. -/
theorem co_start_alloc_failure (s : Sched) (hidx : s.start_idx < CO_MAX)
    (hfree : ∃ i, i < CO_MAX ∧ s.co_list i = none) (name : String) (func arg : Nat) :
    ∃ k, 1 ≤ k ∧ k ≤ CO_MAX ∧
      (∀ j, 1 ≤ j → j < k → s.co_list ((s.start_idx + j) % CO_MAX) ≠ none) ∧
      s.co_list ((s.start_idx + k) % CO_MAX) = none ∧
      co_start name func arg none s
        = Except.ok (none, { s with start_idx := (s.start_idx + k) % CO_MAX }) ∧
      ∀ (name2 : String) (func2 arg2 p : Nat), ∃ k2, 1 ≤ k2 ∧ k2 ≤ CO_MAX ∧
        (∀ j, 1 ≤ j → j < k2 →
          s.co_list (((s.start_idx + k) % CO_MAX + j) % CO_MAX) ≠ none) ∧
        s.co_list (((s.start_idx + k) % CO_MAX + k2) % CO_MAX) = none ∧
        co_start name2 func2 arg2 (some p) { s with start_idx := (s.start_idx + k) % CO_MAX }
          = Except.ok (some p, started name2 func2 arg2 p
              (((s.start_idx + k) % CO_MAX + k2) % CO_MAX)
              { s with start_idx := (s.start_idx + k) % CO_MAX }) := by
  obtain ⟨k, h1, h2, h3, h4, h5⟩ := co_start_free name func arg none s hidx hfree
  refine ⟨k, h1, h2, h3, h4, h5, ?_⟩
  intro name2 func2 arg2 p
  obtain ⟨k2, g1, g2, g3, g4, g5⟩ :=
    co_start_free name2 func2 arg2 (some p) { s with start_idx := (s.start_idx + k) % CO_MAX }
      (cyc_lt _ _) hfree
  exact ⟨k2, g1, g2, g3, g4, g5⟩

theorem co_start_alloc_failure_witness :
    init.start_idx < CO_MAX ∧ (∃ i, i < CO_MAX ∧ init.co_list i = none) ∧
    ∃ k, 1 ≤ k ∧ k ≤ CO_MAX ∧
      (∀ j, 1 ≤ j → j < k → init.co_list ((init.start_idx + j) % CO_MAX) ≠ none) ∧
      init.co_list ((init.start_idx + k) % CO_MAX) = none ∧
      co_start "t" 1 0 none init
        = Except.ok (none, { init with start_idx := (init.start_idx + k) % CO_MAX }) :=
  ⟨by decide, ⟨1, by decide, rfl⟩,
    let ⟨k, h1, h2, h3, h4, h5, _⟩ :=
      co_start_alloc_failure init (by decide) ⟨1, by decide, rfl⟩ "t" 1 0
    ⟨k, h1, h2, h3, h4, h5⟩⟩

/-- C10. Single-waiter precondition: `co_wait` on a target that already has a registered
waiter fails the assertion of line 88, and the state in which it fails is the state before
the call. -/
theorem co_wait_single_waiter (s : Sched) (t w : Nat) (c : co) (hc : s.heap t = some c)
    (hw : c.waiter = some w) :
    co_wait t s = Except.error (Fault.assert_waiter_null, s) ∧
      exec (Op.wait t) s = Except.error (Fault.assert_waiter_null, s) := by
  constructor <;> simp [exec, co_wait, hc, hw]

theorem co_wait_single_waiter_witness :
    (∃ c, sc_waiting.heap 1 = some c ∧ c.waiter = some 0) ∧
    co_wait 1 sc_waiting = Except.error (Fault.assert_waiter_null, sc_waiting) :=
  ⟨⟨_, rfl, rfl⟩, (co_wait_single_waiter sc_waiting 1 0 _ rfl rfl).1⟩

/-- C11. Waiting on a finished task does not suspend: for every target that is `CO_DEAD` and
has no registered waiter, in a reachable state (or in any state in which the target is not the
static `main_co`, which is never dead in a reachable state), `co_wait` succeeds without a
yield: the current task, both cursors and every block other than the target are as before,
the slot `co_list[target.list_idx]` is empty, every other slot is unchanged, and the block of
the target, never written, is released. -/
theorem co_wait_dead_no_suspend (s : Sched) (t : Nat) (c : co) (hc : s.heap t = some c)
    (hw : c.waiter = none) (hd : c.status = co_status.CO_DEAD)
    (hs : Reachable s ∨ t ≠ main_co_addr) :
    co_wait t s = Except.ok (released t c.list_idx s) ∧
    exec (Op.wait t) s = Except.ok (released t c.list_idx s) ∧
    (released t c.list_idx s).current = s.current ∧
    (released t c.list_idx s).next_idx = s.next_idx ∧
    (released t c.list_idx s).start_idx = s.start_idx ∧
    (released t c.list_idx s).co_list c.list_idx = none ∧
    (∀ i, i ≠ c.list_idx → (released t c.list_idx s).co_list i = s.co_list i) ∧
    (released t c.list_idx s).heap t = none ∧
    (∀ q, q ≠ t → (released t c.list_idx s).heap q = s.heap q) := by
  have hmain : t ≠ main_co_addr := by
    rcases hs with hr | hm
    · intro e
      obtain ⟨m, hm, _, _, _, hnd⟩ := (reachable_inv s hr).wf.main
      rw [← e, hc] at hm
      injection hm with hm
      exact hnd (hm ▸ hd)
    · exact hm
  have h1 : co_wait t s = Except.ok (released t c.list_idx s) := by
    simp [co_wait, co_wait_finish, hc, hw, hd, hmain]
    rfl
  refine ⟨h1, h1, rfl, rfl, rfl, by simp [released], ?_, by simp [released], ?_⟩
  · intro i hi
    simp [released, Function.update_apply, hi]
  · intro q hq
    simp [released, Function.update_apply, hq]

theorem co_wait_dead_no_suspend_witness :
    co_wait 1 sc_dead = Except.ok (released 1 1 sc_dead) ∧
    (released 1 1 sc_dead).current = sc_dead.current :=
  ⟨(co_wait_dead_no_suspend sc_dead 1 _ rfl rfl rfl (Or.inl reachable_sc_dead)).1,
    (co_wait_dead_no_suspend sc_dead 1 _ rfl rfl rfl (Or.inl reachable_sc_dead)).2.2.1⟩

/-- C12 as stated fails: main waits for the dead task `T` (block `1`), which releases the
block; `co_start` then receives block `1` again for a new task `U`; the second `co_wait` on
the handle `1` is not rejected: it suspends main and dispatches `U`, and when `U` returns, main
empties slot `2` and releases block `1` a second time. -/
theorem second_co_wait_not_rejected :
    Reachable sc_dead ∧
    (∃ c, sc_dead.heap 1 = some c ∧ c.status = co_status.CO_DEAD ∧ c.waiter = none) ∧
    exec (Op.wait 1) sc_dead = Except.ok sc_released ∧ sc_released.heap 1 = none ∧
    exec (Op.start "U" 2 0 (some 1)) sc_released = Except.ok sc_reused ∧
    sc_reused.co_list 2 = some 1 ∧
    exec (Op.wait 1) sc_reused = Except.ok sc_waiting_again ∧ sc_waiting_again.current = 1 ∧
    exec Op.ret sc_waiting_again = Except.ok sc_released_again ∧
    sc_released_again.co_list 2 = none ∧ sc_released_again.heap 1 = none :=
  ⟨reachable_sc_dead, ⟨_, rfl, rfl, rfl⟩, rfl, rfl, rfl, rfl, rfl, rfl, rfl, rfl, rfl⟩

/-- C12, as the code has it. Single ownership is not checked: when an operation from a
reachable state has released the block of `t`, the block was dead (or is the task that
returned in this operation) and no registry slot holds `t` any more; a second `co_wait t`
reads released memory in its first line, so it is not a call a well-behaved program makes,
and no line of `co_wait` rejects it.  With `store s1 t d` the state in which the released
memory still reads as the dead block `d`: when `d` has no waiter both assertions pass, the
call returns, the slot `d.list_idx` is emptied again, whatever it holds by then, and the
block is passed to `free` a second time; when `d` has a waiter (the first `co_wait` had
suspended) the assertion of line 88 fails. -/
theorem co_wait_after_release (s s1 : Sched) (op : Op) (t : Nat) (c : co) (h : Reachable s)
    (ha : Allowed s op) (he : exec op s = Except.ok s1) (hc : s.heap t = some c)
    (hrel : s1.heap t = none) :
    (c.status = co_status.CO_DEAD ∨ (op = Op.ret ∧ t = s.current)) ∧
    (∀ i, i < CO_MAX → s1.co_list i ≠ some t) ∧
    ¬ Allowed s1 (Op.wait t) ∧
    ∀ d : co, d.status = co_status.CO_DEAD →
      (d.waiter = none →
        co_wait t (store s1 t d)
          = Except.ok { s1 with co_list := Function.update s1.co_list d.list_idx none }) ∧
      (d.waiter ≠ none →
        co_wait t (store s1 t d) = Except.error (Fault.assert_waiter_null, store s1 t d)) := by
  have hinv := reachable_inv s h
  have hinv1 := reachable_inv s1 (Reachable.step h ha he)
  have hmain : t ≠ main_co_addr := by
    intro e
    obtain ⟨m, hm, _⟩ := hinv1.wf.main
    rw [← e, hrel] at hm
    exact absurd hm (by simp)
  refine ⟨?_, ?_, fun hal => hal hrel, ?_⟩
  · rcases exec_cases s s1 op hinv ha he with ⟨name, func, arg, mem, e⟩ |
      ⟨t0, c0, e, hc0, _, hd0, hs⟩ | ⟨F, hsusp, hsw, hF⟩
    · subst e
      have := (exec_start_frame name func arg mem s s1 ha he).2 t c hc
      rw [this] at hrel
      exact absurd hrel (by simp)
    · subst hs
      by_cases htt : t = t0
      · subst htt
        rw [hc] at hc0
        injection hc0 with hc0
        subst hc0
        exact Or.inl hd0
      · simp only [released, Function.update_apply, htt, if_false] at hrel
        rw [hc] at hrel
        exact absurd hrel (by simp)
    · have hdead := switch_released _ s1 hsusp hsw t _ (heap_map_of_some F s t c hc) hrel
      rcases hF with ⟨_, hF⟩ | ⟨t0, c0, _, _, _, _, hF⟩ | ⟨r, hop, hr, hF⟩
      · subst hF
        exact Or.inl hdead
      · subst hF
        simp only [waitF] at hdead
        split_ifs at hdead
        exact Or.inl hdead
      · subst hF
        simp only [retF] at hdead
        split_ifs at hdead with h1 h2
        · exact Or.inr ⟨hop, h1⟩
        · exact Or.inl hdead
  · intro i hi hit
    obtain ⟨b, hb, _⟩ := hinv1.wf.registered i t hi hit
    rw [hrel] at hb
    exact absurd hb (by simp)
  · intro d hd
    constructor
    · intro hw
      have hheap : Function.update (Function.update s1.heap t (some d)) t none = s1.heap := by
        rw [Function.update_idem, ← hrel, Function.update_eq_self]
      simp [co_wait, co_wait_finish, store, hd, hw, hmain, hheap]
    · intro hw
      simp [co_wait, store, hw]

theorem co_wait_after_release_witness :
    exec (Op.wait 1) sc_dead = Except.ok sc_released ∧
    co_wait 1 (store sc_released 1
        (task_block "T" 1 0 1 co_status.CO_DEAD none Context.wrapper))
      = Except.ok { sc_released with co_list := Function.update sc_released.co_list 1 none } :=
  ⟨rfl, ((co_wait_after_release sc_dead sc_released (Op.wait 1) 1 _ reachable_sc_dead
    (by decide) rfl rfl rfl).2.2.2
      (task_block "T" 1 0 1 co_status.CO_DEAD none Context.wrapper) rfl).1 rfl⟩

/-- C13 as stated fails: with the new task `T` registered, main calls `co_wait` on its own
handle; the call does not abort: main becomes `CO_WAITING`, registered as its own waiter, and
`T` is dispatched. -/
theorem self_wait_dispatches_other :
    Reachable sc_started ∧ sc_started.current = 0 ∧
    exec (Op.wait 0) sc_started = Except.ok sc_self_wait ∧ sc_self_wait.current = 1 ∧
    (∃ c, sc_self_wait.heap 0 = some c ∧ c.status = co_status.CO_WAITING ∧
      c.waiter = some 0) :=
  ⟨reachable_sc_started, rfl, rfl, rfl, _, rfl, rfl, rfl⟩

/-- C13, as the code has it. Self-wait: in a reachable state in which the current task has no
registered waiter, `co_wait` on its own handle aborts, by the assertion of line 162, exactly
when no other registry slot holds a task that is `CO_NEW` or `CO_RUNNING`; when there is such
a slot the call does not abort: another task is made current, and the caller is left
`CO_WAITING` and registered as its own waiter. -/
theorem self_wait (s : Sched) (c : co) (h : Reachable s) (hc : s.heap s.current = some c)
    (hw : c.waiter = none) :
    ((∀ i, i < CO_MAX → i ≠ s.next_idx → slot_runnable s i = false) →
      ∃ t, exec (Op.wait s.current) s = Except.error (Fault.assert_runnable, t)) ∧
    ((∃ i, i < CO_MAX ∧ i ≠ s.next_idx ∧ slot_runnable s i = true) →
      ∃ s1, exec (Op.wait s.current) s = Except.ok s1 ∧ s1.current ≠ s.current ∧
        ∃ c1, s1.heap s.current = some c1 ∧ c1.status = co_status.CO_WAITING ∧
          c1.waiter = some s.current) := by
  have hinv := reachable_inv s h
  have hrun := hinv.running c hc
  have hd : c.status ≠ co_status.CO_DEAD := by rw [hrun]; decide
  have hsusp := susp_wait s.current s c hinv hc hd
  have hexec := exec_wait_eq s s.current c hinv hc hw hd
  have hmc : (heap_map (waitF s.current s) s).heap s.current
      = some (waitF s.current s s.current c) := heap_map_of_some _ s _ c hc
  have hwaiting : (waitF s.current s s.current c).status = co_status.CO_WAITING := by
    simp [waitF]
  obtain ⟨N, n, hN, hnext, hcases⟩ := switch_total _ hsusp
  have hspec := co_next_spec (heap_map (waitF s.current s) s) hsusp.wf.next_lt
    (registryValid_of_registered _ hsusp.wf.registered)
  have hidx : (heap_map (waitF s.current s) s).next_idx = s.next_idx := rfl
  constructor
  · intro hnone
    rcases hspec with ⟨k, p, a1, a2, _, a4, _, _⟩ | ⟨_, b2⟩
    · rw [hidx, slot_runnable_waitF s s.current hinv _ (cyc_lt _ _)
        (cyc_ne s.next_idx k a1 a2)] at a4
      rw [hnone _ (cyc_lt _ _) (cyc_ne s.next_idx k a1 a2)] at a4
      exact absurd a4 (by simp)
    · rw [b2] at hnext
      injection hnext with hnext
      injection hnext with e1 _
      have e1 : s.current = N := e1
      subst e1
      rw [hmc] at hN
      injection hN with hN
      subst hN
      rcases hcases with ⟨hst, _⟩ | ⟨_, herr⟩
      · rw [hwaiting] at hst
        rcases hst with e | e <;> exact absurd e (by decide)
      · exact ⟨_, by rw [hexec, herr]⟩
  · rintro ⟨i, hi, hne, hri⟩
    rcases hcases with ⟨_, s1, hok, _, hcurN⟩ | ⟨hst, _⟩
    · refine ⟨s1, by rw [hexec, hok], ?_, ?_⟩
      · intro e
        rw [hcurN] at e
        subst e
        have := switch_current _ s1 hsusp hok
        obtain ⟨n1, hn1, hst1⟩ := this
        rw [hcurN, hmc] at hn1
        injection hn1 with hn1
        rw [← hn1, hwaiting] at hst1
        rcases hst1 with e | e <;> exact absurd e (by decide)
      · obtain ⟨a, b, ha1, ha2, hb1, hb2⟩ := pending_switch s.current s.current _ s1 hsusp
          (pending_heap_map s.current s.current _ s c c hc hc (by simp [waitF])
            (by simp [waitF])) hok
        rw [ha1] at hb1
        injection hb1 with hb1
        subst hb1
        exact ⟨a, ha1, ha2, hb2⟩
    · exfalso
      apply hst
      rcases hspec with ⟨k, p, _, _, _, a4, a5, a6⟩ | ⟨b1, _⟩
      · rw [a6] at hnext
        injection hnext with hnext
        injection hnext with e1 _
        subst e1
        obtain ⟨p1, c1, h1, h2, h3⟩ := (slot_runnable_iff _ _).1 a4
        rw [a5] at h1
        injection h1 with h1
        subst h1
        rw [hN] at h2
        injection h2 with h2
        subst h2
        exact h3
      · obtain ⟨k, k1, k2, k3, k4⟩ := cyc_offset s.next_idx i hinv.wf.next_lt hi
        have hk : k < CO_MAX := lt_of_le_of_ne k2 (fun e => hne (k4.1 e))
        have := b1 k k1 hk
        rw [hidx, k3, slot_runnable_waitF s s.current hinv i hi hne, hri] at this
        exact absurd this (by simp)

theorem self_wait_witness :
    (∀ i, i < CO_MAX → i ≠ init.next_idx → slot_runnable init i = false) ∧
    ∃ t, exec (Op.wait init.current) init = Except.error (Fault.assert_runnable, t) :=
  ⟨fun i _ hi => by
      have : init.co_list i = none := by simp only [init]; exact if_neg hi
      simp [slot_runnable, this],
    (self_wait init _ Reachable.init rfl rfl).1 (fun i _ hi => by
      have : init.co_list i = none := by simp only [init]; exact if_neg hi
      simp [slot_runnable, this])⟩

/-- C14. Task state machine: in one operation from a reachable state, the status of a block
that exists before and after it stays as it is or makes exactly one of these moves:
`CO_NEW` to `CO_RUNNING`, for the task that is made current; `CO_RUNNING` to `CO_WAITING`, for
the current task calling `co_wait`; `CO_WAITING` to `CO_RUNNING`, for the registered waiter of
the current task when the entry function of the current task returns; `CO_RUNNING` to
`CO_DEAD`, for the current task when its entry function returns. So no task becomes `CO_NEW`
again and a dead task stays dead; a block that comes into existence is allocated by `co_start`
and is `CO_NEW`. -/
theorem status_state_machine (s s1 : Sched) (op : Op) (h : Reachable s) (ha : Allowed s op)
    (he : exec op s = Except.ok s1) :
    (∀ p c c1, s.heap p = some c → s1.heap p = some c1 →
      (c1.status = c.status ∨
       (c.status = co_status.CO_NEW ∧ c1.status = co_status.CO_RUNNING ∧ s1.current = p) ∨
       (c.status = co_status.CO_RUNNING ∧ c1.status = co_status.CO_WAITING ∧
          p = s.current ∧ ∃ t, op = Op.wait t) ∨
       (c.status = co_status.CO_WAITING ∧ c1.status = co_status.CO_RUNNING ∧ op = Op.ret ∧
          ∃ r, s.heap s.current = some r ∧ r.waiter = some p) ∨
       (c.status = co_status.CO_RUNNING ∧ c1.status = co_status.CO_DEAD ∧ op = Op.ret ∧
          p = s.current)) ∧
      (c1.status = co_status.CO_NEW → c.status = co_status.CO_NEW) ∧
      (c.status = co_status.CO_DEAD → c1.status = co_status.CO_DEAD)) ∧
    (∀ p c1, s.heap p = none → s1.heap p = some c1 →
      c1.status = co_status.CO_NEW ∧ ∃ name func arg, op = Op.start name func arg (some p)) := by
  have hinv := reachable_inv s h
  refine ⟨?_, fun p c1 hp hp1 => step_born s s1 op hinv ha he p c1 hp hp1⟩
  intro p c c1 hp hp1
  obtain ⟨_, _, _, _, hmove⟩ := step_block s s1 op hinv ha he p c c1 hp hp1
  refine ⟨hmove, ?_, ?_⟩
  · intro hnew
    rcases hmove with e | ⟨_, e, _⟩ | ⟨_, e, _⟩ | ⟨_, e, _⟩ | ⟨_, e, _⟩
    · rw [← e]; exact hnew
    all_goals (rw [e] at hnew; exact absurd hnew (by decide))
  · intro hdead
    rcases hmove with e | ⟨e, _⟩ | ⟨e, _⟩ | ⟨e, _⟩ | ⟨e, _⟩
    · rw [e]; exact hdead
    all_goals (rw [e] at hdead; exact absurd hdead (by decide))

theorem status_state_machine_witness :
    exec Op.ret sc_waiting = Except.ok (after Op.ret sc_waiting) ∧
    ∃ c c1, sc_waiting.heap 0 = some c ∧ (after Op.ret sc_waiting).heap 0 = some c1 ∧
      c.status = co_status.CO_WAITING ∧ c1.status = co_status.CO_RUNNING ∧
      ((c1.status = co_status.CO_NEW → c.status = co_status.CO_NEW) ∧
       (c.status = co_status.CO_DEAD → c1.status = co_status.CO_DEAD)) :=
  ⟨rfl, _, _, rfl, rfl, rfl, rfl,
    ((status_state_machine sc_waiting (after Op.ret sc_waiting) Op.ret reachable_sc_waiting
      (by decide) rfl).1 0 _ _ rfl rfl).2⟩

/-- C15 as stated fails: after main has started `T` and called `co_yield`, `T` is current, and
both registered tasks, main in slot `0` and `T` in slot `1`, have status `CO_RUNNING`. -/
theorem two_tasks_running :
    Reachable sc_yielded ∧ sc_yielded.current = 1 ∧
    sc_yielded.co_list 0 = some 0 ∧ sc_yielded.co_list 1 = some 1 ∧
    (∃ c, sc_yielded.heap 0 = some c ∧ c.status = co_status.CO_RUNNING) ∧
    (∃ c, sc_yielded.heap 1 = some c ∧ c.status = co_status.CO_RUNNING) :=
  ⟨reachable_sc_yielded, rfl, rfl, rfl, ⟨_, rfl, rfl⟩, ⟨_, rfl, rfl⟩⟩

/-- C15, as the code has it. In every reachable state the current task is registered, in the
slot of the cursor of `co_next`, and has status `CO_RUNNING`; every other task with status
`CO_RUNNING` is a suspended task that can be resumed: it is suspended in a `co_yield` called
by its own code, or inside `co_wait B` for a task `B` that is dead. -/
theorem current_is_running (s : Sched) (h : Reachable s) :
    ∃ c, s.heap s.current = some c ∧ c.status = co_status.CO_RUNNING ∧
      c.list_idx = s.next_idx ∧ s.next_idx < CO_MAX ∧ s.co_list s.next_idx = some s.current ∧
      ∀ p c1, p ≠ s.current → s.heap p = some c1 → c1.status = co_status.CO_RUNNING →
        c1.context = Context.user ∨
        ∃ B b, c1.context = Context.wait B ∧ s.heap B = some b ∧
          b.status = co_status.CO_DEAD := by
  have hinv := reachable_inv s h
  obtain ⟨c, hc, hidx⟩ := hinv.wf.cur
  refine ⟨c, hc, hinv.running c hc, hidx, hinv.wf.next_lt, ?_, ?_⟩
  · rw [← hidx]; exact (hinv.wf.listed _ c hc).2
  · intro p c1 hp hc1 hrun
    rcases hinv.susp p hp c1 hc1 hrun with hu | ⟨B, b, h1, h2, h3, _⟩
    · exact Or.inl hu
    · exact Or.inr ⟨B, b, h1, h2, h3⟩

theorem current_is_running_witness :
    ∃ c, sc_yielded.heap sc_yielded.current = some c ∧ c.status = co_status.CO_RUNNING :=
  let ⟨c, h1, h2, _⟩ := current_is_running sc_yielded reachable_sc_yielded
  ⟨c, h1, h2⟩

/-- C16. Main task invariant: in the initial state slot `0` holds the main task, named "main",
`CO_RUNNING`, without a waiter, and it is the current task; in every reachable state slot `0`
holds the main task, whose block is allocated, named "main", and neither `CO_NEW` nor
`CO_DEAD`; and no operation from a reachable state passes `main_co` to `free`, releases its
block or empties its slot. -/
theorem main_task_invariant (s : Sched) (h : Reachable s) :
    (init.co_list 0 = some main_co_addr ∧ init.current = main_co_addr ∧
      init.heap main_co_addr = some main_co ∧ main_co.name = "main" ∧
      main_co.status = co_status.CO_RUNNING ∧ main_co.waiter = none) ∧
    (s.co_list 0 = some main_co_addr ∧
      ∃ c, s.heap main_co_addr = some c ∧ c.name = "main" ∧ c.list_idx = 0 ∧
        c.status ≠ co_status.CO_NEW ∧ c.status ≠ co_status.CO_DEAD) ∧
    (∀ op, Allowed s op →
      (∀ f t, exec op s = Except.error (f, t) → f ≠ Fault.bad_free) ∧
      (∀ s1, exec op s = Except.ok s1 →
        s1.heap main_co_addr ≠ none ∧ s1.co_list 0 = some main_co_addr)) := by
  have hmain : ∀ u, Inv u → u.co_list 0 = some main_co_addr ∧
      ∃ c, u.heap main_co_addr = some c ∧ c.name = "main" ∧ c.list_idx = 0 ∧
        c.status ≠ co_status.CO_NEW ∧ c.status ≠ co_status.CO_DEAD := by
    intro u hu
    obtain ⟨c, hc, r1, r2, r3, r4⟩ := hu.wf.main
    refine ⟨?_, c, hc, r2, r1, r3, r4⟩
    rw [← r1]
    exact (hu.wf.listed _ c hc).2
  have hinv := reachable_inv s h
  refine ⟨⟨rfl, rfl, rfl, rfl, rfl, rfl⟩, hmain s hinv, ?_⟩
  intro op ha
  constructor
  · intro f t he
    rcases exec_inv s op hinv ha with ⟨s1, e1, _⟩ | ⟨u, e2⟩ | ⟨u, e3⟩
    · rw [he] at e1; exact absurd e1 (by simp)
    · rw [he] at e2
      simp only [Except.error.injEq, Prod.mk.injEq] at e2
      rw [e2.1]; decide
    · rw [he] at e3
      simp only [Except.error.injEq, Prod.mk.injEq] at e3
      rw [e3.1]; decide
  · intro s1 he
    obtain ⟨h1, c, hc, _⟩ := hmain s1 (reachable_inv s1 (Reachable.step h ha he))
    exact ⟨by rw [hc]; simp, h1⟩

theorem main_task_invariant_witness :
    sc_waiting.co_list 0 = some main_co_addr ∧
      ∃ c, sc_waiting.heap main_co_addr = some c ∧ c.name = "main" ∧ c.list_idx = 0 ∧
        c.status ≠ co_status.CO_NEW ∧ c.status ≠ co_status.CO_DEAD :=
  (main_task_invariant sc_waiting reachable_sc_waiting).2.1

/-- C17. Terminal yield never returns: from a reachable state no operation ends with control
coming back from the last `co_yield` of `co_wrapper`; a dead task is not the current task, is
not made current by the operation, and is still dead after it unless its block is released;
the task whose entry function returns in the operation is not the current task after it; and
no task that has left `CO_NEW`, the only status in which `co_yield` calls its entry function,
becomes `CO_NEW` again. -/
theorem terminal_yield_never_returns (s : Sched) (op : Op) (h : Reachable s)
    (ha : Allowed s op) :
    (∀ f t, exec op s = Except.error (f, t) → f ≠ Fault.wrapper_returned) ∧
    (∀ p c, s.heap p = some c → c.status = co_status.CO_DEAD → p ≠ s.current) ∧
    (∀ s1, exec op s = Except.ok s1 →
      (∀ p c, s.heap p = some c → c.status = co_status.CO_DEAD →
        s1.current ≠ p ∧ ∀ c1, s1.heap p = some c1 → c1.status = co_status.CO_DEAD) ∧
      (op = Op.ret → s1.current ≠ s.current) ∧
      (∀ p c c1, s.heap p = some c → s1.heap p = some c1 →
        c1.status = co_status.CO_NEW → c.status = co_status.CO_NEW)) := by
  have hinv := reachable_inv s h
  have hdead_cur : ∀ p c, s.heap p = some c → c.status = co_status.CO_DEAD →
      p ≠ s.current :=
    fun p c hp hd => cur_not_dead s hinv p c hp (by rw [hd]; decide)
  refine ⟨?_, hdead_cur, ?_⟩
  · intro f t he
    rcases exec_inv s op hinv ha with ⟨s1, e1, _⟩ | ⟨u, e2⟩ | ⟨u, e3⟩
    · rw [he] at e1; exact absurd e1 (by simp)
    · rw [he] at e2
      simp only [Except.error.injEq, Prod.mk.injEq] at e2
      rw [e2.1]; decide
    · rw [he] at e3
      simp only [Except.error.injEq, Prod.mk.injEq] at e3
      rw [e3.1]; decide
  · intro s1 he
    have hinv1 := reachable_inv s1 (Reachable.step h ha he)
    -- the current task after the operation is running, so it was not dead before
    have hmoves : ∀ p c c1, s.heap p = some c → s1.heap p = some c1 →
        (c.status = co_status.CO_DEAD → c1.status = co_status.CO_DEAD) ∧
        (c1.status = co_status.CO_NEW → c.status = co_status.CO_NEW) := by
      intro p c c1 hp hp1
      obtain ⟨_, _, _, _, hmove⟩ := step_block s s1 op hinv ha he p c c1 hp hp1
      constructor
      · intro hdead
        rcases hmove with e | ⟨e, _⟩ | ⟨e, _⟩ | ⟨e, _⟩ | ⟨e, _⟩
        · rw [e]; exact hdead
        all_goals (rw [e] at hdead; exact absurd hdead (by decide))
      · intro hnew
        rcases hmove with e | ⟨_, e, _⟩ | ⟨_, e, _⟩ | ⟨_, e, _⟩ | ⟨_, e, _⟩
        · rw [← e]; exact hnew
        all_goals (rw [e] at hnew; exact absurd hnew (by decide))
    obtain ⟨c1cur, hc1cur, _⟩ := hinv1.wf.cur
    have hrun1 := hinv1.running c1cur hc1cur
    refine ⟨?_, ?_, fun p c c1 hp hp1 => (hmoves p c c1 hp hp1).2⟩
    · intro p c hp hdead
      refine ⟨?_, fun c1 hp1 => (hmoves p c c1 hp hp1).1 hdead⟩
      intro e
      rw [e] at hc1cur
      have := (hmoves p c c1cur hp hc1cur).1 hdead
      rw [hrun1] at this
      exact absurd this (by decide)
    · intro hop e
      subst hop
      obtain ⟨ccur, hcur, _⟩ := hinv.wf.cur
      rw [e] at hc1cur
      obtain ⟨_, _, _, _, hmove⟩ :=
        step_block s s1 Op.ret hinv ha he s.current ccur c1cur hcur hc1cur
      have hr := hinv.running ccur hcur
      rw [exec_ret_eq s ccur hinv hcur] at he
      obtain ⟨n, hn, hst⟩ := switch_current _ s1 (susp_ret s ccur hinv hcur ha) he
      rw [e, heap_map_of_some _ s _ ccur hcur] at hn
      injection hn with hn
      rw [← hn] at hst
      simp [retF] at hst

theorem terminal_yield_never_returns_witness :
    exec Op.ret sc_waiting = Except.ok (after Op.ret sc_waiting) ∧
    (after Op.ret sc_waiting).current ≠ sc_waiting.current :=
  ⟨rfl, ((terminal_yield_never_returns sc_waiting Op.ret reachable_sc_waiting (by decide)).2.2
    (after Op.ret sc_waiting) rfl).2.1 rfl⟩

/-- C18. End-to-end join (scenario 1): from the initial state main starts a task `T`, which gets
a block `p` other than `main_co` and slot `1`, and calls `co_wait` on it; the call dispatches
`T` and leaves main `CO_WAITING`, suspended inside `co_wait`; when the entry function of `T`
returns at once, `co_wrapper` first makes `T` `CO_DEAD`, and only then main is made current
again, `CO_RUNNING`; `co_wait` releases the block of `T` and empties its slot, so that the
registry holds only the main task. `T` is current in exactly one of the states. -/
theorem scenario_join (name : String) (func arg p : Nat) (hp : p ≠ main_co_addr) :
    ∃ s1 s2 m s3,
      exec (Op.start name func arg (some p)) init = Except.ok s1 ∧
      s1.current = main_co_addr ∧ s1.co_list 1 = some p ∧
      (∃ c, s1.heap p = some c ∧ c.status = co_status.CO_NEW) ∧
      exec (Op.wait p) s1 = Except.ok s2 ∧
      s2.current = p ∧
      (∃ c, s2.heap p = some c ∧ c.status = co_status.CO_RUNNING) ∧
      (∃ c, s2.heap main_co_addr = some c ∧ c.status = co_status.CO_WAITING ∧
        c.context = Context.wait p) ∧
      co_wrapper_finish p s2 = Except.ok m ∧ m.current = p ∧
      (∃ c, m.heap p = some c ∧ c.status = co_status.CO_DEAD) ∧
      exec Op.ret s2 = Except.ok s3 ∧
      s3.current = main_co_addr ∧
      (∃ c, s3.heap main_co_addr = some c ∧ c.status = co_status.CO_RUNNING) ∧
      (∀ q, q ≠ main_co_addr → s3.heap q = none) ∧
      s3.co_list 1 = none ∧
      (∀ i, s3.co_list i = if i = 0 then some main_co_addr else none) := by
  have h0 : p ≠ 0 := hp
  have e1 := sc_step_start1 name func arg p (p + 1) h0
  rw [← init_state3] at e1
  refine ⟨_, _, _, _, e1, rfl, ?_, ?_, sc_step_wait1 name func arg p (p + 1) h0, rfl, ?_, ?_,
    sc1_finish name func arg p (p + 1) h0 (by omega) (by omega), rfl, ?_,
    sc_step_ret1 name func arg p (p + 1) h0, rfl, ?_, ?_, ?_, ?_⟩
  · simp [state3]
  · simp [state3, h0, task_block]
  · simp [state3, h0, task_block]
  · simp [state3, main_co_addr, main_block]
  · simp [state3, h0, task_block]
  · simp [state3, main_co_addr, main_block]
  · intro q hq
    have hq0 : q ≠ 0 := hq
    simp [state3, hq0]
  · simp [state3]
  · intro i
    simp [state3, main_co_addr]

theorem scenario_join_witness :
    ∃ s1 s2 s3,
      exec (Op.start "T" 7 0 (some 1)) init = Except.ok s1 ∧
      exec (Op.wait 1) s1 = Except.ok s2 ∧ s2.current = 1 ∧
      exec Op.ret s2 = Except.ok s3 ∧ s3.current = main_co_addr ∧ s3.co_list 1 = none :=
  let ⟨s1, s2, _, s3, h1, _, _, _, h2, h3, _, _, _, _, _, h4, h5, _, _, h6, _⟩ :=
    scenario_join "T" 7 0 1 (by decide)
  ⟨s1, s2, s3, h1, h2, h3, h4, h5, h6⟩

/-- C19. Deterministic interleaving (scenario 2): from the initial state main starts `T1`
(block `p1`, slot `1`) and `T2` (block `p2`, slot `2`) and calls `co_wait` on `T1`. The tasks
made current are, in this order: `T1`, on its first run (it was `CO_NEW`); `T2`, on its first
run, when `T1` yields, and `T2` runs until its entry function returns; `T1` again, resumed at
its `co_yield`, which runs until its entry function returns; main, resumed inside its
`co_wait` on `T1`, whose slot is released. The `co_wait` on `T2` then returns without
suspending: main stays current with the very block it had, and at the end both slots are
empty and only main is registered. -/
theorem scenario_interleaving (n1 n2 : String) (f1 a1 f2 a2 p1 p2 : Nat)
    (h1 : p1 ≠ main_co_addr) (h2 : p2 ≠ main_co_addr) (h12 : p1 ≠ p2) :
    ∃ s1 s2 s3 s4 s5 s6 s7,
      exec (Op.start n1 f1 a1 (some p1)) init = Except.ok s1 ∧
      exec (Op.start n2 f2 a2 (some p2)) s1 = Except.ok s2 ∧
      s2.current = main_co_addr ∧ s2.co_list 1 = some p1 ∧ s2.co_list 2 = some p2 ∧
      (∃ c, s2.heap p1 = some c ∧ c.status = co_status.CO_NEW) ∧
      (∃ c, s2.heap p2 = some c ∧ c.status = co_status.CO_NEW) ∧
      exec (Op.wait p1) s2 = Except.ok s3 ∧
      s3.current = p1 ∧
      (∃ c, s3.heap p2 = some c ∧ c.status = co_status.CO_NEW) ∧
      exec Op.yield s3 = Except.ok s4 ∧
      s4.current = p2 ∧
      (∃ c, s4.heap p1 = some c ∧ c.status = co_status.CO_RUNNING ∧
        c.context = Context.user) ∧
      exec Op.ret s4 = Except.ok s5 ∧
      s5.current = p1 ∧
      (∃ c, s5.heap p2 = some c ∧ c.status = co_status.CO_DEAD) ∧
      (∃ c, s5.heap main_co_addr = some c ∧ c.status = co_status.CO_WAITING) ∧
      exec Op.ret s5 = Except.ok s6 ∧
      s6.current = main_co_addr ∧ s6.heap p1 = none ∧ s6.co_list 1 = none ∧
      s6.co_list 2 = some p2 ∧
      (∃ c, s6.heap main_co_addr = some c ∧ c.status = co_status.CO_RUNNING) ∧
      exec (Op.wait p2) s6 = Except.ok s7 ∧
      s7.current = main_co_addr ∧ s7.next_idx = s6.next_idx ∧
      s7.heap main_co_addr = s6.heap main_co_addr ∧
      (∀ q, q ≠ main_co_addr → s7.heap q = none) ∧
      s7.co_list 1 = none ∧ s7.co_list 2 = none ∧
      (∀ i, s7.co_list i = if i = 0 then some main_co_addr else none) := by
  have k1 : p1 ≠ 0 := h1
  have k2 : p2 ≠ 0 := h2
  have k21 : p2 ≠ p1 := fun h => h12 h.symm
  have e1 := sc_step_start1 n1 f1 a1 p1 p2 k1
  rw [← init_state3] at e1
  refine ⟨_, _, _, _, _, _, _, e1, sc2_start2 n1 n2 f1 a1 f2 a2 p1 p2 k1 k2 h12,
    rfl, ?_, ?_, ?_, ?_, sc2_wait1 n1 n2 f1 a1 f2 a2 p1 p2 k1 k2 h12,
    rfl, ?_, sc2_yield n1 n2 f1 a1 f2 a2 p1 p2 k1 k2 h12,
    rfl, ?_, sc2_ret2 n1 n2 f1 a1 f2 a2 p1 p2 k1 k2 h12,
    rfl, ?_, ?_, sc2_ret1 n1 n2 f1 a1 f2 a2 p1 p2 k1 k2 h12,
    rfl, ?_, ?_, ?_, ?_, sc2_wait2 n2 f2 a2 p1 p2 k1 k2 h12,
    rfl, rfl, ?_, ?_, ?_, ?_, ?_⟩
  · simp [state3]
  · simp [state3]
  · simp [state3, k1, task_block]
  · simp [state3, k2, k21, task_block]
  · simp [state3, k2, k21, task_block]
  · simp [state3, k1, task_block]
  · simp [state3, k2, k21, task_block]
  · simp [state3, main_co_addr, main_block]
  · simp [state3, k1]
  · simp [state3]
  · simp [state3]
  · simp [state3, main_co_addr, main_block]
  · simp [state3, main_co_addr]
  · intro q hq
    have hq0 : q ≠ 0 := hq
    simp [state3, hq0]
  · simp [state3]
  · simp [state3]
  · intro i
    simp [state3, main_co_addr]

theorem scenario_interleaving_witness :
    ∃ s1 s2 s3 s4 s5 s6 s7,
      exec (Op.start "T1" 7 0 (some 1)) init = Except.ok s1 ∧
      exec (Op.start "T2" 8 0 (some 2)) s1 = Except.ok s2 ∧
      exec (Op.wait 1) s2 = Except.ok s3 ∧ s3.current = 1 ∧
      exec Op.yield s3 = Except.ok s4 ∧ s4.current = 2 ∧
      exec Op.ret s4 = Except.ok s5 ∧ s5.current = 1 ∧
      exec Op.ret s5 = Except.ok s6 ∧ s6.current = main_co_addr ∧
      exec (Op.wait 2) s6 = Except.ok s7 ∧ s7.current = main_co_addr ∧
      s7.co_list 1 = none ∧ s7.co_list 2 = none :=
  let ⟨s1, s2, s3, s4, s5, s6, s7, e1, e2, _, _, _, _, _, e3, c3, _, e4, c4, _, e5, c5, _, _,
      e6, c6, _, _, _, _, e7, c7, _, _, _, l1, l2, _⟩ :=
    scenario_interleaving "T1" "T2" 7 0 8 0 1 2 (by decide) (by decide) (by decide)
  ⟨s1, s2, s3, s4, s5, s6, s7, e1, e2, e3, c3, e4, c4, e5, c5, e6, c6, e7, c7, l1, l2⟩

/-- C20. Nested start and wait (scenario 3): from the initial state main starts `T` (block
`p1`, slot `1`) and calls `co_wait` on it; `T` starts a second task `T2` (block `p2`, slot
`2`) and calls `co_wait` on it. That call dispatches `T2` and leaves `T` `CO_WAITING`; when
the entry function of `T2` returns, `co_wrapper` makes `T2` `CO_DEAD` before `T` becomes
current again, and the `co_wait` of `T` releases the block and the slot of `T2` while main is
still `CO_WAITING`; when the entry function of `T` returns, `co_wrapper` makes `T`
`CO_DEAD` before main becomes current again. No step faults, so neither assertion of
`co_wait` fails, and at the end only main is registered. -/
theorem scenario_nested (n1 n2 : String) (f1 a1 f2 a2 p1 p2 : Nat)
    (h1 : p1 ≠ main_co_addr) (h2 : p2 ≠ main_co_addr) (h12 : p1 ≠ p2) :
    ∃ s1 s2 s3 s4 m4 s5 m5 s6,
      exec (Op.start n1 f1 a1 (some p1)) init = Except.ok s1 ∧
      exec (Op.wait p1) s1 = Except.ok s2 ∧
      s2.current = p1 ∧
      exec (Op.start n2 f2 a2 (some p2)) s2 = Except.ok s3 ∧
      s3.current = p1 ∧ s3.co_list 2 = some p2 ∧
      (∃ c, s3.heap p2 = some c ∧ c.status = co_status.CO_NEW) ∧
      exec (Op.wait p2) s3 = Except.ok s4 ∧
      s4.current = p2 ∧
      (∃ c, s4.heap p1 = some c ∧ c.status = co_status.CO_WAITING ∧
        c.context = Context.wait p2) ∧
      co_wrapper_finish p2 s4 = Except.ok m4 ∧ m4.current = p2 ∧
      (∃ c, m4.heap p2 = some c ∧ c.status = co_status.CO_DEAD) ∧
      exec Op.ret s4 = Except.ok s5 ∧
      s5.current = p1 ∧ s5.heap p2 = none ∧ s5.co_list 2 = none ∧
      (∃ c, s5.heap p1 = some c ∧ c.status = co_status.CO_RUNNING) ∧
      (∃ c, s5.heap main_co_addr = some c ∧ c.status = co_status.CO_WAITING) ∧
      co_wrapper_finish p1 s5 = Except.ok m5 ∧ m5.current = p1 ∧
      (∃ c, m5.heap p1 = some c ∧ c.status = co_status.CO_DEAD) ∧
      exec Op.ret s5 = Except.ok s6 ∧
      s6.current = main_co_addr ∧
      (∃ c, s6.heap main_co_addr = some c ∧ c.status = co_status.CO_RUNNING) ∧
      (∀ q, q ≠ main_co_addr → s6.heap q = none) ∧
      (∀ i, s6.co_list i = if i = 0 then some main_co_addr else none) := by
  have k1 : p1 ≠ 0 := h1
  have k2 : p2 ≠ 0 := h2
  have k21 : p2 ≠ p1 := fun h => h12 h.symm
  have e1 := sc_step_start1 n1 f1 a1 p1 p2 k1
  rw [← init_state3] at e1
  refine ⟨_, _, _, _, _, _, _, _, e1, sc_step_wait1 n1 f1 a1 p1 p2 k1,
    rfl, sc3_start2 n1 n2 f1 a1 f2 a2 p1 p2 k1 k2 h12,
    rfl, ?_, ?_, sc3_wait2 n1 n2 f1 a1 f2 a2 p1 p2 k1 k2 h12,
    rfl, ?_, sc3_finish2 n1 n2 f1 a1 f2 a2 p1 p2 k1 k2 h12, rfl, ?_,
    sc3_ret2 n1 n2 f1 a1 f2 a2 p1 p2 k1 k2 h12,
    rfl, ?_, ?_, ?_, ?_, sc3_finish1 n1 f1 a1 p1 p2 k1 k2 h12, rfl, ?_,
    sc3_ret1 n1 f1 a1 p1 p2 k1 k2 h12,
    rfl, ?_, ?_, ?_⟩
  · simp [state3]
  · simp [state3, k2, k21, task_block]
  · simp [state3, k1, task_block]
  · simp [state3, k2, k21, task_block]
  · simp [state3, k2, k21]
  · simp [state3]
  · simp [state3, k1, task_block]
  · simp [state3, main_co_addr, main_block]
  · simp [state3, k1, task_block]
  · simp [state3, main_co_addr, main_block]
  · intro q hq
    have hq0 : q ≠ 0 := hq
    simp [state3, hq0]
  · intro i
    simp [state3, main_co_addr]

theorem scenario_nested_witness :
    ∃ s1 s2 s3 s4 s5 s6,
      exec (Op.start "T" 7 0 (some 1)) init = Except.ok s1 ∧
      exec (Op.wait 1) s1 = Except.ok s2 ∧ s2.current = 1 ∧
      exec (Op.start "T2" 8 0 (some 2)) s2 = Except.ok s3 ∧
      exec (Op.wait 2) s3 = Except.ok s4 ∧ s4.current = 2 ∧
      exec Op.ret s4 = Except.ok s5 ∧ s5.current = 1 ∧ s5.co_list 2 = none ∧
      exec Op.ret s5 = Except.ok s6 ∧ s6.current = main_co_addr :=
  let ⟨s1, s2, s3, s4, _, s5, _, s6, e1, e2, c2, e3, _, _, _, e4, c4, _, _, _, _, e5, c5, _,
      l5, _, _, _, _, _, e6, c6, _⟩ :=
    scenario_nested "T" "T2" 7 0 8 0 1 2 (by decide) (by decide) (by decide)
  ⟨s1, s2, s3, s4, s5, s6, e1, e2, c2, e3, e4, c4, e5, c5, l5, e6, c6⟩

/-- C25. Stack-top computation: `STACK_SIZE` is `65552`, and for every address `b` of the array
`stack` of a task (the array lies in the 64-bit address space) the installed stack pointer
`(b + STACK_SIZE) & ~0xf` is a multiple of `16` with `b + 65536 < top` and `top ≤ b + 65552`;
so the assertion of line 169 holds and more than `64 * 1024` bytes of the array lie below the
stack pointer. -/
theorem stack_top_bounds (b : Nat) (hb : b + STACK_SIZE < 2 ^ 64) :
    STACK_SIZE = 65552 ∧ stack_top b % 16 = 0 ∧ b + 65536 < stack_top b ∧
    stack_top b ≤ b + 65552 ∧ stack_assert b = true ∧ 64 * 1024 < stack_top b - b := by
  have hs : STACK_SIZE = 65552 := by decide
  have ht : stack_top b = (b + 65552) - (b + 65552) % 16 := by
    rw [hs] at hb
    simp only [stack_top, hs]
    rw [Nat.mod_eq_of_lt hb, land_align_mask _ hb]
  have hmod := Nat.mod_lt (b + 65552) (show 0 < 16 by decide)
  have hdiv := Nat.div_add_mod (b + 65552) 16
  refine ⟨hs, ?_, ?_, ?_, ?_, ?_⟩
  · rw [ht]; omega
  · rw [ht]; omega
  · rw [ht]; omega
  · simp only [stack_assert, decide_eq_true_eq, hs]
    rw [ht]; omega
  · rw [ht]; omega

theorem stack_top_bounds_witness :
    stack_top 4103 = 69648 ∧ 69648 % 16 = 0 ∧ 4103 + 65536 < stack_top 4103 ∧
    stack_top 4103 ≤ 4103 + 65552 :=
  have h := stack_top_bounds 4103 (by decide)
  ⟨by decide, by decide, h.2.2.1, h.2.2.2.1⟩

/-- C24. Degenerate yield is a no-op: in a reachable state in which no registered task other
than the current one is `CO_NEW` or `CO_RUNNING`, `co_next` called by `co_yield` returns the
current task, whose status is `CO_RUNNING`, so the assertion of line 162 holds, and `co_yield`
returns to its caller: the registry, both cursors and the current task are unchanged, and
every block is as before except that `setjmp` has written the context of the current task. -/
theorem degenerate_yield (s : Sched) (h : Reachable s)
    (halone : ∀ i p c, i < CO_MAX → s.co_list i = some p → p ≠ s.current →
      s.heap p = some c →
      c.status ≠ co_status.CO_NEW ∧ c.status ≠ co_status.CO_RUNNING) :
    ∃ s1 c, exec Op.yield s = Except.ok s1 ∧
      s.heap s.current = some c ∧ c.status = co_status.CO_RUNNING ∧
      co_next (heap_map (savedF Context.user s) s)
        = Except.ok (s.current, heap_map (savedF Context.user s) s) ∧
      s1.co_list = s.co_list ∧ s1.current = s.current ∧ s1.next_idx = s.next_idx ∧
      s1.start_idx = s.start_idx ∧
      (∀ p, (s1.heap p = none ↔ s.heap p = none)) ∧
      (∀ p b b1, s.heap p = some b → s1.heap p = some b1 →
        b1.status = b.status ∧ b1.waiter = b.waiter ∧ b1.name = b.name ∧
        b1.func = b.func ∧ b1.arg = b.arg ∧ b1.list_idx = b.list_idx) := by
  have hinv := reachable_inv s h
  obtain ⟨c, hc, _⟩ := hinv.wf.cur
  have hrun := hinv.running c hc
  have hsusp := susp_saved s hinv
  have hm : ∀ i p c, i < CO_MAX → (heap_map (savedF Context.user s) s).co_list i = some p →
      p ≠ (heap_map (savedF Context.user s) s).current →
      (heap_map (savedF Context.user s) s).heap p = some c →
      c.status ≠ co_status.CO_NEW ∧ c.status ≠ co_status.CO_RUNNING := by
    intro i p c1 hi hp hne hc1
    obtain ⟨c0, hc0, e⟩ := heap_map_some _ s p c1 hc1
    have := halone i p c0 hi hp hne hc0
    rw [e]
    exact this
  have hnext := co_next_alone _ hsusp.wf hm
  have hcm := heap_map_of_some (savedF Context.user s) s s.current c hc
  have hsw : co_yield_switch (heap_map (savedF Context.user s) s)
      = Except.ok (heap_map (savedF Context.user s) s) := by
    have hcur : (heap_map (savedF Context.user s) s).current = s.current := rfl
    simp only [co_yield_switch, hnext, hcur, hcm]
    simp [savedF, hrun, longjmp, heap_map, hc]
  refine ⟨_, c, (exec_yield_eq s hinv).trans hsw, hc, hrun, hnext, rfl, rfl, rfl, rfl, ?_, ?_⟩
  · intro p
    simp [heap_map]
  · intro p b b1 hb hb1
    rw [heap_map_of_some _ s p b hb] at hb1
    injection hb1 with hb1
    subst hb1
    simp [savedF]

theorem degenerate_yield_witness :
    ∃ s1, exec Op.yield init = Except.ok s1 ∧ s1.current = init.current ∧
      s1.co_list = init.co_list ∧ s1.next_idx = init.next_idx :=
  let ⟨s1, _, h1, _, _, _, h2, h3, h4, _⟩ := degenerate_yield init Reachable.init
    (fun i p c _ hp hne _ => by
      exfalso
      simp only [init] at hp hne
      split_ifs at hp
      injection hp with hp
      exact hne hp.symm)
  ⟨s1, h1, h3, h2, h4⟩

/-- C26. Registry well-formedness: in every reachable state (a) every registry slot that is
not empty holds an allocated task whose `list_idx` is the index of the slot, so no task is in
two slots; (b) the current task is registered; (c) the cursor of `co_next` is the `list_idx`
of the current task, so the slot that the scan of `co_next` never examines is the slot of the
current task, and every other registered task is at one of the offsets `1, ..., CO_MAX - 1`
that the scan visits. -/
theorem registry_well_formed (s : Sched) (h : Reachable s) :
    (∀ i p, i < CO_MAX → s.co_list i = some p →
      ∃ c, s.heap p = some c ∧ c.list_idx = i) ∧
    (∀ i j p, i < CO_MAX → j < CO_MAX → s.co_list i = some p → s.co_list j = some p →
      i = j) ∧
    (∃ c, s.heap s.current = some c ∧ c.list_idx < CO_MAX ∧
      s.co_list c.list_idx = some s.current ∧ s.next_idx = c.list_idx) ∧
    (∀ i p, i < CO_MAX → s.co_list i = some p →
      (i = s.next_idx ∧ p = s.current) ∨
      (p ≠ s.current ∧ ∃ k, 1 ≤ k ∧ k < CO_MAX ∧ (s.next_idx + k) % CO_MAX = i)) := by
  have hinv := reachable_inv s h
  obtain ⟨c, hc, hidx⟩ := hinv.wf.cur
  have hcl := hinv.wf.listed _ c hc
  refine ⟨hinv.wf.registered, ?_, ⟨c, hc, hcl.1, hcl.2, hidx.symm⟩, ?_⟩
  · intro i j p hi hj h1 h2
    obtain ⟨c1, hc1, e1⟩ := hinv.wf.registered i p hi h1
    obtain ⟨c2, hc2, e2⟩ := hinv.wf.registered j p hj h2
    rw [hc1] at hc2
    injection hc2 with hc2
    rw [← e1, ← e2, hc2]
  · intro i p hi hp
    by_cases hi2 : i = s.next_idx
    · left
      refine ⟨hi2, ?_⟩
      have := hcl.2
      rw [hidx, ← hi2, hp] at this
      injection this
    · right
      constructor
      · intro e
        obtain ⟨c1, hc1, e1⟩ := hinv.wf.registered i p hi hp
        rw [e, hc] at hc1
        injection hc1 with hc1
        rw [← hc1, hidx] at e1
        exact hi2 e1.symm
      · obtain ⟨k, hk1, hk2, hk3, hk4⟩ := cyc_offset s.next_idx i hinv.wf.next_lt hi
        refine ⟨k, hk1, ?_, hk3⟩
        rcases Nat.lt_or_eq_of_le hk2 with h5 | h5
        · exact h5
        · exact absurd (hk4.1 h5) hi2

theorem registry_well_formed_witness :
    ∃ c, sc_waiting.heap sc_waiting.current = some c ∧ c.list_idx < CO_MAX ∧
      sc_waiting.co_list c.list_idx = some sc_waiting.current ∧
      sc_waiting.next_idx = c.list_idx :=
  (registry_well_formed sc_waiting reachable_sc_waiting).2.2.1

end Libco -- theorems

/-! ## Theorems about `kmp/kmp.c` -/

namespace Kmp

theorem char_at_eq (s : List Char) (i : Nat) (h : i < s.length) : char_at s i = s[i] := by
  simp [char_at, List.getD_eq_getElem?_getD, List.getElem?_eq_getElem h]

theorem occurs_iff_occ (str pattern : List Char) (t : Nat) (h0 : 0 < pattern.length) :
    Occurs str pattern t ↔ Occ str pattern t := by
  unfold Occurs Occ
  rw [List.prefix_iff_eq_take]
  constructor
  · intro h
    have hlen : pattern.length ≤ (str.drop t).length := by
      have := congrArg List.length h
      rw [List.length_take] at this
      omega
    rw [List.length_drop] at hlen
    have hle : t + pattern.length ≤ str.length := by omega
    refine ⟨hle, fun k hk => ?_⟩
    rw [char_at_eq str (t + k) (by omega), char_at_eq pattern k hk]
    have h2 : pattern[k]? = (List.take pattern.length (List.drop t str))[k]? := by rw [← h]
    rw [List.getElem?_take_of_lt hk, List.getElem?_drop, List.getElem?_eq_getElem hk,
      List.getElem?_eq_getElem (by omega)] at h2
    injection h2 with h2
    exact h2.symm
  · rintro ⟨hle, hk⟩
    apply List.ext_getElem
    · rw [List.length_take, List.length_drop]
      omega
    · intro k h1 h2
      rw [List.getElem_take, List.getElem_drop]
      rw [← char_at_eq pattern k h1, ← char_at_eq str (t + k) (by omega)]
      exact (hk k h1).symm

/-- The pattern `"b"` occurs in a run of `n` letters `a` followed by one `b` at index `n`
only. -/
theorem occurs_run (n u : Nat) :
    Occurs (List.replicate n 'a' ++ ['b']) ['b'] u ↔ u = n := by
  rw [occurs_iff_occ _ _ _ (by decide)]
  unfold Occ
  simp only [List.length_append, List.length_replicate, List.length_singleton]
  constructor
  · rintro ⟨h1, h2⟩
    by_contra hne
    have hlt : u < n := by omega
    have h3 := h2 0 (by decide)
    rw [Nat.add_zero, char_at_eq _ _ (by simp; omega), List.getElem_append_left (by simpa using hlt),
      List.getElem_replicate] at h3
    revert h3
    decide
  · rintro rfl
    refine ⟨le_refl _, fun k hk => ?_⟩
    have : k = 0 := by omega
    subst this
    rw [Nat.add_zero, char_at_eq _ _ (by simp), List.getElem_append_right (by simp)]
    simp [char_at]

/-- The table of a pattern for which `strlen` gives `1`. -/
theorem build_next_one (pattern : List Char) (g : Nat → Nat) (fuel : Nat)
    (h : strlen pattern = 1) :
    build_next (fuel + 1) pattern (some g) = some (some (Function.update g 0 0)) := by
  unfold build_next
  simp only []
  rw [h, build_next_loop, if_neg (lt_irrefl 1)]
  rfl

/-- The search in a string whose length is `1` modulo `2 ^ 32` and that starts with an `a`
looks at that first character only: `strlen` is assigned to an `unsigned int`. -/
theorem kmp_length_mod (str : List Char) (g : Nat → Nat) (fuel : Nat)
    (h1 : str.length % UINT_RANGE = 1) (h2 : char_at str 0 = 'a') :
    kmp (fuel + 1 + 1) str ['b'] (some g) = some (-ESRCH) := by
  have hb : strlen ['b'] = 1 := by decide
  have hc : char_at ['b'] 0 = 'b' := by decide
  have hab : ('a' : Char) ≠ 'b' := by decide
  have h01 : (0 + 1) % UINT_RANGE = 1 := by decide
  have hs : strlen str = 1 := h1
  unfold kmp
  rw [build_next_one ['b'] g (fuel + 1) hb]
  simp only []
  rw [hs, hb, kmp_loop, if_pos Nat.zero_lt_one, h2, hc, if_neg hab, if_pos rfl, h01, kmp_loop,
    if_neg (lt_irrefl 1)]

/-- A string of more than `2 ^ 32` characters is searched in part only: the pattern `"b"`
occurs in the string of `2 ^ 32` letters `a` followed by one `b`, and `kmp` returns
`-ESRCH`. -/
theorem kmp_long_string :
    kmp 2 (List.replicate (2 ^ 32) 'a' ++ ['b']) ['b'] (some (fun _ => 0)) = some (-ESRCH) ∧
    Occurs (List.replicate (2 ^ 32) 'a' ++ ['b']) ['b'] (2 ^ 32) := by
  have h1 : (List.replicate (2 ^ 32) 'a' ++ ['b']).length % UINT_RANGE = 1 := by
    rw [List.length_append, List.length_replicate, List.length_singleton]
    decide
  have h2 : 0 < (List.replicate (2 ^ 32) 'a' ++ ['b']).length := by
    rw [List.length_append, List.length_replicate]
    decide
  have h3 : 0 < (List.replicate (2 ^ 32) 'a').length := by
    rw [List.length_replicate]
    decide
  have h4 : char_at (List.replicate (2 ^ 32) 'a' ++ ['b']) 0 = 'a' := by
    rw [char_at_eq _ _ h2, List.getElem_append_left h3, List.getElem_replicate]
  exact ⟨kmp_length_mod _ _ 0 h1 h4, (occurs_run (2 ^ 32) (2 ^ 32)).2 rfl⟩

/-- The search for a pattern whose length is `1` modulo `2 ^ 32` and that starts with an
`a` compares that first character only. -/
theorem kmp_pattern_mod (pattern : List Char) (g : Nat → Nat) (fuel : Nat)
    (h1 : pattern.length % UINT_RANGE = 1) (h2 : char_at pattern 0 = 'a') :
    kmp (fuel + 1 + 1) ['a'] pattern (some g) = some 0 := by
  have hp : strlen pattern = 1 := h1
  have ha : char_at ['a'] 0 = 'a' := by decide
  have hs : strlen ['a'] = 1 := by decide
  have h01 : (0 + 1) % UINT_RANGE = 1 := by decide
  have hv : to_int ((1 + UINT_RANGE - 1) % UINT_RANGE) = 0 := by decide
  unfold kmp
  rw [build_next_one pattern g (fuel + 1) hp]
  simp only []
  rw [hs, hp, kmp_loop, if_pos Nat.zero_lt_one, ha, h2, if_pos rfl, h01, if_pos rfl]
  exact congrArg some hv

/-- A pattern of more than `2 ^ 32` characters is compared in part only: the pattern of
`2 ^ 32` letters `a` followed by one `b` does not occur in the string `"a"`, and `kmp`
returns the index `0`. -/
theorem kmp_long_pattern :
    kmp 2 ['a'] (List.replicate (2 ^ 32) 'a' ++ ['b']) (some (fun _ => 0)) = some 0 ∧
    ∀ i, ¬ Occurs ['a'] (List.replicate (2 ^ 32) 'a' ++ ['b']) i := by
  have hlen : (List.replicate (2 ^ 32) 'a' ++ ['b']).length = 2 ^ 32 + 1 := by
    rw [List.length_append, List.length_replicate, List.length_singleton]
  have h1 : (List.replicate (2 ^ 32) 'a' ++ ['b']).length % UINT_RANGE = 1 := by
    rw [hlen]
    decide
  have h2 : 0 < (List.replicate (2 ^ 32) 'a' ++ ['b']).length := by
    rw [hlen]
    decide
  have h3 : 0 < (List.replicate (2 ^ 32) 'a').length := by
    rw [List.length_replicate]
    decide
  have hc : char_at (List.replicate (2 ^ 32) 'a' ++ ['b']) 0 = 'a' := by
    rw [char_at_eq _ _ h2, List.getElem_append_left h3, List.getElem_replicate]
  refine ⟨kmp_pattern_mod _ _ 0 h1 hc, fun i hocc => ?_⟩
  have h4 := hocc.length_le
  rw [hlen, List.length_drop] at h4
  have h5 : (['a'] : List Char).length = 1 := rfl
  have h6 : (2 : Nat) ^ 32 = 4294967296 := by decide
  omega

/-! ### The claims about `kmp/kmp.c` -/

end Kmp -- theorems

/-! ## Theorems about `lcs/main.c` -/

namespace Lcs

theorem sublist_snoc (l xs : List Char) (a : Char) :
    l.Sublist (xs ++ [a]) ↔ l.Sublist xs ∨ ∃ r, l = r ++ [a] ∧ r.Sublist xs := by
  rw [List.sublist_append_iff]
  constructor
  · rintro ⟨l1, l2, rfl, h1, h2⟩
    rcases List.sublist_cons_iff.1 h2 with h | ⟨r, rfl, h⟩
    · have : l2 = [] := List.eq_nil_of_sublist_nil h
      subst this
      left
      simpa using h1
    · have : r = [] := List.eq_nil_of_sublist_nil h
      subst this
      exact Or.inr ⟨l1, rfl, h1⟩
  · rintro (h | ⟨r, rfl, h⟩)
    · exact ⟨l, [], by simp, h, List.nil_sublist _⟩
    · exact ⟨r, [a], rfl, h, List.Sublist.refl _⟩

theorem lcs_nil_left (l2 : List Char) : IsLcsLength [] l2 0 :=
  ⟨⟨[], List.Sublist.refl _, List.nil_sublist _, rfl⟩, fun l h _ => by
    rw [List.eq_nil_of_sublist_nil h]; exact le_refl 0⟩

theorem lcs_nil_right (l1 : List Char) : IsLcsLength l1 [] 0 :=
  ⟨⟨[], List.nil_sublist _, List.Sublist.refl _, rfl⟩, fun l _ h => by
    rw [List.eq_nil_of_sublist_nil h]; exact le_refl 0⟩

theorem lcs_snoc_eq (l1 l2 : List Char) (a : Char) (n : Nat) (h : IsLcsLength l1 l2 n) :
    IsLcsLength (l1 ++ [a]) (l2 ++ [a]) (n + 1) := by
  obtain ⟨⟨l, h1, h2, h3⟩, hmax⟩ := h
  refine ⟨⟨l ++ [a], ?_, ?_, by simp [h3]⟩, ?_⟩
  · exact (sublist_snoc _ _ _).2 (Or.inr ⟨l, rfl, h1⟩)
  · exact (sublist_snoc _ _ _).2 (Or.inr ⟨l, rfl, h2⟩)
  · intro k hk1 hk2
    rcases (sublist_snoc _ _ _).1 hk1 with h | ⟨r, rfl, h⟩
    · rcases (sublist_snoc _ _ _).1 hk2 with g | ⟨r, rfl, g⟩
      · have := hmax k h g
        omega
      · have hr : r.Sublist l1 := (List.sublist_append_left r [a]).trans h
        have := hmax r hr g
        simp
        omega
    · rcases (sublist_snoc _ _ _).1 hk2 with g | ⟨r2, e, g⟩
      · have hr : r.Sublist l2 := (List.sublist_append_left r [a]).trans g
        have := hmax r h hr
        simp
        omega
      · have : r = r2 := List.append_cancel_right e
        subst this
        have := hmax r h g
        simp
        omega

theorem lcs_snoc_ne (l1 l2 : List Char) (a b : Char) (n1 n2 : Nat) (hab : a ≠ b)
    (h1 : IsLcsLength l1 (l2 ++ [b]) n1) (h2 : IsLcsLength (l1 ++ [a]) l2 n2) :
    IsLcsLength (l1 ++ [a]) (l2 ++ [b]) (if n1 ≤ n2 then n2 else n1) := by
  obtain ⟨⟨k1, a1, b1, c1⟩, m1⟩ := h1
  obtain ⟨⟨k2, a2, b2, c2⟩, m2⟩ := h2
  constructor
  · by_cases hle : n1 ≤ n2
    · refine ⟨k2, a2, b2.trans (List.sublist_append_left l2 [b]), ?_⟩
      rw [c2, if_pos hle]
    · refine ⟨k1, a1.trans (List.sublist_append_left l1 [a]), b1, ?_⟩
      rw [c1, if_neg hle]
  · intro k hk1 hk2
    rcases (sublist_snoc _ _ _).1 hk1 with h | ⟨r, rfl, h⟩
    · have := m1 k h hk2
      split_ifs <;> omega
    · rcases (sublist_snoc _ _ _).1 hk2 with g | ⟨r2, e, g⟩
      · have := m2 _ hk1 g
        split_ifs <;> omega
      · exfalso
        have := congrArg List.getLast? e
        simp at this
        exact hab this

theorem lcs_char_at_eq (s : List Char) (i : Nat) (h : i < s.length) : char_at s i = s[i] := by
  simp [char_at, List.getD_eq_getElem?_getD, List.getElem?_eq_getElem h]

theorem take_succ_char (s : List Char) (i : Nat) (h : i < s.length) :
    s.take (i + 1) = s.take i ++ [char_at s i] := by
  rw [lcs_char_at_eq s i h, List.take_succ, List.getElem?_eq_getElem h]
  rfl

theorem max_natCast (a b : Nat) :
    max (a : Int) (b : Int) = ((if a ≤ b then b else a : Nat) : Int) := by
  unfold max
  by_cases h : (a : Int) > b
  · rw [if_pos h]
    have : ¬ a ≤ b := by omega
    rw [if_neg this]
  · rw [if_neg h]
    have : a ≤ b := by omega
    rw [if_pos this]

/-- The table holds the lengths of the longest common subsequences of the prefixes. -/
theorem table_spec (s1 s2 : List Char) :
    ∀ i j, i ≤ s1.length → j ≤ s2.length →
      ∃ n : Nat, table s1 s2 i j = (n : Int) ∧ IsLcsLength (s1.take i) (s2.take j) n := by
  intro i
  induction i with
  | zero =>
    intro j _ _
    exact ⟨0, by rw [table]; rfl, by rw [List.take_zero]; exact lcs_nil_left _⟩
  | succ i ihi =>
    intro j
    induction j with
    | zero =>
      intro _ _
      exact ⟨0, by rw [table]; rfl, by rw [List.take_zero]; exact lcs_nil_right _⟩
    | succ j ihj =>
      intro hi hj
      rw [table, take_succ_char s1 i (by omega), take_succ_char s2 j (by omega)]
      by_cases hc : char_at s1 i = char_at s2 j
      · rw [if_pos hc]
        obtain ⟨n, e, hn⟩ := ihi j (by omega) (by omega)
        refine ⟨n + 1, by rw [e]; rfl, ?_⟩
        rw [← hc]
        exact lcs_snoc_eq _ _ _ _ hn
      · rw [if_neg hc]
        obtain ⟨n1, e1, hn1⟩ := ihi (j + 1) (by omega) hj
        obtain ⟨n2, e2, hn2⟩ := ihj hi (by omega)
        refine ⟨if n1 ≤ n2 then n2 else n1, by rw [e1, e2, max_natCast], ?_⟩
        rw [take_succ_char s2 j (by omega)] at hn1
        rw [take_succ_char s1 i (by omega)] at hn2
        exact lcs_snoc_ne _ _ _ _ _ _ hc hn1 hn2

theorem table_nonneg (s1 s2 : List Char) (i j : Nat) (hi : i ≤ s1.length)
    (hj : j ≤ s2.length) : 0 ≤ table s1 s2 i j := by
  obtain ⟨n, e, _⟩ := table_spec s1 s2 i j hi hj
  rw [e]
  exact Int.natCast_nonneg n

theorem fill_cell_other (s1 s2 : List Char) (i j : Nat) (dp : Nat → Int) (x y : Nat)
    (hj : j + 1 ≤ 63) (hy : y ≤ 63) (h : x ≠ i + 1 ∨ y ≠ j + 1) :
    dp_at (fill_cell s1 s2 i j dp) x y = dp_at dp x y := by
  unfold fill_cell dp_at
  rw [Function.update_noteq]
  omega

theorem fill_cell_same (s1 s2 : List Char) (i j : Nat) (dp : Nat → Int) :
    dp_at (fill_cell s1 s2 i j dp) (i + 1) (j + 1)
      = if char_at s1 i = char_at s2 j then dp_at dp i j + 1
        else max (dp_at dp i (j + 1)) (dp_at dp (i + 1) j) := by
  unfold fill_cell
  rw [dp_at, Function.update_same]

/-- The inner loop after `n` iterations. -/
theorem fill_row_steps (s1 s2 : List Char) (i : Nat) (dp : Nat → Int)
    (h63 : s2.length ≤ 63)
    (hrow : ∀ y, y ≤ s2.length → dp_at dp i y = table s1 s2 i y)
    (hcol : dp_at dp (i + 1) 0 = 0) :
    ∀ n, n ≤ s2.length →
      (∀ x y, x ≠ i + 1 → y ≤ 63 →
        dp_at ((List.range n).foldl (fun d j => fill_cell s1 s2 i j d) dp) x y
          = dp_at dp x y) ∧
      (∀ y, y ≤ n →
        dp_at ((List.range n).foldl (fun d j => fill_cell s1 s2 i j d) dp) (i + 1) y
          = table s1 s2 (i + 1) y) := by
  intro n
  induction n with
  | zero =>
    intro _
    refine ⟨fun x y _ _ => rfl, fun y hy => ?_⟩
    have : y = 0 := by omega
    subst this
    rw [List.range_zero, List.foldl_nil, hcol, table]
  | succ n ih =>
    intro hn
    obtain ⟨h1, h2⟩ := ih (by omega)
    rw [List.range_succ, List.foldl_append]
    simp only [List.foldl_cons, List.foldl_nil]
    constructor
    · intro x y hx hy
      rw [fill_cell_other _ _ _ _ _ _ _ (by omega) hy (Or.inl hx)]
      exact h1 x y hx hy
    · intro y hy
      by_cases hyn : y = n + 1
      · subst hyn
        rw [fill_cell_same, h1 i n (by omega) (by omega), h1 i (n + 1) (by omega) (by omega),
          h2 n (le_refl n), hrow n (by omega), hrow (n + 1) hn, table]
      · rw [fill_cell_other _ _ _ _ _ _ _ (by omega) (by omega) (Or.inr hyn)]
        exact h2 y (by omega)

/-- The outer loop after `m` iterations. -/
theorem fill_steps (s1 s2 : List Char) (h63 : s2.length ≤ 63) :
    ∀ m, m ≤ s1.length →
      (∀ x y, x ≤ m → y ≤ s2.length →
        dp_at ((List.range m).foldl (fun d i => fill_row s1 s2 i d) (fun _ => 0)) x y
          = table s1 s2 x y) ∧
      (∀ x y, m < x → y ≤ 63 →
        dp_at ((List.range m).foldl (fun d i => fill_row s1 s2 i d) (fun _ => 0)) x y
          = 0) := by
  intro m
  induction m with
  | zero =>
    intro _
    refine ⟨fun x y hx _ => ?_, fun x y _ _ => rfl⟩
    have : x = 0 := by omega
    subst this
    rw [List.range_zero, List.foldl_nil, table]
    rfl
  | succ m ih =>
    intro hm
    obtain ⟨h1, h2⟩ := ih (by omega)
    rw [List.range_succ, List.foldl_append]
    simp only [List.foldl_cons, List.foldl_nil]
    have hp := fill_row_steps s1 s2 m _ h63 (fun y hy => h1 m y (le_refl m) hy)
      (h2 (m + 1) 0 (by omega) (by omega)) s2.length (le_refl _)
    constructor
    · intro x y hx hy
      by_cases hxm : x = m + 1
      · subst hxm
        exact hp.2 y hy
      · exact (hp.1 x y hxm (by omega)).trans (h1 x y (by omega) hy)
    · intro x y hx hy
      exact (hp.1 x y (by omega) hy).trans (h2 x y (by omega) hy)

theorem fill_eq_table (s1 s2 : List Char) (h63 : s2.length ≤ 63) (x y : Nat)
    (hx : x ≤ s1.length) (hy : y ≤ s2.length) :
    dp_at (fill s1 s2) x y = table s1 s2 x y :=
  (fill_steps s1 s2 h63 s1.length (le_refl _)).1 x y hx hy

theorem drop_pred_char (s : List Char) (i : Nat) (h0 : 1 ≤ i) (h : i ≤ s.length) :
    s.drop (i - 1) = char_at s (i - 1) :: s.drop i := by
  obtain ⟨k, rfl⟩ : ∃ k, i = k + 1 := ⟨i - 1, by omega⟩
  rw [Nat.add_sub_cancel, lcs_char_at_eq s k (by omega)]
  exact List.drop_eq_getElem_cons (by omega)

theorem holds_update (seq : Nat → Char) (n : Nat) (tail : List Char) (c : Char)
    (hn : 1 ≤ n) (h : Holds seq n tail) :
    Holds (Function.update seq (n - 1) c) (n - 1) (c :: tail) := by
  intro k
  by_cases hk : k = n - 1
  · subst hk
    simp
  · rw [Function.update_noteq hk, h k]
    by_cases hnk : n ≤ k
    · have h1 : n - 1 ≤ k := by omega
      rw [if_pos hnk, if_pos h1]
      have : k - (n - 1) = (k - n) + 1 := by omega
      rw [this, List.getD_cons_succ]
    · have h1 : ¬ n - 1 ≤ k := by omega
      rw [if_neg hnk, if_neg h1]

theorem trace_back_spec (s1 s2 : List Char) (h63 : s2.length ≤ 63) :
    ∀ fuel (i1 j1 n : Nat) (tail : List Char) (seq : Nat → Char),
      i1 ≤ s1.length → j1 ≤ s2.length → table s1 s2 i1 j1 = (n : Int) →
      tail.Sublist (s1.drop i1) → tail.Sublist (s2.drop j1) → Holds seq n tail →
      i1 + j1 + 1 ≤ fuel →
      ∃ seq1 res, trace_back s1 s2 (fill s1 s2) fuel ((i1 : Int) - 1) ((j1 : Int) - 1)
          (n : Int) seq = Except.ok seq1 ∧
        res.length = n + tail.length ∧ res.Sublist s1 ∧ res.Sublist s2 ∧
        Holds seq1 0 res := by
  intro fuel
  induction fuel with
  | zero =>
    intro i1 j1 n tail seq _ _ _ _ _ _ hf
    omega
  | succ fuel ih =>
    intro i1 j1 n tail seq hi hj hn ht1 ht2 hseq hf
    have hdone : n = 0 → ∃ seq1 res,
        (Except.ok seq : Except Fault (Nat → Char)) = Except.ok seq1 ∧
        res.length = n + tail.length ∧ res.Sublist s1 ∧ res.Sublist s2 ∧
        Holds seq1 0 res := by
      intro h0
      subst h0
      exact ⟨seq, tail, rfl, by simp, ht1.trans (List.drop_sublist _ _),
        ht2.trans (List.drop_sublist _ _), hseq⟩
    rw [trace_back]
    by_cases hcond : (i1 : Int) - 1 ≥ 0 ∧ (j1 : Int) - 1 ≥ 0 ∧ (n : Int) > 0
    · rw [if_pos hcond]
      obtain ⟨hi0, hj0, hn0⟩ := hcond
      have hi1 : ((i1 : Int) - 1 + 1).toNat = i1 := by omega
      have hj1 : ((j1 : Int) - 1 + 1).toNat = j1 := by omega
      have hi2 : ((i1 : Int) - 1).toNat = i1 - 1 := by omega
      have hj2 : ((j1 : Int) - 1).toNat = j1 - 1 := by omega
      have hn2 : ((n : Int) - 1).toNat = n - 1 := by omega
      have hic : (i1 : Int) - 1 - 1 = ((i1 - 1 : Nat) : Int) - 1 := by omega
      have hjc : (j1 : Int) - 1 - 1 = ((j1 - 1 : Nat) : Int) - 1 := by omega
      have hnc : (n : Int) - 1 = ((n - 1 : Nat) : Int) := by omega
      rw [hi1, hj1, hi2, hj2, hn2, fill_eq_table s1 s2 h63 i1 j1 hi hj,
        fill_eq_table s1 s2 h63 (i1 - 1) (j1 - 1) (by omega) (by omega),
        fill_eq_table s1 s2 h63 (i1 - 1) j1 (by omega) hj]
      have hne : ¬ table s1 s2 i1 j1 = 0 := by rw [hn]; omega
      rw [if_neg hne]
      have hrec : table s1 s2 i1 j1
          = if char_at s1 (i1 - 1) = char_at s2 (j1 - 1) then
              table s1 s2 (i1 - 1) (j1 - 1) + 1
            else max (table s1 s2 (i1 - 1) j1) (table s1 s2 i1 (j1 - 1)) := by
        have e1 : i1 = (i1 - 1) + 1 := by omega
        have e2 : j1 = (j1 - 1) + 1 := by omega
        conv_lhs => rw [e1, e2, table]
        rw [← e1, ← e2]
      by_cases hc : char_at s1 (i1 - 1) = char_at s2 (j1 - 1)
      · rw [if_pos hc] at hrec
        rw [if_pos hc, if_pos hrec, hic, hjc, hnc]
        have hn1 : table s1 s2 (i1 - 1) (j1 - 1) = ((n - 1 : Nat) : Int) := by
          rw [hrec] at hn
          omega
        obtain ⟨seq1, res, h1, h2, h3, h4, h5⟩ := ih (i1 - 1) (j1 - 1) (n - 1)
          (char_at s1 (i1 - 1) :: tail) (Function.update seq (n - 1) (char_at s1 (i1 - 1)))
          (by omega) (by omega) hn1
          (by rw [drop_pred_char s1 i1 (by omega) hi]; exact ht1.cons₂ _)
          (by rw [drop_pred_char s2 j1 (by omega) hj, hc]; exact ht2.cons₂ _)
          (holds_update seq n tail _ (by omega) hseq) (by omega)
        refine ⟨seq1, res, h1, ?_, h3, h4, h5⟩
        rw [h2, List.length_cons]
        omega
      · rw [if_neg hc] at hrec
        rw [if_neg hc]
        by_cases hup : table s1 s2 (i1 - 1) j1 = table s1 s2 i1 j1
        · rw [if_pos hup, hic]
          exact ih (i1 - 1) j1 n tail seq (by omega) hj (hup.trans hn)
            (ht1.trans (by
              rw [drop_pred_char s1 i1 (by omega) hi]
              exact List.sublist_cons_self _ _))
            ht2 hseq (by omega)
        · rw [if_neg hup, hjc]
          have hleft : table s1 s2 i1 (j1 - 1) = table s1 s2 i1 j1 := by
            rw [hrec]
            unfold max
            split_ifs with hgt
            · exact absurd hrec.symm (by
                intro e
                rw [max, if_pos hgt] at e
                exact hup e)
            · rfl
          exact ih i1 (j1 - 1) n tail seq hi (by omega) (hleft.trans hn) ht1
            (ht2.trans (by
              rw [drop_pred_char s2 j1 (by omega) hj]
              exact List.sublist_cons_self _ _))
            hseq (by omega)
    · rw [if_neg hcond]
      apply hdone
      by_contra hn0
      have hpos : (n : Int) > 0 := by omega
      have : i1 = 0 ∨ j1 = 0 := by
        by_contra hboth
        apply hcond
        omega
      rcases this with h | h
      · subst h
        rw [table] at hn
        omega
      · subst h
        cases i1 with
        | zero => rw [table] at hn; omega
        | succ i => rw [table] at hn; omega

theorem c_string_holds (seq : Nat → Char) (res : List Char) (cap : Nat)
    (h : Holds seq 0 res) (hlen : res.length < cap) (hz : Char.ofNat 0 ∉ res) :
    c_string seq cap = res := by
  have hmap : (List.range cap).map seq
      = res ++ List.replicate (cap - res.length) (Char.ofNat 0) := by
    apply List.ext_getElem
    · simp
      omega
    · intro k hk1 hk2
      rw [List.getElem_map, List.getElem_range, h k, if_pos (Nat.zero_le k), Nat.sub_zero]
      by_cases hk : k < res.length
      · rw [List.getElem_append_left hk, List.getD_eq_getElem?_getD,
          List.getElem?_eq_getElem hk]
        rfl
      · rw [List.getElem_append_right (by omega), List.getElem_replicate,
          List.getD_eq_getElem?_getD, List.getElem?_eq_none (by omega)]
        rfl
  unfold c_string
  rw [hmap, List.takeWhile_append_of_pos]
  · have hpos : cap - res.length = (cap - res.length - 1) + 1 := by omega
    rw [hpos, List.replicate_succ, List.takeWhile_cons_of_neg (by simp), List.append_nil]
  · intro c hc
    have : c ≠ Char.ofNat 0 := fun e => hz (e ▸ hc)
    simpa using this

/-! ### The claims about `lcs/main.c` -/

/-- C30. `lcsequence` computes a longest common subsequence: for all C strings `s1` and `s2`
of at most 63 characters, the loop of lines 67-84 ends (a fuel of the two lengths plus one
suffices) without failing the assertion of line 72, the printed `maxlen` is the length of a
longest common subsequence of `s1` and `s2`, and the printed string `seq` has exactly
`maxlen` characters and is a subsequence of both `s1` and `s2`. -/
theorem lcsequence_correct (s1 s2 : List Char) (fuel : Nat) (h1 : s1.length ≤ 63)
    (h2 : s2.length ≤ 63) (hz : Char.ofNat 0 ∉ s1) (hf : s1.length + s2.length + 1 ≤ fuel) :
    ∃ (maxlen : Nat) (seq : List Char),
      lcsequence fuel s1 s2 = Except.ok ((maxlen : Int), seq) ∧
      IsLcsLength s1 s2 maxlen ∧ seq.length = maxlen ∧ seq.Sublist s1 ∧ seq.Sublist s2 := by
  obtain ⟨n, hn, hlcs⟩ := table_spec s1 s2 s1.length s2.length (le_refl _) (le_refl _)
  rw [List.take_length, List.take_length] at hlcs
  have hfill := fill_eq_table s1 s2 h2 s1.length s2.length (le_refl _) (le_refl _)
  have hholds : Holds (fun _ => Char.ofNat 0) n [] := by
    intro k
    simp
  obtain ⟨seq1, res, e1, e2, e3, e4, e5⟩ := trace_back_spec s1 s2 h2 fuel s1.length s2.length n
    [] (fun _ => Char.ofNat 0) (le_refl _) (le_refl _) hn (List.nil_sublist _)
    (List.nil_sublist _) hholds hf
  have hlen : res.length = n := by simpa using e2
  have hle : res.length ≤ s1.length := e3.length_le
  have hcs := c_string_holds seq1 res 64 e5 (by omega) (fun hmem => hz (e3.subset hmem))
  refine ⟨n, res, ?_, hlcs, hlen, e3, e4⟩
  simp only [lcsequence, hfill, hn, e1, hcs]

theorem lcsequence_correct_witness :
    lcsequence 20 ['A', 'G', 'C', 'A', 'T'] ['G', 'A', 'C'] = Except.ok (2, ['A', 'C']) ∧
    ∃ (maxlen : Nat) (seq : List Char),
      lcsequence 20 ['A', 'G', 'C', 'A', 'T'] ['G', 'A', 'C']
        = Except.ok ((maxlen : Int), seq) ∧
      IsLcsLength ['A', 'G', 'C', 'A', 'T'] ['G', 'A', 'C'] maxlen ∧ seq.length = maxlen :=
  let ⟨m, seq, h1, h2, h3, _⟩ := lcsequence_correct ['A', 'G', 'C', 'A', 'T'] ['G', 'A', 'C']
    20 (by decide) (by decide) (by decide) (by decide)
  ⟨rfl, m, seq, h1, h2, h3⟩

end Lcs -- theorems

/-! ## Theorems about `circular_suffix_array/main.c` -/

namespace Csa

theorem get_set (a : List Int) (x z : Nat) (v : Int) (hx : x < a.length) :
    get (a.set x v) z = if z = x then v else get a z := by
  unfold get
  rw [List.getD_eq_getElem?_getD, List.getD_eq_getElem?_getD, List.getElem?_set]
  by_cases h : z = x
  · subst h
    simp [hx]
  · have h2 : ¬ x = z := fun e => h e.symm
    simp [h, h2]

theorem get_exch (a : List Int) (x y z : Nat) (hx : x < a.length) (hy : y < a.length) :
    get (exch a x y) z = get a (Equiv.swap x y z) := by
  unfold exch
  rw [get_set _ _ _ _ (by rw [List.length_set]; exact hy), get_set _ _ _ _ hx]
  by_cases hzy : z = y
  · subst hzy
    rw [if_pos rfl, Equiv.swap_apply_right]
  · rw [if_neg hzy]
    by_cases hzx : z = x
    · subst hzx
      rw [if_pos rfl, Equiv.swap_apply_left]
    · rw [if_neg hzx, Equiv.swap_apply_of_ne_of_ne hzx hzy]

theorem length_exch (a : List Int) (x y : Nat) : (exch a x y).length = a.length := by
  simp [exch]

theorem arrPerm_refl (a : List Int) (lo hi : Nat) : ArrPerm a a lo hi :=
  ⟨rfl, Equiv.refl Nat, fun _ _ => rfl, fun _ => rfl⟩

theorem arrPerm_trans (c b a : List Int) (lo1 hi1 lo hi : Nat) (h1 : ArrPerm c b lo1 hi1)
    (h2 : ArrPerm b a lo hi) (hlo : lo ≤ lo1) (hhi : hi1 ≤ hi) : ArrPerm c a lo hi := by
  obtain ⟨l1, σ1, f1, g1⟩ := h1
  obtain ⟨l2, σ2, f2, g2⟩ := h2
  refine ⟨l1.trans l2, σ1.trans σ2, fun x hx => ?_, fun x => ?_⟩
  · rw [Equiv.trans_apply, f1 x (by omega), f2 x hx]
  · rw [Equiv.trans_apply, g1 x, g2 (σ1 x)]

theorem arrPerm_exch (a : List Int) (lo hi x y : Nat) (hx1 : lo ≤ x) (hx2 : x < hi)
    (hy1 : lo ≤ y) (hy2 : y < hi) (hhi : hi ≤ a.length) : ArrPerm (exch a x y) a lo hi := by
  refine ⟨length_exch a x y, Equiv.swap x y, fun z hz => ?_,
    fun z => get_exch a x y z (by omega) (by omega)⟩
  apply Equiv.swap_apply_of_ne_of_ne <;> omega

/-- A rearrangement of the range maps the range to itself. -/
theorem perm_maps_range (σ : Equiv.Perm Nat) (lo hi : Nat)
    (hfix : ∀ x, x < lo ∨ hi ≤ x → σ x = x) (x : Nat) (h1 : lo ≤ x) (h2 : x < hi) :
    lo ≤ σ x ∧ σ x < hi := by
  by_contra hout
  have h3 : σ x < lo ∨ hi ≤ σ x := by omega
  have h4 := hfix (σ x) h3
  have h5 := σ.injective h4
  omega

/-- A property of all elements of the range is kept by a rearrangement. -/
theorem arrPerm_forall (b a : List Int) (lo hi : Nat) (h : ArrPerm b a lo hi)
    (P : Int → Prop) (lo1 hi1 : Nat) (hlo : lo1 ≤ lo) (hhi : hi ≤ hi1)
    (ha : ∀ x, lo1 ≤ x → x < hi1 → P (get a x)) :
    ∀ x, lo1 ≤ x → x < hi1 → P (get b x) := by
  obtain ⟨_, σ, f, g⟩ := h
  intro x h1 h2
  rw [g x]
  by_cases hin : lo ≤ x ∧ x < hi
  · have := perm_maps_range σ lo hi f x hin.1 hin.2
    exact ha _ (by omega) (by omega)
  · rw [f x (by omega)]
    exact ha x h1 h2

theorem arrPerm_outside (b a : List Int) (lo hi : Nat) (h : ArrPerm b a lo hi) (x : Nat)
    (hx : x < lo ∨ hi ≤ x) : get b x = get a x := by
  obtain ⟨_, σ, f, g⟩ := h
  rw [g x, f x hx]

theorem get_exch_left (a : List Int) (x y : Nat) (hx : x < a.length) (hy : y < a.length) :
    get (exch a x y) x = get a y := by
  rw [get_exch a x y x hx hy, Equiv.swap_apply_left]

theorem get_exch_right (a : List Int) (x y : Nat) (hx : x < a.length) (hy : y < a.length) :
    get (exch a x y) y = get a x := by
  rw [get_exch a x y y hx hy, Equiv.swap_apply_right]

theorem get_exch_other (a : List Int) (x y z : Nat) (hx : x < a.length) (hy : y < a.length)
    (h1 : z ≠ x) (h2 : z ≠ y) : get (exch a x y) z = get a z := by
  rw [get_exch a x y z hx hy, Equiv.swap_apply_of_ne_of_ne h1 h2]

theorem partition_loop_spec (char_at : Int → Int → Except Fault Int) (key : Int → Nat → Int)
    (len : Nat)
    (hkey : ∀ (s : Int) (d : Nat), 0 ≤ s → s < len → d < len →
      (∀ k, k < d → 0 ≤ key s k) → char_at s d = Except.ok (key s d))
    (sa0 : List Int) (lo hi d : Nat) (v : Int) (hd : d < len) (hlen : hi ≤ sa0.length)
    (hvalid : ∀ x, lo ≤ x → x < hi → 0 ≤ get sa0 x ∧ get sa0 x < len)
    (hnn : ∀ x, lo ≤ x → x < hi → ∀ k, k < d → 0 ≤ key (get sa0 x) k) :
    ∀ fuel sa lt gt i, PInv key sa0 sa lo hi d v lt gt i → gt + 2 ≤ fuel + i →
      ∃ sa1 lt1 gt1, partition_loop char_at d v fuel sa lt gt i = Except.ok (sa1, lt1, gt1) ∧
        PInv key sa0 sa1 lo hi d v lt1 gt1 (gt1 + 1) := by
  intro fuel
  induction fuel with
  | zero =>
    intro sa lt gt i hinv hf
    have := hinv.i_le
    omega
  | succ fuel ih =>
    intro sa lt gt i hinv hf
    have h1 := hinv.lo_le
    have h2 := hinv.lt_lt
    have h3 := hinv.i_le
    have h4 := hinv.gt_lt
    have hl : sa.length = sa0.length := hinv.perm.1
    rw [partition_loop]
    by_cases hi1 : i ≤ gt
    · rw [if_pos hi1]
      have hv := arrPerm_forall sa sa0 lo hi hinv.perm (fun s => 0 ≤ s ∧ s < len) lo hi
        (le_refl _) (le_refl _) hvalid i (by omega) (by omega)
      have hv2 := arrPerm_forall sa sa0 lo hi hinv.perm (fun s => ∀ k, k < d → 0 ≤ key s k)
        lo hi (le_refl _) (le_refl _) hnn i (by omega) (by omega)
      rw [hkey (get sa i) d hv.1 hv.2 hd hv2]
      simp only []
      by_cases hlt : key (get sa i) d < v
      · rw [if_pos hlt]
        apply ih
        · refine ⟨arrPerm_trans _ sa sa0 lo hi lo hi
            (arrPerm_exch sa lo hi lt i h1 (by omega) (by omega) (by omega) (by omega))
            hinv.perm (le_refl _) (le_refl _), by omega, by omega, by omega, h4, ?_, ?_, ?_⟩
          · intro x hx1 hx2
            by_cases hx : x = lt
            · subst hx
              rw [get_exch_left sa x i (by omega) (by omega)]
              exact hlt
            · rw [get_exch_other sa lt i x (by omega) (by omega) hx (by omega)]
              exact hinv.low x hx1 (by omega)
          · intro x hx1 hx2
            by_cases hx : x = i
            · subst hx
              rw [get_exch_right sa lt x (by omega) (by omega)]
              exact hinv.mid lt (le_refl _) h2
            · rw [get_exch_other sa lt i x (by omega) (by omega) (by omega) hx]
              exact hinv.mid x (by omega) (by omega)
          · intro x hx1 hx2
            rw [get_exch_other sa lt i x (by omega) (by omega) (by omega) (by omega)]
            exact hinv.high x hx1 hx2
        · omega
      · rw [if_neg hlt]
        by_cases hgt : key (get sa i) d > v
        · rw [if_pos hgt]
          apply ih
          · refine ⟨arrPerm_trans _ sa sa0 lo hi lo hi
              (arrPerm_exch sa lo hi i gt (by omega) (by omega) (by omega) (by omega)
                (by omega))
              hinv.perm (le_refl _) (le_refl _), h1, h2, by omega, by omega, ?_, ?_, ?_⟩
            · intro x hx1 hx2
              rw [get_exch_other sa i gt x (by omega) (by omega) (by omega) (by omega)]
              exact hinv.low x hx1 hx2
            · intro x hx1 hx2
              rw [get_exch_other sa i gt x (by omega) (by omega) (by omega) (by omega)]
              exact hinv.mid x hx1 hx2
            · intro x hx1 hx2
              by_cases hx : x = gt
              · subst hx
                rw [get_exch_right sa i x (by omega) (by omega)]
                exact hgt
              · rw [get_exch_other sa i gt x (by omega) (by omega) (by omega) hx]
                exact hinv.high x (by omega) hx2
          · omega
        · rw [if_neg hgt]
          apply ih
          · refine ⟨hinv.perm, h1, by omega, by omega, h4, hinv.low, ?_, hinv.high⟩
            intro x hx1 hx2
            by_cases hx : x = i
            · subst hx
              omega
            · exact hinv.mid x hx1 (by omega)
          · omega
    · rw [if_neg hi1]
      have : i = gt + 1 := by omega
      subst this
      exact ⟨sa, lt, gt, rfl, hinv⟩

theorem keyLe_of_prefix_lt (key : Int → Nat → Int) (len d : Nat) (p : Nat → Int) (a b : Int)
    (hd : d < len) (ha : ∀ k, k < d → key a k = p k) (hb : ∀ k, k < d → key b k = p k)
    (hlt : key a d < key b d) : KeyLe key len a b :=
  Or.inr ⟨d, hd, fun j hj => (ha j hj).trans (hb j hj).symm, hlt⟩

theorem sort_spec (char_at : Int → Int → Except Fault Int) (key : Int → Nat → Int)
    (len : Nat)
    (hkey : ∀ (s : Int) (d : Nat), 0 ≤ s → s < len → d < len →
      (∀ k, k < d → 0 ≤ key s k) → char_at s d = Except.ok (key s d))
    (hneg : ∀ (s : Int) (k j : Nat), key s k < 0 → k ≤ j → key s j = key s k) :
    ∀ fuel sa lo hi d (p : Nat → Int), lo ≤ hi → hi ≤ sa.length →
      (∀ x, lo ≤ x → x < hi → 0 ≤ get sa x ∧ get sa x < len) →
      (∀ x, lo ≤ x → x < hi → ∀ k, k < d → key (get sa x) k = p k) →
      (∀ k, k < d → 0 ≤ p k) →
      (len - d) + (hi - lo) + 1 ≤ fuel →
      ∃ sa1, sort char_at len fuel sa lo hi d = Except.ok sa1 ∧ ArrPerm sa1 sa lo hi ∧
        ∀ x y, lo ≤ x → x ≤ y → y < hi → KeyLe key len (get sa1 x) (get sa1 y) := by
  intro fuel
  induction fuel with
  | zero =>
    intro sa lo hi d p _ _ _ _ _ hf
    omega
  | succ fuel ih =>
    intro sa lo hi d p hlh hlen hvalid hpre hpos hf
    rw [sort]
    by_cases hd : d ≥ len
    · rw [if_pos hd]
      refine ⟨sa, rfl, arrPerm_refl sa lo hi, fun x y h1 h2 h3 => Or.inl fun k hk => ?_⟩
      rw [hpre x h1 (by omega) k (by omega), hpre y (by omega) h3 k (by omega)]
    · rw [if_neg hd]
      by_cases hsmall : hi ≤ lo + 1
      · rw [if_pos hsmall]
        refine ⟨sa, rfl, arrPerm_refl sa lo hi, fun x y h1 h2 h3 => Or.inl fun k _ => ?_⟩
        have : x = y := by omega
        rw [this]
      · rw [if_neg hsmall]
        have hdl : d < len := by omega
        have hv0 := hvalid lo (le_refl _) (by omega)
        have hnn : ∀ x, lo ≤ x → x < hi → ∀ k, k < d → 0 ≤ key (get sa x) k := by
          intro x h1 h2 k hk
          rw [hpre x h1 h2 k hk]
          exact hpos k hk
        rw [hkey (get sa lo) d hv0.1 hv0.2 hdl (hnn lo (le_refl _) (by omega))]
        simp only []
        have hinv0 : PInv key sa sa lo hi d (key (get sa lo) d) lo (hi - 1) (lo + 1) := by
          refine ⟨arrPerm_refl sa lo hi, le_refl _, by omega, by omega, by omega, ?_, ?_, ?_⟩
          · intro x h1 h2
            omega
          · intro x h1 h2
            have : x = lo := by omega
            rw [this]
          · intro x h1 h2
            omega
        obtain ⟨sa1, lt, gt, hp, hinv⟩ := partition_loop_spec char_at key len hkey sa lo hi d
          (key (get sa lo) d) hdl hlen hvalid hnn (fuel + 1) sa lo (hi - 1) (lo + 1) hinv0
          (by omega)
        rw [hp]
        simp only []
        have g1 := hinv.lo_le
        have g2 := hinv.lt_lt
        have g4 := hinv.gt_lt
        have hl1 : sa1.length = sa.length := hinv.perm.1
        have hvalid1 := arrPerm_forall sa1 sa lo hi hinv.perm (fun s => 0 ≤ s ∧ s < len) lo hi
          (le_refl _) (le_refl _) hvalid
        have hpre1 := arrPerm_forall sa1 sa lo hi hinv.perm
          (fun s => ∀ k, k < d → key s k = p k) lo hi (le_refl _) (le_refl _) hpre
        -- the left part
        obtain ⟨sa2, e2, hperm2, hsorted2⟩ := ih sa1 lo lt d p g1 (by omega)
          (fun x h1 h2 => hvalid1 x h1 (by omega)) (fun x h1 h2 => hpre1 x h1 (by omega))
          hpos (by omega)
        rw [e2]
        simp only []
        have hl2 : sa2.length = sa1.length := hperm2.1
        have hvalid2 := arrPerm_forall sa2 sa1 lo lt hperm2 (fun s => 0 ≤ s ∧ s < len) lo hi
          (le_refl _) (by omega) hvalid1
        have hpre2 := arrPerm_forall sa2 sa1 lo lt hperm2
          (fun s => ∀ k, k < d → key s k = p k) lo hi (le_refl _) (by omega) hpre1
        have hlow2 := arrPerm_forall sa2 sa1 lo lt hperm2
          (fun s => key s d < key (get sa lo) d) lo lt (le_refl _) (le_refl _) hinv.low
        have hmid2 : ∀ x, lt ≤ x → x < gt + 1 → key (get sa2 x) d = key (get sa lo) d := by
          intro x h1 h2
          rw [arrPerm_outside sa2 sa1 lo lt hperm2 x (by omega)]
          exact hinv.mid x h1 h2
        have hhigh2 : ∀ x, gt < x → x < hi → key (get sa lo) d < key (get sa2 x) d := by
          intro x h1 h2
          rw [arrPerm_outside sa2 sa1 lo lt hperm2 x (by omega)]
          exact hinv.high x h1 h2
        -- the middle part
        have hmiddle : ∃ sa3, (if key (get sa lo) d ≥ 0 then
              sort char_at len fuel sa2 lt (gt + 1) (d + 1)
            else Except.ok sa2) = Except.ok sa3 ∧ ArrPerm sa3 sa2 lt (gt + 1) ∧
            ∀ x y, lt ≤ x → x ≤ y → y < gt + 1 →
              KeyLe key len (get sa3 x) (get sa3 y) := by
          by_cases hv : key (get sa lo) d ≥ 0
          · rw [if_pos hv]
            apply ih sa2 lt (gt + 1) (d + 1)
              (fun k => if k = d then key (get sa lo) d else p k) (by omega) (by omega)
              (fun x h1 h2 => hvalid2 x (by omega) (by omega))
            · intro x h1 h2 k hk
              by_cases hkd : k = d
              · subst hkd
                rw [if_pos rfl]
                exact hmid2 x h1 h2
              · rw [if_neg hkd]
                exact hpre2 x (by omega) (by omega) k (by omega)
            · intro k hk
              by_cases hkd : k = d
              · rw [if_pos hkd]
                exact hv
              · rw [if_neg hkd]
                exact hpos k (by omega)
            · omega
          · rw [if_neg hv]
            refine ⟨sa2, rfl, arrPerm_refl sa2 _ _, fun x y h1 h2 h3 => Or.inl fun k hk => ?_⟩
            have hx := hmid2 x h1 (by omega)
            have hy := hmid2 y (by omega) h3
            by_cases hkd : k < d
            · rw [hpre2 x (by omega) (by omega) k hkd, hpre2 y (by omega) (by omega) k hkd]
            · rw [hneg (get sa2 x) d k (by omega) (by omega),
                hneg (get sa2 y) d k (by omega) (by omega), hx, hy]
        obtain ⟨sa3, e3, hperm3, hsorted3⟩ := hmiddle
        rw [e3]
        simp only []
        have hl3 : sa3.length = sa2.length := hperm3.1
        have hvalid3 := arrPerm_forall sa3 sa2 lt (gt + 1) hperm3 (fun s => 0 ≤ s ∧ s < len)
          lo hi (by omega) (by omega) hvalid2
        have hpre3 := arrPerm_forall sa3 sa2 lt (gt + 1) hperm3
          (fun s => ∀ k, k < d → key s k = p k) lo hi (by omega) (by omega) hpre2
        have hmid3 := arrPerm_forall sa3 sa2 lt (gt + 1) hperm3
          (fun s => key s d = key (get sa lo) d) lt (gt + 1) (le_refl _) (le_refl _) hmid2
        -- the right part
        obtain ⟨sa4, e4, hperm4, hsorted4⟩ := ih sa3 (gt + 1) hi d p (by omega) (by omega)
          (fun x h1 h2 => hvalid3 x (by omega) h2) (fun x h1 h2 => hpre3 x (by omega) h2)
          hpos (by omega)
        have hpre4 := arrPerm_forall sa4 sa3 (gt + 1) hi hperm4
          (fun s => ∀ k, k < d → key s k = p k) lo hi (by omega) (le_refl _) hpre3
        have hhigh3 : ∀ x, gt + 1 ≤ x → x < hi →
            key (get sa lo) d < key (get sa3 x) d := by
          intro x h1 h2
          rw [arrPerm_outside sa3 sa2 lt (gt + 1) hperm3 x (by omega)]
          exact hhigh2 x (by omega) h2
        have hhigh4 := arrPerm_forall sa4 sa3 (gt + 1) hi hperm4
          (fun s => key (get sa lo) d < key s d) (gt + 1) hi (le_refl _) (le_refl _) hhigh3
        have hget43 : ∀ x, x < gt + 1 → get sa4 x = get sa3 x :=
          fun x hx => arrPerm_outside sa4 sa3 (gt + 1) hi hperm4 x (by omega)
        have hget32 : ∀ x, x < lt → get sa3 x = get sa2 x :=
          fun x hx => arrPerm_outside sa3 sa2 lt (gt + 1) hperm3 x (by omega)
        refine ⟨sa4, e4, ?_, ?_⟩
        · exact arrPerm_trans sa4 sa3 sa (gt + 1) hi lo hi hperm4
            (arrPerm_trans sa3 sa2 sa lt (gt + 1) lo hi hperm3
              (arrPerm_trans sa2 sa1 sa lo lt lo hi hperm2 hinv.perm (le_refl _) (by omega))
              (by omega) (by omega))
            (by omega) (le_refl _)
        · intro x y h1 h2 h3
          by_cases hy1 : y < lt
          · rw [hget43 x (by omega), hget43 y (by omega), hget32 x (by omega), hget32 y hy1]
            exact hsorted2 x y h1 h2 hy1
          · by_cases hy2 : y < gt + 1
            · by_cases hx1 : x < lt
              · apply keyLe_of_prefix_lt key len d p _ _ hdl (hpre4 x h1 (by omega))
                  (hpre4 y (by omega) h3)
                rw [hget43 x (by omega), hget32 x hx1, hget43 y hy2,
                  hmid3 y (by omega) hy2]
                exact hlow2 x h1 hx1
              · rw [hget43 x (by omega), hget43 y hy2]
                exact hsorted3 x y (by omega) h2 hy2
            · by_cases hx2 : x < gt + 1
              · apply keyLe_of_prefix_lt key len d p _ _ hdl (hpre4 x h1 (by omega))
                  (hpre4 y (by omega) h3)
                have hyhigh := hhigh4 y (by omega) h3
                by_cases hx1 : x < lt
                · rw [hget43 x hx2, hget32 x hx1]
                  exact lt_trans (hlow2 x h1 hx1) hyhigh
                · rw [hget43 x hx2, hmid3 x (by omega) hx2]
                  exact hyhigh
              · exact hsorted4 x y (by omega) h2 h3

/-- The loop of line 183 after `n` iterations. -/
theorem init_loop_spec (g : List Int) :
    ∀ n, n ≤ g.length →
      ((List.range n).foldl (fun (a : List Int) (i : Nat) => a.set i (i : Int)) g).length
        = g.length ∧
      ∀ x, get ((List.range n).foldl (fun (a : List Int) (i : Nat) => a.set i (i : Int)) g) x
        = if x < n then (x : Int) else get g x := by
  intro n
  induction n with
  | zero =>
    intro _
    exact ⟨rfl, fun x => by simp⟩
  | succ n ih =>
    intro hn
    obtain ⟨h1, h2⟩ := ih (by omega)
    rw [List.range_succ, List.foldl_append]
    simp only [List.foldl_cons, List.foldl_nil]
    refine ⟨by rw [List.length_set, h1], fun x => ?_⟩
    rw [get_set _ _ _ _ (by omega), h2 x]
    by_cases hx : x = n
    · subst hx
      simp
    · rw [if_neg hx]
      by_cases hxn : x < n
      · rw [if_pos hxn, if_pos (by omega)]
      · rw [if_neg hxn, if_neg (by omega)]

theorem list_eq_map_get (a : List Int) : a = (List.range a.length).map (get a) := by
  apply List.ext_getElem
  · simp
  · intro k h1 h2
    rw [List.getElem_map, List.getElem_range]
    unfold get
    rw [List.getD_eq_getElem?_getD, List.getElem?_eq_getElem h1]
    rfl

theorem perm_range_map (σ : Equiv.Perm Nat) (n : Nat) (hfix : ∀ x, n ≤ x → σ x = x) :
    List.Perm ((List.range n).map σ) (List.range n) := by
  rw [List.perm_ext_iff_of_nodup ((List.nodup_range n).map σ.injective) (List.nodup_range n)]
  intro a
  rw [List.mem_map, List.mem_range]
  constructor
  · rintro ⟨x, hx, rfl⟩
    rw [List.mem_range] at hx
    exact (perm_maps_range σ 0 n (fun y hy => hfix y (by omega)) x (Nat.zero_le x) hx).2
  · intro ha
    refine ⟨σ.symm a, ?_, by simp⟩
    rw [List.mem_range]
    by_contra hge
    have := hfix (σ.symm a) (by omega)
    rw [Equiv.apply_symm_apply] at this
    omega

/-- An array that rearranges `0, ..., n - 1` is a permutation of these numbers. -/
theorem arrPerm_identity (sa sa0 : List Int) (n : Nat) (h : ArrPerm sa sa0 0 n)
    (hlen : sa0.length = n) (h0 : ∀ x, x < n → get sa0 x = (x : Int)) :
    List.Perm sa ((List.range n).map Int.ofNat) := by
  obtain ⟨hl, σ, f, g⟩ := h
  have e : sa = ((List.range n).map σ).map Int.ofNat := by
    rw [list_eq_map_get sa, hl, hlen, List.map_map]
    apply List.map_congr_left
    intro x hx
    rw [List.mem_range] at hx
    rw [g x, Function.comp_apply,
      h0 _ (perm_maps_range σ 0 n f x (Nat.zero_le x) hx).2]
    rfl
  rw [e]
  exact (perm_range_map σ n (fun x hx => f x (Or.inr hx))).map _

theorem quick3way_spec (char_at : Int → Int → Except Fault Int) (key : Int → Nat → Int)
    (len : Nat)
    (hkey : ∀ (s : Int) (d : Nat), 0 ≤ s → s < len → d < len →
      (∀ k, k < d → 0 ≤ key s k) → char_at s d = Except.ok (key s d))
    (hneg : ∀ (s : Int) (k j : Nat), key s k < 0 → k ≤ j → key s j = key s k)
    (g : List Int) (fuel : Nat) (hg : g.length = len) (hf : 2 * len + 1 ≤ fuel) :
    ∃ sa, quick3way char_at fuel len (some g) = Except.ok sa ∧
      List.Perm sa ((List.range len).map Int.ofNat) ∧
      (∀ x, x < len → 0 ≤ get sa x ∧ get sa x < len) ∧
      ∀ x y, x ≤ y → y < len → KeyLe key len (get sa x) (get sa y) := by
  obtain ⟨hl0, hget0⟩ := init_loop_spec g len (by omega)
  have hvalid : ∀ x, 0 ≤ x → x < len →
      0 ≤ get ((List.range len).foldl (fun (a : List Int) (i : Nat) => a.set i (i : Int)) g) x
      ∧ get ((List.range len).foldl (fun (a : List Int) (i : Nat) => a.set i (i : Int)) g) x
        < len := by
    intro x _ hx
    rw [hget0 x, if_pos hx]
    omega
  obtain ⟨sa, e, hperm, hsorted⟩ := sort_spec char_at key len hkey hneg fuel _ 0 len 0
    (fun _ => 0) (Nat.zero_le _) (by omega) hvalid
    (fun x _ _ k hk => absurd hk (Nat.not_lt_zero k))
    (fun k hk => absurd hk (Nat.not_lt_zero k)) (by omega)
  refine ⟨sa, e, ?_, ?_, fun x y h1 h2 => hsorted x y (Nat.zero_le _) h1 h2⟩
  · exact arrPerm_identity sa _ len hperm (by omega)
      (fun x hx => by rw [hget0 x, if_pos hx])
  · exact fun x hx => arrPerm_forall sa _ 0 len hperm (fun s => 0 ≤ s ∧ s < len) 0 len
      (le_refl _) (le_refl _) hvalid x (Nat.zero_le _) hx

theorem to_int_eq (x : Int) (h1 : 0 ≤ x) (h2 : x < 2 ^ 31) : to_int x = x := by
  have h31 : (2 : Int) ^ 31 = 2147483648 := by norm_num
  have h32 : (2 : Int) ^ 32 = 4294967296 := by norm_num
  unfold to_int
  rw [h31, h32] at *
  omega

theorem csa_char_at_eq (str : List Nat) (len : Nat) (hlen : len ≤ 2 ^ 30) (s : Int) (d : Nat)
    (h0 : 0 ≤ s) (h1 : s < len) (h2 : d < len) :
    csa_char_at str len s d = Except.ok (csa_key str len s d) := by
  have h30 : (2 : Nat) ^ 30 = 1073741824 := by norm_num
  have h31 : (2 : Int) ^ 31 = 2147483648 := by norm_num
  have e : to_int (s + d) = s + d := to_int_eq _ (by omega) (by omega)
  unfold csa_char_at csa_key
  rw [e, if_pos ⟨h1, by omega, by omega⟩]

theorem csa_key_nonneg (str : List Nat) (len : Nat) (s : Int) (k j : Nat)
    (h : csa_key str len s k < 0) (_ : k ≤ j) : csa_key str len s j = csa_key str len s k := by
  exfalso
  unfold csa_key byte_at at h
  omega

theorem rotation_getD (str : List Nat) (s k : Nat) (hs : s < str.length)
    (hk : k < str.length) :
    (rotation str s).getD k 0 = str.getD ((s + k) % str.length) 0 := by
  unfold rotation
  rw [List.getD_eq_getElem?_getD, List.getD_eq_getElem?_getD]
  by_cases h : s + k < str.length
  · rw [List.getElem?_append_left (by rw [List.length_drop]; omega), List.getElem?_drop,
      Nat.mod_eq_of_lt h]
  · have hm : (s + k) % str.length = s + k - str.length := by
      rw [Nat.mod_eq_sub_mod (by omega), Nat.mod_eq_of_lt (by omega)]
    rw [List.getElem?_append_right (by rw [List.length_drop]; omega), List.length_drop,
      List.getElem?_take_of_lt (by omega), hm]
    congr 2
    omega

theorem rotation_length (str : List Nat) (s : Nat) : (rotation str s).length = str.length := by
  unfold rotation
  rw [List.length_append, List.length_drop, List.length_take]
  omega

theorem lex_le_of_first_diff :
    ∀ (l1 l2 : List Nat), l1.length = l2.length →
      ((∀ k, k < l1.length → l1.getD k 0 = l2.getD k 0) ∨
        ∃ k, k < l1.length ∧ (∀ j, j < k → l1.getD j 0 = l2.getD j 0) ∧
          l1.getD k 0 < l2.getD k 0) →
      lex_le l1 l2 = true := by
  intro l1
  induction l1 with
  | nil => intro l2 _ _; rfl
  | cons a as ih =>
    intro l2 hlen h
    cases l2 with
    | nil => simp at hlen
    | cons b bs =>
      simp only [List.length_cons, Nat.add_right_cancel_iff] at hlen
      simp only [lex_le, Bool.or_eq_true, Bool.and_eq_true, decide_eq_true_eq]
      rcases h with h | ⟨k, hk, h1, h2⟩
      · right
        refine ⟨by simpa using h 0 (by simp), ih bs hlen (Or.inl fun k hk => ?_)⟩
        simpa using h (k + 1) (by simpa using hk)
      · cases k with
        | zero =>
          left
          simpa using h2
        | succ k =>
          right
          refine ⟨by simpa using h1 0 (by omega), ih bs hlen (Or.inr ⟨k, ?_, ?_, ?_⟩)⟩
          · simpa using hk
          · intro j hj
            simpa using h1 (j + 1) (by omega)
          · simpa using h2

theorem csa_key_rotation (str : List Nat) (s k : Nat) (hs : s < str.length)
    (hk : k < str.length) :
    csa_key str str.length (s : Int) k = (((rotation str s).getD k 0 : Nat) : Int) := by
  rw [rotation_getD str s k hs hk]
  unfold csa_key byte_at
  have : Int.emod ((s : Int) + (k : Int)) (str.length : Int)
      = (((s + k) % str.length : Nat) : Int) := by
    push_cast
    rfl
  rw [this, Int.toNat_ofNat]

theorem lex_le_of_keyLe (str : List Nat) (a b : Nat) (ha : a < str.length)
    (hb : b < str.length) (h : KeyLe (csa_key str str.length) str.length a b) :
    lex_le (rotation str a) (rotation str b) = true := by
  apply lex_le_of_first_diff
  · rw [rotation_length, rotation_length]
  · rw [rotation_length]
    rcases h with h | ⟨k, hk, h1, h2⟩
    · left
      intro k hk
      have := h k hk
      rw [csa_key_rotation str a k ha hk, csa_key_rotation str b k hb hk] at this
      exact_mod_cast this
    · right
      refine ⟨k, hk, fun j hj => ?_, ?_⟩
      · have := h1 j hj
        rw [csa_key_rotation str a j ha (by omega), csa_key_rotation str b j hb (by omega)]
          at this
        exact_mod_cast this
      · rw [csa_key_rotation str a k ha hk, csa_key_rotation str b k hb hk] at h2
        exact_mod_cast h2

theorem cnt_zero (P : Nat → Prop) [DecidablePred P] : cnt P 0 = 0 := by
  simp [cnt]

theorem cnt_succ (P : Nat → Prop) [DecidablePred P] (n : Nat) :
    cnt P (n + 1) = cnt P n + if P n then 1 else 0 := by
  unfold cnt
  rw [Finset.range_succ, Finset.filter_insert]
  by_cases h : P n
  · rw [if_pos h, if_pos h, Finset.card_insert_of_not_mem (by simp)]
  · rw [if_neg h, if_neg h, add_zero]

theorem cnt_le (P : Nat → Prop) [DecidablePred P] (n : Nat) : cnt P n ≤ n := by
  unfold cnt
  exact (Finset.card_filter_le _ _).trans (by rw [Finset.card_range])

theorem cnt_mono_right (P : Nat → Prop) [DecidablePred P] {m n : Nat} (h : m ≤ n) :
    cnt P m ≤ cnt P n := by
  unfold cnt
  apply Finset.card_le_card
  intro x hx
  rw [Finset.mem_filter, Finset.mem_range] at hx ⊢
  exact ⟨by omega, hx.2⟩

theorem cnt_lt_of_mem (P : Nat → Prop) [DecidablePred P] {t n : Nat} (ht : t < n) (hp : P t) :
    cnt P t < cnt P n := by
  have h1 : cnt P (t + 1) = cnt P t + 1 := by rw [cnt_succ, if_pos hp]
  have h2 := cnt_mono_right P (show t + 1 ≤ n by omega)
  omega

theorem cnt_congr (P Q : Nat → Prop) [DecidablePred P] [DecidablePred Q] (n : Nat)
    (h : ∀ i, i < n → (P i ↔ Q i)) : cnt P n = cnt Q n := by
  unfold cnt
  congr 1
  apply Finset.filter_congr
  intro i hi
  exact h i (Finset.mem_range.1 hi)

theorem cnt_false (P : Nat → Prop) [DecidablePred P] (n : Nat) (h : ∀ i, i < n → ¬ P i) :
    cnt P n = 0 := by
  unfold cnt
  rw [Finset.card_eq_zero, Finset.filter_eq_empty_iff]
  intro i hi
  exact h i (Finset.mem_range.1 hi)

/-- The elements with a key below `j + 1` are those with a key below `j` and those with the
key `j`. -/
theorem cnt_lt_succ (key : Nat → Nat) (n j : Nat) :
    cnt (fun i => key i < j + 1) n = cnt (fun i => key i < j) n + cnt (fun i => key i = j) n := by
  induction n with
  | zero => simp [cnt_zero]
  | succ n ih =>
    rw [cnt_succ, cnt_succ, cnt_succ, ih]
    by_cases h1 : key n < j
    · rw [if_pos h1, if_pos (by omega), if_neg (by omega)]
      omega
    · by_cases h2 : key n = j
      · rw [if_neg h1, if_pos h2, if_pos (by omega)]
        omega
      · rw [if_neg h1, if_neg h2, if_neg (by omega)]
        omega

theorem cnt_lt_mono (key : Nat → Nat) (n : Nat) {a b : Nat} (h : a ≤ b) :
    cnt (fun i => key i < a) n ≤ cnt (fun i => key i < b) n := by
  unfold cnt
  apply Finset.card_le_card
  intro x hx
  rw [Finset.mem_filter] at hx ⊢
  exact ⟨hx.1, by omega⟩

theorem cnt_lt_add_eq_le (key : Nat → Nat) (n j : Nat) :
    cnt (fun i => key i < j) n + cnt (fun i => key i = j) n ≤ n := by
  rw [← cnt_lt_succ]
  exact cnt_le _ _

theorem pos_lt (key : Nat → Nat) (n t : Nat) (ht : t < n) : pos key n t < n := by
  have h1 := cnt_lt_of_mem (fun u => key u = key t) ht rfl
  have h2 := cnt_lt_add_eq_le key n (key t)
  unfold pos
  omega

theorem pos_lt_of_key_lt (key : Nat → Nat) (n t u : Nat) (ht : t < n)
    (h : key t < key u) : pos key n t < pos key n u := by
  have h1 := cnt_lt_of_mem (fun u => key u = key t) ht rfl
  have h2 := cnt_lt_succ key n (key t)
  have h3 := cnt_lt_mono key n (show key t + 1 ≤ key u by omega)
  unfold pos
  omega

theorem pos_lt_of_key_eq (key : Nat → Nat) (n t u : Nat) (htu : t < u)
    (h : key t = key u) : pos key n t < pos key n u := by
  have h1 := cnt_lt_of_mem (fun v => key v = key t) htu rfl
  unfold pos
  rw [← h]
  omega

/-- The order of the places is the order of the keys, then of the indices. -/
theorem pos_lt_iff (key : Nat → Nat) (n t u : Nat) (ht : t < n) (hu : u < n) :
    pos key n t < pos key n u ↔ key t < key u ∨ (key t = key u ∧ t < u) := by
  constructor
  · intro h
    rcases Nat.lt_trichotomy (key t) (key u) with h1 | h1 | h1
    · exact Or.inl h1
    · rcases Nat.lt_trichotomy t u with h2 | h2 | h2
      · exact Or.inr ⟨h1, h2⟩
      · subst h2
        omega
      · have := pos_lt_of_key_eq key n u t h2 h1.symm
        omega
    · have := pos_lt_of_key_lt key n u t hu h1
      omega
  · rintro (h | ⟨h1, h2⟩)
    · exact pos_lt_of_key_lt key n t u ht h
    · exact pos_lt_of_key_eq key n t u h2 h1

theorem pos_inj (key : Nat → Nat) (n t u : Nat) (ht : t < n) (hu : u < n)
    (h : pos key n t = pos key n u) : t = u := by
  rcases Nat.lt_trichotomy t u with h2 | h2 | h2
  · rcases Nat.lt_trichotomy (key t) (key u) with h1 | h1 | h1
    · have := pos_lt_of_key_lt key n t u ht h1
      omega
    · have := pos_lt_of_key_eq key n t u h2 h1
      omega
    · have := pos_lt_of_key_lt key n u t hu h1
      omega
  · exact h2
  · rcases Nat.lt_trichotomy (key t) (key u) with h1 | h1 | h1
    · have := pos_lt_of_key_lt key n t u ht h1
      omega
    · have := pos_lt_of_key_eq key n u t h2 h1.symm
      omega
    · have := pos_lt_of_key_lt key n u t hu h1
      omega

/-- Every place below `n` is the place of one element. -/
theorem pos_surj (key : Nat → Nat) (n p : Nat) (hp : p < n) :
    ∃ t, t < n ∧ pos key n t = p := by
  have hinj : Set.InjOn (pos key n) (Finset.range n : Set Nat) := by
    intro a ha b hb hab
    simp only [Finset.coe_range, Set.mem_Iio] at ha hb
    exact pos_inj key n a b ha hb hab
  have himg : (Finset.range n).image (pos key n) = Finset.range n := by
    apply Finset.eq_of_subset_of_card_le
    · intro x hx
      rw [Finset.mem_image] at hx
      obtain ⟨t, ht, rfl⟩ := hx
      rw [Finset.mem_range] at ht ⊢
      exact pos_lt key n t ht
    · rw [Finset.card_image_of_injOn hinj]
  have : p ∈ (Finset.range n).image (pos key n) := by
    rw [himg]
    exact Finset.mem_range.2 hp
  rw [Finset.mem_image] at this
  obtain ⟨t, ht, e⟩ := this
  exact ⟨t, Finset.mem_range.1 ht, e⟩

theorem length_incr (a : List Int) (i : Nat) : (incr a i).length = a.length := by
  simp [incr]

theorem get_incr (a : List Int) (i z : Nat) (hi : i < a.length) :
    get (incr a i) z = if z = i then get a i + 1 else get a z := by
  unfold incr
  exact get_set a i z _ hi

/-- A loop that counts: `count[idx i]++` for every `i` below `n`. -/
theorem count_loop_spec (idx : Nat → Nat) (c0 : List Int) :
    ∀ n, (∀ i, i < n → idx i < c0.length) →
      ((List.range n).foldl (fun (c : List Int) (i : Nat) => incr c (idx i)) c0).length
        = c0.length ∧
      ∀ j, get ((List.range n).foldl (fun (c : List Int) (i : Nat) => incr c (idx i)) c0) j
        = get c0 j + cnt (fun i => idx i = j) n := by
  intro n
  induction n with
  | zero =>
    intro _
    exact ⟨rfl, fun j => by simp [cnt_zero]⟩
  | succ n ih =>
    intro h
    obtain ⟨h1, h2⟩ := ih (fun i hi => h i (by omega))
    rw [List.range_succ, List.foldl_append]
    simp only [List.foldl_cons, List.foldl_nil]
    refine ⟨by rw [length_incr, h1], fun j => ?_⟩
    rw [get_incr _ _ _ (by rw [h1]; exact h n (by omega)), cnt_succ]
    by_cases hj : j = idx n
    · subst hj
      rw [if_pos rfl, if_pos rfl, h2]
      push_cast
      ring
    · rw [if_neg hj, if_neg (fun e => hj e.symm), h2]
      simp

/-- The loops `count[i+1] += count[i]`: the partial sums. -/
theorem prefix_sums_spec (c : List Int) :
    ∀ m, m < c.length →
      (prefix_sums c m).length = c.length ∧
      ∀ j, get (prefix_sums c m) j
        = if j ≤ m then ∑ t in Finset.range (j + 1), get c t else get c j := by
  intro m
  induction m with
  | zero =>
    intro _
    refine ⟨rfl, fun j => ?_⟩
    by_cases hj : j ≤ 0
    · have : j = 0 := by omega
      subst this
      simp [prefix_sums]
    · rw [if_neg hj]
      rfl
  | succ m ih =>
    intro hm
    obtain ⟨h1, h2⟩ := ih (by omega)
    have e : prefix_sums c (m + 1) = (prefix_sums c m).set (m + 1)
        (get (prefix_sums c m) (m + 1) + get (prefix_sums c m) m) := by
      unfold prefix_sums
      rw [List.range_succ, List.foldl_append]
      rfl
    rw [e]
    refine ⟨by rw [List.length_set, h1], fun j => ?_⟩
    rw [get_set _ _ _ _ (by rw [h1]; exact hm)]
    by_cases hj : j = m + 1
    · subst hj
      rw [if_pos rfl, if_pos (le_refl _), h2 (m + 1), h2 m, if_neg (by omega),
        if_pos (le_refl m), Finset.sum_range_succ _ (m + 1)]
      ring
    · rw [if_neg hj, h2 j]
      by_cases hjm : j ≤ m
      · rw [if_pos hjm, if_pos (by omega)]
      · rw [if_neg hjm, if_neg (by omega)]

/-- The first two loops of a counting sort: after them `count[j]` is the number of elements
with a key below `j`. -/
theorem counts_spec (key : Nat → Nat) (n m : Nat) (c0 : List Int) (hm : m < c0.length)
    (hkey : ∀ i, i < n → key i + 1 < c0.length) (hzero : ∀ j, j ≤ m → get c0 j = 0) :
    (prefix_sums ((List.range n).foldl (fun (c : List Int) (i : Nat) => incr c (key i + 1))
      c0) m).length = c0.length ∧
    ∀ j, j ≤ m →
      get (prefix_sums ((List.range n).foldl (fun (c : List Int) (i : Nat) =>
        incr c (key i + 1)) c0) m) j = cnt (fun i => key i < j) n := by
  obtain ⟨h1, h2⟩ := count_loop_spec (fun i => key i + 1) c0 n hkey
  obtain ⟨h3, h4⟩ := prefix_sums_spec _ m (by rw [h1]; exact hm)
  refine ⟨by rw [h3, h1], fun j hj => ?_⟩
  rw [h4 j, if_pos hj]
  induction j with
  | zero =>
    rw [Finset.sum_range_one, h2 0, hzero 0 (by omega), cnt_false _ _ (fun i _ => by omega),
      cnt_false _ _ (fun i _ => by omega)]
    simp
  | succ j ih =>
    rw [Finset.sum_range_succ, ih (by omega), h2 (j + 1), hzero (j + 1) hj, cnt_lt_succ,
      cnt_congr (fun i => key i + 1 = j + 1) (fun i => key i = j) n (fun i _ => by omega)]
    push_cast
    ring

/-- The last loop of a counting sort puts every element at its place. -/
theorem place_loop_spec (key : Nat → Nat) (val : Nat → Int) (n m : Nat) (sa0 c0 : List Int)
    (hsa : n ≤ sa0.length) (hm : m < c0.length) (hkey : ∀ u, u < n → key u ≤ m)
    (hc : ∀ j, j ≤ m → get c0 j = cnt (fun u => key u < j) n) :
    ∀ i, i ≤ n →
      ((List.range i).foldl (place_step key val) (sa0, c0)).1.length = sa0.length ∧
      ((List.range i).foldl (place_step key val) (sa0, c0)).2.length = c0.length ∧
      (∀ j, j ≤ m → get ((List.range i).foldl (place_step key val) (sa0, c0)).2 j
        = cnt (fun u => key u < j) n + cnt (fun u => key u = j) i) ∧
      (∀ t, t < i → get ((List.range i).foldl (place_step key val) (sa0, c0)).1 (pos key n t)
        = val t) ∧
      (∀ q, n ≤ q → get ((List.range i).foldl (place_step key val) (sa0, c0)).1 q
        = get sa0 q) := by
  intro i
  induction i with
  | zero =>
    intro _
    refine ⟨rfl, rfl, fun j hj => ?_, fun t ht => by omega, fun q _ => rfl⟩
    rw [List.range_zero, List.foldl_nil, hc j hj, cnt_zero]
    simp
  | succ i ih =>
    intro hi
    obtain ⟨h1, h2, h3, h4, h5⟩ := ih (by omega)
    rw [List.range_succ, List.foldl_append]
    simp only [List.foldl_cons, List.foldl_nil]
    have hk := hkey i (by omega)
    have hpos := pos_lt key n i (by omega)
    generalize (List.range i).foldl (place_step key val) (sa0, c0) = P at h1 h2 h3 h4 h5 ⊢
    have hget : (get P.2 (key i)).toNat = pos key n i := by
      rw [h3 _ hk]
      unfold pos
      exact_mod_cast Int.toNat_ofNat _
    simp only [place_step, hget]
    refine ⟨by rw [List.length_set, h1], by rw [length_incr, h2], fun j hj => ?_,
      fun t ht => ?_, fun q hq => ?_⟩
    · rw [get_incr _ _ _ (by omega), cnt_succ, h3 j hj]
      by_cases hjk : j = key i
      · subst hjk
        rw [if_pos rfl, if_pos rfl, h3 _ hk]
        push_cast
        ring
      · rw [if_neg hjk, if_neg (fun e => hjk e.symm)]
        simp
    · rw [get_set _ _ _ _ (by omega)]
      by_cases hti : t = i
      · subst hti
        rw [if_pos rfl]
      · rw [if_neg (fun e => hti (pos_inj key n t i (by omega) (by omega) e))]
        exact h4 t (by omega)
    · rw [get_set _ _ _ _ (by omega), if_neg (by omega)]
      exact h5 q hq

theorem pre_length (str : List Nat) (k a : Nat) :
    (pre str k a).length = min k (str.length - a) := by
  simp [pre]

theorem pre_double (str : List Nat) (k a : Nat) :
    pre str (k + k) a = pre str k a ++ pre str k (a + k) := by
  unfold pre
  rw [List.take_add, List.drop_drop]

theorem pre_take (str : List Nat) (k m a : Nat) (h : k ≤ m) :
    (pre str m a).take k = pre str k a := by
  unfold pre
  rw [List.take_take, min_eq_left h]

theorem pre_of_le (str : List Nat) (k a : Nat) (h : str.length ≤ a + k) :
    pre str k a = str.drop a := by
  unfold pre
  exact List.take_of_length_le (by rw [List.length_drop]; omega)

theorem pre_nil (str : List Nat) (k a : Nat) (h : str.length ≤ a) : pre str k a = [] := by
  unfold pre
  rw [List.drop_of_length_le h, List.take_nil]

/-- Two suffixes that differ in their first `k` characters compare as these do. -/
theorem lt_of_take_lt : ∀ (k : Nat) (u v : List Nat), u.take k < v.take k → u < v := by
  intro k
  induction k with
  | zero =>
    intro u v h
    exact absurd h (lt_irrefl _)
  | succ k ih =>
    intro u v h
    cases u with
    | nil =>
      cases v with
      | nil => exact absurd h (lt_irrefl _)
      | cons b bs => exact List.nil_lt_cons b bs
    | cons a as =>
      cases v with
      | nil => cases h
      | cons b bs =>
        simp only [List.take_succ_cons] at h
        cases h with
        | rel hab => exact List.Lex.rel hab
        | cons h1 => exact List.Lex.cons (ih as bs h1)

theorem nil_le_list (v : List Nat) : ([] : List Nat) ≤ v := by
  cases v with
  | nil => exact le_refl _
  | cons b bs => exact le_of_lt (List.nil_lt_cons b bs)

theorem append_le_append_left (u v1 v2 : List Nat) (h : v1 ≤ v2) : u ++ v1 ≤ u ++ v2 := by
  rcases lt_or_eq_of_le h with h1 | h1
  · exact le_of_lt (List.Lex.append_left _ h1 u)
  · rw [h1]

theorem pre_lt_double (str : List Nat) (k a b : Nat) (h : pre str k a < pre str k b) :
    pre str (k + k) a < pre str (k + k) b := by
  apply lt_of_take_lt k
  rw [pre_take str k (k + k) a (by omega), pre_take str k (k + k) b (by omega)]
  exact h

theorem suffix_lt_of_pre_lt (str : List Nat) (k a b : Nat) (h : pre str k a < pre str k b) :
    str.drop a < str.drop b :=
  lt_of_take_lt k _ _ h

/-- The order `lex_le` is the order of the lists. -/
theorem lex_le_iff : ∀ (u v : List Nat), lex_le u v = true ↔ u ≤ v := by
  intro u
  induction u with
  | nil =>
    intro v
    simp [lex_le, nil_le_list]
  | cons a as ih =>
    intro v
    cases v with
    | nil =>
      simp only [lex_le, Bool.false_eq_true, false_iff, not_le]
      exact List.nil_lt_cons a as
    | cons b bs =>
      simp only [lex_le, Bool.or_eq_true, Bool.and_eq_true, decide_eq_true_eq, ih bs]
      constructor
      · rintro (h | ⟨h1, h2⟩)
        · exact le_of_lt (List.Lex.rel h)
        · subst h1
          rcases lt_or_eq_of_le h2 with h3 | h3
          · exact le_of_lt (List.Lex.cons h3)
          · rw [h3]
      · intro h
        rcases lt_or_eq_of_le h with h1 | h1
        · cases h1 with
          | rel hab => exact Or.inl hab
          | cons h2 => exact Or.inr ⟨rfl, le_of_lt h2⟩
        · simp only [List.cons.injEq] at h1
          exact Or.inr ⟨h1.1, le_of_eq h1.2⟩

/-- Different suffixes of a string are different lists. -/
theorem suffix_ne (str : List Nat) (a b : Nat) (ha : a < str.length) (hb : b < str.length)
    (hab : a ≠ b) : str.drop a ≠ str.drop b := by
  intro h
  have := congrArg List.length h
  rw [List.length_drop, List.length_drop] at this
  omega

/-- A loop that updates the arrays `x` and `count` updates each on its own. -/
theorem foldl_x_count (fx fc : List Int → Nat → List Int) :
    ∀ (l : List Nat) (s : SaState),
      l.foldl (fun (s : SaState) (i : Nat) =>
        { s with x := fx s.x i, count := fc s.count i }) s
      = { s with x := l.foldl fx s.x, count := l.foldl fc s.count } := by
  intro l
  induction l with
  | nil => intro s; rfl
  | cons a l ih =>
    intro s
    rw [List.foldl_cons, ih]
    rfl

/-- The last loop of a counting sort on the arrays `sa` and `count` of the state. -/
theorem foldl_place (K : List Int → List Int → Nat → Nat)
    (V : List Int → List Int → Nat → Int) :
    ∀ (l : List Nat) (s : SaState),
      l.foldl (fun (s : SaState) (i : Nat) =>
        { s with sa := s.sa.set (get s.count (K s.x s.y i)).toNat (V s.x s.y i),
                 count := incr s.count (K s.x s.y i) }) s
      = { s with sa := (l.foldl (place_step (K s.x s.y) (V s.x s.y)) (s.sa, s.count)).1,
                 count := (l.foldl (place_step (K s.x s.y) (V s.x s.y)) (s.sa, s.count)).2 }
    := by
  intro l
  induction l with
  | nil => intro s; rfl
  | cons a l ih =>
    intro s
    rw [List.foldl_cons, ih]
    rfl

/-- A loop that writes `f i` to the element `i` for every `i` below `n`. -/
theorem set_loop_spec (f : Nat → Int) (g : List Int) :
    ∀ n, n ≤ g.length →
      ((List.range n).foldl (fun (a : List Int) (i : Nat) => a.set i (f i)) g).length
        = g.length ∧
      ∀ z, get ((List.range n).foldl (fun (a : List Int) (i : Nat) => a.set i (f i)) g) z
        = if z < n then f z else get g z := by
  intro n
  induction n with
  | zero =>
    intro _
    exact ⟨rfl, fun z => by simp⟩
  | succ n ih =>
    intro hn
    obtain ⟨h1, h2⟩ := ih (by omega)
    rw [List.range_succ, List.foldl_append]
    simp only [List.foldl_cons, List.foldl_nil]
    refine ⟨by rw [List.length_set, h1], fun z => ?_⟩
    rw [get_set _ _ _ _ (by omega), h2 z]
    by_cases hz : z = n
    · subst hz
      simp
    · rw [if_neg hz]
      by_cases hzn : z < n
      · rw [if_pos hzn, if_pos (by omega)]
      · rw [if_neg hzn, if_neg (by omega)]

theorem count_len_gt (len : Nat) : R < count_len len ∧ len < count_len len := by
  unfold count_len R
  split_ifs <;> omega

theorem byte_at_cast (str : List Nat) (i : Nat) : byte_at str (i : Int) = (byte str i : Int) := by
  unfold byte_at byte
  rw [Int.toNat_ofNat]

theorem byte_lt (str : List Nat) (hb : ∀ c ∈ str, c < 256) (i : Nat) : byte str i < 256 := by
  unfold byte
  rw [List.getD_eq_getElem?_getD]
  by_cases h : i < str.length
  · rw [List.getElem?_eq_getElem h]
    exact hb _ (List.getElem_mem _)
  · rw [List.getElem?_eq_none (by omega)]
    decide

/-- Lines 232-244: after the first counting sort `x` holds the characters and `sa` lists the
suffixes in the order of their first characters, those with the same one in the order of
their indices. -/
theorem sa_sort_init_spec (str : List Nat) (len : Nat) (s : SaState)
    (hb : ∀ c ∈ str, c < 256) (hsa : s.sa.length = len) (hx : s.x.length = len)
    (hc : s.count.length = count_len len) (hz : ∀ j, get s.count j = 0) :
    (sa_sort_init str len s).sa.length = len ∧ (sa_sort_init str len s).x.length = len ∧
    (sa_sort_init str len s).y = s.y ∧
    (sa_sort_init str len s).count.length = count_len len ∧
    (sa_sort_init str len s).r = 256 ∧
    (∀ i, i < len → get (sa_sort_init str len s).x i = byte str i) ∧
    (∀ t, t < len → get (sa_sort_init str len s).sa (pos (byte str) len t) = t) := by
  have hcl := count_len_gt len
  unfold R at hcl
  -- the first loop
  have e1 : (List.range len).foldl (fun (s : SaState) (i : Nat) =>
      { s with x := s.x.set i (byte_at str i)
               count := incr s.count (byte_at str i + 1).toNat }) s
      = { s with x := (List.range len).foldl
                   (fun (a : List Int) (i : Nat) => a.set i (byte str i : Int)) s.x,
                 count := (List.range len).foldl
                   (fun (c : List Int) (i : Nat) => incr c (byte str i + 1)) s.count } := by
    have h := foldl_x_count (fun x i => x.set i (byte_at str i))
      (fun c i => incr c (byte_at str i + 1).toNat) (List.range len) s
    simp only [byte_at_cast] at h
    exact h
  obtain ⟨hx1, hx2⟩ := set_loop_spec (fun i => (byte str i : Int)) s.x len (by omega)
  obtain ⟨hc1, hc2⟩ := counts_spec (byte str) len 256 s.count (by omega)
    (fun i _ => by have := byte_lt str hb i; omega) (fun j _ => hz j)
  -- the last loop
  have e3 : ∀ s2 : SaState, (List.range len).foldl (fun (s : SaState) (i : Nat) =>
      { s with sa := s.sa.set (get s.count (byte_at str i).toNat).toNat (i : Int)
               count := incr s.count (byte_at str i).toNat }) s2
      = { s2 with
          sa := ((List.range len).foldl (place_step (byte str) (fun i => (i : Int)))
            (s2.sa, s2.count)).1,
          count := ((List.range len).foldl (place_step (byte str) (fun i => (i : Int)))
            (s2.sa, s2.count)).2 } := by
    intro s2
    have h := foldl_place (fun _ _ i => (byte_at str i).toNat) (fun _ _ i => (i : Int))
      (List.range len) s2
    simp only [byte_at_cast, Int.toNat_ofNat] at h
    exact h
  obtain ⟨p1, p2, _, p4, _⟩ := place_loop_spec (byte str) (fun i => (i : Int)) len 256 s.sa
    (prefix_sums ((List.range len).foldl
      (fun (c : List Int) (i : Nat) => incr c (byte str i + 1)) s.count) 256)
    (by omega) (by rw [hc1]; omega) (fun u _ => by have := byte_lt str hb u; omega)
    (fun j hj => hc2 j hj) len (le_refl _)
  unfold sa_sort_init
  simp only [e1, e3, R]
  refine ⟨by rw [p1, hsa], by rw [hx1, hx], trivial, by rw [p2, hc1, hc], rfl, fun i hi => ?_,
    fun t ht => p4 t ht⟩
  rw [hx2 i, if_pos hi]

/-- A function that maps the numbers below `n` to different numbers below `n` reaches every
one of them. -/
theorem surj_of_inj (f : Nat → Nat) (n : Nat) (hr : ∀ a, a < n → f a < n)
    (hinj : ∀ a b, a < n → b < n → f a = f b → a = b) (v : Nat) (hv : v < n) :
    ∃ u, u < n ∧ f u = v := by
  have hinj2 : Set.InjOn f (Finset.range n : Set Nat) := by
    intro a ha b hb hab
    simp only [Finset.coe_range, Set.mem_Iio] at ha hb
    exact hinj a b ha hb hab
  have himg : (Finset.range n).image f = Finset.range n := by
    apply Finset.eq_of_subset_of_card_le
    · intro x hx
      rw [Finset.mem_image] at hx
      obtain ⟨t, ht, rfl⟩ := hx
      rw [Finset.mem_range] at ht ⊢
      exact hr t ht
    · rw [Finset.card_image_of_injOn hinj2]
  have : v ∈ (Finset.range n).image f := by
    rw [himg]
    exact Finset.mem_range.2 hv
  rw [Finset.mem_image] at this
  obtain ⟨t, ht, e⟩ := this
  exact ⟨t, Finset.mem_range.1 ht, e⟩

theorem cnt_add_not (P : Nat → Prop) [DecidablePred P] (n : Nat) :
    cnt P n + cnt (fun i => ¬ P i) n = n := by
  induction n with
  | zero => simp [cnt_zero]
  | succ n ih =>
    rw [cnt_succ, cnt_succ]
    by_cases h : P n
    · rw [if_pos h, if_neg (not_not.2 h)]
      omega
    · rw [if_neg h, if_pos h]
      omega

/-- Every number below the number of indices with `P` is the rank of one of them. -/
theorem cnt_surj (P : Nat → Prop) [DecidablePred P] (n q : Nat) (hq : q < cnt P n) :
    ∃ i, i < n ∧ P i ∧ cnt P i = q := by
  induction n with
  | zero =>
    rw [cnt_zero] at hq
    omega
  | succ n ih =>
    rw [cnt_succ] at hq
    by_cases hlt : q < cnt P n
    · obtain ⟨i, hi, hp, e⟩ := ih hlt
      exact ⟨i, by omega, hp, e⟩
    · by_cases h : P n
      · rw [if_pos h] at hq
        exact ⟨n, by omega, h, by omega⟩
      · rw [if_neg h] at hq
        omega

/-- A bijection of the numbers below `n` sends exactly `k` of them below `k`. -/
theorem cnt_lt_of_bij (f : Nat → Nat) (n k : Nat) (hk : k ≤ n) (hr : ∀ a, a < n → f a < n)
    (hinj : ∀ a b, a < n → b < n → f a = f b → a = b) :
    cnt (fun u => f u < k) n = k := by
  unfold cnt
  have hinj2 : Set.InjOn f ((Finset.range n).filter (fun u => f u < k) : Set Nat) := by
    intro a ha b hb hab
    simp only [Finset.coe_filter, Finset.mem_range, Set.mem_setOf_eq] at ha hb
    exact hinj a b ha.1 hb.1 hab
  have himg : ((Finset.range n).filter (fun u => f u < k)).image f = Finset.range k := by
    ext v
    simp only [Finset.mem_image, Finset.mem_filter, Finset.mem_range]
    constructor
    · rintro ⟨u, ⟨_, h2⟩, rfl⟩
      exact h2
    · intro hv
      obtain ⟨u, hu, e⟩ := surj_of_inj f n hr hinj v (by omega)
      exact ⟨u, ⟨hu, by omega⟩, e⟩
  rw [← Finset.card_image_of_injOn hinj2, himg, Finset.card_range]

/-- The array `sa` reaches every suffix. -/
theorem sa_surj (sa : List Int) (n : Nat)
    (hr : ∀ p, p < n → 0 ≤ get sa p ∧ get sa p < n)
    (hinj : ∀ p q, p < n → q < n → get sa p = get sa q → p = q) (a : Nat) (ha : a < n) :
    ∃ p, p < n ∧ get sa p = a := by
  obtain ⟨p, hp, e⟩ := surj_of_inj (fun p => (get sa p).toNat) n
    (fun p hp => by
      show (get sa p).toNat < n
      have := hr p hp
      omega)
    (fun p q hp hq e => hinj p q hp hq (by
      have h1 := hr p hp
      have h2 := hr q hq
      have e1 : (get sa p).toNat = (get sa q).toNat := e
      omega)) a ha
  refine ⟨p, hp, ?_⟩
  have h1 := hr p hp
  have e1 : (get sa p).toNat = a := e
  omega

/-- The first loop of lines 251-255: the last `k` suffixes in the order of their indices. -/
theorem second_loop1_spec (y : List Int) (m : Nat) :
    ∀ n, n ≤ y.length →
      ((List.range' m n).foldl (fun (yp : List Int × Nat) (i : Nat) =>
        (yp.1.set yp.2 (i : Int), yp.2 + 1)) (y, 0)).2 = n ∧
      ((List.range' m n).foldl (fun (yp : List Int × Nat) (i : Nat) =>
        (yp.1.set yp.2 (i : Int), yp.2 + 1)) (y, 0)).1.length = y.length ∧
      ∀ j, get ((List.range' m n).foldl (fun (yp : List Int × Nat) (i : Nat) =>
        (yp.1.set yp.2 (i : Int), yp.2 + 1)) (y, 0)).1 j
        = if j < n then ((m + j : Nat) : Int) else get y j := by
  intro n
  induction n with
  | zero =>
    intro _
    exact ⟨rfl, rfl, fun j => by simp⟩
  | succ n ih =>
    intro hn
    obtain ⟨h1, h2, h3⟩ := ih (by omega)
    rw [List.range'_concat, List.foldl_append]
    simp only [List.foldl_cons, List.foldl_nil]
    generalize (List.range' m n).foldl (fun (yp : List Int × Nat) (i : Nat) =>
        (yp.1.set yp.2 (i : Int), yp.2 + 1)) (y, 0) = P at h1 h2 h3 ⊢
    refine ⟨by rw [h1], by rw [List.length_set, h2], fun j => ?_⟩
    simp only [h1]
    rw [get_set _ _ _ _ (by omega), h3 j]
    by_cases hj : j = n
    · subst hj
      simp
    · rw [if_neg hj]
      by_cases hjn : j < n
      · rw [if_pos hjn, if_pos (by omega)]
      · rw [if_neg hjn, if_neg (by omega)]

/-- The second loop of lines 257-262: the other suffixes, each `k` places before a suffix
of `sa`, in the order of `sa`. -/
theorem second_loop2_spec (sa y0 : List Int) (len k : Nat) (hy : y0.length = len)
    (htot : cnt (fun u => (k : Int) ≤ get sa u) len + k = len) :
    ∀ i, i ≤ len →
      ((List.range i).foldl (fun (yp : List Int × Nat) (i : Nat) =>
        if get sa i ≥ k then (yp.1.set yp.2 (get sa i - k), yp.2 + 1) else yp) (y0, k)).2
        = k + cnt (fun u => (k : Int) ≤ get sa u) i ∧
      ((List.range i).foldl (fun (yp : List Int × Nat) (i : Nat) =>
        if get sa i ≥ k then (yp.1.set yp.2 (get sa i - k), yp.2 + 1) else yp) (y0, k)).1.length
        = len ∧
      (∀ j, j < k → get ((List.range i).foldl (fun (yp : List Int × Nat) (i : Nat) =>
        if get sa i ≥ k then (yp.1.set yp.2 (get sa i - k), yp.2 + 1) else yp) (y0, k)).1 j
        = get y0 j) ∧
      (∀ u, u < i → (k : Int) ≤ get sa u →
        get ((List.range i).foldl (fun (yp : List Int × Nat) (i : Nat) =>
          if get sa i ≥ k then (yp.1.set yp.2 (get sa i - k), yp.2 + 1) else yp) (y0, k)).1
          (k + cnt (fun u => (k : Int) ≤ get sa u) u) = get sa u - k) := by
  intro i
  induction i with
  | zero =>
    intro _
    exact ⟨by simp [cnt_zero], hy, fun j _ => rfl, fun u hu => by omega⟩
  | succ i ih =>
    intro hi
    obtain ⟨h1, h2, h3, h4⟩ := ih (by omega)
    rw [List.range_succ, List.foldl_append]
    simp only [List.foldl_cons, List.foldl_nil]
    generalize (List.range i).foldl (fun (yp : List Int × Nat) (i : Nat) =>
        if get sa i ≥ k then (yp.1.set yp.2 (get sa i - k), yp.2 + 1) else yp) (y0, k) = P
      at h1 h2 h3 h4 ⊢
    rw [cnt_succ]
    by_cases hp : (k : Int) ≤ get sa i
    · have hlt := cnt_lt_of_mem (fun u => (k : Int) ≤ get sa u) (show i < len by omega) hp
      rw [if_pos hp, if_pos hp]
      simp only [h1]
      refine ⟨by omega, by rw [List.length_set, h2], fun j hj => ?_, fun u hu hpu => ?_⟩
      · rw [get_set _ _ _ _ (by omega), if_neg (by omega)]
        exact h3 j hj
      · rw [get_set _ _ _ _ (by omega)]
        by_cases hui : u = i
        · subst hui
          rw [if_pos rfl]
        · have := cnt_lt_of_mem (fun u => (k : Int) ≤ get sa u) (show u < i by omega) hpu
          rw [if_neg (by omega)]
          exact h4 u (by omega) hpu
    · rw [if_neg hp, if_neg hp]
      refine ⟨by omega, h2, h3, fun u hu hpu => ?_⟩
      have hui : u ≠ i := fun e => hp (e ▸ hpu)
      exact h4 u (by omega) hpu

theorem cnt_ge_total (str : List Nat) (k : Nat) (s : SaState) (h : SaInv str k s)
    (hk : k ≤ str.length) :
    cnt (fun u => (k : Int) ≤ get s.sa u) str.length + k = str.length := by
  have h1 := cnt_lt_of_bij (fun u => (get s.sa u).toNat) str.length k hk
    (fun p hp => by
      show (get s.sa p).toNat < str.length
      have := h.sa_range p hp
      omega)
    (fun p q hp hq e => h.sa_inj p q hp hq (by
      have h1 := h.sa_range p hp
      have h2 := h.sa_range q hq
      have e1 : (get s.sa p).toNat = (get s.sa q).toNat := e
      omega))
  have h1b : cnt (fun u => (get s.sa u).toNat < k) str.length = k := h1
  have h2 := cnt_add_not (fun u => (k : Int) ≤ get s.sa u) str.length
  have h3 : cnt (fun u => ¬ (k : Int) ≤ get s.sa u) str.length
      = cnt (fun u => (get s.sa u).toNat < k) str.length := by
    apply cnt_congr
    intro i hi
    have := h.sa_range i hi
    constructor <;> intro hx <;> omega
  omega

/-- Lines 251-262: the array `y` lists all the suffixes, in the order of the `k` characters
that follow their first `k` characters. -/
theorem sa_sort_second_spec (str : List Nat) (k : Nat) (s : SaState) (h : SaInv str k s)
    (hk : k < str.length) :
    (sa_sort_second str.length k s).sa = s.sa ∧ (sa_sort_second str.length k s).x = s.x ∧
    (sa_sort_second str.length k s).count = s.count ∧
    (sa_sort_second str.length k s).r = s.r ∧
    (sa_sort_second str.length k s).y.length = str.length ∧
    (∀ j, j < str.length → 0 ≤ get (sa_sort_second str.length k s).y j ∧
      get (sa_sort_second str.length k s).y j < str.length) ∧
    (∀ i j, i < str.length → j < str.length →
      get (sa_sort_second str.length k s).y i = get (sa_sort_second str.length k s).y j →
      i = j) ∧
    (∀ i j, i ≤ j → j < str.length →
      pre str k ((get (sa_sort_second str.length k s).y i).toNat + k)
        ≤ pre str k ((get (sa_sort_second str.length k s).y j).toNat + k)) := by
  have htot := cnt_ge_total str k s h (by omega)
  obtain ⟨a1, a2, a3⟩ := second_loop1_spec s.y (str.length - k) k (by rw [h.len_y]; omega)
  generalize hP : (List.range' (str.length - k) k).foldl
    (fun (yp : List Int × Nat) (i : Nat) => (yp.1.set yp.2 (i : Int), yp.2 + 1)) (s.y, 0) = P
    at a1 a2 a3
  have eP : P = (P.1, k) := by rw [← a1]
  obtain ⟨b1, b2, b3, b4⟩ := second_loop2_spec s.sa P.1 str.length k (by rw [a2, h.len_y])
    htot str.length (le_refl _)
  have ey : (sa_sort_second str.length k s).y = ((List.range str.length).foldl
      (fun (yp : List Int × Nat) (i : Nat) =>
        if get s.sa i ≥ k then (yp.1.set yp.2 (get s.sa i - k), yp.2 + 1) else yp)
      (P.1, k)).1 := by
    unfold sa_sort_second
    simp only [hP]
    rw [← eP]
  generalize hQ : ((List.range str.length).foldl
      (fun (yp : List Int × Nat) (i : Nat) =>
        if get s.sa i ≥ k then (yp.1.set yp.2 (get s.sa i - k), yp.2 + 1) else yp)
      (P.1, k)).1 = y1 at b2 b3 b4 ey
  -- the two parts of `y`
  have hlow : ∀ j, j < k → get y1 j = ((str.length - k + j : Nat) : Int) := by
    intro j hj
    rw [b3 j hj, a3 j, if_pos hj]
  have hhigh : ∀ j, k ≤ j → j < str.length →
      ∃ u, u < str.length ∧ (k : Int) ≤ get s.sa u ∧
        j = k + cnt (fun u => (k : Int) ≤ get s.sa u) u ∧ get y1 j = get s.sa u - k := by
    intro j hj1 hj2
    obtain ⟨u, hu, hp, e⟩ := cnt_surj (fun u => (k : Int) ≤ get s.sa u) str.length (j - k)
      (by omega)
    refine ⟨u, hu, hp, by omega, ?_⟩
    have := b4 u hu hp
    rw [e] at this
    rw [← this]
    congr 1
    omega
  refine ⟨rfl, rfl, rfl, rfl, by rw [ey]; exact b2, ?_, ?_, ?_⟩
  · intro j hj
    rw [ey]
    by_cases hjk : j < k
    · rw [hlow j hjk]
      omega
    · obtain ⟨u, hu, hp, _, e⟩ := hhigh j (by omega) hj
      have := h.sa_range u hu
      rw [e]
      omega
  · intro i j hi hj
    rw [ey]
    intro e
    by_cases hik : i < k
    · by_cases hjk : j < k
      · rw [hlow i hik, hlow j hjk] at e
        omega
      · obtain ⟨u, hu, hp, _, e2⟩ := hhigh j (by omega) hj
        have := h.sa_range u hu
        rw [hlow i hik, e2] at e
        omega
    · obtain ⟨u, hu, hp, e1, e2⟩ := hhigh i (by omega) hi
      have hur := h.sa_range u hu
      by_cases hjk : j < k
      · rw [hlow j hjk, e2] at e
        omega
      · obtain ⟨v, hv, hq, e3, e4⟩ := hhigh j (by omega) hj
        rw [e2, e4] at e
        have : u = v := h.sa_inj u v hu hv (by omega)
        subst this
        omega
  · intro i j hij hj
    rw [ey]
    by_cases hik : i < k
    · rw [hlow i hik, Int.toNat_ofNat, pre_nil str k _ (by omega)]
      exact nil_le_list _
    · obtain ⟨u, hu, hp, e1, e2⟩ := hhigh i (by omega) (by omega)
      obtain ⟨v, hv, hq, e3, e4⟩ := hhigh j (by omega) hj
      have hur := h.sa_range u hu
      have hvr := h.sa_range v hv
      have huv : u ≤ v := by
        by_contra hlt
        have := cnt_lt_of_mem (fun u => (k : Int) ≤ get s.sa u) (show v < u by omega) hq
        omega
      have e5 : (get s.sa u - k).toNat + k = (get s.sa u).toNat := by omega
      have e6 : (get s.sa v - k).toNat + k = (get s.sa v).toNat := by omega
      rw [e2, e4, e5, e6]
      exact h.sorted u v huv hv

theorem foldl_congr_mem {α : Type} (f g : α → Nat → α) :
    ∀ (l : List Nat) (a : α), (∀ i, i ∈ l → ∀ c, f c i = g c i) →
      l.foldl f a = l.foldl g a := by
  intro l
  induction l with
  | nil => intro a _; rfl
  | cons b l ih =>
    intro a h
    rw [List.foldl_cons, List.foldl_cons, h b (List.mem_cons_self _ _),
      ih _ (fun i hi => h i (List.mem_cons_of_mem _ hi))]

/-- Lines 264-278: the counting sort puts the suffix `y[t]` at the place of `t` in the order
of the ranks `x[y[t]]`. -/
theorem sa_sort_first_spec (len : Nat) (s : SaState) (hsa : s.sa.length = len)
    (hc : s.count.length = count_len len)
    (hy : ∀ j, j < len → 0 ≤ get s.y j ∧ get s.y j < len)
    (hx : ∀ a, a < len → 0 ≤ get s.x a ∧ get s.x a ≤ s.r ∧ get s.x a + 1 < count_len len)
    (hr : 0 ≤ s.r ∧ s.r < count_len len) :
    (sa_sort_first len s).x = s.x ∧ (sa_sort_first len s).y = s.y ∧
    (sa_sort_first len s).r = s.r ∧ (sa_sort_first len s).sa.length = len ∧
    (sa_sort_first len s).count.length = count_len len ∧
    ∀ t, t < len →
      get (sa_sort_first len s).sa
        (pos (fun t => (get s.x (get s.y t).toNat).toNat) len t) = get s.y t := by
  have hkey : ∀ i, i < len → 0 ≤ get s.x (get s.y i).toNat ∧
      get s.x (get s.y i).toNat ≤ s.r ∧ get s.x (get s.y i).toNat + 1 < count_len len := by
    intro i hi
    have := hy i hi
    exact hx _ (by omega)
  -- `memset`
  obtain ⟨z1, z2⟩ := set_loop_spec (fun _ => (0 : Int)) s.count (s.r + 1).toNat
    (by rw [hc]; omega)
  obtain ⟨c0, hc0⟩ : ∃ c0, (List.range (s.r + 1).toNat).foldl
    (fun (c : List Int) (i : Nat) => c.set i 0) s.count = c0 := ⟨_, rfl⟩
  rw [hc0] at z1 z2
  -- the counts
  have e1 : (List.range len).foldl (fun (c : List Int) (i : Nat) =>
      incr c (get s.x (get s.y i).toNat + 1).toNat) c0
      = (List.range len).foldl (fun (c : List Int) (i : Nat) =>
        incr c ((get s.x (get s.y i).toNat).toNat + 1)) c0 := by
    apply foldl_congr_mem
    intro i hi c
    rw [List.mem_range] at hi
    have := hkey i hi
    congr 1
    omega
  obtain ⟨k1, k2⟩ := counts_spec (fun t => (get s.x (get s.y t).toNat).toNat) len s.r.toNat c0
    (by rw [z1, hc]; omega)
    (fun i hi => by
      have := hkey i hi
      rw [z1, hc]
      show (get s.x (get s.y i).toNat).toNat + 1 < count_len len
      omega)
    (fun j hj => by rw [z2 j, if_pos (by omega)])
  -- the places
  obtain ⟨c2, hc2⟩ : ∃ c2, prefix_sums ((List.range len).foldl
    (fun (c : List Int) (i : Nat) => incr c ((get s.x (get s.y i).toNat).toNat + 1)) c0)
    s.r.toNat = c2 := ⟨_, rfl⟩
  rw [hc2] at k1 k2
  obtain ⟨p1, p2, _, p4, _⟩ := place_loop_spec (fun t => (get s.x (get s.y t).toNat).toNat)
    (fun t => get s.y t) len s.r.toNat s.sa c2
    (by omega) (by rw [k1, z1, hc]; omega)
    (fun u hu => by
      have := hkey u hu
      show (get s.x (get s.y u).toNat).toNat ≤ s.r.toNat
      omega)
    (fun j hj => k2 j hj) len (le_refl _)
  have e3 := foldl_place (fun x y i => (get x (get y i).toNat).toNat) (fun _ y i => get y i)
    (List.range len) { s with count := c2 }
  unfold sa_sort_first
  simp only [hc0, e1, hc2]
  rw [e3]
  exact ⟨rfl, rfl, rfl, by rw [p1, hsa], by rw [p2, k1, z1, hc], fun t ht => p4 t ht⟩

/-- Lines 281-289: the new rank of the suffix `sa[p]` is the number of rises before `p`. -/
theorem sa_sort_rank_spec (len k : Nat) (s : SaState) (hx : s.x.length = len)
    (hy : s.y.length = len) (hlen : 1 ≤ len)
    (hr : ∀ p, p < len → 0 ≤ get s.sa p ∧ get s.sa p < len)
    (hinj : ∀ p q, p < len → q < len → get s.sa p = get s.sa q → p = q) :
    (sa_sort_rank len k s).sa = s.sa ∧ (sa_sort_rank len k s).count = s.count ∧
    (sa_sort_rank len k s).y = s.x ∧ (sa_sort_rank len k s).x.length = len ∧
    (sa_sort_rank len k s).r = rises s.x s.sa len k (len - 1) ∧
    ∀ p, p < len → get (sa_sort_rank len k s).x (get s.sa p).toNat = rises s.x s.sa len k p := by
  have ey : (s.x.take len) ++ s.y.drop len = s.x := by
    rw [List.take_of_length_le (by omega), List.drop_of_length_le (by omega),
      List.append_nil]
  have key : ∀ n, n ≤ len - 1 →
      ∀ t, t = (List.range' 1 n).foldl (fun (s : SaState) (i : Nat) =>
        { s with r := if equal s.y len (get s.sa (i - 1)) (get s.sa i) k then s.r else s.r + 1,
                 x := s.x.set (get s.sa i).toNat
                   (if equal s.y len (get s.sa (i - 1)) (get s.sa i) k then s.r
                    else s.r + 1) })
        { s with y := s.x, r := 0, x := s.x.set (get s.sa 0).toNat 0 } →
      t.sa = s.sa ∧ t.count = s.count ∧ t.y = s.x ∧ t.x.length = len ∧
      t.r = rises s.x s.sa len k n ∧
      ∀ p, p ≤ n → get t.x (get s.sa p).toNat = rises s.x s.sa len k p := by
    intro n
    induction n with
    | zero =>
      intro _ t ht
      subst ht
      refine ⟨rfl, rfl, rfl, by simp [hx], by simp [rises, cnt_zero], fun p hp => ?_⟩
      have : p = 0 := by omega
      subst this
      have h0 := hr 0 (by omega)
      simp only [List.range'_zero, List.foldl_nil]
      rw [get_set _ _ _ _ (by omega), if_pos rfl]
      simp [rises, cnt_zero]
    | succ n ih =>
      intro hn t ht
      rw [List.range'_concat, List.foldl_append] at ht
      simp only [List.foldl_cons, List.foldl_nil] at ht
      obtain ⟨i1, i2, i3, i4, i5, i6⟩ := ih (by omega) _ rfl
      generalize (List.range' 1 n).foldl (fun (s : SaState) (i : Nat) =>
        { s with r := if equal s.y len (get s.sa (i - 1)) (get s.sa i) k then s.r else s.r + 1,
                 x := s.x.set (get s.sa i).toNat
                   (if equal s.y len (get s.sa (i - 1)) (get s.sa i) k then s.r
                    else s.r + 1) })
        { s with y := s.x, r := 0, x := s.x.set (get s.sa 0).toNat 0 } = u
        at ht i1 i2 i3 i4 i5 i6
      subst ht
      have e2 : 1 + 1 * n = n + 1 := by omega
      have hrise : (if equal s.x len (get s.sa n) (get s.sa (n + 1)) k then u.r else u.r + 1)
          = rises s.x s.sa len k (n + 1) := by
        rw [i5]
        unfold rises
        rw [cnt_succ]
        cases equal s.x len (get s.sa n) (get s.sa (n + 1)) k <;> simp
      simp only [i1, i3, e2, Nat.add_sub_cancel, hrise]
      refine ⟨trivial, i2, trivial, by rw [List.length_set, i4], trivial, fun p hp => ?_⟩
      have hn1 := hr (n + 1) (by omega)
      rw [get_set _ _ _ _ (by omega)]
      by_cases hpn : p = n + 1
      · subst hpn
        rw [if_pos rfl]
      · have hp1 := hr p (by omega)
        have hne : get s.sa p ≠ get s.sa (n + 1) :=
          fun e => hpn (hinj p (n + 1) (by omega) (by omega) e)
        rw [if_neg (by omega)]
        exact i6 p (by omega)
  have e : sa_sort_rank len k s = (List.range' 1 (len - 1)).foldl (fun (s : SaState) (i : Nat) =>
        { s with r := if equal s.y len (get s.sa (i - 1)) (get s.sa i) k then s.r else s.r + 1,
                 x := s.x.set (get s.sa i).toNat
                   (if equal s.y len (get s.sa (i - 1)) (get s.sa i) k then s.r
                    else s.r + 1) })
        { s with y := s.x, r := 0, x := s.x.set (get s.sa 0).toNat 0 } := by
    unfold sa_sort_rank
    simp only [ey]
  obtain ⟨i1, i2, i3, i4, i5, i6⟩ := key (len - 1) (le_refl _) _ e
  exact ⟨i1, i2, i3, i4, i5, fun p hp => i6 p (by omega)⟩

/-- The ranks are equal exactly for equal prefixes. -/
theorem x_eq_iff (str : List Nat) (k : Nat) (x : List Int)
    (hx : ∀ a b, a < str.length → b < str.length →
      (get x a < get x b ↔ pre str k a < pre str k b))
    (a b : Nat) (ha : a < str.length) (hb : b < str.length) :
    get x a = get x b ↔ pre str k a = pre str k b := by
  have h1 := hx a b ha hb
  have h2 := hx b a hb ha
  constructor
  · intro e
    have n1 : ¬ pre str k a < pre str k b := fun h => by
      have := h1.2 h
      omega
    have n2 : ¬ pre str k b < pre str k a := fun h => by
      have := h2.2 h
      omega
    exact le_antisymm (not_lt.1 n2) (not_lt.1 n1)
  · intro e
    have n1 : ¬ get x a < get x b := fun h => by
      have := h1.1 h
      rw [e] at this
      exact lt_irrefl _ this
    have n2 : ¬ get x b < get x a := fun h => by
      have := h2.1 h
      rw [e] at this
      exact lt_irrefl _ this
    omega

theorem to_int_wrap (x : Int) (h1 : 2 ^ 31 ≤ x) (h2 : x < 2 ^ 32) :
    to_int x = x - 2 ^ 32 := by
  have h31 : (2 : Int) ^ 31 = 2147483648 := by norm_num
  have h32 : (2 : Int) ^ 32 = 4294967296 := by norm_num
  unfold to_int
  rw [h31, h32] at *
  omega

/-- The function `equal` compares the first `2 * k` characters of two suffixes, given the
ranks of the first `k` characters.  A sum `a + k` that overflows `int` belongs to a suffix of
less than `k` characters, whose rank differs from that of every other suffix. -/
theorem equal_iff (str : List Nat) (k : Nat) (x : List Int) (hk : 1 ≤ k)
    (hlen : str.length < 2 ^ 31) (hkl : k < str.length)
    (hx : ∀ a b, a < str.length → b < str.length →
      (get x a < get x b ↔ pre str k a < pre str k b))
    (a b : Nat) (ha : a < str.length) (hb : b < str.length) :
    equal x (str.length : Int) (a : Int) (b : Int) (k : Int) = true
      ↔ pre str (k + k) a = pre str (k + k) b := by
  have h31n : (2 : Nat) ^ 31 = 2147483648 := by norm_num
  have h31 : (2 : Int) ^ 31 = 2147483648 := by norm_num
  have h32 : (2 : Int) ^ 32 = 4294967296 := by norm_num
  have hxe := x_eq_iff str k x hx
  have ta : (a : Int).toNat = a := Int.toNat_ofNat a
  have tb : (b : Int).toNat = b := Int.toNat_ofNat b
  -- a suffix of less than `k` characters has a rank of its own
  have hshort : ∀ c e, c < str.length → e < str.length → str.length < c + k → c ≠ e →
      get x c ≠ get x e := by
    intro c e hc he hck hce hxce
    have e1 := (hxe c e hc he).1 hxce
    have l1 := pre_length str k c
    have l2 := pre_length str k e
    by_cases hek : e + k ≤ str.length
    · have := congrArg List.length e1
      rw [l1, l2] at this
      omega
    · rw [pre_of_le str k c (by omega), pre_of_le str k e (by omega)] at e1
      exact suffix_ne str c e hc he hce e1
  have hdiff : ∀ c e, c < str.length → e < str.length → str.length ≤ c + k → c ≠ e →
      str.length ≤ e + k → pre str (k + k) c ≠ pre str (k + k) e := by
    intro c e hc he hck hce hek
    rw [pre_of_le str (k + k) c (by omega), pre_of_le str (k + k) e (by omega)]
    exact suffix_ne str c e hc he hce
  unfold equal
  by_cases oa : (a : Int) + k < 2 ^ 31
  · have ea : to_int ((a : Int) + k) = a + k := to_int_eq _ (by omega) oa
    by_cases ob : (b : Int) + k < 2 ^ 31
    · have eb : to_int ((b : Int) + k) = b + k := to_int_eq _ (by omega) ob
      rw [ea, eb]
      clear ea eb oa ob hshort hdiff
      have tak : ((a : Int) + (k : Int)).toNat = a + k := by omega
      have tbk : ((b : Int) + (k : Int)).toNat = b + k := by omega
      have la := pre_length str (k + k) a
      have lb := pre_length str (k + k) b
      by_cases h1 : (a : Int) + k < str.length ∧ (b : Int) + k ≥ str.length
      · rw [if_pos h1]
        simp only [Bool.false_eq_true, false_iff]
        intro e
        have := congrArg List.length e
        rw [la, lb] at this
        omega
      rw [if_neg h1]
      by_cases h2 : (a : Int) + k ≥ str.length ∧ (b : Int) + k < str.length
      · rw [if_pos h2]
        simp only [Bool.false_eq_true, false_iff]
        intro e
        have := congrArg List.length e
        rw [la, lb] at this
        omega
      rw [if_neg h2]
      by_cases h3 : (a : Int) + k ≥ str.length ∧ (b : Int) + k ≥ str.length
      · rw [if_pos h3, ta, tb, decide_eq_true_eq, hxe a b ha hb,
          pre_of_le str (k + k) a (by omega), pre_of_le str (k + k) b (by omega),
          pre_of_le str k a (by omega), pre_of_le str k b (by omega)]
      · rw [if_neg h3, ta, tb, tak, tbk, Bool.and_eq_true, decide_eq_true_eq,
          decide_eq_true_eq, hxe a b ha hb, hxe (a + k) (b + k) (by omega) (by omega),
          pre_double, pre_double]
        constructor
        · rintro ⟨e1, e2⟩
          rw [e1, e2]
        · intro e
          have hl : (pre str k a).length = (pre str k b).length := by
            rw [pre_length, pre_length]
            omega
          exact List.append_inj e hl
    · -- the sum `b + k` overflows
      have eb : to_int ((b : Int) + k) = b + k - 2 ^ 32 :=
        to_int_wrap _ (by omega) (by omega)
      have hab : a ≠ b := by omega
      rw [ea, eb, if_neg (by omega)]
      by_cases h2 : (a : Int) + k ≥ str.length
      · rw [if_pos ⟨h2, by omega⟩]
        simp only [Bool.false_eq_true, false_iff]
        exact hdiff a b ha hb (by omega) hab (by omega)
      · rw [if_neg (by omega), if_neg (by omega), ta, tb]
        have hne := hshort b a hb ha (by omega) (fun e => hab e.symm)
        rw [decide_eq_false (fun e => hne e.symm), Bool.false_and]
        simp only [Bool.false_eq_true, false_iff]
        intro e
        have := congrArg List.length e
        rw [pre_length, pre_length] at this
        clear ea eb hne ta tb
        omega
  · -- the sum `a + k` overflows
    have ea : to_int ((a : Int) + k) = a + k - 2 ^ 32 := to_int_wrap _ (by omega) (by omega)
    by_cases ob : (b : Int) + k < 2 ^ 31
    · have eb : to_int ((b : Int) + k) = b + k := to_int_eq _ (by omega) ob
      have hab : a ≠ b := by omega
      rw [ea, eb]
      by_cases h1 : (b : Int) + k ≥ str.length
      · rw [if_pos ⟨by omega, h1⟩]
        simp only [Bool.false_eq_true, false_iff]
        exact hdiff a b ha hb (by omega) hab (by omega)
      · rw [if_neg (by omega), if_neg (by omega), if_neg (by omega), ta, tb]
        have hne := hshort a b ha hb (by omega) hab
        rw [decide_eq_false hne, Bool.false_and]
        simp only [Bool.false_eq_true, false_iff]
        intro e
        have := congrArg List.length e
        rw [pre_length, pre_length] at this
        clear ea eb hne ta tb
        omega
    · have eb : to_int ((b : Int) + k) = b + k - 2 ^ 32 :=
        to_int_wrap _ (by omega) (by omega)
      have za : ((a : Int) + k - 2 ^ 32).toNat = 0 := by omega
      have zb : ((b : Int) + k - 2 ^ 32).toNat = 0 := by omega
      rw [ea, eb, if_neg (by omega), if_neg (by omega), if_neg (by omega), ta, tb, za, zb,
        decide_eq_true (rfl : get x 0 = get x 0), Bool.and_true, decide_eq_true_eq,
        hxe a b ha hb, pre_of_le str (k + k) a (by omega), pre_of_le str (k + k) b (by omega),
        pre_of_le str k a (by omega), pre_of_le str k b (by omega)]

/-- The comparison `y[a + k] == y[b + k]` of `equal` reads inside the array: when it is
reached for two different suffixes, after `y[a] == y[b]`, neither sum has overflowed and both
are below `len`. -/
theorem equal_in_bounds (str : List Nat) (k : Nat) (x : List Int)
    (hlen : str.length < 2 ^ 31)
    (hx : ∀ a b, a < str.length → b < str.length →
      (get x a < get x b ↔ pre str k a < pre str k b))
    (a b : Nat) (ha : a < str.length) (hb : b < str.length) (hab : a ≠ b)
    (h1 : ¬ (to_int ((a : Int) + k) < str.length ∧ to_int ((b : Int) + k) ≥ str.length))
    (h2 : ¬ (to_int ((a : Int) + k) ≥ str.length ∧ to_int ((b : Int) + k) < str.length))
    (h3 : ¬ (to_int ((a : Int) + k) ≥ str.length ∧ to_int ((b : Int) + k) ≥ str.length))
    (h4 : get x a = get x b) :
    to_int ((a : Int) + k) = ((a + k : Nat) : Int) ∧ a + k < str.length ∧
    to_int ((b : Int) + k) = ((b + k : Nat) : Int) ∧ b + k < str.length := by
  have h31n : (2 : Nat) ^ 31 = 2147483648 := by norm_num
  have h31 : (2 : Int) ^ 31 = 2147483648 := by norm_num
  have hxe := x_eq_iff str k x hx
  have hshort : ∀ c e, c < str.length → e < str.length → str.length < c + k → c ≠ e →
      get x c ≠ get x e := by
    intro c e hc he hck hce hxce
    have e1 := (hxe c e hc he).1 hxce
    have l1 := pre_length str k c
    have l2 := pre_length str k e
    by_cases hek : e + k ≤ str.length
    · have := congrArg List.length e1
      rw [l1, l2] at this
      omega
    · rw [pre_of_le str k c (by omega), pre_of_le str k e (by omega)] at e1
      exact suffix_ne str c e hc he hce e1
  have oa : (a : Int) + k < 2 ^ 31 := by
    by_contra hn
    exact hshort a b ha hb (by omega) hab h4
  have ob : (b : Int) + k < 2 ^ 31 := by
    by_contra hn
    exact hshort b a hb ha (by omega) (fun e => hab e.symm) h4.symm
  have ea : to_int ((a : Int) + k) = a + k := to_int_eq _ (by omega) oa
  have eb : to_int ((b : Int) + k) = b + k := to_int_eq _ (by omega) ob
  rw [ea, eb] at h1 h2 h3
  clear hshort hxe hx h4
  refine ⟨by rw [ea]; push_cast; rfl, by omega, by rw [eb]; push_cast; rfl, by omega⟩

theorem cnt_eq_self (P : Nat → Prop) [DecidablePred P] (n : Nat) (h : cnt P n = n) :
    ∀ i, i < n → P i := by
  intro i hi
  by_contra hp
  have h1 : cnt P (i + 1) = cnt P i := by rw [cnt_succ, if_neg hp, add_zero]
  have h2 := cnt_le P i
  have h3 : cnt P n ≤ cnt P (i + 1) + (n - (i + 1)) := by
    have : ∀ d, cnt P (i + 1 + d) ≤ cnt P (i + 1) + d := by
      intro d
      induction d with
      | zero => simp
      | succ d ih =>
        rw [← add_assoc, cnt_succ]
        split_ifs <;> omega
    have := this (n - (i + 1))
    rwa [show i + 1 + (n - (i + 1)) = n by omega] at this
  omega

/-- In a non-decreasing sequence the number of rises before a place orders the places as the
values do. -/
theorem rises_order (F : Nat → List Nat) (P : Nat → Prop) [DecidablePred P] (n : Nat)
    (hs : ∀ p q, p ≤ q → q < n → F p ≤ F q)
    (hP : ∀ t, t + 1 < n → (P t ↔ F t ≠ F (t + 1))) :
    ∀ d p, p + d < n →
      (F p = F (p + d) → cnt P (p + d) = cnt P p) ∧
      (F p < F (p + d) → cnt P p < cnt P (p + d)) := by
  intro d
  induction d with
  | zero =>
    intro p _
    exact ⟨fun _ => rfl, fun h => absurd h (lt_irrefl _)⟩
  | succ d ih =>
    intro p hp
    obtain ⟨i1, i2⟩ := ih p (by omega)
    have s1 := hs p (p + d) (by omega) (by omega)
    have s2 := hs (p + d) (p + (d + 1)) (by omega) hp
    have hrise := hP (p + d) (by omega)
    have e : cnt P (p + (d + 1)) = cnt P (p + d) + if P (p + d) then 1 else 0 := by
      rw [← add_assoc, cnt_succ]
    constructor
    · intro h
      have e1 : F p = F (p + d) := le_antisymm s1 (h ▸ s2)
      have e2 : F (p + d) = F (p + d + 1) := by rw [← e1]; exact h
      rw [e, if_neg (fun hp => hrise.1 hp e2), add_zero, i1 e1]
    · intro h
      rcases lt_or_eq_of_le s1 with h1 | h1
      · have := i2 h1
        rw [e]
        omega
      · have h2 : F (p + d) ≠ F (p + d + 1) := by
          rw [← h1]
          exact ne_of_lt h
        rw [e, if_pos (hrise.2 h2), i1 h1]
        omega

theorem rises_lt_iff (F : Nat → List Nat) (P : Nat → Prop) [DecidablePred P] (n : Nat)
    (hs : ∀ p q, p ≤ q → q < n → F p ≤ F q)
    (hP : ∀ t, t + 1 < n → (P t ↔ F t ≠ F (t + 1))) (p q : Nat) (hp : p < n) (hq : q < n) :
    cnt P p < cnt P q ↔ F p < F q := by
  constructor
  · intro h
    have hpq : p < q := by
      by_contra hge
      have := cnt_mono_right P (show q ≤ p by omega)
      omega
    rcases lt_or_eq_of_le (hs p q (by omega) hq) with h1 | h1
    · exact h1
    · have := (rises_order F P n hs hP (q - p) p (by omega)).1
        (by rw [show p + (q - p) = q by omega]; exact h1)
      rw [show p + (q - p) = q by omega] at this
      omega
  · intro h
    have hpq : p < q := by
      by_contra hge
      exact absurd (hs q p (by omega) hp) (not_le.2 h)
    have := (rises_order F P n hs hP (q - p) p (by omega)).2
      (by rw [show p + (q - p) = q by omega]; exact h)
    rwa [show p + (q - p) = q by omega] at this

/-- One round of the loop of `sa_sort` (lines 248-289): from the order by the first `k`
characters to the order by the first `2 * k`; the new `r` is below `len`, when it is
`len - 1` the prefixes of `2 * k` characters are all different, and it is `len - 1` when
`2 * k` is at least `len`. -/
theorem sa_sort_round (str : List Nat) (k : Nat) (s : SaState) (h : SaInv str k s)
    (hk1 : 1 ≤ k) (hk : k < str.length) (hlen : str.length < 2 ^ 31) :
    SaInv str (k + k)
      (sa_sort_rank str.length k (sa_sort_first str.length (sa_sort_second str.length k s))) ∧
    (sa_sort_rank str.length k (sa_sort_first str.length
      (sa_sort_second str.length k s))).r < str.length ∧
    ((sa_sort_rank str.length k (sa_sort_first str.length
      (sa_sort_second str.length k s))).r = (str.length : Int) - 1 →
      ∀ p q, p < q → q < str.length →
        pre str (k + k) (get (sa_sort_rank str.length k (sa_sort_first str.length
          (sa_sort_second str.length k s))).sa p).toNat
        < pre str (k + k) (get (sa_sort_rank str.length k (sa_sort_first str.length
          (sa_sort_second str.length k s))).sa q).toNat) ∧
    (str.length ≤ k + k →
      (sa_sort_rank str.length k (sa_sort_first str.length
        (sa_sort_second str.length k s))).r = (str.length : Int) - 1) := by
  obtain ⟨a1, a2, a3, a4, a5, a6, a7, a8⟩ := sa_sort_second_spec str k s h hk
  generalize sa_sort_second str.length k s = A at a1 a2 a3 a4 a5 a6 a7 a8 ⊢
  obtain ⟨b1, b2, b3, b4, b5, b6⟩ := sa_sort_first_spec str.length A
    (by rw [a1]; exact h.len_sa) (by rw [a3]; exact h.len_count) a6
    (by rw [a2, a4]; exact h.x_range) (by rw [a4]; exact h.r_lt)
  rw [a2] at b1 b6
  generalize sa_sort_first str.length A = B at b1 b2 b3 b4 b5 b6 ⊢
  -- the array `sa` after the counting sort
  have hpos : ∀ p, p < str.length → ∃ t, t < str.length ∧
      pos (fun t => (get s.x (get A.y t).toNat).toNat) str.length t = p ∧
      get B.sa p = get A.y t := by
    intro p hp
    obtain ⟨t, ht, e⟩ := pos_surj (fun t => (get s.x (get A.y t).toNat).toNat) str.length p hp
    exact ⟨t, ht, e, by rw [← e]; exact b6 t ht⟩
  have hrange : ∀ p, p < str.length → 0 ≤ get B.sa p ∧ get B.sa p < str.length := by
    intro p hp
    obtain ⟨t, ht, _, e⟩ := hpos p hp
    rw [e]
    exact a6 t ht
  have hinj : ∀ p q, p < str.length → q < str.length → get B.sa p = get B.sa q → p = q := by
    intro p q hp hq e
    obtain ⟨t, ht, e1, e2⟩ := hpos p hp
    obtain ⟨u, hu, e3, e4⟩ := hpos q hq
    rw [e2, e4] at e
    have := a7 t u ht hu e
    subst this
    omega
  have hsorted : ∀ p q, p ≤ q → q < str.length →
      pre str (k + k) (get B.sa p).toNat ≤ pre str (k + k) (get B.sa q).toNat := by
    intro p q hpq hq
    rcases Nat.eq_or_lt_of_le hpq with hpq | hpq
    · subst hpq
      exact le_refl _
    obtain ⟨t, ht, e1, e2⟩ := hpos p (by omega)
    obtain ⟨u, hu, e3, e4⟩ := hpos q hq
    have hyt := a6 t ht
    have hyu := a6 u hu
    have hxt := h.x_range (get A.y t).toNat (by omega)
    have hxu := h.x_range (get A.y u).toNat (by omega)
    rw [e2, e4]
    rcases (pos_lt_iff (fun t => (get s.x (get A.y t).toNat).toNat) str.length t u ht hu).1
      (by omega) with hlt | ⟨heq, htu⟩
    · have hlt1 : (get s.x (get A.y t).toNat).toNat < (get s.x (get A.y u).toNat).toNat := hlt
      exact le_of_lt (pre_lt_double str k _ _
        ((h.x_lt _ _ (by omega) (by omega)).1 (by omega)))
    · have heq1 : (get s.x (get A.y t).toNat).toNat = (get s.x (get A.y u).toNat).toNat := heq
      have e5 := (x_eq_iff str k s.x h.x_lt _ _ (show (get A.y t).toNat < str.length by omega)
        (show (get A.y u).toNat < str.length by omega)).1 (by omega)
      rw [pre_double, pre_double, e5]
      exact append_le_append_left _ _ _ (a8 t u (by omega) hu)
  -- the new ranks
  obtain ⟨c1, c2, c3, c4, c5, c6⟩ := sa_sort_rank_spec str.length k B (by rw [b1]; exact h.len_x)
    (by rw [b2]; exact a5) (by omega) hrange hinj
  rw [b1] at c3 c5 c6
  generalize sa_sort_rank str.length k B = C at c1 c2 c3 c4 c5 c6 ⊢
  have hcl := count_len_gt str.length
  have hP : ∀ t, t + 1 < str.length →
      (equal s.x str.length (get B.sa t) (get B.sa (t + 1)) k = false ↔
        pre str (k + k) (get B.sa t).toNat ≠ pre str (k + k) (get B.sa (t + 1)).toNat) := by
    intro t ht
    have h1 := hrange t (by omega)
    have h2 := hrange (t + 1) ht
    have := equal_iff str k s.x hk1 hlen hk h.x_lt (get B.sa t).toNat
      (get B.sa (t + 1)).toNat (by omega) (by omega)
    rw [Int.toNat_of_nonneg h1.1, Int.toNat_of_nonneg h2.1] at this
    rw [Ne, ← this]
    cases equal s.x str.length (get B.sa t) (get B.sa (t + 1)) k <;> simp
  have hlt := rises_lt_iff (fun p => pre str (k + k) (get B.sa p).toNat)
    (fun t => equal s.x str.length (get B.sa t) (get B.sa (t + 1)) k = false) str.length
    hsorted hP
  have hrle : ∀ p, rises s.x B.sa str.length k p ≤ p := fun p => cnt_le _ p
  have hrmono : ∀ p, p < str.length →
      rises s.x B.sa str.length k p ≤ rises s.x B.sa str.length k (str.length - 1) :=
    fun p hp => cnt_mono_right _ (by omega)
  refine ⟨⟨by rw [c1, b4], c4, by rw [c3]; exact h.len_x, by rw [c2, b5],
    by rw [c1]; exact hrange, by rw [c1]; exact hinj, by rw [c1]; exact hsorted, ?_, ?_, ?_⟩,
    ?_, ?_, ?_⟩
  · intro a ha
    obtain ⟨p, hp, e⟩ := sa_surj B.sa str.length hrange hinj a ha
    have := c6 p hp
    rw [e, Int.toNat_ofNat] at this
    have h1 := hrle p
    have h2 := hrmono p hp
    rw [this, c5]
    refine ⟨by omega, by omega, by omega⟩
  · intro a b ha hb
    obtain ⟨p, hp, e1⟩ := sa_surj B.sa str.length hrange hinj a ha
    obtain ⟨q, hq, e2⟩ := sa_surj B.sa str.length hrange hinj b hb
    have h1 := c6 p hp
    have h2 := c6 q hq
    rw [e1, Int.toNat_ofNat] at h1
    rw [e2, Int.toNat_ofNat] at h2
    have := hlt p q hp hq
    simp only [e1, e2, Int.toNat_ofNat] at this
    rw [h1, h2, ← this]
    unfold rises
    omega
  · rw [c5]
    have := hrle (str.length - 1)
    omega
  · rw [c5]
    have := hrle (str.length - 1)
    omega
  · intro hr p q hpq hq
    rw [c5] at hr
    have hall := cnt_eq_self
      (fun t => equal s.x str.length (get B.sa t) (get B.sa (t + 1)) k = false)
      (str.length - 1) (by unfold rises at hr; omega)
    have hcnt : ∀ n, n ≤ str.length - 1 →
        cnt (fun t => equal s.x str.length (get B.sa t) (get B.sa (t + 1)) k = false) n = n := by
      intro n
      induction n with
      | zero => intro _; exact cnt_zero _
      | succ n ih =>
        intro hn
        rw [cnt_succ, ih (by omega), if_pos (hall n (by omega))]
    rw [c1]
    exact (hlt p q (by omega) hq).1 (by rw [hcnt p (by omega), hcnt q (by omega)]; exact hpq)
  · intro hkk
    rw [c5]
    have hall : ∀ t, t + 1 < str.length →
        equal s.x str.length (get B.sa t) (get B.sa (t + 1)) k = false := by
      intro t ht
      have h1 := hrange t (by omega)
      have h2 := hrange (t + 1) ht
      rw [hP t ht, pre_of_le str (k + k) _ (by omega), pre_of_le str (k + k) _ (by omega)]
      apply suffix_ne str _ _ (by omega) (by omega)
      intro e
      have := hinj t (t + 1) (by omega) ht (by omega)
      omega
    have hcnt : ∀ n, n ≤ str.length - 1 →
        cnt (fun t => equal s.x str.length (get B.sa t) (get B.sa (t + 1)) k = false) n = n := by
      intro n
      induction n with
      | zero => intro _; exact cnt_zero _
      | succ n ih =>
        intro hn
        rw [cnt_succ, ih (by omega), if_pos (hall n (by omega))]
    unfold rises
    rw [hcnt _ (le_refl _)]
    omega

theorem pre_one (str : List Nat) (t : Nat) (ht : t < str.length) :
    pre str 1 t = [byte str t] := by
  unfold pre byte
  rw [List.drop_eq_getElem_cons ht, List.getD_eq_getElem?_getD, List.getElem?_eq_getElem ht]
  rfl

theorem singleton_lt_iff (a b : Nat) : ([a] : List Nat) < [b] ↔ a < b := by
  constructor
  · intro h
    cases h with
    | rel hab => exact hab
    | cons h1 => cases h1
  · exact fun h => List.Lex.rel h

theorem get_replicate_zero (n j : Nat) : get (List.replicate n 0) j = 0 := by
  unfold get
  rw [List.getD_eq_getElem?_getD, List.getElem?_replicate]
  split_ifs <;> rfl

/-- The state before the loop of `sa_sort`: the suffixes are sorted by their first
character. -/
theorem sa_sort_init_inv (str : List Nat) (gsa gx gy : List Int) (hb : ∀ c ∈ str, c < 256)
    (hsa : gsa.length = str.length) (hx : gx.length = str.length)
    (hy : gy.length = str.length) :
    SaInv str 1 (sa_sort_init str str.length
      { sa := gsa, x := gx, y := gy, count := List.replicate (count_len str.length) 0,
        r := 0 }) := by
  obtain ⟨i1, i2, i3, i4, i5, i6, i7⟩ := sa_sort_init_spec str str.length
    { sa := gsa, x := gx, y := gy, count := List.replicate (count_len str.length) 0, r := 0 }
    hb hsa hx (by simp) (fun j => get_replicate_zero _ j)
  generalize sa_sort_init str str.length
    { sa := gsa, x := gx, y := gy, count := List.replicate (count_len str.length) 0, r := 0 }
    = S at i1 i2 i3 i4 i5 i6 i7 ⊢
  have hcl := count_len_gt str.length
  unfold R at hcl
  have hpos : ∀ p, p < str.length → ∃ t, t < str.length ∧
      pos (byte str) str.length t = p ∧ get S.sa p = t := by
    intro p hp
    obtain ⟨t, ht, e⟩ := pos_surj (byte str) str.length p hp
    exact ⟨t, ht, e, by rw [← e]; exact i7 t ht⟩
  refine ⟨i1, i2, by rw [i3]; exact hy, i4, ?_, ?_, ?_, ?_, ?_, by rw [i5]; omega⟩
  · intro p hp
    obtain ⟨t, ht, _, e⟩ := hpos p hp
    rw [e]
    omega
  · intro p q hp hq e
    obtain ⟨t, ht, e1, e2⟩ := hpos p hp
    obtain ⟨u, hu, e3, e4⟩ := hpos q hq
    rw [e2, e4] at e
    have : t = u := by omega
    subst this
    omega
  · intro p q hpq hq
    rcases Nat.eq_or_lt_of_le hpq with hpq | hpq
    · subst hpq
      exact le_refl _
    obtain ⟨t, ht, e1, e2⟩ := hpos p (by omega)
    obtain ⟨u, hu, e3, e4⟩ := hpos q hq
    rw [e2, e4, Int.toNat_ofNat, Int.toNat_ofNat, pre_one str t ht, pre_one str u hu]
    rcases (pos_lt_iff (byte str) str.length t u ht hu).1 (by omega) with hlt | ⟨heq, _⟩
    · exact le_of_lt ((singleton_lt_iff _ _).2 hlt)
    · rw [heq]
  · intro a ha
    have := byte_lt str hb a
    rw [i6 a ha, i5]
    omega
  · intro a b ha hb2
    rw [i6 a ha, i6 b hb2, pre_one str a ha, pre_one str b hb2, singleton_lt_iff]
    omega

/-- The loop of `sa_sort` ends without a failed assertion, with the suffixes in increasing
order. -/
theorem sa_sort_loop_spec (str : List Nat) (hlen : str.length < 2 ^ 31) :
    ∀ (fuel k : Nat) (s : SaState), SaInv str k s → 1 ≤ k → 1 ≤ fuel →
      str.length < k + fuel →
      ∃ s1, sa_sort_loop str.length fuel k s = Except.ok s1 ∧ s1.sa.length = str.length ∧
        (∀ p, p < str.length → 0 ≤ get s1.sa p ∧ get s1.sa p < str.length) ∧
        (∀ p q, p < str.length → q < str.length → get s1.sa p = get s1.sa q → p = q) ∧
        ∀ p q, p < q → q < str.length →
          str.drop (get s1.sa p).toNat < str.drop (get s1.sa q).toNat := by
  intro fuel
  induction fuel with
  | zero => intro k s _ _ hf; omega
  | succ fuel ih =>
    intro k s h hk1 _ hf
    rw [sa_sort_loop]
    by_cases hk : k < str.length
    · rw [if_pos hk]
      obtain ⟨r1, r2, r3, r4⟩ := sa_sort_round str k s h hk1 hk hlen
      generalize sa_sort_rank str.length k (sa_sort_first str.length
        (sa_sort_second str.length k s)) = s1 at r1 r2 r3 r4 ⊢
      simp only []
      rw [if_pos r2]
      by_cases hr : s1.r = (str.length : Int) - 1
      · rw [if_pos hr]
        exact ⟨s1, rfl, r1.len_sa, r1.sa_range, r1.sa_inj,
          fun p q hpq hq => suffix_lt_of_pre_lt str (k + k) _ _ (r3 hr p q hpq hq)⟩
      · have hkk : k + k < str.length := by
          by_contra hge
          exact hr (r4 (by omega))
        have h31n : (2 : Nat) ^ 31 = 2147483648 := by norm_num
        have e2 : to_int ((k : Int) * 2) = (k : Int) * 2 :=
          to_int_eq _ (by omega) (by norm_num; omega)
        rw [if_neg hr, e2, if_neg (by omega), Nat.mul_two]
        exact ih (k + k) s1 r1 (by omega) (by omega) (by omega)
    · rw [if_neg hk]
      refine ⟨s, rfl, h.len_sa, h.sa_range, h.sa_inj, fun p q hpq hq => ?_⟩
      have hp := h.sa_range p (by omega)
      have hq2 := h.sa_range q hq
      have hle := h.sorted p q (by omega) hq
      rw [pre_of_le str k _ (by omega), pre_of_le str k _ (by omega)] at hle
      refine lt_of_le_of_ne hle (suffix_ne str _ _ (by omega) (by omega) ?_)
      intro e
      have := h.sa_inj p q (by omega) hq (by omega)
      omega

/-- The `int` value `count_len` of line 224 when `len + 1` does not overflow. -/
theorem count_len_int (len : Nat) (hlen : len + 1 < 2 ^ 31) :
    to_int (if len > R then (len : Int) + 1 else (R : Int) + 1) = (count_len len : Int) := by
  have h31n : (2 : Nat) ^ 31 = 2147483648 := by norm_num
  unfold count_len R
  by_cases h : len > 256
  · rw [if_pos h, if_pos h]
    exact to_int_eq _ (by omega) (by norm_num; omega)
  · rw [if_neg h, if_neg h]
    exact to_int_eq _ (by omega) (by norm_num)

/-- The function `sa_sort` returns the suffixes in increasing order. -/
theorem sa_sort_spec (str : List Nat) (gsa gx gy : List Int) (fuel : Nat)
    (hlen : str.length + 1 < 2 ^ 31)
    (hb : ∀ c ∈ str, c < 256) (hsa : gsa.length = str.length) (hx : gx.length = str.length)
    (hy : gy.length = str.length) (hf : str.length + 1 ≤ fuel) :
    ∃ sa, sa_sort fuel str str.length gsa gx gy = Except.ok sa ∧ sa.length = str.length ∧
      (∀ p, p < str.length → 0 ≤ get sa p ∧ get sa p < str.length) ∧
      (∀ p q, p < str.length → q < str.length → get sa p = get sa q → p = q) ∧
      ∀ p q, p < q → q < str.length →
        str.drop (get sa p).toNat < str.drop (get sa q).toNat := by
  obtain ⟨s1, e, h1, h2, h3, h4⟩ := sa_sort_loop_spec str (by omega) fuel 1 _
    (sa_sort_init_inv str gsa gx gy hb hsa hx hy) (le_refl _) (by omega) (by omega)
  refine ⟨s1.sa, ?_, h1, h2, h3, h4⟩
  unfold sa_sort
  simp only []
  rw [count_len_int str.length hlen, if_neg (by omega), Int.toNat_ofNat, e]

/-- The assertion of `sa_char_at` holds for a suffix whose characters before `d` are in the
string: `suffix + d` is at most `len` then, so the sum does not overflow. -/
theorem sa_char_at_eq (str : List Nat) (len : Nat) (hlen : len < 2 ^ 31) (s : Int) (d : Nat)
    (h0 : 0 ≤ s) (h1 : s < len) (h2 : d < len)
    (hnn : ∀ k, k < d → 0 ≤ sa_key str len s k) :
    sa_char_at str len s d = Except.ok (sa_key str len s d) := by
  have h31n : (2 : Nat) ^ 31 = 2147483648 := by norm_num
  have h31 : (2 : Int) ^ 31 = 2147483648 := by norm_num
  have hle : s + d ≤ len := by
    rcases Nat.eq_zero_or_pos d with hd | hd
    · subst hd
      omega
    · have := hnn (d - 1) (by omega)
      unfold sa_key at this
      by_cases hc : s + ((d - 1 : Nat) : Int) ≥ len
      · rw [if_pos hc] at this
        omega
      · omega
  have e : to_int (s + d) = s + d := to_int_eq _ (by omega) (by omega)
  unfold sa_char_at sa_key
  rw [e, if_pos ⟨h1, by omega, by omega⟩]

theorem sa_key_neg (str : List Nat) (len : Nat) (s : Int) (k j : Nat)
    (h : sa_key str len s k < 0) (hkj : k ≤ j) : sa_key str len s j = sa_key str len s k := by
  unfold sa_key at h ⊢
  by_cases hk : s + k ≥ len
  · rw [if_pos hk, if_pos (by omega)]
  · rw [if_neg hk] at h
    unfold byte_at at h
    omega

theorem key_of_cons_succ (a : Nat) (u : List Nat) (d : Nat) :
    key_of (a :: u) (d + 1) = key_of u d := by
  unfold key_of
  simp

theorem key_of_cons_zero (a : Nat) (u : List Nat) : key_of (a :: u) 0 = a := by
  unfold key_of
  simp

theorem key_of_nil (d : Nat) : key_of [] d = -1 := by
  unfold key_of
  simp

/-- Lists whose characters compare as `sort` leaves them are in order. -/
theorem le_of_keys : ∀ (u v : List Nat) (n : Nat), u.length ≤ n →
    ((∀ d, d < n → key_of u d = key_of v d) ∨
      ∃ d, d < n ∧ (∀ j, j < d → key_of u j = key_of v j) ∧ key_of u d < key_of v d) →
    u ≤ v := by
  intro u
  induction u with
  | nil => intro v _ _ _; exact nil_le_list v
  | cons a as ih =>
    intro v n hn h
    simp only [List.length_cons] at hn
    cases v with
    | nil =>
      exfalso
      rcases h with h | ⟨d, hd, h1, h2⟩
      · have := h 0 (by omega)
        rw [key_of_cons_zero, key_of_nil] at this
        omega
      · cases d with
        | zero =>
          rw [key_of_cons_zero, key_of_nil] at h2
          omega
        | succ d =>
          have := h1 0 (by omega)
          rw [key_of_cons_zero, key_of_nil] at this
          omega
    | cons b bs =>
      rcases h with h | ⟨d, hd, h1, h2⟩
      · have h0 := h 0 (by omega)
        rw [key_of_cons_zero, key_of_cons_zero] at h0
        have hab : a = b := by omega
        subst hab
        have := ih bs (n - 1) (by omega) (Or.inl fun d hd => by
          have := h (d + 1) (by omega)
          rwa [key_of_cons_succ, key_of_cons_succ] at this)
        rcases lt_or_eq_of_le this with h3 | h3
        · exact le_of_lt (List.Lex.cons h3)
        · rw [h3]
      · cases d with
        | zero =>
          rw [key_of_cons_zero, key_of_cons_zero] at h2
          exact le_of_lt (List.Lex.rel (by omega))
        | succ d =>
          have h0 := h1 0 (by omega)
          rw [key_of_cons_zero, key_of_cons_zero] at h0
          have hab : a = b := by omega
          subst hab
          have := ih bs (n - 1) (by omega) (Or.inr ⟨d, by omega, fun j hj => by
            have := h1 (j + 1) (by omega)
            rwa [key_of_cons_succ, key_of_cons_succ] at this, by
            rwa [key_of_cons_succ, key_of_cons_succ] at h2⟩)
          rcases lt_or_eq_of_le this with h3 | h3
          · exact le_of_lt (List.Lex.cons h3)
          · rw [h3]

theorem sa_key_eq (str : List Nat) (a d : Nat) :
    sa_key str str.length (a : Int) d = key_of (str.drop a) d := by
  unfold sa_key key_of byte_at
  rw [List.length_drop]
  by_cases h : (a : Int) + d ≥ str.length
  · rw [if_pos h, if_neg (by omega)]
  · rw [if_neg h, if_pos (by omega)]
    have e : ((a : Int) + (d : Int)).toNat = a + d := by omega
    rw [e, List.getD_eq_getElem?_getD, List.getD_eq_getElem?_getD, List.getElem?_drop]

theorem suffix_le_of_keyLe (str : List Nat) (a b : Nat)
    (h : KeyLe (sa_key str str.length) str.length a b) : str.drop a ≤ str.drop b := by
  apply le_of_keys _ _ str.length (by rw [List.length_drop]; omega)
  rcases h with h | ⟨d, hd, h1, h2⟩
  · left
    intro d hd
    rw [← sa_key_eq, ← sa_key_eq]
    exact h d hd
  · right
    refine ⟨d, hd, fun j hj => ?_, ?_⟩
    · rw [← sa_key_eq, ← sa_key_eq]
      exact h1 j hj
    · rw [← sa_key_eq, ← sa_key_eq]
      exact h2

/-- The function `sa_quick3way` returns the suffixes in non-decreasing order. -/
theorem sa_quick3way_spec (str : List Nat) (g : List Int) (fuel : Nat)
    (hlen : str.length < 2 ^ 31) (hg : g.length = str.length)
    (hf : 2 * str.length + 1 ≤ fuel) :
    ∃ sa, sa_quick3way fuel str str.length (some g) = Except.ok sa ∧
      List.Perm sa ((List.range str.length).map Int.ofNat) ∧
      ∀ p q, p ≤ q → q < str.length →
        str.drop (get sa p).toNat ≤ str.drop (get sa q).toNat := by
  obtain ⟨sa, e, hperm, hvalid, hsorted⟩ := quick3way_spec (sa_char_at str str.length)
    (sa_key str str.length) str.length (sa_char_at_eq str str.length hlen)
    (sa_key_neg str str.length) g fuel hg hf
  refine ⟨sa, e, hperm, fun p q hpq hq => ?_⟩
  have hp := hvalid p (by omega)
  have hq2 := hvalid q hq
  apply suffix_le_of_keyLe
  rw [Int.toNat_of_nonneg hp.1, Int.toNat_of_nonneg hq2.1]
  exact hsorted p q hpq hq

theorem get_eq_getElem (a : List Int) (i : Nat) (h : i < a.length) : get a i = a[i] := by
  unfold get
  exact List.getD_eq_getElem a 0 h

/-- An array that lists different suffixes, all of them, is a permutation of
`0, ..., len - 1`. -/
theorem perm_of_bij (sa : List Int) (n : Nat) (hl : sa.length = n)
    (hr : ∀ p, p < n → 0 ≤ get sa p ∧ get sa p < n)
    (hinj : ∀ p q, p < n → q < n → get sa p = get sa q → p = q) :
    List.Perm sa ((List.range n).map Int.ofNat) := by
  have e : sa = (List.range n).map (get sa) := by
    have := list_eq_map_get sa
    rwa [hl] at this
  have hnd : sa.Nodup := by
    rw [e]
    apply List.Nodup.map_on _ (List.nodup_range n)
    intro x hx y hy hxy
    rw [List.mem_range] at hx hy
    exact hinj x y hx hy hxy
  have hnd2 : ((List.range n).map Int.ofNat).Nodup :=
    List.Nodup.map_on (fun x _ y _ hxy => Int.ofNat.inj hxy) (List.nodup_range n)
  rw [List.perm_ext_iff_of_nodup hnd hnd2]
  intro a
  constructor
  · intro ha
    rw [e, List.mem_map] at ha
    obtain ⟨p, hp, rfl⟩ := ha
    rw [List.mem_range] at hp
    have := hr p hp
    rw [List.mem_map]
    exact ⟨(get sa p).toNat, List.mem_range.2 (by omega), by
      show ((get sa p).toNat : Int) = get sa p
      omega⟩
  · intro ha
    rw [List.mem_map] at ha
    obtain ⟨v, hv, rfl⟩ := ha
    rw [List.mem_range] at hv
    obtain ⟨p, hp, e2⟩ := sa_surj sa n hr hinj v hv
    rw [e, List.mem_map]
    exact ⟨p, List.mem_range.2 hp, e2⟩

/-- There is one array that lists the suffixes of a string in order. -/
theorem suffix_order_unique (str : List Nat) (sa1 sa2 : List Int)
    (h1 : List.Perm sa1 ((List.range str.length).map Int.ofNat))
    (h2 : List.Perm sa2 ((List.range str.length).map Int.ofNat))
    (s1 : ∀ p q, p < q → q < str.length →
      str.drop (get sa1 p).toNat ≤ str.drop (get sa1 q).toNat)
    (s2 : ∀ p q, p < q → q < str.length →
      str.drop (get sa2 p).toNat ≤ str.drop (get sa2 q).toNat) : sa1 = sa2 := by
  have l1 : sa1.length = str.length := by rw [h1.length_eq]; simp
  have l2 : sa2.length = str.length := by rw [h2.length_eq]; simp
  have hsorted : ∀ (sa : List Int), sa.length = str.length →
      (∀ p q, p < q → q < str.length →
        str.drop (get sa p).toNat ≤ str.drop (get sa q).toNat) →
      List.Sorted (· ≤ ·) (sa.map (fun a => str.drop a.toNat)) := by
    intro sa hl hs
    unfold List.Sorted
    rw [List.pairwise_iff_getElem]
    intro i j hi hj hij
    rw [List.length_map] at hi hj
    rw [List.getElem_map, List.getElem_map, ← get_eq_getElem sa i hi, ← get_eq_getElem sa j hj]
    exact hs i j hij (by omega)
  have hmap := List.eq_of_perm_of_sorted ((h1.trans h2.symm).map (fun a => str.drop a.toNat))
    (hsorted sa1 l1 s1) (hsorted sa2 l2 s2)
  have hmem : ∀ (sa : List Int), List.Perm sa ((List.range str.length).map Int.ofNat) →
      ∀ i (hi : i < sa.length), 0 ≤ sa[i] ∧ sa[i] < str.length := by
    intro sa hp i hi
    have := hp.mem_iff.1 (List.getElem_mem hi)
    rw [List.mem_map] at this
    obtain ⟨v, hv, e⟩ := this
    rw [List.mem_range] at hv
    rw [← e]
    exact ⟨Int.ofNat_nonneg v, Int.ofNat_lt.2 hv⟩
  apply List.ext_getElem (by rw [l1, l2])
  intro i hi1 hi2
  have k1 : i < (sa1.map (fun a => str.drop a.toNat)).length := by
    rw [List.length_map]
    exact hi1
  have k2 : i < (sa2.map (fun a => str.drop a.toNat)).length := by
    rw [List.length_map]
    exact hi2
  have e : (sa1.map (fun a => str.drop a.toNat))[i] = (sa2.map (fun a => str.drop a.toNat))[i] := by
    simp only [hmap]
  rw [List.getElem_map, List.getElem_map] at e
  have m1 := hmem sa1 h1 i hi1
  have m2 := hmem sa2 h2 i hi2
  by_contra hne
  exact suffix_ne str _ _ (by omega) (by omega) (by omega) e

theorem byte_at_replicate (n : Nat) (i : Int) : byte_at (List.replicate n 0) i = 0 := by
  unfold byte_at
  rw [List.getD_eq_getElem?_getD, List.getElem?_replicate]
  split_ifs <;> rfl

/-- The function `csa_char_at` on the string of `n` zero bytes: the assertion fails exactly
when `suffix + i` overflows `int`. -/
theorem csa_char_at_zeros (n : Nat) (hn : n < 2 ^ 31) (s d : Nat) (hs : s < n) (hd : d < n) :
    csa_char_at (List.replicate n 0) n s d
      = if s + d < 2 ^ 31 then Except.ok 0 else Except.error Fault.assert_char_at := by
  have h31n : (2 : Nat) ^ 31 = 2147483648 := by norm_num
  have h31 : (2 : Int) ^ 31 = 2147483648 := by norm_num
  have h32 : (2 : Int) ^ 32 = 4294967296 := by norm_num
  unfold csa_char_at
  by_cases h : s + d < 2 ^ 31
  · have e : to_int ((s : Int) + d) = s + d := to_int_eq _ (by omega) (by omega)
    rw [e, if_pos ⟨by omega, by omega, by omega⟩, byte_at_replicate, if_pos h]
  · have e : to_int ((s : Int) + d) = s + d - 2 ^ 32 := to_int_wrap _ (by omega) (by omega)
    rw [e, if_neg (by omega), if_neg h]

/-- The loop of `sort` on the string of zero bytes leaves the array as it is while no sum
overflows. -/
theorem partition_zeros_ok (n d : Nat) (hn : n < 2 ^ 31) (hd : d < n)
    (hgood : n - 1 + d < 2 ^ 31) (sa : List Int) (hsa : ∀ x, x < n → get sa x = (x : Int))
    (lt : Nat) :
    ∀ fuel i, i ≤ n → n - i < fuel →
      partition_loop (csa_char_at (List.replicate n 0) n) d 0 fuel sa lt (n - 1) i
        = Except.ok (sa, lt, n - 1) := by
  intro fuel
  induction fuel with
  | zero =>
    intro i _ hf
    omega
  | succ fuel ih =>
    intro i hi hf
    rw [partition_loop]
    by_cases hle : i ≤ n - 1
    · rw [if_pos hle, hsa i (by omega), csa_char_at_zeros n hn i d (by omega) hd,
        if_pos (by omega)]
      simp only [lt_irrefl, gt_iff_lt, if_false]
      exact ih (i + 1) (by omega) (by omega)
    · rw [if_neg hle]

/-- The loop of `sort` on the string of zero bytes fails the assertion of `csa_char_at` at
the depth `d` at which `sa[len - 1] + d` overflows. -/
theorem partition_zeros_fail (n d : Nat) (hn : n < 2 ^ 31) (hd : d < n)
    (hbad : 2 ^ 31 ≤ n - 1 + d) (sa : List Int) (hsa : ∀ x, x < n → get sa x = (x : Int))
    (lt : Nat) :
    ∀ fuel i, i ≤ n - 1 → n - i ≤ fuel →
      partition_loop (csa_char_at (List.replicate n 0) n) d 0 fuel sa lt (n - 1) i
        = Except.error Fault.assert_char_at := by
  intro fuel
  induction fuel with
  | zero =>
    intro i hi hf
    omega
  | succ fuel ih =>
    intro i hi hf
    rw [partition_loop, if_pos hi, hsa i (by omega),
      csa_char_at_zeros n hn i d (by omega) hd]
    by_cases h : i + d < 2 ^ 31
    · rw [if_pos h]
      simp only [lt_irrefl, gt_iff_lt, if_false]
      exact ih (i + 1) (by omega) (by omega)
    · rw [if_neg h]

/-- The function `sort` on the string of `n` zero bytes, `n` above `2 ^ 30`, entered at
depth `d` with the whole array: the recursion on the middle part descends to the depth
`2 ^ 31 - (n - 1)`, where the assertion of `csa_char_at` fails. -/
theorem sort_zeros_fail (n : Nat) (hn : n < 2 ^ 31) (hbig : 2 ^ 30 < n) (sa : List Int)
    (hsa : ∀ x, x < n → get sa x = (x : Int)) :
    ∀ m d fuel, d + m + (n - 1) = 2 ^ 31 → m + n + 1 ≤ fuel →
      sort (csa_char_at (List.replicate n 0) n) n fuel sa 0 n d
        = Except.error Fault.assert_char_at := by
  have h31n : (2 : Nat) ^ 31 = 2147483648 := by norm_num
  have h30n : (2 : Nat) ^ 30 = 1073741824 := by norm_num
  intro m
  induction m with
  | zero =>
    intro d fuel hd hf
    obtain ⟨f, rfl⟩ : ∃ f, fuel = f + 1 := ⟨fuel - 1, by omega⟩
    rw [sort, if_neg (by omega), if_neg (by omega), hsa 0 (by omega)]
    have e := csa_char_at_zeros n hn 0 d (by omega) (by omega)
    rw [if_pos (by omega)] at e
    rw [e]
    simp only []
    rw [partition_zeros_fail n d hn (by omega) (by omega) sa hsa 0 (f + 1) (0 + 1) (by omega)
      (by omega)]
  | succ m ih =>
    intro d fuel hd hf
    obtain ⟨f, rfl⟩ : ∃ f, fuel = f + 1 := ⟨fuel - 1, by omega⟩
    obtain ⟨g, rfl⟩ : ∃ g, f = g + 1 := ⟨f - 1, by omega⟩
    rw [sort, if_neg (by omega), if_neg (by omega), hsa 0 (by omega)]
    have e := csa_char_at_zeros n hn 0 d (by omega) (by omega)
    rw [if_pos (by omega)] at e
    rw [e]
    simp only []
    rw [partition_zeros_ok n d hn (by omega) (by omega) sa hsa 0 (g + 1 + 1) (0 + 1)
      (by omega) (by omega)]
    simp only []
    have e1 : sort (csa_char_at (List.replicate n 0) n) n (g + 1) sa 0 0 d
        = Except.ok sa := by
      rw [sort, if_neg (by omega), if_pos (by omega)]
    have e2 : n - 1 + 1 = n := by omega
    rw [e1]
    simp only [ge_iff_le, le_refl, if_true]
    rw [e2, ih (d + 1) (g + 1) (by omega) (by omega)]

/-- The function `csa_quick3way` fails the assertion of `csa_char_at` on every string of
zero bytes of more than `2 ^ 30` bytes. -/
theorem csa_quick3way_zeros (n : Nat) (hn : n < 2 ^ 31) (hbig : 2 ^ 30 < n) (g : List Int)
    (hg : g.length = n) (fuel : Nat) (hf : 2 * n ≤ fuel) :
    csa_quick3way fuel (List.replicate n 0) n (some g)
      = Except.error Fault.assert_char_at := by
  have h31n : (2 : Nat) ^ 31 = 2147483648 := by norm_num
  have h30n : (2 : Nat) ^ 30 = 1073741824 := by norm_num
  obtain ⟨_, hget⟩ := init_loop_spec g n (by omega)
  unfold csa_quick3way quick3way
  simp only []
  exact sort_zeros_fail n hn hbig _ (fun x hx => by rw [hget x, if_pos hx])
    (2 ^ 31 - (n - 1)) 0 fuel (by omega) (by omega)

/-- The function `sa_sort` on a string of `2 ^ 31 - 1` bytes: `count_len` overflows. -/
theorem sa_sort_null_count (fuel : Nat) (str : List Nat) (gsa gx gy : List Int) :
    sa_sort fuel str (2 ^ 31 - 1) gsa gx gy = Except.error Fault.null_count := by
  have h : to_int (if 2 ^ 31 - 1 > R then (((2 ^ 31 - 1 : Nat)) : Int) + 1 else (R : Int) + 1)
      < 0 := by decide
  unfold sa_sort
  simp only []
  rw [if_pos h]

/-! ### The claims about `circular_suffix_array/main.c` -/

/-- C23 as stated fails: on the string of `2 ^ 30 + 1` zero bytes, with the allocation of
the array succeeding, `csa_quick3way` does not return an array: every rotation starts with
the same characters, `sort` descends on the whole array to the depth `d = 2 ^ 30`, and there
`csa_char_at` is called with `suffix = 2 ^ 30`, where `suffix + i` overflows `int` and the
assertion `suffix + i >= 0` fails.  On the string of `2 ^ 31 - 1` zero bytes the same
happens at the depth `d = 2`, with `suffix = 2 ^ 31 - 2`. -/
theorem csa_quick3way_overflow :
    csa_quick3way (2 ^ 32) (List.replicate (2 ^ 30 + 1) 0) (2 ^ 30 + 1)
      (some (List.replicate (2 ^ 30 + 1) 0)) = Except.error Fault.assert_char_at ∧
    csa_quick3way (2 ^ 32) (List.replicate (2 ^ 31 - 1) 0) (2 ^ 31 - 1)
      (some (List.replicate (2 ^ 31 - 1) 0)) = Except.error Fault.assert_char_at :=
  ⟨csa_quick3way_zeros (2 ^ 30 + 1) (by decide) (by decide) (List.replicate (2 ^ 30 + 1) 0)
      (List.length_replicate _ _) (2 ^ 32) (by decide),
    csa_quick3way_zeros (2 ^ 31 - 1) (by decide) (by decide) (List.replicate (2 ^ 31 - 1) 0)
      (List.length_replicate _ _) (2 ^ 32) (by decide)⟩

/-- C23, as the code has it. `csa_quick3way` sorts the circular suffix array: for every byte
string `str` of at most `2 ^ 30` bytes (so that `suffix + i` does not overflow `int`), with
`len` its length and the allocation of the `len` elements succeeding, the recursion ends (a
fuel of `2 * len + 1` suffices), no assertion of `csa_char_at` fails, and the returned array
is a permutation of `0, ..., len - 1` in which the rotations of `str` that start at the
entries are in non-decreasing lexicographic order. -/
theorem csa_quick3way_sorts (str : List Nat) (g : List Int) (fuel : Nat)
    (hlen : str.length ≤ 2 ^ 30) (hg : g.length = str.length)
    (hf : 2 * str.length + 1 ≤ fuel) :
    ∃ sa, csa_quick3way fuel str str.length (some g) = Except.ok sa ∧
      List.Perm sa ((List.range str.length).map Int.ofNat) ∧
      ∀ x y, x ≤ y → y < str.length →
        lex_le (rotation str (get sa x).toNat) (rotation str (get sa y).toNat) = true := by
  obtain ⟨sa, e, hperm, hvalid, hsorted⟩ := quick3way_spec (csa_char_at str str.length)
    (csa_key str str.length) str.length
    (fun s d h0 h1 h2 _ => csa_char_at_eq str str.length hlen s d h0 h1 h2)
    (csa_key_nonneg str str.length) g fuel hg hf
  refine ⟨sa, e, hperm, fun x y h1 h2 => ?_⟩
  have hx := hvalid x (by omega)
  have hy := hvalid y h2
  apply lex_le_of_keyLe str _ _ (by omega) (by omega)
  rw [Int.toNat_of_nonneg hx.1, Int.toNat_of_nonneg hy.1]
  exact hsorted x y h1 h2

theorem csa_quick3way_sorts_witness :
    csa_quick3way 100 abracadabra 12 (some (List.replicate 12 0))
      = Except.ok [11, 10, 7, 0, 3, 5, 8, 1, 4, 6, 9, 2] ∧
    ∃ sa, csa_quick3way 100 abracadabra abracadabra.length (some (List.replicate 12 0))
        = Except.ok sa ∧
      List.Perm sa ((List.range abracadabra.length).map Int.ofNat) :=
  let ⟨sa, h1, h2, _⟩ := csa_quick3way_sorts abracadabra (List.replicate 12 0) 100
    (by decide) (by decide) (by decide)
  ⟨rfl, sa, h1, h2⟩

/-- C27 as stated fails: on the string of `2 ^ 31 - 1` zero bytes `sa_quick3way` returns an
array and `sa_sort` does not: `count_len = len + 1` overflows `int`, the allocation of
`count` is a request for more than `2 ^ 63` bytes, and line 230 writes through the null
pointer. -/
theorem sa_sort_count_len_overflow :
    (∃ sa, sa_quick3way (2 ^ 32) (List.replicate (2 ^ 31 - 1) 0) (2 ^ 31 - 1)
      (some (List.replicate (2 ^ 31 - 1) 0)) = Except.ok sa) ∧
    sa_sort (2 ^ 32) (List.replicate (2 ^ 31 - 1) 0) (2 ^ 31 - 1)
      (List.replicate (2 ^ 31 - 1) 0) (List.replicate (2 ^ 31 - 1) 0)
      (List.replicate (2 ^ 31 - 1) 0) = Except.error Fault.null_count := by
  have hl : (List.replicate (2 ^ 31 - 1) 0 : List Nat).length = 2 ^ 31 - 1 :=
    List.length_replicate _ _
  have hl2 : (List.replicate (2 ^ 31 - 1) 0 : List Int).length
      = (List.replicate (2 ^ 31 - 1) 0 : List Nat).length := by
    rw [List.length_replicate, List.length_replicate]
  have h1 : (List.replicate (2 ^ 31 - 1) 0 : List Nat).length < 2 ^ 31 := by
    rw [hl]
    decide
  have h2 : 2 * (List.replicate (2 ^ 31 - 1) 0 : List Nat).length + 1 ≤ 2 ^ 32 := by
    rw [hl]
    decide
  obtain ⟨sa, e, _⟩ := sa_quick3way_spec (List.replicate (2 ^ 31 - 1) 0)
    (List.replicate (2 ^ 31 - 1) 0) (2 ^ 32) h1 hl2 h2
  rw [hl] at e
  exact ⟨⟨sa, e⟩, sa_sort_null_count _ _ _ _ _⟩

/-- C27, as the code has it: the two suffix-array sorts agree.  For every string `str` of
bytes, of at most `2 ^ 31 - 2` bytes (so that `len + 1` does not overflow `int`), with `len`
its length and all the allocations succeeding, `sa_sort` and `sa_quick3way` both return (the
fuel of `2 * len + 1` suffices), so that neither the assertion `r < len` nor another one
fails, and they return the same array; it is a permutation of `0, ..., len - 1` that lists
the suffixes of `str` in strictly increasing lexicographic order, a proper prefix before the
longer suffix, and it is the only permutation that lists them in order. -/
theorem sa_sorts_agree (str : List Nat) (gsa gx gy g : List Int) (fuel : Nat)
    (hlen : str.length + 2 ≤ 2 ^ 31) (hb : ∀ c ∈ str, c < 256)
    (hsa : gsa.length = str.length) (hx : gx.length = str.length)
    (hy : gy.length = str.length) (hg : g.length = str.length)
    (hf : 2 * str.length + 1 ≤ fuel) :
    ∃ sa, sa_sort fuel str str.length gsa gx gy = Except.ok sa ∧
      sa_quick3way fuel str str.length (some g) = Except.ok sa ∧
      List.Perm sa ((List.range str.length).map Int.ofNat) ∧
      (∀ p q, p < q → q < str.length →
        lex_le (str.drop (get sa p).toNat) (str.drop (get sa q).toNat) = true ∧
        lex_le (str.drop (get sa q).toNat) (str.drop (get sa p).toNat) = false) ∧
      ∀ sa1, List.Perm sa1 ((List.range str.length).map Int.ofNat) →
        (∀ p q, p < q → q < str.length →
          lex_le (str.drop (get sa1 p).toNat) (str.drop (get sa1 q).toNat) = true) →
        sa1 = sa := by
  obtain ⟨sa, e1, l1, r1, i1, s1⟩ := sa_sort_spec str gsa gx gy fuel (by omega) hb hsa hx hy
    (by omega)
  obtain ⟨sa2, e2, p2, s2⟩ := sa_quick3way_spec str g fuel (by omega) hg hf
  have p1 := perm_of_bij sa str.length l1 r1 i1
  have hle : ∀ p q, p < q → q < str.length →
      str.drop (get sa p).toNat ≤ str.drop (get sa q).toNat :=
    fun p q hpq hq => le_of_lt (s1 p q hpq hq)
  have e : sa2 = sa := suffix_order_unique str sa2 sa p2 p1
    (fun p q hpq hq => s2 p q (by omega) hq) hle
  rw [e] at e2
  refine ⟨sa, e1, e2, p1, fun p q hpq hq => ⟨?_, ?_⟩, fun sa1 hp hs => ?_⟩
  · exact (lex_le_iff _ _).2 (hle p q hpq hq)
  · cases hx : lex_le (str.drop (get sa q).toNat) (str.drop (get sa p).toNat) with
    | false => rfl
    | true => exact absurd ((lex_le_iff _ _).1 hx) (not_le.2 (s1 p q hpq hq))
  · exact suffix_order_unique str sa1 sa hp p1
      (fun p q hpq hq => (lex_le_iff _ _).1 (hs p q hpq hq)) hle

theorem sa_sorts_agree_witness :
    sa_sort 100 abracadabra 12 (List.replicate 12 0) (List.replicate 12 0)
      (List.replicate 12 0) = Except.ok [11, 10, 7, 0, 3, 5, 8, 1, 4, 6, 9, 2] ∧
    sa_quick3way 100 abracadabra 12 (some (List.replicate 12 0))
      = Except.ok [11, 10, 7, 0, 3, 5, 8, 1, 4, 6, 9, 2] := by
  obtain ⟨sa, h1, h2, _⟩ := sa_sorts_agree abracadabra (List.replicate 12 0)
    (List.replicate 12 0) (List.replicate 12 0) (List.replicate 12 0) 100
    (by decide) (by decide) (by decide) (by decide) (by decide) (by decide) (by decide)
  have e : sa_quick3way 100 abracadabra 12 (some (List.replicate 12 0))
      = Except.ok [11, 10, 7, 0, 3, 5, 8, 1, 4, 6, 9, 2] := rfl
  have hsa : sa = [11, 10, 7, 0, 3, 5, 8, 1, 4, 6, 9, 2] := Except.ok.inj (h2.symm.trans e)
  subst hsa
  exact ⟨h1, e⟩

end Csa -- theorems

/-! ## Theorems about `rbtree` -/

namespace Rbtree

theorem rep_congr (h h1 : Nat → Option rbnode) :
    ∀ (t : Tree) (par : Option Nat), (∀ q, q ∈ t.addrs → h1 q = h q) → Rep h par t →
      Rep h1 par t := by
  intro t
  induction t with
  | nil => intro _ _ _; trivial
  | node l a c v r ihl ihr =>
    intro par hq hrep
    obtain ⟨h1a, h2, h3⟩ := hrep
    refine ⟨?_, ihl _ (fun q hm => hq q ?_) h2, ihr _ (fun q hm => hq q ?_) h3⟩
    · rw [hq a (by simp [Tree.addrs])]
      exact h1a
    · simp [Tree.addrs, hm]
    · simp [Tree.addrs, hm]

theorem repPath_congr (h h1 : Nat → Option rbnode) :
    ∀ (ctx : List Frame) (hole outer : Option Nat),
      (∀ q, q ∈ pathAddrs ctx → h1 q = h q) → RepPath h ctx hole outer →
      RepPath h1 ctx hole outer := by
  intro ctx
  induction ctx with
  | nil => intro _ _ _ _; trivial
  | cons f up ih =>
    intro hole outer hq hrep
    cases f with
    | L a c v r =>
      obtain ⟨h1a, h2, h3⟩ := hrep
      refine ⟨?_, rep_congr h h1 r _ (fun q hm => hq q ?_) h2,
        ih _ _ (fun q hm => hq q ?_) h3⟩
      · rw [hq a (by simp [pathAddrs, Frame.addrs])]
        exact h1a
      · simp [pathAddrs, Frame.addrs, hm]
      · simp [pathAddrs, Frame.addrs, hm]
    | R l a c v =>
      obtain ⟨h1a, h2, h3⟩ := hrep
      refine ⟨?_, rep_congr h h1 l _ (fun q hm => hq q ?_) h2,
        ih _ _ (fun q hm => hq q ?_) h3⟩
      · rw [hq a (by simp [pathAddrs, Frame.addrs])]
        exact h1a
      · simp [pathAddrs, Frame.addrs, hm]
      · simp [pathAddrs, Frame.addrs, hm]

@[simp] theorem ptr_nil : Tree.nil.ptr = none := rfl

@[simp] theorem ptr_node (l : Tree) (a : Nat) (c v : Int) (r : Tree) :
    (Tree.node l a c v r).ptr = some a := rfl

@[simp] theorem pathPtr_nil (outer : Option Nat) : pathPtr [] outer = outer := rfl

@[simp] theorem pathPtr_cons (f : Frame) (up : List Frame) (outer : Option Nat) :
    pathPtr (f :: up) outer = some f.addr := rfl

@[simp] theorem pathTop_nil (hole : Option Nat) : pathTop [] hole = hole := rfl

@[simp] theorem pathTop_cons (f : Frame) (up : List Frame) (hole : Option Nat) :
    pathTop (f :: up) hole = pathTop up (some f.addr) := rfl

@[simp] theorem addr_L (a : Nat) (c v : Int) (r : Tree) : (Frame.L a c v r).addr = a := rfl

@[simp] theorem addr_R (l : Tree) (a : Nat) (c v : Int) : (Frame.R l a c v).addr = a := rfl

@[simp] theorem store_mem (s : State) (a : Nat) (n : rbnode) (q : Nat) :
    (store s a n).mem q = if q = a then some n else s.mem q := by
  simp [store, Function.update_apply]

@[simp] theorem store_node (s : State) (a : Nat) (n : rbnode) : (store s a n).node = s.node :=
  rfl

theorem nodup_node (l : Tree) (a : Nat) (c v : Int) (r : Tree)
    (h : (Tree.node l a c v r).addrs.Nodup) :
    l.addrs.Nodup ∧ r.addrs.Nodup ∧ a ∉ l.addrs ∧ a ∉ r.addrs ∧
      ∀ q, q ∈ l.addrs → q ∉ r.addrs := by
  simp only [Tree.addrs, List.nodup_append, List.nodup_cons] at h
  obtain ⟨h1, ⟨h2, h3⟩, h4⟩ := h
  refine ⟨h1, h3, fun hm => h4 hm (List.mem_cons_self _ _), h2,
    fun q hq hq2 => h4 hq (List.mem_cons_of_mem _ hq2)⟩

/-- The root of a represented subtree can be given another parent. -/
theorem rep_reparent (s : State) (t : Tree) (par par1 : Option Nat)
    (hrep : Rep s.mem par t) (hnd : t.addrs.Nodup) :
    ∃ s1, set_parent_if s t.ptr par1 = Except.ok s1 ∧ s1.node = s.node ∧
      Rep s1.mem par1 t ∧ ∀ q, some q ≠ t.ptr → s1.mem q = s.mem q := by
  cases t with
  | nil =>
    exact ⟨s, rfl, rfl, trivial, fun q _ => rfl⟩
  | node l a c v r =>
    obtain ⟨h1, h2, h3⟩ := hrep
    obtain ⟨_, _, n1, n2, _⟩ := nodup_node l a c v r hnd
    refine ⟨store s a ⟨par1, l.ptr, r.ptr, c, v⟩,
      by simp [set_parent_if, set_parent, h1], rfl, ⟨by simp, ?_, ?_⟩, ?_⟩
    · apply rep_congr _ _ l _ _ h2
      intro q hq
      have : q ≠ a := fun e => n1 (e ▸ hq)
      simp [this]
    · apply rep_congr _ _ r _ _ h3
      intro q hq
      have : q ≠ a := fun e => n2 (e ▸ hq)
      simp [this]
    · intro q hq
      have : q ≠ a := fun e => hq (by rw [e]; rfl)
      simp [this]

theorem ptr_mem_addrs (t : Tree) (a : Nat) (h : t.ptr = some a) : a ∈ t.addrs := by
  cases t with
  | nil => simp at h
  | node l b c v r =>
    simp only [ptr_node, Option.some.injEq] at h
    subst h
    simp [Tree.addrs]

theorem nodup_frame (f : Frame) (up : List Frame) (h : (pathAddrs (f :: up)).Nodup) :
    (pathAddrs up).Nodup ∧ f.addr ∉ pathAddrs up ∧
      match f with
      | Frame.L a _ _ r => a ∉ r.addrs ∧ r.addrs.Nodup ∧ ∀ q, q ∈ r.addrs → q ∉ pathAddrs up
      | Frame.R l a _ _ => a ∉ l.addrs ∧ l.addrs.Nodup ∧ ∀ q, q ∈ l.addrs → q ∉ pathAddrs up := by
  cases f with
  | L a c v r =>
    simp only [pathAddrs, Frame.addrs, List.nodup_append, List.nodup_cons, List.cons_append]
      at h
    obtain ⟨h1, h2, h3, h4⟩ := h
    simp only [List.mem_append, not_or] at h1
    exact ⟨h3, h1.2, h1.1, h2, fun q hq hq2 => h4 hq hq2⟩
  | R l a c v =>
    simp only [pathAddrs, Frame.addrs, List.nodup_append, List.nodup_cons, List.cons_append]
      at h
    obtain ⟨h1, h2, h3, h4⟩ := h
    simp only [List.mem_append, not_or] at h1
    exact ⟨h3, h1.2, h1.1, h2, fun q hq hq2 => h4 hq hq2⟩

/-- The link from the parent of the subtree `b` (or from the root) is redirected to `n`. -/
theorem replace_child_spec (s : State) (ctx : List Frame) (b : Nat) (n : Option Nat)
    (hpath : RepPath s.mem ctx (some b) none) (hroot : s.node = pathTop ctx (some b))
    (hb : b ∉ pathAddrs ctx) (hnd : (pathAddrs ctx).Nodup) :
    ∃ s1, replace_child s (pathPtr ctx none) (some b) n = Except.ok s1 ∧
      RepPath s1.mem ctx n none ∧ s1.node = pathTop ctx n ∧
      ∀ q, some q ≠ pathPtr ctx none → s1.mem q = s.mem q := by
  cases ctx with
  | nil =>
    exact ⟨{ s with node := n }, rfl, trivial, rfl, fun q _ => rfl⟩
  | cons f up =>
    obtain ⟨n1, n2, n3⟩ := nodup_frame f up hnd
    cases f with
    | L a c v r =>
      obtain ⟨h1, h2, h3⟩ := hpath
      simp only [addr_L] at n2
      refine ⟨store s a ⟨pathPtr up none, n, r.ptr, c, v⟩,
        by simp [replace_child, deref, h1, set_left], ⟨by simp, ?_, ?_⟩,
        by simpa using hroot, ?_⟩
      · apply rep_congr _ _ r _ _ h2
        intro q hq
        have : q ≠ a := fun e => n3.1 (e ▸ hq)
        simp [this]
      · apply repPath_congr _ _ up _ _ _ h3
        intro q hq
        have : q ≠ a := fun e => n2 (e ▸ hq)
        simp [this]
      · intro q hq
        have : q ≠ a := fun e => hq (by rw [e]; rfl)
        simp [this]
    | R l a c v =>
      obtain ⟨h1, h2, h3⟩ := hpath
      simp only [addr_R] at n2
      have hl : l.ptr ≠ some b := by
        intro e
        apply hb
        simp [pathAddrs, Frame.addrs, ptr_mem_addrs l b e]
      refine ⟨store s a ⟨pathPtr up none, l.ptr, n, c, v⟩,
        by simp [replace_child, deref, h1, set_right, hl], ⟨by simp, ?_, ?_⟩,
        by simpa using hroot, ?_⟩
      · apply rep_congr _ _ l _ _ h2
        intro q hq
        have : q ≠ a := fun e => n3.1 (e ▸ hq)
        simp [this]
      · apply repPath_congr _ _ up _ _ _ h3
        intro q hq
        have : q ≠ a := fun e => n2 (e ▸ hq)
        simp [this]
      · intro q hq
        have : q ≠ a := fun e => hq (by rw [e]; rfl)
        simp [this]

theorem pathPtr_mem (ctx : List Frame) (a : Nat) (h : pathPtr ctx none = some a) :
    a ∈ pathAddrs ctx := by
  cases ctx with
  | nil => simp at h
  | cons f up =>
    simp only [pathPtr_cons, Option.some.injEq] at h
    subst h
    cases f <;> simp [pathAddrs, Frame.addrs]

theorem rotate_left_spec (s : State) (ctx : List Frame) (x y z : Tree) (b n : Nat)
    (cb vb cn vn : Int)
    (h : RepZ s ctx (Tree.node x b cb vb (Tree.node y n cn vn z))) :
    ∃ s1, rb_rotate_left (some n) s = Except.ok s1 ∧
      RepZ s1 ctx (Tree.node (Tree.node x b cb vb y) n cn vn z) := by
  obtain ⟨hpath, ⟨hb, hx, hn, hy, hz⟩, hroot, hnd⟩ := h
  simp only [ptr_node] at hpath hroot hb
  have ndP : (pathAddrs ctx).Nodup := (List.nodup_append.1 hnd).1
  have ndy : y.addrs.Nodup := by
    have h1 := (List.nodup_append.1 hnd).2.1
    simp only [Tree.addrs] at h1
    have h2 := ((List.nodup_append.1 h1).2.1).of_cons
    exact (List.nodup_append.1 h2).1
  have hc : ∀ q, List.count q (pathAddrs ctx ++
      (Tree.node x b cb vb (Tree.node y n cn vn z)).addrs) ≤ 1 :=
    fun q => List.nodup_iff_count_le_one.1 hnd q
  simp only [Tree.addrs, List.count_append, List.count_cons] at hc
  have hbn : b ≠ n := fun e => by
    subst e
    have h1 := hc b
    simp only [beq_self_eq_true, if_true] at h1
    omega
  have hbP : b ∉ pathAddrs ctx := fun hm => by
    have h1 := hc b
    have h2 := List.count_pos_iff.2 hm
    simp only [beq_self_eq_true, if_true] at h1
    omega
  have hnP : n ∉ pathAddrs ctx := fun hm => by
    have h1 := hc n
    have h2 := List.count_pos_iff.2 hm
    simp only [beq_self_eq_true, if_true] at h1
    omega
  have hbx : b ∉ x.addrs := fun hm => by
    have h1 := hc b
    have h2 := List.count_pos_iff.2 hm
    simp only [beq_self_eq_true, if_true] at h1
    omega
  have hby : b ∉ y.addrs := fun hm => by
    have h1 := hc b
    have h2 := List.count_pos_iff.2 hm
    simp only [beq_self_eq_true, if_true] at h1
    omega
  have hbz : b ∉ z.addrs := fun hm => by
    have h1 := hc b
    have h2 := List.count_pos_iff.2 hm
    simp only [beq_self_eq_true, if_true] at h1
    omega
  have hnx : n ∉ x.addrs := fun hm => by
    have h1 := hc n
    have h2 := List.count_pos_iff.2 hm
    simp only [beq_self_eq_true, if_true] at h1
    omega
  have hny : n ∉ y.addrs := fun hm => by
    have h1 := hc n
    have h2 := List.count_pos_iff.2 hm
    simp only [beq_self_eq_true, if_true] at h1
    omega
  have hnz : n ∉ z.addrs := fun hm => by
    have h1 := hc n
    have h2 := List.count_pos_iff.2 hm
    simp only [beq_self_eq_true, if_true] at h1
    omega
  have dPx : ∀ q, q ∈ pathAddrs ctx → q ∈ x.addrs → False := fun q h1 h2 => by
    have h3 := hc q
    have h4 := List.count_pos_iff.2 h1
    have h5 := List.count_pos_iff.2 h2
    omega
  have dPy : ∀ q, q ∈ pathAddrs ctx → q ∈ y.addrs → False := fun q h1 h2 => by
    have h3 := hc q
    have h4 := List.count_pos_iff.2 h1
    have h5 := List.count_pos_iff.2 h2
    omega
  have dPz : ∀ q, q ∈ pathAddrs ctx → q ∈ z.addrs → False := fun q h1 h2 => by
    have h3 := hc q
    have h4 := List.count_pos_iff.2 h1
    have h5 := List.count_pos_iff.2 h2
    omega
  have dxy : ∀ q, q ∈ x.addrs → q ∈ y.addrs → False := fun q h1 h2 => by
    have h3 := hc q
    have h4 := List.count_pos_iff.2 h1
    have h5 := List.count_pos_iff.2 h2
    omega
  have dyz : ∀ q, q ∈ y.addrs → q ∈ z.addrs → False := fun q h1 h2 => by
    have h3 := hc q
    have h4 := List.count_pos_iff.2 h1
    have h5 := List.count_pos_iff.2 h2
    omega
  have hbn2 : b ≠ n := hbn
  -- b->right = y
  have e1 : set_right s (some b) y.ptr
      = Except.ok (store s b ⟨pathPtr ctx none, x.ptr, y.ptr, cb, vb⟩) := by
    simp [set_right, hb]
  -- if (y) y->parent = b
  have hy1 : Rep (store s b ⟨pathPtr ctx none, x.ptr, y.ptr, cb, vb⟩).mem (some n) y := by
    apply rep_congr _ _ y _ _ hy
    intro q hq
    have : q ≠ b := fun e => hby (e ▸ hq)
    simp [this]
  obtain ⟨s2, e2, r2, hy2, f2⟩ := rep_reparent _ y (some n) (some b) hy1 ndy
  have m2 : ∀ q, q ∉ y.addrs → q ≠ b → s2.mem q = s.mem q := by
    intro q hq hqb
    rw [f2 q (fun e => hq (ptr_mem_addrs y q e.symm))]
    simp [hqb]
  -- the link from the parent
  have hpath2 : RepPath s2.mem ctx (some b) none := by
    apply repPath_congr _ _ ctx _ _ _ hpath
    intro q hq
    exact m2 q (fun hm => dPy q hq hm) (fun e => hbP (e ▸ hq))
  obtain ⟨s3, e3, hpath3, r3, f3⟩ := replace_child_spec s2 ctx b (some n) hpath2
    (by rw [r2]; exact hroot) hbP ndP
  have m3 : ∀ q, q ∉ pathAddrs ctx → s3.mem q = s2.mem q :=
    fun q hq => f3 q (fun e => hq (pathPtr_mem ctx q e.symm))
  have hn3 : s3.mem n = some ⟨some b, y.ptr, z.ptr, cn, vn⟩ := by
    rw [m3 n hnP, m2 n hny (fun e => hbn2 e.symm)]
    exact hn
  have hb3 : s3.mem b = some ⟨pathPtr ctx none, x.ptr, y.ptr, cb, vb⟩ := by
    rw [m3 b hbP, f2 b (fun e => hby (ptr_mem_addrs y b e.symm))]
    simp
  refine ⟨store (store (store s3 n ⟨pathPtr ctx none, y.ptr, z.ptr, cn, vn⟩) n
      ⟨pathPtr ctx none, some b, z.ptr, cn, vn⟩) b ⟨some n, x.ptr, y.ptr, cb, vb⟩, ?_, ?_⟩
  · simp [rb_rotate_left, rb_parent, deref, hn, hb, e1, e2, e3, set_parent, set_left, hn3,
      hb3, hbn2]
  · refine ⟨?_, ⟨?_, ⟨?_, ?_, ?_⟩, ?_⟩, ?_, ?_⟩
    · apply repPath_congr _ _ ctx _ _ _ hpath3
      intro q hq
      have h1 : q ≠ b := fun e => hbP (e ▸ hq)
      have h2 : q ≠ n := fun e => hnP (e ▸ hq)
      simp [h1, h2]
    · simp [hbn2.symm]
    · simp
    · apply rep_congr _ _ x _ _ hx
      intro q hq
      have h1 : q ≠ b := fun e => hbx (e ▸ hq)
      have h2 : q ≠ n := fun e => hnx (e ▸ hq)
      simp only [store_mem, if_neg h1, if_neg h2]
      rw [m3 q (fun hm => dPx q hm hq), m2 q (fun hm => dxy q hq hm) h1]
    · apply rep_congr _ _ y _ _ hy2
      intro q hq
      have h1 : q ≠ b := fun e => hby (e ▸ hq)
      have h2 : q ≠ n := fun e => hny (e ▸ hq)
      simp only [store_mem, if_neg h1, if_neg h2]
      exact m3 q (fun hm => dPy q hm hq)
    · apply rep_congr _ _ z _ _ hz
      intro q hq
      have h1 : q ≠ b := fun e => hbz (e ▸ hq)
      have h2 : q ≠ n := fun e => hnz (e ▸ hq)
      simp only [store_mem, if_neg h1, if_neg h2]
      rw [m3 q (fun hm => dPz q hm hq), m2 q (fun hm => dyz q hm hq) h1]
    · simpa using r3
    · simpa [Tree.addrs, List.append_assoc] using hnd

theorem rotate_right_spec (s : State) (ctx : List Frame) (x y z : Tree) (b n : Nat)
    (cb vb cn vn : Int)
    (h : RepZ s ctx (Tree.node (Tree.node x n cn vn y) b cb vb z)) :
    ∃ s1, rb_rotate_right (some n) s = Except.ok s1 ∧
      RepZ s1 ctx (Tree.node x n cn vn (Tree.node y b cb vb z)) := by
  obtain ⟨hpath, ⟨hb, ⟨hn, hx, hy⟩, hz⟩, hroot, hnd⟩ := h
  simp only [ptr_node] at hpath hroot hb
  have ndP : (pathAddrs ctx).Nodup := (List.nodup_append.1 hnd).1
  have ndy : y.addrs.Nodup := by
    have h1 := (List.nodup_append.1 hnd).2.1
    simp only [Tree.addrs] at h1
    have h2 := (List.nodup_append.1 h1).1
    exact ((List.nodup_append.1 h2).2.1).of_cons
  have hc : ∀ q, List.count q (pathAddrs ctx ++
      (Tree.node (Tree.node x n cn vn y) b cb vb z).addrs) ≤ 1 :=
    fun q => List.nodup_iff_count_le_one.1 hnd q
  simp only [Tree.addrs, List.count_append, List.count_cons] at hc
  have hbn : b ≠ n := fun e => by
    subst e
    have h1 := hc b
    simp only [beq_self_eq_true, if_true] at h1
    omega
  have hbP : b ∉ pathAddrs ctx := fun hm => by
    have h1 := hc b
    have h2 := List.count_pos_iff.2 hm
    simp only [beq_self_eq_true, if_true] at h1
    omega
  have hnP : n ∉ pathAddrs ctx := fun hm => by
    have h1 := hc n
    have h2 := List.count_pos_iff.2 hm
    simp only [beq_self_eq_true, if_true] at h1
    omega
  have hbx : b ∉ x.addrs := fun hm => by
    have h1 := hc b
    have h2 := List.count_pos_iff.2 hm
    simp only [beq_self_eq_true, if_true] at h1
    omega
  have hby : b ∉ y.addrs := fun hm => by
    have h1 := hc b
    have h2 := List.count_pos_iff.2 hm
    simp only [beq_self_eq_true, if_true] at h1
    omega
  have hbz : b ∉ z.addrs := fun hm => by
    have h1 := hc b
    have h2 := List.count_pos_iff.2 hm
    simp only [beq_self_eq_true, if_true] at h1
    omega
  have hnx : n ∉ x.addrs := fun hm => by
    have h1 := hc n
    have h2 := List.count_pos_iff.2 hm
    simp only [beq_self_eq_true, if_true] at h1
    omega
  have hny : n ∉ y.addrs := fun hm => by
    have h1 := hc n
    have h2 := List.count_pos_iff.2 hm
    simp only [beq_self_eq_true, if_true] at h1
    omega
  have hnz : n ∉ z.addrs := fun hm => by
    have h1 := hc n
    have h2 := List.count_pos_iff.2 hm
    simp only [beq_self_eq_true, if_true] at h1
    omega
  have dPx : ∀ q, q ∈ pathAddrs ctx → q ∈ x.addrs → False := fun q h1 h2 => by
    have h3 := hc q
    have h4 := List.count_pos_iff.2 h1
    have h5 := List.count_pos_iff.2 h2
    omega
  have dPy : ∀ q, q ∈ pathAddrs ctx → q ∈ y.addrs → False := fun q h1 h2 => by
    have h3 := hc q
    have h4 := List.count_pos_iff.2 h1
    have h5 := List.count_pos_iff.2 h2
    omega
  have dPz : ∀ q, q ∈ pathAddrs ctx → q ∈ z.addrs → False := fun q h1 h2 => by
    have h3 := hc q
    have h4 := List.count_pos_iff.2 h1
    have h5 := List.count_pos_iff.2 h2
    omega
  have dxy : ∀ q, q ∈ x.addrs → q ∈ y.addrs → False := fun q h1 h2 => by
    have h3 := hc q
    have h4 := List.count_pos_iff.2 h1
    have h5 := List.count_pos_iff.2 h2
    omega
  have dyz : ∀ q, q ∈ y.addrs → q ∈ z.addrs → False := fun q h1 h2 => by
    have h3 := hc q
    have h4 := List.count_pos_iff.2 h1
    have h5 := List.count_pos_iff.2 h2
    omega
  have hbn2 : b ≠ n := hbn
  -- b->right = y
  have e1 : set_left s (some b) y.ptr
      = Except.ok (store s b ⟨pathPtr ctx none, y.ptr, z.ptr, cb, vb⟩) := by
    simp [set_left, hb]
  -- if (y) y->parent = b
  have hy1 : Rep (store s b ⟨pathPtr ctx none, y.ptr, z.ptr, cb, vb⟩).mem (some n) y := by
    apply rep_congr _ _ y _ _ hy
    intro q hq
    have : q ≠ b := fun e => hby (e ▸ hq)
    simp [this]
  obtain ⟨s2, e2, r2, hy2, f2⟩ := rep_reparent _ y (some n) (some b) hy1 ndy
  have m2 : ∀ q, q ∉ y.addrs → q ≠ b → s2.mem q = s.mem q := by
    intro q hq hqb
    rw [f2 q (fun e => hq (ptr_mem_addrs y q e.symm))]
    simp [hqb]
  -- the link from the parent
  have hpath2 : RepPath s2.mem ctx (some b) none := by
    apply repPath_congr _ _ ctx _ _ _ hpath
    intro q hq
    exact m2 q (fun hm => dPy q hq hm) (fun e => hbP (e ▸ hq))
  obtain ⟨s3, e3, hpath3, r3, f3⟩ := replace_child_spec s2 ctx b (some n) hpath2
    (by rw [r2]; exact hroot) hbP ndP
  have m3 : ∀ q, q ∉ pathAddrs ctx → s3.mem q = s2.mem q :=
    fun q hq => f3 q (fun e => hq (pathPtr_mem ctx q e.symm))
  have hn3 : s3.mem n = some ⟨some b, x.ptr, y.ptr, cn, vn⟩ := by
    rw [m3 n hnP, m2 n hny (fun e => hbn2 e.symm)]
    exact hn
  have hb3 : s3.mem b = some ⟨pathPtr ctx none, y.ptr, z.ptr, cb, vb⟩ := by
    rw [m3 b hbP, f2 b (fun e => hby (ptr_mem_addrs y b e.symm))]
    simp
  refine ⟨store (store (store s3 n ⟨pathPtr ctx none, x.ptr, y.ptr, cn, vn⟩) n
      ⟨pathPtr ctx none, x.ptr, some b, cn, vn⟩) b ⟨some n, y.ptr, z.ptr, cb, vb⟩, ?_, ?_⟩
  · simp [rb_rotate_right, rb_parent, deref, hn, hb, e1, e2, e3, set_parent, set_right, hn3,
      hb3, hbn2]
  · refine ⟨?_, ⟨?_, ?_, ⟨?_, ?_, ?_⟩⟩, ?_, ?_⟩
    · apply repPath_congr _ _ ctx _ _ _ hpath3
      intro q hq
      have h1 : q ≠ b := fun e => hbP (e ▸ hq)
      have h2 : q ≠ n := fun e => hnP (e ▸ hq)
      simp [h1, h2]
    · simp [hbn2.symm]
    · apply rep_congr _ _ x _ _ hx
      intro q hq
      have h1 : q ≠ b := fun e => hbx (e ▸ hq)
      have h2 : q ≠ n := fun e => hnx (e ▸ hq)
      simp only [store_mem, if_neg h1, if_neg h2]
      rw [m3 q (fun hm => dPx q hm hq), m2 q (fun hm => dxy q hq hm) h1]
    · simp
    · apply rep_congr _ _ y _ _ hy2
      intro q hq
      have h1 : q ≠ b := fun e => hby (e ▸ hq)
      have h2 : q ≠ n := fun e => hny (e ▸ hq)
      simp only [store_mem, if_neg h1, if_neg h2]
      exact m3 q (fun hm => dPy q hm hq)
    · apply rep_congr _ _ z _ _ hz
      intro q hq
      have h1 : q ≠ b := fun e => hbz (e ▸ hq)
      have h2 : q ≠ n := fun e => hnz (e ▸ hq)
      simp only [store_mem, if_neg h1, if_neg h2]
      rw [m3 q (fun hm => dPz q hm hq), m2 q (fun hm => dyz q hm hq) h1]
    · simpa using r3
    · simpa [Tree.addrs, List.append_assoc] using hnd

theorem repZ_up_L (s : State) (a : Nat) (c v : Int) (r : Tree) (up : List Frame) (t : Tree) :
    RepZ s (Frame.L a c v r :: up) t ↔ RepZ s up (Tree.node t a c v r) := by
  have hperm : List.Perm (pathAddrs (Frame.L a c v r :: up) ++ t.addrs)
      (pathAddrs up ++ (Tree.node t a c v r).addrs) := by
    rw [List.perm_iff_count]
    intro q
    simp only [pathAddrs, Frame.addrs, Tree.addrs, List.count_append, List.count_cons]
    omega
  constructor
  · rintro ⟨⟨h1, h2, h3⟩, h4, h5, h6⟩
    exact ⟨h3, ⟨h1, h4, h2⟩, h5, hperm.nodup_iff.1 h6⟩
  · rintro ⟨h3, ⟨h1, h4, h2⟩, h5, h6⟩
    exact ⟨⟨h1, h2, h3⟩, h4, h5, hperm.nodup_iff.2 h6⟩

theorem repZ_up_R (s : State) (l : Tree) (a : Nat) (c v : Int) (up : List Frame) (t : Tree) :
    RepZ s (Frame.R l a c v :: up) t ↔ RepZ s up (Tree.node l a c v t) := by
  have hperm : List.Perm (pathAddrs (Frame.R l a c v :: up) ++ t.addrs)
      (pathAddrs up ++ (Tree.node l a c v t).addrs) := by
    rw [List.perm_iff_count]
    intro q
    simp only [pathAddrs, Frame.addrs, Tree.addrs, List.count_append, List.count_cons]
    omega
  constructor
  · rintro ⟨⟨h1, h2, h3⟩, h4, h5, h6⟩
    exact ⟨h3, ⟨h1, h2, h4⟩, h5, hperm.nodup_iff.1 h6⟩
  · rintro ⟨h3, ⟨h1, h2, h4⟩, h5, h6⟩
    exact ⟨⟨h1, h2, h3⟩, h4, h5, hperm.nodup_iff.2 h6⟩

theorem repZ_mem (s : State) (ctx : List Frame) (l : Tree) (a : Nat) (c v : Int) (r : Tree)
    (h : RepZ s ctx (Tree.node l a c v r)) :
    s.mem a = some ⟨pathPtr ctx none, l.ptr, r.ptr, c, v⟩ := h.sub.1

/-- Writing the colour of the node at the root of the subtree in focus. -/
theorem set_color_focus (s : State) (ctx : List Frame) (l : Tree) (a : Nat) (c v : Int)
    (r : Tree) (c1 : Int) (h : RepZ s ctx (Tree.node l a c v r)) :
    ∃ s1, set_color s (some a) c1 = Except.ok s1 ∧ RepZ s1 ctx (Tree.node l a c1 v r) := by
  obtain ⟨hpath, ⟨ha, hl, hr⟩, hroot, hnd⟩ := h
  have hc : ∀ q, List.count q (pathAddrs ctx ++ (Tree.node l a c v r).addrs) ≤ 1 :=
    fun q => List.nodup_iff_count_le_one.1 hnd q
  simp only [Tree.addrs, List.count_append, List.count_cons] at hc
  have haP : ∀ q, q ∈ pathAddrs ctx → q ≠ a := fun q hm e => by
    subst e
    have h1 := hc q
    have h2 := List.count_pos_iff.2 hm
    simp only [beq_self_eq_true, if_true] at h1
    omega
  have hal : ∀ q, q ∈ l.addrs → q ≠ a := fun q hm e => by
    subst e
    have h1 := hc q
    have h2 := List.count_pos_iff.2 hm
    simp only [beq_self_eq_true, if_true] at h1
    omega
  have har : ∀ q, q ∈ r.addrs → q ≠ a := fun q hm e => by
    subst e
    have h1 := hc q
    have h2 := List.count_pos_iff.2 hm
    simp only [beq_self_eq_true, if_true] at h1
    omega
  refine ⟨store s a ⟨pathPtr ctx none, l.ptr, r.ptr, c1, v⟩, by simp [set_color, ha],
    ?_, ⟨by simp, ?_, ?_⟩, by simpa using hroot, by simpa [Tree.addrs] using hnd⟩
  · apply repPath_congr _ _ ctx _ _ _ hpath
    intro q hq
    simp [haP q hq]
  · apply rep_congr _ _ l _ _ hl
    intro q hq
    simp [hal q hq]
  · apply rep_congr _ _ r _ _ hr
    intro q hq
    simp [har q hq]

@[simp] theorem color_nil : Tree.nil.color = RB_BLACK := rfl

@[simp] theorem color_node (l : Tree) (a : Nat) (c v : Int) (r : Tree) :
    (Tree.node l a c v r).color = c := rfl

theorem rb_is_black_focus (s : State) (ctx : List Frame) (t : Tree) (h : RepZ s ctx t) :
    rb_is_black s t.ptr = Except.ok (decide (t.color = RB_BLACK)) := by
  cases t with
  | nil => simp [rb_is_black]
  | node l a c v r => simp [rb_is_black, deref, repZ_mem s ctx l a c v r h]

theorem rb_is_red_focus (s : State) (ctx : List Frame) (t : Tree) (h : RepZ s ctx t) :
    rb_is_red s t.ptr = Except.ok (decide (t.color = RB_RED)) := by
  cases t with
  | nil => simp [rb_is_red, RB_BLACK, RB_RED]
  | node l a c v r => simp [rb_is_red, deref, repZ_mem s ctx l a c v r h]

theorem rb_parent_focus (s : State) (ctx : List Frame) (l : Tree) (a : Nat) (c v : Int)
    (r : Tree) (h : RepZ s ctx (Tree.node l a c v r)) :
    rb_parent s (some a) = Except.ok (pathPtr ctx none) := by
  simp [rb_parent, deref, repZ_mem s ctx l a c v r h]

theorem deref_focus (s : State) (ctx : List Frame) (l : Tree) (a : Nat) (c v : Int)
    (r : Tree) (h : RepZ s ctx (Tree.node l a c v r)) :
    deref s (some a) = Except.ok ⟨pathPtr ctx none, l.ptr, r.ptr, c, v⟩ := by
  simp [deref, repZ_mem s ctx l a c v r h]

theorem red_ne_black : RB_RED ≠ RB_BLACK := by decide

theorem inorder_plug (ctx : List Frame) :
    ∀ t : Tree, (plug ctx t).inorder = pathBefore ctx ++ t.inorder ++ pathAfter ctx := by
  induction ctx with
  | nil => intro t; simp [plug, pathBefore, pathAfter]
  | cons f up ih =>
    intro t
    cases f with
    | L a c v r => simp [plug, pathBefore, pathAfter, ih, Tree.inorder]
    | R l a c v => simp [plug, pathBefore, pathAfter, ih, Tree.inorder]

theorem headBlack_cons (f : Frame) (up : List Frame) :
    headBlack (f :: up) ↔ f.color = RB_BLACK := Iff.rfl

theorem plug_shape (ctx : List Frame) :
    ∀ t : Tree, RBShape (plug ctx t) ↔
      ∃ n, PathValid ctx n ∧ Valid t n ∧ (¬ headBlack ctx → t.color = RB_BLACK) := by
  induction ctx with
  | nil =>
    intro t
    simp only [plug, RBShape, PathValid, headBlack, not_false_eq_true, forall_true_left,
      true_and]
    constructor
    · rintro ⟨h1, n, h2⟩
      exact ⟨n, h2, h1⟩
    · rintro ⟨n, h2, h1⟩
      exact ⟨h1, n, h2⟩
  | cons f up ih =>
    intro t
    cases f with
    | L a c v r =>
      simp only [plug, ih, Valid, color_node, PathValid, headBlack_cons, Frame.color]
      constructor
      · rintro ⟨n, h1, (⟨h2, h3, h4, h5, h6⟩ | ⟨h2, m, h3, h4, h5⟩), h7⟩
        · refine ⟨n, Or.inl ⟨h2, h4, h6, ?_, h1⟩, h5, fun _ => h3⟩
          by_contra hb
          exact red_ne_black (h2.symm.trans (h7 hb))
        · subst h3
          exact ⟨m, Or.inr ⟨h2, h5, h1⟩, h4, fun hb => absurd h2 hb⟩
      · rintro ⟨n, (⟨h2, h4, h6, hb, h1⟩ | ⟨h2, h5, h1⟩), h5', h7⟩
        · refine ⟨n, h1, Or.inl ⟨h2, h7 ?_, h4, h5', h6⟩, fun hnb => absurd hb hnb⟩
          rw [h2]
          exact red_ne_black
        · exact ⟨n + 1, h1, Or.inr ⟨h2, n, rfl, h5', h5⟩, fun _ => h2⟩
    | R l a c v =>
      simp only [plug, ih, Valid, color_node, PathValid, headBlack_cons, Frame.color]
      constructor
      · rintro ⟨n, h1, (⟨h2, h3, h4, h5, h6⟩ | ⟨h2, m, h3, h4, h5⟩), h7⟩
        · refine ⟨n, Or.inl ⟨h2, h3, h5, ?_, h1⟩, h6, fun _ => h4⟩
          by_contra hb
          exact red_ne_black (h2.symm.trans (h7 hb))
        · subst h3
          exact ⟨m, Or.inr ⟨h2, h4, h1⟩, h5, fun hb => absurd h2 hb⟩
      · rintro ⟨n, (⟨h2, h4, h6, hb, h1⟩ | ⟨h2, h5, h1⟩), h5', h7⟩
        · refine ⟨n, h1, Or.inl ⟨h2, h4, h7 ?_, h6, h5'⟩, fun hnb => absurd hb hnb⟩
          rw [h2]
          exact red_ne_black
        · exact ⟨n + 1, h1, Or.inr ⟨h2, n, rfl, h5, h5'⟩, fun _ => h2⟩

@[simp] theorem fill_ptr (f : Frame) (t : Tree) : (fill f t).ptr = some f.addr := by
  cases f <;> rfl

@[simp] theorem fill_color (f : Frame) (t : Tree) : (fill f t).color = f.color := by
  cases f <;> rfl

@[simp] theorem recolor_addr (f : Frame) (c : Int) : (f.recolor c).addr = f.addr := by
  cases f <;> rfl

@[simp] theorem recolor_color (f : Frame) (c : Int) : (f.recolor c).color = c := by
  cases f <;> rfl

theorem plug_cons (f : Frame) (up : List Frame) (t : Tree) :
    plug (f :: up) t = plug up (fill f t) := by
  cases f <;> rfl

theorem repZ_up (s : State) (f : Frame) (up : List Frame) (t : Tree) :
    RepZ s (f :: up) t ↔ RepZ s up (fill f t) := by
  cases f with
  | L a c v r => exact repZ_up_L s a c v r up t
  | R l a c v => exact repZ_up_R s l a c v up t

theorem repZ_plug (s : State) (ctx : List Frame) :
    ∀ t : Tree, RepZ s ctx t ↔ RepZ s [] (plug ctx t) := by
  induction ctx with
  | nil => intro t; rfl
  | cons f up ih =>
    intro t
    rw [repZ_up, ih, plug_cons]

theorem fill_recolor_inorder (f : Frame) (c : Int) (t : Tree) :
    (fill (f.recolor c) t).inorder = (fill f t).inorder := by
  cases f <;> rfl

/-- Writing the colour of the node of the first frame. -/
theorem set_color_frame (s : State) (f : Frame) (up : List Frame) (t : Tree) (c1 : Int)
    (h : RepZ s (f :: up) t) :
    ∃ s1, set_color s (some f.addr) c1 = Except.ok s1 ∧ RepZ s1 (f.recolor c1 :: up) t := by
  rw [repZ_up] at h
  cases f with
  | L a c v r =>
    obtain ⟨s1, e, h1⟩ := set_color_focus s up t a c v r c1 h
    exact ⟨s1, e, (repZ_up s1 (Frame.L a c1 v r) up t).2 h1⟩
  | R l a c v =>
    obtain ⟨s1, e, h1⟩ := set_color_focus s up l a c v t c1 h
    exact ⟨s1, e, (repZ_up s1 (Frame.R l a c1 v) up t).2 h1⟩

/-- The blocks of the path and of the subtree are different. -/
theorem repZ_disjoint (s : State) (ctx : List Frame) (t : Tree) (h : RepZ s ctx t) (q : Nat)
    (h1 : q ∈ pathAddrs ctx) (h2 : q ∈ t.addrs) : False := by
  have h3 := List.nodup_iff_count_le_one.1 h.nodup q
  rw [List.count_append] at h3
  have h4 := List.count_pos_iff.2 h1
  have h5 := List.count_pos_iff.2 h2
  omega

theorem sibling_mem (f : Frame) (up : List Frame) (q : Nat) (h : q ∈ f.sibling.addrs) :
    q ∈ pathAddrs (f :: up) := by
  cases f <;> simp [pathAddrs, Frame.addrs, Frame.sibling] at h ⊢ <;> simp [h]

/-- The sibling of the subtree in focus is not the subtree itself. -/
theorem sibling_ptr_ne (s : State) (f : Frame) (up : List Frame) (t : Tree) (a : Nat)
    (h : RepZ s (f :: up) t) (ha : t.ptr = some a) : f.sibling.ptr ≠ some a := by
  intro e
  exact repZ_disjoint s (f :: up) t h a (sibling_mem f up a (ptr_mem_addrs _ a e))
    (ptr_mem_addrs t a ha)

theorem frame_addr_not_mem (s : State) (f : Frame) (up : List Frame) (t : Tree)
    (h : RepZ s (f :: up) t) : f.addr ∉ t.addrs := by
  intro hm
  refine repZ_disjoint s (f :: up) t h f.addr ?_ hm
  cases f <;> simp [pathAddrs, Frame.addrs]

@[simp] theorem node_L (a : Nat) (c v : Int) (r : Tree) (par hole : Option Nat) :
    (Frame.L a c v r).node par hole = ⟨par, hole, r.ptr, c, v⟩ := rfl

@[simp] theorem node_R (l : Tree) (a : Nat) (c v : Int) (par hole : Option Nat) :
    (Frame.R l a c v).node par hole = ⟨par, l.ptr, hole, c, v⟩ := rfl

@[simp] theorem node_parent (f : Frame) (par hole : Option Nat) :
    (f.node par hole).parent = par := by
  cases f <;> rfl

@[simp] theorem node_color (f : Frame) (par hole : Option Nat) :
    (f.node par hole).color = f.color := by
  cases f <;> rfl

theorem deref_frame (s : State) (f : Frame) (up : List Frame) (t : Tree)
    (h : RepZ s (f :: up) t) :
    deref s (some f.addr) = Except.ok (f.node (pathPtr up none) t.ptr) := by
  rw [repZ_up] at h
  cases f with
  | L a c v r => exact deref_focus s up t a c v r h
  | R l a c v => exact deref_focus s up l a c v t h

theorem fill_flip (f : Frame) (x : Tree) : fill (f.flip x) f.sibling = fill f x := by
  cases f <;> rfl

@[simp] theorem flip_addr (f : Frame) (x : Tree) : (f.flip x).addr = f.addr := by
  cases f <;> rfl

@[simp] theorem flip_color (f : Frame) (x : Tree) : (f.flip x).color = f.color := by
  cases f <;> rfl

@[simp] theorem flip_sibling (f : Frame) (x : Tree) : (f.flip x).sibling = x := by
  cases f <;> rfl

theorem repZ_flip (s : State) (f : Frame) (up : List Frame) (x : Tree) :
    RepZ s (f :: up) x ↔ RepZ s (f.flip x :: up) f.sibling := by
  rw [repZ_up, repZ_up, fill_flip]

theorem pathValid_cons (f : Frame) (up : List Frame) (n : Nat) :
    PathValid (f :: up) n ↔
      (f.color = RB_RED ∧ f.sibling.color = RB_BLACK ∧ Valid f.sibling n ∧ headBlack up ∧
        PathValid up n) ∨
      (f.color = RB_BLACK ∧ Valid f.sibling n ∧ PathValid up (n + 1)) := by
  cases f <;> rfl

theorem valid_fill (f : Frame) (t : Tree) (k : Nat) :
    Valid (fill f t) k ↔
      (f.color = RB_RED ∧ t.color = RB_BLACK ∧ f.sibling.color = RB_BLACK ∧ Valid t k ∧
        Valid f.sibling k) ∨
      (f.color = RB_BLACK ∧ ∃ m, k = m + 1 ∧ Valid t m ∧ Valid f.sibling m) := by
  cases f with
  | L a c v r => rfl
  | R l a c v =>
    simp only [fill, Valid, Frame.color, Frame.sibling]
    constructor
    · rintro (⟨h1, h2, h3, h4, h5⟩ | ⟨h1, m, h2, h3, h4⟩)
      · exact Or.inl ⟨h1, h3, h2, h5, h4⟩
      · exact Or.inr ⟨h1, m, h2, h4, h3⟩
    · rintro (⟨h1, h2, h3, h4, h5⟩ | ⟨h1, m, h2, h3, h4⟩)
      · exact Or.inl ⟨h1, h3, h2, h5, h4⟩
      · exact Or.inr ⟨h1, m, h2, h4, h3⟩

theorem valid_red (t : Tree) (m : Nat) (hv : Valid t m) (hc : t.color = RB_RED) :
    ∃ l a v r, t = Tree.node l a RB_RED v r ∧ l.color = RB_BLACK ∧ r.color = RB_BLACK ∧
      Valid l m ∧ Valid r m := by
  cases t with
  | nil => exact absurd hc.symm red_ne_black
  | node l a c v r =>
    simp only [color_node] at hc
    subst hc
    rcases hv with ⟨_, h2, h3, h4, h5⟩ | ⟨h1, _⟩
    · exact ⟨l, a, v, r, rfl, h2, h3, h4, h5⟩
    · exact absurd h1 red_ne_black

theorem valid_color (t : Tree) (m : Nat) (hv : Valid t m) :
    t.color = RB_RED ∨ t.color = RB_BLACK := by
  cases t with
  | nil => exact Or.inr rfl
  | node l a c v r =>
    rcases hv with ⟨h1, _⟩ | ⟨h1, _⟩
    · exact Or.inl h1
    · exact Or.inr h1

theorem rb_parent_frame (s : State) (f : Frame) (up : List Frame) (t : Tree)
    (h : RepZ s (f :: up) t) : rb_parent s (some f.addr) = Except.ok (pathPtr up none) := by
  have h1 := deref_frame s f up t h
  simp [rb_parent, h1]

theorem rb_is_black_frame (s : State) (f : Frame) (up : List Frame) (t : Tree)
    (h : RepZ s (f :: up) t) :
    rb_is_black s (some f.addr) = Except.ok (decide (f.color = RB_BLACK)) := by
  have h1 := rb_is_black_focus s up (fill f t) ((repZ_up s f up t).1 h)
  simpa using h1

theorem rb_parent_node (s : State) (ctx : List Frame) (t : Tree) (n : Nat)
    (h : RepZ s ctx t) (hn : t.ptr = some n) :
    rb_parent s (some n) = Except.ok (pathPtr ctx none) := by
  cases t with
  | nil => simp at hn
  | node l a c v r =>
    simp only [ptr_node, Option.some.injEq] at hn
    subst hn
    exact rb_parent_focus s ctx l a c v r h

theorem rb_grandparent_spec (s : State) (fp fg : Frame) (up : List Frame) (t : Tree)
    (n : Nat) (h : RepZ s (fp :: fg :: up) t) (hn : t.ptr = some n) :
    rb_grandparent s (some n) = Except.ok (some fg.addr) := by
  have h1 := rb_parent_node s _ t n h hn
  have h2 := rb_parent_frame s fp (fg :: up) t h
  simp only [pathPtr_cons] at h1 h2
  simp [rb_grandparent, h1, h2]

theorem rb_uncle_spec (s : State) (fp fg : Frame) (up : List Frame) (t : Tree)
    (n : Nat) (h : RepZ s (fp :: fg :: up) t) (hn : t.ptr = some n) :
    rb_uncle s (some n) = Except.ok fg.sibling.ptr := by
  have h0 := rb_grandparent_spec s fp fg up t n h hn
  have h1 := rb_parent_node s _ t n h hn
  have h3 := (repZ_up s fp (fg :: up) t).1 h
  have h2 := deref_frame s fg up (fill fp t) h3
  have hne := sibling_ptr_ne s fg up (fill fp t) fp.addr h3 (fill_ptr fp t)
  simp only [pathPtr_cons] at h1
  cases fg with
  | L a c v r =>
    simp only [addr_L, node_L, fill_ptr] at h2 h0
    simp [rb_uncle, h0, h1, h2, Frame.sibling]
  | R l a c v =>
    simp only [Frame.sibling] at hne
    simp only [addr_R, node_R, fill_ptr] at h2 h0
    have hne2 : ¬ some fp.addr = l.ptr := fun e => hne e.symm
    simp [rb_uncle, h0, h1, h2, Frame.sibling, hne2]

theorem bind_ok {α β : Type} (a : α) (f : α → M β) : (Except.ok a >>= f) = f a := rfl

theorem pure_ok {α : Type} (a : α) : (pure a : M α) = Except.ok a := rfl

theorem child_conditions (s : State) (fp fg : Frame) (up : List Frame) (t : Tree) (n : Nat)
    (h : RepZ s (fp :: fg :: up) t) (hn : t.ptr = some n) :
    is_right_left s (some n) (some fp.addr) (some fg.addr)
      = Except.ok (!fp.isL && fg.isL) ∧
    is_left_right s (some n) (some fp.addr) (some fg.addr)
      = Except.ok (fp.isL && !fg.isL) ∧
    is_left_left s (some n) (some fp.addr) (some fg.addr)
      = Except.ok (fp.isL && fg.isL) := by
  have h1 := deref_frame s fp (fg :: up) t h
  have h3 := (repZ_up s fp (fg :: up) t).1 h
  have h2 := deref_frame s fg up (fill fp t) h3
  have hne1 := sibling_ptr_ne s fp (fg :: up) t n h hn
  have hne2 := sibling_ptr_ne s fg up (fill fp t) fp.addr h3 (fill_ptr fp t)
  rw [hn] at h1
  simp only [pathPtr_cons, fill_ptr] at h1 h2
  cases fp with
  | L pa cp vp sib =>
    cases fg with
    | L ga cg vg u =>
      simp only [Frame.sibling] at hne1 hne2
      have e1 : ¬ some n = sib.ptr := fun e => hne1 e.symm
      have e2 : ¬ some pa = u.ptr := fun e => hne2 e.symm
      simp only [addr_L, node_L] at h1 h2
      simp [is_right_left, is_left_right, is_left_left, h1, h2, bind, Except.bind, pure,
        Except.pure, Frame.isL, e1, e2]
    | R u ga cg vg =>
      simp only [Frame.sibling] at hne1 hne2
      have e1 : ¬ some n = sib.ptr := fun e => hne1 e.symm
      have e2 : ¬ some pa = u.ptr := fun e => hne2 e.symm
      simp only [addr_L, addr_R, node_L, node_R] at h1 h2 e2
      simp [is_right_left, is_left_right, is_left_left, h1, h2, bind, Except.bind, pure,
        Except.pure, Frame.isL, e1, e2]
  | R sib pa cp vp =>
    cases fg with
    | L ga cg vg u =>
      simp only [Frame.sibling] at hne1 hne2
      have e1 : ¬ some n = sib.ptr := fun e => hne1 e.symm
      have e2 : ¬ some pa = u.ptr := fun e => hne2 e.symm
      simp only [addr_L, addr_R, node_L, node_R] at h1 h2
      simp [is_right_left, is_left_right, is_left_left, h1, h2, bind, Except.bind, pure,
        Except.pure, Frame.isL, e1, e2]
    | R u ga cg vg =>
      simp only [Frame.sibling] at hne1 hne2
      have e1 : ¬ some n = sib.ptr := fun e => hne1 e.symm
      have e2 : ¬ some pa = u.ptr := fun e => hne2 e.symm
      simp only [addr_R, node_R] at h1 h2 e2
      simp [is_right_left, is_left_right, is_left_left, h1, h2, bind, Except.bind, pure,
        Except.pure, Frame.isL, e1, e2]

/-- Case 5 of the insertion: the parent is rotated above the grandparent and the two are
recoloured. -/
theorem insert_case5_spec (s : State) (fp fg : Frame) (up : List Frame) (t : Tree) (n m : Nat)
    (h : RepZ s (fp :: fg :: up) t) (hn : t.ptr = some n) (hside : fp.isL = fg.isL)
    (hvt : Valid t m) (hsb : fp.sibling.color = RB_BLACK) (hsv : Valid fp.sibling m)
    (hub : fg.sibling.color = RB_BLACK) (huv : Valid fg.sibling m) :
    ∃ s1 t1, rb_insert_case5 (some n) (some fp.addr) (some fg.addr) s = Except.ok s1 ∧
      RepZ s1 up t1 ∧ t1.color = RB_BLACK ∧ Valid t1 (m + 1) ∧
      t1.inorder = (fill fg (fill fp t)).inorder := by
  obtain ⟨_, _, hll⟩ := child_conditions s fp fg up t n h hn
  have h2 := (repZ_up s fg up _).1 ((repZ_up s fp (fg :: up) t).1 h)
  cases fp with
  | L pa cp vp sib =>
    cases fg with
    | R u ga cg vg => simp [Frame.isL] at hside
    | L ga cg vg u =>
      simp only [fill, Frame.sibling, addr_L] at *
      obtain ⟨s1, e1, r1⟩ := rotate_right_spec s up t sib u ga pa cg vg cp vp h2
      obtain ⟨s2, e2, r2⟩ := set_color_focus s1 up t pa cp vp _ RB_BLACK r1
      have r2' := (repZ_up_R s2 t pa RB_BLACK vp up _).2 r2
      obtain ⟨s3, e3, r3⟩ := set_color_focus s2 _ sib ga cg vg u RB_RED r2'
      have r3' := (repZ_up_R s3 t pa RB_BLACK vp up _).1 r3
      refine ⟨s3, _, ?_, r3', rfl, ?_, ?_⟩
      · simp [rb_insert_case5, hll, Frame.isL, bind, Except.bind, e1, rb_set_black,
          rb_set_red, e2, e3]
      · exact Or.inr ⟨rfl, m, rfl, hvt, Or.inl ⟨rfl, hsb, hub, hsv, huv⟩⟩
      · simp [Tree.inorder]
  | R sib pa cp vp =>
    cases fg with
    | L ga cg vg u => simp [Frame.isL] at hside
    | R u ga cg vg =>
      simp only [fill, Frame.sibling, addr_R] at *
      obtain ⟨s1, e1, r1⟩ := rotate_left_spec s up u sib t ga pa cg vg cp vp h2
      obtain ⟨s2, e2, r2⟩ := set_color_focus s1 up _ pa cp vp t RB_BLACK r1
      have r2' := (repZ_up_L s2 pa RB_BLACK vp t up _).2 r2
      obtain ⟨s3, e3, r3⟩ := set_color_focus s2 _ u ga cg vg sib RB_RED r2'
      have r3' := (repZ_up_L s3 pa RB_BLACK vp t up _).1 r3
      refine ⟨s3, _, ?_, r3', rfl, ?_, ?_⟩
      · simp [rb_insert_case5, hll, Frame.isL, bind, Except.bind, e1, rb_set_black,
          rb_set_red, e2, e3]
      · exact Or.inr ⟨rfl, m, rfl, Or.inl ⟨rfl, hub, hsb, huv, hsv⟩, hvt⟩
      · simp [Tree.inorder]

/-- Case 4 of the insertion: when the node and its parent are children on different sides,
the node is rotated above its parent, which makes them children on the same side. -/
theorem insert_case4_spec (s : State) (fp fg : Frame) (up : List Frame) (l : Tree) (n : Nat)
    (v : Int) (r : Tree) (m : Nat)
    (h : RepZ s (fp :: fg :: up) (Tree.node l n RB_RED v r))
    (hl : l.color = RB_BLACK) (hr : r.color = RB_BLACK) (hlv : Valid l m) (hrv : Valid r m)
    (hpc : fp.color = RB_RED) (hsb : fp.sibling.color = RB_BLACK)
    (hsv : Valid fp.sibling m) :
    ∃ n1 fp1 t1 s1, rb_insert_case4 (some n) (some fp.addr) (some fg.addr) s
        = Except.ok (some n1, some fp1.addr, s1) ∧
      RepZ s1 (fp1 :: fg :: up) t1 ∧ t1.ptr = some n1 ∧ fp1.isL = fg.isL ∧ Valid t1 m ∧
      fp1.sibling.color = RB_BLACK ∧ Valid fp1.sibling m ∧
      (fill fg (fill fp1 t1)).inorder
        = (fill fg (fill fp (Tree.node l n RB_RED v r))).inorder := by
  obtain ⟨hrl, hlr, _⟩ := child_conditions s fp fg up _ n h rfl
  have h2 := (repZ_up s fp (fg :: up) _).1 h
  have hvt : Valid (Tree.node l n RB_RED v r) m := Or.inl ⟨rfl, hl, hr, hlv, hrv⟩
  cases fp with
  | L pa cp vp sib =>
    cases fg with
    | L ga cg vg u =>
      simp only [addr_L, addr_R, Frame.isL] at hrl hlr
      refine ⟨n, Frame.L pa cp vp sib, _, s, ?_, h, rfl, rfl, hvt, hsb, hsv, rfl⟩
      simp [rb_insert_case4, hrl, hlr, Frame.isL, bind, Except.bind, pure, Except.pure]
    | R u ga cg vg =>
      simp only [fill, Frame.sibling, addr_L, addr_R, Frame.color] at *
      subst hpc
      obtain ⟨s1, e1, r1⟩ := rotate_right_spec s _ l r sib pa n RB_RED vp RB_RED v h2
      have r1' := (repZ_up_R s1 l n RB_RED v _ _).2 r1
      have d1 := deref_focus s1 _ l n RB_RED v _ r1
      have p1 := rb_parent_focus s1 _ r pa RB_RED vp sib r1'
      refine ⟨pa, Frame.R l n RB_RED v, _, s1, ?_, r1', rfl, rfl,
        Or.inl ⟨rfl, hr, hsb, hrv, hsv⟩, hl, hlv, ?_⟩
      · simp [rb_insert_case4, hrl, hlr, Frame.isL, bind, Except.bind, pure, Except.pure,
          e1, d1, p1]
      · simp [fill, Tree.inorder]
  | R sib pa cp vp =>
    cases fg with
    | R u ga cg vg =>
      simp only [addr_L, addr_R, Frame.isL] at hrl hlr
      refine ⟨n, Frame.R sib pa cp vp, _, s, ?_, h, rfl, rfl, hvt, hsb, hsv, rfl⟩
      simp [rb_insert_case4, hrl, hlr, Frame.isL, bind, Except.bind, pure, Except.pure]
    | L ga cg vg u =>
      simp only [fill, Frame.sibling, addr_L, addr_R, Frame.color] at *
      subst hpc
      obtain ⟨s1, e1, r1⟩ := rotate_left_spec s _ sib l r pa n RB_RED vp RB_RED v h2
      have r1' := (repZ_up_L s1 n RB_RED v r _ _).2 r1
      have d1 := deref_focus s1 _ _ n RB_RED v r r1
      have p1 := rb_parent_focus s1 _ sib pa RB_RED vp l r1'
      refine ⟨pa, Frame.L n RB_RED v r, _, s1, ?_, r1', rfl, rfl,
        Or.inl ⟨rfl, hsb, hl, hsv, hlv⟩, hr, hrv, ?_⟩
      · simp [rb_insert_case4, hrl, hlr, Frame.isL, bind, Except.bind, pure, Except.pure,
          e1, d1, p1]
      · simp [fill, Tree.inorder]

theorem fill_inorder_congr (f : Frame) (t1 t2 : Tree) (h : t1.inorder = t2.inorder) :
    (fill f t1).inorder = (fill f t2).inorder := by
  cases f <;> simp [fill, Tree.inorder, h]

theorem plug_inorder_congr (ctx : List Frame) (t1 t2 : Tree) (h : t1.inorder = t2.inorder) :
    (plug ctx t1).inorder = (plug ctx t2).inorder := by
  rw [inorder_plug, inorder_plug, h]

theorem headBlack_exists (up : List Frame) (h : headBlack up) :
    ∃ fg up2, up = fg :: up2 ∧ fg.color = RB_BLACK := by
  cases up with
  | nil => exact absurd h id
  | cons fg up2 => exact ⟨fg, up2, rfl, h⟩

/-- The loop of `rb_insert_balance` restores the red-black properties and keeps the order of
the values. -/
theorem insert_balance_loop_spec :
    ∀ (fuel : Nat) (ctx : List Frame) (l : Tree) (n : Nat) (v : Int) (r : Tree) (s : State)
      (m : Nat), RepZ s ctx (Tree.node l n RB_RED v r) → l.color = RB_BLACK →
      r.color = RB_BLACK → Valid l m → Valid r m → PathValid ctx m → ctx.length + 1 ≤ fuel →
      ∃ s1 t1, rb_insert_balance_loop fuel (some n) (pathPtr ctx none) s = Except.ok s1 ∧
        RepZ s1 [] t1 ∧ RBShape t1 ∧
        t1.inorder = (plug ctx (Tree.node l n RB_RED v r)).inorder := by
  intro fuel
  induction fuel with
  | zero =>
    intro ctx l n v r s m _ _ _ _ _ _ hf
    omega
  | succ fuel ih =>
    intro ctx l n v r s m h hl hr hlv hrv hpv hf
    have hvt : Valid (Tree.node l n RB_RED v r) m := Or.inl ⟨rfl, hl, hr, hlv, hrv⟩
    cases ctx with
    | nil =>
      obtain ⟨s1, e1, r1⟩ := set_color_focus s [] l n RB_RED v r RB_BLACK h
      refine ⟨s1, _, ?_, r1, ⟨rfl, m + 1, Or.inr ⟨rfl, m, rfl, hlv, hrv⟩⟩, rfl⟩
      simp [rb_insert_balance_loop, rb_set_black, e1]
    | cons fp up1 =>
      have hpb := rb_is_black_frame s fp up1 _ h
      by_cases hc : fp.color = RB_BLACK
      · refine ⟨s, plug (fp :: up1) (Tree.node l n RB_RED v r), ?_,
          (repZ_plug s _ _).1 h, ?_, rfl⟩
        · simp [rb_insert_balance_loop, hpb, hc, bind, Except.bind, pure, Except.pure]
        · exact (plug_shape _ _).2 ⟨m, hpv, hvt, fun hnb => absurd hc hnb⟩
      · rcases (pathValid_cons fp up1 m).1 hpv with ⟨hpc, hsb, hsv, hhb, hpv1⟩ | ⟨hpc, _⟩
        swap
        · exact absurd hpc hc
        obtain ⟨fg, up2, rfl, hgc⟩ := headBlack_exists up1 hhb
        rcases (pathValid_cons fg up2 m).1 hpv1 with ⟨hgr, _⟩ | ⟨_, huv, hpv2⟩
        · exact absurd (hgr.symm.trans hgc) red_ne_black
        have hgp := rb_grandparent_spec s fp fg up2 _ n h rfl
        have hun := rb_uncle_spec s fp fg up2 _ n h rfl
        have h2 := (repZ_up s fp (fg :: up2) _).1 h
        have h3 := (repZ_flip s fg up2 _).1 h2
        have hur := rb_is_red_focus s _ fg.sibling h3
        by_cases huc : fg.sibling.color = RB_RED
        · -- case 3: the uncle is red
          obtain ⟨ul, ua, uv, ur, hu, hulb, hurb, hulv, hurv⟩ := valid_red _ m huv huc
          obtain ⟨s1, e1, r1⟩ := set_color_frame s fp (fg :: up2) _ RB_BLACK h
          have r1a := (repZ_flip s1 fg up2 _).1 ((repZ_up s1 _ (fg :: up2) _).1 r1)
          rw [hu] at r1a
          obtain ⟨s2, e2, r2⟩ := set_color_focus s1 _ ul ua RB_RED uv ur RB_BLACK r1a
          have r2a := (repZ_flip s2 _ up2 _).1 r2
          simp only [flip_sibling] at r2a
          obtain ⟨s3, e3, r3⟩ := set_color_frame s2 _ up2 _ RB_RED r2a
          have r3a := (repZ_up s3 _ up2 _).1 r3
          simp only [flip_addr] at e3
          have hp3 : rb_parent s3 (some fg.addr) = Except.ok (pathPtr up2 none) := by
            have := rb_parent_frame s3 _ up2 _ r3
            simpa using this
          -- the recoloured subtree
          have hshape : ∃ l1 v1 r1, fill (((fg.flip (fill (fp.recolor RB_BLACK)
                (Tree.node l n RB_RED v r))).flip
                (Tree.node ul ua RB_BLACK uv ur)).recolor RB_RED)
                (fill (fp.recolor RB_BLACK) (Tree.node l n RB_RED v r))
              = Tree.node l1 fg.addr RB_RED v1 r1 ∧ l1.color = RB_BLACK ∧
                r1.color = RB_BLACK ∧ Valid l1 (m + 1) ∧ Valid r1 (m + 1) ∧
                (Tree.node l1 fg.addr RB_RED v1 r1).inorder
                  = (fill fg (fill fp (Tree.node l n RB_RED v r))).inorder := by
            have hvp : Valid (fill (fp.recolor RB_BLACK) (Tree.node l n RB_RED v r))
                (m + 1) := by
              rw [valid_fill]
              refine Or.inr ⟨by simp, m, rfl, hvt, ?_⟩
              cases fp <;> exact hsv
            have hvu : Valid (Tree.node ul ua RB_BLACK uv ur) (m + 1) :=
              Or.inr ⟨rfl, m, rfl, hulv, hurv⟩
            cases fg with
            | L ga cg vg u =>
              simp only [Frame.sibling] at hu
              subst hu
              exact ⟨_, _, _, rfl, by simp, rfl, hvp, hvu, by
                cases fp <;> simp [fill, Frame.recolor, Tree.inorder]⟩
            | R u ga cg vg =>
              simp only [Frame.sibling] at hu
              subst hu
              exact ⟨_, _, _, rfl, rfl, by simp, hvu, hvp, by
                cases fp <;> simp [fill, Frame.recolor, Tree.inorder]⟩
          obtain ⟨l1, v1, r1', hsh, hl1, hr1, hl1v, hr1v, hin⟩ := hshape
          rw [hsh] at r3a
          obtain ⟨s4, t4, e4, r4, sh4, in4⟩ := ih up2 l1 fg.addr v1 r1' s3 (m + 1) r3a hl1 hr1
            hl1v hr1v hpv2 (by simp only [List.length_cons] at hf; omega)
          refine ⟨s4, t4, ?_, r4, sh4, ?_⟩
          · simp only [pathPtr_cons]
            rw [hu] at hun hur
            simp only [ptr_node, color_node, decide_True] at hun hur
            simp [rb_insert_balance_loop, hpb, hc, hgp, hun, hur, bind, Except.bind, pure,
              Except.pure, rb_set_black, rb_set_red, e1, e2, e3, hp3, e4]
          · rw [in4, plug_cons, plug_cons]
            exact plug_inorder_congr up2 _ _ hin
        · -- cases 4 and 5: the uncle is black
          have hub : fg.sibling.color = RB_BLACK := by
            rcases valid_color _ m huv with h1 | h1
            · exact absurd h1 huc
            · exact h1
          obtain ⟨n1, fp1, t1, s1, e1, r1, hn1, hside, hvt1, hsb1, hsv1, hin1⟩ :=
            insert_case4_spec s fp fg up2 l n v r m h hl hr hlv hrv hpc hsb hsv
          obtain ⟨s2, t2, e2, r2, hc2, hv2, hin2⟩ :=
            insert_case5_spec s1 fp1 fg up2 t1 n1 m r1 hn1 hside hvt1 hsb1 hsv1 hub huv
          refine ⟨s2, plug up2 t2, ?_, (repZ_plug s2 up2 t2).1 r2, ?_, ?_⟩
          · simp only [pathPtr_cons]
            simp [rb_insert_balance_loop, hpb, hc, hgp, hun, hur, huc, bind, Except.bind,
              pure, Except.pure, rb_insert_rotate, e1, e2]
          · exact (plug_shape up2 t2).2 ⟨m + 1, hpv2, hv2, fun _ => hc2⟩
          · rw [plug_cons, plug_cons]
            exact plug_inorder_congr up2 _ _ (hin2.trans hin1)

@[simp] theorem linkOf_nil : linkOf [] = Link.root := rfl

@[simp] theorem linkOf_L (a : Nat) (c v : Int) (r : Tree) (up : List Frame) :
    linkOf (Frame.L a c v r :: up) = Link.left a := rfl

@[simp] theorem linkOf_R (l : Tree) (a : Nat) (c v : Int) (up : List Frame) :
    linkOf (Frame.R l a c v :: up) = Link.right a := rfl

theorem sorted_node (l : Tree) (a : Nat) (c v : Int) (r : Tree)
    (h : (Tree.node l a c v r).inorder.Sorted (· ≤ ·)) :
    l.inorder.Sorted (· ≤ ·) ∧ r.inorder.Sorted (· ≤ ·) ∧ (∀ x ∈ l.inorder, x ≤ v) ∧
      ∀ x ∈ r.inorder, v ≤ x := by
  simp only [Tree.inorder, List.Sorted, List.pairwise_append, List.pairwise_cons] at h
  obtain ⟨h1, ⟨h2, h3⟩, h4⟩ := h
  exact ⟨h1, h3, fun x hx => h4 x hx v (List.mem_cons_self _ _), h2⟩

/-- The search loop of `rb_insert_val` ends at an empty place of the tree, with the values
before it at most `val` and the values after it at least `val`. -/
theorem insert_search_spec (val : Int) (s : State) :
    ∀ (t : Tree) (ctx : List Frame) (fuel : Nat), RepZ s ctx t → t.addrs.length + 1 ≤ fuel →
      t.inorder.Sorted (· ≤ ·) → (∀ x ∈ pathBefore ctx, x ≤ val) →
      (∀ x ∈ pathAfter ctx, val ≤ x) →
      ∃ ctx1, insert_search val s fuel (linkOf ctx) t.ptr (pathPtr ctx none)
          = Except.ok (linkOf ctx1, pathPtr ctx1 none) ∧
        RepZ s ctx1 Tree.nil ∧ plug ctx1 Tree.nil = plug ctx t ∧
        (∀ x ∈ pathBefore ctx1, x ≤ val) ∧ (∀ x ∈ pathAfter ctx1, val ≤ x) ∧
        ctx1.length ≤ ctx.length + t.addrs.length := by
  intro t
  induction t with
  | nil =>
    intro ctx fuel h hf _ hb ha
    obtain ⟨k, rfl⟩ : ∃ k, fuel = k + 1 := ⟨fuel - 1, by omega⟩
    exact ⟨ctx, by simp [insert_search], h, rfl, hb, ha, by simp⟩
  | node l a c v r ihl ihr =>
    intro ctx fuel h hf hs hb ha
    obtain ⟨k, rfl⟩ : ∃ k, fuel = k + 1 := ⟨fuel - 1, by omega⟩
    obtain ⟨hsl, hsr, hlv, hrv⟩ := sorted_node l a c v r hs
    have hd := deref_focus s ctx l a c v r h
    simp only [Tree.addrs, List.length_append, List.length_cons] at hf
    by_cases hlt : val < v
    · have h1 := (repZ_up_L s a c v r ctx l).2 h
      obtain ⟨ctx1, e1, r1, p1, b1, a1, l1⟩ := ihl (Frame.L a c v r :: ctx) k h1 (by omega) hsl
        (by simpa [pathBefore] using hb)
        (by
          intro x hx
          simp only [pathAfter, List.cons_append, List.mem_cons, List.mem_append] at hx
          rcases hx with rfl | hx | hx
          · exact le_of_lt hlt
          · exact le_trans (le_of_lt hlt) (hrv x hx)
          · exact ha x hx)
      refine ⟨ctx1, ?_, r1, by rw [p1]; rfl, b1, a1, ?_⟩
      · simp only [linkOf_L, pathPtr_cons, addr_L] at e1
        simp [insert_search, hd, hlt, bind, Except.bind, e1]
      · simp only [List.length_cons] at l1
        simp only [Tree.addrs, List.length_append, List.length_cons]
        omega
    · have h1 := (repZ_up_R s l a c v ctx r).2 h
      obtain ⟨ctx1, e1, r1, p1, b1, a1, l1⟩ := ihr (Frame.R l a c v :: ctx) k h1 (by omega) hsr
        (by
          intro x hx
          simp only [pathBefore, List.mem_append, List.mem_singleton] at hx
          rcases hx with hx | hx | rfl
          · exact hb x hx
          · exact le_trans (hlv x hx) (not_lt.1 hlt)
          · exact not_lt.1 hlt)
        (by simpa [pathAfter] using ha)
      refine ⟨ctx1, ?_, r1, by rw [p1]; rfl, b1, a1, ?_⟩
      · simp only [linkOf_R, pathPtr_cons, addr_R] at e1
        simp [insert_search, hd, hlt, bind, Except.bind, e1]
      · simp only [List.length_cons] at l1
        simp only [Tree.addrs, List.length_append, List.length_cons]
        omega

theorem state_ext (s1 s2 : State) (h1 : ∀ q, s1.mem q = s2.mem q) (h2 : s1.node = s2.node) :
    s1 = s2 := by
  cases s1
  cases s2
  simp only [State.mk.injEq]
  exact ⟨funext h1, h2⟩

/-- The assignments of `rb_link_node` to the fields of the new node. -/
theorem link_node_fields (s : State) (a : Nat) (g : rbnode) (parent : Option Nat)
    (k : State → M State) (hg : s.mem a = some g) :
    (do
      let s1 ← set_parent s (some a) parent
      let s2 ← set_color s1 (some a) RB_RED
      let s3 ← set_right s2 (some a) none
      let s4 ← set_left s3 (some a) none
      k s4) = k (store s a ⟨parent, none, none, RB_RED, g.val⟩) := by
  simp only [set_parent, set_color, set_right, set_left, hg, bind, Except.bind, store_mem,
    if_true]
  congr 1
  apply state_ext
  · intro q
    simp only [store_mem]
    split_ifs <;> rfl
  · rfl

/-- The function `rb_link_node` puts a red node without children at an empty place. -/
theorem link_node_spec (s : State) (ctx : List Frame) (a : Nat) (g : rbnode)
    (h : RepZ s ctx Tree.nil) (ha : a ∉ pathAddrs ctx) (hg : s.mem a = some g) :
    ∃ s1, rb_link_node (some a) (pathPtr ctx none) (linkOf ctx) s = Except.ok s1 ∧
      RepZ s1 ctx (Tree.node Tree.nil a RB_RED g.val Tree.nil) := by
  obtain ⟨hpath, _, hroot, hnd⟩ := h
  have hnd1 : (pathAddrs ctx).Nodup := by simpa [Tree.addrs] using hnd
  have hnd2 : (pathAddrs ctx ++ (Tree.node Tree.nil a RB_RED g.val Tree.nil).addrs).Nodup := by
    simp only [Tree.addrs, List.nil_append]
    rw [List.nodup_append]
    exact ⟨hnd1, List.nodup_singleton a, fun q hq hq2 => ha (by
      rw [List.mem_singleton] at hq2
      exact hq2 ▸ hq)⟩
  have hf := fun k => link_node_fields s a g (pathPtr ctx none) k hg
  simp only [bind, Except.bind] at hf
  cases ctx with
  | nil =>
    refine ⟨{ (store s a ⟨none, none, none, RB_RED, g.val⟩) with node := some a }, ?_, trivial,
      ⟨?_, trivial, trivial⟩, ?_, hnd2⟩
    · simp only [pathPtr_nil] at hf
      simp only [rb_link_node, pathPtr_nil, linkOf_nil, true_or, if_true, bind, Except.bind]
      rw [hf]
      rfl
    · simp
    · simp
  | cons f up =>
    obtain ⟨n1, n2, n3⟩ := nodup_frame f up hnd1
    cases f with
    | L pa c v r =>
      obtain ⟨h1, h2, h3⟩ := hpath
      have hne : pa ≠ a := fun e => ha (by simp [pathAddrs, Frame.addrs, e])
      simp only [addr_L] at n2
      simp only [pathPtr_cons, addr_L] at hf
      refine ⟨store (store s a ⟨some pa, none, none, RB_RED, g.val⟩) pa
        ⟨pathPtr up none, some a, r.ptr, c, v⟩, ?_, ⟨?_, ?_, ?_⟩, ⟨?_, trivial, trivial⟩, ?_,
        hnd2⟩
      · have hc : some pa = none ∨ ∃ a_1, some pa = some a_1 ∧
            (Link.left pa = Link.left a_1 ∨ Link.left pa = Link.right a_1) :=
          Or.inr ⟨pa, rfl, Or.inl rfl⟩
        simp only [rb_link_node, pathPtr_cons, addr_L, linkOf_L, bind, Except.bind, hc, if_true]
        rw [hf]
        simp [set_link, set_left, hne, h1]
      · simp [hne]
      · apply rep_congr _ _ r _ _ h2
        intro q hq
        have e1 : q ≠ pa := fun e => n3.1 (e ▸ hq)
        have e2 : q ≠ a := fun e => ha (by simp [pathAddrs, Frame.addrs, e ▸ hq])
        simp [e1, e2]
      · apply repPath_congr _ _ up _ _ _ h3
        intro q hq
        have e1 : q ≠ pa := fun e => n2 (e ▸ hq)
        have e2 : q ≠ a := fun e => ha (by simp [pathAddrs, e ▸ hq])
        simp [e1, e2]
      · simp [hne.symm]
      · simpa using hroot
    | R l pa c v =>
      obtain ⟨h1, h2, h3⟩ := hpath
      have hne : pa ≠ a := fun e => ha (by simp [pathAddrs, Frame.addrs, e])
      simp only [addr_R] at n2
      simp only [pathPtr_cons, addr_R] at hf
      refine ⟨store (store s a ⟨some pa, none, none, RB_RED, g.val⟩) pa
        ⟨pathPtr up none, l.ptr, some a, c, v⟩, ?_, ⟨?_, ?_, ?_⟩, ⟨?_, trivial, trivial⟩, ?_,
        hnd2⟩
      · have hc : some pa = none ∨ ∃ a_1, some pa = some a_1 ∧
            (Link.right pa = Link.left a_1 ∨ Link.right pa = Link.right a_1) :=
          Or.inr ⟨pa, rfl, Or.inr rfl⟩
        simp only [rb_link_node, pathPtr_cons, addr_R, linkOf_R, bind, Except.bind, hc, if_true]
        rw [hf]
        simp [set_link, set_right, hne, h1]
      · simp [hne]
      · apply rep_congr _ _ l _ _ h2
        intro q hq
        have e1 : q ≠ pa := fun e => n3.1 (e ▸ hq)
        have e2 : q ≠ a := fun e => ha (by simp [pathAddrs, Frame.addrs, e ▸ hq])
        simp [e1, e2]
      · apply repPath_congr _ _ up _ _ _ h3
        intro q hq
        have e1 : q ≠ pa := fun e => n2 (e ▸ hq)
        have e2 : q ≠ a := fun e => ha (by simp [pathAddrs, e ▸ hq])
        simp [e1, e2]
      · simp [hne.symm]
      · simpa using hroot

theorem rep_allocated (h : Nat → Option rbnode) :
    ∀ (t : Tree) (par : Option Nat), Rep h par t → ∀ q, q ∈ t.addrs → h q ≠ none := by
  intro t
  induction t with
  | nil =>
    intro _ _ q hq
    simp [Tree.addrs] at hq
  | node l a c v r ihl ihr =>
    intro par hrep q hq
    obtain ⟨h1, h2, h3⟩ := hrep
    simp only [Tree.addrs, List.mem_append, List.mem_cons] at hq
    rcases hq with hq | rfl | hq
    · exact ihl _ h2 q hq
    · rw [h1]
      simp
    · exact ihr _ h3 q hq

theorem sorted_insert (l1 l2 : List Int) (v : Int) (h : (l1 ++ l2).Sorted (· ≤ ·))
    (h1 : ∀ x ∈ l1, x ≤ v) (h2 : ∀ x ∈ l2, v ≤ x) : (l1 ++ v :: l2).Sorted (· ≤ ·) := by
  simp only [List.Sorted, List.pairwise_append, List.pairwise_cons] at h ⊢
  obtain ⟨h3, h4, h5⟩ := h
  refine ⟨h3, ⟨h2, h4⟩, ?_⟩
  intro x hx y hy
  rcases List.mem_cons.1 hy with rfl | hy
  · exact h1 x hx
  · exact h5 x hx y hy

/-- Insertion on the represented tree: `rb_insert_val` returns, the result is a red-black
tree, and its values are the old values with `val` at a place that keeps them in order. -/
theorem insert_val_tree (s : State) (t : Tree) (val : Int) (a : Nat) (g : rbnode) (fuel : Nat)
    (h : RepZ s [] t) (hrb : IsRBTree t) (ha : s.mem a = none)
    (hf : t.addrs.length + 1 ≤ fuel) :
    ∃ s1 t1, rb_insert_val fuel val (some (a, g)) s = Except.ok s1 ∧ RepZ s1 [] t1 ∧
      IsRBTree t1 ∧ ∃ l1 l2, t.inorder = l1 ++ l2 ∧ t1.inorder = l1 ++ val :: l2 := by
  obtain ⟨hshape, hsorted⟩ := hrb
  have hat : a ∉ t.addrs := fun hm => rep_allocated s.mem t _ h.sub a hm ha
  -- the new block holds the value
  have h0 : RepZ (store s a { g with val := val }) [] t := by
    obtain ⟨_, hsub, hroot, hnd⟩ := h
    refine ⟨trivial, ?_, hroot, hnd⟩
    apply rep_congr _ _ t _ _ hsub
    intro q hq
    have : q ≠ a := fun e => hat (e ▸ hq)
    simp [this]
  obtain ⟨ctx1, e1, r1, p1, b1, a1, l1⟩ := insert_search_spec val _ t [] fuel h0 hf hsorted
    (by simp [pathBefore]) (by simp [pathAfter])
  simp only [plug] at p1
  have hat1 : a ∉ pathAddrs ctx1 := by
    intro hm
    have hz := (repZ_plug _ ctx1 Tree.nil).1 r1
    rw [p1] at hz
    apply hat
    have hperm : ∀ (ctx : List Frame) (u : Tree) (q : Nat),
        q ∈ pathAddrs ctx → q ∈ (plug ctx u).addrs := by
      intro ctx
      induction ctx with
      | nil => intro u q hq; simp [pathAddrs] at hq
      | cons f up ih =>
        intro u q hq
        rw [plug_cons]
        simp only [pathAddrs, List.mem_append] at hq
        rcases hq with hq | hq
        · have hsub : ∀ (up : List Frame) (w : Tree) (q : Nat),
              q ∈ w.addrs → q ∈ (plug up w).addrs := by
            intro up
            induction up with
            | nil => intro w q hq; exact hq
            | cons f2 up2 ih2 =>
              intro w q hq
              rw [plug_cons]
              apply ih2
              cases f2 <;> simp [fill, Tree.addrs, hq]
          apply hsub
          cases f <;> simp only [Frame.addrs, List.mem_cons] at hq <;>
            simp only [fill, Tree.addrs, List.mem_append, List.mem_cons] <;> tauto
        · exact ih _ q hq
    have := hperm ctx1 Tree.nil a hm
    rw [p1] at this
    exact this
  obtain ⟨s2, e2, r2⟩ := link_node_spec _ ctx1 a { g with val := val } r1 hat1 (by simp)
  have hsh1 : RBShape (plug ctx1 Tree.nil) := by rw [p1]; exact hshape
  obtain ⟨m, hpv, hvn, _⟩ := (plug_shape ctx1 Tree.nil).1 hsh1
  obtain ⟨s3, t3, e3, r3, sh3, in3⟩ := insert_balance_loop_spec fuel ctx1 Tree.nil a val
    Tree.nil s2 m r2 rfl rfl hvn hvn hpv (by
      simp only [List.length_nil, zero_add] at l1
      omega)
  have hin : t.inorder = pathBefore ctx1 ++ pathAfter ctx1 := by
    rw [← p1, inorder_plug]
    simp [Tree.inorder]
  have hin3 : t3.inorder = pathBefore ctx1 ++ val :: pathAfter ctx1 := by
    rw [in3, inorder_plug]
    simp [Tree.inorder]
  refine ⟨s3, t3, ?_, r3, ⟨sh3, ?_⟩, _, _, hin, hin3⟩
  · have hp := rb_parent_focus s2 ctx1 Tree.nil a RB_RED val Tree.nil r2
    have hr : s.node = t.ptr := h.root
    simp only [linkOf_nil, pathPtr_nil] at e1
    simp only [rb_insert_val, bind, Except.bind, store_node, hr]
    rw [e1]
    dsimp only
    rw [e2]
    simp only [rb_insert_balance, bind, Except.bind, hp]
    exact e3
  · rw [hin3]
    rw [hin] at hsorted
    exact sorted_insert _ _ val hsorted b1 a1

theorem bind_eq_ok {α β : Type} (x : M α) (f : α → M β) (b : β) :
    (x >>= f) = Except.ok b ↔ ∃ a, x = Except.ok a ∧ f a = Except.ok b := by
  cases x <;> simp [bind, Except.bind]

theorem plug_append (p ctx : List Frame) : ∀ t : Tree,
    plug (p ++ ctx) t = plug ctx (plug p t) := by
  induction p with
  | nil => intro t; rfl
  | cons f up ih =>
    intro t
    cases f <;> exact ih _

/-- The loop of `rb_predecessor` ends at the last node of the subtree, which is reached by
right links only and has no right child. -/
theorem predecessor_loop_spec (s : State) :
    ∀ (l : Tree) (a : Nat) (c v : Int) (r : Tree) (ctx : List Frame) (fuel : Nat),
      RepZ s ctx (Tree.node l a c v r) → (Tree.node l a c v r).addrs.length ≤ fuel →
      ∃ p pl pa pc pv, rb_predecessor_loop s fuel (some a) = Except.ok (some pa) ∧
        RepZ s (p ++ ctx) (Tree.node pl pa pc pv Tree.nil) ∧
        plug p (Tree.node pl pa pc pv Tree.nil) = Tree.node l a c v r ∧
        ∀ f ∈ p, f.isL = false := by
  intro l a c v r
  induction r generalizing l a c v with
  | nil =>
    intro ctx fuel h hf
    obtain ⟨k, rfl⟩ : ∃ k, fuel = k + 1 := ⟨fuel - 1, by
      simp only [Tree.addrs, List.length_append, List.length_cons] at hf
      omega⟩
    have hd := deref_focus s ctx l a c v Tree.nil h
    refine ⟨[], l, a, c, v, ?_, h, rfl, by simp⟩
    simp [rb_predecessor_loop, hd, bind, Except.bind, pure, Except.pure]
  | node rl ra rc rv rr _ ihr =>
    intro ctx fuel h hf
    simp only [Tree.addrs, List.length_append, List.length_cons] at hf
    obtain ⟨k, rfl⟩ : ∃ k, fuel = k + 1 := ⟨fuel - 1, by omega⟩
    have hd := deref_focus s ctx l a c v _ h
    have h1 := (repZ_up_R s l a c v ctx _).2 h
    obtain ⟨p, pl, pa, pc, pv, e1, r1, p1, f1⟩ := ihr rl ra rc rv (Frame.R l a c v :: ctx) k h1
      (by
        simp only [Tree.addrs, List.length_append, List.length_cons]
        omega)
    refine ⟨p ++ [Frame.R l a c v], pl, pa, pc, pv, ?_, by simpa using r1, ?_, ?_⟩
    · simp [rb_predecessor_loop, hd, bind, Except.bind, e1]
    · rw [plug_append, p1]
      rfl
    · intro f hf
      rcases List.mem_append.1 hf with hf | hf
      · exact f1 f hf
      · rw [List.mem_singleton] at hf
        subst hf
        rfl

/-- The loop of `rb_successor` ends at the first node of the subtree, which is reached by
left links only and has no left child. -/
theorem successor_loop_spec (s : State) :
    ∀ (l : Tree) (a : Nat) (c v : Int) (r : Tree) (ctx : List Frame) (fuel : Nat),
      RepZ s ctx (Tree.node l a c v r) → (Tree.node l a c v r).addrs.length ≤ fuel →
      ∃ p qa qc qv qr, rb_successor_loop s fuel (some a) = Except.ok (some qa) ∧
        RepZ s (p ++ ctx) (Tree.node Tree.nil qa qc qv qr) ∧
        plug p (Tree.node Tree.nil qa qc qv qr) = Tree.node l a c v r ∧
        ∀ f ∈ p, f.isL = true := by
  intro l
  induction l with
  | nil =>
    intro a c v r ctx fuel h hf
    obtain ⟨k, rfl⟩ : ∃ k, fuel = k + 1 := ⟨fuel - 1, by
      simp only [Tree.addrs, List.length_append, List.length_cons] at hf
      omega⟩
    have hd := deref_focus s ctx Tree.nil a c v r h
    refine ⟨[], a, c, v, r, ?_, h, rfl, by simp⟩
    simp [rb_successor_loop, hd, bind, Except.bind, pure, Except.pure]
  | node ll la lc lv lr ihl _ =>
    intro a c v r ctx fuel h hf
    simp only [Tree.addrs, List.length_append, List.length_cons] at hf
    obtain ⟨k, rfl⟩ : ∃ k, fuel = k + 1 := ⟨fuel - 1, by omega⟩
    have hd := deref_focus s ctx _ a c v r h
    have h1 := (repZ_up_L s a c v r ctx _).2 h
    obtain ⟨p, qa, qc, qv, qr, e1, r1, p1, f1⟩ := ihl la lc lv lr (Frame.L a c v r :: ctx) k h1
      (by
        simp only [Tree.addrs, List.length_append, List.length_cons]
        omega)
    refine ⟨p ++ [Frame.L a c v r], qa, qc, qv, qr, ?_, by simpa using r1, ?_, ?_⟩
    · simp [rb_successor_loop, hd, bind, Except.bind, e1]
    · rw [plug_append, p1]
      rfl
    · intro f hf
      rcases List.mem_append.1 hf with hf | hf
      · exact f1 f hf
      · rw [List.mem_singleton] at hf
        subst hf
        rfl

theorem pathAfter_right (p : List Frame) (h : ∀ f ∈ p, f.isL = false) : pathAfter p = [] := by
  induction p with
  | nil => rfl
  | cons f up ih =>
    cases f with
    | L a c v r =>
      have := h _ (List.mem_cons_self _ _)
      simp [Frame.isL] at this
    | R l a c v =>
      simp only [pathAfter]
      exact ih (fun f hf => h f (List.mem_cons_of_mem _ hf))

theorem pathBefore_left (p : List Frame) (h : ∀ f ∈ p, f.isL = true) : pathBefore p = [] := by
  induction p with
  | nil => rfl
  | cons f up ih =>
    cases f with
    | R l a c v =>
      have := h _ (List.mem_cons_self _ _)
      simp [Frame.isL] at this
    | L a c v r =>
      simp only [pathBefore]
      exact ih (fun f hf => h f (List.mem_cons_of_mem _ hf))

theorem sorted_snoc_le (xs : List Int) (p v : Int) (hs : (xs ++ [p]).Sorted (· ≤ ·))
    (hp : p ≤ v) : ∀ x ∈ xs ++ [p], x ≤ v := by
  intro x hx
  simp only [List.Sorted, List.pairwise_append, List.mem_singleton] at hs
  rcases List.mem_append.1 hx with hx | hx
  · exact le_trans (hs.2.2 x hx p rfl) hp
  · rw [List.mem_singleton] at hx
    rw [hx]
    exact hp

theorem sorted_cons_ge (xs : List Int) (q v : Int) (hs : (q :: xs).Sorted (· ≤ ·))
    (hq : v ≤ q) : ∀ x ∈ q :: xs, v ≤ x := by
  intro x hx
  simp only [List.Sorted, List.pairwise_cons] at hs
  rcases List.mem_cons.1 hx with hx | hx
  · rw [hx]
    exact hq
  · exact le_trans hq (hs.1 x hx)

/-- The first half of the test of the order in `__rbtree_check`: when the left subtree is
in order, the test finds a violation exactly when some value on the left is greater than
the value of the node. -/
theorem left_violates_spec (s : State) (ctx : List Frame) (l : Tree) (a : Nat) (c v : Int)
    (r : Tree) (fuel : Nat) (h : RepZ s ctx (Tree.node l a c v r))
    (hf : l.addrs.length ≤ fuel) :
    ∃ b, left_violates fuel s (some a) = Except.ok b ∧
      (b = false → l.inorder.Sorted (· ≤ ·) → ∀ x ∈ l.inorder, x ≤ v) ∧
      ((∀ x ∈ l.inorder, x ≤ v) → b = false) := by
  have hd := deref_focus s ctx l a c v r h
  cases l with
  | nil =>
    refine ⟨false, ?_, fun _ _ x hx => by simp [Tree.inorder] at hx, fun _ => rfl⟩
    simp [left_violates, hd, bind, Except.bind, pure, Except.pure]
  | node ll la lc lv lr =>
    have h1 := (repZ_up_L s a c v r ctx _).2 h
    have hd1 := deref_focus s _ ll la lc lv lr h1
    by_cases hgt : lv > v
    · refine ⟨true, ?_, fun hb => by simp at hb, fun hall => ?_⟩
      · simp [left_violates, hd, hd1, hgt, bind, Except.bind, pure, Except.pure]
      · have := hall lv (by simp [Tree.inorder])
        omega
    · obtain ⟨p, pl, pa, pc, pv, e1, r1, p1, f1⟩ :=
        predecessor_loop_spec s ll la lc lv lr _ fuel h1 hf
      have hd2 := deref_focus s _ pl pa pc pv Tree.nil r1
      have hin : (Tree.node ll la lc lv lr).inorder = (pathBefore p ++ pl.inorder) ++ [pv] := by
        rw [← p1, inorder_plug, pathAfter_right p f1]
        simp [Tree.inorder]
      refine ⟨decide (pv > v), ?_, ?_, ?_⟩
      · simp only [ptr_node] at hd
        simp [left_violates, hd, hd1, hgt, bind, Except.bind, pure, Except.pure,
          rb_predecessor, e1, hd2]
      · intro hb hs
        rw [hin] at hs ⊢
        apply sorted_snoc_le _ _ _ hs
        simpa using hb
      · intro hall
        have := hall pv (by rw [hin]; simp)
        simpa using this

/-- The second half of the test of the order in `__rbtree_check`. -/
theorem right_violates_spec (s : State) (ctx : List Frame) (l : Tree) (a : Nat) (c v : Int)
    (r : Tree) (fuel : Nat) (h : RepZ s ctx (Tree.node l a c v r))
    (hf : r.addrs.length ≤ fuel) :
    ∃ b, right_violates fuel s (some a) = Except.ok b ∧
      (b = false → r.inorder.Sorted (· ≤ ·) → ∀ x ∈ r.inorder, v ≤ x) ∧
      ((∀ x ∈ r.inorder, v ≤ x) → b = false) := by
  have hd := deref_focus s ctx l a c v r h
  cases r with
  | nil =>
    refine ⟨false, ?_, fun _ _ x hx => by simp [Tree.inorder] at hx, fun _ => rfl⟩
    simp [right_violates, hd, bind, Except.bind, pure, Except.pure]
  | node rl ra rc rv rr =>
    have h1 := (repZ_up_R s l a c v ctx _).2 h
    have hd1 := deref_focus s _ rl ra rc rv rr h1
    by_cases hgt : rv < v
    · refine ⟨true, ?_, fun hb => by simp at hb, fun hall => ?_⟩
      · simp [right_violates, hd, hd1, hgt, bind, Except.bind, pure, Except.pure]
      · have := hall rv (by simp [Tree.inorder])
        omega
    · obtain ⟨p, qa, qc, qv, qr, e1, r1, p1, f1⟩ :=
        successor_loop_spec s rl ra rc rv rr _ fuel h1 hf
      have hd2 := deref_focus s _ Tree.nil qa qc qv qr r1
      have hin : (Tree.node rl ra rc rv rr).inorder = qv :: (qr.inorder ++ pathAfter p) := by
        rw [← p1, inorder_plug, pathBefore_left p f1]
        simp [Tree.inorder]
      refine ⟨decide (qv < v), ?_, ?_, ?_⟩
      · simp only [ptr_node] at hd
        simp [right_violates, hd, hd1, hgt, bind, Except.bind, pure, Except.pure,
          rb_successor, e1, hd2]
      · intro hb hs
        rw [hin] at hs ⊢
        apply sorted_cons_ge _ _ _ hs
        simpa using hb
      · intro hall
        have := hall qv (by rw [hin]; simp)
        simpa using this

theorem to_int_id (x : Int) (h1 : -2 ^ 31 ≤ x) (h2 : x < 2 ^ 31) : to_int x = x := by
  unfold to_int
  omega

theorem check_color_focus (s : State) (ctx : List Frame) (t : Tree) (g : Check)
    (h : RepZ s ctx t) :
    check_color s t.ptr g =
      if t.color = RB_BLACK then
        Except.ok { g with last_color := RB_BLACK, cur_black := to_int (g.cur_black + 1) }
      else if t.color ≠ RB_RED then Except.error (Fault.violation 1)
      else if g.last_color = RB_RED then Except.error (Fault.violation 4)
      else Except.ok { g with last_color := RB_RED } := by
  have hb := rb_is_black_focus s ctx t h
  have hr := rb_is_red_focus s ctx t h
  by_cases h1 : t.color = RB_BLACK
  · simp [check_color, hb, h1, bind, Except.bind, pure, Except.pure]
  · by_cases h2 : t.color = RB_RED
    · by_cases h3 : g.last_color = RB_RED
      · simp [check_color, hb, hr, h1, h2, h3, bind, Except.bind, pure, Except.pure,
          red_ne_black]
      · simp [check_color, hb, hr, h1, h2, h3, bind, Except.bind, pure, Except.pure,
          red_ne_black]
    · simp [check_color, hb, hr, h1, h2, bind, Except.bind, pure, Except.pure]

theorem check_restore_focus (s : State) (ctx : List Frame) (t : Tree) (old : Int) (g : Check)
    (h : RepZ s ctx t) :
    check_restore s t.ptr old g =
      Except.ok { g with cur_black := if t.color = RB_BLACK then to_int (g.cur_black - 1)
                                      else g.cur_black,
                         last_color := old } := by
  have hb := rb_is_black_focus s ctx t h
  simp [check_restore, hb, bind, Except.bind, pure, Except.pure]

theorem check_node_step (s : State) (ctx : List Frame) (l : Tree) (a : Nat) (c v : Int)
    (r : Tree) (k : Nat) (g g' : Check) (bl br : Bool)
    (h : RepZ s ctx (Tree.node l a c v r))
    (hbl : left_violates k s (some a) = Except.ok bl)
    (hbr : right_violates k s (some a) = Except.ok br) :
    rbtree_check s (k + 1) (some a) g = Except.ok g' ↔
      ∃ g1 g3 g4, check_color s (some a) g = Except.ok g1 ∧ bl = false ∧ br = false ∧
        rbtree_check s k l.ptr g1 = Except.ok g3 ∧ rbtree_check s k r.ptr g3 = Except.ok g4 ∧
        check_restore s (some a) g.last_color g4 = Except.ok g' := by
  have hd := deref_focus s ctx l a c v r h
  rw [rbtree_check]
  simp only [bind_eq_ok, hbl, Except.ok.injEq, exists_eq_left']
  cases bl <;> cases br <;>
    simp [hbr, hd, bind_eq_ok, pure, Except.pure]

theorem check_nil_step (s : State) (k : Nat) (g g' : Check) :
    rbtree_check s (k + 1) none g = Except.ok g' ↔
      ∃ g1 g2, check_color s none g = Except.ok g1 ∧ check_leaf g1 = Except.ok g2 ∧
        check_restore s none g.last_color g2 = Except.ok g' := by
  rw [rbtree_check]
  simp only [bind_eq_ok]
  constructor
  · rintro ⟨g1, h1, g2, h2, h3⟩
    exact ⟨g1, g2, h1, h2, h3⟩
  · rintro ⟨g1, g2, h1, h2, h3⟩
    exact ⟨g1, h1, g2, h2, h3⟩

theorem check_leaf_spec (mx cur last : Int) (g2 : Check) :
    check_leaf ⟨mx, cur, last⟩ = Except.ok g2 ↔ (mx = -1 ∨ mx = cur) ∧ g2 = ⟨cur, cur, last⟩ := by
  by_cases hm : mx = -1
  · subst hm
    simp only [check_leaf, if_true, ne_eq, not_true_eq_false, if_false, pure, Except.pure,
      Except.ok.injEq, true_or, true_and]
    exact eq_comm
  · by_cases hm2 : mx = cur
    · subst hm2
      simp only [check_leaf, hm, if_false, ne_eq, not_true_eq_false, pure, Except.pure,
        Except.ok.injEq, or_true, true_and]
      exact eq_comm
    · simp [check_leaf, hm, hm2]

theorem sorted_node_iff (l : Tree) (a : Nat) (c v : Int) (r : Tree) :
    (Tree.node l a c v r).inorder.Sorted (· ≤ ·) ↔
      l.inorder.Sorted (· ≤ ·) ∧ r.inorder.Sorted (· ≤ ·) ∧ (∀ x ∈ l.inorder, x ≤ v) ∧
        ∀ x ∈ r.inorder, v ≤ x := by
  constructor
  · exact sorted_node l a c v r
  · rintro ⟨h1, h2, h3, h4⟩
    simp only [Tree.inorder, List.Sorted, List.pairwise_append, List.pairwise_cons]
    refine ⟨h1, ⟨h4, h2⟩, ?_⟩
    intro x hx y hy
    rcases List.mem_cons.1 hy with rfl | hy
    · exact h3 x hx
    · exact le_trans (h3 x hx) (h4 y hy)

/-- What `__rbtree_check` computes on a subtree: it returns exactly when the subtree has the
red-black properties and its values are in order, and then `max_black` is the number of
black nodes on the paths from the root to the leaves. -/
theorem check_spec (s : State) :
    ∀ (t : Tree) (ctx : List Frame) (fuel : Nat) (mx cur last : Int) (g' : Check),
      RepZ s ctx t → t.addrs.length + 1 ≤ fuel → 0 ≤ cur →
      cur + t.addrs.length + 1 < 2 ^ 31 →
      (rbtree_check s fuel t.ptr ⟨mx, cur, last⟩ = Except.ok g' ↔
        ∃ n : Nat, Valid t n ∧ (last = RB_RED → t.color = RB_BLACK) ∧
          t.inorder.Sorted (· ≤ ·) ∧ (mx = -1 ∨ mx = cur + n) ∧ g' = ⟨cur + n, cur, last⟩) := by
  intro t
  induction t with
  | nil =>
    intro ctx fuel mx cur last g' h hf hc hb
    obtain ⟨k, rfl⟩ : ∃ k, fuel = k + 1 := ⟨fuel - 1, by omega⟩
    simp only [Tree.addrs, List.length_nil, Nat.cast_zero, add_zero] at hb
    have e1 : to_int (cur + 1) = cur + 1 := to_int_id _ (by omega) (by omega)
    have e2 : to_int (cur + 1 - 1) = cur := by
      rw [to_int_id _ (by omega) (by omega)]
      omega
    have e3 : to_int cur = cur := to_int_id _ (by omega) (by omega)
    have hcol := check_color_focus s ctx Tree.nil ⟨mx, cur, last⟩ h
    have hres := fun g => check_restore_focus s ctx Tree.nil last g h
    simp only [ptr_nil, color_nil, if_true] at hcol hres
    rw [ptr_nil, check_nil_step]
    simp only [hcol, hres, Except.ok.injEq, e1]
    constructor
    · rintro ⟨g1, g2, rfl, h2, rfl⟩
      obtain ⟨hm, rfl⟩ := (check_leaf_spec _ _ _ _).1 h2
      refine ⟨1, rfl, fun _ => rfl, List.sorted_nil, ?_, ?_⟩
      · simpa using hm
      · simp [e3]
    · rintro ⟨n, hv, _, _, hm, rfl⟩
      have hn : n = 1 := hv
      subst hn
      refine ⟨_, ⟨cur + 1, cur + 1, RB_BLACK⟩, rfl, ?_, ?_⟩
      · exact (check_leaf_spec _ _ _ _).2 ⟨by simpa using hm, rfl⟩
      · simp [e3]
  | node l a c v r ihl ihr =>
    intro ctx fuel mx cur last g' h hf hc hb
    obtain ⟨k, rfl⟩ : ∃ k, fuel = k + 1 := ⟨fuel - 1, by omega⟩
    simp only [Tree.addrs, List.length_append, List.length_cons, Nat.cast_add, Nat.cast_one]
      at hb hf
    have hl := (repZ_up_L s a c v r ctx l).2 h
    have hr := (repZ_up_R s l a c v ctx r).2 h
    obtain ⟨bl, hbl, hbl1, hbl2⟩ := left_violates_spec s ctx l a c v r k h (by omega)
    obtain ⟨br, hbr, hbr1, hbr2⟩ := right_violates_spec s ctx l a c v r k h (by omega)
    have hcol := check_color_focus s ctx _ ⟨mx, cur, last⟩ h
    have hres := fun g => check_restore_focus s ctx _ last g h
    simp only [ptr_node, color_node] at hcol hres
    rw [ptr_node, check_node_step s ctx l a c v r k _ g' bl br h hbl hbr]
    simp only [hres, hcol, Except.ok.injEq, sorted_node_iff]
    have e1 : to_int (cur + 1) = cur + 1 := to_int_id _ (by omega) (by omega)
    have e2 : to_int (cur + 1 - 1) = cur := by
      rw [to_int_id _ (by omega) (by omega)]
      omega
    by_cases hcb : c = RB_BLACK
    · subst hcb
      simp only [if_true, Except.ok.injEq, e1, Valid, color_node, red_ne_black.symm, false_and,
        false_or, true_and]
      have il := fun g3 => ihl (Frame.L a RB_BLACK v r :: ctx) k mx (cur + 1) RB_BLACK g3 hl
        (by omega) (by omega) (by omega)
      have ir := fun m g4 => ihr (Frame.R l a RB_BLACK v :: ctx) k m (cur + 1) RB_BLACK g4 hr
        (by omega) (by omega) (by omega)
      constructor
      · rintro ⟨g1, g3, g4, rfl, rfl, rfl, h3, h4, rfl⟩
        obtain ⟨nl, vl, _, sl, ml, rfl⟩ := (il g3).1 h3
        obtain ⟨nr, vr, _, sr, mr, rfl⟩ := (ir _ g4).1 h4
        have hn : nl = nr := by omega
        subst hn
        refine ⟨nl + 1, ⟨nl, rfl, vl, vr⟩, fun _ => trivial, ⟨sl, sr, hbl1 rfl sl, hbr1 rfl sr⟩,
          ?_, ?_⟩
        · rcases ml with ml | ml
          · exact Or.inl ml
          · right
            rw [ml]
            push_cast
            ring
        · simp only [e2, Check.mk.injEq, and_true]
          push_cast
          ring
      · rintro ⟨n, ⟨m, rfl, vl, vr⟩, _, ⟨sl, sr, al, ar⟩, hm, rfl⟩
        refine ⟨_, ⟨cur + 1 + m, cur + 1, RB_BLACK⟩, ⟨cur + 1 + m, cur + 1, RB_BLACK⟩, rfl,
          hbl2 al, hbr2 ar, ?_, ?_, ?_⟩
        · refine (il _).2 ⟨m, vl, fun h => absurd h.symm red_ne_black, sl, ?_, rfl⟩
          rcases hm with hm | hm
          · exact Or.inl hm
          · right
            rw [hm]
            push_cast
            ring
        · exact (ir _ _).2 ⟨m, vr, fun h => absurd h.symm red_ne_black, sr, Or.inr rfl, rfl⟩
        · simp only [e2, Check.mk.injEq, and_true]
          push_cast
          ring
    · by_cases hcr : c = RB_RED
      · subst hcr
        by_cases hlr : last = RB_RED
        · subst hlr
          simp [red_ne_black]
        · simp only [hcb, if_false, ne_eq, not_true_eq_false, hlr, Except.ok.injEq, Valid,
            color_node, true_and, false_and, or_false]
          have il := fun g3 => ihl (Frame.L a RB_RED v r :: ctx) k mx cur RB_RED g3 hl
            (by omega) (by omega) (by omega)
          have ir := fun m g4 => ihr (Frame.R l a RB_RED v :: ctx) k m cur RB_RED g4 hr
            (by omega) (by omega) (by omega)
          constructor
          · rintro ⟨g1, g3, g4, rfl, rfl, rfl, h3, h4, rfl⟩
            obtain ⟨nl, vl, cl, sl, ml, rfl⟩ := (il g3).1 h3
            obtain ⟨nr, vr, cr, sr, mr, rfl⟩ := (ir _ g4).1 h4
            have hn : nl = nr := by omega
            subst hn
            exact ⟨nl, ⟨cl rfl, cr rfl, vl, vr⟩, fun h => h.elim,
              ⟨sl, sr, hbl1 rfl sl, hbr1 rfl sr⟩, ml, rfl⟩
          · rintro ⟨n, ⟨cl, cr, vl, vr⟩, _, ⟨sl, sr, al, ar⟩, hm, rfl⟩
            exact ⟨_, ⟨cur + n, cur, RB_RED⟩, ⟨cur + n, cur, RB_RED⟩, rfl, hbl2 al, hbr2 ar,
              (il _).2 ⟨n, vl, fun _ => cl, sl, hm, rfl⟩,
              (ir _ _).2 ⟨n, vr, fun _ => cr, sr, Or.inr rfl, rfl⟩, rfl⟩
      · simp [hcb, hcr, Valid]

theorem nodes_inorder (t : Tree) : t.nodes.map Prod.snd = t.inorder := by
  induction t with
  | nil => rfl
  | node l a c v r ihl ihr => simp [Tree.nodes, Tree.inorder, ihl, ihr]

theorem nodes_addrs (t : Tree) : t.nodes.map Prod.fst = t.addrs := by
  induction t with
  | nil => rfl
  | node l a c v r ihl ihr => simp [Tree.nodes, Tree.addrs, ihl, ihr]

theorem fill_nodes_congr (f : Frame) (t1 t2 : Tree) (h : t1.nodes = t2.nodes) :
    (fill f t1).nodes = (fill f t2).nodes := by
  cases f <;> simp [fill, Tree.nodes, h]

theorem plug_nodes_congr (ctx : List Frame) :
    ∀ t1 t2 : Tree, t1.nodes = t2.nodes → (plug ctx t1).nodes = (plug ctx t2).nodes := by
  induction ctx with
  | nil => intro t1 t2 h; exact h
  | cons f up ih =>
    intro t1 t2 h
    rw [plug_cons, plug_cons]
    exact ih _ _ (fill_nodes_congr f t1 t2 h)

/-- The nodes of a tree around a subtree. -/
theorem plug_nodes_split (ctx : List Frame) :
    ∃ l1 l2, ∀ t : Tree, (plug ctx t).nodes = l1 ++ t.nodes ++ l2 := by
  induction ctx with
  | nil => exact ⟨[], [], fun t => by simp [plug]⟩
  | cons f up ih =>
    obtain ⟨l1, l2, h⟩ := ih
    cases f with
    | L a c v r =>
      refine ⟨l1, (a, v) :: r.nodes ++ l2, fun t => ?_⟩
      rw [plug_cons, h]
      simp [fill, Tree.nodes]
    | R l a c v =>
      refine ⟨l1 ++ l.nodes ++ [(a, v)], l2, fun t => ?_⟩
      rw [plug_cons, h]
      simp [fill, Tree.nodes]

theorem and_then_ok (a b : Bool) :
    and_then (Except.ok a) (Except.ok b) = Except.ok (a && b) := by
  cases a <;> simp [and_then, bind, Except.bind, pure, Except.pure]

theorem valid_pos : ∀ (t : Tree) (m : Nat), Valid t m → 1 ≤ m := by
  intro t
  induction t with
  | nil =>
    intro m h
    have : m = 1 := h
    omega
  | node l a c v r ihl _ =>
    intro m h
    rcases h with ⟨_, _, _, h1, _⟩ | ⟨_, k, rfl, _, _⟩
    · exact ihl m h1
    · omega

theorem valid_node (t : Tree) (m : Nat) (h : Valid t m) (hm : 2 ≤ m) :
    ∃ l a c v r, t = Tree.node l a c v r := by
  cases t with
  | nil =>
    have : m = 1 := h
    omega
  | node l a c v r => exact ⟨l, a, c, v, r, rfl⟩

theorem valid_black (t : Tree) (m : Nat) (hv : Valid t (m + 1)) (hc : t.color = RB_BLACK)
    (hm : 1 ≤ m) :
    ∃ l a v r, t = Tree.node l a RB_BLACK v r ∧ Valid l m ∧ Valid r m := by
  cases t with
  | nil =>
    have : m + 1 = 1 := hv
    omega
  | node l a c v r =>
    simp only [color_node] at hc
    subst hc
    rcases hv with ⟨h1, _⟩ | ⟨_, k, hk, h2, h3⟩
    · exact absurd h1.symm red_ne_black
    · have : k = m := by omega
      subst this
      exact ⟨l, a, v, r, rfl, h2, h3⟩

/-- Writing the colour of the root of the sibling subtree. -/
theorem set_color_sibling (s : State) (f : Frame) (up : List Frame) (t : Tree) (l : Tree)
    (a : Nat) (c v : Int) (r : Tree) (c1 : Int) (h : RepZ s (f :: up) t)
    (hs : f.sibling = Tree.node l a c v r) :
    ∃ s1, set_color s (some a) c1 = Except.ok s1 ∧
      RepZ s1 ((f.flip t).flip (Tree.node l a c1 v r) :: up) t := by
  have h1 := (repZ_flip s f up t).1 h
  rw [hs] at h1
  obtain ⟨s1, e1, r1⟩ := set_color_focus s _ l a c v r c1 h1
  refine ⟨s1, e1, ?_⟩
  have := (repZ_flip s1 (f.flip t) up _).1 r1
  simpa using this

theorem rb_is_black_sibling (s : State) (f : Frame) (up : List Frame) (t : Tree)
    (h : RepZ s (f :: up) t) :
    rb_is_black s f.sibling.ptr = Except.ok (decide (f.sibling.color = RB_BLACK)) :=
  rb_is_black_focus s _ _ ((repZ_flip s f up t).1 h)

theorem rb_is_red_sibling (s : State) (f : Frame) (up : List Frame) (t : Tree)
    (h : RepZ s (f :: up) t) :
    rb_is_red s f.sibling.ptr = Except.ok (decide (f.sibling.color = RB_RED)) :=
  rb_is_red_focus s _ _ ((repZ_flip s f up t).1 h)

theorem rb_is_red_frame (s : State) (f : Frame) (up : List Frame) (t : Tree)
    (h : RepZ s (f :: up) t) :
    rb_is_red s (some f.addr) = Except.ok (decide (f.color = RB_RED)) := by
  have h1 := rb_is_red_focus s up (fill f t) ((repZ_up s f up t).1 h)
  simpa using h1

theorem readsL (st : State) (up : List Frame) (t : Tree) (pa : Nat) (cp pv : Int)
    (sc : Tree) (sa : Nat) (cs sv : Int) (sd : Tree)
    (h : RepZ st (Frame.L pa cp pv (Tree.node sc sa cs sv sd) :: up) t) :
    ReadsL st up t pa cp pv sc sa cs sv sd := by
  have hf := (repZ_flip st _ up t).1 h
  simp only [Frame.flip, Frame.sibling] at hf
  have hc := (repZ_up_L st sa cs sv sd _ sc).2 hf
  have hd := (repZ_up_R st sc sa cs sv _ sd).2 hf
  have dp := deref_frame st _ up t h
  have ds := deref_focus st _ sc sa cs sv sd hf
  simp only [addr_L, node_L, ptr_node, pathPtr_cons, addr_R] at dp ds
  refine ⟨dp, ds, ?_, ?_, ?_, ?_, rb_is_black_focus st _ sc hc, rb_is_red_focus st _ sc hc,
    rb_is_black_focus st _ sd hd, rb_is_red_focus st _ sd hd, ?_⟩
  · simpa using rb_is_black_frame st _ up t h
  · simpa using rb_is_red_frame st _ up t h
  · simpa using rb_is_black_focus st _ _ hf
  · simpa using rb_is_red_focus st _ _ hf
  · simp [nephews, dp, ds, bind, Except.bind, pure, Except.pure]

/-- Case 6 of `rb_erase_balance` when `n` is a left child. -/
theorem erase_case6_L (st : State) (up : List Frame) (t : Tree) (pa : Nat) (cp pv : Int)
    (sc : Tree) (sa : Nat) (sv : Int) (sdl : Tree) (sda : Nat) (sdv : Int) (sdr : Tree)
    (h : RepZ st (Frame.L pa cp pv
      (Tree.node sc sa RB_BLACK sv (Tree.node sdl sda RB_RED sdv sdr)) :: up) t) :
    ∃ s1, erase_case6 st t.ptr (some pa) (some sa) (some sda) = Except.ok s1 ∧
      RepZ s1 up (Tree.node (Tree.node t pa RB_BLACK pv sc) sa cp sv
        (Tree.node sdl sda RB_BLACK sdv sdr)) := by
  have R := readsL st up t pa cp pv sc sa RB_BLACK sv _ h
  have h0 := (repZ_up_L st pa cp pv _ up t).1 h
  obtain ⟨s1, e1, r1⟩ := rotate_left_spec st up t sc _ pa sa cp pv RB_BLACK sv h0
  have r1p := (repZ_up_L s1 sa RB_BLACK sv _ up _).2 r1
  have d1 := deref_focus s1 _ t pa cp pv sc r1p
  obtain ⟨s2, e2, r2⟩ := set_color_focus s1 up _ sa RB_BLACK sv _ cp r1
  have r2p := (repZ_up_L s2 sa cp sv _ up _).2 r2
  obtain ⟨s3, e3, r3⟩ := set_color_focus s2 _ t pa cp pv sc RB_BLACK r2p
  have r3u := (repZ_up_L s3 sa cp sv _ up _).1 r3
  have r3d := (repZ_up_R s3 _ sa cp sv up _).2 r3u
  obtain ⟨s4, e4, r4⟩ := set_color_focus s3 _ sdl sda RB_RED sdv sdr RB_BLACK r3d
  have r4u := (repZ_up_R s4 _ sa cp sv up _).1 r4
  refine ⟨s4, ?_, r4u⟩
  have hbs := R.bs
  have hrd := R.rd
  simp only [ptr_node, color_node] at hbs hrd
  simp [erase_case6, hbs, hrd, rotate_towards, R.dp, e1, d1, e2, rb_set_black, e3, e4, bind,
    Except.bind, pure, Except.pure]

/-- Case 5 of `rb_erase_balance` when `n` is a left child. -/
theorem erase_case5_L (st : State) (up : List Frame) (t : Tree) (pa : Nat) (cp pv : Int)
    (scl : Tree) (sca : Nat) (scv : Int) (scr : Tree) (sa : Nat) (sv : Int) (sd : Tree)
    (h : RepZ st (Frame.L pa cp pv
      (Tree.node (Tree.node scl sca RB_RED scv scr) sa RB_BLACK sv sd) :: up) t)
    (hd : sd.color = RB_BLACK) :
    ∃ s1, erase_case5 st t.ptr (some pa) (some sa) (some sca) sd.ptr
        = Except.ok (s1, some sca, scl.ptr, some sa) ∧
      RepZ s1 (Frame.L pa cp pv
        (Tree.node scl sca RB_BLACK scv (Tree.node scr sa RB_RED sv sd)) :: up) t := by
  have R := readsL st up t pa cp pv _ sa RB_BLACK sv sd h
  have hf := (repZ_flip st _ up t).1 h
  simp only [Frame.flip, Frame.sibling] at hf
  obtain ⟨s1, e1, r1⟩ := set_color_focus st _ _ sa RB_BLACK sv sd RB_RED hf
  have r1c := (repZ_up_L s1 sa RB_RED sv sd _ _).2 r1
  obtain ⟨s2, e2, r2⟩ := set_color_focus s1 _ scl sca RB_RED scv scr RB_BLACK r1c
  have r2u := (repZ_up_L s2 sa RB_RED sv sd _ _).1 r2
  have r2t : RepZ s2 (Frame.L pa cp pv
      (Tree.node (Tree.node scl sca RB_BLACK scv scr) sa RB_RED sv sd) :: up) t := by
    have := (repZ_flip s2 (Frame.R t pa cp pv) up _).1 r2u
    simpa [Frame.flip, Frame.sibling] using this
  have R2 := readsL s2 up t pa cp pv _ sa RB_RED sv sd r2t
  obtain ⟨s3, e3, r3⟩ := rotate_right_spec s2 _ scl scr sd sa sca RB_RED sv RB_BLACK scv r2u
  have r3t : RepZ s3 (Frame.L pa cp pv
      (Tree.node scl sca RB_BLACK scv (Tree.node scr sa RB_RED sv sd)) :: up) t := by
    have := (repZ_flip s3 (Frame.R t pa cp pv) up _).1 r3
    simpa [Frame.flip, Frame.sibling] using this
  have R3 := readsL s3 up t pa cp pv scl sca RB_BLACK scv _ r3t
  refine ⟨s3, ?_, r3t⟩
  have hrc := R.rc
  have hbd := R.bd
  have hbs := R.bs
  have hn3 := R3.nep
  simp only [ptr_node, color_node] at hrc hbs hn3
  simp [erase_case5, hrc, hbd, hd, hbs, and_then_ok, rb_set_red, rb_set_black, e1, e2,
    rotate_away, R2.dp, e3, hn3, bind, Except.bind, pure, Except.pure]

/-- Case 5 of `rb_erase_balance` leaves everything as it is when its condition fails. -/
theorem erase_case5_skip_L (st : State) (up : List Frame) (t : Tree) (pa : Nat) (cp pv : Int)
    (sc : Tree) (sa : Nat) (cs sv : Int) (sd : Tree)
    (h : RepZ st (Frame.L pa cp pv (Tree.node sc sa cs sv sd) :: up) t)
    (hno : ¬ (sc.color = RB_RED ∧ sd.color = RB_BLACK)) :
    erase_case5 st t.ptr (some pa) (some sa) sc.ptr sd.ptr
      = Except.ok (st, some sa, sc.ptr, sd.ptr) := by
  have R := readsL st up t pa cp pv sc sa cs sv sd h
  have hc : (decide (sc.color = RB_RED) && decide (sd.color = RB_BLACK)) = false := by
    by_cases h1 : sc.color = RB_RED
    · have h2 : ¬ sd.color = RB_BLACK := fun h2 => hno ⟨h1, h2⟩
      simp [h2]
    · simp [h1]
  simp [erase_case5, R.rc, R.bd, and_then_ok, hc, bind, Except.bind, pure, Except.pure]

/-- Cases 4 to 6 of `rb_erase_balance` when `n` is a left child: the black node that was
missing on the paths through `n` is restored. -/
theorem erase_tail_L (st : State) (up : List Frame) (t : Tree) (pa : Nat) (cp pv : Int)
    (sc : Tree) (sa : Nat) (sv : Int) (sd : Tree) (m : Nat)
    (h : RepZ st (Frame.L pa cp pv (Tree.node sc sa RB_BLACK sv sd) :: up) t)
    (hvt : Valid t m) (hvc : Valid sc m) (hvd : Valid sd m)
    (hcp : cp = RB_RED ∨ cp = RB_BLACK)
    (hnot : ¬ (cp = RB_BLACK ∧ sc.color = RB_BLACK ∧ sd.color = RB_BLACK)) :
    ∃ s1 t1, erase_tail st t.ptr (some pa) (some sa) sc.ptr sd.ptr = Except.ok s1 ∧
      RepZ s1 up t1 ∧
      t1.nodes = (Tree.node t pa cp pv (Tree.node sc sa RB_BLACK sv sd)).nodes ∧
      (t1.color = RB_BLACK ∨ t1.color = cp) ∧
      Valid t1 (if cp = RB_BLACK then m + 2 else m + 1) := by
  have R := readsL st up t pa cp pv sc sa RB_BLACK sv sd h
  by_cases h4 : cp = RB_RED ∧ sc.color = RB_BLACK ∧ sd.color = RB_BLACK
  · -- case 4
    obtain ⟨hr, hcb, hdb⟩ := h4
    subst hr
    obtain ⟨s1, e1, r1⟩ := set_color_frame st _ up t RB_BLACK h
    simp only [Frame.recolor, addr_L] at e1 r1
    obtain ⟨s2, e2, r2⟩ := set_color_sibling s1 _ up t sc sa RB_BLACK sv sd RB_RED r1 rfl
    simp only [Frame.flip] at r2
    have r2u := (repZ_up_L s2 pa RB_BLACK pv _ up t).1 r2
    refine ⟨s2, _, ?_, r2u, rfl, Or.inl rfl, ?_⟩
    · have hrp := R.rp
      have hbs := R.bs
      simp only [decide_True] at hrp hbs
      simp [erase_tail, hrp, hbs, R.bc, R.bd, hcb, hdb, and_then_ok, rb_set_black, rb_set_red,
        e1, e2, bind, Except.bind, pure, Except.pure]
    · rw [if_neg red_ne_black]
      exact Or.inr ⟨rfl, m, rfl, hvt, Or.inl ⟨rfl, hcb, hdb, hvc, hvd⟩⟩
  · -- cases 5 and 6
    have hnb : ¬ (sc.color = RB_BLACK ∧ sd.color = RB_BLACK) := by
      rintro ⟨h2, h3⟩
      rcases hcp with h1 | h1
      · exact h4 ⟨h1, h2, h3⟩
      · exact hnot ⟨h1, h2, h3⟩
    have hstart : erase_tail st t.ptr (some pa) (some sa) sc.ptr sd.ptr =
        (do
          let (st5, s5, _, sd5) ← erase_case5 st t.ptr (some pa) (some sa) sc.ptr sd.ptr
          erase_case6 st5 t.ptr (some pa) s5 sd5) := by
      simp only [erase_tail, R.rp, R.bs, R.bc, R.bd, and_then_ok, bind, Except.bind]
      rw [if_neg]
      intro hx
      simp only [Bool.and_eq_true, decide_eq_true_eq] at hx
      exact h4 ⟨hx.1, hx.2.2.1, hx.2.2.2⟩
    have hvalid : ∀ (x : Tree) (xa : Nat) (xv : Int) (yl : Tree) (ya : Nat) (yv : Int)
        (yr : Tree), Valid x m → Valid yl m → Valid yr m → yl.color = RB_BLACK →
        yr.color = RB_BLACK →
        Valid (Tree.node (Tree.node t pa RB_BLACK pv x) xa cp xv
          (Tree.node yl ya RB_BLACK yv yr)) (if cp = RB_BLACK then m + 2 else m + 1) := by
      intro x xa xv yl ya yv yr hx hyl hyr _ _
      have v1 : Valid (Tree.node t pa RB_BLACK pv x) (m + 1) := Or.inr ⟨rfl, m, rfl, hvt, hx⟩
      have v2 : Valid (Tree.node yl ya RB_BLACK yv yr) (m + 1) :=
        Or.inr ⟨rfl, m, rfl, hyl, hyr⟩
      rcases hcp with h1 | h1
      · subst h1
        rw [if_neg red_ne_black]
        exact Or.inl ⟨rfl, rfl, rfl, v1, v2⟩
      · subst h1
        rw [if_pos rfl]
        exact Or.inr ⟨rfl, m + 1, rfl, v1, v2⟩
    by_cases h5 : sc.color = RB_RED ∧ sd.color = RB_BLACK
    · obtain ⟨hcr, hdb⟩ := h5
      obtain ⟨scl, sca, scv, scr, rfl, hlb, hrb, hlv, hrv⟩ := valid_red sc m hvc hcr
      obtain ⟨s1, e1, r1⟩ := erase_case5_L st up t pa cp pv scl sca scv scr sa sv sd h hdb
      obtain ⟨s2, e2, r2⟩ := erase_case6_L s1 up t pa cp pv scl sca scv scr sa sv sd r1
      refine ⟨s2, _, ?_, r2, ?_, Or.inr rfl, hvalid scl sca scv scr sa sv sd hlv hrv hvd hrb hdb⟩
      · rw [hstart]
        simp only [ptr_node, e1, bind, Except.bind]
        exact e2
      · simp [Tree.nodes]
    · have hdr : sd.color = RB_RED := by
        rcases valid_color sd m hvd with h1 | h1
        · exact h1
        · rcases valid_color sc m hvc with h2 | h2
          · exact absurd ⟨h2, h1⟩ h5
          · exact absurd ⟨h2, h1⟩ hnb
      obtain ⟨sdl, sda, sdv, sdr, rfl, hlb, hrb, hlv, hrv⟩ := valid_red sd m hvd hdr
      have e1 := erase_case5_skip_L st up t pa cp pv sc sa RB_BLACK sv _ h h5
      obtain ⟨s2, e2, r2⟩ := erase_case6_L st up t pa cp pv sc sa sv sdl sda sdv sdr h
      refine ⟨s2, _, ?_, r2, ?_, Or.inr rfl, hvalid sc sa sv sdl sda sdv sdr hvc hlv hrv hlb hrb⟩
      · rw [hstart]
        simp only [ptr_node] at e1
        simp only [ptr_node, e1, bind, Except.bind]
        exact e2
      · simp [Tree.nodes]

theorem readsR (st : State) (up : List Frame) (t : Tree) (pa : Nat) (cp pv : Int)
    (sc : Tree) (sa : Nat) (cs sv : Int) (sd : Tree)
    (h : RepZ st (Frame.R (Tree.node sd sa cs sv sc) pa cp pv :: up) t) :
    ReadsR st up t pa cp pv sc sa cs sv sd := by
  have hf := (repZ_flip st _ up t).1 h
  simp only [Frame.flip, Frame.sibling] at hf
  have hd := (repZ_up_L st sa cs sv sc _ sd).2 hf
  have hc := (repZ_up_R st sd sa cs sv _ sc).2 hf
  have dp := deref_frame st _ up t h
  have ds := deref_focus st _ sd sa cs sv sc hf
  simp only [addr_R, node_R, ptr_node, pathPtr_cons, addr_L] at dp ds
  have hne : some sa ≠ t.ptr := by
    intro e
    cases t with
    | nil => simp at e
    | node tl ta tc tv tr =>
      have := sibling_ptr_ne st _ up _ ta h rfl
      simp only [Frame.sibling, ptr_node] at this e
      exact this e
  refine ⟨dp, ds, hne, ?_, ?_, ?_, ?_, rb_is_black_focus st _ sc hc, rb_is_red_focus st _ sc hc,
    rb_is_black_focus st _ sd hd, rb_is_red_focus st _ sd hd, ?_⟩
  · simpa using rb_is_black_frame st _ up t h
  · simpa using rb_is_red_frame st _ up t h
  · simpa using rb_is_black_focus st _ _ hf
  · simpa using rb_is_red_focus st _ _ hf
  · simp [nephews, dp, ds, hne, bind, Except.bind, pure, Except.pure]

/-- Case 6 of `rb_erase_balance` when `n` is a right child. -/
theorem erase_case6_R (st : State) (up : List Frame) (t : Tree) (pa : Nat) (cp pv : Int)
    (sc : Tree) (sa : Nat) (sv : Int) (sdl : Tree) (sda : Nat) (sdv : Int) (sdr : Tree)
    (h : RepZ st (Frame.R
      (Tree.node (Tree.node sdl sda RB_RED sdv sdr) sa RB_BLACK sv sc) pa cp pv :: up) t) :
    ∃ s1, erase_case6 st t.ptr (some pa) (some sa) (some sda) = Except.ok s1 ∧
      RepZ s1 up (Tree.node (Tree.node sdl sda RB_BLACK sdv sdr) sa cp sv
        (Tree.node sc pa RB_BLACK pv t)) := by
  have R := readsR st up t pa cp pv sc sa RB_BLACK sv _ h
  have h0 := (repZ_up_R st _ pa cp pv up t).1 h
  obtain ⟨s1, e1, r1⟩ := rotate_right_spec st up _ sc t pa sa cp pv RB_BLACK sv h0
  have r1p := (repZ_up_R s1 _ sa RB_BLACK sv up _).2 r1
  have d1 := deref_focus s1 _ sc pa cp pv t r1p
  obtain ⟨s2, e2, r2⟩ := set_color_focus s1 up _ sa RB_BLACK sv _ cp r1
  have r2p := (repZ_up_R s2 _ sa cp sv up _).2 r2
  obtain ⟨s3, e3, r3⟩ := set_color_focus s2 _ sc pa cp pv t RB_BLACK r2p
  have r3u := (repZ_up_R s3 _ sa cp sv up _).1 r3
  have r3d := (repZ_up_L s3 sa cp sv _ up _).2 r3u
  obtain ⟨s4, e4, r4⟩ := set_color_focus s3 _ sdl sda RB_RED sdv sdr RB_BLACK r3d
  have r4u := (repZ_up_L s4 sa cp sv _ up _).1 r4
  refine ⟨s4, ?_, r4u⟩
  have hbs := R.bs
  have hrd := R.rd
  have hne := R.ne
  simp only [ptr_node, color_node] at hbs hrd
  simp [erase_case6, hbs, hrd, rotate_towards, R.dp, hne, e1, d1, e2, rb_set_black, e3, e4,
    bind, Except.bind, pure, Except.pure]

/-- Case 5 of `rb_erase_balance` when `n` is a right child. -/
theorem erase_case5_R (st : State) (up : List Frame) (t : Tree) (pa : Nat) (cp pv : Int)
    (scl : Tree) (sca : Nat) (scv : Int) (scr : Tree) (sa : Nat) (sv : Int) (sd : Tree)
    (h : RepZ st (Frame.R
      (Tree.node sd sa RB_BLACK sv (Tree.node scl sca RB_RED scv scr)) pa cp pv :: up) t)
    (hd : sd.color = RB_BLACK) :
    ∃ s1, erase_case5 st t.ptr (some pa) (some sa) (some sca) sd.ptr
        = Except.ok (s1, some sca, scr.ptr, some sa) ∧
      RepZ s1 (Frame.R
        (Tree.node (Tree.node sd sa RB_RED sv scl) sca RB_BLACK scv scr) pa cp pv :: up) t := by
  have R := readsR st up t pa cp pv _ sa RB_BLACK sv sd h
  have hf := (repZ_flip st _ up t).1 h
  simp only [Frame.flip, Frame.sibling] at hf
  obtain ⟨s1, e1, r1⟩ := set_color_focus st _ sd sa RB_BLACK sv _ RB_RED hf
  have r1c := (repZ_up_R s1 sd sa RB_RED sv _ _).2 r1
  obtain ⟨s2, e2, r2⟩ := set_color_focus s1 _ scl sca RB_RED scv scr RB_BLACK r1c
  have r2u := (repZ_up_R s2 sd sa RB_RED sv _ _).1 r2
  have r2t : RepZ s2 (Frame.R
      (Tree.node sd sa RB_RED sv (Tree.node scl sca RB_BLACK scv scr)) pa cp pv :: up) t := by
    have := (repZ_flip s2 (Frame.L pa cp pv t) up _).1 r2u
    simpa [Frame.flip, Frame.sibling] using this
  have R2 := readsR s2 up t pa cp pv _ sa RB_RED sv sd r2t
  obtain ⟨s3, e3, r3⟩ := rotate_left_spec s2 _ sd scl scr sa sca RB_RED sv RB_BLACK scv r2u
  have r3t : RepZ s3 (Frame.R
      (Tree.node (Tree.node sd sa RB_RED sv scl) sca RB_BLACK scv scr) pa cp pv :: up) t := by
    have := (repZ_flip s3 (Frame.L pa cp pv t) up _).1 r3
    simpa [Frame.flip, Frame.sibling] using this
  have R3 := readsR s3 up t pa cp pv scr sca RB_BLACK scv _ r3t
  refine ⟨s3, ?_, r3t⟩
  have hrc := R.rc
  have hbd := R.bd
  have hbs := R.bs
  have hn3 := R3.nep
  have hne := R2.ne
  simp only [ptr_node, color_node] at hrc hbs hn3
  simp [erase_case5, hrc, hbd, hd, hbs, and_then_ok, rb_set_red, rb_set_black, e1, e2,
    rotate_away, R2.dp, hne, e3, hn3, bind, Except.bind, pure, Except.pure]

/-- Case 5 of `rb_erase_balance` leaves everything as it is when its condition fails. -/
theorem erase_case5_skip_R (st : State) (up : List Frame) (t : Tree) (pa : Nat) (cp pv : Int)
    (sc : Tree) (sa : Nat) (cs sv : Int) (sd : Tree)
    (h : RepZ st (Frame.R (Tree.node sd sa cs sv sc) pa cp pv :: up) t)
    (hno : ¬ (sc.color = RB_RED ∧ sd.color = RB_BLACK)) :
    erase_case5 st t.ptr (some pa) (some sa) sc.ptr sd.ptr
      = Except.ok (st, some sa, sc.ptr, sd.ptr) := by
  have R := readsR st up t pa cp pv sc sa cs sv sd h
  have hc : (decide (sc.color = RB_RED) && decide (sd.color = RB_BLACK)) = false := by
    by_cases h1 : sc.color = RB_RED
    · have h2 : ¬ sd.color = RB_BLACK := fun h2 => hno ⟨h1, h2⟩
      simp [h2]
    · simp [h1]
  simp [erase_case5, R.rc, R.bd, and_then_ok, hc, bind, Except.bind, pure, Except.pure]

/-- Cases 4 to 6 of `rb_erase_balance` when `n` is a right child. -/
theorem erase_tail_R (st : State) (up : List Frame) (t : Tree) (pa : Nat) (cp pv : Int)
    (sc : Tree) (sa : Nat) (sv : Int) (sd : Tree) (m : Nat)
    (h : RepZ st (Frame.R (Tree.node sd sa RB_BLACK sv sc) pa cp pv :: up) t)
    (hvt : Valid t m) (hvc : Valid sc m) (hvd : Valid sd m)
    (hcp : cp = RB_RED ∨ cp = RB_BLACK)
    (hnot : ¬ (cp = RB_BLACK ∧ sc.color = RB_BLACK ∧ sd.color = RB_BLACK)) :
    ∃ s1 t1, erase_tail st t.ptr (some pa) (some sa) sc.ptr sd.ptr = Except.ok s1 ∧
      RepZ s1 up t1 ∧
      t1.nodes = (Tree.node (Tree.node sd sa RB_BLACK sv sc) pa cp pv t).nodes ∧
      (t1.color = RB_BLACK ∨ t1.color = cp) ∧
      Valid t1 (if cp = RB_BLACK then m + 2 else m + 1) := by
  have R := readsR st up t pa cp pv sc sa RB_BLACK sv sd h
  by_cases h4 : cp = RB_RED ∧ sc.color = RB_BLACK ∧ sd.color = RB_BLACK
  · -- case 4
    obtain ⟨hr, hcb, hdb⟩ := h4
    subst hr
    obtain ⟨s1, e1, r1⟩ := set_color_frame st _ up t RB_BLACK h
    simp only [Frame.recolor, addr_R] at e1 r1
    obtain ⟨s2, e2, r2⟩ := set_color_sibling s1 _ up t sd sa RB_BLACK sv sc RB_RED r1 rfl
    simp only [Frame.flip] at r2
    have r2u := (repZ_up_R s2 _ pa RB_BLACK pv up t).1 r2
    refine ⟨s2, _, ?_, r2u, rfl, Or.inl rfl, ?_⟩
    · have hrp := R.rp
      have hbs := R.bs
      simp only [decide_True] at hrp hbs
      simp [erase_tail, hrp, hbs, R.bc, R.bd, hcb, hdb, and_then_ok, rb_set_black, rb_set_red,
        e1, e2, bind, Except.bind, pure, Except.pure]
    · rw [if_neg red_ne_black]
      exact Or.inr ⟨rfl, m, rfl, Or.inl ⟨rfl, hdb, hcb, hvd, hvc⟩, hvt⟩
  · -- cases 5 and 6
    have hnb : ¬ (sc.color = RB_BLACK ∧ sd.color = RB_BLACK) := by
      rintro ⟨h2, h3⟩
      rcases hcp with h1 | h1
      · exact h4 ⟨h1, h2, h3⟩
      · exact hnot ⟨h1, h2, h3⟩
    have hstart : erase_tail st t.ptr (some pa) (some sa) sc.ptr sd.ptr =
        (do
          let (st5, s5, _, sd5) ← erase_case5 st t.ptr (some pa) (some sa) sc.ptr sd.ptr
          erase_case6 st5 t.ptr (some pa) s5 sd5) := by
      simp only [erase_tail, R.rp, R.bs, R.bc, R.bd, and_then_ok, bind, Except.bind]
      rw [if_neg]
      intro hx
      simp only [Bool.and_eq_true, decide_eq_true_eq] at hx
      exact h4 ⟨hx.1, hx.2.2.1, hx.2.2.2⟩
    have hvalid : ∀ (x : Tree) (xa : Nat) (xv : Int) (yl : Tree) (ya : Nat) (yv : Int)
        (yr : Tree), Valid x m → Valid yl m → Valid yr m → yl.color = RB_BLACK →
        yr.color = RB_BLACK →
        Valid (Tree.node (Tree.node yl ya RB_BLACK yv yr) xa cp xv
          (Tree.node x pa RB_BLACK pv t)) (if cp = RB_BLACK then m + 2 else m + 1) := by
      intro x xa xv yl ya yv yr hx hyl hyr _ _
      have v1 : Valid (Tree.node x pa RB_BLACK pv t) (m + 1) := Or.inr ⟨rfl, m, rfl, hx, hvt⟩
      have v2 : Valid (Tree.node yl ya RB_BLACK yv yr) (m + 1) :=
        Or.inr ⟨rfl, m, rfl, hyl, hyr⟩
      rcases hcp with h1 | h1
      · subst h1
        rw [if_neg red_ne_black]
        exact Or.inl ⟨rfl, rfl, rfl, v2, v1⟩
      · subst h1
        rw [if_pos rfl]
        exact Or.inr ⟨rfl, m + 1, rfl, v2, v1⟩
    by_cases h5 : sc.color = RB_RED ∧ sd.color = RB_BLACK
    · obtain ⟨hcr, hdb⟩ := h5
      obtain ⟨scl, sca, scv, scr, rfl, hlb, hrb, hlv, hrv⟩ := valid_red sc m hvc hcr
      obtain ⟨s1, e1, r1⟩ := erase_case5_R st up t pa cp pv scl sca scv scr sa sv sd h hdb
      obtain ⟨s2, e2, r2⟩ := erase_case6_R s1 up t pa cp pv scr sca scv sd sa sv scl r1
      refine ⟨s2, _, ?_, r2, ?_, Or.inr rfl, hvalid scr sca scv sd sa sv scl hrv hvd hlv hdb hlb⟩
      · rw [hstart]
        simp only [ptr_node, e1, bind, Except.bind]
        exact e2
      · simp [Tree.nodes]
    · have hdr : sd.color = RB_RED := by
        rcases valid_color sd m hvd with h1 | h1
        · exact h1
        · rcases valid_color sc m hvc with h2 | h2
          · exact absurd ⟨h2, h1⟩ h5
          · exact absurd ⟨h2, h1⟩ hnb
      obtain ⟨sdl, sda, sdv, sdr, rfl, hlb, hrb, hlv, hrv⟩ := valid_red sd m hvd hdr
      have e1 := erase_case5_skip_R st up t pa cp pv sc sa RB_BLACK sv _ h h5
      obtain ⟨s2, e2, r2⟩ := erase_case6_R st up t pa cp pv sc sa sv sdl sda sdv sdr h
      refine ⟨s2, _, ?_, r2, ?_, Or.inr rfl, hvalid sc sa sv sdl sda sdv sdr hvc hlv hrv hlb hrb⟩
      · rw [hstart]
        simp only [ptr_node] at e1
        simp only [ptr_node, e1, bind, Except.bind]
        exact e2
      · simp [Tree.nodes]

theorem valid_black_node (l : Tree) (a : Nat) (v : Int) (r : Tree) (m : Nat)
    (h : Valid (Tree.node l a RB_BLACK v r) (m + 1)) : Valid l m ∧ Valid r m := by
  rcases h with ⟨h1, _⟩ | ⟨_, k, hk, h2, h3⟩
  · exact absurd h1.symm red_ne_black
  · have : k = m := by omega
    subst this
    exact ⟨h2, h3⟩

theorem valid_red_node (l : Tree) (a : Nat) (v : Int) (r : Tree) (m : Nat)
    (h : Valid (Tree.node l a RB_RED v r) m) :
    l.color = RB_BLACK ∧ r.color = RB_BLACK ∧ Valid l m ∧ Valid r m := by
  rcases h with ⟨_, h2, h3, h4, h5⟩ | ⟨h1, _⟩
  · exact ⟨h2, h3, h4, h5⟩
  · exact absurd h1 red_ne_black

/-- Case 3 of `rb_erase_balance` when `n` is a left child: the red sibling is rotated above
the parent, and the new sibling is black. -/
theorem erase_case3_L (st : State) (up : List Frame) (t : Tree) (pa : Nat) (pv : Int)
    (scl : Tree) (sca : Nat) (scv : Int) (scr : Tree) (sa : Nat) (sv : Int) (sd : Tree)
    (h : RepZ st (Frame.L pa RB_BLACK pv
      (Tree.node (Tree.node scl sca RB_BLACK scv scr) sa RB_RED sv sd) :: up) t)
    (hd : sd.color = RB_BLACK) (hdn : sd.ptr ≠ none) :
    ∃ s1, erase_case3 st t.ptr (some pa) (some sa) (some sca) sd.ptr
        = Except.ok (s1, some sca, scl.ptr, scr.ptr) ∧
      RepZ s1 (Frame.L pa RB_RED pv (Tree.node scl sca RB_BLACK scv scr) ::
        Frame.L sa RB_BLACK sv sd :: up) t := by
  have R := readsL st up t pa RB_BLACK pv _ sa RB_RED sv sd h
  obtain ⟨s1, e1, r1⟩ := set_color_sibling st _ up t _ sa RB_RED sv sd RB_BLACK h rfl
  simp only [Frame.flip] at r1
  obtain ⟨s2, e2, r2⟩ := set_color_frame s1 _ up t RB_RED r1
  simp only [Frame.recolor, addr_L] at e2 r2
  have R2 := readsL s2 up t pa RB_RED pv _ sa RB_BLACK sv sd r2
  have h0 := (repZ_up_L s2 pa RB_RED pv _ up t).1 r2
  obtain ⟨s3, e3, r3⟩ := rotate_left_spec s2 up t _ sd pa sa RB_RED pv RB_BLACK sv h0
  have r3t := (repZ_up_L s3 pa RB_RED pv _ _ t).2 ((repZ_up_L s3 sa RB_BLACK sv sd up _).2 r3)
  have R3 := readsL s3 _ t pa RB_RED pv scl sca RB_BLACK scv scr r3t
  refine ⟨s3, ?_, r3t⟩
  have hrs := R.rs
  have hbp := R.bp
  have hbc := R.bc
  have hbd := R.bd
  have hn3 := R3.nep
  simp only [ptr_node, color_node, decide_True] at hrs hbp hbc
  simp [erase_case3, hrs, hbp, hbc, hbd, hd, hdn, and_then_ok, rb_set_red, rb_set_black, e1,
    e2, rotate_towards, R2.dp, e3, hn3, bind, Except.bind, pure, Except.pure]

/-- Case 3 of `rb_erase_balance` when `n` is a right child. -/
theorem erase_case3_R (st : State) (up : List Frame) (t : Tree) (pa : Nat) (pv : Int)
    (scl : Tree) (sca : Nat) (scv : Int) (scr : Tree) (sa : Nat) (sv : Int) (sd : Tree)
    (h : RepZ st (Frame.R
      (Tree.node sd sa RB_RED sv (Tree.node scl sca RB_BLACK scv scr)) pa RB_BLACK pv :: up) t)
    (hd : sd.color = RB_BLACK) (hdn : sd.ptr ≠ none) :
    ∃ s1, erase_case3 st t.ptr (some pa) (some sa) (some sca) sd.ptr
        = Except.ok (s1, some sca, scr.ptr, scl.ptr) ∧
      RepZ s1 (Frame.R (Tree.node scl sca RB_BLACK scv scr) pa RB_RED pv ::
        Frame.R sd sa RB_BLACK sv :: up) t := by
  have R := readsR st up t pa RB_BLACK pv _ sa RB_RED sv sd h
  obtain ⟨s1, e1, r1⟩ := set_color_sibling st _ up t sd sa RB_RED sv _ RB_BLACK h rfl
  simp only [Frame.flip] at r1
  obtain ⟨s2, e2, r2⟩ := set_color_frame s1 _ up t RB_RED r1
  simp only [Frame.recolor, addr_R] at e2 r2
  have R2 := readsR s2 up t pa RB_RED pv _ sa RB_BLACK sv sd r2
  have h0 := (repZ_up_R s2 _ pa RB_RED pv up t).1 r2
  obtain ⟨s3, e3, r3⟩ := rotate_right_spec s2 up sd _ t pa sa RB_RED pv RB_BLACK sv h0
  have r3t := (repZ_up_R s3 _ pa RB_RED pv _ t).2 ((repZ_up_R s3 sd sa RB_BLACK sv up _).2 r3)
  have R3 := readsR s3 _ t pa RB_RED pv scr sca RB_BLACK scv scl r3t
  refine ⟨s3, ?_, r3t⟩
  have hrs := R.rs
  have hbp := R.bp
  have hbc := R.bc
  have hbd := R.bd
  have hn3 := R3.nep
  have hne := R2.ne
  simp only [ptr_node, color_node, decide_True] at hrs hbp hbc
  simp [erase_case3, hrs, hbp, hbc, hbd, hd, hdn, and_then_ok, rb_set_red, rb_set_black, e1,
    e2, rotate_towards, R2.dp, hne, e3, hn3, bind, Except.bind, pure, Except.pure]

/-- Case 3 of `rb_erase_balance` leaves everything as it is when the sibling is not red. -/
theorem erase_case3_skip (st : State) (n p : Option Nat) (sa : Nat) (sc sd : Option Nat)
    (cs : Int) (hs : rb_is_red st (some sa) = Except.ok (decide (cs = RB_RED)))
    (hc : cs ≠ RB_RED) :
    erase_case3 st n p (some sa) sc sd = Except.ok (st, some sa, sc, sd) := by
  simp [erase_case3, hs, hc, bind, Except.bind, pure, Except.pure]

/-- The loop of `rb_erase_balance` restores the red-black properties of a tree in which the
paths through the subtree `t` lack one black node, and keeps the order of the values. -/
theorem erase_balance_loop_spec :
    ∀ (fuel : Nat) (ctx : List Frame) (t : Tree) (st : State) (m : Nat),
      RepZ st ctx t → t.color = RB_BLACK → Valid t m → PathValid ctx (m + 1) →
      ctx.length + 1 ≤ fuel →
      ∃ s1 t1, rb_erase_balance_loop fuel t.ptr (pathPtr ctx none) st = Except.ok s1 ∧
        RepZ s1 [] t1 ∧ RBShape t1 ∧ t1.nodes = (plug ctx t).nodes := by
  intro fuel
  induction fuel with
  | zero =>
    intro ctx t st m _ _ _ _ hf
    omega
  | succ fuel ih =>
    intro ctx t st m h htb hvt hpv hf
    have hm := valid_pos t m hvt
    cases ctx with
    | nil =>
      exact ⟨st, t, by simp [rb_erase_balance_loop, pure, Except.pure], h, ⟨htb, m, hvt⟩, rfl⟩
    | cons f up =>
      simp only [List.length_cons] at hf
      have hsv : Valid f.sibling (m + 1) := by
        rcases (pathValid_cons f up (m + 1)).1 hpv with ⟨_, _, h1, _⟩ | ⟨_, h1, _⟩ <;> exact h1
      have hcp : f.color = RB_RED ∨ f.color = RB_BLACK := by
        rcases (pathValid_cons f up (m + 1)).1 hpv with ⟨h1, _⟩ | ⟨h1, _⟩
        · exact Or.inl h1
        · exact Or.inr h1
      -- what remains to prove after cases 4 to 6
      have hfinish : ∀ (s1 : State) (t1 : Tree), RepZ s1 up t1 →
          t1.nodes = (fill f t).nodes → (t1.color = RB_BLACK ∨ t1.color = f.color) →
          Valid t1 (if f.color = RB_BLACK then m + 2 else m + 1) →
          f.sibling.color = RB_BLACK →
          RepZ s1 [] (plug up t1) ∧ RBShape (plug up t1) ∧
            (plug up t1).nodes = (plug (f :: up) t).nodes := by
        intro s1 t1 r1 hin hcol hv1 hsb
        refine ⟨(repZ_plug s1 up t1).1 r1, ?_, ?_⟩
        · rw [plug_shape]
          rcases (pathValid_cons f up (m + 1)).1 hpv with ⟨h1, _, _, h4, h5⟩ | ⟨h1, _, h5⟩
          · rw [h1, if_neg red_ne_black] at hv1
            exact ⟨m + 1, h5, hv1, fun hn => absurd h4 hn⟩
          · rw [h1, if_pos rfl] at hv1
            refine ⟨m + 2, h5, hv1, fun _ => ?_⟩
            rcases hcol with h6 | h6
            · exact h6
            · exact h6.trans h1
        · rw [plug_cons]
          exact plug_nodes_congr up _ _ hin
      cases f with
      | L pa cp pv sib =>
        simp only [Frame.sibling, Frame.color] at hsv hcp hfinish
        obtain ⟨sc, sa, cs, sv, sd, rfl⟩ := valid_node sib (m + 1) hsv (by omega)
        have R := readsL st up t pa cp pv sc sa cs sv sd h
        have hloop : rb_erase_balance_loop (fuel + 1) t.ptr (some pa) st =
            (do
              let c2 ← (Except.ok (decide (cp = RB_BLACK) && (decide (cs = RB_BLACK) &&
                (decide (sc.color = RB_BLACK) && decide (sd.color = RB_BLACK)))) : M Bool)
              if c2 then do
                let st1 ← rb_set_red st (some sa)
                let p1 ← rb_parent st1 (some pa)
                rb_erase_balance_loop fuel (some pa) p1 st1
              else do
                let (st3, s3, sc3, sd3) ← erase_case3 st t.ptr (some pa) (some sa) sc.ptr sd.ptr
                erase_tail st3 t.ptr (some pa) s3 sc3 sd3) := by
          rw [rb_erase_balance_loop]
          simp only [R.dp, R.nep, R.bp, R.bs, R.bc, R.bd, and_then_ok, bind, Except.bind,
            if_true]
        rw [pathPtr_cons, addr_L, hloop]
        by_cases hall : cp = RB_BLACK ∧ cs = RB_BLACK ∧ sc.color = RB_BLACK ∧
            sd.color = RB_BLACK
        · -- case 2
          obtain ⟨h1, h2, h3, h4⟩ := hall
          subst h1
          subst h2
          obtain ⟨s1, e1, r1⟩ := set_color_sibling st _ up t sc sa RB_BLACK sv sd RB_RED h rfl
          simp only [Frame.flip] at r1
          have hp1 := rb_parent_frame s1 _ up t r1
          simp only [addr_L] at hp1
          have r1u := (repZ_up_L s1 pa RB_BLACK pv _ up t).1 r1
          obtain ⟨hvc, hvd⟩ := valid_black_node _ _ _ _ m hsv
          have hpv2 : PathValid up (m + 2) := by
            rcases (pathValid_cons _ up (m + 1)).1 hpv with ⟨h1, _⟩ | ⟨_, _, h5⟩
            · exact absurd h1.symm red_ne_black
            · exact h5
          obtain ⟨s2, t2, e2, r2, sh2, in2⟩ := ih up _ s1 (m + 1) r1u rfl
            (Or.inr ⟨rfl, m, rfl, hvt, Or.inl ⟨rfl, h3, h4, hvc, hvd⟩⟩) hpv2 (by omega)
          refine ⟨s2, t2, ?_, r2, sh2, ?_⟩
          · simp only [ptr_node] at e2
            simp [h3, h4, rb_set_red, e1, hp1, e2, bind, Except.bind]
          · rw [in2, plug_cons]
            apply plug_nodes_congr
            simp [fill, Tree.nodes]
        · have hc2 : (decide (cp = RB_BLACK) && (decide (cs = RB_BLACK) &&
              (decide (sc.color = RB_BLACK) && decide (sd.color = RB_BLACK)))) = false := by
            rw [Bool.eq_false_iff]
            intro hx
            simp only [Bool.and_eq_true, decide_eq_true_eq] at hx
            exact hall hx
          simp only [hc2, bind, Except.bind, Bool.false_eq_true, if_false]
          by_cases hsr : cs = RB_RED
          · -- case 3, then cases 4 to 6
            subst hsr
            obtain ⟨hcb, hdb, hvc, hvd⟩ := valid_red_node _ _ _ _ (m + 1) hsv
            have hcpb : cp = RB_BLACK ∧ PathValid up (m + 2) := by
              rcases (pathValid_cons _ up (m + 1)).1 hpv with ⟨_, h2, _⟩ | ⟨h1, _, h5⟩
              · exact absurd h2 red_ne_black
              · exact ⟨h1, h5⟩
            obtain ⟨rfl, hpv2⟩ := hcpb
            obtain ⟨scl, sca, scv, scr, rfl, hvl, hvr⟩ := valid_black sc m hvc hcb hm
            obtain ⟨sdl, sda, sdc, sdv, sdr, rfl⟩ := valid_node sd (m + 1) hvd (by omega)
            obtain ⟨s3, e3, r3⟩ := erase_case3_L st up t pa pv scl sca scv scr sa sv _ h hdb
              (by simp)
            obtain ⟨s4, t4, e4, r4, in4, _, hv4⟩ := erase_tail_L s3 (Frame.L sa RB_BLACK sv _ :: up)
              t pa RB_RED pv scl sca scv scr m r3 hvt hvl hvr (Or.inl rfl)
              (fun hx => red_ne_black hx.1)
            rw [if_neg red_ne_black] at hv4
            refine ⟨s4, plug (Frame.L sa RB_BLACK sv _ :: up) t4, ?_,
              (repZ_plug s4 _ t4).1 r4, ?_, ?_⟩
            · simp only [ptr_node] at e3 e4
              simp only [ptr_node, e3]
              exact e4
            · rw [plug_shape]
              exact ⟨m + 1, Or.inr ⟨rfl, hvd, hpv2⟩, hv4, fun hn => absurd rfl hn⟩
            · rw [plug_cons, plug_cons]
              apply plug_nodes_congr
              simp [fill, Tree.nodes, in4]
          · -- cases 4 to 6
            have hsb : cs = RB_BLACK := by
              rcases valid_color _ (m + 1) hsv with h1 | h1
              · exact absurd h1 hsr
              · exact h1
            subst hsb
            obtain ⟨hvc, hvd⟩ := valid_black_node _ _ _ _ m hsv
            have e3 := erase_case3_skip st t.ptr (some pa) sa sc.ptr sd.ptr RB_BLACK R.rs hsr
            obtain ⟨s4, t4, e4, r4, in4, hc4, hv4⟩ := erase_tail_L st up t pa cp pv sc sa sv sd m
              h hvt hvc hvd hcp (fun hx => hall ⟨hx.1, rfl, hx.2.1, hx.2.2⟩)
            obtain ⟨q1, q2, q3⟩ := hfinish s4 t4 r4 in4 hc4 hv4 rfl
            refine ⟨s4, plug up t4, ?_, q1, q2, q3⟩
            simp only [e3]
            exact e4
      | R sib pa cp pv =>
        simp only [Frame.sibling, Frame.color] at hsv hcp hfinish
        obtain ⟨sd, sa, cs, sv, sc, rfl⟩ := valid_node sib (m + 1) hsv (by omega)
        have R := readsR st up t pa cp pv sc sa cs sv sd h
        have hne := R.ne
        have hloop : rb_erase_balance_loop (fuel + 1) t.ptr (some pa) st =
            (do
              let c2 ← (Except.ok (decide (cp = RB_BLACK) && (decide (cs = RB_BLACK) &&
                (decide (sc.color = RB_BLACK) && decide (sd.color = RB_BLACK)))) : M Bool)
              if c2 then do
                let st1 ← rb_set_red st (some sa)
                let p1 ← rb_parent st1 (some pa)
                rb_erase_balance_loop fuel (some pa) p1 st1
              else do
                let (st3, s3, sc3, sd3) ← erase_case3 st t.ptr (some pa) (some sa) sc.ptr sd.ptr
                erase_tail st3 t.ptr (some pa) s3 sc3 sd3) := by
          rw [rb_erase_balance_loop]
          simp only [R.dp, R.nep, R.bp, R.bs, R.bc, R.bd, and_then_ok, bind, Except.bind,
            hne, if_false]
        rw [pathPtr_cons, addr_R, hloop]
        by_cases hall : cp = RB_BLACK ∧ cs = RB_BLACK ∧ sc.color = RB_BLACK ∧
            sd.color = RB_BLACK
        · -- case 2
          obtain ⟨h1, h2, h3, h4⟩ := hall
          subst h1
          subst h2
          obtain ⟨s1, e1, r1⟩ := set_color_sibling st _ up t sd sa RB_BLACK sv sc RB_RED h rfl
          simp only [Frame.flip] at r1
          have hp1 := rb_parent_frame s1 _ up t r1
          simp only [addr_R] at hp1
          have r1u := (repZ_up_R s1 _ pa RB_BLACK pv up t).1 r1
          obtain ⟨hvd, hvc⟩ := valid_black_node _ _ _ _ m hsv
          have hpv2 : PathValid up (m + 2) := by
            rcases (pathValid_cons _ up (m + 1)).1 hpv with ⟨h1, _⟩ | ⟨_, _, h5⟩
            · exact absurd h1.symm red_ne_black
            · exact h5
          obtain ⟨s2, t2, e2, r2, sh2, in2⟩ := ih up _ s1 (m + 1) r1u rfl
            (Or.inr ⟨rfl, m, rfl, Or.inl ⟨rfl, h4, h3, hvd, hvc⟩, hvt⟩) hpv2 (by omega)
          refine ⟨s2, t2, ?_, r2, sh2, ?_⟩
          · simp only [ptr_node] at e2
            simp [h3, h4, rb_set_red, e1, hp1, e2, bind, Except.bind]
          · rw [in2, plug_cons]
            apply plug_nodes_congr
            simp [fill, Tree.nodes]
        · have hc2 : (decide (cp = RB_BLACK) && (decide (cs = RB_BLACK) &&
              (decide (sc.color = RB_BLACK) && decide (sd.color = RB_BLACK)))) = false := by
            rw [Bool.eq_false_iff]
            intro hx
            simp only [Bool.and_eq_true, decide_eq_true_eq] at hx
            exact hall hx
          simp only [hc2, bind, Except.bind, Bool.false_eq_true, if_false]
          by_cases hsr : cs = RB_RED
          · -- case 3, then cases 4 to 6
            subst hsr
            obtain ⟨hdb, hcb, hvd, hvc⟩ := valid_red_node _ _ _ _ (m + 1) hsv
            have hcpb : cp = RB_BLACK ∧ PathValid up (m + 2) := by
              rcases (pathValid_cons _ up (m + 1)).1 hpv with ⟨_, h2, _⟩ | ⟨h1, _, h5⟩
              · exact absurd h2 red_ne_black
              · exact ⟨h1, h5⟩
            obtain ⟨rfl, hpv2⟩ := hcpb
            obtain ⟨scl, sca, scv, scr, rfl, hvl, hvr⟩ := valid_black sc m hvc hcb hm
            obtain ⟨sdl, sda, sdc, sdv, sdr, rfl⟩ := valid_node sd (m + 1) hvd (by omega)
            obtain ⟨s3, e3, r3⟩ := erase_case3_R st up t pa pv scl sca scv scr sa sv _ h hdb
              (by simp)
            obtain ⟨s4, t4, e4, r4, in4, _, hv4⟩ := erase_tail_R s3 (Frame.R _ sa RB_BLACK sv :: up)
              t pa RB_RED pv scr sca scv scl m r3 hvt hvr hvl (Or.inl rfl)
              (fun hx => red_ne_black hx.1)
            rw [if_neg red_ne_black] at hv4
            refine ⟨s4, plug (Frame.R _ sa RB_BLACK sv :: up) t4, ?_,
              (repZ_plug s4 _ t4).1 r4, ?_, ?_⟩
            · simp only [ptr_node] at e3 e4
              simp only [ptr_node, e3]
              exact e4
            · rw [plug_shape]
              exact ⟨m + 1, Or.inr ⟨rfl, hvd, hpv2⟩, hv4, fun hn => absurd rfl hn⟩
            · rw [plug_cons, plug_cons]
              apply plug_nodes_congr
              simp [fill, Tree.nodes, in4]
          · -- cases 4 to 6
            have hsb : cs = RB_BLACK := by
              rcases valid_color _ (m + 1) hsv with h1 | h1
              · exact absurd h1 hsr
              · exact h1
            subst hsb
            obtain ⟨hvd, hvc⟩ := valid_black_node _ _ _ _ m hsv
            have e3 := erase_case3_skip st t.ptr (some pa) sa sc.ptr sd.ptr RB_BLACK R.rs hsr
            obtain ⟨s4, t4, e4, r4, in4, hc4, hv4⟩ := erase_tail_R st up t pa cp pv sc sa sv sd m
              h hvt hvc hvd hcp (fun hx => hall ⟨hx.1, rfl, hx.2.1, hx.2.2⟩)
            obtain ⟨q1, q2, q3⟩ := hfinish s4 t4 r4 in4 hc4 hv4 rfl
            refine ⟨s4, plug up t4, ?_, q1, q2, q3⟩
            simp only [e3]
            exact e4

/-- The function `rb_unlink_node` puts the only child of a node, or nothing, in the place of
the node; the record of the node is left as it was. -/
theorem unlink_spec (s : State) (ctx : List Frame) (l : Tree) (n : Nat) (c v : Int) (r : Tree)
    (child : Tree) (h : RepZ s ctx (Tree.node l n c v r))
    (hch : (l = Tree.nil ∧ child = r) ∨ (r = Tree.nil ∧ child = l)) :
    ∃ s1, rb_unlink_node (some n) s = Except.ok s1 ∧ RepZ s1 ctx child ∧
      s1.mem n = s.mem n := by
  have hn := repZ_mem s ctx l n c v r h
  obtain ⟨hpath, ⟨_, hl, hr⟩, hroot, hnd⟩ := h
  simp only [ptr_node] at hpath hroot
  have hsubl : List.Sublist child.addrs (Tree.node l n c v r).addrs := by
    rcases hch with ⟨_, rfl⟩ | ⟨_, rfl⟩
    · simp only [Tree.addrs]
      exact (List.sublist_cons_self _ _).trans (List.sublist_append_right _ _)
    · simp only [Tree.addrs]
      exact List.sublist_append_left _ _
  have hrep : Rep s.mem (some n) child := by
    rcases hch with ⟨_, rfl⟩ | ⟨_, rfl⟩
    · exact hr
    · exact hl
  have hnd2 : (pathAddrs ctx ++ child.addrs).Nodup :=
    hnd.sublist (List.Sublist.append (List.Sublist.refl _) hsubl)
  have ndP : (pathAddrs ctx).Nodup := (List.nodup_append.1 hnd).1
  have ndc : child.addrs.Nodup := (List.nodup_append.1 hnd2).2.1
  have hc : ∀ q, List.count q (pathAddrs ctx ++ (Tree.node l n c v r).addrs) ≤ 1 :=
    fun q => List.nodup_iff_count_le_one.1 hnd q
  simp only [Tree.addrs, List.count_append, List.count_cons] at hc
  have hnP : n ∉ pathAddrs ctx := fun hm => by
    have h1 := hc n
    have h2 := List.count_pos_iff.2 hm
    simp only [beq_self_eq_true, if_true] at h1
    omega
  have hnc : n ∉ child.addrs := fun hm => by
    have h1 := hc n
    have h3 : 0 < List.count n l.addrs + List.count n r.addrs := by
      rcases hch with ⟨_, rfl⟩ | ⟨_, rfl⟩
      · have := List.count_pos_iff.2 hm
        omega
      · have := List.count_pos_iff.2 hm
        omega
    simp only [beq_self_eq_true, if_true] at h1
    omega
  have dPc : ∀ q, q ∈ pathAddrs ctx → q ∈ child.addrs → False := fun q h1 h2 =>
    (List.nodup_append.1 hnd2).2.2 h1 h2
  have hptr : (if l.ptr ≠ none then l.ptr else r.ptr) = child.ptr := by
    rcases hch with ⟨rfl, rfl⟩ | ⟨rfl, rfl⟩
    · simp
    · by_cases hx : child.ptr = none
      · simp [hx]
      · simp [hx]
  have hcond : ¬ (l.ptr ≠ none ∧ r.ptr ≠ none) := by
    rcases hch with ⟨rfl, _⟩ | ⟨rfl, _⟩ <;> simp
  obtain ⟨s1, e1, r1, hc1, f1⟩ := rep_reparent s child (some n) (pathPtr ctx none) hrep ndc
  have m1 : ∀ q, q ∉ child.addrs → s1.mem q = s.mem q :=
    fun q hq => f1 q (fun e => hq (ptr_mem_addrs child q e.symm))
  have hpath1 : RepPath s1.mem ctx (some n) none := by
    apply repPath_congr _ _ ctx _ _ _ hpath
    intro q hq
    exact m1 q (fun hm => dPc q hq hm)
  obtain ⟨s2, e2, hpath2, r2, f2⟩ := replace_child_spec s1 ctx n child.ptr hpath1
    (by rw [r1]; exact hroot) hnP ndP
  have m2 : ∀ q, q ∉ pathAddrs ctx → s2.mem q = s1.mem q :=
    fun q hq => f2 q (fun e => hq (pathPtr_mem ctx q e.symm))
  refine ⟨s2, ?_, ⟨hpath2, ?_, r2, hnd2⟩, ?_⟩
  · simp only [rb_unlink_node, deref, hn, rb_parent, bind, Except.bind, hcond, if_false,
      hptr, e1]
    exact e2
  · apply rep_congr _ _ child _ _ hc1
    intro q hq
    exact m2 q (fun hm => dPc q hm hq)
  · rw [m2 n hnP, m1 n hnc]

theorem valid_one (t : Tree) (h : Valid t 1) :
    t = Tree.nil ∨ ∃ a v, t = Tree.node Tree.nil a RB_RED v Tree.nil := by
  cases t with
  | nil => exact Or.inl rfl
  | node l a c v r =>
    right
    rcases h with ⟨h1, h2, h3, h4, h5⟩ | ⟨_, m, hm, h4, _⟩
    · subst h1
      have hl : l = Tree.nil := by
        cases l with
        | nil => rfl
        | node ll la lc lv lr =>
          simp only [color_node] at h2
          subst h2
          rcases h4 with ⟨h6, _⟩ | ⟨_, m, hm, h7, _⟩
          · exact absurd h6.symm red_ne_black
          · have := valid_pos _ m h7
            omega
      have hr : r = Tree.nil := by
        cases r with
        | nil => rfl
        | node ll la lc lv lr =>
          simp only [color_node] at h3
          subst h3
          rcases h5 with ⟨h6, _⟩ | ⟨_, m, hm, h7, _⟩
          · exact absurd h6.symm red_ne_black
          · have := valid_pos _ m h7
            omega
      subst hl
      subst hr
      exact ⟨a, v, rfl⟩
    · have := valid_pos _ m h4
      omega

theorem valid_nil_iff (k : Nat) : Valid Tree.nil k ↔ k = 1 := Iff.rfl

/-- The end of `rb_erase`: the node, which has at most one child, is taken out of the tree
and the red-black properties are restored. -/
theorem erase_unlink_spec (fuel : Nat) (s : State) (ctx : List Frame) (l : Tree) (n : Nat)
    (c v : Int) (r : Tree) (k : Nat) (h : RepZ s ctx (Tree.node l n c v r))
    (hone : l = Tree.nil ∨ r = Tree.nil) (hv : Valid (Tree.node l n c v r) k)
    (hpv : PathValid ctx k) (hhead : ¬ headBlack ctx → c = RB_BLACK)
    (hf : ctx.length + 1 ≤ fuel) :
    ∃ p s2 s1 t1 child, erase_node_unlink (some n) s = Except.ok (p, s2) ∧
      (match p with
        | none => pure s2
        | some _ => rb_erase_balance fuel p s2) = Except.ok s1 ∧
      RepZ s1 [] t1 ∧ RBShape t1 ∧
      ((l = Tree.nil ∧ child = r) ∨ (r = Tree.nil ∧ child = l)) ∧
      t1.nodes = (plug ctx child).nodes := by
  have hn := repZ_mem s ctx l n c v r h
  have hpar := rb_parent_focus s ctx l n c v r h
  -- the child
  obtain ⟨child, hch⟩ : ∃ child, (l = Tree.nil ∧ child = r) ∨ (r = Tree.nil ∧ child = l) := by
    rcases hone with h1 | h1
    · exact ⟨r, Or.inl ⟨h1, rfl⟩⟩
    · exact ⟨l, Or.inr ⟨h1, rfl⟩⟩
  have hptr : (if l.ptr ≠ none then l.ptr else r.ptr) = child.ptr := by
    rcases hch with ⟨rfl, rfl⟩ | ⟨rfl, rfl⟩
    · simp
    · by_cases hx : child.ptr = none
      · simp [hx]
      · simp [hx]
  have hcond : ¬ (l.ptr ≠ none ∧ r.ptr ≠ none) := by
    rcases hch with ⟨rfl, _⟩ | ⟨rfl, _⟩ <;> simp
  obtain ⟨s2, e2, r2, m2⟩ := unlink_spec s ctx l n c v r child h hch
  have hd2 : deref s2 (some n) = Except.ok ⟨pathPtr ctx none, l.ptr, r.ptr, c, v⟩ := by
    simp [deref, m2, hn]
  have hstart : erase_node_unlink (some n) s =
      (do
        let red ← rb_is_red s2 (some n)
        if red then do
          let n2 ← deref s2 (some n)
          if ¬ (n2.left = none ∧ n2.right = none) then Except.error (Fault.assert_c 279)
          else if pathPtr ctx none = none then Except.error (Fault.assert_c 280)
          else pure (none, s2)
        else do
          let cred ← rb_is_red s2 child.ptr
          if cred then do
            let cn ← deref s2 child.ptr
            if ¬ (cn.left = none ∧ cn.right = none) then Except.error (Fault.assert_c 294)
            else do
              let s3 ← rb_set_black s2 child.ptr
              pure (none, s3)
          else do
            let n2 ← deref s2 (some n)
            if ¬ (n2.left = none ∧ n2.right = none) then Except.error (Fault.assert_c 302)
            else pure (pathPtr ctx none, s2)) := by
    simp only [erase_node_unlink, deref, hn, hpar, bind, Except.bind, hcond, if_false, hptr, e2]
  have hred : rb_is_red s2 (some n) = Except.ok (decide (c = RB_RED)) := by
    simp [rb_is_red, hd2]
  have hcred := rb_is_red_focus s2 ctx child r2
  rw [hstart]
  rcases hv with ⟨hc, hlb, hrb, hvl, hvr⟩ | ⟨hc, m, rfl, hvl, hvr⟩
  · -- the node is red: it has no child
    subst hc
    have hk : k = 1 := by
      rcases hch with ⟨rfl, _⟩ | ⟨rfl, _⟩
      · exact hvl
      · exact hvr
    subst hk
    have hl : l = Tree.nil := by
      rcases valid_one l hvl with h1 | ⟨a, w, rfl⟩
      · exact h1
      · exact absurd hlb red_ne_black
    have hr : r = Tree.nil := by
      rcases valid_one r hvr with h1 | ⟨a, w, rfl⟩
      · exact h1
      · exact absurd hrb red_ne_black
    subst hl
    subst hr
    have hcn : child = Tree.nil := by
      rcases hch with ⟨_, h1⟩ | ⟨_, h1⟩ <;> exact h1
    subst hcn
    have hctx : pathPtr ctx none ≠ none := by
      cases ctx with
      | nil => exact absurd (hhead (fun hb => hb)) red_ne_black
      | cons f up => simp
    refine ⟨none, s2, s2, plug ctx Tree.nil, Tree.nil, ?_, rfl, (repZ_plug s2 ctx _).1 r2, ?_,
      hch, rfl⟩
    · simp [hred, hd2, hctx, bind, Except.bind, pure, Except.pure]
    · rw [plug_shape]
      exact ⟨1, hpv, rfl, fun _ => rfl⟩
  · -- the node is black
    subst hc
    have hm : m = 1 := by
      rcases hch with ⟨rfl, _⟩ | ⟨rfl, _⟩
      · exact hvl
      · exact hvr
    subst hm
    have hvc : Valid child 1 := by
      rcases hch with ⟨_, rfl⟩ | ⟨_, rfl⟩
      · exact hvr
      · exact hvl
    have hlr : l.ptr = none ∧ r.ptr = none ∨ child ≠ Tree.nil := by
      by_cases hx : child = Tree.nil
      · left
        subst hx
        rcases hch with ⟨rfl, rfl⟩ | ⟨rfl, rfl⟩ <;> simp
      · exact Or.inr hx
    have hnr : (decide (RB_BLACK = RB_RED)) = false := by
      simp [red_ne_black.symm]
    rcases valid_one child hvc with rfl | ⟨ca, cv, rfl⟩
    · -- no child: a black node is missing
      have hln : l.ptr = none ∧ r.ptr = none := by
        rcases hlr with h1 | h1
        · exact h1
        · exact absurd rfl h1
      have hres : (do
          let red ← rb_is_red s2 (some n)
          if red then do
            let n2 ← deref s2 (some n)
            if ¬ (n2.left = none ∧ n2.right = none) then Except.error (Fault.assert_c 279)
            else if pathPtr ctx none = none then Except.error (Fault.assert_c 280)
            else pure (none, s2)
          else do
            let cred ← rb_is_red s2 Tree.nil.ptr
            if cred then do
              let cn ← deref s2 Tree.nil.ptr
              if ¬ (cn.left = none ∧ cn.right = none) then Except.error (Fault.assert_c 294)
              else do
                let s3 ← rb_set_black s2 Tree.nil.ptr
                pure (none, s3)
            else do
              let n2 ← deref s2 (some n)
              if ¬ (n2.left = none ∧ n2.right = none) then Except.error (Fault.assert_c 302)
              else pure (pathPtr ctx none, s2)) = Except.ok (pathPtr ctx none, s2) := by
        have hcr : rb_is_red s2 none = Except.ok false := by simp [rb_is_red]
        simp [hred, hnr, hcr, hd2, hln, bind, Except.bind, pure, Except.pure]
      cases ctx with
      | nil =>
        exact ⟨none, s2, s2, Tree.nil, Tree.nil, hres, rfl, r2, ⟨rfl, 1, rfl⟩, hch, rfl⟩
      | cons f up =>
        obtain ⟨s3, t3, e3, r3, sh3, n3⟩ := erase_balance_loop_spec fuel (f :: up) Tree.nil s2 1
          r2 rfl rfl hpv hf
        refine ⟨some f.addr, s2, s3, t3, Tree.nil, hres, ?_, r3, sh3, hch, n3⟩
        simpa [rb_erase_balance] using e3
    · -- a red child: it becomes black
      obtain ⟨s3, e3, r3⟩ := set_color_focus s2 ctx Tree.nil ca RB_RED cv Tree.nil RB_BLACK r2
      have hdc := deref_focus s2 ctx Tree.nil ca RB_RED cv Tree.nil r2
      simp only [ptr_node, color_node, decide_True] at hcred hdc
      refine ⟨none, s3, s3, plug ctx (Tree.node Tree.nil ca RB_BLACK cv Tree.nil), _, ?_, rfl,
        (repZ_plug s3 ctx _).1 r3, ?_, hch, ?_⟩
      · simp [hred, hnr, hcred, hdc, rb_set_black, e3, bind, Except.bind, pure, Except.pure]
      · rw [plug_shape]
        exact ⟨2, hpv, Or.inr ⟨rfl, 1, rfl, rfl, rfl⟩, fun _ => rfl⟩
      · apply plug_nodes_congr
        simp [Tree.nodes]

theorem pathAddrs_append (p q : List Frame) : pathAddrs (p ++ q) = pathAddrs p ++ pathAddrs q := by
  induction p with
  | nil => rfl
  | cons f up ih => simp [pathAddrs, ih]

theorem pathPtr_append (p q : List Frame) (outer : Option Nat) :
    pathPtr (p ++ q) outer = pathPtr p (pathPtr q outer) := by
  cases p <;> rfl

theorem pathTop_append (p q : List Frame) :
    ∀ hole : Option Nat, pathTop (p ++ q) hole = pathTop q (pathTop p hole) := by
  induction p with
  | nil => intro hole; rfl
  | cons f up ih => intro hole; exact ih _

theorem plug_ptr (p : List Frame) : ∀ t : Tree, (plug p t).ptr = pathTop p t.ptr := by
  induction p with
  | nil => intro t; rfl
  | cons f up ih =>
    intro t
    rw [plug_cons, ih, fill_ptr]
    rfl

theorem pathTop_cons_mem (f : Frame) (up : List Frame) (hole : Option Nat) :
    ∃ a, pathTop (f :: up) hole = some a ∧ a ∈ pathAddrs (f :: up) ∧
      ∀ hole1, pathTop (f :: up) hole1 = some a := by
  induction up generalizing f hole with
  | nil =>
    refine ⟨f.addr, rfl, ?_, fun _ => rfl⟩
    cases f <;> simp [pathAddrs, Frame.addrs]
  | cons g up ih =>
    obtain ⟨a, h1, h2, h3⟩ := ih g (some f.addr)
    refine ⟨a, h1, ?_, fun _ => h1⟩
    simp only [pathAddrs] at h2 ⊢
    exact List.mem_append_right _ h2

theorem repPath_append (h : Nat → Option rbnode) (p q : List Frame) :
    ∀ (hole outer : Option Nat), RepPath h (p ++ q) hole outer ↔
      RepPath h p hole (pathPtr q outer) ∧ RepPath h q (pathTop p hole) outer := by
  induction p with
  | nil =>
    intro hole outer
    simp [RepPath]
  | cons f up ih =>
    intro hole outer
    cases f with
    | L a c v r =>
      constructor
      · intro hx
        have h1 : h a = some ⟨pathPtr (up ++ q) outer, hole, r.ptr, c, v⟩ := hx.1
        have h2 : Rep h (some a) r := hx.2.1
        have h3 : RepPath h (up ++ q) (some a) outer := hx.2.2
        rw [pathPtr_append] at h1
        exact ⟨⟨h1, h2, ((ih _ _).1 h3).1⟩, ((ih _ _).1 h3).2⟩
      · rintro ⟨⟨h1, h2, h3⟩, h4⟩
        have h5 : RepPath h (up ++ q) (some a) outer := (ih _ _).2 ⟨h3, h4⟩
        rw [← pathPtr_append] at h1
        exact ⟨h1, h2, h5⟩
    | R l a c v =>
      constructor
      · intro hx
        have h1 : h a = some ⟨pathPtr (up ++ q) outer, l.ptr, hole, c, v⟩ := hx.1
        have h2 : Rep h (some a) l := hx.2.1
        have h3 : RepPath h (up ++ q) (some a) outer := hx.2.2
        rw [pathPtr_append] at h1
        exact ⟨⟨h1, h2, ((ih _ _).1 h3).1⟩, ((ih _ _).1 h3).2⟩
      · rintro ⟨⟨h1, h2, h3⟩, h4⟩
        have h5 : RepPath h (up ++ q) (some a) outer := (ih _ _).2 ⟨h3, h4⟩
        rw [← pathPtr_append] at h1
        exact ⟨h1, h2, h5⟩

/-- The right link of the first node of a path is redirected. -/
theorem repPath_set_hole (s : State) (l : Tree) (a : Nat) (c v : Int) (up : List Frame)
    (hole outer hole1 : Option Nat)
    (h : RepPath s.mem (Frame.R l a c v :: up) hole outer)
    (hnd : (pathAddrs (Frame.R l a c v :: up)).Nodup) :
    ∃ s1, set_right s (some a) hole1 = Except.ok s1 ∧
      RepPath s1.mem (Frame.R l a c v :: up) hole1 outer ∧ s1.node = s.node ∧
      ∀ q, q ≠ a → s1.mem q = s.mem q := by
  obtain ⟨h1, h2, h3⟩ := h
  obtain ⟨_, n2, n3⟩ := nodup_frame _ up hnd
  simp only [addr_R] at n2
  refine ⟨store s a ⟨pathPtr up outer, l.ptr, hole1, c, v⟩, by simp [set_right, h1],
    ⟨by simp, ?_, ?_⟩, rfl, ?_⟩
  · apply rep_congr _ _ l _ _ h2
    intro q hq
    have : q ≠ a := fun e => n3.1 (e ▸ hq)
    simp [this]
  · apply repPath_congr _ _ up _ _ _ h3
    intro q hq
    have : q ≠ a := fun e => n2 (e ▸ hq)
    simp [this]
  · intro q hq
    simp [hq]

/-- The parent link of the last node of a path is redirected. -/
theorem repPath_set_outer (outer1 : Option Nat) :
    ∀ (p : List Frame) (s : State) (hole outer : Option Nat), p ≠ [] →
      RepPath s.mem p hole outer → (pathAddrs p).Nodup →
      ∃ s1, set_parent s (pathTop p hole) outer1 = Except.ok s1 ∧
        RepPath s1.mem p hole outer1 ∧ s1.node = s.node ∧
        ∀ q, some q ≠ pathTop p hole → s1.mem q = s.mem q := by
  intro p
  induction p with
  | nil => intro s hole outer hp; exact absurd rfl hp
  | cons f up ih =>
    intro s hole outer _ h hnd
    obtain ⟨n1, n2, n3⟩ := nodup_frame f up hnd
    cases up with
    | nil =>
      cases f with
      | L a c v r =>
        obtain ⟨h1, h2, _⟩ := h
        refine ⟨store s a ⟨outer1, hole, r.ptr, c, v⟩, by simp [set_parent, h1],
          ⟨by simp, ?_, trivial⟩, rfl, ?_⟩
        · apply rep_congr _ _ r _ _ h2
          intro q hq
          have : q ≠ a := fun e => n3.1 (e ▸ hq)
          simp [this]
        · intro q hq
          have : q ≠ a := fun e => hq (by rw [e]; rfl)
          simp [this]
      | R l a c v =>
        obtain ⟨h1, h2, _⟩ := h
        refine ⟨store s a ⟨outer1, l.ptr, hole, c, v⟩, by simp [set_parent, h1],
          ⟨by simp, ?_, trivial⟩, rfl, ?_⟩
        · apply rep_congr _ _ l _ _ h2
          intro q hq
          have : q ≠ a := fun e => n3.1 (e ▸ hq)
          simp [this]
        · intro q hq
          have : q ≠ a := fun e => hq (by rw [e]; rfl)
          simp [this]
    | cons g up2 =>
      obtain ⟨ta, ht1, ht2, _⟩ := pathTop_cons_mem g up2 (some f.addr)
      have hfa : f.addr ≠ ta := fun e => n2 (e ▸ ht2)
      cases f with
      | L a c v r =>
        obtain ⟨h1, h2, h3⟩ := h
        obtain ⟨s1, e1, r1, hn1, f1⟩ := ih s (some a) outer (by simp) h3 n1
        simp only [pathTop_cons, addr_L] at e1 f1 ht1 hfa ⊢
        rw [ht1] at f1
        refine ⟨s1, e1, ⟨?_, ?_, r1⟩, hn1, by rw [ht1]; exact f1⟩
        · rw [f1 a (fun e => hfa (Option.some.inj e))]
          exact h1
        · apply rep_congr _ _ r _ _ h2
          intro q hq
          exact f1 q (fun e => n3.2.2 q hq (Option.some.inj e ▸ ht2))
      | R l a c v =>
        obtain ⟨h1, h2, h3⟩ := h
        obtain ⟨s1, e1, r1, hn1, f1⟩ := ih s (some a) outer (by simp) h3 n1
        simp only [pathTop_cons, addr_R] at e1 f1 ht1 hfa ⊢
        rw [ht1] at f1
        refine ⟨s1, e1, ⟨?_, ?_, r1⟩, hn1, by rw [ht1]; exact f1⟩
        · rw [f1 a (fun e => hfa (Option.some.inj e))]
          exact h1
        · apply rep_congr _ _ l _ _ h2
          intro q hq
          exact f1 q (fun e => n3.2.2 q hq (Option.some.inj e ▸ ht2))

theorem repZ_append (s : State) (p ctx : List Frame) :
    ∀ t : Tree, RepZ s (p ++ ctx) t ↔ RepZ s ctx (plug p t) := by
  induction p with
  | nil => intro t; rfl
  | cons f up ih =>
    intro t
    rw [List.cons_append, repZ_up, ih, plug_cons]

theorem deref_mem (s : State) (a : Nat) (nd : rbnode) (h : s.mem a = some nd) :
    deref s (some a) = Except.ok nd := by
  simp [deref, h]

theorem rb_parent_mem (s : State) (a : Nat) (nd : rbnode) (h : s.mem a = some nd) :
    rb_parent s (some a) = Except.ok nd.parent := by
  simp [rb_parent, deref, h]

theorem set_parent_mem (s : State) (a : Nat) (nd : rbnode) (w : Option Nat)
    (h : s.mem a = some nd) :
    set_parent s (some a) w = Except.ok (store s a { nd with parent := w }) := by
  simp [set_parent, h]

theorem set_left_mem (s : State) (a : Nat) (nd : rbnode) (w : Option Nat)
    (h : s.mem a = some nd) :
    set_left s (some a) w = Except.ok (store s a { nd with left := w }) := by
  simp [set_left, h]

theorem set_right_mem (s : State) (a : Nat) (nd : rbnode) (w : Option Nat)
    (h : s.mem a = some nd) :
    set_right s (some a) w = Except.ok (store s a { nd with right := w }) := by
  simp [set_right, h]

theorem set_color_mem (s : State) (a : Nat) (nd : rbnode) (w : Int)
    (h : s.mem a = some nd) :
    set_color s (some a) w = Except.ok (store s a { nd with color := w }) := by
  simp [set_color, h]

/-- The function `rb_replace_to_predecessor` when the predecessor is the left child of the
node: the two nodes change places and colours. -/
theorem replace_adjacent_spec (fuel : Nat) (s : State) (ctx : List Frame) (n : Nat)
    (c v : Int) (rl : Tree) (ra : Nat) (rc rv : Int) (rr : Tree) (pl : Tree) (pa : Nat)
    (pc pv : Int)
    (h : RepZ s ctx (Tree.node (Tree.node pl pa pc pv Tree.nil) n c v
      (Tree.node rl ra rc rv rr)))
    (hpred : rb_predecessor fuel s (some n) = Except.ok (some pa)) :
    ∃ s1, rb_replace_to_predecessor fuel (some n) s = Except.ok s1 ∧
      RepZ s1 ctx (Tree.node (Tree.node pl n pc v Tree.nil) pa c pv
        (Tree.node rl ra rc rv rr)) := by
  obtain ⟨hpath, ⟨hn, ⟨hpa, hpl, _⟩, hra, hrl, hrr⟩, hroot, hnd⟩ := h
  simp only [ptr_node, ptr_nil] at hpath hroot hn hpa hra
  have ndP : (pathAddrs ctx).Nodup := (List.nodup_append.1 hnd).1
  have hc : ∀ q, List.count q (pathAddrs ctx ++ (Tree.node (Tree.node pl pa pc pv Tree.nil) n
      c v (Tree.node rl ra rc rv rr)).addrs) ≤ 1 :=
    fun q => List.nodup_iff_count_le_one.1 hnd q
  simp only [Tree.addrs, List.count_append, List.count_cons, List.count_nil] at hc
  have ndpl : pl.addrs.Nodup := by
    rw [List.nodup_iff_count_le_one]
    intro q
    have := hc q
    omega
  have e_n_pa : n ≠ pa := fun e => by
    subst e
    have h1 := hc n
    simp only [beq_self_eq_true, if_true] at h1
    omega
  have e_n_ra : n ≠ ra := fun e => by
    subst e
    have h1 := hc n
    simp only [beq_self_eq_true, if_true] at h1
    omega
  have e_pa_ra : pa ≠ ra := fun e => by
    subst e
    have h1 := hc pa
    simp only [beq_self_eq_true, if_true] at h1
    omega
  have nP : ∀ q, q ∈ pathAddrs ctx → q ≠ n ∧ q ≠ pa ∧ q ≠ ra := fun q hm => by
    have h2 := List.count_pos_iff.2 hm
    refine ⟨fun e => ?_, fun e => ?_, fun e => ?_⟩ <;>
    · subst e
      have h1 := hc q
      simp only [beq_self_eq_true, if_true] at h1
      omega
  have npl : ∀ q, q ∈ pl.addrs → q ≠ n ∧ q ≠ pa ∧ q ≠ ra ∧ q ∉ pathAddrs ctx := fun q hm => by
    have h2 := List.count_pos_iff.2 hm
    refine ⟨fun e => ?_, fun e => ?_, fun e => ?_, fun hm2 => ?_⟩
    · subst e
      have h1 := hc q
      simp only [beq_self_eq_true, if_true] at h1
      omega
    · subst e
      have h1 := hc q
      simp only [beq_self_eq_true, if_true] at h1
      omega
    · subst e
      have h1 := hc q
      simp only [beq_self_eq_true, if_true] at h1
      omega
    · have h1 := hc q
      have h3 := List.count_pos_iff.2 hm2
      omega
  have nrl : ∀ q, q ∈ rl.addrs → q ≠ n ∧ q ≠ pa ∧ q ≠ ra ∧ q ∉ pathAddrs ctx ∧ q ∉ pl.addrs :=
    fun q hm => by
    have h2 := List.count_pos_iff.2 hm
    refine ⟨fun e => ?_, fun e => ?_, fun e => ?_, fun hm2 => ?_, fun hm2 => ?_⟩
    · subst e
      have h1 := hc q
      simp only [beq_self_eq_true, if_true] at h1
      omega
    · subst e
      have h1 := hc q
      simp only [beq_self_eq_true, if_true] at h1
      omega
    · subst e
      have h1 := hc q
      simp only [beq_self_eq_true, if_true] at h1
      omega
    · have h1 := hc q
      have h3 := List.count_pos_iff.2 hm2
      omega
    · have h1 := hc q
      have h3 := List.count_pos_iff.2 hm2
      omega
  have nrr : ∀ q, q ∈ rr.addrs → q ≠ n ∧ q ≠ pa ∧ q ≠ ra ∧ q ∉ pathAddrs ctx ∧ q ∉ pl.addrs :=
    fun q hm => by
    have h2 := List.count_pos_iff.2 hm
    refine ⟨fun e => ?_, fun e => ?_, fun e => ?_, fun hm2 => ?_, fun hm2 => ?_⟩
    · subst e
      have h1 := hc q
      simp only [beq_self_eq_true, if_true] at h1
      omega
    · subst e
      have h1 := hc q
      simp only [beq_self_eq_true, if_true] at h1
      omega
    · subst e
      have h1 := hc q
      simp only [beq_self_eq_true, if_true] at h1
      omega
    · have h1 := hc q
      have h3 := List.count_pos_iff.2 hm2
      omega
    · have h1 := hc q
      have h3 := List.count_pos_iff.2 hm2
      omega
  have hnP : n ∉ pathAddrs ctx := fun hm => (nP n hm).1 rfl
  -- the link from the parent of the node
  obtain ⟨s1, e1, hpath1, r1, f1⟩ := replace_child_spec s ctx n (some pa) hpath hroot hnP ndP
  have m1 : ∀ q, q ∉ pathAddrs ctx → s1.mem q = s.mem q :=
    fun q hq => f1 q (fun e => hq (pathPtr_mem ctx q e.symm))
  have hpaP : pa ∉ pathAddrs ctx := fun hm => (nP pa hm).2.1 rfl
  have hraP : ra ∉ pathAddrs ctx := fun hm => (nP ra hm).2.2 rfl
  have hn1 : s1.mem n = some ⟨pathPtr ctx none, some pa, some ra, c, v⟩ := by
    rw [m1 n hnP]; exact hn
  have hpa1 : s1.mem pa = some ⟨some n, pl.ptr, none, pc, pv⟩ := by
    rw [m1 pa hpaP]; exact hpa
  have hra1 : s1.mem ra = some ⟨some n, rl.ptr, rr.ptr, rc, rv⟩ := by
    rw [m1 ra hraP]; exact hra
  -- the stores before the left subtree of the predecessor gets its new parent
  let S2 := store s1 pa ⟨pathPtr ctx none, pl.ptr, none, pc, pv⟩
  let S3 := store S2 ra ⟨some pa, rl.ptr, rr.ptr, rc, rv⟩
  let S4 := store S3 pa ⟨pathPtr ctx none, pl.ptr, some ra, pc, pv⟩
  let S5 := store S4 n ⟨pathPtr ctx none, some pa, none, c, v⟩
  let S6 := store S5 n ⟨pathPtr ctx none, pl.ptr, none, c, v⟩
  have es2 : set_parent s1 (some pa) (pathPtr ctx none) = Except.ok S2 :=
    set_parent_mem s1 pa ⟨some n, pl.ptr, none, pc, pv⟩ _ hpa1
  have hd2 : deref S2 (some n) = Except.ok ⟨pathPtr ctx none, some pa, some ra, c, v⟩ :=
    deref_mem _ _ _ (by simp [S2, e_n_pa, hn1])
  have es3 : set_parent S2 (some ra) (some pa) = Except.ok S3 :=
    set_parent_mem S2 ra ⟨some n, rl.ptr, rr.ptr, rc, rv⟩ _ (by simp [S2, e_pa_ra.symm, hra1])
  have hd3 : deref S3 (some n) = Except.ok ⟨pathPtr ctx none, some pa, some ra, c, v⟩ :=
    deref_mem _ _ _ (by simp [S3, S2, e_n_pa, e_n_ra, hn1])
  have es4 : set_right S3 (some pa) (some ra) = Except.ok S4 :=
    set_right_mem S3 pa ⟨pathPtr ctx none, pl.ptr, none, pc, pv⟩ _ (by simp [S3, S2, e_pa_ra])
  have es5 : set_right S4 (some n) none = Except.ok S5 :=
    set_right_mem S4 n ⟨pathPtr ctx none, some pa, some ra, c, v⟩ _
      (by simp [S4, S3, S2, e_n_pa, e_n_ra, hn1])
  have hd5 : deref S5 (some pa) = Except.ok ⟨pathPtr ctx none, pl.ptr, some ra, pc, pv⟩ :=
    deref_mem _ _ _ (by simp [S5, S4, e_n_pa.symm])
  have es6 : set_left S5 (some n) pl.ptr = Except.ok S6 :=
    set_left_mem S5 n ⟨pathPtr ctx none, some pa, none, c, v⟩ _ (by simp [S5])
  have hd6 : deref S6 (some pa) = Except.ok ⟨pathPtr ctx none, pl.ptr, some ra, pc, pv⟩ :=
    deref_mem _ _ _ (by simp [S6, S5, S4, e_n_pa.symm])
  have m6 : ∀ q, q ≠ n → q ≠ pa → q ≠ ra → S6.mem q = s1.mem q := by
    intro q h1 h2 h3
    simp only [S6, S5, S4, S3, S2, store_mem, if_neg h1, if_neg h2, if_neg h3]
  have hpl6 : Rep S6.mem (some pa) pl := by
    apply rep_congr _ _ pl _ _ hpl
    intro q hq
    obtain ⟨h1, h2, h3, h4⟩ := npl q hq
    rw [m6 q h1 h2 h3]
    exact m1 q h4
  obtain ⟨s7, e7, r7, hpl7, f7⟩ := rep_reparent S6 pl (some pa) (some n) hpl6 ndpl
  have m7 : ∀ q, q ∉ pl.addrs → s7.mem q = S6.mem q :=
    fun q hq => f7 q (fun e => hq (ptr_mem_addrs pl q e.symm))
  have hnpl : n ∉ pl.addrs := fun hm => (npl n hm).1 rfl
  have hpapl : pa ∉ pl.addrs := fun hm => (npl pa hm).2.1 rfl
  have hrapl : ra ∉ pl.addrs := fun hm => (npl ra hm).2.2.1 rfl
  have hn7 : s7.mem n = some ⟨pathPtr ctx none, pl.ptr, none, c, v⟩ := by
    rw [m7 n hnpl]
    simp [S6]
  have hpa7 : s7.mem pa = some ⟨pathPtr ctx none, pl.ptr, some ra, pc, pv⟩ := by
    rw [m7 pa hpapl]
    simp [S6, S5, S4, e_n_pa.symm]
  have hra7 : s7.mem ra = some ⟨some pa, rl.ptr, rr.ptr, rc, rv⟩ := by
    rw [m7 ra hrapl]
    simp [S6, S5, S4, S3, e_n_ra.symm, e_pa_ra.symm]
  let T1 := store s7 n ⟨some pa, pl.ptr, none, c, v⟩
  let T2 := store T1 pa ⟨pathPtr ctx none, some n, some ra, pc, pv⟩
  let T3 := store T2 n ⟨some pa, pl.ptr, none, pc, v⟩
  let T4 := store T3 pa ⟨pathPtr ctx none, some n, some ra, c, pv⟩
  have et1 : set_parent s7 (some n) (some pa) = Except.ok T1 :=
    set_parent_mem s7 n ⟨pathPtr ctx none, pl.ptr, none, c, v⟩ _ hn7
  have et2 : set_left T1 (some pa) (some n) = Except.ok T2 :=
    set_left_mem T1 pa ⟨pathPtr ctx none, pl.ptr, some ra, pc, pv⟩ _
      (by simp [T1, e_n_pa.symm, hpa7])
  have hdn8 : deref T2 (some n) = Except.ok ⟨some pa, pl.ptr, none, c, v⟩ :=
    deref_mem _ _ _ (by simp [T2, T1, e_n_pa])
  have hdp8 : deref T2 (some pa) = Except.ok ⟨pathPtr ctx none, some n, some ra, pc, pv⟩ :=
    deref_mem _ _ _ (by simp [T2])
  have et3 : set_color T2 (some n) pc = Except.ok T3 :=
    set_color_mem T2 n ⟨some pa, pl.ptr, none, c, v⟩ _ (by simp [T2, T1, e_n_pa])
  have et4 : set_color T3 (some pa) c = Except.ok T4 :=
    set_color_mem T3 pa ⟨pathPtr ctx none, some n, some ra, pc, pv⟩ _
      (by simp [T3, T2, e_n_pa.symm])
  have m10 : ∀ q, q ≠ n → q ≠ pa → T4.mem q = s7.mem q := by
    intro q h1 h2
    simp only [T4, T3, T2, T1, store_mem, if_neg h1, if_neg h2]
  have hd : deref s (some n) = Except.ok ⟨pathPtr ctx none, some pa, some ra, c, v⟩ :=
    deref_mem s n _ hn
  have hdp : deref s (some pa) = Except.ok ⟨some n, pl.ptr, none, pc, pv⟩ :=
    deref_mem s pa _ hpa
  have hpn : rb_parent s (some n) = Except.ok (pathPtr ctx none) := rb_parent_mem s n _ hn
  have hpp : rb_parent s (some pa) = Except.ok (some n) := rb_parent_mem s pa _ hpa
  refine ⟨T4, ?_, ?_⟩
  · simp only [rb_replace_to_predecessor, hd, hpred, hdp, hpn, hpp, bind, Except.bind, e1,
      ne_eq, not_false_eq_true, and_self, not_true_eq_false, if_false, reduceCtorEq,
      es2, hd2, es3, hd3, es4, es5, hd5, es6, hd6, e7, relink_node, if_true, et1, et2, hdn8,
      hdp8, et3, et4]
  · refine ⟨?_, ⟨?_, ⟨?_, ?_, trivial⟩, ?_, ?_, ?_⟩, ?_, ?_⟩
    · apply repPath_congr _ _ ctx _ _ _ hpath1
      intro q hq
      obtain ⟨h1, h2, h3⟩ := nP q hq
      rw [m10 q h1 h2, m7 q (fun hm => (npl q hm).2.2.2 hq), m6 q h1 h2 h3]
    · simp [T4]
    · simp [T4, T3, e_n_pa]
    · apply rep_congr _ _ pl _ _ hpl7
      intro q hq
      obtain ⟨h1, h2, _, _⟩ := npl q hq
      exact m10 q h1 h2
    · rw [m10 ra e_n_ra.symm e_pa_ra.symm]
      exact hra7
    · apply rep_congr _ _ rl _ _ hrl
      intro q hq
      obtain ⟨h1, h2, h3, h4, h5⟩ := nrl q hq
      rw [m10 q h1 h2, m7 q h5, m6 q h1 h2 h3, m1 q h4]
    · apply rep_congr _ _ rr _ _ hrr
      intro q hq
      obtain ⟨h1, h2, h3, h4, h5⟩ := nrr q hq
      rw [m10 q h1 h2, m7 q h5, m6 q h1 h2 h3, m1 q h4]
    · show T4.node = _
      simp only [T4, T3, T2, T1, store_node, r7, S6, S5, S4, S3, S2, r1, ptr_node]
    · rw [List.nodup_iff_count_le_one]
      intro q
      have := hc q
      simp only [Tree.addrs, List.count_append, List.count_cons, List.count_nil]
      omega

theorem pathAddrs_cons (f : Frame) (up : List Frame) :
    pathAddrs (f :: up) = f.addrs ++ pathAddrs up := rfl

/-- The function `rb_replace_to_predecessor` when the predecessor is further down than the
left child of the node: the two nodes change places and colours. -/
theorem replace_distant_spec (fuel : Nat) (s : State) (ctx : List Frame) (n : Nat)
    (c v : Int) (rl : Tree) (ra : Nat) (rc rv : Int) (rr : Tree) (p : List Frame)
    (sl : Tree) (pp : Nat) (c1 v1 : Int) (p' : List Frame) (pl : Tree) (pa : Nat)
    (pc pv : Int) (hp : p = Frame.R sl pp c1 v1 :: p')
    (h : RepZ s (p ++ Frame.L n c v (Tree.node rl ra rc rv rr) :: ctx)
      (Tree.node pl pa pc pv Tree.nil))
    (hpred : rb_predecessor fuel s (some n) = Except.ok (some pa)) :
    ∃ s1, rb_replace_to_predecessor fuel (some n) s = Except.ok s1 ∧
      RepZ s1 (p ++ Frame.L pa c pv (Tree.node rl ra rc rv rr) :: ctx)
        (Tree.node pl n pc v Tree.nil) := by
  obtain ⟨hpath, ⟨hpa, hpl, _⟩, hroot, hnd⟩ := h
  rw [repPath_append] at hpath
  obtain ⟨P0, hn, ⟨hra, hrl, hrr⟩, hC⟩ := hpath
  have hptr : pathPtr p (some n) = some pp := by rw [hp]; rfl
  obtain ⟨la, hla, hlam, hla2⟩ : ∃ a, pathTop p (some pa) = some a ∧ a ∈ pathAddrs p ∧
      ∀ hole1, pathTop p hole1 = some a := by
    rw [hp]
    exact pathTop_cons_mem _ _ _
  have hppm : pp ∈ pathAddrs p := by
    rw [hp]
    simp [pathAddrs, Frame.addrs]
  simp only [ptr_node, ptr_nil, pathPtr_append, pathPtr_cons, addr_L, hptr, pathTop_append,
    pathTop_cons, hla] at hroot hn hpa hra hC
  have hc : ∀ q, List.count q (pathAddrs (p ++ Frame.L n c v (Tree.node rl ra rc rv rr) :: ctx)
      ++ (Tree.node pl pa pc pv Tree.nil).addrs) ≤ 1 :=
    fun q => List.nodup_iff_count_le_one.1 hnd q
  simp only [pathAddrs_append, pathAddrs_cons, Frame.addrs, Tree.addrs, List.count_append,
    List.count_cons, List.count_nil] at hc
  have ndP : (pathAddrs ctx).Nodup := by
    rw [List.nodup_iff_count_le_one]
    intro q
    have := hc q
    omega
  have ndp : (pathAddrs p).Nodup := by
    rw [List.nodup_iff_count_le_one]
    intro q
    have := hc q
    omega
  have ndpl : pl.addrs.Nodup := by
    rw [List.nodup_iff_count_le_one]
    intro q
    have := hc q
    omega
  have e_n_pa : n ≠ pa := fun e => by
    subst e
    have h1 := hc n
    simp only [beq_self_eq_true, if_true] at h1
    omega
  have e_n_ra : n ≠ ra := fun e => by
    subst e
    have h1 := hc n
    simp only [beq_self_eq_true, if_true] at h1
    omega
  have e_pa_ra : pa ≠ ra := fun e => by
    subst e
    have h1 := hc pa
    simp only [beq_self_eq_true, if_true] at h1
    omega
  have nP : ∀ q, q ∈ pathAddrs ctx → q ≠ n ∧ q ≠ pa ∧ q ≠ ra ∧ q ∉ pl.addrs ∧
      q ∉ pathAddrs p := fun q hm => by
    have h2 := List.count_pos_iff.2 hm
    refine ⟨fun e => ?_, fun e => ?_, fun e => ?_, fun hm2 => ?_, fun hm2 => ?_⟩
    · subst e
      have h1 := hc q
      simp only [beq_self_eq_true, if_true] at h1
      omega
    · subst e
      have h1 := hc q
      simp only [beq_self_eq_true, if_true] at h1
      omega
    · subst e
      have h1 := hc q
      simp only [beq_self_eq_true, if_true] at h1
      omega
    · have h1 := hc q
      have h3 := List.count_pos_iff.2 hm2
      omega
    · have h1 := hc q
      have h3 := List.count_pos_iff.2 hm2
      omega
  have np : ∀ q, q ∈ pathAddrs p → q ≠ n ∧ q ≠ pa ∧ q ≠ ra ∧ q ∉ pl.addrs ∧
      q ∉ pathAddrs ctx := fun q hm => by
    have h2 := List.count_pos_iff.2 hm
    refine ⟨fun e => ?_, fun e => ?_, fun e => ?_, fun hm2 => ?_, fun hm2 => ?_⟩
    · subst e
      have h1 := hc q
      simp only [beq_self_eq_true, if_true] at h1
      omega
    · subst e
      have h1 := hc q
      simp only [beq_self_eq_true, if_true] at h1
      omega
    · subst e
      have h1 := hc q
      simp only [beq_self_eq_true, if_true] at h1
      omega
    · have h1 := hc q
      have h3 := List.count_pos_iff.2 hm2
      omega
    · have h1 := hc q
      have h3 := List.count_pos_iff.2 hm2
      omega
  have npl : ∀ q, q ∈ pl.addrs → q ≠ n ∧ q ≠ pa ∧ q ≠ ra := fun q hm => by
    have h2 := List.count_pos_iff.2 hm
    refine ⟨fun e => ?_, fun e => ?_, fun e => ?_⟩
    · subst e
      have h1 := hc q
      simp only [beq_self_eq_true, if_true] at h1
      omega
    · subst e
      have h1 := hc q
      simp only [beq_self_eq_true, if_true] at h1
      omega
    · subst e
      have h1 := hc q
      simp only [beq_self_eq_true, if_true] at h1
      omega
  have nrl : ∀ q, q ∈ rl.addrs → q ≠ n ∧ q ≠ pa ∧ q ≠ ra ∧ q ∉ pathAddrs ctx ∧ q ∉ pl.addrs ∧
      q ∉ pathAddrs p := fun q hm => by
    have h2 := List.count_pos_iff.2 hm
    refine ⟨fun e => ?_, fun e => ?_, fun e => ?_, fun hm2 => ?_, fun hm2 => ?_, fun hm2 => ?_⟩
    · subst e
      have h1 := hc q
      simp only [beq_self_eq_true, if_true] at h1
      omega
    · subst e
      have h1 := hc q
      simp only [beq_self_eq_true, if_true] at h1
      omega
    · subst e
      have h1 := hc q
      simp only [beq_self_eq_true, if_true] at h1
      omega
    · have h1 := hc q
      have h3 := List.count_pos_iff.2 hm2
      omega
    · have h1 := hc q
      have h3 := List.count_pos_iff.2 hm2
      omega
    · have h1 := hc q
      have h3 := List.count_pos_iff.2 hm2
      omega
  have nrr : ∀ q, q ∈ rr.addrs → q ≠ n ∧ q ≠ pa ∧ q ≠ ra ∧ q ∉ pathAddrs ctx ∧ q ∉ pl.addrs ∧
      q ∉ pathAddrs p := fun q hm => by
    have h2 := List.count_pos_iff.2 hm
    refine ⟨fun e => ?_, fun e => ?_, fun e => ?_, fun hm2 => ?_, fun hm2 => ?_, fun hm2 => ?_⟩
    · subst e
      have h1 := hc q
      simp only [beq_self_eq_true, if_true] at h1
      omega
    · subst e
      have h1 := hc q
      simp only [beq_self_eq_true, if_true] at h1
      omega
    · subst e
      have h1 := hc q
      simp only [beq_self_eq_true, if_true] at h1
      omega
    · have h1 := hc q
      have h3 := List.count_pos_iff.2 hm2
      omega
    · have h1 := hc q
      have h3 := List.count_pos_iff.2 hm2
      omega
    · have h1 := hc q
      have h3 := List.count_pos_iff.2 hm2
      omega
  have hnP : n ∉ pathAddrs ctx := fun hm => (nP n hm).1 rfl
  have hpaP : pa ∉ pathAddrs ctx := fun hm => (nP pa hm).2.1 rfl
  have hraP : ra ∉ pathAddrs ctx := fun hm => (nP ra hm).2.2.1 rfl
  have hnpl : n ∉ pl.addrs := fun hm => (npl n hm).1 rfl
  have hpapl : pa ∉ pl.addrs := fun hm => (npl pa hm).2.1 rfl
  have hrapl : ra ∉ pl.addrs := fun hm => (npl ra hm).2.2 rfl
  obtain ⟨e_la_n, e_la_pa, e_la_ra, hlapl, hlaP⟩ := np la hlam
  obtain ⟨e_pp_n, e_pp_pa, e_pp_ra, hpppl, hppP⟩ := np pp hppm
  -- the link from the parent of the node
  obtain ⟨s1, e1, hpath1, r1, f1⟩ := replace_child_spec s ctx n (some pa) hC hroot hnP ndP
  have m1 : ∀ q, q ∉ pathAddrs ctx → s1.mem q = s.mem q :=
    fun q hq => f1 q (fun e => hq (pathPtr_mem ctx q e.symm))
  have hn1 : s1.mem n = some ⟨pathPtr ctx none, some la, some ra, c, v⟩ := by
    rw [m1 n hnP]; exact hn
  have hpa1 : s1.mem pa = some ⟨some pp, pl.ptr, none, pc, pv⟩ := by
    rw [m1 pa hpaP]; exact hpa
  have hra1 : s1.mem ra = some ⟨some n, rl.ptr, rr.ptr, rc, rv⟩ := by
    rw [m1 ra hraP]; exact hra
  let S2 := store s1 pa ⟨pathPtr ctx none, pl.ptr, none, pc, pv⟩
  let S3 := store S2 ra ⟨some pa, rl.ptr, rr.ptr, rc, rv⟩
  let S4 := store S3 pa ⟨pathPtr ctx none, pl.ptr, some ra, pc, pv⟩
  let S5 := store S4 n ⟨pathPtr ctx none, some la, none, c, v⟩
  let S6 := store S5 n ⟨pathPtr ctx none, pl.ptr, none, c, v⟩
  have es2 : set_parent s1 (some pa) (pathPtr ctx none) = Except.ok S2 :=
    set_parent_mem s1 pa ⟨some pp, pl.ptr, none, pc, pv⟩ _ hpa1
  have hd2 : deref S2 (some n) = Except.ok ⟨pathPtr ctx none, some la, some ra, c, v⟩ :=
    deref_mem _ _ _ (by simp [S2, e_n_pa, hn1])
  have es3 : set_parent S2 (some ra) (some pa) = Except.ok S3 :=
    set_parent_mem S2 ra ⟨some n, rl.ptr, rr.ptr, rc, rv⟩ _ (by simp [S2, e_pa_ra.symm, hra1])
  have hd3 : deref S3 (some n) = Except.ok ⟨pathPtr ctx none, some la, some ra, c, v⟩ :=
    deref_mem _ _ _ (by simp [S3, S2, e_n_pa, e_n_ra, hn1])
  have es4 : set_right S3 (some pa) (some ra) = Except.ok S4 :=
    set_right_mem S3 pa ⟨pathPtr ctx none, pl.ptr, none, pc, pv⟩ _ (by simp [S3, S2, e_pa_ra])
  have es5 : set_right S4 (some n) none = Except.ok S5 :=
    set_right_mem S4 n ⟨pathPtr ctx none, some la, some ra, c, v⟩ _
      (by simp [S4, S3, S2, e_n_pa, e_n_ra, hn1])
  have hd5 : deref S5 (some pa) = Except.ok ⟨pathPtr ctx none, pl.ptr, some ra, pc, pv⟩ :=
    deref_mem _ _ _ (by simp [S5, S4, e_n_pa.symm])
  have es6 : set_left S5 (some n) pl.ptr = Except.ok S6 :=
    set_left_mem S5 n ⟨pathPtr ctx none, some la, none, c, v⟩ _ (by simp [S5])
  have hd6 : deref S6 (some pa) = Except.ok ⟨pathPtr ctx none, pl.ptr, some ra, pc, pv⟩ :=
    deref_mem _ _ _ (by simp [S6, S5, S4, e_n_pa.symm])
  have m6 : ∀ q, q ≠ n → q ≠ pa → q ≠ ra → S6.mem q = s1.mem q := by
    intro q h1 h2 h3
    simp only [S6, S5, S4, S3, S2, store_mem, if_neg h1, if_neg h2, if_neg h3]
  have hpl6 : Rep S6.mem (some pa) pl := by
    apply rep_congr _ _ pl _ _ hpl
    intro q hq
    obtain ⟨h1, h2, h3⟩ := npl q hq
    rw [m6 q h1 h2 h3]
    exact m1 q (fun hm => (nP q hm).2.2.2.1 hq)
  obtain ⟨s7, e7, r7, hpl7, f7⟩ := rep_reparent S6 pl (some pa) (some n) hpl6 ndpl
  have m7 : ∀ q, q ∉ pl.addrs → s7.mem q = S6.mem q :=
    fun q hq => f7 q (fun e => hq (ptr_mem_addrs pl q e.symm))
  have hn7 : s7.mem n = some ⟨pathPtr ctx none, pl.ptr, none, c, v⟩ := by
    rw [m7 n hnpl]
    simp [S6]
  have hpa7 : s7.mem pa = some ⟨pathPtr ctx none, pl.ptr, some ra, pc, pv⟩ := by
    rw [m7 pa hpapl]
    simp [S6, S5, S4, e_n_pa.symm]
  have hra7 : s7.mem ra = some ⟨some pa, rl.ptr, rr.ptr, rc, rv⟩ := by
    rw [m7 ra hrapl]
    simp [S6, S5, S4, S3, e_n_ra.symm, e_pa_ra.symm]
  let T1 := store s7 n ⟨some pp, pl.ptr, none, c, v⟩
  have et1 : set_parent s7 (some n) (some pp) = Except.ok T1 :=
    set_parent_mem s7 n ⟨pathPtr ctx none, pl.ptr, none, c, v⟩ _ hn7
  have mT1 : ∀ q, q ∈ pathAddrs p → T1.mem q = s.mem q := by
    intro q hq
    obtain ⟨h1, h2, h3, h4, h5⟩ := np q hq
    simp only [T1, store_mem, if_neg h1]
    rw [m7 q h4, m6 q h1 h2 h3, m1 q h5]
  have P1 : RepPath T1.mem (Frame.R sl pp c1 v1 :: p') (some pa) (some n) := by
    rw [← hp]
    exact repPath_congr _ _ p _ _ mT1 P0
  obtain ⟨t2, et2, P2, rt2, ft2⟩ := repPath_set_hole T1 sl pp c1 v1 p' (some pa) (some n)
    (some n) P1 (by rw [← hp]; exact ndp)
  rw [← hp] at P2
  have hpat2 : t2.mem pa = some ⟨pathPtr ctx none, pl.ptr, some ra, pc, pv⟩ := by
    rw [ft2 pa e_pp_pa.symm]
    simp only [T1, store_mem, if_neg e_n_pa.symm]
    exact hpa7
  let T3 := store t2 pa ⟨pathPtr ctx none, some la, some ra, pc, pv⟩
  have et3 : set_left t2 (some pa) (some la) = Except.ok T3 :=
    set_left_mem t2 pa ⟨pathPtr ctx none, pl.ptr, some ra, pc, pv⟩ _ hpat2
  have P3 : RepPath T3.mem p (some n) (some n) := by
    apply repPath_congr _ _ p _ _ _ P2
    intro q hq
    simp only [T3, store_mem, if_neg (np q hq).2.1]
  obtain ⟨t4, et4, P4, rt4, ft4⟩ := repPath_set_outer (some pa) p T3 (some n) (some n)
    (by rw [hp]; simp) P3 ndp
  rw [hla2] at et4 ft4
  have mt4 : ∀ q, q ≠ la → q ≠ pa → q ≠ pp → q ≠ n → t4.mem q = s7.mem q := by
    intro q h1 h2 h3 h4
    rw [ft4 q (fun e => h1 (Option.some.inj e))]
    simp only [T3, store_mem, if_neg h2]
    rw [ft2 q h3]
    simp only [T1, store_mem, if_neg h4]
  have hn4 : t4.mem n = some ⟨some pp, pl.ptr, none, c, v⟩ := by
    rw [ft4 n (fun e => e_la_n (Option.some.inj e).symm)]
    simp only [T3, store_mem, if_neg e_n_pa]
    rw [ft2 n e_pp_n.symm]
    simp [T1]
  have hpa4 : t4.mem pa = some ⟨pathPtr ctx none, some la, some ra, pc, pv⟩ := by
    rw [ft4 pa (fun e => e_la_pa (Option.some.inj e).symm)]
    simp [T3]
  let T5 := store t4 n ⟨some pp, pl.ptr, none, pc, v⟩
  let T6 := store T5 pa ⟨pathPtr ctx none, some la, some ra, c, pv⟩
  have et5 : set_color t4 (some n) pc = Except.ok T5 :=
    set_color_mem t4 n ⟨some pp, pl.ptr, none, c, v⟩ _ hn4
  have et6 : set_color T5 (some pa) c = Except.ok T6 :=
    set_color_mem T5 pa ⟨pathPtr ctx none, some la, some ra, pc, pv⟩ _
      (by simp [T5, e_n_pa.symm, hpa4])
  have m10 : ∀ q, q ≠ n → q ≠ pa → T6.mem q = t4.mem q := by
    intro q h1 h2
    simp only [T6, T5, store_mem, if_neg h1, if_neg h2]
  have hd : deref s (some n) = Except.ok ⟨pathPtr ctx none, some la, some ra, c, v⟩ :=
    deref_mem s n _ hn
  have hdp : deref s (some pa) = Except.ok ⟨some pp, pl.ptr, none, pc, pv⟩ :=
    deref_mem s pa _ hpa
  have hpn : rb_parent s (some n) = Except.ok (pathPtr ctx none) := rb_parent_mem s n _ hn
  have hpp : rb_parent s (some pa) = Except.ok (some pp) := rb_parent_mem s pa _ hpa
  have hdn8 := deref_mem t4 n _ hn4
  have hdp8 := deref_mem t4 pa _ hpa4
  have hne : ¬ (some pa = some la) := fun e => e_la_pa (Option.some.inj e).symm
  refine ⟨T6, ?_, ?_⟩
  · simp only [rb_replace_to_predecessor, hd, hpred, hdp, hpn, hpp, bind, Except.bind, e1,
      ne_eq, not_false_eq_true, and_self, not_true_eq_false, if_false, reduceCtorEq,
      es2, hd2, es3, hd3, es4, es5, hd5, es6, hd6, e7, relink_node, hne, et1, et2, et3, et4,
      hdn8, hdp8, et5, et6]
  · refine ⟨?_, ⟨?_, ?_, trivial⟩, ?_, ?_⟩
    · rw [repPath_append]
      refine ⟨?_, ?_, ⟨?_, ?_, ?_⟩, ?_⟩
      · simp only [ptr_node, pathPtr_cons, addr_L]
        apply repPath_congr _ _ p _ _ _ P4
        intro q hq
        exact m10 q (np q hq).1 (np q hq).2.1
      · simp [T6, hla2]
      · show T6.mem ra = _
        rw [m10 ra e_n_ra.symm e_pa_ra.symm,
          mt4 ra e_la_ra.symm e_pa_ra.symm e_pp_ra.symm e_n_ra.symm]
        exact hra7
      · apply rep_congr _ _ rl _ _ hrl
        intro q hq
        obtain ⟨h1, h2, h3, h4, h5, h6⟩ := nrl q hq
        rw [m10 q h1 h2, mt4 q (fun e => h6 (e ▸ hlam)) h2 (fun e => h6 (e ▸ hppm)) h1,
          m7 q h5, m6 q h1 h2 h3, m1 q h4]
      · apply rep_congr _ _ rr _ _ hrr
        intro q hq
        obtain ⟨h1, h2, h3, h4, h5, h6⟩ := nrr q hq
        rw [m10 q h1 h2, mt4 q (fun e => h6 (e ▸ hlam)) h2 (fun e => h6 (e ▸ hppm)) h1,
          m7 q h5, m6 q h1 h2 h3, m1 q h4]
      · show RepPath T6.mem ctx (some pa) none
        apply repPath_congr _ _ ctx _ _ _ hpath1
        intro q hq
        obtain ⟨h1, h2, h3, h4, h5⟩ := nP q hq
        rw [m10 q h1 h2, mt4 q (fun e => h5 (e ▸ hlam)) h2 (fun e => h5 (e ▸ hppm)) h1,
          m7 q h4, m6 q h1 h2 h3]
    · simp only [pathPtr_append, pathPtr_cons, addr_L, hp, addr_R, ptr_node, ptr_nil]
      simp [T6, T5, e_n_pa]
    · apply rep_congr _ _ pl _ _ hpl7
      intro q hq
      obtain ⟨h1, h2, _⟩ := npl q hq
      rw [m10 q h1 h2, mt4 q (fun e => hlapl (e ▸ hq)) h2 (fun e => hpppl (e ▸ hq)) h1]
    · show T6.node = _
      simp only [T6, T5, store_node, rt4, T3, rt2, T1, r7, S6, S5, S4, S3, S2, r1,
        pathTop_append, pathTop_cons, addr_L, ptr_node]
    · rw [List.nodup_iff_count_le_one]
      intro q
      have := hc q
      simp only [pathAddrs_append, pathAddrs_cons, Frame.addrs, Tree.addrs, List.count_append,
        List.count_cons, List.count_nil]
      omega

/-- The function `rb_replace_to_predecessor` puts a node with two children in the place of
its predecessor, where it has no right child, and the predecessor in the place of the node;
the colours stay where they were. -/
theorem replace_spec (fuel : Nat) (s : State) (ctx : List Frame) (ll : Tree) (la : Nat)
    (lc lv : Int) (lr : Tree) (n : Nat) (c v : Int) (rl : Tree) (ra : Nat) (rc rv : Int)
    (rr : Tree)
    (h : RepZ s ctx (Tree.node (Tree.node ll la lc lv lr) n c v (Tree.node rl ra rc rv rr)))
    (hf : (Tree.node ll la lc lv lr).addrs.length ≤ fuel) :
    ∃ s1 p pl pa pc pv, rb_replace_to_predecessor fuel (some n) s = Except.ok s1 ∧
      plug p (Tree.node pl pa pc pv Tree.nil) = Tree.node ll la lc lv lr ∧
      (∀ f ∈ p, f.isL = false) ∧
      RepZ s1 (p ++ Frame.L pa c pv (Tree.node rl ra rc rv rr) :: ctx)
        (Tree.node pl n pc v Tree.nil) := by
  have h1 := (repZ_up_L s n c v _ ctx _).2 h
  obtain ⟨p, pl, pa, pc, pv, e1, r1, p1, f1⟩ := predecessor_loop_spec s ll la lc lv lr _ fuel h1 hf
  have hd := deref_focus s ctx _ n c v _ h
  have hpred : rb_predecessor fuel s (some n) = Except.ok (some pa) := by
    simp only [ptr_node] at hd
    simp [rb_predecessor, hd, bind, Except.bind, e1]
  cases p with
  | nil =>
    simp only [plug] at p1
    rw [← p1] at h
    obtain ⟨s1, e2, r2⟩ := replace_adjacent_spec fuel s ctx n c v rl ra rc rv rr pl pa pc pv h
      hpred
    exact ⟨s1, [], pl, pa, pc, pv, e2, p1, f1, (repZ_up_L s1 pa c pv _ ctx _).2 r2⟩
  | cons f p' =>
    cases f with
    | L a1 c1 v1 r1' =>
      have := f1 _ (List.mem_cons_self _ _)
      simp [Frame.isL] at this
    | R sl pp c1 v1 =>
      obtain ⟨s1, e2, r2⟩ := replace_distant_spec fuel s ctx n c v rl ra rc rv rr _ sl pp c1 v1
        p' pl pa pc pv rfl r1 hpred
      exact ⟨s1, _, pl, pa, pc, pv, e2, p1, f1, r2⟩

theorem headBlack_append (p : List Frame) (f g : Frame) (ctx : List Frame)
    (hc : f.color = g.color) :
    headBlack (p ++ f :: ctx) ↔ headBlack (p ++ g :: ctx) := by
  cases p with
  | nil =>
    simp only [List.nil_append, headBlack_cons, hc]
  | cons x up => rfl

theorem pathValid_append (p : List Frame) (f g : Frame) (ctx : List Frame)
    (hc : f.color = g.color) (hs : f.sibling = g.sibling) :
    ∀ k, PathValid (p ++ f :: ctx) k ↔ PathValid (p ++ g :: ctx) k := by
  induction p with
  | nil =>
    intro k
    simp only [List.nil_append, pathValid_cons, hc, hs]
  | cons x up ih =>
    intro k
    simp only [List.cons_append, pathValid_cons, ih, headBlack_append up f g ctx hc]

theorem plug_nodes_right (p : List Frame) (h : ∀ f ∈ p, f.isL = false) :
    ∃ l1, ∀ t : Tree, (plug p t).nodes = l1 ++ t.nodes := by
  induction p with
  | nil => exact ⟨[], fun t => rfl⟩
  | cons f up ih =>
    obtain ⟨l1, h1⟩ := ih (fun g hg => h g (List.mem_cons_of_mem _ hg))
    cases f with
    | L a c v r =>
      have := h _ (List.mem_cons_self _ _)
      simp [Frame.isL] at this
    | R l a c v =>
      refine ⟨l1 ++ l.nodes ++ [(a, v)], fun t => ?_⟩
      rw [plug_cons, h1]
      simp [fill, Tree.nodes]

theorem length_le_pathAddrs (ctx : List Frame) : ctx.length ≤ (pathAddrs ctx).length := by
  induction ctx with
  | nil => simp
  | cons f up ih =>
    simp only [pathAddrs, List.length_cons, List.length_append]
    cases f <;> simp [Frame.addrs] <;> omega

theorem plug_addrs_length (ctx : List Frame) :
    ∀ t : Tree, (plug ctx t).addrs.length = (pathAddrs ctx).length + t.addrs.length := by
  induction ctx with
  | nil => intro t; simp [plug, pathAddrs]
  | cons f up ih =>
    intro t
    rw [plug_cons, ih]
    cases f <;> simp [fill, pathAddrs, Frame.addrs, Tree.addrs] <;> omega

/-- The function `rb_erase` on the represented tree: it returns, the result is a tree with
the red-black properties, and its nodes are the old nodes without the erased one, in the
same order. -/
theorem erase_tree (fuel : Nat) (s : State) (ctx : List Frame) (l : Tree) (n : Nat)
    (c v : Int) (r : Tree) (h : RepZ s ctx (Tree.node l n c v r))
    (hrb : RBShape (plug ctx (Tree.node l n c v r)))
    (hf : (plug ctx (Tree.node l n c v r)).addrs.length + 1 ≤ fuel) :
    ∃ s1 t1, rb_erase fuel (some n) s = Except.ok s1 ∧ RepZ s1 [] t1 ∧ RBShape t1 ∧
      ∃ l1 l2, (plug ctx (Tree.node l n c v r)).nodes = l1 ++ (n, v) :: l2 ∧
        t1.nodes = l1 ++ l2 := by
  have hd := deref_focus s ctx l n c v r h
  rw [plug_addrs_length] at hf
  have hlen := length_le_pathAddrs ctx
  obtain ⟨A, B, hAB⟩ := plug_nodes_split ctx
  by_cases htwo : l ≠ Tree.nil ∧ r ≠ Tree.nil
  · -- two children
    obtain ⟨hl, hr⟩ := htwo
    obtain ⟨ll, la, lc, lv, lr, rfl⟩ : ∃ ll la lc lv lr, l = Tree.node ll la lc lv lr := by
      cases l with
      | nil => exact absurd rfl hl
      | node ll la lc lv lr => exact ⟨ll, la, lc, lv, lr, rfl⟩
    obtain ⟨rl, ra, rc, rv, rr, rfl⟩ : ∃ rl ra rc rv rr, r = Tree.node rl ra rc rv rr := by
      cases r with
      | nil => exact absurd rfl hr
      | node rl ra rc rv rr => exact ⟨rl, ra, rc, rv, rr, rfl⟩
    obtain ⟨s1, p, pl, pa, pc, pv, e1, p1, f1, r1⟩ := replace_spec fuel s ctx ll la lc lv lr n c v
      rl ra rc rv rr h (by
        simp only [Tree.addrs, List.length_append, List.length_cons] at hf ⊢
        omega)
    -- the shape of the tree is the same
    have hold : plug ctx (Tree.node (Tree.node ll la lc lv lr) n c v (Tree.node rl ra rc rv rr))
        = plug (p ++ Frame.L n c v (Tree.node rl ra rc rv rr) :: ctx)
            (Tree.node pl pa pc pv Tree.nil) := by
      rw [plug_append, p1]
      rfl
    rw [hold, plug_shape] at hrb
    obtain ⟨k, hpv, hvx, hhead⟩ := hrb
    have hpv' : PathValid (p ++ Frame.L pa c pv (Tree.node rl ra rc rv rr) :: ctx) k :=
      (pathValid_append p (Frame.L n c v _) (Frame.L pa c pv _) ctx rfl rfl k).1 hpv
    have hhead' : ¬ headBlack (p ++ Frame.L pa c pv (Tree.node rl ra rc rv rr) :: ctx) →
        pc = RB_BLACK := fun hb =>
      hhead (fun hb2 => hb
        ((headBlack_append p (Frame.L n c v _) (Frame.L pa c pv _) ctx rfl).1 hb2))
    have hlenp : (p ++ Frame.L pa c pv (Tree.node rl ra rc rv rr) :: ctx).length + 1 ≤ fuel := by
      have h2 := length_le_pathAddrs p
      have h3 := plug_addrs_length p (Tree.node pl pa pc pv Tree.nil)
      rw [p1] at h3
      simp only [Tree.addrs, List.length_append, List.length_cons, List.length_nil] at hf h3 ⊢
      omega
    obtain ⟨q, s2, s3, t3, child, e2, e3, r3, sh3, hch, n3⟩ := erase_unlink_spec fuel s1 _ pl n pc
      v Tree.nil k r1 (Or.inr rfl) hvx hpv' hhead' hlenp
    have hcn : child.nodes = pl.nodes := by
      rcases hch with ⟨h1, h2⟩ | ⟨_, h2⟩
      · rw [h2, h1]
      · rw [h2]
    obtain ⟨A', hA'⟩ := plug_nodes_right p f1
    refine ⟨s3, t3, ?_, r3, sh3, A ++ (A' ++ pl.nodes ++ [(pa, pv)]),
      (Tree.node rl ra rc rv rr).nodes ++ B, ?_, ?_⟩
    · simp only [ptr_node] at hd
      simp only [rb_erase, rb_erase_node, hd, bind, Except.bind, ne_eq, reduceCtorEq,
        not_false_eq_true, and_self, if_true, e1, e2]
      exact e3
    · have hln : (Tree.node ll la lc lv lr).nodes = A' ++ pl.nodes ++ [(pa, pv)] := by
        rw [← p1, hA']
        simp [Tree.nodes]
      rw [hAB]
      show A ++ ((Tree.node ll la lc lv lr).nodes ++ (n, v) :: (Tree.node rl ra rc rv rr).nodes)
        ++ B = _
      rw [hln]
      simp
    · rw [n3, plug_append, plug_cons, hAB]
      show A ++ ((plug p child).nodes ++ (pa, pv) :: (Tree.node rl ra rc rv rr).nodes) ++ B = _
      rw [hA', hcn]
      simp
  · -- at most one child
    have hone : l = Tree.nil ∨ r = Tree.nil := by
      by_cases h1 : l = Tree.nil
      · exact Or.inl h1
      · by_cases h2 : r = Tree.nil
        · exact Or.inr h2
        · exact absurd ⟨h1, h2⟩ htwo
    rw [plug_shape] at hrb
    obtain ⟨k, hpv, hvx, hhead⟩ := hrb
    obtain ⟨q, s2, s3, t3, child, e2, e3, r3, sh3, hch, n3⟩ := erase_unlink_spec fuel s ctx l n c v
      r k h hone hvx hpv hhead (by omega)
    have hcond : ¬ (l.ptr ≠ none ∧ r.ptr ≠ none) := by
      rcases hone with rfl | rfl <;> simp
    refine ⟨s3, t3, ?_, r3, sh3, A ++ l.nodes, r.nodes ++ B, ?_, ?_⟩
    · simp only [rb_erase, rb_erase_node, hd, bind, Except.bind, hcond, if_false, pure,
        Except.pure, e2]
      exact e3
    · rw [hAB]
      simp [Tree.nodes]
    · rw [n3, hAB]
      rcases hch with ⟨h1, h2⟩ | ⟨h1, h2⟩
      · rw [h2, h1]
        simp [Tree.nodes]
      · rw [h2, h1]
        simp [Tree.nodes]

/-- The checker `is_rbtree` returns exactly on the red-black trees whose values are in
order. -/
theorem is_rbtree_iff (fuel : Nat) (s : State) (t : Tree) (h : RepZ s [] t)
    (hf : t.addrs.length + 1 ≤ fuel) (hb : t.addrs.length + 1 < 2 ^ 31) :
    (∃ g, is_rbtree fuel s = Except.ok g) ↔ IsRBTree t := by
  have hroot : s.node = t.ptr := h.root
  have hblack := rb_is_black_focus s [] t h
  have hspec := fun g => check_spec s t [] fuel (-1) 0 RB_BLACK g h hf (le_refl 0) (by
    have : ((t.addrs.length : Nat) : Int) + 1 < 2 ^ 31 := by exact_mod_cast hb
    omega)
  constructor
  · rintro ⟨g, hg⟩
    simp only [is_rbtree, hroot, hblack, bind, Except.bind] at hg
    by_cases hc : t.color = RB_BLACK
    · simp only [hc, decide_True, Bool.not_true, Bool.false_eq_true, if_false] at hg
      obtain ⟨n, hv, _, hs, _, _⟩ := (hspec g).1 hg
      exact ⟨⟨hc, n, hv⟩, hs⟩
    · simp [hc] at hg
  · rintro ⟨⟨hc, n, hv⟩, hs⟩
    refine ⟨⟨0 + n, 0, RB_BLACK⟩, ?_⟩
    simp only [is_rbtree, hroot, hblack, bind, Except.bind, hc, decide_True, Bool.not_true,
      Bool.false_eq_true, if_false]
    exact (hspec _).2 ⟨n, hv, fun _ => hc, hs, Or.inl rfl, rfl⟩

/-- The function `rb_inorder_traverse` prints the values of the represented tree in
order. -/
theorem traverse_spec (s : State) :
    ∀ (t : Tree) (ctx : List Frame) (fuel : Nat), RepZ s ctx t → t.addrs.length + 1 ≤ fuel →
      rb_inorder_traverse s fuel t.ptr = Except.ok t.inorder := by
  intro t
  induction t with
  | nil =>
    intro ctx fuel _ hf
    obtain ⟨k, rfl⟩ : ∃ k, fuel = k + 1 := ⟨fuel - 1, by omega⟩
    simp [rb_inorder_traverse, Tree.inorder, pure, Except.pure]
  | node l a c v r ihl ihr =>
    intro ctx fuel h hf
    obtain ⟨k, rfl⟩ : ∃ k, fuel = k + 1 := ⟨fuel - 1, by omega⟩
    simp only [Tree.addrs, List.length_append, List.length_cons] at hf
    have hd := deref_focus s ctx l a c v r h
    have h1 := ihl _ k ((repZ_up_L s a c v r ctx l).2 h) (by omega)
    have h2 := ihr _ k ((repZ_up_R s l a c v ctx r).2 h) (by omega)
    simp [rb_inorder_traverse, hd, h1, h2, Tree.inorder, bind, Except.bind, pure, Except.pure]

/-- The search loop of `rb_erase_val` ends at a node that holds the value when there is one,
and at `NULL` when there is none. -/
theorem erase_search_spec (val : Int) (s : State) :
    ∀ (t : Tree) (ctx : List Frame) (fuel : Nat), RepZ s ctx t → t.addrs.length + 1 ≤ fuel →
      t.inorder.Sorted (· ≤ ·) →
      (val ∉ t.inorder ∧ erase_search val s fuel t.ptr = Except.ok none) ∨
      ∃ ctx1 l n c r, erase_search val s fuel t.ptr = Except.ok (some n) ∧
        RepZ s ctx1 (Tree.node l n c val r) ∧
        plug ctx1 (Tree.node l n c val r) = plug ctx t := by
  intro t
  induction t with
  | nil =>
    intro ctx fuel _ hf _
    obtain ⟨k, rfl⟩ : ∃ k, fuel = k + 1 := ⟨fuel - 1, by omega⟩
    left
    simp [erase_search, Tree.inorder, pure, Except.pure]
  | node l a c v r ihl ihr =>
    intro ctx fuel h hf hs
    obtain ⟨k, rfl⟩ : ∃ k, fuel = k + 1 := ⟨fuel - 1, by omega⟩
    simp only [Tree.addrs, List.length_append, List.length_cons] at hf
    obtain ⟨hsl, hsr, hlv, hrv⟩ := sorted_node l a c v r hs
    have hd := deref_focus s ctx l a c v r h
    by_cases heq : val = v
    · subst heq
      right
      refine ⟨ctx, l, a, c, r, ?_, h, rfl⟩
      simp [erase_search, hd, bind, Except.bind, pure, Except.pure]
    · by_cases hlt : val < v
      · have h1 := (repZ_up_L s a c v r ctx l).2 h
        rcases ihl _ k h1 (by omega) hsl with ⟨hn, e1⟩ | ⟨ctx1, l1, n1, c1, r1, e1, z1, p1⟩
        · left
          refine ⟨?_, ?_⟩
          · simp only [Tree.inorder, List.mem_append, List.mem_cons, not_or]
            refine ⟨hn, heq, fun hm => ?_⟩
            have := hrv val hm
            omega
          · simp [erase_search, hd, heq, hlt, bind, Except.bind, e1]
        · right
          refine ⟨ctx1, l1, n1, c1, r1, ?_, z1, by rw [p1]; rfl⟩
          simp [erase_search, hd, heq, hlt, bind, Except.bind, e1]
      · have h1 := (repZ_up_R s l a c v ctx r).2 h
        rcases ihr _ k h1 (by omega) hsr with ⟨hn, e1⟩ | ⟨ctx1, l1, n1, c1, r1, e1, z1, p1⟩
        · left
          refine ⟨?_, ?_⟩
          · simp only [Tree.inorder, List.mem_append, List.mem_cons, not_or]
            refine ⟨fun hm => ?_, heq, hn⟩
            have := hlv val hm
            omega
          · simp [erase_search, hd, heq, hlt, bind, Except.bind, e1]
        · right
          refine ⟨ctx1, l1, n1, c1, r1, ?_, z1, by rw [p1]; rfl⟩
          simp [erase_search, hd, heq, hlt, bind, Except.bind, e1]

theorem keeps_refl (s : State) : Keeps s s := fun _ h => h

theorem keeps_trans {s s1 s2 : State} (h1 : Keeps s s1) (h2 : Keeps s1 s2) : Keeps s s2 :=
  fun q h => h2 q (h1 q h)

theorem keeps_store (s : State) (a : Nat) (nd : rbnode) : Keeps s (store s a nd) := by
  intro q h
  simp only [store_mem]
  split_ifs
  · simp
  · exact h

theorem keeps_set_parent {s s1 : State} {p w : Option Nat}
    (h : set_parent s p w = Except.ok s1) : Keeps s s1 := by
  unfold set_parent at h
  split at h
  · simp at h
  · split at h
    · simp at h
    · simp only [Except.ok.injEq] at h
      subst h
      exact keeps_store _ _ _

theorem keeps_set_left {s s1 : State} {p w : Option Nat}
    (h : set_left s p w = Except.ok s1) : Keeps s s1 := by
  unfold set_left at h
  split at h
  · simp at h
  · split at h
    · simp at h
    · simp only [Except.ok.injEq] at h
      subst h
      exact keeps_store _ _ _

theorem keeps_set_right {s s1 : State} {p w : Option Nat}
    (h : set_right s p w = Except.ok s1) : Keeps s s1 := by
  unfold set_right at h
  split at h
  · simp at h
  · split at h
    · simp at h
    · simp only [Except.ok.injEq] at h
      subst h
      exact keeps_store _ _ _

theorem keeps_set_color {s s1 : State} {p : Option Nat} {w : Int}
    (h : set_color s p w = Except.ok s1) : Keeps s s1 := by
  unfold set_color at h
  split at h
  · simp at h
  · split at h
    · simp at h
    · simp only [Except.ok.injEq] at h
      subst h
      exact keeps_store _ _ _

theorem keeps_set_parent_if {s s1 : State} {p w : Option Nat}
    (h : set_parent_if s p w = Except.ok s1) : Keeps s s1 := by
  unfold set_parent_if at h
  split at h
  · simp only [Except.ok.injEq] at h
    subst h
    exact keeps_refl _
  · exact keeps_set_parent h

theorem keeps_set_black {s s1 : State} {p : Option Nat}
    (h : rb_set_black s p = Except.ok s1) : Keeps s s1 := by
  unfold rb_set_black at h
  split at h
  · simp at h
  · exact keeps_set_color h

theorem keeps_set_red {s s1 : State} {p : Option Nat}
    (h : rb_set_red s p = Except.ok s1) : Keeps s s1 := by
  unfold rb_set_red at h
  split at h
  · simp at h
  · exact keeps_set_color h

theorem keeps_replace_child {s s1 : State} {a b n : Option Nat}
    (h : replace_child s a b n = Except.ok s1) : Keeps s s1 := by
  unfold replace_child at h
  split at h
  · simp only [Except.ok.injEq] at h
    subst h
    exact fun q hq => hq
  · split at h
    · simp at h
    · split_ifs at h
      · exact keeps_set_left h
      · exact keeps_set_right h

theorem keeps_rotate_left {s s1 : State} {n : Option Nat}
    (h : rb_rotate_left n s = Except.ok s1) : Keeps s s1 := by
  unfold rb_rotate_left at h
  repeat' first
    | split at h
    | (dsimp only at h; split at h)
  all_goals first
    | (exfalso; simp at h)
    | exact keeps_trans (keeps_set_right (by assumption))
        (keeps_trans (keeps_set_parent_if (by assumption))
        (keeps_trans (keeps_replace_child (by assumption))
        (keeps_trans (keeps_set_parent (by assumption))
        (keeps_trans (keeps_set_left (by assumption)) (keeps_set_parent h)))))

theorem keeps_rotate_right {s s1 : State} {n : Option Nat}
    (h : rb_rotate_right n s = Except.ok s1) : Keeps s s1 := by
  unfold rb_rotate_right at h
  repeat' first
    | split at h
    | (dsimp only at h; split at h)
  all_goals first
    | (exfalso; simp at h)
    | exact keeps_trans (keeps_set_left (by assumption))
        (keeps_trans (keeps_set_parent_if (by assumption))
        (keeps_trans (keeps_replace_child (by assumption))
        (keeps_trans (keeps_set_parent (by assumption))
        (keeps_trans (keeps_set_right (by assumption)) (keeps_set_parent h)))))

theorem keeps_rotate_towards {st s1 : State} {n p x : Option Nat}
    (h : rotate_towards st n p x = Except.ok s1) : Keeps st s1 := by
  simp only [rotate_towards, bind_eq_ok] at h
  obtain ⟨pn, _, h2⟩ := h
  split_ifs at h2
  · exact keeps_rotate_left h2
  · exact keeps_rotate_right h2

theorem keeps_rotate_away {st s1 : State} {n p x : Option Nat}
    (h : rotate_away st n p x = Except.ok s1) : Keeps st s1 := by
  simp only [rotate_away, bind_eq_ok] at h
  obtain ⟨pn, _, h2⟩ := h
  split_ifs at h2
  · exact keeps_rotate_right h2
  · exact keeps_rotate_left h2

theorem keeps_relink_node {s s1 : State} {node predecessor predecessor_p node_left : Option Nat}
    (h : relink_node node predecessor predecessor_p node_left s = Except.ok s1) :
    Keeps s s1 := by
  unfold relink_node at h
  split_ifs at h
  · simp only [bind_eq_ok] at h
    obtain ⟨t1, h1, h2⟩ := h
    exact keeps_trans (keeps_set_parent h1) (keeps_set_left h2)
  · simp only [bind_eq_ok] at h
    obtain ⟨t1, h1, t2, h2, t3, h3, h4⟩ := h
    exact keeps_trans (keeps_set_parent h1) (keeps_trans (keeps_set_right h2)
      (keeps_trans (keeps_set_left h3) (keeps_set_parent h4)))

theorem keeps_unlink {s s1 : State} {node : Option Nat}
    (h : rb_unlink_node node s = Except.ok s1) : Keeps s s1 := by
  unfold rb_unlink_node at h
  split at h
  · simp at h
  · simp only [bind_eq_ok] at h
    obtain ⟨nn, _, h2⟩ := h
    split_ifs at h2 <;>
    · simp only [bind_eq_ok] at h2
      obtain ⟨p, _, t1, h3, h4⟩ := h2
      exact keeps_trans (keeps_set_parent_if h3) (keeps_replace_child h4)

theorem keeps_replace {fuel : Nat} {s s1 : State} {node : Option Nat}
    (h : rb_replace_to_predecessor fuel node s = Except.ok s1) : Keeps s s1 := by
  simp only [rb_replace_to_predecessor, bind_eq_ok] at h
  obtain ⟨nn, _, h2⟩ := h
  split_ifs at h2
  simp only [bind_eq_ok] at h2
  obtain ⟨pr, _, h3⟩ := h2
  split at h3
  · simp at h3
  · simp only [bind_eq_ok] at h3
    obtain ⟨pn, _, h4⟩ := h3
    split_ifs at h4
    simp only [bind_eq_ok] at h4
    obtain ⟨np, _, pp, _, t1, e1, t2, e2, n2, _, t3, e3, n3, _, t4, e4, t5, e5, p5, _, t6, e6,
      p6, _, t7, e7, t8, e8, n8, _, p8, _, t9, e9, e10⟩ := h4
    exact keeps_trans (keeps_replace_child e1) (keeps_trans (keeps_set_parent e2)
      (keeps_trans (keeps_set_parent e3) (keeps_trans (keeps_set_right e4)
      (keeps_trans (keeps_set_right e5) (keeps_trans (keeps_set_left e6)
      (keeps_trans (keeps_set_parent_if e7) (keeps_trans (keeps_relink_node e8)
      (keeps_trans (keeps_set_color e9) (keeps_set_color e10)))))))))

theorem keeps_erase_node_unlink {s s1 : State} {node p : Option Nat}
    (h : erase_node_unlink node s = Except.ok (p, s1)) : Keeps s s1 := by
  simp only [erase_node_unlink, bind_eq_ok] at h
  obtain ⟨n1, _, h2⟩ := h
  split_ifs at h2 <;>
  · simp only [bind_eq_ok] at h2
    obtain ⟨p1, _, s2, e2, red, _, h3⟩ := h2
    have k2 := keeps_unlink e2
    cases red
    · simp only [Bool.false_eq_true, if_false, bind_eq_ok] at h3
      obtain ⟨cred, _, h4⟩ := h3
      cases cred
      · simp only [Bool.false_eq_true, if_false, bind_eq_ok] at h4
        obtain ⟨n2, _, h5⟩ := h4
        split_ifs at h5
        simp only [pure, Except.pure, Except.ok.injEq, Prod.mk.injEq] at h5
        obtain ⟨_, rfl⟩ := h5
        exact k2
      · simp only [if_true, bind_eq_ok] at h4
        obtain ⟨cn, _, h5⟩ := h4
        split_ifs at h5
        simp only [bind_eq_ok, pure, Except.pure, Except.ok.injEq, Prod.mk.injEq] at h5
        obtain ⟨s3, e3, _, rfl⟩ := h5
        exact keeps_trans k2 (keeps_set_black e3)
    · simp only [if_true, bind_eq_ok] at h3
      obtain ⟨n2, _, h4⟩ := h3
      split_ifs at h4
      simp only [pure, Except.pure, Except.ok.injEq, Prod.mk.injEq] at h4
      obtain ⟨_, rfl⟩ := h4
      exact k2

theorem keeps_erase_node {fuel : Nat} {s s1 : State} {node p : Option Nat}
    (h : rb_erase_node fuel node s = Except.ok (p, s1)) : Keeps s s1 := by
  unfold rb_erase_node at h
  split at h
  · simp at h
  · simp only [bind_eq_ok] at h
    obtain ⟨nn, _, h2⟩ := h
    split_ifs at h2
    · simp only [bind_eq_ok] at h2
      obtain ⟨s2, e2, e3⟩ := h2
      exact keeps_trans (keeps_replace e2) (keeps_erase_node_unlink e3)
    · simp only [bind_eq_ok, pure, Except.pure, Except.ok.injEq] at h2
      obtain ⟨s2, e2, e3⟩ := h2
      subst e2
      exact keeps_erase_node_unlink e3

theorem keeps_case3 {st s1 : State} {n p s sc sd s3 sc3 sd3 : Option Nat}
    (h : erase_case3 st n p s sc sd = Except.ok (s1, s3, sc3, sd3)) : Keeps st s1 := by
  simp only [erase_case3, bind_eq_ok] at h
  obtain ⟨sred, _, h2⟩ := h
  cases sred
  · simp only [Bool.false_eq_true, if_false, pure, Except.pure, Except.ok.injEq,
      Prod.mk.injEq] at h2
    rw [← h2.1]
    exact keeps_refl _
  · simp only [if_true, bind_eq_ok] at h2
    obtain ⟨a1, _, h3⟩ := h2
    split_ifs at h3
    simp only [bind_eq_ok, pure, Except.pure, Except.ok.injEq, Prod.mk.injEq] at h3
    obtain ⟨t1, e1, t2, e2, t3, e3, ⟨x, y⟩, _, rfl, _⟩ := h3
    exact keeps_trans (keeps_set_black e1) (keeps_trans (keeps_set_red e2)
      (keeps_rotate_towards e3))

theorem keeps_case5 {st s1 : State} {n p s sc sd s3 sc3 sd3 : Option Nat}
    (h : erase_case5 st n p s sc sd = Except.ok (s1, s3, sc3, sd3)) : Keeps st s1 := by
  simp only [erase_case5, bind_eq_ok] at h
  obtain ⟨c5, _, h2⟩ := h
  cases c5
  · simp only [Bool.false_eq_true, if_false, pure, Except.pure, Except.ok.injEq,
      Prod.mk.injEq] at h2
    rw [← h2.1]
    exact keeps_refl _
  · simp only [if_true, bind_eq_ok] at h2
    obtain ⟨a1, _, h3⟩ := h2
    split_ifs at h3
    simp only [bind_eq_ok, pure, Except.pure, Except.ok.injEq, Prod.mk.injEq] at h3
    obtain ⟨t1, e1, t2, e2, t3, e3, ⟨x, y⟩, _, rfl, _⟩ := h3
    exact keeps_trans (keeps_set_red e1) (keeps_trans (keeps_set_black e2)
      (keeps_rotate_away e3))

theorem keeps_case6 {st s1 : State} {n p s sd : Option Nat}
    (h : erase_case6 st n p s sd = Except.ok s1) : Keeps st s1 := by
  simp only [erase_case6, bind_eq_ok] at h
  obtain ⟨a1, _, h2⟩ := h
  split_ifs at h2
  simp only [bind_eq_ok] at h2
  obtain ⟨a2, _, h3⟩ := h2
  split_ifs at h3
  simp only [bind_eq_ok] at h3
  obtain ⟨t1, e1, pn, _, t2, e2, t3, e3, e4⟩ := h3
  exact keeps_trans (keeps_rotate_towards e1) (keeps_trans (keeps_set_color e2)
    (keeps_trans (keeps_set_black e3) (keeps_set_black e4)))

theorem keeps_tail {st s1 : State} {n p s sc sd : Option Nat}
    (h : erase_tail st n p s sc sd = Except.ok s1) : Keeps st s1 := by
  simp only [erase_tail, bind_eq_ok] at h
  obtain ⟨c4, _, h2⟩ := h
  cases c4
  · simp only [Bool.false_eq_true, if_false, bind_eq_ok] at h2
    obtain ⟨⟨st5, s5, sc5, sd5⟩, e1, e2⟩ := h2
    exact keeps_trans (keeps_case5 e1) (keeps_case6 e2)
  · simp only [if_true] at h2
    split at h2
    · simp at h2
    · simp only [bind_eq_ok] at h2
      obtain ⟨t1, e1, e2⟩ := h2
      exact keeps_trans (keeps_set_black e1) (keeps_set_red e2)

theorem keeps_balance_loop : ∀ (fuel : Nat) (n p : Option Nat) (st s1 : State),
    rb_erase_balance_loop fuel n p st = Except.ok s1 → Keeps st s1 := by
  intro fuel
  induction fuel with
  | zero =>
    intro n p st s1 h
    simp [rb_erase_balance_loop] at h
  | succ fuel ih =>
    intro n p st s1 h
    unfold rb_erase_balance_loop at h
    split at h
    · simp only [pure, Except.pure, Except.ok.injEq] at h
      subst h
      exact keeps_refl _
    · simp only [bind_eq_ok] at h
      obtain ⟨pn, _, h2⟩ := h
      split at h2
      · simp at h2
      · simp only [bind_eq_ok] at h2
        obtain ⟨⟨sc, sd⟩, _, c2, _, h3⟩ := h2
        cases c2
        · simp only [Bool.false_eq_true, if_false, bind_eq_ok] at h3
          obtain ⟨⟨st3, s3, sc3, sd3⟩, e1, e2⟩ := h3
          exact keeps_trans (keeps_case3 e1) (keeps_tail e2)
        · simp only [if_true, bind_eq_ok] at h3
          obtain ⟨t1, e1, p1, _, e2⟩ := h3
          exact keeps_trans (keeps_set_red e1) (ih _ _ _ _ e2)

/-- The function `rb_erase` frees nothing: every block stays allocated. -/
theorem keeps_erase {fuel : Nat} {s s1 : State} {node : Option Nat}
    (h : rb_erase fuel node s = Except.ok s1) : Keeps s s1 := by
  simp only [rb_erase, bind_eq_ok] at h
  obtain ⟨⟨p, s2⟩, e1, e2⟩ := h
  have k1 := keeps_erase_node e1
  cases p with
  | none =>
    simp only [pure, Except.pure, Except.ok.injEq] at e2
    subst e2
    exact k1
  | some a =>
    simp only [rb_erase_balance] at e2
    exact keeps_trans k1 (keeps_balance_loop _ _ _ _ _ e2)

theorem addrs_length_inorder (t : Tree) : t.addrs.length = t.inorder.length := by
  induction t with
  | nil => rfl
  | node l a c v r ihl ihr => simp [Tree.addrs, Tree.inorder, ihl, ihr]

theorem addrs_length_nodes (t : Tree) : t.addrs.length = t.nodes.length := by
  rw [← nodes_addrs, List.length_map]

/-- Every node of a tree is the root of a subtree at the lower end of a path. -/
theorem focus_of_mem : ∀ (t : Tree) (n : Nat), n ∈ t.addrs →
    ∃ ctx l c v r, plug ctx (Tree.node l n c v r) = t := by
  intro t
  induction t with
  | nil =>
    intro n hn
    simp [Tree.addrs] at hn
  | node l a c v r ihl ihr =>
    intro n hn
    simp only [Tree.addrs, List.mem_append, List.mem_cons] at hn
    rcases hn with hn | rfl | hn
    · obtain ⟨ctx, l1, c1, v1, r1, h1⟩ := ihl n hn
      refine ⟨ctx ++ [Frame.L a c v r], l1, c1, v1, r1, ?_⟩
      rw [plug_append, h1]
      rfl
    · exact ⟨[], l, c, v, r, rfl⟩
    · obtain ⟨ctx, l1, c1, v1, r1, h1⟩ := ihr n hn
      refine ⟨ctx ++ [Frame.R l a c v], l1, c1, v1, r1, ?_⟩
      rw [plug_append, h1]
      rfl

theorem sorted_remove (l1 l2 : List Int) (v : Int) (h : (l1 ++ v :: l2).Sorted (· ≤ ·)) :
    (l1 ++ l2).Sorted (· ≤ ·) := by
  exact List.Pairwise.sublist
    (List.Sublist.append (List.Sublist.refl _) (List.sublist_cons_self _ _)) h

/-- Deletion on the represented tree: `rb_erase` returns, the result is a red-black tree, and
its values are the old values without the value of the erased node. -/
theorem erase_node_tree (fuel : Nat) (s : State) (t : Tree) (n : Nat) (h : RepZ s [] t)
    (hrb : IsRBTree t) (hn : n ∈ t.addrs) (hf : t.addrs.length + 1 ≤ fuel) :
    ∃ s1 t1 v, rb_erase fuel (some n) s = Except.ok s1 ∧ RepZ s1 [] t1 ∧ IsRBTree t1 ∧
      n ∉ t1.addrs ∧ ∃ l1 l2, t.nodes = l1 ++ (n, v) :: l2 ∧ t1.nodes = l1 ++ l2 := by
  obtain ⟨ctx, l, c, v, r, hp⟩ := focus_of_mem t n hn
  have hz : RepZ s ctx (Tree.node l n c v r) := by
    rw [repZ_plug, hp]
    exact h
  obtain ⟨s1, t1, e1, r1, sh1, l1, l2, hn1, hn2⟩ := erase_tree fuel s ctx l n c v r hz
    (by rw [hp]; exact hrb.1) (by rw [hp]; exact hf)
  rw [hp] at hn1
  refine ⟨s1, t1, v, e1, r1, ⟨sh1, ?_⟩, ?_, l1, l2, hn1, hn2⟩
  · have h2 := hrb.2
    rw [← nodes_inorder, hn1] at h2
    rw [← nodes_inorder, hn2]
    simp only [List.map_append, List.map_cons] at h2 ⊢
    exact sorted_remove _ _ _ h2
  · have hnd : t.addrs.Nodup := by simpa [pathAddrs] using h.nodup
    rw [← nodes_addrs, hn1] at hnd
    rw [← nodes_addrs, hn2]
    simp only [List.map_append, List.map_cons] at hnd ⊢
    have hc := List.nodup_iff_count_le_one.1 hnd n
    simp only [List.count_append, List.count_cons, beq_self_eq_true, if_true] at hc
    intro hm
    rcases List.mem_append.1 hm with hm | hm
    · have := List.count_pos_iff.2 hm
      omega
    · have := List.count_pos_iff.2 hm
      omega

theorem mem_inorder_plug (ctx : List Frame) (l : Tree) (n : Nat) (c v : Int) (r : Tree) :
    v ∈ (plug ctx (Tree.node l n c v r)).inorder := by
  rw [inorder_plug]
  simp [Tree.inorder]

theorem mem_addrs_plug (ctx : List Frame) (l : Tree) (n : Nat) (c v : Int) (r : Tree) :
    n ∈ (plug ctx (Tree.node l n c v r)).addrs := by
  obtain ⟨A, B, h⟩ := plug_nodes_split ctx
  rw [← nodes_addrs, h]
  simp [Tree.nodes]

/-- Freeing a block that is not in the tree leaves the tree as it is. -/
theorem free_spec (s : State) (t : Tree) (n : Nat) (h : RepZ s [] t) (hn : n ∉ t.addrs)
    (ha : s.mem n ≠ none) :
    ∃ s1, rb_free_node (some n) s = Except.ok s1 ∧ RepZ s1 [] t := by
  obtain ⟨nd, hnd⟩ : ∃ nd, s.mem n = some nd := by
    cases hx : s.mem n with
    | none => exact absurd hx ha
    | some nd => exact ⟨nd, rfl⟩
  refine ⟨{ s with mem := Function.update s.mem n none }, by simp [rb_free_node, hnd],
    trivial, ?_, h.root, h.nodup⟩
  apply rep_congr _ _ t _ _ h.sub
  intro q hq
  have : q ≠ n := fun e => hn (e ▸ hq)
  simp [Function.update_apply, this]

theorem example_rep : RepZ example_state [] example_tree :=
  ⟨trivial, ⟨rfl, ⟨rfl, trivial, trivial⟩, ⟨rfl, trivial, trivial⟩⟩, rfl, by decide⟩

theorem example_rbtree : IsRBTree example_tree :=
  ⟨⟨rfl, 2, Or.inr ⟨rfl, 1, rfl, Or.inl ⟨rfl, rfl, rfl, rfl, rfl⟩,
    Or.inl ⟨rfl, rfl, rfl, rfl, rfl⟩⟩⟩, by decide⟩

/-! ### The claims about `rbtree` -/

/-- Claim C21: insertion keeps the tree valid.  For a state that holds a well-formed tree
(`RepZ`: every node at its block, with its parent and child pointers, no block twice) of
fewer than `2 ^ 31 - 2` nodes on which the checker `is_rbtree` returns, for every value
`val` and every block `a` that `malloc` can return (not allocated before, with any contents
`g`), `rb_insert_val` returns and the checker returns on the new state; the fuel only has
to exceed the number of nodes. -/
theorem insert_keeps_rbtree (s : State) (t : Tree) (val : Int) (a : Nat) (g : rbnode)
    (fuel : Nat) (h : RepZ s [] t) (hsize : t.addrs.length + 2 < 2 ^ 31)
    (hf : t.addrs.length + 2 ≤ fuel) (hchk : ∃ g0, is_rbtree fuel s = Except.ok g0)
    (ha : s.mem a = none) :
    ∃ s1, rb_insert_val fuel val (some (a, g)) s = Except.ok s1 ∧
      ∃ g1, is_rbtree fuel s1 = Except.ok g1 := by
  have hrb := (is_rbtree_iff fuel s t h (by omega) (by omega)).1 hchk
  obtain ⟨s1, t1, e1, r1, hrb1, l1, l2, h1, h2⟩ := insert_val_tree s t val a g fuel h hrb ha
    (by omega)
  have hlen : t1.addrs.length = t.addrs.length + 1 := by
    rw [addrs_length_inorder, addrs_length_inorder, h1, h2]
    simp only [List.length_append, List.length_cons]
    omega
  exact ⟨s1, e1, (is_rbtree_iff fuel s1 t1 r1 (by omega) (by omega)).2 hrb1⟩

theorem insert_keeps_rbtree_witness :
    RepZ example_state [] example_tree ∧
    (∃ g0, is_rbtree 10 example_state = Except.ok g0) ∧
    ∃ s1, rb_insert_val 10 4 (some (4, ⟨none, none, none, 7, 7⟩)) example_state
        = Except.ok s1 ∧
      ∃ g1, is_rbtree 10 s1 = Except.ok g1 :=
  ⟨example_rep, ⟨_, rfl⟩,
    insert_keeps_rbtree example_state example_tree 4 4 ⟨none, none, none, 7, 7⟩ 10 example_rep
      (by decide) (by decide) ⟨_, rfl⟩ rfl⟩

/-- Claim C22: deletion keeps the tree valid.  For a state that holds a well-formed tree of
fewer than `2 ^ 31 - 1` nodes on which the checker `is_rbtree` returns, and for every node
`n` of the tree, `rb_erase` returns, so that no assertion of `rb_erase_node` and
`rb_erase_balance` fails, and the checker returns on the new state. -/
theorem erase_keeps_rbtree (s : State) (t : Tree) (n : Nat) (fuel : Nat) (h : RepZ s [] t)
    (hsize : t.addrs.length + 1 < 2 ^ 31) (hf : t.addrs.length + 1 ≤ fuel)
    (hchk : ∃ g0, is_rbtree fuel s = Except.ok g0) (hn : n ∈ t.addrs) :
    ∃ s1, rb_erase fuel (some n) s = Except.ok s1 ∧
      ∃ g1, is_rbtree fuel s1 = Except.ok g1 := by
  have hrb := (is_rbtree_iff fuel s t h hf hsize).1 hchk
  obtain ⟨s1, t1, v, e1, r1, hrb1, _, l1, l2, h1, h2⟩ := erase_node_tree fuel s t n h hrb hn hf
  have hlen : t1.addrs.length + 1 = t.addrs.length := by
    rw [addrs_length_nodes, addrs_length_nodes, h1, h2]
    simp only [List.length_append, List.length_cons]
    omega
  exact ⟨s1, e1, (is_rbtree_iff fuel s1 t1 r1 (by omega) (by omega)).2 hrb1⟩

theorem erase_keeps_rbtree_witness :
    RepZ example_state [] example_tree ∧
    (∃ g0, is_rbtree 10 example_state = Except.ok g0) ∧
    ∃ s1, rb_erase 10 (some 1) example_state = Except.ok s1 ∧
      ∃ g1, is_rbtree 10 s1 = Except.ok g1 :=
  ⟨example_rep, ⟨_, rfl⟩,
    erase_keeps_rbtree example_state example_tree 1 10 example_rep (by decide) (by decide)
      ⟨_, rfl⟩ (by decide)⟩

/-- Claim C28: the operations implement a multiset of ints.  For a state that holds a
well-formed red-black tree `t` whose values are in order, `rb_inorder_traverse` prints the
values of `t`; after `rb_insert_val` it prints a sequence in order that is the old one with
`val` put in at one place; after `rb_erase_val` it prints a sequence in order that is the
old one with one occurrence of `val` taken out when there is one, and when there is none
`rb_erase_val` returns the state as it was. -/
theorem rbtree_multiset (s : State) (t : Tree) (val : Int) (a : Nat) (g : rbnode) (fuel : Nat)
    (h : RepZ s [] t) (hrb : IsRBTree t) (hf : t.addrs.length + 2 ≤ fuel)
    (ha : s.mem a = none) :
    rb_inorder_traverse s fuel s.node = Except.ok t.inorder ∧
    (∃ s1 seq, rb_insert_val fuel val (some (a, g)) s = Except.ok s1 ∧
      rb_inorder_traverse s1 fuel s1.node = Except.ok seq ∧ seq.Sorted (· ≤ ·) ∧
      ∃ l1 l2, t.inorder = l1 ++ l2 ∧ seq = l1 ++ val :: l2) ∧
    (val ∈ t.inorder → ∃ s1 seq, rb_erase_val fuel val s = Except.ok s1 ∧
      rb_inorder_traverse s1 fuel s1.node = Except.ok seq ∧ seq.Sorted (· ≤ ·) ∧
      ∃ l1 l2, t.inorder = l1 ++ val :: l2 ∧ seq = l1 ++ l2) ∧
    (val ∉ t.inorder → rb_erase_val fuel val s = Except.ok s) := by
  have hroot : s.node = t.ptr := h.root
  have hsearch := erase_search_spec val s t [] fuel h (by omega) hrb.2
  refine ⟨?_, ?_, ?_, ?_⟩
  · rw [hroot]
    exact traverse_spec s t [] fuel h (by omega)
  · obtain ⟨s1, t1, e1, r1, hrb1, l1, l2, h1, h2⟩ := insert_val_tree s t val a g fuel h hrb ha
      (by omega)
    have hlen : t1.addrs.length = t.addrs.length + 1 := by
      rw [addrs_length_inorder, addrs_length_inorder, h1, h2]
      simp only [List.length_append, List.length_cons]
      omega
    have hr1 : s1.node = t1.ptr := r1.root
    refine ⟨s1, t1.inorder, e1, ?_, hrb1.2, l1, l2, h1, h2⟩
    rw [hr1]
    exact traverse_spec s1 t1 [] fuel r1 (by omega)
  · intro hmem
    rcases hsearch with ⟨hno, _⟩ | ⟨ctx1, l, n, c, r, e1, z1, p1⟩
    · exact absurd hmem hno
    · simp only [plug] at p1
      have hn : n ∈ t.addrs := by
        rw [← p1]
        exact mem_addrs_plug ctx1 l n c val r
      obtain ⟨s1, t1, v, e2, r2, hrb2, hnot, l1, l2, h1, h2⟩ := erase_node_tree fuel s t n h hrb
        hn (by omega)
      -- the erased node holds `val`
      have hv : v = val := by
        have hnd : t.addrs.Nodup := by simpa [pathAddrs] using h.nodup
        rw [← nodes_addrs] at hnd
        have hm1 : (n, v) ∈ t.nodes := by rw [h1]; simp
        have hm2 : (n, val) ∈ t.nodes := by
          obtain ⟨A, B, hAB⟩ := plug_nodes_split ctx1
          rw [← p1, hAB]
          simp [Tree.nodes]
        have := List.inj_on_of_nodup_map hnd hm1 hm2 rfl
        exact (Prod.mk.inj this).2
      subst hv
      have hall : s1.mem n ≠ none :=
        keeps_erase e2 n (rep_allocated s.mem t _ h.sub n hn)
      obtain ⟨s2, e3, r3⟩ := free_spec s1 t1 n r2 hnot hall
      have hlen : t1.addrs.length + 1 = t.addrs.length := by
        rw [addrs_length_nodes, addrs_length_nodes, h1, h2]
        simp only [List.length_append, List.length_cons]
        omega
      have hr3 : s2.node = t1.ptr := r3.root
      refine ⟨s2, t1.inorder, ?_, ?_, hrb2.2, l1.map Prod.snd, l2.map Prod.snd, ?_, ?_⟩
      · simp only [rb_erase_val, hroot, e1, bind, Except.bind, e2]
        exact e3
      · rw [hr3]
        exact traverse_spec s2 t1 [] fuel r3 (by omega)
      · rw [← nodes_inorder, h1]
        simp
      · rw [← nodes_inorder, h2]
        simp
  · intro hno
    rcases hsearch with ⟨_, e1⟩ | ⟨ctx1, l, n, c, r, e1, z1, p1⟩
    · simp only [rb_erase_val, hroot, e1, bind, Except.bind, pure, Except.pure]
    · simp only [plug] at p1
      exact absurd (p1 ▸ mem_inorder_plug ctx1 l n c val r) hno

theorem rbtree_multiset_witness :
    RepZ example_state [] example_tree ∧ IsRBTree example_tree ∧
    rb_inorder_traverse example_state 10 example_state.node = Except.ok [3, 5, 8] ∧
    (∃ s1 seq, rb_insert_val 10 5 (some (4, ⟨none, none, none, 7, 7⟩)) example_state
        = Except.ok s1 ∧
      rb_inorder_traverse s1 10 s1.node = Except.ok seq ∧ seq.Sorted (· ≤ ·) ∧
      ∃ l1 l2, [3, 5, 8] = l1 ++ l2 ∧ seq = l1 ++ 5 :: l2) ∧
    ∃ s1 seq, rb_erase_val 10 5 example_state = Except.ok s1 ∧
      rb_inorder_traverse s1 10 s1.node = Except.ok seq ∧ seq.Sorted (· ≤ ·) ∧
      ∃ l1 l2, [3, 5, 8] = l1 ++ 5 :: l2 ∧ seq = l1 ++ l2 :=
  let w := rbtree_multiset example_state example_tree 5 4 ⟨none, none, none, 7, 7⟩ 10
    example_rep example_rbtree (by decide) rfl
  ⟨example_rep, example_rbtree, w.1, w.2.1, w.2.2.1 (by decide)⟩

end Rbtree -- theorems

/-! ## Theorems about `nqueen/nqueen.c` -/

namespace Nqueen

/-- The loop of `ctz` stops at the lowest set bit. -/
theorem ctz_loop_spec (k : Nat) : ∀ (x i m : Nat), m < k → x.testBit m = true →
    (∀ j, j < m → x.testBit j = false) → ctz_loop k x i = i + m := by
  induction k with
  | zero => intro x i m hm; omega
  | succ k ih =>
    intro x i m hm hb hlow
    cases m with
    | zero =>
      rw [Nat.testBit_zero] at hb
      simp only [decide_eq_true_eq] at hb
      simp [ctz_loop, hb]
    | succ m =>
      have h0 := hlow 0 (by omega)
      rw [Nat.testBit_zero] at h0
      simp only [decide_eq_false_iff_not] at h0
      rw [ctz_loop, if_neg h0, ih (x / 2) (i + 1) m (by omega)]
      · omega
      · rw [Nat.testBit_div_two]; exact hb
      · intro j hj
        rw [Nat.testBit_div_two]
        exact hlow (j + 1) (by omega)

/-- The lowest set bit of a non-zero 32-bit value exists. -/
theorem exists_lowest_bit (x : Nat) (hx : x ≠ 0) :
    ∃ m, x.testBit m = true ∧ ∀ j, j < m → x.testBit j = false := by
  have h : ∃ m, x.testBit m = true := Nat.ne_zero_implies_bit_true hx
  classical
  refine ⟨Nat.find h, Nat.find_spec h, fun j hj => ?_⟩
  have := Nat.find_min h hj
  simpa using this

/-- The value of `ctz` on a non-zero 32-bit value is the position of its lowest set bit. -/
theorem ctz_spec (x : Nat) (hx : x ≠ 0) (h32 : x < 2 ^ 32) :
    ctz x < 32 ∧ x.testBit (ctz x) = true ∧ ∀ j, j < ctz x → x.testBit j = false := by
  obtain ⟨m, hm, hlow⟩ := exists_lowest_bit x hx
  have hm32 : m < 32 := by
    by_contra hge
    have : x < 2 ^ m := lt_of_lt_of_le h32 (Nat.pow_le_pow_right (by norm_num) (by omega))
    rw [Nat.testBit_lt_two_pow this] at hm
    exact Bool.noConfusion hm
  have e : ctz x = m := by
    rw [ctz, ctz_loop_spec 32 x 0 m hm32 hm hlow]
    omega
  rw [e]
  exact ⟨hm32, hm, hlow⟩

/-- The expression `x & (x - 1)` is `x` without its lowest set bit. -/
theorem clear_lowest (m : Nat) : ∀ (x j : Nat), x.testBit m = true →
    (∀ i, i < m → x.testBit i = false) →
    (x &&& (x - 1)).testBit j = (x.testBit j && decide (j ≠ m)) := by
  induction m with
  | zero =>
    intro x j hb _
    rw [Nat.testBit_zero] at hb
    simp only [decide_eq_true_eq] at hb
    rw [Nat.testBit_and]
    cases j with
    | zero =>
      have : (x - 1) % 2 = 0 := by omega
      simp [Nat.testBit_zero, this]
    | succ j =>
      have : (x - 1) / 2 = x / 2 := by omega
      simp [Nat.testBit_succ, this]
  | succ m ih =>
    intro x j hb hlow
    have h0 := hlow 0 (by omega)
    rw [Nat.testBit_zero] at h0
    simp only [decide_eq_false_iff_not] at h0
    have hx : x ≠ 0 := by
      rintro rfl
      simp at hb
    rw [Nat.testBit_and]
    cases j with
    | zero => simp [Nat.testBit_zero, h0]
    | succ j =>
      have e : (x - 1) / 2 = x / 2 - 1 := by omega
      have := ih (x / 2) j (by rw [Nat.testBit_div_two]; exact hb)
        (fun i hi => by rw [Nat.testBit_div_two]; exact hlow (i + 1) (by omega))
      rw [Nat.testBit_and] at this
      simp only [Nat.testBit_succ, e, this]
      simp

/-- The operator `~` flips the 32 bits. -/
theorem testBit_bit_not (x j : Nat) :
    (bit_not x).testBit j = (decide (j < 32) && !x.testBit j) := by
  have h : x % 2 ^ 32 < 2 ^ 32 := Nat.mod_lt _ (by norm_num)
  have e : bit_not x = 2 ^ 32 - (x % 2 ^ 32 + 1) := by
    unfold bit_not
    omega
  rw [e, Nat.testBit_two_pow_sub_succ h, Nat.testBit_mod_two_pow]
  cases hj : decide (j < 32) <;> simp

theorem bit_not_lt (x : Nat) : bit_not x < 2 ^ 32 := by
  unfold bit_not
  omega

theorem completions_nil (n : Nat) : completions n [] = solution_count n := by
  unfold completions solution_count
  congr 1
  apply Finset.filter_congr
  intro q _
  simp [Extends]

theorem extends_snoc (n : Nat) (p : List Nat) (j : Nat) (h : p.length < n)
    (q : Fin n → Fin n) :
    Extends n (p ++ [j]) q ↔ Extends n p q ∧ (q ⟨p.length, h⟩).val = j := by
  constructor
  · intro hx
    refine ⟨fun r hr => ?_, ?_⟩
    · have := hx r (by simp; omega)
      rwa [List.getElem?_append_left hr] at this
    · have := hx ⟨p.length, h⟩ (by simp)
      simp at this
      exact this.symm
  · rintro ⟨hp, hj⟩ r hr
    simp only [List.length_append, List.length_singleton] at hr
    by_cases hlt : r.val < p.length
    · rw [List.getElem?_append_left hlt]
      exact hp r hlt
    · have e : r = ⟨p.length, h⟩ := Fin.ext (by simp; omega)
      subst e
      simp [hj]

/-- The solutions that extend `p` are split by the column of the queen of the next row. -/
theorem completions_split (n : Nat) (p : List Nat) (h : p.length < n) :
    completions n p = ∑ j in Finset.range n, completions n (p ++ [j]) := by
  unfold completions
  rw [Finset.card_eq_sum_card_fiberwise (f := fun q : Fin n → Fin n => (q ⟨p.length, h⟩).val)
    (t := Finset.range n) (fun q _ => Finset.mem_range.2 (q ⟨p.length, h⟩).isLt)]
  apply Finset.sum_congr rfl
  intro j _
  rw [Finset.filter_filter]
  congr 1
  apply Finset.filter_congr
  intro q _
  rw [extends_snoc n p j h q, and_assoc]

/-- A column that a queen of `p` attacks has no solution. -/
theorem completions_attacked (n : Nat) (p : List Nat) (j : Nat) (h : p.length < n)
    (hj : ¬ Free p j) : completions n (p ++ [j]) = 0 := by
  unfold completions
  rw [Finset.card_eq_zero, Finset.filter_eq_empty_iff]
  rintro q _ ⟨hs, hx⟩
  apply hj
  intro r c hr hatt
  have hrl : r < p.length := by
    by_contra hge
    rw [List.getElem?_eq_none (by omega)] at hr
    exact Option.noConfusion hr
  rw [extends_snoc n p j h q] at hx
  have h1 := hx.1 ⟨r, by omega⟩ hrl
  simp only [hr, Option.some.injEq] at h1
  apply hs ⟨r, by omega⟩ ⟨p.length, h⟩ hrl
  simp only [← h1, hx.2]
  exact hatt

/-- A full board of queens that do not attack one another is one solution. -/
theorem completions_full (n : Nat) (p : List Nat) (hs : Safe n p) (hl : p.length = n) :
    completions n p = 1 := by
  unfold completions
  rw [Finset.card_eq_one]
  have hb : ∀ r : Fin n, p[r.val]?.getD 0 < n := by
    intro r
    have hr : r.val < p.length := by omega
    rw [List.getElem?_eq_getElem hr]
    exact hs.1 _ (List.getElem_mem _)
  refine ⟨fun r => ⟨p[r.val]?.getD 0, hb r⟩, ?_⟩
  ext q
  simp only [Finset.mem_filter, Finset.mem_univ, true_and, Finset.mem_singleton]
  constructor
  · rintro ⟨_, hx⟩
    funext r
    apply Fin.ext
    have := hx r (by omega)
    simp [this]
  · rintro rfl
    refine ⟨fun r1 r2 h12 => ?_, fun r hr => ?_⟩
    · have h1 : r1.val < p.length := by omega
      have h2 : r2.val < p.length := by omega
      apply hs.2 r1 r2 _ _ h12
      · simp [List.getElem?_eq_getElem h1]
      · simp [List.getElem?_eq_getElem h2]
    · simp [List.getElem?_eq_getElem hr]

/-- A queen in a free column of the next row keeps the rows safe. -/
theorem safe_snoc (n : Nat) (p : List Nat) (j : Nat) (hs : Safe n p) (hj : j < n)
    (hf : Free p j) : Safe n (p ++ [j]) := by
  refine ⟨fun c hc => ?_, fun r1 r2 c1 c2 h12 h1 h2 => ?_⟩
  · rcases List.mem_append.1 hc with h | h
    · exact hs.1 c h
    · simp only [List.mem_singleton] at h
      omega
  · have hr2 : r2 < (p ++ [j]).length := by
      by_contra hge
      rw [List.getElem?_eq_none (by omega)] at h2
      exact Option.noConfusion h2
    simp only [List.length_append, List.length_singleton] at hr2
    rw [List.getElem?_append_left (by omega)] at h1
    by_cases hlt : r2 < p.length
    · rw [List.getElem?_append_left hlt] at h2
      exact hs.2 r1 r2 c1 c2 h12 h1 h2
    · have e : r2 = p.length := by omega
      subst e
      simp at h2
      subst h2
      exact hf r1 c1 h1

theorem safe_nil (n : Nat) : Safe n [] :=
  ⟨fun c hc => by simp at hc, fun r1 r2 c1 c2 _ h1 => by simp at h1⟩

/-- The number of solutions fits the counter whenever the board has at most 12 rows. -/
theorem solution_count_le (n : Nat) : solution_count n ≤ n.factorial := by
  unfold solution_count
  have hinj : ∀ q : Fin n → Fin n, is_solution n q → Function.Injective q := by
    intro q hq a b hab
    by_contra hne
    rcases lt_or_gt_of_ne hne with h | h
    · exact hq a b h (Or.inl (by rw [hab]))
    · exact hq b a h (Or.inl (by rw [hab]))
  calc (Finset.univ.filter (fun q : Fin n → Fin n => is_solution n q)).card
      ≤ (Finset.univ.filter (fun q : Fin n → Fin n => Function.Injective q)).card :=
        Finset.card_le_card (Finset.monotone_filter_right _ (fun q hq => hinj q hq))
    _ = Fintype.card {q : Fin n → Fin n // Function.Injective q} :=
        (Fintype.card_subtype _).symm
    _ = Fintype.card (Fin n ↪ Fin n) :=
        Fintype.card_congr (Equiv.subtypeInjectiveEquivEmbedding (Fin n) (Fin n))
    _ = n.factorial := by
        rw [Fintype.card_embedding_eq, Fintype.card_fin, Nat.descFactorial_self]

theorem same_refl (row : Nat) (nq : nqueens) : Same row nq nq :=
  ⟨rfl, rfl, rfl, rfl, fun _ _ => ⟨rfl, rfl, rfl⟩⟩

theorem same_trans {row : Nat} {a b c : nqueens} (h1 : Same row a b) (h2 : Same row b c) :
    Same row a c :=
  ⟨h2.1.trans h1.1, h2.2.1.trans h1.2.1, h2.2.2.1.trans h1.2.2.1,
    h2.2.2.2.1.trans h1.2.2.2.1, fun k hk =>
      ⟨((h2.2.2.2.2 k hk).1).trans (h1.2.2.2.2 k hk).1,
        ((h2.2.2.2.2 k hk).2.1).trans (h1.2.2.2.2 k hk).2.1,
        ((h2.2.2.2.2 k hk).2.2).trans (h1.2.2.2.2 k hk).2.2⟩⟩

theorem same_mono {row k : Nat} {a b : nqueens} (h : Same (row + 1) a b) (hk : k ≤ row) :
    Same k a b :=
  ⟨h.1, h.2.1, h.2.2.1, h.2.2.2.1, fun i hi => h.2.2.2.2 i (by omega)⟩

theorem masks_same {row : Nat} {a b : nqueens} {p : List Nat} (h : Same row a b)
    (hm : Masks a row p) : Masks b row p := by
  obtain ⟨h1, h2, h3⟩ := h.2.2.2.2 row le_rfl
  unfold Masks
  rw [h1, h2, h3]
  exact hm

theorem same_total {row : Nat} {a : nqueens} (t : Nat) : Same row a { a with total := t } :=
  ⟨rfl, rfl, rfl, rfl, fun _ _ => ⟨rfl, rfl, rfl⟩⟩

/-- The bit `j` of `avail` says that no queen attacks the column `j` of the row. -/
theorem avail_free (nq : nqueens) (row : Nat) (p : List Nat) (hm : Masks nq row p)
    (hl : p.length = row) :
    ∃ c d a, nq.column[row]? = some c ∧ nq.diagnoal[row]? = some d ∧
      nq.antidiagnoal[row]? = some a ∧
      ∀ j, j < 32 → ((bit_not (c ||| d ||| a)).testBit j = true ↔ Free p j) := by
  obtain ⟨⟨c, hc, _, hcb⟩, ⟨d, hd, _, hdb⟩, ⟨a, ha, _, hab⟩⟩ := hm
  refine ⟨c, d, a, hc, hd, ha, fun j hj => ?_⟩
  rw [testBit_bit_not, Nat.testBit_or, Nat.testBit_or]
  simp only [Bool.and_eq_true, decide_eq_true_eq, Bool.not_eq_true', Bool.or_eq_false_iff,
    hj, true_and]
  have nb : ∀ x : Nat, x.testBit j = false ↔ ¬ x.testBit j = true := by
    intro x
    cases x.testBit j <;> simp
  rw [nb, nb, nb, hcb, hdb, hab]
  constructor
  · rintro ⟨⟨h1, h2⟩, h3⟩ r c1 hr hatt
    have hrl : r < p.length := by
      by_contra hge
      rw [List.getElem?_eq_none (by omega)] at hr
      exact Option.noConfusion hr
    rcases hatt with e | e | e
    · exact h1 ⟨r, by rw [hr, e]⟩
    · exact h3 ⟨hj, r, c1, hr, by omega⟩
    · exact h2 ⟨r, by rw [hr]; congr 1; omega⟩
  · intro hf
    refine ⟨⟨?_, ?_⟩, ?_⟩
    · rintro ⟨r, hr⟩
      exact hf r j hr (Or.inl rfl)
    · rintro ⟨r, hr⟩
      have hrl : r < p.length := by
        by_contra hge
        rw [List.getElem?_eq_none (by omega)] at hr
        exact Option.noConfusion hr
      exact hf r _ hr (Or.inr (Or.inr (by omega)))
    · rintro ⟨_, r, c1, hr, e⟩
      have hrl : r < p.length := by
        by_contra hge
        rw [List.getElem?_eq_none (by omega)] at hr
        exact Option.noConfusion hr
      exact hf r c1 hr (Or.inr (Or.inl (by omega)))

theorem snoc_get_some (p : List Nat) (i r c : Nat) :
    (p ++ [i])[r]? = some c ↔ p[r]? = some c ∨ (r = p.length ∧ c = i) := by
  by_cases h : r < p.length
  · rw [List.getElem?_append_left h]
    constructor
    · exact Or.inl
    · rintro (h1 | ⟨h1, _⟩)
      · exact h1
      · omega
  · by_cases e : r = p.length
    · subst e
      simp [eq_comm]
    · rw [List.getElem?_eq_none (by simp; omega), List.getElem?_eq_none (by omega)]
      simp [e]

/-- The masks of the next row after a queen is put in the column `i`. -/
theorem place_spec (nq : nqueens) (row i : Nat) (p : List Nat) (hs : Sized nq)
    (hm : Masks nq row p) (hl : p.length = row) (hrow : row + 1 < nq.n) (hi : i < 31) :
    ∃ nq1, place nq row i = Except.ok nq1 ∧ Sized nq1 ∧ Masks nq1 (row + 1) (p ++ [i]) ∧
      Same row nq nq1 ∧ nq1.total = nq.total := by
  obtain ⟨⟨c, hc, hc32, hcb⟩, ⟨d, hd, hd32, hdb⟩, ⟨a, ha, ha32, hab⟩⟩ := hm
  obtain ⟨l1, l2, l3, ht⟩ := hs
  have hmask : to_u32 (1 <<< i) = 2 ^ i := by
    rw [to_u32, Nat.one_shiftLeft]
    exact Nat.mod_eq_of_lt (Nat.pow_lt_pow_right (by norm_num) (by omega))
  have hm32 : 2 ^ i < 2 ^ 32 := Nat.pow_lt_pow_right (by norm_num) (by omega)
  refine ⟨{ nq with column := nq.column.set (row + 1) (c ||| 2 ^ i),
                    diagnoal := nq.diagnoal.set (row + 1) ((d ||| 2 ^ i) >>> 1),
                    antidiagnoal := nq.antidiagnoal.set (row + 1)
                      (to_u32 ((a ||| 2 ^ i) <<< 1)) }, ?_, ?_, ?_, ?_, rfl⟩
  · have n31 : ¬ 31 ≤ i := by omega
    simp only [place, n31, if_false, hmask, read, hc, hd, ha, write, l1, l2, l3, hrow, if_true,
      bind, Except.bind, pure, Except.pure]
  · exact ⟨by simp [l1], by simp [l2], by simp [l3], ht⟩
  · refine ⟨⟨_, List.getElem?_set_self (by omega), Nat.or_lt_two_pow hc32 hm32, ?_⟩,
      ⟨_, List.getElem?_set_self (by omega), ?_, ?_⟩,
      ⟨_, List.getElem?_set_self (by omega), Nat.mod_lt _ (by norm_num), ?_⟩⟩
    · intro j
      rw [Nat.testBit_or, Bool.or_eq_true, hcb, Nat.testBit_two_pow]
      simp only [decide_eq_true_eq, snoc_get_some]
      constructor
      · rintro (⟨r, hr⟩ | e)
        · exact ⟨r, Or.inl hr⟩
        · exact ⟨p.length, Or.inr ⟨rfl, e.symm⟩⟩
      · rintro ⟨r, hr | ⟨_, e⟩⟩
        · exact Or.inl ⟨r, hr⟩
        · exact Or.inr e.symm
    · rw [Nat.shiftRight_eq_div_pow]
      exact lt_of_le_of_lt (Nat.div_le_self _ _) (Nat.or_lt_two_pow hd32 hm32)
    · intro j
      rw [Nat.testBit_shiftRight, Nat.testBit_or, Bool.or_eq_true, hdb, Nat.testBit_two_pow]
      simp only [decide_eq_true_eq, snoc_get_some]
      constructor
      · rintro (⟨r, hr⟩ | e)
        · have hrl : r < p.length := by
            by_contra hge
            rw [List.getElem?_eq_none (by omega)] at hr
            exact Option.noConfusion hr
          refine ⟨r, Or.inl ?_⟩
          rw [hr]
          congr 1
          omega
        · exact ⟨p.length, Or.inr ⟨rfl, by omega⟩⟩
      · rintro ⟨r, hr | ⟨e1, e2⟩⟩
        · have hrl : r < p.length := by
            by_contra hge
            rw [List.getElem?_eq_none (by omega)] at hr
            exact Option.noConfusion hr
          refine Or.inl ⟨r, ?_⟩
          rw [hr]
          congr 1
          omega
        · exact Or.inr (by omega)
    · intro j
      rw [to_u32, Nat.testBit_mod_two_pow, Nat.testBit_shiftLeft, Nat.testBit_or]
      simp only [Bool.and_eq_true, decide_eq_true_eq, Bool.or_eq_true, hab, Nat.testBit_two_pow,
        snoc_get_some]
      constructor
      · rintro ⟨h32, h1, ⟨_, r, c1, hr, e⟩ | e⟩
        · have hrl : r < p.length := by
            by_contra hge
            rw [List.getElem?_eq_none (by omega)] at hr
            exact Option.noConfusion hr
          exact ⟨h32, r, c1, Or.inl hr, by omega⟩
        · exact ⟨h32, p.length, i, Or.inr ⟨rfl, rfl⟩, by omega⟩
      · rintro ⟨h32, r, c1, hr | ⟨e1, e2⟩, e⟩
        · have hrl : r < p.length := by
            by_contra hge
            rw [List.getElem?_eq_none (by omega)] at hr
            exact Option.noConfusion hr
          exact ⟨h32, by omega, Or.inl ⟨by omega, r, c1, hr, by omega⟩⟩
        · exact ⟨h32, by omega, Or.inr (by omega)⟩
  · refine ⟨rfl, by simp, by simp, by simp, fun k hk => ⟨?_, ?_, ?_⟩⟩ <;>
      exact List.getElem?_set_ne (by omega)

theorem get_some_lt {p : List Nat} {r c : Nat} (h : p[r]? = some c) : r < p.length := by
  by_contra hge
  rw [List.getElem?_eq_none (by omega)] at h
  exact Option.noConfusion h

/-- The loop of `__nqueens_search`: it returns, and it adds to the counter the number of
solutions through each column `j` below `n` whose bit is set in `avail`. -/
theorem search_loop_spec (call : nqueens → Except Fault nqueens) (n row : Nat) (p : List Nat)
    (hl : p.length = row) (hsafe : Safe n p) (hrow : row < n) (hn : n ≤ 31)
    (hcall : row + 1 < n → ∀ i nq2, i < n → Free p i → nq2.n = n → Sized nq2 →
      Masks nq2 (row + 1) (p ++ [i]) →
      ∃ nq3, call nq2 = Except.ok nq3 ∧ Sized nq3 ∧ Same (row + 1) nq2 nq3 ∧
        nq3.total = (nq2.total + completions n (p ++ [i])) % 2 ^ 32) :
    ∀ (fuel : Nat) (nq : nqueens) (avail : Nat), nq.n = n → Sized nq → Masks nq row p →
      avail < 2 ^ 32 → (∀ j, j < n → avail.testBit j = true → Free p j) →
      ((Finset.range n).filter (fun j => avail.testBit j = true)).card < fuel →
      ∃ nq1, search_loop call row fuel nq avail = Except.ok nq1 ∧ Sized nq1 ∧
        Same row nq nq1 ∧
        nq1.total = (nq.total + ∑ j in (Finset.range n).filter
          (fun j => avail.testBit j = true), completions n (p ++ [j])) % 2 ^ 32 := by
  intro fuel
  induction fuel with
  | zero => intro nq avail _ _ _ _ _ hc; omega
  | succ fuel ih =>
    intro nq avail hnq hs hm h32 hfree hcard
    have ht : nq.total < 2 ^ 32 := hs.2.2.2
    rw [search_loop]
    by_cases h0 : avail = 0
    · rw [if_pos h0]
      refine ⟨nq, rfl, hs, same_refl _ _, ?_⟩
      subst h0
      simp only [Nat.zero_testBit, Bool.false_eq_true, Finset.filter_False, Finset.sum_empty,
        add_zero]
      exact (Nat.mod_eq_of_lt ht).symm
    rw [if_neg h0]
    obtain ⟨hi32, hbit, hlow⟩ := ctz_spec avail h0 h32
    by_cases hge : nq.n ≤ ctz avail
    · rw [if_pos hge]
      refine ⟨nq, rfl, hs, same_refl _ _, ?_⟩
      have : (Finset.range n).filter (fun j => avail.testBit j = true) = ∅ := by
        rw [Finset.filter_eq_empty_iff]
        intro j hj
        rw [Finset.mem_range] at hj
        rw [hlow j (by omega)]
        exact Bool.false_ne_true
      rw [this, Finset.sum_empty, add_zero]
      exact (Nat.mod_eq_of_lt ht).symm
    rw [if_neg hge]
    have hin : ctz avail < n := by omega
    have hfi : Free p (ctz avail) := hfree _ hin hbit
    have hmem : ctz avail ∈ (Finset.range n).filter (fun j => avail.testBit j = true) :=
      Finset.mem_filter.2 ⟨Finset.mem_range.2 hin, hbit⟩
    -- the value of `avail` for the next iteration
    have hnext : (Finset.range n).filter (fun j => (avail &&& (avail - 1)).testBit j = true)
        = ((Finset.range n).filter (fun j => avail.testBit j = true)).erase (ctz avail) := by
      ext j
      simp only [Finset.mem_filter, Finset.mem_range, Finset.mem_erase,
        clear_lowest (ctz avail) avail j hbit hlow, Bool.and_eq_true, decide_eq_true_eq]
      tauto
    have h32n : avail &&& (avail - 1) < 2 ^ 32 := lt_of_le_of_lt Nat.and_le_left h32
    have hfreen : ∀ j, j < n → (avail &&& (avail - 1)).testBit j = true → Free p j := by
      intro j hj hb
      rw [clear_lowest (ctz avail) avail j hbit hlow, Bool.and_eq_true] at hb
      exact hfree j hj hb.1
    have hcardn : ((Finset.range n).filter
        (fun j => (avail &&& (avail - 1)).testBit j = true)).card < fuel := by
      rw [hnext, Finset.card_erase_of_mem hmem]
      have := Finset.card_pos.2 ⟨_, hmem⟩
      omega
    -- the body of the loop
    have hbody : ∃ nq1, (if row = to_u32 (nq.n + (2 ^ 32 - 1))
          then Except.ok { nq with total := to_u32 (nq.total + 1) }
          else place nq row (ctz avail) >>= call) = Except.ok nq1 ∧ Sized nq1 ∧
        Same row nq nq1 ∧
        nq1.total = (nq.total + completions n (p ++ [ctz avail])) % 2 ^ 32 := by
      have hlast : to_u32 (nq.n + (2 ^ 32 - 1)) = n - 1 := by
        rw [to_u32, hnq]
        omega
      rw [hlast]
      by_cases hr : row = n - 1
      · rw [if_pos hr]
        refine ⟨_, rfl, ⟨hs.1, hs.2.1, hs.2.2.1, Nat.mod_lt _ (by norm_num)⟩,
          same_total _, ?_⟩
        rw [completions_full n _ (safe_snoc n p _ hsafe hin hfi) (by simp; omega)]
        rfl
      · rw [if_neg hr]
        have hrow1 : row + 1 < n := by omega
        obtain ⟨nq2, e2, s2, m2, f2, t2⟩ := place_spec nq row (ctz avail) p hs hm hl
          (by omega) (by omega)
        obtain ⟨nq3, e3, s3, f3, t3⟩ := hcall hrow1 (ctz avail) nq2 hin hfi
          (f2.1.trans hnq) s2 m2
        refine ⟨nq3, ?_, s3, same_trans f2 (same_mono f3 le_rfl), ?_⟩
        · simp only [e2, bind, Except.bind]
          exact e3
        · rw [t3, t2]
    obtain ⟨nq1, e1, s1, f1, t1⟩ := hbody
    rw [e1]
    obtain ⟨nq4, e4, s4, f4, t4⟩ := ih nq1 (avail &&& (avail - 1)) (f1.1.trans hnq) s1
      (masks_same f1 hm) h32n hfreen hcardn
    refine ⟨nq4, e4, s4, same_trans f1 f4, ?_⟩
    rw [t4, t1, hnext, ← Finset.add_sum_erase _ _ hmem]
    rw [Nat.add_mod, Nat.mod_mod, ← Nat.add_mod, add_assoc]

/-- The function `__nqueens_search` returns, and it adds to the counter the number of
solutions that have the queens `p` in the rows before `row`. -/
theorem search_row_spec (n : Nat) (hn : n ≤ 31) : ∀ (fuel row : Nat) (p : List Nat)
    (nq : nqueens), row < n → p.length = row → Safe n p → nq.n = n → Sized nq →
    Masks nq row p → 2 * n ≤ fuel + row →
    ∃ nq1, nqueens_search_row fuel nq row = Except.ok nq1 ∧ Sized nq1 ∧ Same row nq nq1 ∧
      nq1.total = (nq.total + completions n p) % 2 ^ 32 := by
  intro fuel
  induction fuel with
  | zero => intro row p nq hrow _ _ _ _ _ hf; omega
  | succ fuel ih =>
    intro row p nq hrow hl hsafe hnq hs hm hf
    obtain ⟨c, d, a, hc, hd, ha, hav⟩ := avail_free nq row p hm hl
    have hfree : ∀ j, j < n → (bit_not (c ||| d ||| a)).testBit j = true → Free p j :=
      fun j hj hb => (hav j (by omega)).1 hb
    have hcard : ((Finset.range n).filter
        (fun j => (bit_not (c ||| d ||| a)).testBit j = true)).card < fuel + 1 := by
      have := Finset.card_filter_le (Finset.range n)
        (fun j => (bit_not (c ||| d ||| a)).testBit j = true)
      rw [Finset.card_range] at this
      omega
    obtain ⟨nq1, e1, s1, f1, t1⟩ := search_loop_spec
      (fun nq1 => nqueens_search_row fuel nq1 (row + 1)) n row p hl hsafe hrow hn
      (fun hrow1 i nq2 hi hfi hn2 s2 m2 =>
        ih (row + 1) (p ++ [i]) nq2 hrow1 (by simp [hl]) (safe_snoc n p i hsafe hi hfi) hn2 s2
          m2 (by omega))
      (fuel + 1) nq (bit_not (c ||| d ||| a)) hnq hs hm (bit_not_lt _) hfree hcard
    refine ⟨nq1, ?_, s1, f1, ?_⟩
    · simp only [nqueens_search_row, read, hc, hd, ha, bind, Except.bind]
      exact e1
    · rw [t1, completions_split n p (by omega)]
      congr 2
      apply Finset.sum_filter_of_ne
      intro j hj hne
      rw [Finset.mem_range] at hj
      by_contra hb
      exact hne (completions_attacked n p j (by omega)
        (fun hfj => hb ((hav j (by omega)).2 hfj)))

/-! ### The counter after the search -/

/-- The function `nqueens_search` after `nqueens_init` leaves in the counter the number of
solutions, as a `uint32_t`. -/
theorem search_counts_mod (n fuel : Nat) (c d a : List Nat) (h1 : 1 ≤ n) (hn : n ≤ 31)
    (hf : 2 * n ≤ fuel) (hc : c.length = n) (hd : d.length = n) (ha : a.length = n) :
    ∃ nq nq1, nqueens_init (some c) (some d) (some a) n = Except.ok nq ∧
      nqueens_search fuel nq = Except.ok nq1 ∧ nq1.total = solution_count n % 2 ^ 32 := by
  have hz : ∀ l : List Nat, l.length = n → (l.map (fun _ => 0))[0]? = some 0 := by
    intro l hl
    rw [List.getElem?_map, List.getElem?_eq_getElem (by omega)]
    rfl
  obtain ⟨nq1, e1, _, _, t1⟩ := search_row_spec n hn fuel 0 []
    { n := n, total := 0, column := c.map (fun _ => 0), diagnoal := d.map (fun _ => 0),
      antidiagnoal := a.map (fun _ => 0) } (by omega) rfl (safe_nil n) rfl
    ⟨by simp [hc], by simp [hd], by simp [ha], by norm_num⟩
    ⟨⟨0, hz c hc, by norm_num, fun j => by simp⟩, ⟨0, hz d hd, by norm_num, fun j => by simp⟩,
      ⟨0, hz a ha, by norm_num, fun j => by simp⟩⟩ (by omega)
  refine ⟨_, nq1, rfl, e1, ?_⟩
  rw [t1, completions_nil]
  simp

/-- The counter that `main` prints is the number of solutions, as a `uint32_t`. -/
theorem total_of_mod (n fuel : Nat) (h1 : 1 ≤ n) (hn : n ≤ 31) (hf : 2 * n ≤ fuel) :
    total_of fuel n = Except.ok (solution_count n % 2 ^ 32) := by
  obtain ⟨nq, nq1, e1, e2, t⟩ := search_counts_mod n fuel (List.replicate n 0)
    (List.replicate n 0) (List.replicate n 0) h1 hn hf (by simp) (by simp) (by simp)
  simp only [total_of, e1, e2, bind, Except.bind, pure, Except.pure, t]

/-- On a board of at most 12 rows the counter is the number of solutions: there are at most
`12!` of them, which fits the counter. -/
theorem search_counts_small (n fuel : Nat) (c d a : List Nat) (h1 : 1 ≤ n) (hn : n ≤ 12)
    (hf : 2 * n ≤ fuel) (hc : c.length = n) (hd : d.length = n) (ha : a.length = n) :
    ∃ nq nq1, nqueens_init (some c) (some d) (some a) n = Except.ok nq ∧
      nqueens_search fuel nq = Except.ok nq1 ∧ nq1.total = solution_count n := by
  obtain ⟨nq, nq1, e1, e2, t⟩ := search_counts_mod n fuel c d a h1 (by omega) hf hc hd ha
  refine ⟨nq, nq1, e1, e2, ?_⟩
  rw [t]
  apply Nat.mod_eq_of_lt
  calc solution_count n ≤ n.factorial := solution_count_le n
    _ ≤ (12 : Nat).factorial := Nat.factorial_le hn
    _ < 2 ^ 32 := by decide

/-- The counter never reaches `2 ^ 32`: it is the number of solutions exactly when that
number fits a `uint32_t`. -/
theorem search_counts_iff (n fuel : Nat) (c d a : List Nat) (h1 : 1 ≤ n) (hn : n ≤ 31)
    (hf : 2 * n ≤ fuel) (hc : c.length = n) (hd : d.length = n) (ha : a.length = n) :
    ∃ nq nq1, nqueens_init (some c) (some d) (some a) n = Except.ok nq ∧
      nqueens_search fuel nq = Except.ok nq1 ∧
      (nq1.total = solution_count n ↔ solution_count n < 2 ^ 32) := by
  obtain ⟨nq, nq1, e1, e2, t⟩ := search_counts_mod n fuel c d a h1 hn hf hc hd ha
  refine ⟨nq, nq1, e1, e2, ?_⟩
  rw [t]
  constructor
  · intro h
    rw [← h]
    exact Nat.mod_lt _ (by norm_num)
  · exact Nat.mod_eq_of_lt

theorem free_from_iff (row j : Nat) : ∀ (p : List Nat) (r : Nat),
    free_from row j r p = true ↔ ∀ i c, p[i]? = some c → ¬ attacks (r + i) c row j := by
  intro p
  induction p with
  | nil =>
    intro r
    simp [free_from]
  | cons a as ih =>
    intro r
    rw [free_from, Bool.and_eq_true, ih (r + 1)]
    constructor
    · rintro ⟨h1, h2⟩ i c hi
      cases i with
      | zero =>
        simp only [List.getElem?_cons_zero, Option.some.injEq] at hi
        subst hi
        simpa [attacks, and_assoc] using h1
      | succ i =>
        simp only [List.getElem?_cons_succ] at hi
        have := h2 i c hi
        rwa [show r + 1 + i = r + (i + 1) by omega] at this
    · intro h
      refine ⟨?_, fun i c hi => ?_⟩
      · have := h 0 a (by simp)
        simpa [attacks, and_assoc] using this
      · have := h (i + 1) c (by simpa using hi)
        rwa [show r + (i + 1) = r + 1 + i by omega] at this

theorem free_from_free (p : List Nat) (j : Nat) :
    free_from p.length j 0 p = true ↔ Free p j := by
  rw [free_from_iff]
  unfold Free
  constructor
  · intro h r c hr
    have := h r c hr
    rwa [Nat.zero_add] at this
  · intro h i c hi
    rw [Nat.zero_add]
    exact h i c hi

theorem sum_range_list (n : Nat) (f : Nat → Nat) :
    ∑ j in Finset.range n, f j = ((List.range n).map f).sum := by
  induction n with
  | zero => rfl
  | succ n ih =>
    rw [Finset.sum_range_succ, ih, List.range_succ, List.map_append, List.sum_append]
    simp

/-- The count by trial is the number of solutions that extend the queens `p`. -/
theorem count_ext_eq (n : Nat) : ∀ (m : Nat) (p : List Nat), Safe n p → p.length + m = n →
    completions n p = count_ext n m p := by
  intro m
  induction m with
  | zero =>
    intro p hs hl
    rw [count_ext, completions_full n p hs (by omega)]
  | succ m ih =>
    intro p hs hl
    rw [count_ext, completions_split n p (by omega), sum_range_list]
    congr 1
    apply List.map_congr_left
    intro j hj
    rw [List.mem_range] at hj
    by_cases hf : free_from p.length j 0 p = true
    · rw [if_pos hf]
      exact ih (p ++ [j]) (safe_snoc n p j hs hj ((free_from_free p j).1 hf))
        (by simp; omega)
    · rw [if_neg hf]
      exact completions_attacked n p j (by omega) (fun h => hf ((free_from_free p j).2 h))

/-- The solutions on the board of size 8 with the first queen in the column 0. -/
theorem count_ext_zero : count_ext 8 7 [0] = 4 := by
  decide!

/-- The solutions on the board of size 8 with the first queen in the column 1. -/
theorem count_ext_one : count_ext 8 7 [1] = 8 := by
  decide!

/-- The solutions on the board of size 8 with the first queen in the column 2. -/
theorem count_ext_two : count_ext 8 7 [2] = 16 := by
  decide!

/-- The solutions on the board of size 8 with the first queen in the column 3. -/
theorem count_ext_three : count_ext 8 7 [3] = 18 := by
  decide!

/-- The solutions on the board of size 8 with the first queen in the column 4. -/
theorem count_ext_four : count_ext 8 7 [4] = 18 := by
  decide!

/-- The solutions on the board of size 8 with the first queen in the column 5. -/
theorem count_ext_five : count_ext 8 7 [5] = 16 := by
  decide!

/-- The solutions on the board of size 8 with the first queen in the column 6. -/
theorem count_ext_six : count_ext 8 7 [6] = 8 := by
  decide!

/-- The solutions on the board of size 8 with the first queen in the column 7. -/
theorem count_ext_seven : count_ext 8 7 [7] = 4 := by
  decide!

/-- There are 92 ways to place 8 queens. -/
theorem solution_count_eight : solution_count 8 = 92 := by
  rw [← completions_nil, count_ext_eq 8 8 [] (safe_nil 8) rfl, count_ext]
  simp only [List.range_succ, List.range_zero, List.nil_append, List.map_append, List.map_cons,
    List.map_nil, List.length_nil, free_from, if_true, List.sum_append, List.sum_cons,
    List.sum_nil, count_ext_zero, count_ext_one, count_ext_two, count_ext_three,
    count_ext_four, count_ext_five, count_ext_six, count_ext_seven]
  rfl

/-- The run of `main`: the counter is 92 after the search on the board of size 8. -/
theorem total_of_eight : total_of 16 8 = Except.ok 92 := by
  rw [total_of_mod 8 16 (by norm_num) (by norm_num) (by norm_num), solution_count_eight]
  rfl

end Nqueen -- theorems
